import Mathlib

/-!
# CRAM encoder (io_lib `cram_encode.c`): record processing, mate linkage, name elimination

A shallow embedding of the record-processing half of `cram_encode.c`.
C structures become Lean structures, pointer-mutated state is passed
explicitly, and functions that can return `-1` return `Option`.

Conventions of the embedding:

* Positions, template lengths and statistic values are unbounded `Int`;
  byte and flag fields are `Nat`.  Integer widths are not modelled, so every
  statement below is about inputs whose positions and lengths fit the C types.
* Memory allocation never fails, so the `return -1` paths that only guard
  `realloc`/`HashTableAdd` failures do not appear.
* A byte read just past the converted read sequence yields `0` (the C code
  tests `seq[spos]` as an end-of-sequence marker).
-/

namespace CramEncode

/-! ## Constants of the BAM and CRAM headers -/

/-- Modelled from the spec: BAM flag bit "read is paired" (declared in `bam.h`, which is not among the sources). -/
def BAM_FPAIRED : Nat := 1
/-- Modelled from the spec: BAM flag bit "read is unmapped" (`bam.h`). -/
def BAM_FUNMAP : Nat := 4
/-- Modelled from the spec: BAM flag bit "mate is unmapped" (`bam.h`). -/
def BAM_FMUNMAP : Nat := 8
/-- Modelled from the spec: BAM flag bit "read is on the reverse strand" (`bam.h`). -/
def BAM_FREVERSE : Nat := 16
/-- Modelled from the spec: BAM flag bit "mate is on the reverse strand" (`bam.h`). -/
def BAM_FMREVERSE : Nat := 32
/-- Modelled from the spec: BAM flag bit "first read of the template" (`bam.h`). -/
def BAM_FREAD1 : Nat := 64
/-- Modelled from the spec: BAM flag bit "secondary alignment" (`bam.h`). -/
def BAM_FSECONDARY : Nat := 256
/-- Modelled from the spec: BAM flag bit "supplementary alignment" (`bam.h`). -/
def BAM_FSUPPLEMENTARY : Nat := 2048

/-- Modelled from the spec: CIGAR word layout of `bam.h`, the operation is the low 4 bits. -/
def BAM_CIGAR_MASK : Nat := 15
/-- Modelled from the spec: CIGAR word layout of `bam.h`, the length is the word shifted right by 4. -/
def BAM_CIGAR_SHIFT : Nat := 4
/-- Modelled from the spec: CIGAR operation `M` (`enum cigar_op` of `bam.h`). -/
def BAM_CMATCH : Nat := 0
/-- Modelled from the spec: CIGAR operation `I`. -/
def BAM_CINS : Nat := 1
/-- Modelled from the spec: CIGAR operation `D`. -/
def BAM_CDEL : Nat := 2
/-- Modelled from the spec: CIGAR operation `N`. -/
def BAM_CREF_SKIP : Nat := 3
/-- Modelled from the spec: CIGAR operation `S`. -/
def BAM_CSOFT_CLIP : Nat := 4
/-- Modelled from the spec: CIGAR operation `H`. -/
def BAM_CHARD_CLIP : Nat := 5
/-- Modelled from the spec: CIGAR operation `P`. -/
def BAM_CPAD : Nat := 6
/-- Modelled from the spec: CIGAR operation `=`. -/
def BAM_CBASE_MATCH : Nat := 7
/-- Modelled from the spec: CIGAR operation `X`. -/
def BAM_CBASE_MISMATCH : Nat := 8

/-- Modelled from the spec: CF bit PRESERVE_QUAL of `cram_structs.h` (not among the sources). -/
def CRAM_FLAG_PRESERVE_QUAL_SCORES : Nat := 1
/-- Modelled from the spec: CF bit DETACHED of `cram_structs.h`. -/
def CRAM_FLAG_DETACHED : Nat := 2
/-- Modelled from the spec: CF bit MATE_DOWNSTREAM of `cram_structs.h`. -/
def CRAM_FLAG_MATE_DOWNSTREAM : Nat := 4
/-- Modelled from the spec: CF bit NO_SEQ of `cram_structs.h`. -/
def CRAM_FLAG_NO_SEQ : Nat := 8
/-- Modelled from the spec: mask of the four CF bits that are written to the file. -/
def CRAM_FLAG_MASK : Nat := 15
/-- Modelled from the spec: internal CF bit STATS_ADDED (bit 30), never written to the file. -/
def CRAM_FLAG_STATS_ADDED : Nat := 1073741824
/-- Modelled from the spec: internal CF bit DISCARD_NAME (bit 31), never written to the file. -/
def CRAM_FLAG_DISCARD_NAME : Nat := 2147483648
/-- Modelled from the spec: MF bit "mate is on the reverse strand" of `cram_structs.h`. -/
def CRAM_M_REVERSE : Nat := 1
/-- Modelled from the spec: MF bit "mate is unmapped" of `cram_structs.h`. -/
def CRAM_M_UNMAP : Nat := 2
/-- Modelled from the spec: the C constant `INT_MAX` for a 32-bit `int`. -/
def INT_MAX : Int := 2147483647

/-- The C macro `CRAM_MAJOR_VERS(v)`, the high byte of the version word. -/
def CRAM_MAJOR_VERS (v : Nat) : Nat := v / 256

/-- The C statement `x &= ~m` on a 32-bit flag word. -/
def clear_flag (x m : Nat) : Nat := x &&& (4294967295 ^^^ m)

/-- The C test `(x & m) != 0`. -/
def has_flag (x m : Nat) : Bool := (x &&& m) != 0

/-- Modelled from the spec: the data-series identifiers (`enum cram_DS_ID` of
`cram_structs.h`) that `cram_encode.c` names. -/
inductive cram_DS_ID where
  | DS_BF | DS_CF | DS_RI | DS_RL | DS_AP | DS_RG | DS_MF | DS_NS | DS_NP
  | DS_TS | DS_NF | DS_TL | DS_FN | DS_FC | DS_FP | DS_BS | DS_DL | DS_RS
  | DS_PD | DS_HC | DS_BA | DS_QS | DS_MQ | DS_RN | DS_BB | DS_SC | DS_IN
  deriving DecidableEq, Repr

open cram_DS_ID

/-! ## Data model -/

/-- One BAM record as `process_one_read` reads it through the `bam_*` accessors. -/
structure bam_seq_t where
  /-- Accessor `bam_flag`. -/
  flag : Nat
  /-- Accessor `bam_ref`. -/
  ref : Int
  /-- Accessor `bam_pos`, 0-based. -/
  pos : Int
  /-- Accessor `bam_map_qual`. -/
  map_qual : Int
  /-- Accessor `bam_mate_ref`. -/
  mate_ref : Int
  /-- Accessor `bam_mate_pos`, 0-based. -/
  mate_pos : Int
  /-- Accessor `bam_ins_size`, the input TLEN. -/
  ins_size : Int
  /-- Accessor `bam_name` with `bam_name_len` bytes. -/
  name : List Nat
  /-- Accessor `bam_seq_len`. -/
  len : Nat
  /-- Accessor `bam_seq`, two 4-bit base codes per byte. -/
  seq : List Nat
  /-- Accessor `bam_qual`. -/
  qual : List Nat
  /-- Accessor `bam_cigar`, one 32-bit word per operation. -/
  cigar : List Nat
  /-- Accessor `bam_aux`, the raw tag bytes. -/
  aux : List Nat
  /-- What `bam_aux_find(b, "TC")` followed by `bam_aux_i` yields, `none` when the tag is absent. -/
  aux_TC : Option Int
  /-- Whether `bam_aux_find(b, "SA")` finds a tag. -/
  aux_SA : Bool
  deriving DecidableEq, Repr

/-- The C union `cram_feature`, flattened: `code` and `pos` are shared by all
variants, the other fields are the payloads and are `0` where a variant has none. -/
structure cram_feature where
  code : Nat
  pos : Int
  len : Int
  base : Nat
  /-- The C `int` fields `B.qual` and `Q.qual`, assigned from a `char`. -/
  qual : Int
  seq_idx : Nat
  deriving DecidableEq, Repr

/-- The C structure `cram_record`. -/
structure cram_record where
  flags : Nat
  cram_flags : Nat
  len : Nat
  apos : Int
  aend : Int
  ref_id : Int
  rg : Int
  mqual : Int
  mate_line : Int
  mate_ref_id : Int
  mate_pos : Int
  tlen : Int
  mate_flags : Nat
  ntags : Nat
  TL : Int
  feature : Nat
  nfeature : Nat
  cigar : Nat
  ncigar : Nat
  seq : Nat
  qual : Nat
  name : Nat
  name_len : Nat
  deriving DecidableEq, Repr

/-- A record with every field zero. -/
def cram_record.zero : cram_record :=
  ⟨0, 0, 0, 0, 0, 0, 0, 0, 0, 0, 0, 0, 0, 0, 0, 0, 0, 0, 0, 0, 0, 0, 0⟩

/-- Modelled from the spec: the hash-table library is a collaborator outside the
sources; a table is an association list from key bytes to a data word, keys are unique. -/
abbrev HashTable (β : Type) := List (List Nat × β)

/-- Modelled from the spec: `HashTableSearch`, the data stored under a key. -/
def HashTableSearch {β : Type} (t : HashTable β) (key : List Nat) : Option β :=
  List.lookup key t

/-- Modelled from the spec: `HashTableAdd` on a table without duplicate keys,
an existing item is returned untouched with `new = 0`, otherwise the item is
inserted and `new = 1`. The result is the table and the flag `new`. -/
def HashTableAdd {β : Type} (t : HashTable β) (key : List Nat) (d : β) :
    HashTable β × Bool :=
  match HashTableSearch t key with
  | some _ => (t, false)
  | none => (t ++ [(key, d)], true)

/-- The C assignment `hi->data = d` through the item pointer of `key`. -/
def HashTableSet {β : Type} (t : HashTable β) (key : List Nat) (d : β) :
    HashTable β :=
  t.map (fun kv => if kv.1 = key then (kv.1, d) else kv)

/-- Modelled from the spec: per data series, the statistics accumulator counts
value frequencies (`cram_stats.c` is not among the sources). -/
abbrev cram_stats := cram_DS_ID → Int → Int

/-- Modelled from the spec: `cram_stats_add(c->stats[ds], v)` counts one more `v`. -/
def cram_stats_add (st : cram_stats) (ds : cram_DS_ID) (v : Int) : cram_stats :=
  fun d x => if d = ds ∧ x = v then st d x + 1 else st d x

/-- Modelled from the spec: `cram_stats_del(c->stats[ds], v)` counts one `v` less. -/
def cram_stats_del (st : cram_stats) (ds : cram_DS_ID) (v : Int) : cram_stats :=
  fun d x => if d = ds ∧ x = v then st d x - 1 else st d x

/-- The codec descriptor `cram_encode_aux` builds for a tag key: the arguments
it hands to `cram_encoder_init`. -/
inductive aux_codec where
  /-- Codec `E_BYTE_ARRAY_STOP` with stop byte and content id. -/
  | byte_array_stop (stop key : Nat)
  /-- Codec `E_BYTE_ARRAY_LEN` whose length codec is a Huffman code of the single
  value `len` and whose value codec is external with the given content id. -/
  | byte_array_len (len key : Nat)
  /-- Codec `E_BYTE_ARRAY_LEN` with both length and value external. -/
  | byte_array_len_external (key : Nat)
  deriving DecidableEq, Repr

/-- An external block as `cram_new_block(EXTERNAL, content_id)` makes it, with its bytes. -/
structure cram_block where
  content_id : Nat
  data : List Nat
  deriving DecidableEq, Repr

/-- The C structure `cram_tag_map`: the codec of a tag key (`none` for the C
`NULL`) and the block of the current slice, if already created. -/
structure cram_tag_map where
  codec : Option aux_codec
  blk : Option cram_block
  deriving DecidableEq, Repr

/-- The parts of `cram_fd` the record processor reads: options and lookup tables. -/
structure cram_fd where
  version : Nat
  no_ref : Bool
  lossy_read_names : Bool
  ignore_chksum : Bool
  /-- Whether `fd->binning == BINNING_ILLUMINA`. -/
  binning_illumina : Bool
  preserve_aux_order : Bool
  preserve_aux_size : Bool
  /-- Table `fd->L2`, indexed by a base byte. -/
  L2 : Nat → Nat
  /-- Table `fd->cram_sub_matrix[ref & 0x1f][base & 0x1f]`. -/
  cram_sub_matrix : Nat → Nat → Nat
  /-- Table `fd->cram_flag_swap`. -/
  cram_flag_swap : Nat → Nat
  /-- Table `illumina_bin` of `binning.h`. -/
  illumina_bin : Nat → Nat
  /-- Library call `sam_hdr_find_rg(fd->header, rg)` followed by `->id`. -/
  find_rg : List Nat → Option Int
  /-- Library call `crc32(0L, buf, len)` of zlib. -/
  crc32 : List Nat → Nat
  /-- Reference cache `fd->refs->ref_id[id]->seq`, filled by `cram_get_ref`. -/
  refs : Int → Option (List Nat)
  /-- Library call `codec->encode(s, codec, in, in_size)` of `cram_codecs.c`: the
  bytes the codec appends to its output block. -/
  codec_encode : aux_codec → List Nat → List Nat

/-- The fields of `cram_container` that `cram_encode_aux` reads and writes. -/
structure aux_state where
  /-- Block `c->comp_hdr->TD_blk`. -/
  TD_blk : List Nat
  /-- Hash `c->comp_hdr->TD` from a TD entry to its TL index. -/
  TD : HashTable Int
  /-- Counter `c->comp_hdr->nTL`. -/
  nTL : Int
  /-- Hash `c->tags_used` from the 3-byte tag id to its tag map. -/
  tags_used : HashTable cram_tag_map

/-- The mutable fields of `cram_container` used while records are processed. -/
structure cram_container where
  stats : cram_stats
  pos_sorted : Bool
  max_apos : Int
  num_bases : Int
  first_base : Int
  last_base : Int
  /-- Reference bases `c->ref`, index 0 is reference position 1. -/
  ref : List Nat
  ref_end : Int
  ref_id : Int
  ref_seq_id : Int
  multi_seq : Bool
  /-- The tag dictionary and the tag maps, written by `cram_encode_aux`. -/
  aux : aux_state

/-- The mutable fields of `cram_slice` used while records are processed. -/
structure cram_slice where
  crecs : Nat → cram_record
  num_records : Nat
  ref_seq_id : Int
  features : List cram_feature
  last_apos : Int
  seqs_blk : List Nat
  qual_blk : List Nat
  base_blk : List Nat
  soft_blk : List Nat
  name_blk : List Nat
  cigar : List Nat
  ncigar : Nat
  /-- Tables `s->pair[0]` (key `false`) and `s->pair[1]` (key `true`). -/
  pair : Bool → HashTable Nat
  BD_crc : Nat
  SD_crc : Nat

/-- The state `process_one_read` works on: container, slice, the record `cr`
being filled, and the two CIGAR cursors `apos` (0-based reference position) and
`spos` (0-based read offset). -/
structure enc where
  c : cram_container
  s : cram_slice
  cr : cram_record
  apos : Int
  spos : Nat

/-- Modelled from the spec: the macro `IS_CRAM_3_VERS(fd)` of `cram_structs.h`,
the format gate for the `b` feature (format 3 or later). -/
def IS_CRAM_3_VERS (fd : cram_fd) : Bool := decide (3 ≤ CRAM_MAJOR_VERS fd.version)

/-- The C expression `seq[i]` on the converted read; `0` past its end. -/
def byte_at (xs : List Nat) (i : Nat) : Nat := xs.getD i 0

/-- The bytes `base[0 .. len)` for `base = &seq[spos]`. -/
def bytes_from (xs : List Nat) (spos len : Nat) : List Nat :=
  (List.range len).map (fun i => byte_at xs (spos + i))

/-- The C expression `ref[i]` for a 0-based reference offset. -/
def ref_at (r : List Nat) (i : Int) : Nat :=
  if i < 0 then 0 else r.getD i.toNat 0

/-- Add one value to a series of the container statistics. -/
def enc.stats_add (e : enc) (ds : cram_DS_ID) (v : Int) : enc :=
  { e with c := { e.c with stats := cram_stats_add e.c.stats ds v } }

/-- A feature with only code and position set. -/
def cram_feature.mk0 (code : Nat) (pos : Int) : cram_feature :=
  ⟨code, pos, 0, 0, 0, 0⟩

/-- C function `cram_add_feature`: the first feature of a record fixes
`r->feature` and adds its position to DS_FP, later ones add the distance to the
previous feature of the pool; the code goes to DS_FC and the feature is appended. -/
def cram_add_feature (e : enc) (f : cram_feature) : enc :=
  let prev := e.s.features.getD (e.cr.feature + (e.cr.nfeature + 1) - 2) (cram_feature.mk0 0 0)
  let e1 : enc :=
    if e.cr.nfeature = 0 then
      { e with cr := { e.cr with nfeature := 1, feature := e.s.features.length } }.stats_add
        DS_FP f.pos
    else
      { e with cr := { e.cr with nfeature := e.cr.nfeature + 1 } }.stats_add
        DS_FP (f.pos - prev.pos)
  let e2 := e1.stats_add DS_FC f.code
  { e2 with s := { e2.s with features := e2.s.features ++ [f] } }

/-- The quality byte after the optional Illumina binning,
`qual = illumina_bin[(uc)qual]`. -/
def bin_qual (fd : cram_fd) (qual : Nat) : Nat :=
  if fd.binning_illumina then fd.illumina_bin qual else qual

/-- The value of a C `char` that holds the byte `b`, as the conversion to `int`
yields it. The type `char` is signed on the platform the library is built for
(x86-64), so the bytes above 127 are negative: the byte 255 is the value -1. -/
def char_val (b : Nat) : Int :=
  if b % 256 < 128 then ((b % 256 : Nat) : Int) else ((b % 256 : Nat) : Int) - 256

/-- C function `cram_add_substitution`; `qual` is the byte of the parameter
`char qual`. The `B` arm stores the `char` in the `int` field `f.B.qual` and
counts that value in DS_QS, and appends the byte to the quality block. -/
def cram_add_substitution (fd : cram_fd) (e : enc) (pos : Nat) (base qual ref : Nat) : enc :=
  if fd.L2 base < 4 ∨ (fd.L2 base < 5 ∧ fd.L2 ref < 4) then
    let f : cram_feature :=
      { code := 'X'.toNat, pos := ((pos + 1 : Nat) : Int), len := 0,
        base := fd.cram_sub_matrix (ref &&& 31) (base &&& 31), qual := 0, seq_idx := 0 }
    cram_add_feature (e.stats_add DS_BS f.base) f
  else
    let q := bin_qual fd qual
    let f : cram_feature :=
      { code := 'B'.toNat, pos := ((pos + 1 : Nat) : Int), len := 0,
        base := base, qual := char_val q, seq_idx := 0 }
    let e1 := (e.stats_add DS_BA f.base).stats_add DS_QS f.qual
    cram_add_feature { e1 with s := { e1.s with qual_blk := e1.s.qual_blk ++ [q] } } f

/-- C function `cram_add_bases`; `base` points `spos` bytes into the read, which
starts at offset `cr->seq` of the sequence block. -/
def cram_add_bases (e : enc) (pos len : Nat) : enc :=
  cram_add_feature e
    { code := 'b'.toNat, pos := ((pos + 1 : Nat) : Int), len := (len : Int),
      base := 0, qual := 0, seq_idx := e.cr.seq + pos }

/-- C function `cram_add_base`; `qual` is the byte of the parameter `char qual`.
The `char` goes to the `int` field `f.B.qual` and to DS_QS as a signed value,
and its byte is appended to the quality block. -/
def cram_add_base (fd : cram_fd) (e : enc) (pos : Nat) (base qual : Nat) : enc :=
  let q := bin_qual fd qual
  let e1 := (e.stats_add DS_BA base).stats_add DS_QS (char_val q)
  cram_add_feature { e1 with s := { e1.s with qual_blk := e1.s.qual_blk ++ [q] } }
    { code := 'B'.toNat, pos := ((pos + 1 : Nat) : Int), len := 0,
      base := base, qual := char_val q, seq_idx := 0 }

/-- C function `cram_add_quality`; `qual` is the byte of the parameter
`char qual`. The `char` goes to the `int` field `f.Q.qual` and to DS_QS as a
signed value, and its byte is appended to the quality block. -/
def cram_add_quality (fd : cram_fd) (e : enc) (pos : Nat) (qual : Nat) : enc :=
  let q := bin_qual fd qual
  let e1 := e.stats_add DS_QS (char_val q)
  cram_add_feature { e1 with s := { e1.s with qual_blk := e1.s.qual_blk ++ [q] } }
    { code := 'Q'.toNat, pos := ((pos + 1 : Nat) : Int), len := 0,
      base := 0, qual := char_val q, seq_idx := 0 }

/-- C function `cram_add_deletion`. -/
def cram_add_deletion (e : enc) (pos len : Nat) : enc :=
  cram_add_feature (e.stats_add DS_DL len)
    { code := 'D'.toNat, pos := ((pos + 1 : Nat) : Int), len := (len : Int),
      base := 0, qual := 0, seq_idx := 0 }

/-- C function `cram_add_softclip`; `base` is `none` for the C `NULL`. Format 1
copies `len` bytes from `base` into the base block without a test for `NULL`:
`none` is the copy of one or more bytes from the `NULL` pointer, which does not
return. Later formats copy into the soft-clip block, with `N` bytes when there
is no sequence. -/
def cram_add_softclip (e : enc) (pos len : Nat) (base : Option (List Nat))
    (version : Nat) : Option enc :=
  if CRAM_MAJOR_VERS version = 1 then
    if base = none ∧ len ≠ 0 then none
    else
      some (cram_add_feature
        { e with s := { e.s with base_blk := e.s.base_blk ++ (base.getD []) ++ [0] } }
        { code := 'S'.toNat, pos := ((pos + 1 : Nat) : Int), len := (len : Int),
          base := 0, qual := 0, seq_idx := e.s.base_blk.length })
  else
    some (cram_add_feature
      { e with s := { e.s with soft_blk :=
          e.s.soft_blk ++ (base.getD (List.replicate len 'N'.toNat)) ++ [0] } }
      { code := 'S'.toNat, pos := ((pos + 1 : Nat) : Int), len := (len : Int),
        base := 0, qual := 0, seq_idx := e.s.soft_blk.length })

/-- C function `cram_add_hardclip`. -/
def cram_add_hardclip (e : enc) (pos len : Nat) : enc :=
  cram_add_feature (e.stats_add DS_HC len)
    { code := 'H'.toNat, pos := ((pos + 1 : Nat) : Int), len := (len : Int),
      base := 0, qual := 0, seq_idx := 0 }

/-- C function `cram_add_skip`. -/
def cram_add_skip (e : enc) (pos len : Nat) : enc :=
  cram_add_feature (e.stats_add DS_RS len)
    { code := 'N'.toNat, pos := ((pos + 1 : Nat) : Int), len := (len : Int),
      base := 0, qual := 0, seq_idx := 0 }

/-- C function `cram_add_pad`. -/
def cram_add_pad (e : enc) (pos len : Nat) : enc :=
  cram_add_feature (e.stats_add DS_PD len)
    { code := 'P'.toNat, pos := ((pos + 1 : Nat) : Int), len := (len : Int),
      base := 0, qual := 0, seq_idx := 0 }

/-- C function `cram_add_insertion`; `base` is `none` for the C `NULL`. A single
base becomes an `i` feature counted in DS_BA, longer insertions an `I` feature
whose bases go to the base block. -/
def cram_add_insertion (e : enc) (pos len : Nat) (base : Option (List Nat)) : enc :=
  if len = 1 then
    let b : Nat := match base with
      | some bs => byte_at bs 0
      | none => 'N'.toNat
    cram_add_feature (e.stats_add DS_BA b)
      { code := 'i'.toNat, pos := ((pos + 1 : Nat) : Int), len := 0,
        base := b, qual := 0, seq_idx := 0 }
  else
    cram_add_feature
      { e with s := { e.s with base_blk :=
          e.s.base_blk ++ (base.getD (List.replicate len 'N'.toNat)) ++ [0] } }
      { code := 'I'.toNat, pos := ((pos + 1 : Nat) : Int), len := (len : Int),
        base := 0, qual := 0, seq_idx := e.s.base_blk.length }

/-! ## The CIGAR walk of `process_one_read` -/

/-- The comparison loop of an `M`, `=` or `X` operation
(`for (l = 0; l < end; l++)`): `n` iterations are left, `l` is the loop
counter, `spos` and `apos` are the cursors at the start of the operation. A
mismatch is recorded by `cram_add_substitution`; a NUL read byte leaves the
loop. The result is the final `l` and the state. -/
def match_loop (fd : cram_fd) (seq qual : List Nat) (spos : Nat) (apos : Int) :
    Nat → Nat → enc → Nat × enc
  | 0, l, e => (l, e)
  | n + 1, l, e =>
    let sp := byte_at seq (spos + l)
    let rp := ref_at e.c.ref (apos + (l : Int))
    if rp ≠ sp then
      if sp = 0 then (l, e)
      else match_loop fd seq qual spos apos n (l + 1)
        (cram_add_substitution fd e (spos + l) sp (byte_at qual (spos + l)) rp)
    else match_loop fd seq qual spos apos n (l + 1) e

/-- The loop `for (; l < cig_len && seq[spos]; l++, spos++) cram_add_base(...)`
with `n = cig_len - l` iterations left. -/
def base_loop (fd : cram_fd) (seq qual : List Nat) : Nat → enc → enc
  | 0, e => e
  | n + 1, e =>
    if byte_at seq e.spos = 0 then e
    else base_loop fd seq qual n
      { cram_add_base fd e e.spos (byte_at seq e.spos) (byte_at qual e.spos) with
        spos := e.spos + 1 }

/-- The loop `for (l = 0; l < cig_len; l++, spos++) cram_add_quality(...)`; `q`
gives the quality passed for a read offset. -/
def qual_loop (fd : cram_fd) (q : Nat → Nat) : Nat → enc → enc
  | 0, e => e
  | n + 1, e =>
    qual_loop fd q n { cram_add_quality fd e e.spos (q e.spos) with spos := e.spos + 1 }

/-- The local `end` of the `M`/`=`/`X` arm: the operation length, cut at the end
of the reference. -/
def cigar_match_end (cig_len : Nat) (e : enc) : Int :=
  if (cig_len : Int) + e.apos < e.c.ref_end then (cig_len : Int)
  else e.c.ref_end - e.apos

/-- First half of the `M`/`=`/`X` arm, the block `if (!fd->no_ref && cr->len)`:
compare read and reference over `end` bases and advance both cursors by the
final `l`. The result is `l` and the state; `none` is the `return -1` for an
operation longer than the read. -/
def cigar_match_first (fd : cram_fd) (seq qual : List Nat) (cig_len : Nat) (e : enc) :
    Option (Nat × enc) :=
  if fd.no_ref = false ∧ e.cr.len ≠ 0 then
    if cigar_match_end cig_len e > (e.cr.len : Int) then none
    else
      let r := match_loop fd seq qual e.spos e.apos (cigar_match_end cig_len e).toNat 0 e
      some (r.1, { r.2 with spos := e.spos + r.1, apos := e.apos + (r.1 : Int) })
  else some (0, e)

/-- The bases of an `M`/`=`/`X` operation that were not compared with the
reference, `n = cig_len - l` of them: one `b` feature in no-reference mode on
format 3 or later, otherwise one `B` feature per base. -/
def cigar_match_bases (fd : cram_fd) (seq qual : List Nat) (n : Nat) (e : enc) : enc :=
  if fd.no_ref then
    if IS_CRAM_3_VERS fd then { cram_add_bases e e.spos n with spos := e.spos + n }
    else base_loop fd seq qual n e
  else base_loop fd seq qual n e

/-- Second half of the `M`/`=`/`X` arm, after the comparison stopped at `l`. -/
def cigar_match_rest (fd : cram_fd) (seq qual : List Nat) (cig_len l : Nat) (e : enc) : enc :=
  if l < cig_len ∧ e.cr.len ≠ 0 then
    let e2 := cigar_match_bases fd seq qual (cig_len - l) e
    { e2 with apos := e2.apos + (cig_len : Int) }
  else if e.cr.len = 0 then
    { e with apos := e.apos + (cig_len : Int), spos := e.spos + cig_len }
  else e

/-- The `case BAM_CMATCH / BAM_CBASE_MATCH / BAM_CBASE_MISMATCH` arm. `none` is
the `return -1` for an operation longer than the read. -/
def cigar_match (fd : cram_fd) (seq qual : List Nat) (cig_len : Nat) (e : enc) :
    Option enc :=
  match cigar_match_first fd seq qual cig_len e with
  | none => none
  | some r => some (cigar_match_rest fd seq qual cig_len r.1 r.2)

/-- The C argument `cr->len ? &seq[spos] : NULL` with the `cig_len` bytes it points to. -/
def seq_ptr (seq : List Nat) (cig_len : Nat) (e : enc) : Option (List Nat) :=
  if e.cr.len ≠ 0 then some (bytes_from seq e.spos cig_len) else none

/-- The `case BAM_CDEL` arm. -/
def cigar_del (cig_len : Nat) (e : enc) : enc :=
  let e1 := cram_add_deletion e e.spos cig_len
  { e1 with apos := e1.apos + (cig_len : Int) }

/-- The `case BAM_CREF_SKIP` arm. -/
def cigar_skip (cig_len : Nat) (e : enc) : enc :=
  let e1 := cram_add_skip e e.spos cig_len
  { e1 with apos := e1.apos + (cig_len : Int) }

/-- The `case BAM_CINS` arm. -/
def cigar_ins (fd : cram_fd) (seq qual : List Nat) (cig_len : Nat) (e : enc) : enc :=
  let e1 := cram_add_insertion e e.spos cig_len (seq_ptr seq cig_len e)
  if fd.no_ref ∧ e1.cr.len ≠ 0 then qual_loop fd (byte_at qual) cig_len e1
  else { e1 with spos := e1.spos + cig_len }

/-- The `case BAM_CSOFT_CLIP` arm. A read without bases gets the quality -1,
the `char` whose byte is 255, for every clipped position. `none` is a call of
`cram_add_softclip` that does not return. -/
def cigar_softclip (fd : cram_fd) (seq qual : List Nat) (cig_len : Nat) (e : enc) :
    Option enc :=
  match cram_add_softclip e e.spos cig_len (seq_ptr seq cig_len e) fd.version with
  | none => none
  | some e1 =>
    some
      (if fd.no_ref ∧ has_flag e1.cr.cram_flags CRAM_FLAG_PRESERVE_QUAL_SCORES = false then
        if e1.cr.len ≠ 0 then qual_loop fd (byte_at qual) cig_len e1
        else qual_loop fd (fun _ => 255) cig_len e1
      else { e1 with spos := e1.spos + cig_len })

/-- One iteration of the CIGAR loop of `process_one_read` for the CIGAR word `w`;
`none` is a `return -1`. -/
def cigar_step (fd : cram_fd) (seq qual : List Nat) (w : Nat) (e : enc) : Option enc :=
  let cig_op := w &&& BAM_CIGAR_MASK
  let cig_len := w >>> BAM_CIGAR_SHIFT
  if cig_op = BAM_CMATCH ∨ cig_op = BAM_CBASE_MATCH ∨ cig_op = BAM_CBASE_MISMATCH then
    cigar_match fd seq qual cig_len e
  else if cig_op = BAM_CDEL then some (cigar_del cig_len e)
  else if cig_op = BAM_CREF_SKIP then some (cigar_skip cig_len e)
  else if cig_op = BAM_CINS then some (cigar_ins fd seq qual cig_len e)
  else if cig_op = BAM_CSOFT_CLIP then cigar_softclip fd seq qual cig_len e
  else if cig_op = BAM_CHARD_CLIP then some (cram_add_hardclip e e.spos cig_len)
  else if cig_op = BAM_CPAD then some (cram_add_pad e e.spos cig_len)
  else none

/-- The loop `for (i = 0; i < cr->ncigar; i++)` over the CIGAR words. -/
def cigar_walk (fd : cram_fd) (seq qual : List Nat) : List Nat → enc → Option enc
  | [], e => some e
  | w :: ws, e =>
    match cigar_step fd seq qual w e with
    | none => none
    | some e1 => cigar_walk fd seq qual ws e1

/-! ## Auxiliary tags: `cram_encode_aux` -/

/-- The index just after the first NUL at or after `i`: the C idiom `while (*aux++);`. -/
def skip_nul (a : List Nat) : Nat → Nat → Nat
  | 0, i => i + 1
  | n + 1, i => if byte_at a i = 0 then i + 1 else skip_nul a n (i + 1)

/-- The bytes from `i` up to, not including, the first NUL. -/
def c_string (a : List Nat) (i : Nat) : List Nat :=
  ((a.drop i).takeWhile (fun x => x != 0))

/-- The block "Restrict to appropriate integer size" of `cram_encode_aux` for the
tag starting at `i`: the stored type byte `aux_f[2]` and `aux_len`. -/
def aux_shrink (fd : cram_fd) (a : List Nat) (i : Nat) : Nat × Nat :=
  let t := byte_at a (i + 2)
  let a3 := byte_at a (i + 3)
  let a4 := byte_at a (i + 4)
  let a5 := byte_at a (i + 5)
  let a6 := byte_at a (i + 6)
  if fd.preserve_aux_size then
    if t = 'I'.toNat ∨ t = 'i'.toNat ∨ t = 'f'.toNat then (t, 4)
    else if t = 'S'.toNat ∨ t = 's'.toNat then (t, 2)
    else (t, 0)
  else if t = 'I'.toNat then
    if (a4 ||| a5 ||| a6) = 0 then ('C'.toNat, 1)
    else if (a5 ||| a6) = 0 then ('S'.toNat, 2)
    else (t, 4)
  else if t = 'i'.toNat then
    if (a4 ||| a5 ||| a6) = 0 then ('C'.toNat, 1)
    else if (a4 &&& a5 &&& a6) = 255 ∧ (a3 &&& 128) ≠ 0 then ('c'.toNat, 1)
    else if (a5 ||| a6) = 0 then ('S'.toNat, 2)
    else if (a5 &&& a6) = 255 ∧ (a4 &&& 128) ≠ 0 then ('s'.toNat, 2)
    else (t, 4)
  else if t = 'S'.toNat then
    if a4 = 0 then ('C'.toNat, 1) else (t, 2)
  else if t = 's'.toNat then
    if a4 = 0 then ('C'.toNat, 1)
    else if a4 = 255 ∧ (a3 &&& 128) ≠ 0 then ('c'.toNat, 1)
    else (t, 2)
  else if t = 'f'.toNat then (t, 4)
  else (t, 0)

/-- The codec `cram_encode_aux` creates for a tag key seen for the first time,
chosen by the stored type byte; `none` is the `default:` arm (`c = NULL`). -/
def aux_new_codec (ty key : Nat) : Option aux_codec :=
  if ty = 'Z'.toNat ∨ ty = 'H'.toNat then some (aux_codec.byte_array_stop 9 key)
  else if ty = 'A'.toNat ∨ ty = 'c'.toNat ∨ ty = 'C'.toNat then
    some (aux_codec.byte_array_len 1 key)
  else if ty = 's'.toNat ∨ ty = 'S'.toNat then some (aux_codec.byte_array_len 2 key)
  else if ty = 'i'.toNat ∨ ty = 'I'.toNat ∨ ty = 'f'.toNat then
    some (aux_codec.byte_array_len 4 key)
  else if ty = 'B'.toNat then some (aux_codec.byte_array_len_external key)
  else none

/-- Outcome of `cram_encode_aux` and of its loop body. -/
inductive aux_ret (α : Type) where
  /-- Normal progress. -/
  | ok (a : α)
  /-- The function executed `return NULL`; the container keeps what was written so far. -/
  | fail (st : aux_state)
  /-- The function dereferenced the `NULL` codec of an unsupported type. -/
  | crash

/-- Append bytes to the block of the tag map stored under `key3`. -/
def tag_blk_append (st : aux_state) (key3 : List Nat) (tm : cram_tag_map)
    (blk : cram_block) (bytes : List Nat) : aux_state :=
  let blk1 : cram_block := { blk with data := blk.data ++ bytes }
  let tm1 : cram_tag_map := { tm with blk := some blk1 }
  { st with tags_used := HashTableSet st.tags_used key3 tm1 }

/-- One pass of the `while` loop of `cram_encode_aux` for the tag at offset `i`,
once the RG/MD/NM omissions have been ruled out: emit the TD triple, find or
create the tag map, append the value to the tag block. The result is the offset
of the next tag. -/
def aux_store_tag (fd : cram_fd) (a : List Nat) (i : Nat) (st : aux_state) :
    aux_ret (Nat × aux_state) :=
  let sh := aux_shrink fd a i
  let aux_f : List Nat := [byte_at a i, byte_at a (i + 1), sh.1]
  let aux_len := sh.2
  let c1 : aux_state := { st with TD_blk := st.TD_blk ++ aux_f }
  let key := (byte_at a i <<< 16) ||| (byte_at a (i + 1) <<< 8) ||| sh.1
  let tm : cram_tag_map :=
    match HashTableSearch c1.tags_used aux_f with
    | some m => m
    | none => { codec := aux_new_codec sh.1 key, blk := none }
  let c2 : aux_state :=
    { c1 with tags_used := HashTableSet (HashTableAdd c1.tags_used aux_f tm).1 aux_f tm }
  let t := byte_at a (i + 2)
  let blk : cram_block := tm.blk.getD { content_id := key, data := [] }
  if t = 'A'.toNat ∨ t = 'C'.toNat ∨ t = 'c'.toNat then
    if tm.blk.isNone ∧ tm.codec.isNone then aux_ret.crash
    else aux_ret.ok (i + 4, tag_blk_append c2 aux_f tm blk [byte_at a (i + 3)])
  else if t = 'S'.toNat ∨ t = 's'.toNat then
    if tm.blk.isNone ∧ tm.codec.isNone then aux_ret.crash
    else aux_ret.ok (i + 5, tag_blk_append c2 aux_f tm blk (bytes_from a (i + 3) aux_len))
  else if t = 'I'.toNat ∨ t = 'i'.toNat ∨ t = 'f'.toNat then
    if tm.blk.isNone ∧ tm.codec.isNone then aux_ret.crash
    else aux_ret.ok (i + 7, tag_blk_append c2 aux_f tm blk (bytes_from a (i + 3) aux_len))
  else if t = 'd'.toNat then
    if tm.blk.isNone ∧ tm.codec.isNone then aux_ret.crash
    else aux_ret.ok (i + 11, tag_blk_append c2 aux_f tm blk (bytes_from a (i + 3) 8))
  else if t = 'Z'.toNat ∨ t = 'H'.toNat then
    match tm.codec with
    | none => aux_ret.crash
    | some codec =>
      let next := skip_nul a (a.length - (i + 3)) (i + 3)
      aux_ret.ok (next, tag_blk_append c2 aux_f tm blk
        (fd.codec_encode codec (bytes_from a (i + 3) (next - (i + 3)))))
  else if t = 'B'.toNat then
    let ty := byte_at a (i + 3)
    let count := byte_at a (i + 4) + (byte_at a (i + 5) <<< 8)
      + (byte_at a (i + 6) <<< 16) + (byte_at a (i + 7) <<< 24)
    match tm.codec with
    | none => aux_ret.crash
    | some codec =>
      let blen0 : Option Nat :=
        if ty = 'c'.toNat ∨ ty = 'C'.toNat then some count
        else if ty = 's'.toNat ∨ ty = 'S'.toNat then some (2 * count)
        else if ty = 'i'.toNat ∨ ty = 'I'.toNat ∨ ty = 'f'.toNat then some (4 * count)
        else none
      match blen0 with
      | none => aux_ret.fail (tag_blk_append c2 aux_f tm blk [])
      | some b0 =>
        aux_ret.ok (i + 3 + (b0 + 5), tag_blk_append c2 aux_f tm blk
          (fd.codec_encode codec (bytes_from a (i + 3) (b0 + 5))))
  else aux_ret.fail c2

/-- The `while (aux - orig < aux_size && aux[0] != 0)` loop of `cram_encode_aux`
with `n` passes of fuel; `len` and `flags` are `cr->len` and `cr->flags`. The
result is the captured `RG:Z` value and the tag state. -/
def aux_loop (fd : cram_fd) (a : List Nat) (len flags : Nat) :
    Nat → Nat → Option (List Nat) → aux_state →
    aux_ret (Option (List Nat) × aux_state)
  | 0, _, rg, c => aux_ret.ok (rg, c)
  | n + 1, i, rg, c =>
    if ¬ (i < a.length ∧ byte_at a i ≠ 0) then aux_ret.ok (rg, c)
    else
      let omit_tag := fd.preserve_aux_order = false
      let regen := len ≠ 0 ∧ fd.no_ref = false ∧ has_flag flags BAM_FUNMAP = false
      let t := byte_at a (i + 2)
      if omit_tag ∧ byte_at a i = 'R'.toNat ∧ byte_at a (i + 1) = 'G'.toNat ∧ t = 'Z'.toNat then
        aux_loop fd a len flags n (skip_nul a (a.length - i) i) (some (c_string a (i + 3))) c
      else if omit_tag ∧ byte_at a i = 'M'.toNat ∧ byte_at a (i + 1) = 'D'.toNat ∧ t = 'Z'.toNat
          ∧ regen then
        aux_loop fd a len flags n (skip_nul a (a.length - i) i) rg c
      else if omit_tag ∧ byte_at a i = 'N'.toNat ∧ byte_at a (i + 1) = 'M'.toNat ∧ regen then
        if t = 'A'.toNat ∨ t = 'C'.toNat ∨ t = 'c'.toNat then
          aux_loop fd a len flags n (i + 4) rg c
        else if t = 'S'.toNat ∨ t = 's'.toNat then aux_loop fd a len flags n (i + 5) rg c
        else if t = 'I'.toNat ∨ t = 'i'.toNat ∨ t = 'f'.toNat then
          aux_loop fd a len flags n (i + 7) rg c
        else aux_ret.fail c
      else
        match aux_store_tag fd a i c with
        | aux_ret.ok (next, c1) => aux_loop fd a len flags n next rg c1
        | aux_ret.fail c1 => aux_ret.fail c1
        | aux_ret.crash => aux_ret.crash

/-- C function `cram_encode_aux`, on the fields it uses: the tag bytes of `b`,
`cr->len`, `cr->flags` and the tag state of the container. Every pass of the
loop consumes at least one byte, so `length + 1` passes of fuel never run out.
After the loop the TD entry of the record is closed with a NUL, looked up in the
TD hash (and dropped from the TD block again when already known), and its index
is the new `cr->TL`. The result is the `RG:Z` value, `cr->TL` and the tag state;
`fail` is `return NULL`. -/
def cram_encode_aux (fd : cram_fd) (b : bam_seq_t) (len flags : Nat) (st : aux_state) :
    aux_ret (Option (List Nat) × Int × aux_state) :=
  let TD_blk_size := st.TD_blk.length
  match aux_loop fd b.aux len flags (b.aux.length + 1) 0 none st with
  | aux_ret.crash => aux_ret.crash
  | aux_ret.fail c1 => aux_ret.fail c1
  | aux_ret.ok (rg, c1) =>
    let td := c1.TD_blk ++ [0]
    let entry := td.drop TD_blk_size
    let r := HashTableAdd c1.TD entry c1.nTL
    let c2 : aux_state :=
      if r.2 then { c1 with TD_blk := td, TD := r.1, nTL := c1.nTL + 1 }
      else { c1 with TD_blk := td.take TD_blk_size, TD := r.1 }
    let TL : Int := (HashTableSearch r.1 entry).getD 0
    aux_ret.ok (rg, TL, c2)

/-! ## `process_one_read` -/

/-- Modelled from the spec: the table `bam_nt16_rev_table` of `bam.c`, the base
letter of each 4-bit code, `=ACMGRSVTWYHKDBN`. -/
def bam_nt16_rev_table (i : Nat) : Nat :=
  (['=', 'A', 'C', 'M', 'G', 'R', 'S', 'V', 'T', 'W', 'Y', 'H', 'K', 'D', 'B', 'N'].getD i 'N').toNat

/-- The loop "Convert seq 2 bases at a time" for `n` packed bytes. -/
def unpack_pairs : Nat → List Nat → List Nat
  | 0, _ => []
  | n + 1, src =>
    let byte := src.headD 0 % 256
    bam_nt16_rev_table (byte >>> 4) :: bam_nt16_rev_table (byte &&& 15)
      :: unpack_pairs n src.tail

/-- The converted read: `l2 / 2` whole bytes, then the high nibble of the next
byte when the length is odd. -/
def unpack_seq (src : List Nat) (len : Nat) : List Nat :=
  unpack_pairs (len / 2) src ++
    (if len % 2 = 1 then [bam_nt16_rev_table ((byte_at src (len / 2) % 256) >>> 4)] else [])

/-- Count one value in a series of the container. -/
def cram_container.add (c : cram_container) (ds : cram_DS_ID) (v : Int) : cram_container :=
  { c with stats := cram_stats_add c.stats ds v }

/-- Take one value out of a series of the container. -/
def cram_container.del (c : cram_container) (ds : cram_DS_ID) (v : Int) : cram_container :=
  { c with stats := cram_stats_del c.stats ds v }

/-- Apply `f` to record `i` of the slice, the C update through `&s->crecs[i]`. -/
def cram_slice.upd (s : cram_slice) (i : Nat) (f : cram_record → cram_record) : cram_slice :=
  { s with crecs := Function.update s.crecs i (f (s.crecs i)) }

/-- The first statements of `process_one_read`: flags, length, `ntags` and the
call of `cram_encode_aux`, which stores `cr->TL` and counts it in DS_TL. The
result is the `rg` pointer and the state; a `NULL` from a failed
`cram_encode_aux` is taken as "no read group", as the C code does. `none` is the
crash of `cram_encode_aux`. -/
def por_aux (fd : cram_fd) (c : cram_container) (s : cram_slice) (b : bam_seq_t)
    (rnum : Nat) : Option (Option (List Nat) × enc) :=
  let cr0 : cram_record := { s.crecs rnum with flags := b.flag, len := b.len, ntags := 0 }
  match cram_encode_aux fd b cr0.len cr0.flags c.aux with
  | aux_ret.crash => none
  | aux_ret.fail a1 =>
    some (none, { c := { c with aux := a1 }, s := s, cr := cr0, apos := 0, spos := 0 })
  | aux_ret.ok (rg, TL, a1) =>
    some (rg, ({ c := { c with aux := a1 }, s := s, cr := { cr0 with TL := TL },
                 apos := 0, spos := 0 } : enc).stats_add DS_TL TL)

/-- The statements of `process_one_read` from the read group to the sequence
conversion: read group, reference id, BF, CF bits, position, sortedness,
`max_apos` and the unpacked read, which is also the second component. -/
def por_head_rest (fd : cram_fd) (b : bam_seq_t) (rg : Option (List Nat)) (e1 : enc) :
    enc × List Nat :=
  let rgi : Int :=
    match rg with
    | some r => (fd.find_rg r).getD (-1)
    | none => -1
  let e2 := ({ e1 with cr := { e1.cr with rg := rgi } }).stats_add DS_RG rgi
  let e3 := ({ e2 with cr := { e2.cr with ref_id := b.ref } }).stats_add DS_RI b.ref
  let e4 := e3.stats_add DS_BF (fd.cram_flag_swap (e3.cr.flags &&& 4095))
  let cf1 : Nat :=
    if fd.no_ref = false ∨ 3 ≤ CRAM_MAJOR_VERS fd.version then
      e4.cr.cram_flags ||| CRAM_FLAG_PRESERVE_QUAL_SCORES
    else e4.cr.cram_flags
  let cf2 : Nat :=
    if e4.cr.len = 0 ∧ 3 ≤ CRAM_MAJOR_VERS fd.version then cf1 ||| CRAM_FLAG_NO_SEQ else cf1
  let apos : Int := b.pos + 1
  let e5 : enc :=
    { e4 with cr := { e4.cr with cram_flags := cf2, apos := apos },
              c := { e4.c with num_bases := e4.c.num_bases + (e4.cr.len : Int) } }
  let e6 : enc :=
    if e5.c.pos_sorted then
      if apos < e5.s.last_apos then { e5 with c := { e5.c with pos_sorted := false } }
      else
        let e5a := e5.stats_add DS_AP (apos - e5.s.last_apos)
        { e5a with s := { e5a.s with last_apos := apos } }
    else e5
  let e7 : enc :=
    { e6 with c := { e6.c with max_apos :=
        if apos > e6.c.max_apos then e6.c.max_apos + (apos - e6.c.max_apos)
        else e6.c.max_apos } }
  let seq := unpack_seq b.seq e7.cr.len
  let bd : Nat :=
    if 3 ≤ CRAM_MAJOR_VERS fd.version ∧ fd.ignore_chksum = false then
      (e7.s.BD_crc + fd.crc32 seq) % 4294967296
    else e7.s.BD_crc
  let seq_off : Nat := e7.s.seqs_blk.length
  let qual_off : Nat := e7.s.qual_blk.length
  let e8 : enc :=
    { e7 with cr := { e7.cr with seq := seq_off, qual := qual_off },
              s := { e7.s with seqs_blk := e7.s.seqs_blk ++ seq, BD_crc := bd } }
  (e8, seq)

/-- First part of `process_one_read`, up to the sequence conversion. `none` is
the crash of `cram_encode_aux`. -/
def por_head (fd : cram_fd) (c : cram_container) (s : cram_slice) (b : bam_seq_t)
    (rnum : Nat) : Option (enc × List Nat) :=
  match por_aux fd c s b rnum with
  | none => none
  | some (rg, e1) => some (por_head_rest fd b rg e1)

/-- The loop `for (i = 0; i < cr->len; i++) cram_stats_add(c->stats[DS_BA], seq[i])`
of an unmapped read. -/
def add_BA_stats : List Nat → enc → enc
  | [], e => e
  | x :: xs, e => add_BA_stats xs (e.stats_add DS_BA (x : Int))

/-- The "Copy and parse" part of `process_one_read`: the CIGAR walk of a mapped
read, or the unmapped arm. The result carries `fake_qual`. `none` is a `return -1`. -/
def por_cigar (fd : cram_fd) (b : bam_seq_t) (seq : List Nat) (e : enc) :
    Option (enc × Nat) :=
  if has_flag e.cr.flags BAM_FUNMAP = false then
    let e1 : enc :=
      { e with cr := { e.cr with cigar := e.s.ncigar, ncigar := b.cigar.length,
                                 feature := 0, nfeature := 0 },
               apos := e.cr.apos - 1, spos := 0 }
    match cigar_walk fd seq b.qual b.cigar e1 with
    | none => none
    | some e2 =>
      if e2.cr.len ≠ 0 ∧ e2.spos ≠ e2.cr.len then none
      else
        let aend : Int := if fd.no_ref then e2.apos else min e2.apos e2.c.ref_end
        let e3 : enc :=
          { e2 with cr := { e2.cr with aend := aend },
                    s := { e2.s with cigar := b.cigar ++ e2.s.cigar.drop b.cigar.length } }
        some (e3.stats_add DS_FN (e3.cr.nfeature : Int), e2.spos)
  else
    let e1 : enc :=
      { e with cr := { e.cr with
          cram_flags := e.cr.cram_flags ||| CRAM_FLAG_PRESERVE_QUAL_SCORES,
          cigar := 0, ncigar := 0, nfeature := 0, aend := e.cr.apos } }
    some (add_BA_stats (seq.take e1.cr.len) e1, 0)

/-- The "Append to the qual block" part of `process_one_read`, ending with the
DS_RL statistic. -/
def por_qual (fd : cram_fd) (b : bam_seq_t) (fake_qual : Nat) (e : enc) : enc :=
  let e1 : enc :=
    if has_flag e.cr.cram_flags CRAM_FLAG_PRESERVE_QUAL_SCORES then
      if e.cr.len = 0 then
        { e with cr := { e.cr with len := fake_qual },
                 s := { e.s with qual_blk := e.s.qual_blk ++ List.replicate fake_qual 255 } }
      else
        let src := bytes_from b.qual 0 e.cr.len
        let dst : List Nat :=
          if fd.binning_illumina then src.map (fun q => fd.illumina_bin q) else src
        let sd : Nat :=
          if 3 ≤ CRAM_MAJOR_VERS fd.version ∧ fd.ignore_chksum = false then
            (e.s.SD_crc + fd.crc32 dst) % 4294967296
          else e.s.SD_crc
        let stored : List Nat :=
          if 4 ≤ CRAM_MAJOR_VERS fd.version ∧ has_flag e.cr.flags BAM_FREVERSE then dst.reverse
          else dst
        { e with s := { e.s with qual_blk := e.s.qual_blk ++ stored, SD_crc := sd } }
    else if e.cr.len = 0 then { e with cr := { e.cr with len := fake_qual } }
    else e
  e1.stats_add DS_RL (e1.cr.len : Int)

/-! ## Mate linkage -/

/-- The local `sign` of the mate block: `+1` when this record starts first, `-1`
when the earlier one does, and the FREAD1 bit on equal positions. -/
def mate_sign (cr p : cram_record) : Int :=
  if cr.apos < p.apos then 1
  else if cr.apos > p.apos then -1
  else if has_flag cr.flags BAM_FREAD1 then 1
  else -1

/-- The local expression `aright - aleft + 1` of the mate block. -/
def mate_span (cr p : cram_record) : Int :=
  max cr.aend p.aend - min cr.apos p.apos + 1

/-- Whether none of the `goto detached` tests of `process_one_read` fires for the
record `cr`, its BAM record `b` and the earlier same-name record `p`. The tests
appear in source order. -/
def mate_linkable (fd : cram_fd) (b : bam_seq_t) (cr p : cram_record) : Bool :=
  decide (b.ins_size = mate_sign cr p * mate_span cr p)
  && decide (max (b.mate_pos + 1) 0 = p.apos)
  && (has_flag b.flag BAM_FMUNMAP == has_flag p.flags BAM_FUNMAP)
  && (has_flag b.flag BAM_FMREVERSE == has_flag p.flags BAM_FREVERSE)
  && decide (p.ref_id = cr.ref_id)
  && decide (p.tlen = -(mate_sign cr p) * mate_span cr p)
  && decide (p.mate_pos = cr.apos)
  && (has_flag p.flags BAM_FMUNMAP == has_flag p.mate_flags CRAM_M_UNMAP)
  && (has_flag p.flags BAM_FMREVERSE == has_flag p.mate_flags CRAM_M_REVERSE)
  && !(has_flag cr.flags BAM_FSUPPLEMENTARY || has_flag p.flags BAM_FSUPPLEMENTARY)
  && !(fd.lossy_read_names
        && (!(has_flag cr.cram_flags CRAM_FLAG_DISCARD_NAME)
            || !(has_flag p.cram_flags CRAM_FLAG_DISCARD_NAME)))

/-- The C expression `((flags & bit) == bit) * value`. -/
def flag_times (flags bit value : Nat) : Nat :=
  if flags &&& bit = bit then value else 0

/-- The arm of `process_one_read` that links record `rnum` to the earlier record
`j` found in the pair table under `key`: both lose DETACHED, the earlier record
gets MATE_DOWNSTREAM and `mate_line`, its detached statistics are taken back,
and the table entry moves to `rnum`. Records are updated in place in program order. -/
def mate_link (c : cram_container) (s : cram_slice) (sec : Bool) (key : List Nat)
    (rnum j : Nat) : cram_container × cram_slice :=
  let sign := mate_sign (s.crecs rnum) (s.crecs j)
  let span := mate_span (s.crecs rnum) (s.crecs j)
  let p0 := s.crecs j
  let s1 := s.upd rnum (fun cr => { cr with
    mate_pos := p0.apos, tlen := sign * span,
    mate_flags := flag_times p0.flags BAM_FMUNMAP CRAM_M_UNMAP
      + flag_times p0.flags BAM_FMREVERSE CRAM_M_REVERSE })
  let p1 := s1.crecs j
  let c1 : cram_container :=
    if has_flag p1.cram_flags CRAM_FLAG_STATS_ADDED then
      (((c.del DS_NP p1.mate_pos).del DS_MF (p1.mate_flags : Int)).del DS_TS p1.tlen).del
        DS_NS p1.mate_ref_id
    else c
  let s2 := s1.upd rnum (fun cr => { cr with
    cram_flags := clear_flag cr.cram_flags CRAM_FLAG_DETACHED })
  let c2 := c1.add DS_CF (((s2.crecs rnum).cram_flags &&& CRAM_FLAG_MASK : Nat) : Int)
  let p2 := s2.crecs j
  let c3 : cram_container :=
    if has_flag p2.cram_flags CRAM_FLAG_STATS_ADDED then
      c2.del DS_CF ((p2.cram_flags &&& CRAM_FLAG_MASK : Nat) : Int)
    else c2
  let s3 : cram_slice :=
    if has_flag p2.cram_flags CRAM_FLAG_STATS_ADDED then
      s2.upd j (fun p => { p with cram_flags := clear_flag p.cram_flags CRAM_FLAG_STATS_ADDED })
    else s2
  let s4 := s3.upd j (fun p => { p with
    cram_flags := clear_flag p.cram_flags CRAM_FLAG_DETACHED ||| CRAM_FLAG_MATE_DOWNSTREAM })
  let c4 := c3.add DS_CF (((s4.crecs j).cram_flags &&& CRAM_FLAG_MASK : Nat) : Int)
  let s5 := s4.upd j (fun p => { p with mate_line := (rnum : Int) - ((j : Int) + 1) })
  let c5 := c4.add DS_NF (s5.crecs j).mate_line
  (c5, { s5 with pair := Function.update s5.pair sec (HashTableSet (s5.pair sec) key rnum) })

/-- The `detached:` arm of `process_one_read`: the mate fields are taken from the
BAM record and counted, the record becomes DETACHED and STATS_ADDED. -/
def mate_detached (c : cram_container) (s : cram_slice) (b : bam_seq_t) (rnum : Nat) :
    cram_container × cram_slice :=
  let mf : Nat :=
    (if has_flag b.flag BAM_FMUNMAP then CRAM_M_UNMAP else 0)
    ||| (if has_flag b.flag BAM_FMREVERSE then CRAM_M_REVERSE else 0)
  let c1 := c.add DS_MF (mf : Int)
  let mp : Int := max (b.mate_pos + 1) 0
  let c2 := c1.add DS_NP mp
  let c3 := c2.add DS_TS b.ins_size
  let cf : Nat := (s.crecs rnum).cram_flags ||| CRAM_FLAG_DETACHED
  let c4 := c3.add DS_CF ((cf &&& CRAM_FLAG_MASK : Nat) : Int)
  let c5 := c4.add DS_NS b.mate_ref
  (c5, s.upd rnum (fun cr => { cr with
    mate_flags := mf, mate_pos := mp, tlen := b.ins_size,
    cram_flags := cf ||| CRAM_FLAG_STATS_ADDED }))

/-- The block "Now we know apos and aend both, update mate-pair information" of
`process_one_read`, on the slice that already holds record `rnum`. -/
def por_mate (fd : cram_fd) (c : cram_container) (s : cram_slice) (b : bam_seq_t)
    (rnum : Nat) : cram_container × cram_slice :=
  if has_flag (s.crecs rnum).flags BAM_FPAIRED then
    let sec : Bool := has_flag (s.crecs rnum).flags BAM_FSECONDARY
    let r := HashTableAdd (s.pair sec) b.name rnum
    let s1 : cram_slice := { s with pair := Function.update s.pair sec r.1 }
    if r.2 then mate_detached c s1 b rnum
    else
      let j : Nat := (HashTableSearch r.1 b.name).getD 0
      if mate_linkable fd b (s1.crecs rnum) (s1.crecs j) then mate_link c s1 sec b.name rnum j
      else mate_detached c s1 b rnum
  else mate_detached c s b rnum

/-- The last statements of `process_one_read`: mapping quality, mate reference
and the base range of the container. -/
def por_tail (c : cram_container) (s : cram_slice) (b : bam_seq_t) (rnum : Nat) :
    cram_container × cram_slice :=
  let c1 := c.add DS_MQ b.map_qual
  let s1 := s.upd rnum (fun cr => { cr with mqual := b.map_qual, mate_ref_id := b.mate_ref })
  let cr := s1.crecs rnum
  let c2 : cram_container :=
    if has_flag b.flag BAM_FUNMAP = false then
      let c1a : cram_container :=
        if c1.first_base > cr.apos then { c1 with first_base := cr.apos } else c1
      if c1a.last_base < cr.aend then { c1a with last_base := cr.aend } else c1a
    else c1
  (c2, s1)

/-- The part of `process_one_read` before the mate block: head, CIGAR walk and
quality append, with the record stored at `s->crecs[rnum]`. `none` is the
return value `-1` (or the crash inside `cram_encode_aux`). -/
def por_pre (fd : cram_fd) (c : cram_container) (s : cram_slice)
    (b : bam_seq_t) (rnum : Nat) : Option (cram_container × cram_slice) :=
  match por_head fd c s b rnum with
  | none => none
  | some (e, seq) =>
    match por_cigar fd b seq e with
    | none => none
    | some (e1, fake_qual) =>
      let e2 := por_qual fd b fake_qual e1
      some (e2.c, { e2.s with crecs := Function.update e2.s.crecs rnum e2.cr })

/-- C function `process_one_read(fd, c, s, &s->crecs[rnum], b, rnum)`; `none` is
the return value `-1` (or the crash inside `cram_encode_aux`). -/
def process_one_read (fd : cram_fd) (c : cram_container) (s : cram_slice)
    (b : bam_seq_t) (rnum : Nat) : Option (cram_container × cram_slice) :=
  match por_pre fd c s b rnum with
  | none => none
  | some (c1, s1) =>
    let r := por_mate fd c1 s1 b rnum
    some (por_tail r.1 r.2 b rnum)

/-! ## Read names: `expected_template_count`, `lossy_read_names`, `add_read_names` -/

/-- C function `expected_template_count`. -/
def expected_template_count (b : bam_seq_t) : Int :=
  let expected : Int := if has_flag b.flag BAM_FPAIRED then 2 else 1
  let expected1 : Int :=
    match b.aux_TC with
    | some n => if expected < n then n else expected
    | none => expected
  if b.aux_TC.isNone ∧ b.aux_SA then INT_MAX else expected1

/-- The union `u` of `lossy_read_names`, two 32-bit halves of the 64-bit hash
datum: expected count `e` and observed count `c`. The datum `0` is `⟨0, 0⟩` and
the datum `-1` is `⟨-1, -1⟩`. -/
structure name_count where
  e : Int
  c : Int
  deriving DecidableEq, Repr

/-- Pass 1 of `lossy_read_names` ("Iterate through names to count frequency"). -/
def count_names : List bam_seq_t → HashTable name_count → HashTable name_count
  | [], names => names
  | b :: bs, names =>
    let e := expected_template_count b
    let r := HashTableAdd names b.name ⟨e, 1⟩
    if r.2 then count_names bs r.1
    else
      let u : name_count := (HashTableSearch r.1 b.name).getD ⟨0, 0⟩
      if u.e ≠ e then count_names bs (HashTableSet r.1 b.name ⟨0, 0⟩)
      else if u.e = u.c + 1 then count_names bs (HashTableSet r.1 b.name ⟨-1, -1⟩)
      else count_names bs (HashTableSet r.1 b.name ⟨u.e, u.c + 1⟩)

/-- Pass 2 of `lossy_read_names` ("Remove names if all present") from record `r2` on. -/
def mark_names (names : HashTable name_count) : List bam_seq_t → Nat → cram_slice → cram_slice
  | [], _, s => s
  | b :: bs, r2, s =>
    let cf : Nat :=
      if HashTableSearch names b.name = some ⟨-1, -1⟩ then CRAM_FLAG_DISCARD_NAME else 0
    mark_names names bs (r2 + 1) (s.upd r2 (fun cr => { cr with cram_flags := cf }))

/-- The loop "Initialise cram_flags" of `lossy_read_names` from record `r2` on,
`n` records left. -/
def clear_cram_flags : Nat → Nat → cram_slice → cram_slice
  | 0, _, s => s
  | n + 1, r2, s =>
    clear_cram_flags n (r2 + 1) (s.upd r2 (fun cr => { cr with cram_flags := 0 }))

/-- C function `lossy_read_names`; `bams` are the BAM records
`c->bams[bam_start .. bam_start + num_records)` of the slice. -/
def lossy_read_names (fd : cram_fd) (s : cram_slice) (bams : List bam_seq_t) : cram_slice :=
  if fd.lossy_read_names = false then clear_cram_flags bams.length 0 s
  else mark_names (count_names bams []) bams 0 s

/-- The body of the loop of `add_read_names` for record `r2`: the name offset is
the current size of the name block; a DETACHED record, and every record when
names are kept, gets its name appended and `name_len` set; the others get
`name_len = 0`. -/
def add_read_name (fd : cram_fd) (b : bam_seq_t) (r2 : Nat) (s : cram_slice) : cram_slice :=
  let keep_names : Bool := !fd.lossy_read_names
  let off := s.name_blk.length
  if has_flag (s.crecs r2).cram_flags CRAM_FLAG_DETACHED || keep_names then
    { s.upd r2 (fun cr => { cr with name := off, name_len := b.name.length }) with
      name_blk := s.name_blk ++ b.name }
  else s.upd r2 (fun cr => { cr with name := off, name_len := 0 })

/-- C function `add_read_names` from record `r2` on. -/
def add_read_names (fd : cram_fd) :
    List bam_seq_t → Nat → cram_container → cram_slice → cram_container × cram_slice
  | [], _, c, s => (c, s)
  | b :: bs, r2, c, s =>
    let s1 := add_read_name fd b r2 s
    add_read_names fd bs (r2 + 1) (c.add DS_RN ((s1.crecs r2).name_len : Int)) s1

/-! ## The record loop of `cram_encode_container` -/

/-- The block "If multi-ref we need to cope with changing reference per seq" of
`cram_encode_container`; `none` is the `return -1` for a reference that cannot be loaded. -/
def switch_ref (fd : cram_fd) (c : cram_container) (b : bam_seq_t) : Option cram_container :=
  if c.multi_seq ∧ fd.no_ref = false ∧ b.ref ≠ c.ref_seq_id ∧ b.ref ≥ 0 then
    match fd.refs b.ref with
    | none => none
    | some r => some { c with ref_seq_id := b.ref, ref := r, ref_end := (r.length : Int) }
  else some c

/-- The loop of `cram_encode_container` that runs `process_one_read` over the
records of one slice, from record `r2` on. -/
def process_reads (fd : cram_fd) :
    List bam_seq_t → Nat → cram_container → cram_slice → Option (cram_container × cram_slice)
  | [], _, c, s => some (c, s)
  | b :: bs, r2, c, s =>
    match switch_ref fd c b with
    | none => none
    | some c1 =>
      match process_one_read fd c1 s b r2 with
      | none => none
      | some r => process_reads fd bs (r2 + 1) r.1 r.2

/-- One pass of the slice loop of `cram_encode_container`: `lossy_read_names`,
then `process_one_read` on every record, then `add_read_names`. -/
def encode_slice_records (fd : cram_fd) (c : cram_container) (s : cram_slice)
    (bams : List bam_seq_t) : Option (cram_container × cram_slice) :=
  match process_reads fd bams 0 c (lossy_read_names fd s bams) with
  | none => none
  | some r =>
    let r1 := add_read_names fd bams 0 r.1 r.2
    some (r1.1, { r1.2 with
      ref_seq_id := if r1.1.multi_seq then -2 else r1.1.ref_id,
      num_records := bams.length })

/-! ## The slice encoder: `cram_encode_slice_read` -/

/-- One call `h->codecs[ds]->encode(s, codec, values, count)`. -/
abbrev emission := cram_DS_ID × List Int

/-- The payload switch of `cram_encode_slice_read` for one feature; `none` is the
`default:` arm (`return -1`). -/
def feature_payload (s : cram_slice) (f : cram_feature) : Option (List emission) :=
  if f.code = 'X'.toNat then some [(DS_BS, [(f.base : Int)])]
  else if f.code = 'S'.toNat then some []
  else if f.code = 'I'.toNat then some []
  else if f.code = 'i'.toNat then some [(DS_BA, [(f.base : Int)])]
  else if f.code = 'D'.toNat then some [(DS_DL, [f.len])]
  else if f.code = 'B'.toNat then some [(DS_BA, [(f.base : Int)])]
  else if f.code = 'b'.toNat then
    some [(DS_BB, List.map Int.ofNat (bytes_from s.seqs_blk f.seq_idx f.len.toNat))]
  else if f.code = 'Q'.toNat then some []
  else if f.code = 'N'.toNat then some [(DS_RS, [f.len])]
  else if f.code = 'P'.toNat then some [(DS_PD, [f.len])]
  else if f.code = 'H'.toNat then some [(DS_HC, [f.len])]
  else none

/-- The feature loop of `cram_encode_slice_read`: per feature FC, then FP as the
distance to `prev_pos`, then the payload. -/
def encode_features (s : cram_slice) : List cram_feature → Int → Option (List emission)
  | [], _ => some []
  | f :: fs, prev_pos =>
    match feature_payload s f, encode_features s fs f.pos with
    | some pl, some rest =>
      some ((DS_FC, [(f.code : Int)]) :: (DS_FP, [f.pos - prev_pos]) :: (pl ++ rest))
    | _, _ => none

/-- The features of a record, `s->features[cr->feature .. cr->feature + cr->nfeature)`. -/
def record_features (s : cram_slice) (cr : cram_record) : List cram_feature :=
  (s.features.drop cr.feature).take cr.nfeature

/-- C function `cram_encode_slice_read`: the codec calls made for one record, in
order, and the updated `last_pos`. -/
def cram_encode_slice_read (fd : cram_fd) (c : cram_container) (s : cram_slice)
    (cr : cram_record) (last_pos : Int) : Option (List emission × Int) :=
  let bf : List emission := [(DS_BF, [(fd.cram_flag_swap (cr.flags &&& 4095) : Int)])]
  let cf : List emission := [(DS_CF, [((cr.cram_flags &&& CRAM_FLAG_MASK : Nat) : Int)])]
  let ri : List emission := if s.ref_seq_id = -2 then [(DS_RI, [cr.ref_id])] else []
  let rl : List emission := [(DS_RL, [(cr.len : Int)])]
  let ap : List emission :=
    if c.pos_sorted then [(DS_AP, [cr.apos - last_pos])] else [(DS_AP, [cr.apos])]
  let last_pos1 : Int := if c.pos_sorted then cr.apos else last_pos
  let rg : List emission := [(DS_RG, [cr.rg])]
  let mate : List emission :=
    if has_flag cr.cram_flags CRAM_FLAG_DETACHED then
      [(DS_MF, [(cr.mate_flags : Int)]), (DS_NS, [cr.mate_ref_id]), (DS_NP, [cr.mate_pos]),
       (DS_TS, [cr.tlen])]
    else if has_flag cr.cram_flags CRAM_FLAG_MATE_DOWNSTREAM then [(DS_NF, [cr.mate_line])]
    else []
  let tl : List emission := [(DS_TL, [cr.TL])]
  let headv := bf ++ cf ++ ri ++ rl ++ ap ++ rg ++ mate ++ tl
  if has_flag cr.flags BAM_FUNMAP = false then
    match encode_features s (record_features s cr) 0 with
    | none => none
    | some fe =>
      some (headv ++ [(DS_FN, [(cr.nfeature : Int)])] ++ fe ++ [(DS_MQ, [cr.mqual])], last_pos1)
  else
    let seq := bytes_from s.seqs_blk cr.seq cr.len
    let ba : List emission := if cr.len ≠ 0 then [(DS_BA, List.map Int.ofNat seq)] else []
    some (headv ++ ba, last_pos1)

/-- The loop "Encode reads" of `cram_encode_slice` from record `rec` on, `n` records left. -/
def encode_reads (fd : cram_fd) (c : cram_container) (s : cram_slice) :
    Nat → Nat → Int → Option (List emission)
  | 0, _, _ => some []
  | n + 1, rec, last_pos =>
    match cram_encode_slice_read fd c s (s.crecs rec) last_pos with
    | none => none
    | some (em, lp) =>
      match encode_reads fd c s n (rec + 1) lp with
      | none => none
      | some rest => some (em ++ rest)

/-! ## Concrete configurations used to evaluate the embedding -/

/-- Modelled from the spec: the table `fd->L2` as the comment of
`cram_add_substitution` reads it ("seq=ACGTN vs ref=ACGT or seq=ACGT vs
ref=ACGTN"): `A`, `C`, `G`, `T` are 0 to 3, `N` is 4, every other byte 5. -/
def L2_table (x : Nat) : Nat :=
  if x = 'A'.toNat ∨ x = 'a'.toNat then 0
  else if x = 'C'.toNat ∨ x = 'c'.toNat then 1
  else if x = 'G'.toNat ∨ x = 'g'.toNat then 2
  else if x = 'T'.toNat ∨ x = 't'.toNat then 3
  else if x = 'N'.toNat ∨ x = 'n'.toNat then 4
  else 5

/-- Modelled from the spec: the substitution codes of the default matrix, the
index of the read base in the row of the reference base (rows `CGTN`, `AGTN`,
`ACTN`, `ACGN`, `ACGT`), addressed by the low five bits of the two bytes. -/
def sub_matrix_table (r b : Nat) : Nat :=
  let row : List Nat :=
    if r = 'A'.toNat &&& 31 then ['C'.toNat, 'G'.toNat, 'T'.toNat, 'N'.toNat]
    else if r = 'C'.toNat &&& 31 then ['A'.toNat, 'G'.toNat, 'T'.toNat, 'N'.toNat]
    else if r = 'G'.toNat &&& 31 then ['A'.toNat, 'C'.toNat, 'T'.toNat, 'N'.toNat]
    else if r = 'T'.toNat &&& 31 then ['A'.toNat, 'C'.toNat, 'G'.toNat, 'N'.toNat]
    else ['A'.toNat, 'C'.toNat, 'G'.toNat, 'T'.toNat]
  (row.map (fun x => x &&& 31)).indexOf b

/-- A format 3.0, reference-based writer with the default tables, names kept. -/
def fd_v3 : cram_fd :=
  { version := 768, no_ref := false, lossy_read_names := false, ignore_chksum := true,
    binning_illumina := false, preserve_aux_order := false, preserve_aux_size := false,
    L2 := L2_table, cram_sub_matrix := sub_matrix_table, cram_flag_swap := fun x => x,
    illumina_bin := fun q => q, find_rg := fun _ => none, crc32 := fun _ => 0,
    refs := fun _ => none, codec_encode := fun _ bytes => bytes }

/-- The writer `fd_v3` in lossy read-name mode. -/
def fd_v3_lossy : cram_fd := { fd_v3 with lossy_read_names := true }

/-- A fresh container on reference 0 with the given reference bases. -/
def container_new (ref : List Nat) : cram_container :=
  { stats := fun _ _ => 0, pos_sorted := true, max_apos := 0, num_bases := 0,
    first_base := 1, last_base := 1, ref := ref, ref_end := (ref.length : Int),
    ref_id := 0, ref_seq_id := 0, multi_seq := false,
    aux := { TD_blk := [], TD := [], nTL := 0, tags_used := [] } }

/-- A fresh slice as `cram_new_slice` leaves it, with `last_apos` as given. -/
def slice_new (last_apos : Int) : cram_slice :=
  { crecs := fun _ => cram_record.zero, num_records := 0, ref_seq_id := 0, features := [],
    last_apos := last_apos, seqs_blk := [], qual_blk := [], base_blk := [], soft_blk := [],
    name_blk := [], cigar := [], ncigar := 0, pair := fun _ => [], BD_crc := 0, SD_crc := 0 }

/-- The bytes of an ASCII string. -/
def ascii (str : String) : List Nat := str.toList.map Char.toNat

/-- The 4-bit code of a base letter, the inverse of `bam_nt16_rev_table`. -/
def nt16 (ch : Char) : Nat :=
  ['=', 'A', 'C', 'M', 'G', 'R', 'S', 'V', 'T', 'W', 'Y', 'H', 'K', 'D', 'B', 'N'].indexOf ch

/-- Pack base letters two per byte, high nibble first, as in a BAM record. -/
def pack_seq : List Char → List Nat
  | [] => []
  | [x] => [nt16 x * 16]
  | x :: y :: rest => (nt16 x * 16 + nt16 y) :: pack_seq rest

/-- A BAM record without tags: flag, 0-based position, mate position, TLEN, name,
bases and CIGAR words; qualities are all 30. -/
def bam_of (flag : Nat) (pos mate_pos ins_size : Int) (name seq : String)
    (cigar : List Nat) : bam_seq_t :=
  { flag := flag, ref := 0, pos := pos, map_qual := 0, mate_ref := 0, mate_pos := mate_pos,
    ins_size := ins_size, name := ascii name, len := seq.length, seq := pack_seq seq.toList,
    qual := List.replicate seq.length 30, cigar := cigar, aux := [], aux_TC := none,
    aux_SA := false }

/-- The CIGAR word of an operation code and a length. -/
def cigar_word (op len : Nat) : Nat := len * 16 + op

/-! ## Records used to evaluate the embedding -/

/-- A record with a `TC:i:3` tag and an `SA` tag. -/
def bam_sa_tc : bam_seq_t :=
  { bam_of 0 0 0 0 "r" "ACGT" [cigar_word 0 4] with aux_TC := some 3, aux_SA := true }

/-- A record with an `SA` tag and no `TC` tag. -/
def bam_sa : bam_seq_t :=
  { bam_of 0 0 0 0 "r" "ACGT" [cigar_word 0 4] with aux_SA := true }

/-- An unpaired mapped read named `r`: flag 0, position 1, `4M`. -/
def bam_single : bam_seq_t := bam_of 0 0 0 0 "r" "ACGT" [cigar_word 0 4]

/-- Three unpaired reads named `a`, `b`, `c`. -/
def bam_names3 : List bam_seq_t :=
  [bam_of 0 0 0 0 "a" "ACGT" [cigar_word 0 4], bam_of 0 1 0 0 "b" "ACGT" [cigar_word 0 4],
   bam_of 0 2 0 0 "c" "ACGT" [cigar_word 0 4]]

/-- A 32-base reference. -/
def ref32 : List Nat := ascii "ACGTACGTACGTACGTACGTACGTACGTACGT"

/-- First read of a pair named `x`: paired, first, mate reverse; position 10,
`4M`, mate at 20, TLEN 14. -/
def bam_pair1 : bam_seq_t := bam_of (1 + 64 + 32) 9 19 14 "x" "ACGT" [cigar_word 0 4]

/-- Second read of the pair `x`: paired, second, reverse; position 20, `4M`,
mate at 10, TLEN -14. -/
def bam_pair2 : bam_seq_t := bam_of (1 + 128 + 16) 19 9 (-14) "x" "ACGT" [cigar_word 0 4]

/-- A slice whose record 1 is DETACHED and carries DISCARD_NAME. -/
def slice_names3 : cram_slice :=
  (slice_new 1).upd 1 (fun cr =>
    { cr with cram_flags := CRAM_FLAG_DETACHED ||| CRAM_FLAG_DISCARD_NAME })

/-- The CF bits `process_one_read` sets before the CIGAR walk, from the initial
`cram_flags` word `cf` of the record: PRESERVE_QUAL unless the writer is in
no-reference mode on a format before 3, NO_SEQ for an empty sequence on format 3
or later. -/
def head_cram_flags (fd : cram_fd) (len cf : Nat) : Nat :=
  let cf1 : Nat :=
    if fd.no_ref = false ∨ 3 ≤ CRAM_MAJOR_VERS fd.version then
      cf ||| CRAM_FLAG_PRESERVE_QUAL_SCORES
    else cf
  if len = 0 ∧ 3 ≤ CRAM_MAJOR_VERS fd.version then cf1 ||| CRAM_FLAG_NO_SEQ else cf1

/-- The `cram_flags` word of a record when the mate block starts: the head bits,
and PRESERVE_QUAL for every unmapped read. -/
def pre_cram_flags (fd : cram_fd) (b : bam_seq_t) (cf : Nat) : Nat :=
  if has_flag b.flag BAM_FUNMAP = false then head_cram_flags fd b.len cf
  else head_cram_flags fd b.len cf ||| CRAM_FLAG_PRESERVE_QUAL_SCORES

/-- Which arm the mate block of `process_one_read` takes for record `rnum`:
`some j` when the record is linked to the earlier record `j` (the pair table
holds its name and no `goto detached` test fires), `none` when it is processed
as detached or `process_one_read` fails before the mate block. -/
def por_links (fd : cram_fd) (c : cram_container) (s : cram_slice) (b : bam_seq_t)
    (rnum : Nat) : Option Nat :=
  match por_pre fd c s b rnum with
  | none => none
  | some (_, s1) =>
    if has_flag (s1.crecs rnum).flags BAM_FPAIRED then
      match HashTableSearch (s1.pair (has_flag (s1.crecs rnum).flags BAM_FSECONDARY)) b.name with
      | none => none
      | some j => if mate_linkable fd b (s1.crecs rnum) (s1.crecs j) then some j else none
    else none

/-- The slice after `process_one_read` on `bam_pair1` as record 0 of a fresh slice. -/
def state_pair1 : cram_container × cram_slice :=
  (process_one_read fd_v3 (container_new ref32) (slice_new 10) bam_pair1 0).getD
    (container_new ref32, slice_new 10)

/-- The slice after `process_one_read` on `bam_pair1` and then `bam_pair2`. -/
def state_pair2 : cram_container × cram_slice :=
  (process_one_read fd_v3 state_pair1.1 state_pair1.2 bam_pair2 1).getD state_pair1

/-- A mapped first read named `y` whose flags say its mate is mapped: paired,
first; position 10, `4M`, mate at 10, TLEN 4. -/
def bam_mapped_mate : bam_seq_t := bam_of (1 + 64) 9 9 4 "y" "ACGT" [cigar_word 0 4]

/-- The mate of `bam_mapped_mate`, an unmapped read placed at position 10:
paired, second, unmapped; mate at 10, TLEN -4. -/
def bam_unmapped : bam_seq_t := bam_of (1 + 128 + 4) 9 9 (-4) "y" "ACGT" []

/-- The slice after `process_one_read` on `bam_mapped_mate` as record 0. -/
def state_mapped_mate : cram_container × cram_slice :=
  (process_one_read fd_v3 (container_new ref32) (slice_new 10) bam_mapped_mate 0).getD
    (container_new ref32, slice_new 10)

/-- The feature codes the slice encoder knows. -/
def valid_code (code : Nat) : Prop :=
  code ∈ ['X'.toNat, 'S'.toNat, 'I'.toNat, 'i'.toNat, 'D'.toNat, 'B'.toNat, 'b'.toNat,
    'Q'.toNat, 'N'.toNat, 'P'.toNat, 'H'.toNat]

/-- Invariant of the feature pool during the CIGAR walk of one record: the pool is
the pool `F0` found at the start followed by the features `new` of the record;
`nf` and `fi` are `cr->nfeature` and `cr->feature`; the positions of `new` are
non-decreasing, at least 1 and at most `m + 1` for the read offset `m` reached,
and every code is one the slice encoder knows. -/
def feat_inv (F0 feats : List cram_feature) (nf fi m : Nat) : Prop :=
  ∃ new : List cram_feature, feats = F0 ++ new ∧ nf = new.length
    ∧ (new ≠ [] → fi = F0.length)
    ∧ List.Pairwise (fun f g : cram_feature => f.pos ≤ g.pos) new
    ∧ ∀ f ∈ new, 1 ≤ f.pos ∧ f.pos ≤ (m : Int) + 1 ∧ valid_code f.code

/-- The invariant `feat_inv` on a working state. -/
def enc.finv (F0 : List cram_feature) (e : enc) (m : Nat) : Prop :=
  feat_inv F0 e.s.features e.cr.nfeature e.cr.feature m

/-- The operation code of a CIGAR word. -/
def cigar_op_of (w : Nat) : Nat := w &&& BAM_CIGAR_MASK

/-- The length of a CIGAR word. -/
def cigar_len_of (w : Nat) : Nat := w >>> BAM_CIGAR_SHIFT

/-- Whether a CIGAR operation is `M`, `=` or `X`. -/
def is_match_op (op : Nat) : Bool :=
  op == BAM_CMATCH || op == BAM_CBASE_MATCH || op == BAM_CBASE_MISMATCH

/-- The reference bases one CIGAR word consumes: its length for `M`, `=`, `X`,
`D`, `N`, and nothing for the other operations. -/
def op_ref_len (w : Nat) : Nat :=
  if is_match_op (cigar_op_of w) || cigar_op_of w == BAM_CDEL
      || cigar_op_of w == BAM_CREF_SKIP then cigar_len_of w else 0

/-- The read bases one CIGAR word consumes: its length for `M`, `=`, `X`, `I`,
`S`, and nothing for the other operations. -/
def op_query_len (w : Nat) : Nat :=
  if is_match_op (cigar_op_of w) || cigar_op_of w == BAM_CINS
      || cigar_op_of w == BAM_CSOFT_CLIP then cigar_len_of w else 0

/-- The spec's `ref_consumed(cigar)`: the sum of the lengths of the
reference-consuming operations `M`, `=`, `X`, `D`, `N`. -/
def ref_len : List Nat → Nat
  | [] => 0
  | w :: ws => op_ref_len w + ref_len ws

/-- The sum of the lengths of the read-consuming operations `M`, `=`, `X`, `I`, `S`. -/
def query_len : List Nat → Nat
  | [] => 0
  | w :: ws => op_query_len w + query_len ws

/-- The 0-based reference cursor `a` of the CIGAR walk against the position `t`
that the reference-consuming lengths add up to: the two are equal, or, in
reference mode, `t` is at or past the end of the reference and `a` is not before `t`. -/
def cursor_inv (fd : cram_fd) (ref_end a t : Int) : Prop :=
  a = t ∨ (fd.no_ref = false ∧ ref_end ≤ t ∧ t ≤ a)

/-- The CIGAR words `ws` do not read past the end of a read that has a stored
sequence in reference mode: every byte of the read is a base and the
read-consuming lengths still fit. -/
def read_fits (fd : cram_fd) (seq ws : List Nat) (e : enc) : Prop :=
  fd.no_ref = true ∨ e.cr.len = 0
    ∨ ((∀ k, k < e.cr.len → byte_at seq k ≠ 0) ∧ e.spos + query_len ws ≤ e.cr.len)

/-- A read over the end of the reference: position 7 of an 8-base reference, `4M`. -/
def bam_over_end : bam_seq_t := bam_of 0 6 0 0 "r" "ACGT" [cigar_word 0 4]

/-- An 8-base reference. -/
def ref8 : List Nat := ascii "ACGTACGT"

/-- A read with edits at position 1: `2M 1I 3M 2D 2M` on the bases `ACGGTTCA`. -/
def bam_edits : bam_seq_t :=
  bam_of 0 0 0 0 "r" "ACGGTTCA"
    [cigar_word 0 2, cigar_word 1 1, cigar_word 0 3, cigar_word 2 2, cigar_word 0 2]

/-- The slice after `process_one_read` on `bam_edits` as record 0 of a fresh slice. -/
def state_edits : cram_container × cram_slice :=
  (process_one_read fd_v3 (container_new ref32) (slice_new 1) bam_edits 0).getD
    (container_new ref32, slice_new 1)

/-- The slice after `process_one_read` on `bam_over_end` as record 0 of a fresh
slice over the 8-base reference. -/
def state_over_end : cram_container × cram_slice :=
  (process_one_read fd_v3 (container_new ref8) (slice_new 1) bam_over_end 0).getD
    (container_new ref8, slice_new 1)

/-- How many times the value `v` is handed to the codec of the series `ds` in a
list of codec calls. -/
def emitted (ds : cram_DS_ID) (v : Int) : List emission → Int
  | [] => 0
  | x :: xs => (if x.1 = ds then (x.2.count v : Int) else 0) + emitted ds v xs

/-- The position of the last feature of a list, or `p` for the empty list: the
value of `prev_pos` in `cram_encode_slice_read` after the list. -/
def last_pos_of (fs : List cram_feature) (p : Int) : Int :=
  match fs.getLast? with
  | some g => g.pos
  | none => p

/-- Invariant between the feature pool and the statistics during the CIGAR walk
of one record: the pool is the pool `F0` found at the start followed by the
features `new` of the record, the slice encoder accepts `new` and makes the
codec calls `em` for it, and every series but QS and BB has been counted, on top
of the statistics `st0` found at the start, exactly as often as `em` hands each
value to its codec. The features of the list `K` are known to be among `new`. -/
def enc.ledger (st0 : cram_stats) (F0 K : List cram_feature) (e : enc) : Prop :=
  ∃ (new : List cram_feature) (em : List emission),
    e.s.features = F0 ++ new ∧ e.cr.nfeature = new.length
    ∧ (new ≠ [] → e.cr.feature = F0.length)
    ∧ encode_features e.s new 0 = some em
    ∧ (∀ ds v, ds ≠ DS_QS → ds ≠ DS_BB → e.c.stats ds v = st0 ds v + emitted ds v em)
    ∧ ∀ g ∈ K, g ∈ new

/-- A read with the ambiguity code `R` against the reference base `C`: `ARGT`,
`4M`, at position 1 of the 8-base reference. -/
def bam_iupac : bam_seq_t := bam_of 0 0 0 0 "r" "ARGT" [cigar_word 0 4]

/-- The state after `process_one_read` on `bam_iupac` as record 0 of a fresh slice. -/
def state_iupac : cram_container × cram_slice :=
  (process_one_read fd_v3 (container_new ref8) (slice_new 1) bam_iupac 0).getD
    (container_new ref8, slice_new 1)

/-- The codec calls of `cram_encode_slice_read` for one record that depend on its
flags, length, read group and features: BF, RL, RG and, for a mapped record, FN
and the calls of the feature loop. -/
def geom_emissions (fd : cram_fd) (s : cram_slice) (cr : cram_record) : List emission :=
  [(DS_BF, [((fd.cram_flag_swap (cr.flags &&& 4095) : Nat) : Int)]), (DS_RL, [(cr.len : Int)]),
    (DS_RG, [cr.rg])]
  ++ (if has_flag cr.flags BAM_FUNMAP = false then
        (DS_FN, [(cr.nfeature : Int)]) :: (encode_features s (record_features s cr) 0).getD []
      else [])

/-- The codec calls of `cram_encode_slice_read` for the mate of one record: MF,
NS, NP, TS of a DETACHED record, NF of a MATE_DOWNSTREAM record. -/
def mate_emissions (cr : cram_record) : List emission :=
  if has_flag cr.cram_flags CRAM_FLAG_DETACHED then
    [(DS_MF, [(cr.mate_flags : Int)]), (DS_NS, [cr.mate_ref_id]), (DS_NP, [cr.mate_pos]),
     (DS_TS, [cr.tlen])]
  else if has_flag cr.cram_flags CRAM_FLAG_MATE_DOWNSTREAM then [(DS_NF, [cr.mate_line])]
  else []

/-- The series whose statistics follow the flags, length, read group and
features of the records. -/
def geom_series : cram_DS_ID → Bool
  | DS_BF | DS_RL | DS_RG | DS_FN | DS_FC | DS_FP | DS_BS | DS_DL | DS_RS | DS_PD | DS_HC => true
  | _ => false

/-- The mate series. -/
def mate_series : cram_DS_ID → Bool
  | DS_MF | DS_NS | DS_NP | DS_TS | DS_NF => true
  | _ => false

/-- The features of record `k` lie inside the feature pool of the slice. -/
def pool_ok (s : cram_slice) (k : Nat) : Prop :=
  (s.crecs k).nfeature = 0 ∨ (s.crecs k).feature + (s.crecs k).nfeature ≤ s.features.length

/-- Invariant of the mate bookkeeping before record `i` of a slice of `n`
records is processed. -/
structure mate_inv (s : cram_slice) (i n : Nat) : Prop where
  /-- A processed record has STATS_ADDED exactly when it is DETACHED. -/
  added : ∀ k, k < i →
    has_flag (s.crecs k).cram_flags CRAM_FLAG_STATS_ADDED
      = has_flag (s.crecs k).cram_flags CRAM_FLAG_DETACHED
  /-- The pair tables point to processed records that are not MATE_DOWNSTREAM. -/
  table : ∀ sec key j, HashTableSearch (s.pair sec) key = some j →
    j < i ∧ has_flag (s.crecs j).cram_flags CRAM_FLAG_MATE_DOWNSTREAM = false
  /-- No record is in the pair tables twice. -/
  inj : ∀ sec sec' key key' j, HashTableSearch (s.pair sec) key = some j →
    HashTableSearch (s.pair sec') key' = some j → sec = sec' ∧ key = key'
  /-- The records still to come carry none of the three mate bits. -/
  fresh : ∀ k, i ≤ k → k < n →
    has_flag (s.crecs k).cram_flags CRAM_FLAG_DETACHED = false
    ∧ has_flag (s.crecs k).cram_flags CRAM_FLAG_MATE_DOWNSTREAM = false
    ∧ has_flag (s.crecs k).cram_flags CRAM_FLAG_STATS_ADDED = false

/-- The container and slice after the record loop of `cram_encode_container` on
a fresh slice that holds the mapped read `bam_single` alone. -/
def state_slice_single : cram_container × cram_slice :=
  (encode_slice_records fd_v3 (container_new ref32) (slice_new 1) [bam_single]).getD
    (container_new ref32, slice_new 1)

/-- The container and slice after the record loop of `cram_encode_container` on
a fresh slice that holds the pair `bam_pair1`, `bam_pair2`. -/
def state_slice_pair : cram_container × cram_slice :=
  (encode_slice_records fd_v3 (container_new ref32) (slice_new 1) [bam_pair1, bam_pair2]).getD
    (container_new ref32, slice_new 1)

/-- The codec calls of the slice encoder for the two records of `state_slice_pair`. -/
def emissions_slice_pair : List emission :=
  (encode_reads fd_v3 state_slice_pair.1 state_slice_pair.2 2 0 1).getD []

/-- The fields of the working state that no feature-adding function and no step
of the CIGAR walk changes. -/
structure walk_frame (e e' : enc) : Prop where
  crecs : e'.s.crecs = e.s.crecs
  pair : e'.s.pair = e.s.pair
  seqs_blk : e'.s.seqs_blk = e.s.seqs_blk
  last_apos : e'.s.last_apos = e.s.last_apos
  ref : e'.c.ref = e.c.ref
  ref_end : e'.c.ref_end = e.c.ref_end
  pos_sorted : e'.c.pos_sorted = e.c.pos_sorted
  len : e'.cr.len = e.cr.len
  flags : e'.cr.flags = e.cr.flags
  cram_flags : e'.cr.cram_flags = e.cr.cram_flags
  cr_apos : e'.cr.apos = e.cr.apos
  cr_seq : e'.cr.seq = e.cr.seq
  cr_rg : e'.cr.rg = e.cr.rg

/-- The fields of a record that the mate block and the closing statements of
`process_one_read` never write. -/
structure rec_geom (r r' : cram_record) : Prop where
  flags : r'.flags = r.flags
  len : r'.len = r.len
  apos : r'.apos = r.apos
  aend : r'.aend = r.aend
  feature : r'.feature = r.feature
  nfeature : r'.nfeature = r.nfeature
  seq : r'.seq = r.seq
  ref_id : r'.ref_id = r.ref_id
  rg : r'.rg = r.rg
  TL : r'.TL = r.TL

/-- The feature pool, the sequence block and the geometry of every record are unchanged. -/
structure slice_geom (s s' : cram_slice) : Prop where
  features : s'.features = s.features
  seqs_blk : s'.seqs_blk = s.seqs_blk
  ref_seq_id : s'.ref_seq_id = s.ref_seq_id
  recs : ∀ k, rec_geom (s.crecs k) (s'.crecs k)

/-! ## Integer tags: value and width, used to state what the shrinking keeps -/

/-- The number a byte string denotes when read little-endian. -/
def le_nat : List Nat → Nat
  | [] => 0
  | x :: xs => x + 256 * le_nat xs

/-- The byte width of an integer tag type: 1 for `c`/`C`, 2 for `s`/`S`, 4 for
`i`/`I`, and 0 for every other type byte. -/
def aux_type_width (ty : Nat) : Nat :=
  if ty = 'c'.toNat ∨ ty = 'C'.toNat then 1
  else if ty = 's'.toNat ∨ ty = 'S'.toNat then 2
  else if ty = 'i'.toNat ∨ ty = 'I'.toNat then 4
  else 0

/-- The value of an integer tag: its first `aux_type_width ty` bytes read
little-endian, as two's complement for the signed types `c`, `s`, `i`. -/
def aux_int_value (ty : Nat) (bytes : List Nat) : Int :=
  let w := aux_type_width ty
  let n := le_nat (bytes.take w)
  if (ty = 'c'.toNat ∨ ty = 's'.toNat ∨ ty = 'i'.toNat) ∧ 2 ^ (8 * w - 1) ≤ n then
    (n : Int) - 2 ^ (8 * w)
  else (n : Int)

/-- The smallest of the widths 1, 2 and 4 bytes in which `v` fits as a signed
or as an unsigned integer. -/
def min_int_width (v : Int) : Nat :=
  if -128 ≤ v ∧ v ≤ 255 then 1
  else if -32768 ≤ v ∧ v ≤ 65535 then 2
  else 4

/-- The bytes of the external block of the tag `k3` in the tag state, empty
when the tag has no block yet. -/
def tag_blk_data (st : aux_state) (k3 : List Nat) : List Nat :=
  match HashTableSearch st.tags_used k3 with
  | some m =>
    match m.blk with
    | some blk => blk.data
    | none => []
  | none => []

/-- The tag bytes of `XI:i:5`. -/
def tag_XI5 : List Nat := ascii "XIi" ++ [5, 0, 0, 0]

/-- The TD entry of a record: the bytes the loop of `cram_encode_aux` appends to
the TD block, three per stored tag, before the closing NUL. -/
def aux_td_entry (fd : cram_fd) (b : bam_seq_t) (len flags : Nat) (st : aux_state) : List Nat :=
  match aux_loop fd b.aux len flags (b.aux.length + 1) 0 none st with
  | aux_ret.ok (_, c1) => c1.TD_blk.drop st.TD_blk.length
  | _ => []

/-- The calls `cram_encode_aux(fd, c, s, cr, b)` that `process_one_read` makes for
the records of one container, in order, on the tag state of the container: per
record the assigned `cr->TL` and the TD entry. `none` when a call does not return
normally. -/
def encode_aux_records (fd : cram_fd) : List bam_seq_t → aux_state → Option (List (Int × List Nat))
  | [], _ => some []
  | b :: bs, st =>
    match cram_encode_aux fd b b.len b.flag st with
    | aux_ret.ok (_, TL, st1) =>
      match encode_aux_records fd bs st1 with
      | some rest => some ((TL, aux_td_entry fd b b.len b.flag st) :: rest)
      | none => none
    | _ => none

/-- The TD hash of a container is consistent: every stored index is below `nTL`
and no index is stored under two keys. -/
def td_inv (st : aux_state) : Prop :=
  (∀ k v, HashTableSearch st.TD k = some v → v < st.nTL) ∧
  (∀ k1 k2 v, HashTableSearch st.TD k1 = some v → HashTableSearch st.TD k2 = some v → k1 = k2)

/-- A record with the tags `XA:C:1` and `XB:C:2`, in this order. -/
def bam_tags_AB : bam_seq_t :=
  { bam_single with aux := ascii "XAC" ++ [1] ++ ascii "XBC" ++ [2] }

/-- A record with the tags `XB:C:2` and `XA:C:1`, in this order. -/
def bam_tags_BA : bam_seq_t :=
  { bam_single with aux := ascii "XBC" ++ [2] ++ ascii "XAC" ++ [1] }

/-- A record with the single tag `XD:d:1.0` (eight value bytes). -/
def bam_tag_d : bam_seq_t :=
  { bam_single with aux := ascii "XDd" ++ [0, 0, 0, 0, 0, 0, 240, 63] }

/-- The series of the codec calls for one record in the order the specification
gives: BF, CF, RI for a multi-reference slice, RL, AP, RG, the mate series of a
DETACHED record or NF of a MATE_DOWNSTREAM one, TL, then for a mapped record FN,
per feature FC, FP and the series of its payload, and MQ, for an unmapped record
BA (when there are bases). -/
def spec_series_order (s : cram_slice) (cr : cram_record) : List cram_DS_ID :=
  [DS_BF, DS_CF] ++ (if s.ref_seq_id = -2 then [DS_RI] else []) ++ [DS_RL, DS_AP, DS_RG]
    ++ (if has_flag cr.cram_flags CRAM_FLAG_DETACHED then [DS_MF, DS_NS, DS_NP, DS_TS]
        else if has_flag cr.cram_flags CRAM_FLAG_MATE_DOWNSTREAM then [DS_NF]
        else [])
    ++ [DS_TL]
    ++ (if has_flag cr.flags BAM_FUNMAP = false then
          [DS_FN] ++ (record_features s cr).flatMap (fun f =>
            [DS_FC, DS_FP] ++ ((feature_payload s f).getD []).map Prod.fst) ++ [DS_MQ]
        else if cr.len ≠ 0 then [DS_BA]
        else [])

/-- Whether the positions of the records are in order for `process_one_read`:
each `apos = pos + 1` is at least the `last_apos` left by the record before it,
starting from `last`. -/
def pos_chain : Int → List bam_seq_t → Bool
  | _, [] => true
  | last, b :: bs => !decide (b.pos + 1 < last) && pos_chain (b.pos + 1) bs

/-- The container and slice after `process_one_read` has run over the records
`bam_pair2` (position 19) and `bam_pair1` (position 9), in this order, of a
fresh slice whose `last_apos` is that of its first record. -/
def state_unsorted : cram_container × cram_slice :=
  (process_reads fd_v3 [bam_pair2, bam_pair1] 0 (container_new ref32) (slice_new 20)).getD
    (container_new ref32, slice_new 20)

/-- The fields of a `cram_block` that the landmark computation of
`cram_encode_container` reads. -/
structure cram_block_sizes where
  /-- Whether `method == RAW`. -/
  raw : Bool
  content_id : Int
  comp_size : Int
  uncomp_size : Int
  deriving DecidableEq, Repr

/-- The fields of the slice header `s->hdr` read after the slices are encoded. -/
structure cram_block_slice_hdr where
  ref_seq_id : Int
  ref_seq_start : Int
  ref_seq_span : Int
  deriving DecidableEq, Repr

/-- An encoded slice as the last loop of `cram_encode_container` sees it: its
header, its header block and the blocks `s->block[0 .. s->hdr->num_blocks)`. -/
structure encoded_slice where
  hdr : cram_block_slice_hdr
  hdr_block : cram_block_sizes
  block : List cram_block_sizes
  deriving DecidableEq, Repr

/-- The fields of `cram_container` written by the block "Compute landmarks". -/
structure container_layout where
  landmark : List Int
  ref_seq_id : Int
  ref_seq_start : Int
  ref_seq_span : Int
  num_blocks : Int
  length : Int
  deriving DecidableEq, Repr

/-- Modelled from the spec: the macro `itf8_size` of `cram_io.h`, the number of
bytes of the `itf8` encoding of a 32-bit value (1 to 5 bytes, chosen by the
highest bit set; a negative value has the top bit set). -/
def itf8_size (v : Int) : Int :=
  if v < 0 then 5
  else if v < 128 then 1
  else if v < 16384 then 2
  else if v < 2097152 then 3
  else if v < 268435456 then 4
  else 5

/-- The C expression `b->method == RAW ? b->uncomp_size : b->comp_size`. -/
def block_stored_size (b : cram_block_sizes) : Int :=
  if b.raw then b.uncomp_size else b.comp_size

/-- The C expression `2 + 4*IS_CRAM_3_VERS(fd) + itf8_size(b->content_id) +
itf8_size(b->comp_size) + itf8_size(b->uncomp_size)`, with the macro `itf8_size`
as a parameter. -/
def block_framing (isz : Int → Int) (fd : cram_fd) (b : cram_block_sizes) : Int :=
  2 + 4 * (if IS_CRAM_3_VERS fd then 1 else 0) + isz b.content_id + isz b.comp_size
    + isz b.uncomp_size

/-- The inner loop `for (j = 0; j < s->hdr->num_blocks; j++)` on `slice_offset`. -/
def blocks_offset (isz : Int → Int) (fd : cram_fd) : List cram_block_sizes → Int → Int
  | [], off => off
  | b :: bs, off => blocks_offset isz fd bs (off + block_framing isz fd b + block_stored_size b)

/-- The loop `for (i = 0; i < c->curr_slice; i++)` of the block "Compute
landmarks": the state is the container fields and `slice_offset`. -/
def landmark_loop (isz : Int → Int) (fd : cram_fd) :
    List encoded_slice → container_layout → Int → container_layout × Int
  | [], c, off => (c, off)
  | s :: ss, c, off =>
    let c1 : container_layout :=
      { c with num_blocks := c.num_blocks + ((s.block.length : Int) + 1),
               landmark := c.landmark ++ [off] }
    let c2 : container_layout :=
      if s.hdr.ref_seq_start + s.hdr.ref_seq_span > c1.ref_seq_start + c1.ref_seq_span then
        { c1 with ref_seq_span := s.hdr.ref_seq_start + s.hdr.ref_seq_span - c1.ref_seq_start }
      else c1
    let off1 := off + block_stored_size s.hdr_block
    let off2 := off1 + block_framing isz fd s.hdr_block
    landmark_loop isz fd ss c2 (blocks_offset isz fd s.block off2)

/-- The block "Compute landmarks" of `cram_encode_container` (lines 1699 to 1755):
`c_hdr` is the compression header block, `num_blocks` and `length` the values of
`c->num_blocks` and `c->length` before. `none` stands for the access to
`c->slices[0]` of a container without slices. -/
def compute_landmarks (isz : Int → Int) (fd : cram_fd) (c_hdr : cram_block_sizes)
    (slices : List encoded_slice) (num_blocks length : Int) : Option container_layout :=
  match slices with
  | [] => none
  | s0 :: _ =>
    let slice_offset := block_stored_size c_hdr + block_framing isz fd c_hdr
    let c0 : container_layout :=
      { landmark := [], ref_seq_id := s0.hdr.ref_seq_id, ref_seq_start := s0.hdr.ref_seq_start,
        ref_seq_span := s0.hdr.ref_seq_span, num_blocks := num_blocks, length := length }
    let r := landmark_loop isz fd slices c0 slice_offset
    some { r.1 with length := r.1.length + r.2 }

/-- The encoded size of a block: its framing plus its stored size. -/
def block_encoded_size (isz : Int → Int) (fd : cram_fd) (b : cram_block_sizes) : Int :=
  block_framing isz fd b + block_stored_size b

/-- The encoded size of a slice: the encoded sizes of its header block and of
its data blocks. -/
def slice_encoded_size (isz : Int → Int) (fd : cram_fd) (s : encoded_slice) : Int :=
  block_encoded_size isz fd s.hdr_block + (s.block.map (block_encoded_size isz fd)).sum

/-- The running offsets `off, off + x0, off + x0 + x1, ...`, one per element of the list. -/
def prefix_sums : Int → List Int → List Int
  | _, [] => []
  | off, x :: xs => off :: prefix_sums (off + x) xs

/-- A raw compression header block of 10 bytes with content id 0. -/
def c_hdr_ex : cram_block_sizes := ⟨true, 0, 10, 10⟩

/-- A slice over `[start, start + span)` with a 20-byte header block and one
100-byte compressed core block. -/
def slice_ex (start span : Int) : encoded_slice :=
  { hdr := ⟨0, start, span⟩, hdr_block := ⟨true, 0, 20, 20⟩, block := [⟨false, 0, 100, 300⟩] }

/-- Between two working states no substitution was recorded: the DS_BS
statistics are the same and the features added to the pool carry no code `X`. -/
structure nosub (e e' : enc) : Prop where
  stats : ∀ v, e'.c.stats DS_BS v = e.c.stats DS_BS v
  feats : ∃ new, e'.s.features = e.s.features ++ new ∧ ∀ f ∈ new, f.code ≠ 'X'.toNat

/-- The `B` feature `cram_add_base` records for the read offset `p`. -/
def base_feature (fd : cram_fd) (seq qual : List Nat) (p : Nat) : cram_feature :=
  { code := 'B'.toNat, pos := ((p + 1 : Nat) : Int), len := 0, base := byte_at seq p,
    qual := char_val (bin_qual fd (byte_at qual p)), seq_idx := 0 }

/-- The `b` feature `cram_add_bases` records for `n` bases from the read offset
`p` of a read stored at offset `off` of the sequence block. -/
def bases_feature (off p n : Nat) : cram_feature :=
  { code := 'b'.toNat, pos := ((p + 1 : Nat) : Int), len := (n : Int), base := 0, qual := 0,
    seq_idx := off + p }

/-- The writer `fd_v3` in no-reference mode. -/
def fd_v3_no_ref : cram_fd := { fd_v3 with no_ref := true }

/-- A format 2.1 writer in no-reference mode. -/
def fd_v2_no_ref : cram_fd := { fd_v3 with no_ref := true, version := 513 }

/-- The slice after `process_one_read` on `bam_edits` in no-reference mode, format 3. -/
def state_no_ref : cram_container × cram_slice :=
  (process_one_read fd_v3_no_ref (container_new ref32) (slice_new 1) bam_edits 0).getD
    (container_new ref32, slice_new 1)

/-- The slice after `process_one_read` on `bam_edits` in no-reference mode, format 2.1. -/
def state_no_ref_v2 : cram_container × cram_slice :=
  (process_one_read fd_v2_no_ref (container_new ref32) (slice_new 1) bam_edits 0).getD
    (container_new ref32, slice_new 1)

/-- The C constant `INT64_MAX`. -/
def INT64_MAX : Int := 9223372036854775807

/-- The C constant `INT64_MIN`. -/
def INT64_MIN : Int := -9223372036854775808

/-- The record loop of one slice in `cram_encode_container` together with its
locals `first_base` and `last_base`, which follow `cr->apos` and `cr->aend` of
each record after `process_one_read`. -/
def process_reads_range (fd : cram_fd) :
    List bam_seq_t → Nat → cram_container → cram_slice → Int → Int →
      Option (cram_container × cram_slice × Int × Int)
  | [], _, c, s, first_base, last_base => some (c, s, first_base, last_base)
  | b :: bs, r2, c, s, first_base, last_base =>
    match switch_ref fd c b with
    | none => none
    | some c1 =>
      match process_one_read fd c1 s b r2 with
      | none => none
      | some r =>
        let cr := r.2.crecs r2
        let first_base1 := if first_base > cr.apos then cr.apos else first_base
        let last_base1 := if last_base < cr.aend then cr.aend else last_base
        process_reads_range fd bs (r2 + 1) r.1 r.2 first_base1 last_base1

/-- One pass of the slice loop of `cram_encode_container` with the slice header
it fills in: `lossy_read_names`, the record loop, `add_read_names`, then
`ref_seq_id`, `ref_seq_start` and `ref_seq_span` of the header. -/
def encode_slice_records_hdr (fd : cram_fd) (c : cram_container) (s : cram_slice)
    (bams : List bam_seq_t) : Option (cram_container × cram_slice × cram_block_slice_hdr) :=
  match process_reads_range fd bams 0 c (lossy_read_names fd s bams) INT64_MAX INT64_MIN with
  | none => none
  | some (c1, s1, first_base, last_base) =>
    let r1 := add_read_names fd bams 0 c1 s1
    let hdr : cram_block_slice_hdr :=
      if r1.1.multi_seq then ⟨-2, 0, 0⟩
      else ⟨r1.1.ref_id, first_base, max 0 (last_base - first_base + 1)⟩
    some (r1.1, { r1.2 with ref_seq_id := hdr.ref_seq_id, num_records := bams.length }, hdr)

/-- The loop "Encode reads" of `cram_encode_slice` with its initialisation
`last_pos = s->hdr->ref_seq_start`. -/
def encode_slice_reads (fd : cram_fd) (c : cram_container) (s : cram_slice)
    (hdr : cram_block_slice_hdr) : Option (List emission) :=
  encode_reads fd c s s.num_records 0 hdr.ref_seq_start

/-- An unpaired read (flag 0) of 8 bases at position 1 that matches `ref8`. -/
def bam_exact : bam_seq_t :=
  { bam_of 0 0 (-1) 0 "r" "ACGTACGT" [cigar_word 0 8] with mate_ref := -1 }

/-- The codec calls for a slice that holds `bam_exact` alone, in a new container. -/
def emissions_exact : Option (List emission) :=
  match encode_slice_records_hdr fd_v3 (container_new ref8) (slice_new 1) [bam_exact] with
  | none => none
  | some (c, s, hdr) => encode_slice_reads fd_v3 c s hdr

/-- The 0-based read offsets below `len` at which the read `seq`, placed at the
0-based reference position `pos`, has a base different from the reference, in
increasing order. -/
def mismatch_offsets (ref seq : List Nat) (pos : Int) (len : Nat) : List Nat :=
  (List.range len).filter (fun l => decide (ref_at ref (pos + (l : Int)) ≠ byte_at seq l))

/-- An 8-base read with one mismatch against `ref8`: `ACGTACCT`, `8M`, position 1. -/
def bam_mismatch : bam_seq_t := bam_of 0 0 0 0 "r" "ACGTACCT" [cigar_word 0 8]

/-- The state after `process_one_read` on `bam_mismatch` as record 0. -/
def state_mismatch : cram_container × cram_slice :=
  (process_one_read fd_v3 (container_new ref8) (slice_new 1) bam_mismatch 0).getD
    (container_new ref8, slice_new 1)

/-- A format 4.0 writer with the options of `fd_v3`. -/
def fd_v4 : cram_fd := { fd_v3 with version := 1024 }

/-- A reverse-strand read of 4 bases with the qualities 10, 20, 30, 40. -/
def bam_rev : bam_seq_t :=
  { bam_of 16 0 0 0 "r" "ACGT" [cigar_word 0 4] with qual := [10, 20, 30, 40] }

/-- The state after `process_one_read` on `bam_rev` as record 0, format 4. -/
def state_rev : cram_container × cram_slice :=
  (process_one_read fd_v4 (container_new ref8) (slice_new 1) bam_rev 0).getD
    (container_new ref8, slice_new 1)

/-- The state after `process_one_read` on `bam_rev` as record 0, format 3. -/
def state_rev_v3 : cram_container × cram_slice :=
  (process_one_read fd_v3 (container_new ref8) (slice_new 1) bam_rev 0).getD
    (container_new ref8, slice_new 1)

/-- The offset of the tag that follows the tag at offset `i` of a BAM tag area,
by the type byte: 1 value byte for `A`, `c`, `C`, 2 for `s`, `S`, 4 for `i`, `I`,
`f`, 8 for `d`, a NUL-terminated string for `Z` and `H`, and for `B` a subtype
byte, a 32-bit count and the elements. `none` for any other type byte. -/
def aux_next (a : List Nat) (i : Nat) : Option Nat :=
  let t := byte_at a (i + 2)
  if t = 'A'.toNat ∨ t = 'C'.toNat ∨ t = 'c'.toNat then some (i + 4)
  else if t = 'S'.toNat ∨ t = 's'.toNat then some (i + 5)
  else if t = 'I'.toNat ∨ t = 'i'.toNat ∨ t = 'f'.toNat then some (i + 7)
  else if t = 'd'.toNat then some (i + 11)
  else if t = 'Z'.toNat ∨ t = 'H'.toNat then some (skip_nul a (a.length - (i + 3)) (i + 3))
  else if t = 'B'.toNat then
    let ty := byte_at a (i + 3)
    let count := byte_at a (i + 4) + (byte_at a (i + 5) <<< 8)
      + (byte_at a (i + 6) <<< 16) + (byte_at a (i + 7) <<< 24)
    if ty = 'c'.toNat ∨ ty = 'C'.toNat then some (i + 3 + (count + 5))
    else if ty = 's'.toNat ∨ ty = 'S'.toNat then some (i + 3 + (2 * count + 5))
    else if ty = 'i'.toNat ∨ ty = 'I'.toNat ∨ ty = 'f'.toNat then some (i + 3 + (4 * count + 5))
    else none
  else none

/-- The value of the last `RG:Z` tag among the tags of the area `a` from offset
`i` on, or `rg` when there is none; `n` bounds the number of tags. -/
def last_rg (a : List Nat) : Nat → Nat → Option (List Nat) → Option (List Nat)
  | 0, _, rg => rg
  | n + 1, i, rg =>
    if ¬ (i < a.length ∧ byte_at a i ≠ 0) then rg
    else
      match aux_next a i with
      | none => rg
      | some next =>
        last_rg a n next
          (if byte_at a i = 'R'.toNat ∧ byte_at a (i + 1) = 'G'.toNat
              ∧ byte_at a (i + 2) = 'Z'.toNat then some (c_string a (i + 3))
           else rg)

/-- The value of the `RG:Z` tag of a BAM record (of the last one, should there
be several), `none` when the record has no such tag. -/
def bam_rg_tag (b : bam_seq_t) : Option (List Nat) :=
  last_rg b.aux (b.aux.length + 1) 0 none

/-- A writer whose SAM header has the read groups `g0` and `g1`, in this order. -/
def fd_rg : cram_fd :=
  { fd_v3 with find_rg := fun v =>
      if v = ascii "g0" then some 0 else if v = ascii "g1" then some 1 else none }

/-- The writer `fd_rg` with the option `preserve_aux_order` set. -/
def fd_rg_order : cram_fd := { fd_rg with preserve_aux_order := true }

/-- A record with the tags `XA:C:1` and `RG:Z:g1`. -/
def bam_rg1 : bam_seq_t :=
  { bam_single with aux := ascii "XAC" ++ [1] ++ ascii "RGZg1" ++ [0] }

/-- A record with the tag `RG:Z:g1` followed by a tag of the unknown type `x`. -/
def bam_rg1_bad : bam_seq_t :=
  { bam_single with aux := ascii "RGZg1" ++ [0] ++ ascii "XAx" ++ [1] }

/-- The value `cr->rg` of record 0 after `process_one_read` on a new slice. -/
def rg_after (fd : cram_fd) (b : bam_seq_t) : Option Int :=
  (process_one_read fd (container_new ref8) (slice_new 1) b 0).map
    (fun r => (r.2.crecs 0).rg)

/-- The state after `process_one_read` on `bam_rg1` as record 0 with the header
of `fd_rg`. -/
def state_rg1 : cram_container × cram_slice :=
  (process_one_read fd_rg (container_new ref8) (slice_new 1) bam_rg1 0).getD
    (container_new ref8, slice_new 1)

/-- The loop `for (i = 0; *key && *key++ != val; i++);` of `sub_idx` on the
bytes of `key` before its terminating NUL, with the counter `i`. -/
def sub_idx_loop : List Nat → Nat → Nat → Nat
  | [], _, i => i
  | k :: ks, val, i =>
    if k = 0 then i
    else if k ≠ val then sub_idx_loop ks val (i + 1)
    else i

/-- C function `sub_idx`: the index of `val` in `key`, the length of `key` when
`val` is not in it. -/
def sub_idx (key : List Nat) (val : Nat) : Nat := sub_idx_loop key val 0

/-- The fields of `cram_block_compression_hdr` that the preservation map is
written from. -/
structure cram_block_compression_hdr where
  /-- Hash `h->preservation_map` from the 2-byte key to `data.i`. -/
  preservation_map : HashTable Int
  /-- Table `h->substitution_matrix[5][4]`. -/
  substitution_matrix : Nat → Nat → Nat
  /-- Block `h->TD_blk`. -/
  TD_blk : List Nat

/-- One byte of the local `smat` of `cram_encode_compression_header`: the four
`sub_idx` values of a matrix row packed two bits each, stored in a `char`. -/
def smat_byte (key : List Nat) (row : Nat → Nat) : Nat :=
  ((sub_idx key (row 0) <<< 6) ||| (sub_idx key (row 1) <<< 4)
    ||| (sub_idx key (row 2) <<< 2) ||| (sub_idx key (row 3) <<< 0)) % 256

/-- The local array `smat` of the `SM` arm of `cram_encode_compression_header`. -/
def smat (h : cram_block_compression_hdr) : List Nat :=
  [smat_byte (ascii "CGTN") (h.substitution_matrix 0),
   smat_byte (ascii "AGTN") (h.substitution_matrix 1),
   smat_byte (ascii "ACTN") (h.substitution_matrix 2),
   smat_byte (ascii "ACGN") (h.substitution_matrix 3),
   smat_byte (ascii "ACGT") (h.substitution_matrix 4)]

/-- The bytes one pass of the preservation-map loop of
`cram_encode_compression_header` appends to `map` for the hash item with the
given key and datum: the two key bytes, then one byte for `MI`, `UI`, `PI`, `AP`,
`RN`, `RR`, the five matrix bytes for `SM`, the length and the bytes of the TD
block for `TD`, nothing for an unknown key. `itf8_put` is the integer writer. -/
def preservation_entry (itf8_put : Int → List Nat) (h : cram_block_compression_hdr)
    (key : List Nat) (data : Int) : List Nat :=
  let k2 := key.take 2
  k2 ++
    (if k2 = ascii "MI" ∨ k2 = ascii "UI" ∨ k2 = ascii "PI" ∨ k2 = ascii "AP"
        ∨ k2 = ascii "RN" ∨ k2 = ascii "RR" then [(data % 256).toNat]
     else if k2 = ascii "SM" then smat h
     else if k2 = ascii "TD" then itf8_put (h.TD_blk.length : Int) ++ h.TD_blk
     else [])

/-- The loop "Preservation map" of `cram_encode_compression_header`: the bytes
of `map` and the entry count `mc`. -/
def preservation_map_bytes (itf8_put : Int → List Nat) (h : cram_block_compression_hdr) :
    List Nat × Nat :=
  ((h.preservation_map.map (fun kv => preservation_entry itf8_put h kv.1 kv.2)).flatten,
    h.preservation_map.length)

/-- The key string of row `r` of the substitution matrix: the four bases other
than the reference base `A`, `C`, `G`, `T`, `N` of the row. -/
def sm_key (r : Nat) : List Nat :=
  ([ascii "CGTN", ascii "AGTN", ascii "ACTN", ascii "ACGN", ascii "ACGT"].getD r [])

/-- The 2-bit field of column `col` of a matrix byte, column 0 in the top bits. -/
def sm_field (byte col : Nat) : Nat := (byte >>> (6 - 2 * col)) &&& 3

/-- A compression header whose matrix rows are `TGCN`, `AGTN`, `NTCA`, `ACGN`,
`ACGT` and whose preservation map holds `RN`, `SM` and `TD`. -/
def hdr_ex : cram_block_compression_hdr :=
  { preservation_map := [(ascii "RN", 1), (ascii "SM", 0), (ascii "TD", 0)],
    substitution_matrix := fun r c =>
      ([ascii "TGCN", ascii "AGTN", ascii "NTCA", ascii "ACGN", ascii "ACGT"].getD r []).getD c 0,
    TD_blk := [0] }

/-- The 24-bit id of a tag, `(k0<<16)|(k1<<8)|type`, of its two key bytes and its
type byte. -/
def tag_id (k3 : List Nat) : Nat :=
  (byte_at k3 0 <<< 16) ||| (byte_at k3 1 <<< 8) ||| byte_at k3 2

/-- One pass of the loop "tag encoding map" of `cram_encode_compression_header`
for the item `hi` of `c->tags_used`: the key
`(hi->key[0]<<16)|(hi->key[1]<<8)|hi->key[2]` written with `itf8_put_blk`, then
the stored codec. `none` is the call through the `NULL` codec of a tag map. -/
def tag_encoding_entry (itf8_put : Int → List Nat) (store : aux_codec → List Nat)
    (hi : List Nat × cram_tag_map) : Option (List Nat) :=
  let key := (byte_at hi.1 0 <<< 16) ||| (byte_at hi.1 1 <<< 8) ||| byte_at hi.1 2
  match hi.2.codec with
  | none => none
  | some c => some (itf8_put (key : Int) ++ store c)

/-- The loop "tag encoding map" of `cram_encode_compression_header` over the items
of `c->tags_used`: the bytes of `map` and the entry count `mc`. -/
def tag_encoding_map (itf8_put : Int → List Nat) (store : aux_codec → List Nat) :
    HashTable cram_tag_map → Option (List Nat × Nat)
  | [] => some ([], 0)
  | hi :: rest =>
    match tag_encoding_entry itf8_put store hi, tag_encoding_map itf8_put store rest with
    | some e, some r => some (e ++ r.1, r.2 + 1)
    | _, _ => none

/-- The keys the tag encoding map is written with, one per item of `c->tags_used`. -/
def tag_encoding_keys (tags_used : HashTable cram_tag_map) : List Nat :=
  tags_used.map (fun hi =>
    (byte_at hi.1 0 <<< 16) ||| (byte_at hi.1 1 <<< 8) ||| byte_at hi.1 2)

/-- Every block held by a tag map has the id of the tag's hash key as its
content id. -/
def tags_inv (st : aux_state) : Prop :=
  ∀ kv ∈ st.tags_used, ∀ blk, kv.2.blk = some blk → blk.content_id = tag_id kv.1

/-- The tag state after `cram_encode_aux` has stored the tag `XI:i:5` of a record
in a new container. -/
def state_XI5 : aux_state :=
  match aux_store_tag fd_v3 tag_XI5 0 (container_new []).aux with
  | aux_ret.ok (_, st) => st
  | _ => (container_new []).aux

/-- The block array of a slice at the collapse step of `cram_encode_slice`:
`block k` is the pointer held in `s->block[k]` (`none` for NULL), `blk p` the
block at address `p`, and the remaining fields are those of `s->hdr`. -/
structure slice_blocks where
  block : Nat → Option Nat
  blk : Nat → cram_block_sizes
  num_blocks : Nat
  num_content_ids : Nat
  block_content_ids : Nat → Int

/-- The loop `for (i = j = 1; i < s->hdr->num_blocks; i++)` of the collapse step
of `cram_encode_slice`, from index `i` with the arrays `s->block`,
`s->hdr->block_content_ids` and the counter `j`. -/
def collapse_loop (blk : Nat → cram_block_sizes) (num_blocks : Nat) :
    Nat → Nat → (Nat → Option Nat) × (Nat → Int) × Nat →
      (Nat → Option Nat) × (Nat → Int) × Nat
  | 0, _, st => st
  | fuel + 1, i, (block, ids, j) =>
    if i < num_blocks then
      match block i with
      | none => collapse_loop blk num_blocks fuel (i + 1) (block, ids, j)
      | some p =>
        if block i = block 0 then
          collapse_loop blk num_blocks fuel (i + 1) (block, ids, j)
        else if (blk p).uncomp_size = 0 then
          collapse_loop blk num_blocks fuel (i + 1) (Function.update block i none, ids, j)
        else
          collapse_loop blk num_blocks fuel (i + 1)
            (Function.update block j (some p),
             Function.update ids (j - 1) (blk p).content_id, j + 1)
    else (block, ids, j)

/-- The collapse step of `cram_encode_slice`: the loop over `s->block[1..]`
followed by `s->hdr->num_content_ids = j-1; s->hdr->num_blocks = j;`. -/
def collapse_blocks (s : slice_blocks) : slice_blocks :=
  let r := collapse_loop s.blk s.num_blocks (s.num_blocks - 1) 1
    (s.block, s.block_content_ids, 1)
  { s with
    block := r.1
    block_content_ids := r.2.1
    num_content_ids := r.2.2 - 1
    num_blocks := r.2.2 }

/-- Whether a slot of `s->block[]` holds a non-empty external block: it is not
NULL, not the pointer `core` of `s->block[0]`, and the block it points to has a
non-zero `uncomp_size`. -/
def external_nonempty (blk : Nat → cram_block_sizes) (core : Option Nat)
    (o : Option Nat) : Bool :=
  match o with
  | none => false
  | some p => decide (o ≠ core) && decide ((blk p).uncomp_size ≠ 0)

/-- A slice with the CORE block at address 10, an empty external block at 11,
a slot aliasing the CORE block, a NULL slot and two non-empty external blocks
at 12 and 13. -/
def collapse_ex : slice_blocks where
  block := fun k =>
    if k = 0 then some 10 else if k = 1 then some 11 else if k = 2 then some 10
    else if k = 3 then none else if k = 4 then some 12 else if k = 5 then some 13
    else none
  blk := fun p =>
    if p = 10 then ⟨true, 0, 3, 3⟩ else if p = 11 then ⟨true, 1, 0, 0⟩
    else if p = 12 then ⟨false, 4, 7, 9⟩ else ⟨true, 5, 2, 2⟩
  num_blocks := 6
  num_content_ids := 0
  block_content_ids := fun _ => 0

/-- The slice header `s->hdr` as `cram_encode_slice_header` reads it: the three
reference fields and the remaining fields of the C `cram_block_slice_hdr`.
`mapped` is the C test `s->hdr->content_type == MAPPED_SLICE`; `md5` is the
array `md5[16]`. -/
structure cram_slice_hdr extends cram_block_slice_hdr where
  mapped : Bool
  num_records : Int
  record_counter : Int
  num_blocks : Int
  num_content_ids : Int
  block_content_ids : Nat → Int
  ref_base_id : Int
  md5 : List Nat

/-- The block returned by `cram_encode_slice_header`: made by
`cram_new_block(MAPPED_SLICE, 0)`, then given its data and both sizes. -/
structure slice_hdr_block where
  content_id : Int
  data : List Nat
  comp_size : Int
  uncomp_size : Int
  deriving DecidableEq, Repr

/-- The loop `for (j = 0; j < s->hdr->num_content_ids; j++)` of
`cram_encode_slice_header`, appending to the bytes `cp` written so far. -/
def slice_header_ids (itf8_put : Int → List Nat) (hdr : cram_slice_hdr) :
    Nat → Nat → List Nat → List Nat
  | 0, _, cp => cp
  | fuel + 1, j, cp =>
    if (j : Int) < hdr.num_content_ids then
      slice_header_ids itf8_put hdr fuel (j + 1) (cp ++ itf8_put (hdr.block_content_ids j))
    else cp

/-- The four stores `*cp++ = (crc >> 0) & 0xff; … *cp++ = (crc >> 24) & 0xff`. -/
def crc_stores (crc : Nat) : List Nat :=
  [(crc >>> 0) &&& 255, (crc >>> 8) &&& 255, (crc >>> 16) &&& 255, (crc >>> 24) &&& 255]

/-- The bytes that `cram_encode_slice_header` writes to `buf`, in the order of
its statements. `itf8_put` and `ltf8_put` are the integer writers, `BD_crc` and
`SD_crc` the fields of the slice. -/
def slice_header_bytes (itf8_put ltf8_put : Int → List Nat) (fd : cram_fd)
    (hdr : cram_slice_hdr) (BD_crc SD_crc : Nat) : List Nat :=
  let cp : List Nat := []
  let cp := cp ++ itf8_put hdr.ref_seq_id
  let cp :=
    if 4 ≤ CRAM_MAJOR_VERS fd.version then
      (cp ++ ltf8_put hdr.ref_seq_start) ++ ltf8_put hdr.ref_seq_span
    else
      (cp ++ itf8_put hdr.ref_seq_start) ++ itf8_put hdr.ref_seq_span
  let cp := cp ++ itf8_put hdr.num_records
  let cp :=
    if CRAM_MAJOR_VERS fd.version = 2 then cp ++ itf8_put hdr.record_counter
    else if 3 ≤ CRAM_MAJOR_VERS fd.version then cp ++ ltf8_put hdr.record_counter
    else cp
  let cp := cp ++ itf8_put hdr.num_blocks
  let cp := cp ++ itf8_put hdr.num_content_ids
  let cp := slice_header_ids itf8_put hdr hdr.num_content_ids.toNat 0 cp
  let cp := if hdr.mapped then cp ++ itf8_put hdr.ref_base_id else cp
  let cp := cp ++ bytes_from hdr.md5 0 16
  if 3 ≤ CRAM_MAJOR_VERS fd.version then
    if BD_crc ≠ 0 ∨ SD_crc ≠ 0 then
      ((cp ++ [66, 68, 66, 99, 4, 0, 0, 0]) ++ crc_stores BD_crc
        ++ [83, 68, 66, 99, 4, 0, 0, 0]) ++ crc_stores SD_crc
    else cp
  else cp

/-- C function `cram_encode_slice_header`: the block holding the bytes of the
slice header, `none` when `assert(cp-buf <= 22+16+5*(8+s->hdr->num_blocks))`
fails. The allocations are taken to succeed. -/
def cram_encode_slice_header (itf8_put ltf8_put : Int → List Nat) (fd : cram_fd)
    (hdr : cram_slice_hdr) (BD_crc SD_crc : Nat) : Option slice_hdr_block :=
  let buf := slice_header_bytes itf8_put ltf8_put fd hdr BD_crc SD_crc
  if (buf.length : Int) ≤ 22 + 16 + 5 * (8 + hdr.num_blocks) then
    some { content_id := 0, data := buf, comp_size := buf.length, uncomp_size := buf.length }
  else none

/-- One item of the slice header layout: an integer written as `itf8`, an integer
written as `ltf8`, or literal bytes. -/
inductive hdr_item where
  | itf8 (v : Int)
  | ltf8 (v : Int)
  | bytes (b : List Nat)

/-- The bytes of one layout item under the two integer writers. -/
def hdr_item.put (itf8_put ltf8_put : Int → List Nat) : hdr_item → List Nat
  | .itf8 v => itf8_put v
  | .ltf8 v => ltf8_put v
  | .bytes b => b

/-- The value `v` in `n` little-endian bytes. -/
def le_bytes : Nat → Nat → List Nat
  | 0, _ => []
  | n + 1, v => v % 256 :: le_bytes n (v / 256)

/-- A CRC tag of the slice header: the two key bytes, `B`, `c`, the count
4,0,0,0 and the CRC in four little-endian bytes. -/
def crc_tag (k0 k1 crc : Nat) : List Nat :=
  [k0, k1, 'B'.toNat, 'c'.toNat, 4, 0, 0, 0] ++ le_bytes 4 crc

/-- The slice header block layout as the specification lists it. -/
def slice_header_layout (fd : cram_fd) (hdr : cram_slice_hdr) (BD_crc SD_crc : Nat) :
    List hdr_item :=
  [.itf8 hdr.ref_seq_id]
  ++ (if 4 ≤ CRAM_MAJOR_VERS fd.version then
        [.ltf8 hdr.ref_seq_start, .ltf8 hdr.ref_seq_span]
      else [.itf8 hdr.ref_seq_start, .itf8 hdr.ref_seq_span])
  ++ [.itf8 hdr.num_records]
  ++ (if CRAM_MAJOR_VERS fd.version = 2 then [.itf8 hdr.record_counter]
      else if 3 ≤ CRAM_MAJOR_VERS fd.version then [.ltf8 hdr.record_counter]
      else [])
  ++ [.itf8 hdr.num_blocks, .itf8 hdr.num_content_ids]
  ++ (List.range hdr.num_content_ids.toNat).map (fun j => .itf8 (hdr.block_content_ids j))
  ++ (if hdr.mapped then [.itf8 hdr.ref_base_id] else [])
  ++ [.bytes (bytes_from hdr.md5 0 16)]
  ++ (if 3 ≤ CRAM_MAJOR_VERS fd.version ∧ (BD_crc ≠ 0 ∨ SD_crc ≠ 0) then
        [.bytes (crc_tag 'B'.toNat 'D'.toNat BD_crc),
         .bytes (crc_tag 'S'.toNat 'D'.toNat SD_crc)]
      else [])

/-- The bytes of the specified layout under the two integer writers. -/
def slice_header_layout_bytes (itf8_put ltf8_put : Int → List Nat) (fd : cram_fd)
    (hdr : cram_slice_hdr) (BD_crc SD_crc : Nat) : List Nat :=
  ((slice_header_layout fd hdr BD_crc SD_crc).map (hdr_item.put itf8_put ltf8_put)).flatten

/-- An integer writer for the examples: the one-byte form of `itf8` and `ltf8`,
which is the encoding of the values 0 to 127. -/
def put_1byte (v : Int) : List Nat := [v.toNat % 128]

/-- A mapped slice header with two content ids. -/
def slice_hdr_ex : cram_slice_hdr where
  ref_seq_id := 1
  ref_seq_start := 10
  ref_seq_span := 90
  mapped := true
  num_records := 7
  record_counter := 3
  num_blocks := 3
  num_content_ids := 2
  block_content_ids := fun j => if j = 0 then 11 else 12
  ref_base_id := 5
  md5 := List.replicate 16 170

/-- The C structure `SAM_hdr_tag`: a tag of a header line, given by its offset
`idx` in the header text and its length `len`. The linked list of the tags of a
line is a list. -/
structure SAM_hdr_tag where
  idx : Nat
  len : Nat
  deriving DecidableEq, Repr

/-- The fields of the C structure `SAM_PG` that `sam_header_link_pg` uses: the
ID of the record (`none` for a NULL name), its tags, `id` and `prev_id`. -/
structure SAM_PG where
  name : Option (List Nat)
  tag : List SAM_hdr_tag
  id : Int
  prev_id : Int
  deriving DecidableEq, Repr

/-- The part of the C structure `SAM_hdr` that `sam_header_link_pg` works on: the
header text, the array `pg[0 .. npg)`, the hash `pg_hash` from a name to its
index in `pg`, and the array `pg_end[0 .. npg_end)`. -/
structure SAM_hdr_pg where
  text : List Nat
  npg : Nat
  pg : Nat → SAM_PG
  pg_hash : HashTable Nat
  npg_end : Nat
  pg_end : Nat → Int

/-- The loop `for (tag = hdr->pg[i].tag; tag; tag = tag->next)` of
`sam_header_link_pg`: the first tag whose two key bytes are `PP`. -/
def pg_pp_tag (text : List Nat) (tags : List SAM_hdr_tag) : Option SAM_hdr_tag :=
  tags.find? (fun t =>
    decide (byte_at text t.idx = 'P'.toNat) && decide (byte_at text (t.idx + 1) = 'P'.toNat))

/-- The key of the lookup
`HashTableSearch(hdr->pg_hash, &str[tag->idx+3], tag->len-3)`: the `tag->len-3`
bytes after the `PP:`. A length of 0 makes the hash library measure the key
with `strlen`, as in the calls that pass 0 with a NUL-terminated name. -/
def pg_pp_key (text : List Nat) (tag : SAM_hdr_tag) : List Nat :=
  if tag.len - 3 = 0 then c_string text (tag.idx + 3)
  else bytes_from text (tag.idx + 3) (tag.len - 3)

/-- One pass of the second loop of `sam_header_link_pg` for record `i`, on the
array `pg`, the array `pg_end` and the return value `ret`. -/
def link_pg_step (text : List Nat) (pg_hash : HashTable Nat)
    (st : (Nat → SAM_PG) × (Nat → Int) × Int) (i : Nat) :
    (Nat → SAM_PG) × (Nat → Int) × Int :=
  match pg_pp_tag text (st.1 i).tag with
  | none => st
  | some tag =>
    match HashTableSearch pg_hash (pg_pp_key text tag) with
    | none => (st.1, st.2.1, -1)
    | some hi =>
      (Function.update st.1 i { st.1 i with prev_id := (st.1 hi).id },
       Function.update st.2.1 hi (-1), st.2.2)

/-- One pass of the last loop of `sam_header_link_pg`, on the array `pg_end` and
the counter `j`. -/
def pg_end_step (st : (Nat → Int) × Nat) (i : Nat) : (Nat → Int) × Nat :=
  if st.1 i ≠ -1 then (Function.update st.1 st.2 (st.1 i), st.2 + 1) else st

/-- C function `sam_header_link_pg`: the header afterwards and the return value.
The reallocation of `pg_end` is taken to succeed. -/
def sam_header_link_pg (hdr : SAM_hdr_pg) : SAM_hdr_pg × Int :=
  let pg_end : Nat → Int := fun i => if i < hdr.npg then (i : Int) else hdr.pg_end i
  let r := (List.range hdr.npg).foldl (link_pg_step hdr.text hdr.pg_hash) (hdr.pg, pg_end, 0)
  let c := (List.range hdr.npg).foldl pg_end_step (r.2.1, 0)
  ({ hdr with pg := r.1, pg_end := c.1, npg_end := c.2 }, r.2.2)

/-- The value of a tag: the bytes after its two key bytes and the separator. -/
def tag_value (text : List Nat) (tag : SAM_hdr_tag) : List Nat :=
  bytes_from text (tag.idx + 3) (tag.len - 3)

/-- Whether record `i` names record `j` in its first `PP` tag: the value of that
tag is the ID of record `j`. -/
def pg_names (hdr : SAM_hdr_pg) (i j : Nat) : Bool :=
  match pg_pp_tag hdr.text (hdr.pg i).tag with
  | none => false
  | some tag => decide ((hdr.pg j).name = some (tag_value hdr.text tag))

/-- Whether some record of the header names record `j` in its first `PP` tag. -/
def pg_named (hdr : SAM_hdr_pg) (j : Nat) : Bool :=
  (List.range hdr.npg).any (fun i => pg_names hdr i j)

/-- Whether some record other than `j` names record `j` in its first `PP` tag. -/
def pg_named_by_other (hdr : SAM_hdr_pg) (j : Nat) : Bool :=
  (List.range hdr.npg).any (fun i => decide (i ≠ j) && pg_names hdr i j)

/-- Whether the first `PP` tag of record `i` names an ID that no record of the
header has. -/
def pg_dangling (hdr : SAM_hdr_pg) (i : Nat) : Bool :=
  match pg_pp_tag hdr.text (hdr.pg i).tag with
  | none => false
  | some tag =>
    (List.range hdr.npg).all (fun j => decide ((hdr.pg j).name ≠ some (tag_value hdr.text tag)))

/-- Whether some `PP` tag of record `i`, the first or a later one, names an ID
that no record of the header has. -/
def pg_dangling_any (hdr : SAM_hdr_pg) (i : Nat) : Bool :=
  (hdr.pg i).tag.any (fun t =>
    decide (byte_at hdr.text t.idx = 'P'.toNat) &&
    decide (byte_at hdr.text (t.idx + 1) = 'P'.toNat) &&
    (List.range hdr.npg).all (fun j => decide ((hdr.pg j).name ≠ some (tag_value hdr.text t))))

/-- The target of the lookup made for record `i`: `none` without a `PP` tag,
`some none` when the lookup fails, `some (some j)` when it finds index `j`. -/
def pg_pp_target (hdr : SAM_hdr_pg) (i : Nat) : Option (Option Nat) :=
  (pg_pp_tag hdr.text (hdr.pg i).tag).map
    (fun tag => HashTableSearch hdr.pg_hash (pg_pp_key hdr.text tag))

/-- The header of the text `@PG ID:a`, `@PG ID:b PP:a`, `@PG ID:c`, with the
tables that parsing builds. -/
def pg_chain_ex : SAM_hdr_pg where
  text := ascii "@PG\tID:a\n@PG\tID:b\tPP:a\n@PG\tID:c\n"
  npg := 3
  pg := fun i =>
    if i = 0 then ⟨some (ascii "a"), [⟨4, 4⟩], 0, -1⟩
    else if i = 1 then ⟨some (ascii "b"), [⟨13, 4⟩, ⟨18, 4⟩], 1, 0⟩
    else ⟨some (ascii "c"), [⟨27, 4⟩], 2, -1⟩
  pg_hash := [(ascii "a", 0), (ascii "b", 1), (ascii "c", 2)]
  npg_end := 2
  pg_end := fun i => if i = 0 then 1 else 2

/-- The header of the one-line text `@PG ID:a PP:a`, a record whose `PP` tag
names its own ID. -/
def pg_self_ex : SAM_hdr_pg where
  text := ascii "@PG\tID:a\tPP:a\n"
  npg := 1
  pg := fun _ => ⟨some (ascii "a"), [⟨4, 4⟩, ⟨9, 4⟩], 0, -1⟩
  pg_hash := [(ascii "a", 0)]
  npg_end := 1
  pg_end := fun _ => 0

/-- The header of the text `@PG ID:a`, `@PG ID:b PP:a PP:zz`: the second record
has two `PP` tags, the later one naming an ID that is not in the header. -/
def pg_two_pp_ex : SAM_hdr_pg where
  text := ascii "@PG\tID:a\n@PG\tID:b\tPP:a\tPP:zz\n"
  npg := 2
  pg := fun i =>
    if i = 0 then ⟨some (ascii "a"), [⟨4, 4⟩], 0, -1⟩
    else ⟨some (ascii "b"), [⟨13, 4⟩, ⟨18, 4⟩, ⟨23, 5⟩], 1, -1⟩
  pg_hash := [(ascii "a", 0), (ascii "b", 1)]
  npg_end := 1
  pg_end := fun i => if i = 0 then 1 else 0

/-- The header of the text `@PG ID:`, `@PG ID:b PP:`: the first record has the
empty ID, and the `PP` tag of the second record has the empty value. -/
def pg_empty_pp_ex : SAM_hdr_pg where
  text := ascii "@PG\tID:\n@PG\tID:b\tPP:\n"
  npg := 2
  pg := fun i =>
    if i = 0 then ⟨some [], [⟨4, 3⟩], 0, -1⟩
    else ⟨some (ascii "b"), [⟨12, 4⟩, ⟨17, 3⟩], 1, -1⟩
  pg_hash := [([], 0), (ascii "b", 1)]
  npg_end := 2
  pg_end := fun i => if i = 0 then 0 else 1

/-- The state of the second loop of `sam_header_link_pg` after the records below
`m`: names, tags and ids are untouched, `prev_id` is set for the records below
`m` whose lookup succeeded, `pg_end` is -1 at the indices found, and `ret` is -1
when a lookup failed. -/
structure link_inv (hdr : SAM_hdr_pg) (m : Nat)
    (st : (Nat → SAM_PG) × (Nat → Int) × Int) : Prop where
  same : ∀ k, (st.1 k).tag = (hdr.pg k).tag ∧ (st.1 k).id = (hdr.pg k).id ∧
    (st.1 k).name = (hdr.pg k).name
  prev : ∀ k, (st.1 k).prev_id =
    if k < m then
      (match pg_pp_target hdr k with
       | some (some j) => (hdr.pg j).id
       | _ => (hdr.pg k).prev_id)
    else (hdr.pg k).prev_id
  ends : ∀ j, st.2.1 j =
    if (List.range m).any (fun k => pg_pp_target hdr k == some (some j)) = true then -1
    else if j < hdr.npg then (j : Int) else hdr.pg_end j
  ret : st.2.2 =
    if (List.range m).any (fun k => pg_pp_target hdr k == some none) = true then -1 else 0

/-- The C structure `SAM_hdr_type`: one header line, given by its tags and its
`order` in the ring of the lines of its type. The ring itself is the list of
its lines from the first one on. -/
structure SAM_hdr_type where
  tag : List SAM_hdr_tag
  order : Nat
  deriving DecidableEq, Repr

/-- The fields of the C structure `SAM_SQ` that `sam_header_update_hashes`
sets: the name (`none` for NULL), the length and the tags of the line. -/
structure SAM_SQ where
  name : Option (List Nat)
  len : Int
  tag : List SAM_hdr_tag
  deriving DecidableEq, Repr

/-- The fields of the C structure `SAM_RG` that `sam_header_update_hashes`
sets: the name (`none` for NULL), the tags of the line and the id. The field
`name_len` is the length of the name. -/
structure SAM_RG where
  name : Option (List Nat)
  tag : List SAM_hdr_tag
  id : Int
  deriving DecidableEq, Repr

/-- The C structure `SAM_hdr` as `sam_header_add_lines`,
`sam_header_update_hashes` and `sam_header_find` use it: the header text, the
hash `h` from the two type bytes to the ring of the lines of that type, and the
tables of the @SQ, @RG and @PG lines, each array with its hash from a name to an
index; `pg_end` holds the `npg_end` indices of the @PG lines that end a chain. -/
structure SAM_hdr where
  text : List Nat
  h : HashTable (List SAM_hdr_type)
  ref : List SAM_SQ
  ref_hash : HashTable Nat
  rg : List SAM_RG
  rg_hash : HashTable Nat
  pg : List SAM_PG
  pg_hash : HashTable Nat
  pg_end : List Nat
  deriving DecidableEq, Repr

/-- The scan `for (j = ++i; j < len && hdr[j] != '\n' && hdr[j] != '\t'; j++);`
of `sam_header_add_lines`, from `j`. -/
def tag_scan (hdr : List Nat) (len : Nat) : Nat → Nat → Nat
  | 0, j => j
  | fuel + 1, j =>
    if j < len ∧ byte_at hdr j ≠ 10 ∧ byte_at hdr j ≠ 9 then tag_scan hdr len fuel (j + 1)
    else j

/-- The loop `do { … } while (i < len && hdr[i] != '\n')` of
`sam_header_add_lines` that parses the tags of a line from index `i`: the tags
appended to `acc` and the index after the loop, `none` when
`assert(hdr[i] == '\t')` fails. Each pass moves `i` forward, so the fuel
`len + 1` given by the caller is never used up. -/
def parse_tags (hdr : List Nat) (len text_offset : Nat) :
    Nat → Nat → List SAM_hdr_tag → Option (List SAM_hdr_tag × Nat)
  | 0, _, _ => none
  | fuel + 1, i, acc =>
    if byte_at hdr i ≠ 9 then none
    else
      let i1 := i + 1
      let j := tag_scan hdr len (len - i1) i1
      let acc1 := acc ++ [⟨i1 + text_offset, j - i1⟩]
      if j < len ∧ byte_at hdr j ≠ 10 then parse_tags hdr len text_offset fuel j acc1
      else some (acc1, j)

/-- The block "Add the header line type" and "Form the ring" of
`sam_header_add_lines` for a line with the given tags: a new type starts a ring
with `order = 0`, a known type gets the line at the end of its ring with the
`order` of the last line plus one. -/
def sam_hdr_add_type (h : HashTable (List SAM_hdr_type)) (type : List Nat)
    (tags : List SAM_hdr_tag) : HashTable (List SAM_hdr_type) :=
  let r := HashTableAdd h type [⟨tags, 0⟩]
  if r.2 then r.1
  else
    let ring := (HashTableSearch r.1 type).getD []
    HashTableSet r.1 type (ring ++ [⟨tags, (ring.getLast?.map SAM_hdr_type.order).getD 0 + 1⟩])

/-- The digits loop of `atoi`: the value of the leading decimal digits. -/
def atoi_digits : List Nat → Int → Int
  | [], acc => acc
  | d :: ds, acc =>
    if 48 ≤ d ∧ d ≤ 57 then atoi_digits ds (acc * 10 + ((d - 48 : Nat) : Int)) else acc

/-- The C library call `atoi` on a string: white space is skipped, then an
optional sign and the leading decimal digits are read. A value outside the range
of `int` is not cut. -/
def atoi (str : List Nat) : Int :=
  match str.dropWhile (fun b => decide (b = 32) || (decide (9 ≤ b) && decide (b ≤ 13))) with
  | 45 :: r => - atoi_digits r 0
  | 43 :: r => atoi_digits r 0
  | r => atoi_digits r 0

/-- The statements `name = malloc(tag->len)`,
`strncpy(name, &str[tag->idx+3], tag->len-3)` and `name[tag->len-3] = 0` of
`sam_header_update_hashes`: the name as a C string, the bytes of the value up to
a NUL. For a tag of fewer than three bytes the length `tag->len-3` is negative;
`strncpy` takes it as a size close to the largest one and writes far past the
allocation: `none`, the call does not return. Allocation is taken to succeed. -/
def hash_tag_name (str : List Nat) (tag : SAM_hdr_tag) : Option (List Nat) :=
  if tag.len < 3 then none
  else some (c_string (bytes_from str (tag.idx + 3) (tag.len - 3)) 0)

/-- The loop `while (tag)` of the @SQ block of `sam_header_update_hashes`: an
`SN` tag sets the name, an `LN` tag the length. -/
def update_sq_tags (str : List Nat) : List SAM_hdr_tag → SAM_SQ → Option SAM_SQ
  | [], r => some r
  | tag :: rest, r =>
    if byte_at str tag.idx = 'S'.toNat ∧ byte_at str (tag.idx + 1) = 'N'.toNat then
      match hash_tag_name str tag with
      | none => none
      | some n => update_sq_tags str rest { r with name := some n }
    else if byte_at str tag.idx = 'L'.toNat ∧ byte_at str (tag.idx + 1) = 'N'.toNat then
      update_sq_tags str rest { r with len := atoi (c_string str (tag.idx + 3)) }
    else update_sq_tags str rest r

/-- The loop `while (tag)` of the @RG block of `sam_header_update_hashes`: an
`ID` tag sets the name. -/
def update_rg_tags (str : List Nat) : List SAM_hdr_tag → SAM_RG → Option SAM_RG
  | [], r => some r
  | tag :: rest, r =>
    if byte_at str tag.idx = 'I'.toNat ∧ byte_at str (tag.idx + 1) = 'D'.toNat then
      match hash_tag_name str tag with
      | none => none
      | some n => update_rg_tags str rest { r with name := some n }
    else update_rg_tags str rest r

/-- The loop `for (i = 0; i < sh->npg_end; i++)` of the @PG block of
`sam_header_update_hashes` on the entries from `i` on: an entry equal to `hi` is
taken out by moving the later entries down, after which the loop goes on with
the entry after the one that moved into its place. -/
def pg_end_remove (hi : Nat) : List Nat → List Nat
  | [] => []
  | [x] => if x = hi then [] else [x]
  | x :: y :: rest =>
    if x = hi then y :: pg_end_remove hi rest else x :: pg_end_remove hi (y :: rest)

/-- The block "Unmark previous entry as a PG termination": the last entry is
dropped when it is `hi`, otherwise the array is searched. -/
def pg_end_unmark (pg_end : List Nat) (hi : Nat) : List Nat :=
  if pg_end.getLast? = some hi then pg_end.dropLast else pg_end_remove hi pg_end

/-- The loop `while (tag)` of the @PG block of `sam_header_update_hashes`, on
the new record and the array `pg_end`: an `ID` tag sets the name; a `PP` tag is
looked up in `pg_hash`, and when found sets `prev_id` and takes the record found
out of `pg_end`. For a `PP` tag of fewer than three bytes the lookup gets a
negative length, which the hash library is not made for: `none`. -/
def update_pg_tags (str : List Nat) (pg : List SAM_PG) (pg_hash : HashTable Nat) :
    List SAM_hdr_tag → SAM_PG × List Nat → Option (SAM_PG × List Nat)
  | [], st => some st
  | tag :: rest, st =>
    if byte_at str tag.idx = 'I'.toNat ∧ byte_at str (tag.idx + 1) = 'D'.toNat then
      match hash_tag_name str tag with
      | none => none
      | some n => update_pg_tags str pg pg_hash rest ({ st.1 with name := some n }, st.2)
    else if byte_at str tag.idx = 'P'.toNat ∧ byte_at str (tag.idx + 1) = 'P'.toNat then
      if tag.len < 3 then none
      else
        match HashTableSearch pg_hash (pg_pp_key str tag) with
        | some hi =>
          update_pg_tags str pg pg_hash rest
            ({ st.1 with prev_id := (pg.getD hi ⟨none, [], 0, -1⟩).id }, pg_end_unmark st.2 hi)
        | none => update_pg_tags str pg pg_hash rest ({ st.1 with prev_id := -1 }, st.2)
    else update_pg_tags str pg pg_hash rest st

/-- The block "Add to reference hash?" of `sam_header_update_hashes` for a line
of the given type and tags. -/
def update_hashes_sq (sh : SAM_hdr) (type : List Nat) (tags : List SAM_hdr_tag) :
    Option SAM_hdr :=
  if byte_at type 0 = 'S'.toNat ∧ byte_at type 1 = 'Q'.toNat then
    match update_sq_tags sh.text tags ⟨none, 0, tags⟩ with
    | none => none
    | some r =>
      some { sh with
        ref := sh.ref ++ [r],
        ref_hash :=
          match r.name with
          | some n => (HashTableAdd sh.ref_hash n sh.ref.length).1
          | none => sh.ref_hash }
  else some sh

/-- The block "Add to read-group hash?" of `sam_header_update_hashes`. -/
def update_hashes_rg (sh : SAM_hdr) (type : List Nat) (tags : List SAM_hdr_tag) :
    Option SAM_hdr :=
  if byte_at type 0 = 'R'.toNat ∧ byte_at type 1 = 'G'.toNat then
    match update_rg_tags sh.text tags ⟨none, tags, (sh.rg.length : Int)⟩ with
    | none => none
    | some r =>
      some { sh with
        rg := sh.rg ++ [r],
        rg_hash :=
          match r.name with
          | some n => (HashTableAdd sh.rg_hash n sh.rg.length).1
          | none => sh.rg_hash }
  else some sh

/-- The block "Add to program hash?" of `sam_header_update_hashes`: the new
record is entered in `pg_hash` and put at the end of `pg_end`. -/
def update_hashes_pg (sh : SAM_hdr) (type : List Nat) (tags : List SAM_hdr_tag) :
    Option SAM_hdr :=
  if byte_at type 0 = 'P'.toNat ∧ byte_at type 1 = 'G'.toNat then
    match update_pg_tags sh.text sh.pg sh.pg_hash tags
        (⟨none, tags, (sh.pg.length : Int), -1⟩, sh.pg_end) with
    | none => none
    | some (r, pg_end) =>
      some { sh with
        pg := sh.pg ++ [r],
        pg_hash :=
          match r.name with
          | some n => (HashTableAdd sh.pg_hash n sh.pg.length).1
          | none => sh.pg_hash,
        pg_end := pg_end ++ [sh.pg.length] }
  else some sh

/-- C function `sam_header_update_hashes(sh, type, h_type)` for the line with
the two type bytes `type` and the tags `tags`: the header afterwards, `none`
when a call inside does not return. Allocation is taken to succeed, so the
function does not return -1. -/
def sam_header_update_hashes (sh : SAM_hdr) (type : List Nat) (tags : List SAM_hdr_tag) :
    Option SAM_hdr :=
  match update_hashes_sq sh type tags with
  | none => none
  | some sh1 =>
    match update_hashes_rg sh1 type tags with
    | none => none
    | some sh2 => update_hashes_pg sh2 type tags

/-- The loop `for (i = 0; i < len; i++)` of `sam_header_add_lines` over the new
text `hdr`, from index `i`: `none` for the return of -1, for a failed assertion
and for a call of `sam_header_update_hashes` that does not return. -/
def add_lines_loop (hdr : List Nat) (len text_offset : Nat) :
    Nat → Nat → SAM_hdr → Option SAM_hdr
  | 0, i, sh => if i < len then none else some sh
  | fuel + 1, i, sh =>
    if i < len then
      if byte_at hdr i ≠ 64 then none
      else
        let type := [byte_at hdr (i + 1), byte_at hdr (i + 2)]
        let i3 := i + 3
        if byte_at hdr i3 = 10 then add_lines_loop hdr len text_offset fuel (i3 + 1) sh
        else
          match parse_tags hdr len text_offset (len + 1) i3 [] with
          | none => none
          | some (tags, i') =>
            match sam_header_update_hashes
                { sh with h := sam_hdr_add_type sh.h type tags } type tags with
            | none => none
            | some sh1 => add_lines_loop hdr len text_offset fuel (i' + 1) sh1
    else some sh

/-- C function `sam_header_add_lines` for the `len` bytes `lines` (`len` as
given, or found by `strlen` when 0 is passed): the header afterwards, `none`
for the return of -1, for a failed assertion and for a call that does not
return. -/
def sam_header_add_lines (sh : SAM_hdr) (lines : List Nat) : Option SAM_hdr :=
  add_lines_loop lines lines.length sh.text.length (lines.length + 1) 0
    { sh with text := sh.text ++ lines }

/-- The result of a C function that returns a pointer: the object, NULL, or a
read that runs past the end of a string. -/
inductive find_ret (α : Type) where
  | found (a : α)
  | null
  | overrun
  deriving DecidableEq, Repr

/-- The loop `while (*cp1 == *cp2) cp1++, cp2++;` of `sam_header_find` on the
bytes before the NUL of both strings: the bytes `*cp1` and `*cp2` where it
stops, `none` when it reaches the NUL of both strings together and runs on. -/
def find_cmp : List Nat → List Nat → Option (Nat × Nat)
  | [], [] => none
  | [], b :: _ => if b = 0 then none else some (0, b)
  | a :: _, [] => if a = 0 then none else some (a, 0)
  | a :: as, b :: bs => if a = b then find_cmp as bs else some (a, b)

/-- The body of the tag loop of `sam_header_find` for one tag: whether the
function returns the line for this tag, `none` when the comparison runs past
both strings. -/
def find_tag (text ID_key ID_value : List Nat) (tag : SAM_hdr_tag) : Option Bool :=
  if byte_at text tag.idx = byte_at ID_key 0 ∧ byte_at text (tag.idx + 1) = byte_at ID_key 1 then
    match find_cmp (text.drop (tag.idx + 3)) ID_value with
    | none => none
    | some (c1, c2) =>
      if c2 ≠ 0 then some false
      else if c1 ≠ 9 ∧ c1 ≠ 10 ∧ c1 ≠ 0 then some false
      else some true
  else some false

/-- The loop `for (tag = t1->tag; tag; tag = tag->next)` of `sam_header_find`. -/
def find_in_tags (text ID_key ID_value : List Nat) : List SAM_hdr_tag → Option Bool
  | [] => some false
  | tag :: rest =>
    match find_tag text ID_key ID_value tag with
    | none => none
    | some true => some true
    | some false => find_in_tags text ID_key ID_value rest

/-- The loop `do { … t1 = t1->next; } while (t1 != t2)` of `sam_header_find`
over the ring of a type. -/
def find_in_ring (text ID_key ID_value : List Nat) : List SAM_hdr_type → find_ret SAM_hdr_type
  | [] => .null
  | t1 :: ring =>
    match find_in_tags text ID_key ID_value t1.tag with
    | none => .overrun
    | some true => .found t1
    | some false => find_in_ring text ID_key ID_value ring

/-- C function `sam_header_find`; `ID` is `none` for a NULL `ID_key` and the
pair of `ID_key` and `ID_value` otherwise. -/
def sam_header_find (hdr : SAM_hdr) (type : List Nat) (ID : Option (List Nat × List Nat)) :
    find_ret SAM_hdr_type :=
  match HashTableSearch hdr.h [byte_at type 0, byte_at type 1] with
  | none => .null
  | some ring =>
    match ID with
    | none =>
      match ring with
      | [] => .null
      | t :: _ => .found t
    | some (ID_key, ID_value) => find_in_ring hdr.text ID_key ID_value ring

/-- C function `sam_header_find_line`: the line pasted together from `@`, the
string `type` and the tags, each after a tab. -/
def sam_header_find_line (hdr : SAM_hdr) (type : List Nat)
    (ID : Option (List Nat × List Nat)) : find_ret (List Nat) :=
  match sam_header_find hdr type ID with
  | .found ty =>
    .found ([64] ++ type ++ ty.tag.flatMap (fun tag => 9 :: bytes_from hdr.text tag.idx tag.len))
  | .null => .null
  | .overrun => .overrun

/-- A header line of the specification: the two type bytes and the tags. -/
structure hdr_line where
  t0 : Nat
  t1 : Nat
  tags : List (List Nat)
  deriving DecidableEq, Repr

/-- The text of a header line without its newline: `@`, the type, and every tag
after a tab. -/
def hdr_line.render (l : hdr_line) : List Nat :=
  64 :: l.t0 :: l.t1 :: l.tags.flatMap (fun t => 9 :: t)

/-- The header text of a list of lines, each ended by a newline. -/
def render_lines (L : List hdr_line) : List Nat :=
  L.flatMap (fun l => l.render ++ [10])

/-- A well-formed line has one or more tags, and no tag holds a tab, a newline
or a NUL. -/
def hdr_line.wf (l : hdr_line) : Prop :=
  l.tags ≠ [] ∧ ∀ t ∈ l.tags, ∀ b ∈ t, b ≠ 9 ∧ b ≠ 10 ∧ b ≠ 0

/-- Whether a line is of the given type and has a tag with the given key whose
value, the bytes after the key and the separator, is the given value. -/
def hdr_line.has (l : hdr_line) (type key value : List Nat) : Bool :=
  decide ([l.t0, l.t1] = type) &&
    l.tags.any (fun t => decide (t.take 2 = key) && decide (t.drop 3 = value))

/-- The tags of a line as the parser stores them: offset and length of each tag
of `ts`, the first one at offset `o`. -/
def tag_descs (o : Nat) : List (List Nat) → List SAM_hdr_tag
  | [] => []
  | t :: ts => ⟨o, t.length⟩ :: tag_descs (o + t.length + 1) ts

/-- The lines as the parser stores them: type bytes and tags of each line of
`L`, the first line at offset `o` of the text. -/
def line_descs (o : Nat) : List hdr_line → List (List Nat × List SAM_hdr_tag)
  | [] => []
  | l :: ls =>
    ([l.t0, l.t1], tag_descs (o + 4) l.tags) :: line_descs (o + l.render.length + 1) ls

/-- A fresh header: no text, empty hashes and empty tables. -/
def sam_hdr_empty : SAM_hdr := ⟨[], [], [], [], [], [], [], [], []⟩

/-- Three lines: two read groups and a sequence. -/
def hdr_lines_ex : List hdr_line :=
  [⟨'R'.toNat, 'G'.toNat, [ascii "ID:foo2", ascii "SM:x"]⟩,
   ⟨'S'.toNat, 'Q'.toNat, [ascii "SN:chr1", ascii "LN:100"]⟩,
   ⟨'R'.toNat, 'G'.toNat, [ascii "ID:foo", ascii "SM:y"]⟩]

/-- Two lines, the first a comment line with a tag of two bytes only. -/
def hdr_short_ex : List hdr_line :=
  [⟨'C'.toNat, 'O'.toNat, [ascii "ID"]⟩, ⟨'X'.toNat, 'X'.toNat, [ascii "foo"]⟩]

/-- Two lines, the first a read group whose only tag is the two bytes `ID`. -/
def hdr_short_rg_ex : List hdr_line :=
  [⟨'R'.toNat, 'G'.toNat, [ascii "ID"]⟩, ⟨'X'.toNat, 'X'.toNat, [ascii "foo"]⟩]

/-- The hash `h` after the lines `D`, given by type bytes and tags, are added in
order. -/
def add_descs (h : HashTable (List SAM_hdr_type)) (D : List (List Nat × List SAM_hdr_tag)) :
    HashTable (List SAM_hdr_type) :=
  D.foldl (fun h p => sam_hdr_add_type h p.1 p.2) h

/-- The tags of the lines in the ring of a type, `none` without a ring. -/
def ring_tags (h : HashTable (List SAM_hdr_type)) (key : List Nat) :
    Option (List (List SAM_hdr_tag)) :=
  (HashTableSearch h key).map (List.map SAM_hdr_type.tag)

/-- The tags of the lines of type `key` among the stored lines `D`, in order. -/
def descs_of_type (key : List Nat) (D : List (List Nat × List SAM_hdr_tag)) :
    List (List SAM_hdr_tag) :=
  (D.filter (fun p => decide (p.1 = key))).map (fun p => p.2)

/-- The line that `sam_header_find_line` pastes together for a stored line. -/
def line_bytes (text type : List Nat) (ty : SAM_hdr_type) : List Nat :=
  [64] ++ type ++ ty.tag.flatMap (fun tag => 9 :: bytes_from text tag.idx tag.len)

/-- The result of `sam_header_find_line` from the result of `sam_header_find`. -/
def find_line_of (text type : List Nat) : find_ret SAM_hdr_type → find_ret (List Nat)
  | .found ty => .found (line_bytes text type ty)
  | .null => .null
  | .overrun => .overrun

/-- The result expected for a search among the lines of a header: the text of
the line found, NULL without one. -/
def line_result : Option hdr_line → find_ret (List Nat)
  | some l => .found l.render
  | none => .null

instance hdr_line.wf_decidable (l : hdr_line) : Decidable l.wf := by
  unfold hdr_line.wf
  infer_instance

/-- The table `code2base[256]` of `process_one_read` (compiled with `ALLOW_UAC`):
for a packed byte, the two base letters as one 16-bit number. -/
def code2base : List Nat :=
  [15677, 16701, 17213, 19773, 18237, 21053, 21309, 22077,
   21565, 22333, 22845, 18493, 19261, 17469, 16957, 20029,
   15681, 16705, 17217, 19777, 18241, 21057, 21313, 22081,
   21569, 22337, 22849, 18497, 19265, 17473, 16961, 20033,
   15683, 16707, 17219, 19779, 18243, 21059, 21315, 22083,
   21571, 22339, 22851, 18499, 19267, 17475, 16963, 20035,
   15693, 16717, 17229, 19789, 18253, 21069, 21325, 22093,
   21581, 22349, 22861, 18509, 19277, 17485, 16973, 20045,
   15687, 16711, 17223, 19783, 18247, 21063, 21319, 22087,
   21575, 22343, 22855, 18503, 19271, 17479, 16967, 20039,
   15698, 16722, 17234, 19794, 18258, 21074, 21330, 22098,
   21586, 22354, 22866, 18514, 19282, 17490, 16978, 20050,
   15699, 16723, 17235, 19795, 18259, 21075, 21331, 22099,
   21587, 22355, 22867, 18515, 19283, 17491, 16979, 20051,
   15702, 16726, 17238, 19798, 18262, 21078, 21334, 22102,
   21590, 22358, 22870, 18518, 19286, 17494, 16982, 20054,
   15700, 16724, 17236, 19796, 18260, 21076, 21332, 22100,
   21588, 22356, 22868, 18516, 19284, 17492, 16980, 20052,
   15703, 16727, 17239, 19799, 18263, 21079, 21335, 22103,
   21591, 22359, 22871, 18519, 19287, 17495, 16983, 20055,
   15705, 16729, 17241, 19801, 18265, 21081, 21337, 22105,
   21593, 22361, 22873, 18521, 19289, 17497, 16985, 20057,
   15688, 16712, 17224, 19784, 18248, 21064, 21320, 22088,
   21576, 22344, 22856, 18504, 19272, 17480, 16968, 20040,
   15691, 16715, 17227, 19787, 18251, 21067, 21323, 22091,
   21579, 22347, 22859, 18507, 19275, 17483, 16971, 20043,
   15684, 16708, 17220, 19780, 18244, 21060, 21316, 22084,
   21572, 22340, 22852, 18500, 19268, 17476, 16964, 20036,
   15682, 16706, 17218, 19778, 18242, 21058, 21314, 22082,
   21570, 22338, 22850, 18498, 19266, 17474, 16962, 20034,
   15694, 16718, 17230, 19790, 18254, 21070, 21326, 22094,
   21582, 22350, 22862, 18510, 19278, 17486, 16974, 20046]

/-- Modelled from the spec: the store `*(int16_t *)&cp[i] = le_int2(v)`, where
`le_int2` of `os.h` gives the 16-bit value whose bytes in memory are `v` in
little-endian order: the low byte goes to `cp[i]`, the high byte to `cp[i+1]`. -/
def store_le_int2 (v : Nat) : List Nat := le_bytes 2 v

/-- The loop "Convert seq 2 bases at a time" for `n` packed bytes when compiled
with `ALLOW_UAC`. -/
def unpack_pairs_uac : Nat → List Nat → List Nat
  | 0, _ => []
  | n + 1, src =>
    let byte := src.headD 0 % 256
    store_le_int2 (code2base.getD byte 0) ++ unpack_pairs_uac n src.tail

/-- The converted read when compiled with `ALLOW_UAC`: `l2 / 2` whole bytes, then
the high nibble of the next byte when the length is odd. -/
def unpack_seq_uac (src : List Nat) (len : Nat) : List Nat :=
  unpack_pairs_uac (len / 2) src ++
    (if len % 2 = 1 then [bam_nt16_rev_table ((byte_at src (len / 2) % 256) >>> 4)] else [])

/-- The 4-bit code of base `i` in packed bytes: the high nibble of byte `i / 2`
for an even `i`, the low nibble for an odd one. -/
def nibble (src : List Nat) (i : Nat) : Nat :=
  if i % 2 = 0 then (byte_at src (i / 2) % 256) >>> 4 else (byte_at src (i / 2) % 256) &&& 15

/-- The bytes an insertion or soft clip of length `n` at the read offset of `e` stands for:
the `n` read bases from that offset, or `n` letters `N` when the read has no
sequence (the `NULL` argument). -/
def op_bases (seq : List Nat) (n : Nat) (e : enc) : List Nat :=
  if e.cr.len ≠ 0 then bytes_from seq e.spos n else List.replicate n 'N'.toNat

/-- A read `ACTGTACG` with the CIGAR `2M1I5M`: one inserted `T` after `AC`. -/
def bam_ins1 : bam_seq_t :=
  bam_of 0 0 0 0 "r" "ACTGTACG" [cigar_word 0 2, cigar_word 1 1, cigar_word 0 5]

/-- A read `ACTTTGTA` with the CIGAR `2M3I3M`: three inserted `T` after `AC`. -/
def bam_ins3 : bam_seq_t :=
  bam_of 0 0 0 0 "r" "ACTTTGTA" [cigar_word 0 2, cigar_word 1 3, cigar_word 0 3]

/-- The state of `process_one_read` before an insertion at read offset 2 of an
8-base read. -/
def enc_ins_ex : enc :=
  { c := container_new ref8, s := slice_new 1, cr := { cram_record.zero with len := 8 },
    apos := 2, spos := 2 }

/-- The slice after `process_one_read` on a read as record 0 of a fresh slice on
the reference `ACGTACGT`, for the writer `fd`. -/
def slice_after (fd : cram_fd) (b : bam_seq_t) : cram_slice :=
  ((process_one_read fd (container_new ref8) (slice_new 1) b 0).getD
    (container_new ref8, slice_new 1)).2

/-- A read `TTTTACGT` with the CIGAR `4S4M` at position 1: the four clipped
bases `TTTT`, then `ACGT` matching the reference. -/
def bam_clip : bam_seq_t :=
  bam_of 0 0 0 0 "r" "TTTTACGT" [cigar_word 4 4, cigar_word 0 4]

/-- The container after `process_one_read` on a read as record 0 of a fresh
slice on the reference `ACGTACGT`. -/
def container_after (fd : cram_fd) (b : bam_seq_t) : cram_container :=
  ((process_one_read fd (container_new ref8) (slice_new 1) b 0).getD
    (container_new ref8, slice_new 1)).1

/-- The state of `process_one_read` at the start of the CIGAR walk of an 8-base
read at position 1, as record 0 of a fresh slice, with the flags the head sets
for the writer `fd`. -/
def enc_clip_ex (fd : cram_fd) : enc :=
  { c := container_new ref8, s := slice_new 1,
    cr := { cram_record.zero with len := 8, cram_flags := head_cram_flags fd 8 0 },
    apos := 0, spos := 0 }

/-- Modelled from the spec: the number of bytes of the `ltf8` encoding of a
64-bit value, the 1 to 9 byte form analogous to `itf8`: seven more value bits
for each further byte up to 8 bytes, 9 bytes for a value with one of the top
eight bits set (a negative value has the top bit set). -/
def ltf8_size (v : Int) : Int :=
  if v < 0 then 9
  else if v < 128 then 1
  else if v < 16384 then 2
  else if v < 2097152 then 3
  else if v < 268435456 then 4
  else if v < 34359738368 then 5
  else if v < 4398046511104 then 6
  else if v < 562949953421312 then 7
  else if v < 72057594037927936 then 8
  else 9

/-- A stand-in for `itf8_put` with the length of the real encoding: `itf8_size v`
filler bytes. Only the number of bytes written enters the assertion. -/
def itf8_put_sized (v : Int) : List Nat := List.replicate (itf8_size v).toNat 255

/-- A stand-in for `ltf8_put` with the length of the real encoding: `ltf8_size v`
filler bytes. -/
def ltf8_put_sized (v : Int) : List Nat := List.replicate (ltf8_size v).toNat 255

/-- A mapped slice header of one block without content ids whose 64-bit fields
need nine bytes each as `ltf8`. -/
def slice_hdr_wide : cram_slice_hdr where
  ref_seq_id := -1
  ref_seq_start := 72057594037927936
  ref_seq_span := 72057594037927936
  mapped := true
  num_records := 268435456
  record_counter := 72057594037927936
  num_blocks := 1
  num_content_ids := 0
  block_content_ids := fun _ => 0
  ref_base_id := -1
  md5 := List.replicate 16 170

/-- The loop `for (tag = type->tag; tag; p = tag, tag = tag->next)` of
`sam_header_find_key` over the tags from position `i` of the list on: the
position of the first tag whose text starts with the two bytes `key[0]`,
`key[1]`, `none` when the loop ends without one. -/
def find_key_loop (text key : List Nat) : List SAM_hdr_tag → Nat → Option Nat
  | [], _ => none
  | tag :: rest, i =>
    if byte_at text (tag.idx + 0) = byte_at key 0 ∧ byte_at text (tag.idx + 1) = byte_at key 1
    then some i
    else find_key_loop text key rest (i + 1)

/-- C function `sam_header_find_key`: the returned tag and `*prev`, both as
positions in the tag list of the line. `*prev` is `none` (NULL) when the tag is
the first of the list, and the last tag of the list when no tag is found. -/
def sam_header_find_key (text : List Nat) (type : SAM_hdr_type) (key : List Nat) :
    Option Nat × Option Nat :=
  match find_key_loop text key type.tag 0 with
  | some i => (some i, if i = 0 then none else some (i - 1))
  | none => (none, if type.tag.length = 0 then none else some (type.tag.length - 1))

/-- Modelled from the spec: the text that
`dstring_appendf(hdr->text, "%2.2s:%s", k, v)` appends, the tag `k:v`: the key
in a field of width and precision 2 (its first two bytes, padded on the left
with blanks when shorter), a colon, and the value string. -/
def update_text (k v : List Nat) : List Nat :=
  let k2 := (c_string k 0).take 2
  List.replicate (2 - k2.length) 32 ++ k2 ++ [58] ++ c_string v 0

/-- One pass of the loop of `sam_header_update` for the pair `k`, `v`, on the
header text and the line `type`. A tag that is found is overwritten in place; a
new tag is hung after `prev`, or at `type->tag` when the list is empty. The
tag gets the offset and length of the appended text, and `tag->next = NULL`
ends the list at this tag. The allocation is taken to succeed. -/
def sam_header_update_step (st : List Nat × SAM_hdr_type) (kv : List Nat × List Nat) :
    List Nat × SAM_hdr_type :=
  let text := st.1
  let type := st.2
  let r := sam_header_find_key text type kv.1
  let idx := text.length
  let text1 := text ++ update_text kv.1 kv.2
  let tag : SAM_hdr_tag := ⟨idx, text1.length - idx⟩
  match r.1 with
  | some i => (text1, { type with tag := type.tag.take i ++ [tag] })
  | none =>
    match r.2 with
    | some p => (text1, { type with tag := type.tag.take (p + 1) ++ [tag] })
    | none => (text1, { type with tag := [tag] })

/-- C function `sam_header_update(hdr, type, k1, v1, …, NULL)` on the header
text and the line `type`: one pass for each pair before the NULL. -/
def sam_header_update (text : List Nat) (type : SAM_hdr_type)
    (kvs : List (List Nat × List Nat)) : List Nat × SAM_hdr_type :=
  kvs.foldl sam_header_update_step (text, type)

/-- The texts of the tags of a line, in list order. -/
def tag_texts (text : List Nat) (type : SAM_hdr_type) : List (List Nat) :=
  type.tag.map (fun tag => bytes_from text tag.idx tag.len)

/-- A header with the single line `@SQ SN:x LN:5 M5:abc`. -/
def sq_hdr_ex : SAM_hdr :=
  (sam_header_add_lines sam_hdr_empty
    (render_lines [⟨'S'.toNat, 'Q'.toNat, [ascii "SN:x", ascii "LN:5", ascii "M5:abc"]⟩])).getD
    sam_hdr_empty

/-- The line of `sq_hdr_ex`. -/
def sq_type_ex : SAM_hdr_type :=
  match sam_header_find sq_hdr_ex (ascii "SQ") none with
  | .found ty => ty
  | _ => ⟨[], 0⟩

/-- The two counters of a slice header that `cram_encode_slice` reads and
writes in its block "Create cram slice header". -/
structure slice_counts where
  num_records : Int
  record_counter : Int
  deriving DecidableEq, Repr

/-- The two counters of a container that `cram_encode_container` hands to its
slices. -/
structure container_counts where
  num_records : Int
  record_counter : Int
  deriving DecidableEq, Repr

/-- The statements `s->hdr->record_counter = c->num_records + c->record_counter;
c->num_records += s->hdr->num_records;` of `cram_encode_slice`. The rest of the
function touches neither counter; `ok` says whether it returns 0, and `none` is
its return of -1. -/
def cram_encode_slice_counts (ok : Bool) (c : container_counts) (hdr : slice_counts) :
    Option (container_counts × slice_counts) :=
  let hdr1 : slice_counts := { hdr with record_counter := c.num_records + c.record_counter }
  let c1 : container_counts := { c with num_records := c.num_records + hdr1.num_records }
  if ok then some (c1, hdr1) else none

/-- The loop `for (i = 0; i < c->curr_slice; i++) if (cram_encode_slice(...) != 0)
return -1;` of `cram_encode_container` over the slice headers, each with the
outcome of the rest of its `cram_encode_slice`; the headers done so far are in
`acc`. -/
def encode_slices_counts :
    List (Bool × slice_counts) → container_counts → List slice_counts →
      Option (container_counts × List slice_counts)
  | [], c, acc => some (c, acc)
  | (ok, hdr) :: rest, c, acc =>
    match cram_encode_slice_counts ok c hdr with
    | none => none
    | some (c1, hdr1) => encode_slices_counts rest c1 (acc ++ [hdr1])

/-- The counters in `cram_encode_container`: `c->num_records = 0;`, then the
loop over the slices. -/
def cram_encode_container_counts (c : container_counts) (slices : List (Bool × slice_counts)) :
    Option (container_counts × List slice_counts) :=
  encode_slices_counts slices { c with num_records := 0 } []

/-- The fields of `cram_container` that `cram_put_bam_seq`,
`cram_next_container` and `cram_update_curr_slice` use to count records and to
decide on a new slice or container. `slice` is the test `c->slice != NULL`,
`refs_used` is `none` for NULL, `slices` holds `hdr->num_records` of the slices
closed so far. -/
structure put_container where
  slice : Bool
  curr_rec : Int
  max_rec : Int
  curr_c_rec : Int
  curr_slice : Int
  max_slice : Int
  curr_ref : Int
  s_num_bases : Int
  multi_seq : Bool
  slice_rec : Int
  record_counter : Int
  refs_used : Option (Int → Int)
  slices : List Int

/-- The fields of `cram_fd` that `cram_put_bam_seq` and `cram_next_container`
use; `nref` is `fd->refs->nref`, `multi_seq` is -1, 0 or 1. -/
structure put_fd where
  ctr : Option put_container
  record_counter : Int
  bases_per_slice : Int
  multi_seq : Int
  last_slice : Int
  embed_ref : Bool
  unsorted : Int
  nref : Int

/-- The fields of a BAM record that `cram_put_bam_seq` reads: `bam_ref(b)` and
`bam_seq_len(b)`. -/
structure put_bam where
  ref : Int
  seq_len : Int
  deriving DecidableEq, Repr

/-- C function `cram_update_curr_slice`, on the counters: the current slice gets
`num_records = c->curr_rec` and `c->curr_slice` moves on. -/
def cram_update_curr_slice (c : put_container) : put_container :=
  { c with slices := c.slices ++ [c.curr_rec], curr_slice := c.curr_slice + 1 }

/-- The test "Flush container" of `cram_next_container`. -/
def next_flushes (c : put_container) (b : put_bam) : Bool :=
  decide (c.curr_slice = c.max_slice ∨ (b.ref ≠ c.curr_ref ∧ c.multi_seq = false))

/-- C function `cram_next_container`, on the counters. `flush_ok` says whether
`cram_flush_container` (or its threaded form) returns 0 and `fresh` is the
container that `cram_new_container` returns; `cram_new_slice` is taken to
succeed. The result is the new `fd->ctr`, `none` for the return of NULL. -/
def cram_next_container (flush_ok : Bool) (fresh : put_container) (fd : put_fd)
    (c : put_container) (b : put_bam) : Option put_container :=
  let c0 : put_container := if c.curr_ref = -2 then { c with curr_ref := b.ref } else c
  let c1 : put_container := if c0.slice then cram_update_curr_slice c0 else c0
  let c2 : Option put_container :=
    if next_flushes c1 b then
      if flush_ok then
        some { fresh with record_counter := fd.record_counter, curr_ref := b.ref }
      else none
    else some c1
  match c2 with
  | none => none
  | some c3 => some { c3 with slice := true, curr_rec := 0, s_num_bases := 0 }

/-- The test of `cram_put_bam_seq` that opens the block deciding on a new
slice. -/
def put_new_block (fd : put_fd) (c : put_container) (b : put_bam) : Bool :=
  decide (c.slice = false ∨ c.curr_rec = c.max_rec
    ∨ (b.ref ≠ c.curr_ref ∧ c.curr_ref ≥ -1) ∨ c.s_num_bases ≥ fd.bases_per_slice)

/-- The test of `cram_put_bam_seq` before the call of `cram_next_container`. -/
def put_calls_next (fd : put_fd) (c : put_container) : Bool :=
  decide (c.curr_rec = c.max_rec ∨ fd.multi_seq ≠ 1 ∨ c.slice = false
    ∨ c.s_num_bases ≥ fd.bases_per_slice)

/-- The block `if (multi_seq) { … }` of `cram_put_bam_seq`: the file and the
container switch to multi-reference mode and `refs_used` is allocated, zeroed,
when it is NULL. -/
def put_multi_seq (multi_seq : Bool) (fd : put_fd) (c : put_container) :
    put_fd × put_container :=
  if multi_seq then
    ({ fd with multi_seq := 1 },
     { c with multi_seq := true, refs_used := some (c.refs_used.getD (fun _ => 0)) })
  else (fd, c)

/-- The block "Have we seen this reference before?" of `cram_put_bam_seq`. -/
def put_seen_ref (multi_seq : Bool) (curr_ref : Int) (fd : put_fd) (c : put_container)
    (b : put_bam) : put_fd × put_container :=
  if b.ref ≥ 0 ∧ curr_ref ≥ 0 ∧ b.ref ≠ curr_ref ∧ fd.embed_ref = false
      ∧ fd.unsorted = 0 ∧ multi_seq = true then
    match c.refs_used with
    | none => (fd, { c with refs_used := some (fun _ => 0) })
    | some used =>
      if used b.ref ≠ 0 then ({ fd with unsorted := 2, multi_seq := 1 }, c)
      else (fd, c)
  else (fd, c)

/-- The statements `c->curr_ref = bam_ref(b); if (c->refs_used && c->curr_ref >= 0)
c->refs_used[c->curr_ref]++;` of `cram_put_bam_seq`. -/
def put_count_ref (c : put_container) (b : put_bam) : put_container :=
  match c.refs_used with
  | some used =>
    if b.ref ≥ 0 then
      { c with curr_ref := b.ref,
               refs_used := some (Function.update used b.ref (used b.ref + 1)) }
    else { c with curr_ref := b.ref }
  | none => { c with curr_ref := b.ref }

/-- The block of `cram_put_bam_seq` that is entered for a new slice or a new
reference, from the locals `multi_seq`, `curr_ref`, `slice_rec`, `curr_rec` to
the count in `refs_used`. `none` is a return of -1. -/
def put_block (flush_ok : Bool) (fresh : put_container) (fd : put_fd) (c : put_container)
    (b : put_bam) : Option (put_fd × put_container) :=
  let multi_seq0 : Bool := decide (fd.multi_seq = 1)
  let curr_ref : Int := if c.slice then c.curr_ref else b.ref
  let multi_seq : Bool :=
    if fd.multi_seq = -1 ∧ c.curr_rec < Int.tdiv c.max_rec 4 + 10 ∧ fd.last_slice ≠ 0
        ∧ fd.last_slice < Int.tdiv c.max_rec 4 + 10 ∧ fd.embed_ref = false then true
    else multi_seq0
  let slice_rec := c.slice_rec
  let curr_rec := c.curr_rec
  let next : Option put_container :=
    if put_calls_next fd c then cram_next_container flush_ok fresh fd c b else some c
  match next with
  | none => none
  | some c1 =>
    let s1 := put_multi_seq multi_seq fd c1
    let fd2 : put_fd := { s1.1 with last_slice := curr_rec - slice_rec }
    let c3 : put_container := { s1.2 with slice_rec := s1.2.curr_rec }
    if c3.refs_used.isSome ∧ b.ref ≥ 0 ∧ b.ref ≥ fd2.nref then none
    else
      let st := put_seen_ref multi_seq curr_ref fd2 c3 b
      some (st.1, put_count_ref st.2 b)

/-- C function `cram_put_bam_seq`, on the counters. `fresh` is the container
that `cram_new_container` returns and `flush_ok` the outcome of a flush; the
copy of the record into `c->bams` is taken to succeed. `none` is the return
of -1. -/
def cram_put_bam_seq (flush_ok : Bool) (fresh : put_container) (fd : put_fd) (b : put_bam) :
    Option put_fd :=
  let c : put_container :=
    match fd.ctr with
    | some c => c
    | none => { fresh with record_counter := fd.record_counter }
  let r : Option (put_fd × put_container) :=
    if put_new_block fd c b then put_block flush_ok fresh fd c b else some (fd, c)
  match r with
  | none => none
  | some (fd1, c1) =>
    some { fd1 with
      ctr := some { c1 with curr_rec := c1.curr_rec + 1, curr_c_rec := c1.curr_c_rec + 1,
                            s_num_bases := c1.s_num_bases + b.seq_len },
      record_counter := fd1.record_counter + 1 }

/-- An empty container with room for 2 records in a slice and 2 slices, standing
for the result of `cram_new_container`: no slice yet, all counts 0, no current
reference. -/
def put_fresh_ex : put_container :=
  { slice := false, curr_rec := 0, max_rec := 2, curr_c_rec := 0, curr_slice := 0,
    max_slice := 2, curr_ref := -2, s_num_bases := 0, multi_seq := false, slice_rec := 0,
    record_counter := 0, refs_used := none, slices := [] }

/-- A writer that has not yet seen a record: one reference in the header, a
large base budget for a slice, single-reference mode. -/
def put_fd_ex : put_fd :=
  { ctr := none, record_counter := 0, bases_per_slice := 1000000, multi_seq := 0,
    last_slice := 0, embed_ref := false, unsorted := 0, nref := 1 }

/-- A record of 10 bases on reference 0. -/
def put_bam_ex : put_bam := ⟨0, 10⟩

/-- The writer after `n` calls of `cram_put_bam_seq` with `put_bam_ex`, starting
from `put_fd_ex`; a failed call leaves the writer as it was. -/
def put_run : Nat → put_fd
  | 0 => put_fd_ex
  | n + 1 => (cram_put_bam_seq true put_fresh_ex (put_run n) put_bam_ex).getD (put_run n)

/-- The counts `record_counter`, `curr_rec`, `curr_c_rec` of a writer, 0 for the
container counts when there is no container. -/
def put_counts (fd : put_fd) : Int × Int × Int :=
  (fd.record_counter, (fd.ctr.map (fun c => c.curr_rec)).getD 0,
    (fd.ctr.map (fun c => c.curr_c_rec)).getD 0)

/-- The container a call of `cram_put_bam_seq` starts from: `fd->ctr`, or a new
one with the record counter of the file. -/
def put_ctr (fresh : put_container) (fd : put_fd) : put_container :=
  match fd.ctr with
  | some c => c
  | none => { fresh with record_counter := fd.record_counter }

/-- Whether a call of `cram_put_bam_seq` starts a new slice: both tests that
lead to `cram_next_container` hold. -/
def put_starts_slice (fresh : put_container) (fd : put_fd) (b : put_bam) : Bool :=
  put_new_block fd (put_ctr fresh fd) b && put_calls_next fd (put_ctr fresh fd)

/-- Whether a call of `cram_put_bam_seq` that starts a new slice also starts a
new container: the flush test of `cram_next_container` on the container with
its current slice closed. -/
def put_starts_container (fresh : put_container) (fd : put_fd) (b : put_bam) : Bool :=
  let c := put_ctr fresh fd
  let c0 : put_container := if c.curr_ref = -2 then { c with curr_ref := b.ref } else c
  let c1 : put_container := if c0.slice then cram_update_curr_slice c0 else c0
  next_flushes c1 b

/-- The value that `cram_add_feature` hands to `cram_stats_add(c->stats[DS_FP], …)`
for the feature `f` in the state `e`: `f->X.pos` for the first feature of the
record, and otherwise `f->X.pos` minus the position of
`s->features[r->feature + r->nfeature - 2]`, with `r->nfeature` already
incremented. -/
def FP_added (e : enc) (f : cram_feature) : Int :=
  if e.cr.nfeature = 0 then f.pos
  else f.pos - (e.s.features.getD (e.cr.feature + (e.cr.nfeature + 1) - 2)
    (cram_feature.mk0 0 0)).pos

/-- The FP sequence as the specification describes it: each position minus the
previous one, the first one minus `prev` (0 for a record, so that the first
value is the absolute position). -/
def fp_deltas : List cram_feature → Int → List Int
  | [], _ => []
  | f :: fs, prev => (f.pos - prev) :: fp_deltas fs f.pos

/-- The values handed to the codec of the series `ds` in a list of codec calls,
in order. -/
def series_values (ds : cram_DS_ID) (em : List emission) : List Int :=
  (em.filter (fun x => decide (x.1 = ds))).flatMap (fun x => x.2)

/-- The running sums of a list of numbers, started at `a`. -/
def running_sums : List Int → Int → List Int
  | [], _ => []
  | x :: xs, a => (a + x) :: running_sums xs (a + x)

/-- Invariant of the mate flags of the records processed so far, before record
`i` of a slice is processed: no record is DETACHED and MATE_DOWNSTREAM at once,
and in lossy read-name mode every record is DETACHED or carries DISCARD_NAME. -/
structure name_inv (fd : cram_fd) (s : cram_slice) (i : Nat) : Prop where
  /-- A DETACHED record is not MATE_DOWNSTREAM. -/
  down : ∀ k, k < i → has_flag (s.crecs k).cram_flags CRAM_FLAG_DETACHED = true →
    has_flag (s.crecs k).cram_flags CRAM_FLAG_MATE_DOWNSTREAM = false
  /-- In lossy read-name mode a record that is not DETACHED has DISCARD_NAME. -/
  named : fd.lossy_read_names = true → ∀ k, k < i →
    has_flag (s.crecs k).cram_flags CRAM_FLAG_DETACHED = true
    ∨ has_flag (s.crecs k).cram_flags CRAM_FLAG_DISCARD_NAME = true

/-- The values of the field `f` over the records `0 .. n` of a slice whose
`cram_flags` have the bit `m`, in record order. -/
def flagged_values (s : cram_slice) (n m : Nat) (f : cram_record → Int) : List Int :=
  ((List.range n).filter (fun k => has_flag (s.crecs k).cram_flags m)).map
    (fun k => f (s.crecs k))

/-- Three records of one slice: the first read of the pair `x`, the unpaired
read `r`, and the second read of the pair `x`. -/
def bams_three : List bam_seq_t := [bam_pair1, bam_single, bam_pair2]

/-- The container and slice after the record loop of `cram_encode_container` on
a fresh slice that holds `bams_three`, for the writer `fd`. -/
def state_slice_three (fd : cram_fd) : cram_container × cram_slice :=
  (encode_slice_records fd (container_new ref32) (slice_new 1) bams_three).getD
    (container_new ref32, slice_new 1)

/-- The container and slice after the record loop over `bams` from record 0 of a
fresh slice, format 3 with a reference. -/
def state_reads (bams : List bam_seq_t) : cram_container × cram_slice :=
  (process_reads fd_v3 bams 0 (container_new ref32) (slice_new 10)).getD
    (container_new ref32, slice_new 10)

/-- The second read of the pair `x` as a secondary alignment. -/
def bam_pair2_sec : bam_seq_t :=
  bam_of (1 + 128 + 16 + 256) 19 9 (-14) "x" "ACGT" [cigar_word 0 4]

/-- The read bases that the `M`, `=` and `X` operations of a CIGAR cover, in
order, as the specification words them: the walk over the CIGAR words from the
read offset `spos`, where `seq` holds the bases of the read and every `M`, `=`,
`X`, `I` and `S` operation moves the offset by its length. -/
def match_bases (seq : List Nat) : List Nat → Nat → List Nat
  | [], _ => []
  | w :: ws, spos =>
    (if is_match_op (cigar_op_of w) then (seq.drop spos).take (cigar_len_of w) else [])
      ++ match_bases seq ws (spos + op_query_len w)

/-- The values the slice encoder hands to the BB codec for the features `F`, in
order: the DS_BB part of the payload switch of `cram_encode_slice_read`. -/
def feature_BB_values (s : cram_slice) (F : List cram_feature) : List Int :=
  F.flatMap (fun f => series_values DS_BB ((feature_payload s f).getD []))

/-- The bases carried by the `B` features among `F`, in order. -/
def feature_B_bases (F : List cram_feature) : List Nat :=
  (F.filter (fun f => decide (f.code = 'B'.toNat))).map (fun f => f.base)

/-- Between two working states no base feature was recorded: the features added
to the pool carry neither code `B` nor code `b`. -/
def nobase (e e' : enc) : Prop :=
  ∃ new, e'.s.features = e.s.features ++ new
    ∧ ∀ f ∈ new, f.code ≠ 'B'.toNat ∧ f.code ≠ 'b'.toNat

/-! # Theorems -/


/-! ## Read names -/

theorem upd_crecs_same (s : cram_slice) (i : Nat) (f : cram_record → cram_record) :
    (s.upd i f).crecs i = f (s.crecs i) := by
  simp [cram_slice.upd]

theorem upd_crecs_other (s : cram_slice) (i k : Nat) (f : cram_record → cram_record)
    (h : k ≠ i) : (s.upd i f).crecs k = s.crecs k := by
  simp [cram_slice.upd, Function.update_noteq h]

theorem add_read_name_other (fd : cram_fd) (b : bam_seq_t) (r2 k : Nat) (s : cram_slice)
    (h : k ≠ r2) : (add_read_name fd b r2 s).crecs k = s.crecs k := by
  unfold add_read_name
  dsimp only
  split <;> simp [cram_slice.upd, Function.update_noteq h]

theorem add_read_name_blk (fd : cram_fd) (b : bam_seq_t) (r2 : Nat) (s : cram_slice) :
    ∃ tail, (add_read_name fd b r2 s).name_blk = s.name_blk ++ tail := by
  unfold add_read_name
  dsimp only
  split
  · exact ⟨b.name, rfl⟩
  · exact ⟨[], by simp [cram_slice.upd]⟩

theorem add_read_name_detached (fd : cram_fd) (b : bam_seq_t) (r2 : Nat) (s : cram_slice)
    (h : has_flag (s.crecs r2).cram_flags CRAM_FLAG_DETACHED = true) :
    ((add_read_name fd b r2 s).crecs r2).name = s.name_blk.length
    ∧ ((add_read_name fd b r2 s).crecs r2).name_len = b.name.length
    ∧ (add_read_name fd b r2 s).name_blk = s.name_blk ++ b.name := by
  unfold add_read_name
  simp [h, cram_slice.upd]

/-- The name pass only appends to the name block and leaves the records before
its start index alone. -/
theorem add_read_names_frame (fd : cram_fd) (bams : List bam_seq_t) :
    ∀ (r2 : Nat) (c : cram_container) (s : cram_slice),
      (∃ tail, (add_read_names fd bams r2 c s).2.name_blk = s.name_blk ++ tail)
      ∧ ∀ i, i < r2 → (add_read_names fd bams r2 c s).2.crecs i = s.crecs i := by
  induction bams with
  | nil => intro r2 c s; exact ⟨⟨[], by simp [add_read_names]⟩, fun i _ => rfl⟩
  | cons b bs ih =>
    intro r2 c s
    simp only [add_read_names]
    obtain ⟨⟨tail, ht⟩, hrec⟩ := ih (r2 + 1)
      (c.add DS_RN (((add_read_name fd b r2 s).crecs r2).name_len : Int))
      (add_read_name fd b r2 s)
    obtain ⟨t0, ht0⟩ := add_read_name_blk fd b r2 s
    refine ⟨⟨t0 ++ tail, ?_⟩, ?_⟩
    · rw [ht, ht0]; simp
    · intro i hi
      rw [hrec i (by omega)]
      exact add_read_name_other fd b r2 i s (by omega)

/-- Generalisation of the name-retention property to a pass starting at record `r2`. -/
theorem add_read_names_detached_from (fd : cram_fd) (bams : List bam_seq_t) :
    ∀ (r2 : Nat) (c : cram_container) (s : cram_slice) (k : Nat) (hk : k < bams.length),
      has_flag (s.crecs (r2 + k)).cram_flags CRAM_FLAG_DETACHED = true →
      ((add_read_names fd bams r2 c s).2.crecs (r2 + k)).name_len
          = (bams.get ⟨k, hk⟩).name.length
      ∧ ((add_read_names fd bams r2 c s).2.name_blk.drop
            ((add_read_names fd bams r2 c s).2.crecs (r2 + k)).name).take
          ((add_read_names fd bams r2 c s).2.crecs (r2 + k)).name_len
          = (bams.get ⟨k, hk⟩).name := by
  induction bams with
  | nil => intro r2 c s k hk; simp at hk
  | cons b bs ih =>
    intro r2 c s k hk hdet
    cases k with
    | zero =>
      simp only [Nat.add_zero] at hdet ⊢
      simp only [add_read_names, List.get_eq_getElem, List.getElem_cons_zero]
      obtain ⟨⟨tail, ht⟩, hrec⟩ := add_read_names_frame fd bs (r2 + 1)
        (c.add DS_RN (((add_read_name fd b r2 s).crecs r2).name_len : Int))
        (add_read_name fd b r2 s)
      obtain ⟨h1, h2, h3⟩ := add_read_name_detached fd b r2 s hdet
      rw [hrec r2 (by omega), ht, h1, h2, h3]
      simp
    | succ k =>
      have hk' : k < bs.length := by simpa using hk
      have hidx : r2 + (k + 1) = (r2 + 1) + k := by omega
      simp only [add_read_names, List.get_eq_getElem, List.getElem_cons_succ]
      rw [hidx]
      have key := fun c1 s1 h => ih (r2 + 1) c1 s1 k hk' h
      simp only [List.get_eq_getElem] at key
      apply key
      rw [add_read_name_other fd b r2 _ s (by omega), ← hidx]; exact hdet

/-- C7: a record that is DETACHED when `add_read_names` runs gets its full name
appended to the name block and `name_len` set to the full name length, whatever
the `lossy_read_names` option and whatever its DISCARD_NAME bit: the name bytes
are found in the final name block at the record's `name` offset. -/
theorem add_read_names_keeps_detached (fd : cram_fd) (bams : List bam_seq_t)
    (c : cram_container) (s : cram_slice) (k : Nat) (hk : k < bams.length)
    (hdet : has_flag (s.crecs k).cram_flags CRAM_FLAG_DETACHED = true) :
    ((add_read_names fd bams 0 c s).2.crecs k).name_len = (bams.get ⟨k, hk⟩).name.length
    ∧ ((add_read_names fd bams 0 c s).2.name_blk.drop
          ((add_read_names fd bams 0 c s).2.crecs k).name).take
        ((add_read_names fd bams 0 c s).2.crecs k).name_len
        = (bams.get ⟨k, hk⟩).name := by
  have h := add_read_names_detached_from fd bams 0 c s k hk (by simpa using hdet)
  simpa using h

/-- C6 (as stated, refuted): a record with both a `TC` and an `SA` tag gets the
`TC` value 3, not `INT_MAX`. -/
theorem expected_template_count_sa_tc_not_max :
    bam_sa_tc.aux_SA = true ∧ expected_template_count bam_sa_tc = 3
    ∧ expected_template_count bam_sa_tc ≠ INT_MAX := by
  decide

/-- C6 (amended): a record with an `SA` tag and no `TC` tag gets `INT_MAX`
whatever its pair flag; a record with a `TC` tag gets the larger of the pair
default (2 when paired, else 1) and the `TC` value, whether or not it has `SA`. -/
theorem expected_template_count_sa (b : bam_seq_t) :
    (b.aux_SA = true → b.aux_TC = none → expected_template_count b = INT_MAX)
    ∧ (∀ n : Int, b.aux_TC = some n →
        expected_template_count b = max (if has_flag b.flag BAM_FPAIRED then 2 else 1) n) := by
  constructor
  · intro hSA hTC
    simp [expected_template_count, hSA, hTC]
  · intro n hTC
    simp only [expected_template_count, hTC]
    simp
    split <;> split <;> omega

/-- C6 witness: the amended statement at a record with `SA` only and at a record
with `TC:i:3` and `SA`. -/
theorem expected_template_count_sa_witness :
    expected_template_count bam_sa = INT_MAX
    ∧ expected_template_count bam_sa_tc = max (if has_flag bam_sa_tc.flag BAM_FPAIRED then 2 else 1) 3 :=
  ⟨(expected_template_count_sa bam_sa).1 (by decide) (by decide),
   (expected_template_count_sa bam_sa_tc).2 3 (by decide)⟩

/-- C5 (code evaluated at the failing input): a slice whose only record is an
unpaired read has one record of that name and expects one, yet in lossy mode
`lossy_read_names` leaves `cram_flags = 0`, without DISCARD_NAME. -/
theorem lossy_read_names_single_read :
    expected_template_count bam_single = 1
    ∧ ([bam_single].filter (fun b => b.name = bam_single.name)).length = 1
    ∧ fd_v3_lossy.lossy_read_names = true
    ∧ ((lossy_read_names fd_v3_lossy (slice_new 1) [bam_single]).crecs 0).cram_flags = 0 := by
  decide

/-- C7 witness: in lossy mode the DETACHED record 1, which also carries
DISCARD_NAME, keeps its one-byte name `b`. -/
theorem add_read_names_keeps_detached_witness :
    has_flag (slice_names3.crecs 1).cram_flags CRAM_FLAG_DETACHED = true
    ∧ ((add_read_names fd_v3_lossy bam_names3 0 (container_new []) slice_names3).2.crecs
          1).name_len = 1 :=
  ⟨by decide,
   (add_read_names_keeps_detached fd_v3_lossy bam_names3 (container_new []) slice_names3
      1 (by decide) (by decide)).1⟩

/-! ## What the CIGAR walk leaves untouched -/

theorem walk_frame_refl (e : enc) : walk_frame e e :=
  ⟨rfl, rfl, rfl, rfl, rfl, rfl, rfl, rfl, rfl, rfl, rfl, rfl, rfl⟩

theorem walk_frame_trans {a b c : enc} (h1 : walk_frame a b) (h2 : walk_frame b c) :
    walk_frame a c :=
  ⟨h2.crecs.trans h1.crecs, h2.pair.trans h1.pair, h2.seqs_blk.trans h1.seqs_blk,
   h2.last_apos.trans h1.last_apos, h2.ref.trans h1.ref,
   h2.ref_end.trans h1.ref_end, h2.pos_sorted.trans h1.pos_sorted, h2.len.trans h1.len,
   h2.flags.trans h1.flags, h2.cram_flags.trans h1.cram_flags, h2.cr_apos.trans h1.cr_apos,
   h2.cr_seq.trans h1.cr_seq, h2.cr_rg.trans h1.cr_rg⟩

theorem walk_frame_stats_add (e : enc) (ds : cram_DS_ID) (v : Int) :
    walk_frame e (e.stats_add ds v) :=
  ⟨rfl, rfl, rfl, rfl, rfl, rfl, rfl, rfl, rfl, rfl, rfl, rfl, rfl⟩

theorem walk_frame_add_feature (e : enc) (f : cram_feature) :
    walk_frame e (cram_add_feature e f) := by
  unfold cram_add_feature
  dsimp only
  split <;> exact ⟨rfl, rfl, rfl, rfl, rfl, rfl, rfl, rfl, rfl, rfl, rfl, rfl, rfl⟩

theorem walk_frame_then_add_feature (e0 e : enc) (f : cram_feature) (h : walk_frame e0 e) :
    walk_frame e0 (cram_add_feature e f) :=
  walk_frame_trans h (walk_frame_add_feature e f)

theorem walk_frame_add_substitution (fd : cram_fd) (e : enc) (pos base qual ref : Nat) :
    walk_frame e (cram_add_substitution fd e pos base qual ref) := by
  unfold cram_add_substitution
  dsimp only
  split
  · exact walk_frame_trans (walk_frame_stats_add e _ _) (walk_frame_add_feature _ _)
  · exact walk_frame_then_add_feature _ _ _ ⟨rfl, rfl, rfl, rfl, rfl, rfl, rfl, rfl, rfl, rfl, rfl, rfl, rfl⟩

theorem walk_frame_add_bases (e : enc) (pos len : Nat) :
    walk_frame e (cram_add_bases e pos len) :=
  walk_frame_add_feature _ _

theorem walk_frame_add_base (fd : cram_fd) (e : enc) (pos base qual : Nat) :
    walk_frame e (cram_add_base fd e pos base qual) :=
  walk_frame_then_add_feature _ _ _ ⟨rfl, rfl, rfl, rfl, rfl, rfl, rfl, rfl, rfl, rfl, rfl, rfl, rfl⟩

theorem walk_frame_add_quality (fd : cram_fd) (e : enc) (pos qual : Nat) :
    walk_frame e (cram_add_quality fd e pos qual) :=
  walk_frame_then_add_feature _ _ _ ⟨rfl, rfl, rfl, rfl, rfl, rfl, rfl, rfl, rfl, rfl, rfl, rfl, rfl⟩

theorem walk_frame_add_deletion (e : enc) (pos len : Nat) :
    walk_frame e (cram_add_deletion e pos len) :=
  walk_frame_trans (walk_frame_stats_add e _ _) (walk_frame_add_feature _ _)

theorem walk_frame_add_hardclip (e : enc) (pos len : Nat) :
    walk_frame e (cram_add_hardclip e pos len) :=
  walk_frame_trans (walk_frame_stats_add e _ _) (walk_frame_add_feature _ _)

theorem walk_frame_add_skip (e : enc) (pos len : Nat) :
    walk_frame e (cram_add_skip e pos len) :=
  walk_frame_trans (walk_frame_stats_add e _ _) (walk_frame_add_feature _ _)

theorem walk_frame_add_pad (e : enc) (pos len : Nat) :
    walk_frame e (cram_add_pad e pos len) :=
  walk_frame_trans (walk_frame_stats_add e _ _) (walk_frame_add_feature _ _)

theorem walk_frame_add_softclip (e e' : enc) (pos len : Nat) (base : Option (List Nat))
    (version : Nat) (h : cram_add_softclip e pos len base version = some e') :
    walk_frame e e' := by
  unfold cram_add_softclip at h
  split at h
  · split at h
    · exact Option.noConfusion h
    · cases h
      exact walk_frame_then_add_feature _ _ _
        ⟨rfl, rfl, rfl, rfl, rfl, rfl, rfl, rfl, rfl, rfl, rfl, rfl, rfl⟩
  · cases h
    exact walk_frame_then_add_feature _ _ _
      ⟨rfl, rfl, rfl, rfl, rfl, rfl, rfl, rfl, rfl, rfl, rfl, rfl, rfl⟩

/-- The soft-clip arm returns exactly when its call of `cram_add_softclip`
does, and then runs the quality part on the state of that call. -/
theorem cigar_softclip_some (fd : cram_fd) (seq qual : List Nat) (cig_len : Nat) (e e' : enc)
    (h : cigar_softclip fd seq qual cig_len e = some e') :
    ∃ e1, cram_add_softclip e e.spos cig_len (seq_ptr seq cig_len e) fd.version = some e1
      ∧ e' = (if fd.no_ref ∧ has_flag e1.cr.cram_flags CRAM_FLAG_PRESERVE_QUAL_SCORES = false then
          if e1.cr.len ≠ 0 then qual_loop fd (byte_at qual) cig_len e1
          else qual_loop fd (fun _ => 255) cig_len e1
        else { e1 with spos := e1.spos + cig_len }) := by
  unfold cigar_softclip at h
  cases h1 : cram_add_softclip e e.spos cig_len (seq_ptr seq cig_len e) fd.version with
  | none => rw [h1] at h; exact Option.noConfusion h
  | some e1 =>
    rw [h1] at h
    simp only [Option.some.injEq] at h
    exact ⟨e1, rfl, h.symm⟩

theorem walk_frame_add_insertion (e : enc) (pos len : Nat) (base : Option (List Nat)) :
    walk_frame e (cram_add_insertion e pos len base) := by
  unfold cram_add_insertion
  split
  · exact walk_frame_trans (walk_frame_stats_add e _ _) (walk_frame_add_feature _ _)
  · exact walk_frame_then_add_feature _ _ _ ⟨rfl, rfl, rfl, rfl, rfl, rfl, rfl, rfl, rfl, rfl, rfl, rfl, rfl⟩

/-- Moving the cursors changes none of the framed fields. -/
theorem walk_frame_cursor (e : enc) (a : Int) (sp : Nat) :
    walk_frame e { e with apos := a, spos := sp } :=
  ⟨rfl, rfl, rfl, rfl, rfl, rfl, rfl, rfl, rfl, rfl, rfl, rfl, rfl⟩

theorem walk_frame_match_loop (fd : cram_fd) (seq qual : List Nat) (spos : Nat) (apos : Int) :
    ∀ (n l : Nat) (e : enc), walk_frame e (match_loop fd seq qual spos apos n l e).2 := by
  intro n
  induction n with
  | zero => intro l e; exact walk_frame_refl e
  | succ n ih =>
    intro l e
    unfold match_loop
    dsimp only
    split
    · split
      · exact walk_frame_refl e
      · exact walk_frame_trans (walk_frame_add_substitution fd e _ _ _ _) (ih _ _)
    · exact ih _ _

theorem walk_frame_base_loop (fd : cram_fd) (seq qual : List Nat) :
    ∀ (n : Nat) (e : enc), walk_frame e (base_loop fd seq qual n e) := by
  intro n
  induction n with
  | zero => intro e; exact walk_frame_refl e
  | succ n ih =>
    intro e
    unfold base_loop
    split
    · exact walk_frame_refl e
    · exact walk_frame_trans (walk_frame_trans (walk_frame_add_base fd e _ _ _) (walk_frame_cursor _ _ _)) (ih _)

theorem walk_frame_qual_loop (fd : cram_fd) (q : Nat → Nat) :
    ∀ (n : Nat) (e : enc), walk_frame e (qual_loop fd q n e) := by
  intro n
  induction n with
  | zero => intro e; exact walk_frame_refl e
  | succ n ih =>
    intro e
    unfold qual_loop
    exact walk_frame_trans (walk_frame_trans (walk_frame_add_quality fd e _ _) (walk_frame_cursor _ _ _)) (ih _)

theorem walk_frame_cigar_match_first (fd : cram_fd) (seq qual : List Nat) (cig_len : Nat)
    (e : enc) (r : Nat × enc) (h : cigar_match_first fd seq qual cig_len e = some r) :
    walk_frame e r.2 := by
  unfold cigar_match_first at h
  split at h
  · split at h
    · simp at h
    · simp only [Option.some.injEq] at h
      subst h
      exact walk_frame_trans (walk_frame_match_loop fd seq qual _ _ _ _ e) (walk_frame_cursor _ _ _)
  · simp only [Option.some.injEq] at h
    subst h
    exact walk_frame_refl e

theorem walk_frame_cigar_match_bases (fd : cram_fd) (seq qual : List Nat) (n : Nat) (e : enc) :
    walk_frame e (cigar_match_bases fd seq qual n e) := by
  unfold cigar_match_bases
  split
  · split
    · exact walk_frame_trans (walk_frame_add_bases _ _ _) (walk_frame_cursor _ _ _)
    · exact walk_frame_base_loop _ _ _ _ _
  · exact walk_frame_base_loop _ _ _ _ _

theorem walk_frame_cigar_match_rest (fd : cram_fd) (seq qual : List Nat) (cig_len l : Nat)
    (e : enc) : walk_frame e (cigar_match_rest fd seq qual cig_len l e) := by
  unfold cigar_match_rest
  split
  · exact walk_frame_trans (walk_frame_cigar_match_bases _ _ _ _ _) (walk_frame_cursor _ _ _)
  · split
    · exact walk_frame_cursor _ _ _
    · exact walk_frame_refl e

theorem walk_frame_cigar_match (fd : cram_fd) (seq qual : List Nat) (cig_len : Nat)
    (e e' : enc) (h : cigar_match fd seq qual cig_len e = some e') : walk_frame e e' := by
  unfold cigar_match at h
  split at h
  · simp at h
  · rename_i r hr
    simp only [Option.some.injEq] at h
    subst h
    exact walk_frame_trans (walk_frame_cigar_match_first fd seq qual cig_len e r hr)
      (walk_frame_cigar_match_rest _ _ _ _ _ _)

theorem walk_frame_cigar_del (cig_len : Nat) (e : enc) :
    walk_frame e (cigar_del cig_len e) :=
  walk_frame_trans (walk_frame_add_deletion _ _ _) (walk_frame_cursor _ _ _)

theorem walk_frame_cigar_skip (cig_len : Nat) (e : enc) :
    walk_frame e (cigar_skip cig_len e) :=
  walk_frame_trans (walk_frame_add_skip _ _ _) (walk_frame_cursor _ _ _)

theorem walk_frame_cigar_ins (fd : cram_fd) (seq qual : List Nat) (cig_len : Nat) (e : enc) :
    walk_frame e (cigar_ins fd seq qual cig_len e) := by
  unfold cigar_ins
  dsimp only
  split
  · exact walk_frame_trans (walk_frame_add_insertion _ _ _ _) (walk_frame_qual_loop _ _ _ _)
  · exact walk_frame_trans (walk_frame_add_insertion _ _ _ _) (walk_frame_cursor _ _ _)

theorem walk_frame_cigar_softclip (fd : cram_fd) (seq qual : List Nat) (cig_len : Nat)
    (e e' : enc) (h : cigar_softclip fd seq qual cig_len e = some e') : walk_frame e e' := by
  obtain ⟨e1, h1, rfl⟩ := cigar_softclip_some fd seq qual cig_len e e' h
  have hw := walk_frame_add_softclip _ _ _ _ _ _ h1
  split
  · split
    · exact walk_frame_trans hw (walk_frame_qual_loop _ _ _ _)
    · exact walk_frame_trans hw (walk_frame_qual_loop _ _ _ _)
  · exact walk_frame_trans hw (walk_frame_cursor _ _ _)

theorem walk_frame_cigar_step (fd : cram_fd) (seq qual : List Nat) (w : Nat)
    (e e' : enc) (h : cigar_step fd seq qual w e = some e') : walk_frame e e' := by
  unfold cigar_step at h
  dsimp only at h
  split at h
  · exact walk_frame_cigar_match _ _ _ _ _ _ h
  split at h
  · cases h; exact walk_frame_cigar_del _ _
  split at h
  · cases h; exact walk_frame_cigar_skip _ _
  split at h
  · cases h; exact walk_frame_cigar_ins _ _ _ _ _
  split at h
  · exact walk_frame_cigar_softclip _ _ _ _ _ _ h
  split at h
  · cases h; exact walk_frame_add_hardclip _ _ _
  split at h
  · cases h; exact walk_frame_add_pad _ _ _
  · simp at h

theorem walk_frame_cigar_walk (fd : cram_fd) (seq qual : List Nat) :
    ∀ (ws : List Nat) (e e' : enc), cigar_walk fd seq qual ws e = some e' → walk_frame e e' := by
  intro ws
  induction ws with
  | nil => intro e e' h; simp only [cigar_walk, Option.some.injEq] at h; subst h; exact walk_frame_refl e
  | cons w ws ih =>
    intro e e' h
    simp only [cigar_walk] at h
    split at h
    · simp at h
    · rename_i e1 h1
      exact walk_frame_trans (walk_frame_cigar_step fd seq qual w e e1 h1) (ih e1 e' h)

/-! ## What the parts of `process_one_read` before the mate block leave untouched -/

/-- After the tag pass the slice is unchanged and the record has the flags and
length of the BAM record and the `cram_flags` it started with. -/
theorem por_aux_spec (fd : cram_fd) (c : cram_container) (s : cram_slice) (b : bam_seq_t)
    (i : Nat) (rg : Option (List Nat)) (e : enc) (h : por_aux fd c s b i = some (rg, e)) :
    e.s = s ∧ e.cr.flags = b.flag ∧ e.cr.len = b.len
    ∧ e.cr.cram_flags = (s.crecs i).cram_flags
    ∧ e.c.ref = c.ref ∧ e.c.ref_end = c.ref_end ∧ e.c.pos_sorted = c.pos_sorted := by
  unfold por_aux at h
  dsimp only at h
  split at h
  · simp at h
  · simp only [Option.some.injEq, Prod.mk.injEq] at h
    obtain ⟨_, rfl⟩ := h
    exact ⟨rfl, rfl, rfl, rfl, rfl, rfl, rfl⟩
  · simp only [Option.some.injEq, Prod.mk.injEq] at h
    obtain ⟨_, rfl⟩ := h
    exact ⟨rfl, rfl, rfl, rfl, rfl, rfl, rfl⟩

theorem por_head_rest_spec (fd : cram_fd) (b : bam_seq_t) (rg : Option (List Nat)) (e1 : enc) :
    (por_head_rest fd b rg e1).1.s.crecs = e1.s.crecs
    ∧ (por_head_rest fd b rg e1).1.s.pair = e1.s.pair
    ∧ (por_head_rest fd b rg e1).1.s.features = e1.s.features
    ∧ (por_head_rest fd b rg e1).1.cr.flags = e1.cr.flags
    ∧ (por_head_rest fd b rg e1).1.cr.len = e1.cr.len
    ∧ (por_head_rest fd b rg e1).1.cr.cram_flags
        = head_cram_flags fd e1.cr.len e1.cr.cram_flags
    ∧ (por_head_rest fd b rg e1).1.cr.apos = b.pos + 1
    ∧ (por_head_rest fd b rg e1).1.c.ref = e1.c.ref
    ∧ (por_head_rest fd b rg e1).1.c.ref_end = e1.c.ref_end
    ∧ (por_head_rest fd b rg e1).2 = unpack_seq b.seq e1.cr.len := by
  unfold por_head_rest head_cram_flags
  dsimp only [enc.stats_add]
  refine ⟨?_, ?_, ?_, ?_, ?_, ?_, ?_, ?_, ?_, ?_⟩ <;> (repeat' split) <;> rfl

theorem add_BA_stats_frame : ∀ (xs : List Nat) (e : enc),
    (add_BA_stats xs e).s = e.s ∧ (add_BA_stats xs e).cr = e.cr := by
  intro xs
  induction xs with
  | nil => intro e; exact ⟨rfl, rfl⟩
  | cons x xs ih =>
    intro e
    simp only [add_BA_stats]
    exact ⟨(ih _).1.trans rfl, (ih _).2.trans rfl⟩

theorem por_cigar_spec (fd : cram_fd) (b : bam_seq_t) (seq : List Nat) (e e' : enc) (fq : Nat)
    (h : por_cigar fd b seq e = some (e', fq)) :
    e'.s.crecs = e.s.crecs ∧ e'.s.pair = e.s.pair ∧ e'.cr.flags = e.cr.flags
    ∧ e'.cr.apos = e.cr.apos
    ∧ e'.cr.cram_flags = (if has_flag e.cr.flags BAM_FUNMAP = false then e.cr.cram_flags
        else e.cr.cram_flags ||| CRAM_FLAG_PRESERVE_QUAL_SCORES) := by
  unfold por_cigar at h
  dsimp only at h
  split at h
  · rename_i hm
    split at h
    · simp at h
    · rename_i e2 hw
      split at h
      · simp at h
      · simp only [Option.some.injEq, Prod.mk.injEq] at h
        obtain ⟨rfl, _⟩ := h
        have hf := walk_frame_cigar_walk fd seq b.qual b.cigar _ e2 hw
        simp only [hm, if_true]
        exact ⟨hf.crecs, hf.pair, hf.flags, hf.cr_apos, hf.cram_flags⟩
  · rename_i hm
    simp only [Option.some.injEq, Prod.mk.injEq] at h
    obtain ⟨rfl, _⟩ := h
    simp only [hm, if_false]
    refine ⟨?_, ?_, ?_, ?_, ?_⟩
    · rw [(add_BA_stats_frame _ _).1]
    · rw [(add_BA_stats_frame _ _).1]
    · rw [(add_BA_stats_frame _ _).2]
    · rw [(add_BA_stats_frame _ _).2]
    · rw [(add_BA_stats_frame _ _).2]
      simp

theorem por_qual_spec (fd : cram_fd) (b : bam_seq_t) (fq : Nat) (e : enc) :
    (por_qual fd b fq e).s.crecs = e.s.crecs ∧ (por_qual fd b fq e).s.pair = e.s.pair
    ∧ (por_qual fd b fq e).s.features = e.s.features
    ∧ (por_qual fd b fq e).cr.flags = e.cr.flags
    ∧ (por_qual fd b fq e).cr.cram_flags = e.cr.cram_flags
    ∧ (por_qual fd b fq e).cr.apos = e.cr.apos
    ∧ (por_qual fd b fq e).cr.aend = e.cr.aend
    ∧ (por_qual fd b fq e).cr.feature = e.cr.feature
    ∧ (por_qual fd b fq e).cr.nfeature = e.cr.nfeature := by
  unfold por_qual
  dsimp only [enc.stats_add]
  refine ⟨?_, ?_, ?_, ?_, ?_, ?_, ?_, ?_, ?_⟩ <;> (repeat' split) <;> rfl

/-- What `process_one_read` has done to the slice when the mate block starts:
the pair tables and the other records are as before, and record `i` has the BAM
flags, the 1-based position and the head CF bits. -/
theorem por_pre_spec (fd : cram_fd) (c c1 : cram_container) (s s1 : cram_slice)
    (b : bam_seq_t) (i : Nat) (h : por_pre fd c s b i = some (c1, s1)) :
    s1.pair = s.pair ∧ (∀ k, k ≠ i → s1.crecs k = s.crecs k)
    ∧ (s1.crecs i).flags = b.flag
    ∧ (s1.crecs i).apos = b.pos + 1
    ∧ (s1.crecs i).cram_flags = pre_cram_flags fd b (s.crecs i).cram_flags := by
  unfold por_pre at h
  split at h
  · simp at h
  · rename_i e seq hh
    split at h
    · simp at h
    · rename_i e1 fq hc
      simp only [Option.some.injEq, Prod.mk.injEq] at h
      obtain ⟨_, rfl⟩ := h
      unfold por_head at hh
      split at hh
      · simp at hh
      · rename_i rg e0 ha
        simp only [Option.some.injEq] at hh
        obtain ⟨hs, hfl, hlen, hcf, _, _, _⟩ := por_aux_spec fd c s b i rg e0 ha
        obtain ⟨r1, r2, _, r4, r5, r6, r7, _, _, _⟩ := por_head_rest_spec fd b rg e0
        rw [hh] at r1 r2 r4 r5 r6 r7
        dsimp only at r1 r2 r4 r5 r6 r7
        obtain ⟨q1, q2, q3, q4, q5⟩ := por_cigar_spec fd b seq e e1 fq hc
        obtain ⟨p1, p2, _, p4, p5, p6, _, _, _⟩ := por_qual_spec fd b fq e1
        refine ⟨?_, ?_, ?_, ?_, ?_⟩
        · show (por_qual fd b fq e1).s.pair = s.pair
          rw [p2, q2, r2, hs]
        · intro k hk
          show Function.update (por_qual fd b fq e1).s.crecs i _ k = s.crecs k
          rw [Function.update_noteq hk, p1, q1, r1, hs]
        · show (Function.update (por_qual fd b fq e1).s.crecs i _ i).flags = b.flag
          rw [Function.update_same, p4, q3, r4, hfl]
        · show (Function.update (por_qual fd b fq e1).s.crecs i _ i).apos = b.pos + 1
          rw [Function.update_same, p6, q4, r7]
        · show (Function.update (por_qual fd b fq e1).s.crecs i _ i).cram_flags = _
          rw [Function.update_same, p5, q5, r4, r6, hfl, hcf, hlen]
          unfold pre_cram_flags
          rfl

/-! ## Flag words -/

theorem has_flag_clear_self (x m : Nat) (h : (4294967295 ^^^ m) &&& m = 0) :
    has_flag (clear_flag x m) m = false := by
  unfold has_flag clear_flag
  rw [Nat.and_assoc, h]
  simp

theorem has_flag_clear_other (x m k : Nat) (h : (4294967295 ^^^ m) &&& k = k) :
    has_flag (clear_flag x m) k = has_flag x k := by
  unfold has_flag clear_flag
  rw [Nat.and_assoc, h]

theorem has_flag_or_self (y k : Nat) (hk : k ≠ 0) : has_flag (y ||| k) k = true := by
  unfold has_flag
  obtain ⟨i, hi⟩ := Nat.ne_zero_implies_bit_true hk
  have hb : ((y ||| k) &&& k).testBit i = true := by
    simp [Nat.testBit_and, Nat.testBit_or, hi]
  have hne : (y ||| k) &&& k ≠ 0 := by
    intro h0
    rw [h0] at hb
    simp at hb
  simpa using hne

theorem has_flag_or_other (y m k : Nat) (h : m &&& k = 0) :
    has_flag (y ||| m) k = has_flag y k := by
  unfold has_flag
  have : (y ||| m) &&& k = y &&& k := by
    rw [Nat.and_comm, Nat.and_or_distrib_left, Nat.and_comm k m, h, Nat.and_comm]
    simp
  rw [this]

/-! ## The mate block -/

/-- The records after the link arm, for an earlier record `j` different from `rnum`. -/
theorem mate_link_spec (c : cram_container) (s : cram_slice) (sec : Bool) (key : List Nat)
    (rnum j : Nat) (hne : j ≠ rnum) :
    ((mate_link c s sec key rnum j).2.crecs j).cram_flags =
        clear_flag (if has_flag (s.crecs j).cram_flags CRAM_FLAG_STATS_ADDED
          then clear_flag (s.crecs j).cram_flags CRAM_FLAG_STATS_ADDED
          else (s.crecs j).cram_flags) CRAM_FLAG_DETACHED ||| CRAM_FLAG_MATE_DOWNSTREAM
    ∧ ((mate_link c s sec key rnum j).2.crecs j).mate_line = (rnum : Int) - ((j : Int) + 1)
    ∧ ((mate_link c s sec key rnum j).2.crecs rnum).cram_flags =
        clear_flag (s.crecs rnum).cram_flags CRAM_FLAG_DETACHED
    ∧ (∀ k, k ≠ rnum → k ≠ j → (mate_link c s sec key rnum j).2.crecs k = s.crecs k) := by
  have hne' : rnum ≠ j := fun h => hne h.symm
  unfold mate_link
  dsimp only
  refine ⟨?_, ?_, ?_, ?_⟩
  · by_cases h : has_flag (s.crecs j).cram_flags CRAM_FLAG_STATS_ADDED = true <;>
      simp [cram_slice.upd, Function.update_noteq hne, Function.update_noteq hne', h]
  · by_cases h : has_flag (s.crecs j).cram_flags CRAM_FLAG_STATS_ADDED = true <;>
      simp [cram_slice.upd, Function.update_noteq hne, Function.update_noteq hne', h]
  · by_cases h : has_flag (s.crecs j).cram_flags CRAM_FLAG_STATS_ADDED = true <;>
      simp [cram_slice.upd, Function.update_noteq hne, Function.update_noteq hne', h]
  · intro k hk1 hk2
    by_cases h : has_flag (s.crecs j).cram_flags CRAM_FLAG_STATS_ADDED = true <;>
      simp [cram_slice.upd, Function.update_noteq hne, Function.update_noteq hne',
        Function.update_noteq hk1, Function.update_noteq hk2, h]

theorem HashTableAdd_found {β : Type} (t : HashTable β) (key : List Nat) (d v : β)
    (h : HashTableSearch t key = some v) : HashTableAdd t key d = (t, false) := by
  unfold HashTableAdd
  rw [h]

theorem HashTableAdd_new {β : Type} (t : HashTable β) (key : List Nat) (d : β)
    (h : HashTableSearch t key = none) : HashTableAdd t key d = (t ++ [(key, d)], true) := by
  unfold HashTableAdd
  rw [h]

theorem HashTableSearch_append_new {β : Type} (t : HashTable β) (key : List Nat) (d : β)
    (h : HashTableSearch t key = none) : HashTableSearch (t ++ [(key, d)]) key = some d := by
  unfold HashTableSearch at h ⊢
  induction t with
  | nil => simp [List.lookup]
  | cons kv t ih =>
    obtain ⟨k, v⟩ := kv
    simp only [List.cons_append, List.lookup] at h ⊢
    split
    · rename_i hk; rw [hk] at h; simp at h
    · rename_i hk; rw [hk] at h; exact ih h

/-- When the pair table holds the name, the mate block is either the link arm or
the detached arm on the unchanged slice, as `mate_linkable` decides. -/
theorem por_mate_found (fd : cram_fd) (c : cram_container) (s : cram_slice) (b : bam_seq_t)
    (i j : Nat) (hp : has_flag (s.crecs i).flags BAM_FPAIRED = true)
    (hf : HashTableSearch (s.pair (has_flag (s.crecs i).flags BAM_FSECONDARY)) b.name = some j) :
    por_mate fd c s b i =
      if mate_linkable fd b (s.crecs i) (s.crecs j) then
        mate_link c s (has_flag (s.crecs i).flags BAM_FSECONDARY) b.name i j
      else mate_detached c s b i := by
  unfold por_mate
  rw [if_pos hp]
  dsimp only
  rw [HashTableAdd_found _ _ _ _ hf]
  have hs : ∀ k : Bool, ({ s with pair := Function.update s.pair k (s.pair k) } : cram_slice) = s :=
    fun k => by rw [Function.update_eq_self]
  simp only [hf, Option.getD_some, Bool.false_eq_true, if_false, hs]

theorem por_tail_spec (c : cram_container) (s : cram_slice) (b : bam_seq_t) (i : Nat) :
    (por_tail c s b i).2.pair = s.pair
    ∧ (∀ k, k ≠ i → (por_tail c s b i).2.crecs k = s.crecs k)
    ∧ ((por_tail c s b i).2.crecs i).cram_flags = (s.crecs i).cram_flags
    ∧ ((por_tail c s b i).2.crecs i).mate_line = (s.crecs i).mate_line
    ∧ (por_tail c s b i).2.features = s.features
    ∧ ((por_tail c s b i).2.crecs i).feature = (s.crecs i).feature
    ∧ ((por_tail c s b i).2.crecs i).nfeature = (s.crecs i).nfeature
    ∧ ((por_tail c s b i).2.crecs i).aend = (s.crecs i).aend
    ∧ ((por_tail c s b i).2.crecs i).apos = (s.crecs i).apos
    ∧ ((por_tail c s b i).2.crecs i).flags = (s.crecs i).flags := by
  unfold por_tail
  refine ⟨rfl, ?_, ?_, ?_, rfl, ?_, ?_, ?_, ?_, ?_⟩
  · intro k hk
    simp [cram_slice.upd, Function.update_noteq hk]
  all_goals simp [cram_slice.upd]

/-- Unfolding of `por_links`: the state at the mate block and the three facts
that select the link arm. -/
theorem por_links_some (fd : cram_fd) (c : cram_container) (s : cram_slice) (b : bam_seq_t)
    (i j : Nat) (h : por_links fd c s b i = some j) :
    ∃ c1 s1, por_pre fd c s b i = some (c1, s1)
      ∧ has_flag (s1.crecs i).flags BAM_FPAIRED = true
      ∧ HashTableSearch (s1.pair (has_flag (s1.crecs i).flags BAM_FSECONDARY)) b.name = some j
      ∧ mate_linkable fd b (s1.crecs i) (s1.crecs j) = true := by
  unfold por_links at h
  split at h
  · simp at h
  · rename_i c1 s1 hpre
    split at h
    · rename_i hp
      split at h
      · simp at h
      · rename_i j' hf
        split at h
        · rename_i hl
          simp only [Option.some.injEq] at h
          subst h
          exact ⟨c1, s1, hpre, hp, hf, hl⟩
        · simp at h
    · simp at h

/-- When `process_one_read` takes the link arm, its result is the link arm
followed by the closing statements. -/
theorem process_one_read_of_links (fd : cram_fd) (c : cram_container) (s : cram_slice)
    (b : bam_seq_t) (i j : Nat) (h : por_links fd c s b i = some j) :
    ∃ c1 s1, por_pre fd c s b i = some (c1, s1)
      ∧ mate_linkable fd b (s1.crecs i) (s1.crecs j) = true
      ∧ process_one_read fd c s b i = some (por_tail
        (mate_link c1 s1 (has_flag (s1.crecs i).flags BAM_FSECONDARY) b.name i j).1
        (mate_link c1 s1 (has_flag (s1.crecs i).flags BAM_FSECONDARY) b.name i j).2 b i) := by
  obtain ⟨c1, s1, hpre, hp, hf, hl⟩ := por_links_some fd c s b i j h
  refine ⟨c1, s1, hpre, hl, ?_⟩
  unfold process_one_read
  rw [hpre]
  dsimp only
  rw [por_mate_found fd c1 s1 b i j hp hf, if_pos hl]

/-- C1: whenever `process_one_read` links record `i` to the earlier same-name
record `j < i`, it succeeds, record `j` has MATE_DOWNSTREAM afterwards and its
`mate_line` is `i - (j + 1)`, the number of records strictly between the two:
never negative, and `0` for adjacent mates. -/
theorem process_one_read_link_mate_line (fd : cram_fd) (c : cram_container) (s : cram_slice)
    (b : bam_seq_t) (i j : Nat) (hlink : por_links fd c s b i = some j) (hj : j < i) :
    ∃ c' s', process_one_read fd c s b i = some (c', s')
      ∧ has_flag (s'.crecs j).cram_flags CRAM_FLAG_MATE_DOWNSTREAM = true
      ∧ (s'.crecs j).mate_line = (i : Int) - ((j : Int) + 1)
      ∧ 0 ≤ (s'.crecs j).mate_line
      ∧ (i = j + 1 → (s'.crecs j).mate_line = 0) := by
  obtain ⟨c1, s1, _, _, hrun⟩ := process_one_read_of_links fd c s b i j hlink
  have hne : j ≠ i := by omega
  obtain ⟨m1, m2, _, _⟩ := mate_link_spec c1 s1
    (has_flag (s1.crecs i).flags BAM_FSECONDARY) b.name i j hne
  obtain ⟨_, t2, _⟩ := por_tail_spec
    (mate_link c1 s1 (has_flag (s1.crecs i).flags BAM_FSECONDARY) b.name i j).1
    (mate_link c1 s1 (has_flag (s1.crecs i).flags BAM_FSECONDARY) b.name i j).2 b i
  generalize por_tail
    (mate_link c1 s1 (has_flag (s1.crecs i).flags BAM_FSECONDARY) b.name i j).1
    (mate_link c1 s1 (has_flag (s1.crecs i).flags BAM_FSECONDARY) b.name i j).2 b i = R at hrun t2
  refine ⟨R.1, R.2, hrun, ?_, ?_, ?_, ?_⟩
  · rw [t2 j hne, m1]
    exact has_flag_or_self _ _ (by decide)
  · rw [t2 j hne, m2]
  · rw [t2 j hne, m2]; omega
  · intro hij
    rw [t2 j hne, m2]; omega

/-- C1 witness: the second read of the pair `x` is linked to record 0, which
gets MATE_DOWNSTREAM and `mate_line = 0`. -/
theorem process_one_read_link_mate_line_witness :
    por_links fd_v3 state_pair1.1 state_pair1.2 bam_pair2 1 = some 0
    ∧ ∃ c' s', process_one_read fd_v3 state_pair1.1 state_pair1.2 bam_pair2 1 = some (c', s')
      ∧ has_flag (s'.crecs 0).cram_flags CRAM_FLAG_MATE_DOWNSTREAM = true
      ∧ (s'.crecs 0).mate_line = ((1 : Nat) : Int) - (((0 : Nat) : Int) + 1)
      ∧ 0 ≤ (s'.crecs 0).mate_line
      ∧ (1 = 0 + 1 → (s'.crecs 0).mate_line = 0) :=
  ⟨by decide,
   process_one_read_link_mate_line fd_v3 state_pair1.1 state_pair1.2 bam_pair2 1 0
     (by decide) (by decide)⟩

/-- C2 (as stated, refuted), in four parts, each on a fresh slice that the
record loop fills from record 0. First, the linkable pair `x` as records 0 and
1: the first record is DETACHED only until the second is processed; afterwards
neither record has DETACHED, MATE_DOWNSTREAM is on the first record and not on
the second, and `mate_line` is 0 although the index delta is 1. Second, the
reads `x1, x2, x2`: records 0 and 2 are a consistent pair of one name, yet
record 1 lies between them, record 2 stays DETACHED and the `mate_line` of
record 0 is 0. Third, the reads `x1, x1, x2`: records 1 and 2 are a consistent
pair of one name, yet record 0 comes before them and takes the link, and record
1 stays DETACHED without MATE_DOWNSTREAM. Fourth, the reads `x1` and `x2` as a
secondary alignment: consistent and of one name, they are looked up in
different pair tables and both stay DETACHED. -/
theorem process_one_read_pair_first_not_detached :
    (por_links fd_v3 state_pair1.1 state_pair1.2 bam_pair2 1 = some 0
      ∧ has_flag (state_pair1.2.crecs 0).cram_flags CRAM_FLAG_DETACHED = true
      ∧ has_flag (state_pair2.2.crecs 0).cram_flags CRAM_FLAG_DETACHED = false
      ∧ has_flag (state_pair2.2.crecs 1).cram_flags CRAM_FLAG_DETACHED = false
      ∧ has_flag (state_pair2.2.crecs 0).cram_flags CRAM_FLAG_MATE_DOWNSTREAM = true
      ∧ has_flag (state_pair2.2.crecs 1).cram_flags CRAM_FLAG_MATE_DOWNSTREAM = false
      ∧ (state_pair2.2.crecs 0).mate_line = 0)
    ∧ ((process_reads fd_v3 [bam_pair1, bam_pair2, bam_pair2] 0 (container_new ref32)
          (slice_new 10)).isSome = true
      ∧ mate_linkable fd_v3 bam_pair2
          ((state_reads [bam_pair1, bam_pair2, bam_pair2]).2.crecs 2)
          ((state_reads [bam_pair1]).2.crecs 0) = true
      ∧ has_flag ((state_reads [bam_pair1, bam_pair2, bam_pair2]).2.crecs 2).cram_flags
          CRAM_FLAG_DETACHED = true
      ∧ ((state_reads [bam_pair1, bam_pair2, bam_pair2]).2.crecs 0).mate_line = 0)
    ∧ ((process_reads fd_v3 [bam_pair1, bam_pair1, bam_pair2] 0 (container_new ref32)
          (slice_new 10)).isSome = true
      ∧ mate_linkable fd_v3 bam_pair2
          ((state_reads [bam_pair1, bam_pair1, bam_pair2]).2.crecs 2)
          ((state_reads [bam_pair1, bam_pair1]).2.crecs 1) = true
      ∧ has_flag ((state_reads [bam_pair1, bam_pair1, bam_pair2]).2.crecs 1).cram_flags
          CRAM_FLAG_DETACHED = true
      ∧ has_flag ((state_reads [bam_pair1, bam_pair1, bam_pair2]).2.crecs 1).cram_flags
          CRAM_FLAG_MATE_DOWNSTREAM = false)
    ∧ ((process_reads fd_v3 [bam_pair1, bam_pair2_sec] 0 (container_new ref32)
          (slice_new 10)).isSome = true
      ∧ bam_pair2_sec.name = bam_pair1.name
      ∧ has_flag bam_pair2_sec.flag BAM_FPAIRED = true
      ∧ mate_linkable fd_v3 bam_pair2_sec
          ((state_reads [bam_pair1, bam_pair2_sec]).2.crecs 1)
          ((state_reads [bam_pair1]).2.crecs 0) = true
      ∧ has_flag ((state_reads [bam_pair1, bam_pair2_sec]).2.crecs 0).cram_flags
          CRAM_FLAG_DETACHED = true
      ∧ has_flag ((state_reads [bam_pair1, bam_pair2_sec]).2.crecs 1).cram_flags
          CRAM_FLAG_DETACHED = true) := by
  refine ⟨by decide, ⟨by decide!, by decide!, by decide!, by decide!⟩,
    ⟨by decide!, by decide!, by decide!, by decide!⟩,
    ⟨by decide!, by decide!, by decide!, by decide!, by decide!, by decide!⟩⟩

/-- A paired record whose name is not yet in the pair table is processed as
detached: it has DETACHED afterwards. -/
theorem process_one_read_new_name_detached (fd : cram_fd) (c c1 : cram_container)
    (s s1 : cram_slice) (b : bam_seq_t) (j : Nat)
    (hnew : HashTableSearch (s.pair (has_flag b.flag BAM_FSECONDARY)) b.name = none)
    (h : process_one_read fd c s b j = some (c1, s1)) :
    has_flag (s1.crecs j).cram_flags CRAM_FLAG_DETACHED = true := by
  unfold process_one_read at h
  split at h
  · simp at h
  · rename_i c0 s0 hpre
    obtain ⟨hpair, _, hfl, _, _⟩ := por_pre_spec fd c c0 s s0 b j hpre
    simp only [Option.some.injEq] at h
    have hdet : ∀ (cc : cram_container) (ss : cram_slice),
        has_flag ((mate_detached cc ss b j).2.crecs j).cram_flags CRAM_FLAG_DETACHED = true := by
      intro cc ss
      unfold mate_detached
      simp only [cram_slice.upd, Function.update_same]
      rw [has_flag_or_other _ _ _ (by decide)]
      exact has_flag_or_self _ _ (by decide)
    have hm : has_flag ((por_mate fd c0 s0 b j).2.crecs j).cram_flags CRAM_FLAG_DETACHED
        = true := by
      unfold por_mate
      split
      · dsimp only
        rw [hfl, hpair, HashTableAdd_new _ _ _ hnew]
        simp only [if_true]
        exact hdet _ _
      · exact hdet _ _
    obtain ⟨_, _, t3, _⟩ := por_tail_spec (por_mate fd c0 s0 b j).1 (por_mate fd c0 s0 b j).2 b j
    have hs1 : s1 = (por_tail (por_mate fd c0 s0 b j).1 (por_mate fd c0 s0 b j).2 b j).2 := by
      rw [h]
    rw [hs1, t3]
    exact hm

/-- A successful run is the pair of the components of its default-free value. -/
theorem option_getD_eq {α β : Type} (o : Option (α × β)) (d : α × β) (h : o.isSome = true) :
    o = some ((o.getD d).1, (o.getD d).2) := by
  cases o with
  | none => simp at h
  | some x => rfl

/-- C3 (code evaluated at the failing input): the earlier record says its mate
is mapped (FMUNMAP clear) while the current record is unmapped (FUNMAP set), and
`process_one_read` still links the two: the earlier record ends up
MATE_DOWNSTREAM and not DETACHED. -/
theorem process_one_read_links_despite_mate_unmapped :
    has_flag (state_mapped_mate.2.crecs 0).flags BAM_FMUNMAP = false
    ∧ has_flag bam_unmapped.flag BAM_FUNMAP = true
    ∧ por_links fd_v3 state_mapped_mate.1 state_mapped_mate.2 bam_unmapped 1 = some 0
    ∧ (process_one_read fd_v3 state_mapped_mate.1 state_mapped_mate.2 bam_unmapped 1).map
        (fun r => (has_flag (r.2.crecs 0).cram_flags CRAM_FLAG_MATE_DOWNSTREAM,
                   has_flag (r.2.crecs 0).cram_flags CRAM_FLAG_DETACHED))
        = some (true, false) := by
  decide

/-! ## Feature positions -/

theorem finv_mono (F0 : List cram_feature) (e : enc) (m m' : Nat) (h : e.finv F0 m)
    (hm : m ≤ m') : e.finv F0 m' := by
  obtain ⟨new, h1, h2, h3, h4, h5⟩ := h
  exact ⟨new, h1, h2, h3, h4,
    fun f hf => ⟨(h5 f hf).1, by have := (h5 f hf).2.1; omega, (h5 f hf).2.2⟩⟩

/-- Appending a feature at read offset `p` at or after the offset reached keeps
the invariant. -/
theorem finv_add_feature (F0 : List cram_feature) (e : enc) (f : cram_feature) (m p : Nat)
    (h : e.finv F0 m) (hm : m ≤ p) (hf : f.pos = ((p + 1 : Nat) : Int))
    (hc : valid_code f.code) : (cram_add_feature e f).finv F0 p := by
  obtain ⟨new, h1, h2, h3, h4, h5⟩ := h
  refine ⟨new ++ [f], ?_, ?_, ?_, ?_, ?_⟩
  · unfold cram_add_feature
    dsimp only [enc.stats_add]
    split <;> simp [h1]
  · unfold cram_add_feature
    dsimp only [enc.stats_add]
    split
    · rename_i h0
      have : new = [] := by
        cases new with
        | nil => rfl
        | cons x xs => simp [h0] at h2
      simp [this]
    · simp [h2]
  · intro _
    unfold cram_add_feature
    dsimp only [enc.stats_add]
    split
    · rename_i h0
      have : new = [] := by
        cases new with
        | nil => rfl
        | cons x xs => simp [h0] at h2
      simp [h1, this]
    · rename_i h0
      have hne : new ≠ [] := by
        intro hn
        rw [hn] at h2
        exact h0 (by simpa using h2)
      simpa using h3 hne
  · rw [List.pairwise_append]
    refine ⟨h4, List.pairwise_singleton _ _, ?_⟩
    intro a ha b' hb
    simp only [List.mem_singleton] at hb
    subst hb
    have := (h5 a ha).2.1
    rw [hf]; push_cast; omega
  · intro g hg
    rw [List.mem_append] at hg
    rcases hg with hg | hg
    · exact ⟨(h5 g hg).1, by have := (h5 g hg).2.1; omega, (h5 g hg).2.2⟩
    · simp only [List.mem_singleton] at hg
      subst hg
      rw [hf]; push_cast
      exact ⟨by omega, by omega, hc⟩

theorem finv_add_substitution (F0 : List cram_feature) (fd : cram_fd) (e : enc)
    (pos base qual ref m : Nat) (h : e.finv F0 m) (hm : m ≤ pos) :
    (cram_add_substitution fd e pos base qual ref).finv F0 pos := by
  unfold cram_add_substitution
  dsimp only
  split
  · exact finv_add_feature F0 _ _ m pos h hm rfl (by simp [valid_code])
  · exact finv_add_feature F0 _ _ m pos h hm rfl (by simp [valid_code])

theorem finv_add_bases (F0 : List cram_feature) (e : enc) (pos len m : Nat)
    (h : e.finv F0 m) (hm : m ≤ pos) : (cram_add_bases e pos len).finv F0 pos :=
  finv_add_feature F0 _ _ m pos h hm rfl (by simp [valid_code])

theorem finv_add_base (F0 : List cram_feature) (fd : cram_fd) (e : enc) (pos base qual m : Nat)
    (h : e.finv F0 m) (hm : m ≤ pos) : (cram_add_base fd e pos base qual).finv F0 pos :=
  finv_add_feature F0 _ _ m pos h hm rfl (by simp [valid_code])

theorem finv_add_quality (F0 : List cram_feature) (fd : cram_fd) (e : enc) (pos qual m : Nat)
    (h : e.finv F0 m) (hm : m ≤ pos) : (cram_add_quality fd e pos qual).finv F0 pos :=
  finv_add_feature F0 _ _ m pos h hm rfl (by simp [valid_code])

theorem finv_add_deletion (F0 : List cram_feature) (e : enc) (pos len m : Nat)
    (h : e.finv F0 m) (hm : m ≤ pos) : (cram_add_deletion e pos len).finv F0 pos :=
  finv_add_feature F0 _ _ m pos h hm rfl (by simp [valid_code])

theorem finv_add_hardclip (F0 : List cram_feature) (e : enc) (pos len m : Nat)
    (h : e.finv F0 m) (hm : m ≤ pos) : (cram_add_hardclip e pos len).finv F0 pos :=
  finv_add_feature F0 _ _ m pos h hm rfl (by simp [valid_code])

theorem finv_add_skip (F0 : List cram_feature) (e : enc) (pos len m : Nat)
    (h : e.finv F0 m) (hm : m ≤ pos) : (cram_add_skip e pos len).finv F0 pos :=
  finv_add_feature F0 _ _ m pos h hm rfl (by simp [valid_code])

theorem finv_add_pad (F0 : List cram_feature) (e : enc) (pos len m : Nat)
    (h : e.finv F0 m) (hm : m ≤ pos) : (cram_add_pad e pos len).finv F0 pos :=
  finv_add_feature F0 _ _ m pos h hm rfl (by simp [valid_code])

theorem finv_add_softclip (F0 : List cram_feature) (e e' : enc) (pos len : Nat)
    (base : Option (List Nat)) (version m : Nat) (h : e.finv F0 m) (hm : m ≤ pos)
    (hs : cram_add_softclip e pos len base version = some e') :
    e'.finv F0 pos := by
  unfold cram_add_softclip at hs
  split at hs
  · split at hs
    · exact Option.noConfusion hs
    · cases hs
      exact finv_add_feature F0 _ _ m pos h hm rfl (by simp [valid_code])
  · cases hs
    exact finv_add_feature F0 _ _ m pos h hm rfl (by simp [valid_code])

theorem finv_add_insertion (F0 : List cram_feature) (e : enc) (pos len : Nat)
    (base : Option (List Nat)) (m : Nat) (h : e.finv F0 m) (hm : m ≤ pos) :
    (cram_add_insertion e pos len base).finv F0 pos := by
  unfold cram_add_insertion
  split
  · exact finv_add_feature F0 _ _ m pos h hm rfl (by simp [valid_code])
  · exact finv_add_feature F0 _ _ m pos h hm rfl (by simp [valid_code])

/-- The comparison loop keeps the invariant, with the bound moved to the offset
where the loop stopped, and never moves its counter back. -/
theorem finv_match_loop (F0 : List cram_feature) (fd : cram_fd) (seq qual : List Nat)
    (spos : Nat) (apos : Int) :
    ∀ (n l : Nat) (e : enc), e.finv F0 (spos + l) →
      (match_loop fd seq qual spos apos n l e).2.finv F0
          (spos + (match_loop fd seq qual spos apos n l e).1)
      ∧ l ≤ (match_loop fd seq qual spos apos n l e).1
      ∧ (match_loop fd seq qual spos apos n l e).1 ≤ l + n := by
  intro n
  induction n with
  | zero => intro l e h; exact ⟨h, Nat.le_refl _, Nat.le_refl _⟩
  | succ n ih =>
    intro l e h
    unfold match_loop
    dsimp only
    split
    · split
      · exact ⟨h, Nat.le_refl _, by omega⟩
      · have h1 := finv_add_substitution F0 fd e (spos + l) (byte_at seq (spos + l))
          (byte_at qual (spos + l)) (ref_at e.c.ref (apos + (l : Int))) (spos + l) h
          (Nat.le_refl _)
        have h2 := ih (l + 1) _ (finv_mono F0 _ _ (spos + (l + 1)) h1 (by omega))
        exact ⟨h2.1, by omega, by omega⟩
    · have h2 := ih (l + 1) e (finv_mono F0 _ _ (spos + (l + 1)) h (by omega))
      exact ⟨h2.1, by omega, by omega⟩

theorem finv_base_loop (F0 : List cram_feature) (fd : cram_fd) (seq qual : List Nat) :
    ∀ (n : Nat) (e : enc), e.finv F0 e.spos →
      (base_loop fd seq qual n e).finv F0 (base_loop fd seq qual n e).spos := by
  intro n
  induction n with
  | zero => intro e h; exact h
  | succ n ih =>
    intro e h
    unfold base_loop
    split
    · exact h
    · apply ih
      have h1 := finv_add_base F0 fd e e.spos (byte_at seq e.spos) (byte_at qual e.spos)
        e.spos h (Nat.le_refl _)
      exact finv_mono F0 _ _ (e.spos + 1) h1 (by omega)

theorem finv_qual_loop (F0 : List cram_feature) (fd : cram_fd) (q : Nat → Nat) :
    ∀ (n : Nat) (e : enc), e.finv F0 e.spos →
      (qual_loop fd q n e).finv F0 (qual_loop fd q n e).spos := by
  intro n
  induction n with
  | zero => intro e h; exact h
  | succ n ih =>
    intro e h
    unfold qual_loop
    apply ih
    have h1 := finv_add_quality F0 fd e e.spos (q e.spos) e.spos h (Nat.le_refl _)
    exact finv_mono F0 _ _ (e.spos + 1) h1 (by omega)

theorem finv_cigar_match (F0 : List cram_feature) (fd : cram_fd) (seq qual : List Nat)
    (cig_len : Nat) (e e' : enc) (h : cigar_match fd seq qual cig_len e = some e')
    (hi : e.finv F0 e.spos) : e'.finv F0 e'.spos := by
  unfold cigar_match at h
  split at h
  · simp at h
  · rename_i r hr
    simp only [Option.some.injEq] at h
    subst h
    have h1 : r.2.finv F0 r.2.spos := by
      unfold cigar_match_first at hr
      split at hr
      · split at hr
        · simp at hr
        · simp only [Option.some.injEq] at hr
          subst hr
          exact (finv_match_loop F0 fd seq qual e.spos e.apos _ 0 e hi).1
      · simp only [Option.some.injEq] at hr
        subst hr
        exact hi
    unfold cigar_match_rest
    split
    · show (cigar_match_bases fd seq qual (cig_len - r.1) r.2).finv F0
        (cigar_match_bases fd seq qual (cig_len - r.1) r.2).spos
      unfold cigar_match_bases
      split
      · split
        · exact finv_mono F0 _ _ _
            (finv_add_bases F0 r.2 r.2.spos (cig_len - r.1) r.2.spos h1 (Nat.le_refl _))
            (by show r.2.spos ≤ r.2.spos + (cig_len - r.1); omega)
        · exact finv_base_loop F0 fd seq qual _ _ h1
      · exact finv_base_loop F0 fd seq qual _ _ h1
    · split
      · exact finv_mono F0 _ _ _ h1 (by show r.2.spos ≤ r.2.spos + cig_len; omega)
      · exact h1

/-- The feature-adding functions do not move the cursors. -/
theorem add_feature_cursor (e : enc) (f : cram_feature) :
    (cram_add_feature e f).spos = e.spos ∧ (cram_add_feature e f).apos = e.apos := by
  unfold cram_add_feature
  dsimp only [enc.stats_add]
  split <;> exact ⟨rfl, rfl⟩

theorem add_deletion_cursor (e : enc) (pos len : Nat) :
    (cram_add_deletion e pos len).spos = e.spos ∧ (cram_add_deletion e pos len).apos = e.apos :=
  add_feature_cursor _ _

theorem add_skip_cursor (e : enc) (pos len : Nat) :
    (cram_add_skip e pos len).spos = e.spos ∧ (cram_add_skip e pos len).apos = e.apos :=
  add_feature_cursor _ _

theorem add_hardclip_cursor (e : enc) (pos len : Nat) :
    (cram_add_hardclip e pos len).spos = e.spos ∧ (cram_add_hardclip e pos len).apos = e.apos :=
  add_feature_cursor _ _

theorem add_pad_cursor (e : enc) (pos len : Nat) :
    (cram_add_pad e pos len).spos = e.spos ∧ (cram_add_pad e pos len).apos = e.apos :=
  add_feature_cursor _ _

theorem add_base_cursor (fd : cram_fd) (e : enc) (pos base qual : Nat) :
    (cram_add_base fd e pos base qual).spos = e.spos
    ∧ (cram_add_base fd e pos base qual).apos = e.apos :=
  add_feature_cursor _ _

theorem add_bases_cursor (e : enc) (pos len : Nat) :
    (cram_add_bases e pos len).spos = e.spos ∧ (cram_add_bases e pos len).apos = e.apos :=
  add_feature_cursor _ _

theorem add_quality_cursor (fd : cram_fd) (e : enc) (pos qual : Nat) :
    (cram_add_quality fd e pos qual).spos = e.spos
    ∧ (cram_add_quality fd e pos qual).apos = e.apos :=
  add_feature_cursor _ _

theorem add_substitution_cursor (fd : cram_fd) (e : enc) (pos base qual ref : Nat) :
    (cram_add_substitution fd e pos base qual ref).spos = e.spos
    ∧ (cram_add_substitution fd e pos base qual ref).apos = e.apos := by
  unfold cram_add_substitution
  dsimp only
  split <;> exact add_feature_cursor _ _

theorem add_softclip_cursor (e e' : enc) (pos len : Nat) (base : Option (List Nat))
    (version : Nat) (h : cram_add_softclip e pos len base version = some e') :
    e'.spos = e.spos ∧ e'.apos = e.apos := by
  unfold cram_add_softclip at h
  split at h
  · split at h
    · exact Option.noConfusion h
    · cases h
      exact add_feature_cursor _ _
  · cases h
    exact add_feature_cursor _ _

theorem add_insertion_cursor (e : enc) (pos len : Nat) (base : Option (List Nat)) :
    (cram_add_insertion e pos len base).spos = e.spos
    ∧ (cram_add_insertion e pos len base).apos = e.apos := by
  unfold cram_add_insertion
  split <;> exact add_feature_cursor _ _

theorem finv_cigar_step (F0 : List cram_feature) (fd : cram_fd) (seq qual : List Nat) (w : Nat)
    (e e' : enc) (h : cigar_step fd seq qual w e = some e') (hi : e.finv F0 e.spos) :
    e'.finv F0 e'.spos := by
  unfold cigar_step at h
  dsimp only at h
  split at h
  · exact finv_cigar_match F0 _ _ _ _ _ _ h hi
  split at h
  · cases h
    show (cram_add_deletion e e.spos _).finv F0 (cram_add_deletion e e.spos _).spos
    rw [(add_deletion_cursor _ _ _).1]
    exact finv_add_deletion F0 e e.spos _ e.spos hi (Nat.le_refl _)
  split at h
  · cases h
    show (cram_add_skip e e.spos _).finv F0 (cram_add_skip e e.spos _).spos
    rw [(add_skip_cursor _ _ _).1]
    exact finv_add_skip F0 e e.spos _ e.spos hi (Nat.le_refl _)
  split at h
  · cases h
    have h1 := finv_add_insertion F0 e e.spos (w >>> BAM_CIGAR_SHIFT)
      (seq_ptr seq (w >>> BAM_CIGAR_SHIFT) e) e.spos hi (Nat.le_refl _)
    have hsp := (add_insertion_cursor e e.spos (w >>> BAM_CIGAR_SHIFT)
      (seq_ptr seq (w >>> BAM_CIGAR_SHIFT) e)).1
    unfold cigar_ins
    dsimp only
    split
    · exact finv_qual_loop F0 fd _ _ _ (by rw [hsp]; exact h1)
    · refine finv_mono F0 _ _ _ h1 ?_
      show e.spos ≤ (cram_add_insertion e e.spos (w >>> BAM_CIGAR_SHIFT)
        (seq_ptr seq (w >>> BAM_CIGAR_SHIFT) e)).spos + w >>> BAM_CIGAR_SHIFT
      rw [hsp]; exact Nat.le_add_right _ _
  split at h
  · obtain ⟨e1, hs1, rfl⟩ := cigar_softclip_some fd seq qual _ e e' h
    have h1 := finv_add_softclip F0 e e1 e.spos (w >>> BAM_CIGAR_SHIFT)
      (seq_ptr seq (w >>> BAM_CIGAR_SHIFT) e) fd.version e.spos hi (Nat.le_refl _) hs1
    have hsp := (add_softclip_cursor e e1 e.spos (w >>> BAM_CIGAR_SHIFT)
      (seq_ptr seq (w >>> BAM_CIGAR_SHIFT) e) fd.version hs1).1
    split
    · split
      · exact finv_qual_loop F0 fd _ _ _ (by rw [hsp]; exact h1)
      · exact finv_qual_loop F0 fd _ _ _ (by rw [hsp]; exact h1)
    · refine finv_mono F0 _ _ _ h1 ?_
      show e.spos ≤ e1.spos + w >>> BAM_CIGAR_SHIFT
      rw [hsp]; exact Nat.le_add_right _ _
  split at h
  · cases h
    rw [(add_hardclip_cursor _ _ _).1]
    exact finv_add_hardclip F0 e e.spos _ e.spos hi (Nat.le_refl _)
  split at h
  · cases h
    rw [(add_pad_cursor _ _ _).1]
    exact finv_add_pad F0 e e.spos _ e.spos hi (Nat.le_refl _)
  · simp at h

theorem finv_cigar_walk (F0 : List cram_feature) (fd : cram_fd) (seq qual : List Nat) :
    ∀ (ws : List Nat) (e e' : enc), cigar_walk fd seq qual ws e = some e' →
      e.finv F0 e.spos → e'.finv F0 e'.spos := by
  intro ws
  induction ws with
  | nil => intro e e' h hi; simp only [cigar_walk, Option.some.injEq] at h; subst h; exact hi
  | cons w ws ih =>
    intro e e' h hi
    simp only [cigar_walk] at h
    split at h
    · simp at h
    · rename_i e1 h1
      exact ih e1 e' h (finv_cigar_step F0 fd seq qual w e e1 h1 hi)

/-! ## The mate block and the closing statements keep the geometry of every record -/

theorem rec_geom_refl (r : cram_record) : rec_geom r r :=
  ⟨rfl, rfl, rfl, rfl, rfl, rfl, rfl, rfl, rfl, rfl⟩

theorem rec_geom_trans {a b c : cram_record} (h1 : rec_geom a b) (h2 : rec_geom b c) :
    rec_geom a c :=
  ⟨h2.flags.trans h1.flags, h2.len.trans h1.len, h2.apos.trans h1.apos,
   h2.aend.trans h1.aend, h2.feature.trans h1.feature, h2.nfeature.trans h1.nfeature,
   h2.seq.trans h1.seq, h2.ref_id.trans h1.ref_id, h2.rg.trans h1.rg, h2.TL.trans h1.TL⟩

theorem slice_geom_refl (s : cram_slice) : slice_geom s s :=
  ⟨rfl, rfl, rfl, fun _ => rec_geom_refl _⟩

theorem slice_geom_trans {a b c : cram_slice} (h1 : slice_geom a b) (h2 : slice_geom b c) :
    slice_geom a c :=
  ⟨h2.features.trans h1.features, h2.seqs_blk.trans h1.seqs_blk,
   h2.ref_seq_id.trans h1.ref_seq_id, fun k => rec_geom_trans (h1.recs k) (h2.recs k)⟩

theorem slice_geom_upd (s : cram_slice) (i : Nat) (f : cram_record → cram_record)
    (hf : ∀ r, rec_geom r (f r)) : slice_geom s (s.upd i f) := by
  refine ⟨rfl, rfl, rfl, fun k => ?_⟩
  by_cases hk : k = i
  · subst hk
    rw [upd_crecs_same]
    exact hf _
  · rw [upd_crecs_other s i k f hk]
    exact rec_geom_refl _

theorem slice_geom_pair (s : cram_slice) (p : Bool → HashTable Nat) :
    slice_geom s { s with pair := p } :=
  ⟨rfl, rfl, rfl, fun _ => rec_geom_refl _⟩

/-- An update of one record that only writes mate fields or `cram_flags`. -/
theorem slice_geom_then_upd (s0 s : cram_slice) (i : Nat) (f : cram_record → cram_record)
    (h : slice_geom s0 s) (hf : ∀ r, rec_geom r (f r)) : slice_geom s0 (s.upd i f) :=
  slice_geom_trans h (slice_geom_upd s i f hf)

theorem slice_geom_mate_link (c : cram_container) (s : cram_slice) (sec : Bool)
    (key : List Nat) (rnum j : Nat) : slice_geom s (mate_link c s sec key rnum j).2 := by
  unfold mate_link
  dsimp only
  refine slice_geom_trans ?_ (slice_geom_pair _ _)
  apply slice_geom_then_upd
  · apply slice_geom_then_upd
    · split
      · apply slice_geom_then_upd
        · apply slice_geom_then_upd
          · apply slice_geom_then_upd
            · exact slice_geom_refl s
            · intro r; exact ⟨rfl, rfl, rfl, rfl, rfl, rfl, rfl, rfl, rfl, rfl⟩
          · intro r; exact ⟨rfl, rfl, rfl, rfl, rfl, rfl, rfl, rfl, rfl, rfl⟩
        · intro r; exact ⟨rfl, rfl, rfl, rfl, rfl, rfl, rfl, rfl, rfl, rfl⟩
      · apply slice_geom_then_upd
        · apply slice_geom_then_upd
          · exact slice_geom_refl s
          · intro r; exact ⟨rfl, rfl, rfl, rfl, rfl, rfl, rfl, rfl, rfl, rfl⟩
        · intro r; exact ⟨rfl, rfl, rfl, rfl, rfl, rfl, rfl, rfl, rfl, rfl⟩
    · intro r; exact ⟨rfl, rfl, rfl, rfl, rfl, rfl, rfl, rfl, rfl, rfl⟩
  · intro r; exact ⟨rfl, rfl, rfl, rfl, rfl, rfl, rfl, rfl, rfl, rfl⟩

theorem slice_geom_mate_detached (c : cram_container) (s : cram_slice) (b : bam_seq_t)
    (rnum : Nat) : slice_geom s (mate_detached c s b rnum).2 := by
  unfold mate_detached
  dsimp only
  apply slice_geom_upd
  intro r; exact ⟨rfl, rfl, rfl, rfl, rfl, rfl, rfl, rfl, rfl, rfl⟩

theorem slice_geom_por_mate (fd : cram_fd) (c : cram_container) (s : cram_slice)
    (b : bam_seq_t) (rnum : Nat) : slice_geom s (por_mate fd c s b rnum).2 := by
  unfold por_mate
  split
  · dsimp only
    split
    · exact slice_geom_trans (slice_geom_pair s _) (slice_geom_mate_detached _ _ _ _)
    · split
      · exact slice_geom_trans (slice_geom_pair s _) (slice_geom_mate_link _ _ _ _ _ _)
      · exact slice_geom_trans (slice_geom_pair s _) (slice_geom_mate_detached _ _ _ _)
  · exact slice_geom_mate_detached _ _ _ _

theorem slice_geom_por_tail (c : cram_container) (s : cram_slice) (b : bam_seq_t)
    (rnum : Nat) : slice_geom s (por_tail c s b rnum).2 := by
  unfold por_tail
  dsimp only
  apply slice_geom_upd
  intro r; exact ⟨rfl, rfl, rfl, rfl, rfl, rfl, rfl, rfl, rfl, rfl⟩

/-- The result of `process_one_read` has the feature pool, the sequence block
and the record geometry of the state at the start of the mate block. -/
theorem process_one_read_geom (fd : cram_fd) (c c' : cram_container) (s s' : cram_slice)
    (b : bam_seq_t) (i : Nat) (h : process_one_read fd c s b i = some (c', s')) :
    ∃ c1 s1, por_pre fd c s b i = some (c1, s1) ∧ slice_geom s1 s' := by
  unfold process_one_read at h
  split at h
  · simp at h
  · rename_i c1 s1 hpre
    simp only [Option.some.injEq] at h
    refine ⟨c1, s1, hpre, ?_⟩
    have hs : s' = (por_tail (por_mate fd c1 s1 b i).1 (por_mate fd c1 s1 b i).2 b i).2 := by
      rw [h]
    rw [hs]
    exact slice_geom_trans (slice_geom_por_mate fd c1 s1 b i) (slice_geom_por_tail _ _ _ _)

/-- Under the pool invariant the record's slice of the pool is exactly the list
of features appended for the record. -/
theorem feat_inv_record (F0 feats : List cram_feature) (nf fi m : Nat)
    (h : feat_inv F0 feats nf fi m) :
    feats = F0 ++ (feats.drop fi).take nf
    ∧ List.Pairwise (fun f g : cram_feature => f.pos ≤ g.pos) ((feats.drop fi).take nf)
    ∧ ∀ f ∈ (feats.drop fi).take nf, 1 ≤ f.pos ∧ valid_code f.code := by
  obtain ⟨new, h1, h2, h3, h4, h5⟩ := h
  have hnew : (feats.drop fi).take nf = new := by
    cases new with
    | nil => simp [h2]
    | cons x xs =>
      have hfi := h3 (by simp)
      rw [h1, h2, hfi]
      simp
  rw [hnew]
  exact ⟨h1, h4, fun f hf => ⟨(h5 f hf).1, (h5 f hf).2.2⟩⟩

theorem por_cigar_finv (fd : cram_fd) (b : bam_seq_t) (seq : List Nat) (e e' : enc) (fq : Nat)
    (h : por_cigar fd b seq e = some (e', fq)) (hm : has_flag e.cr.flags BAM_FUNMAP = false) :
    e'.finv e.s.features fq := by
  unfold por_cigar at h
  rw [if_pos hm] at h
  dsimp only at h
  split at h
  · simp at h
  · rename_i e2 hw
    split at h
    · simp at h
    · simp only [Option.some.injEq, Prod.mk.injEq] at h
      obtain ⟨rfl, rfl⟩ := h
      have h0 : enc.finv e.s.features
          ({ e with cr := { e.cr with cigar := e.s.ncigar, ncigar := b.cigar.length,
                                      feature := 0, nfeature := 0 },
                    apos := e.cr.apos - 1, spos := 0 } : enc) 0 :=
        ⟨[], by simp, rfl, by simp, List.Pairwise.nil, by simp⟩
      exact finv_cigar_walk e.s.features fd seq b.qual b.cigar _ e2 hw h0

/-- The pool invariant holds when the mate block of a mapped record starts. -/
theorem por_pre_finv (fd : cram_fd) (c c1 : cram_container) (s s1 : cram_slice)
    (b : bam_seq_t) (i : Nat) (h : por_pre fd c s b i = some (c1, s1))
    (hm : has_flag b.flag BAM_FUNMAP = false) :
    ∃ m, feat_inv s.features s1.features (s1.crecs i).nfeature (s1.crecs i).feature m := by
  unfold por_pre at h
  split at h
  · simp at h
  · rename_i e seq hh
    split at h
    · simp at h
    · rename_i e1 fq hc
      simp only [Option.some.injEq, Prod.mk.injEq] at h
      obtain ⟨_, rfl⟩ := h
      unfold por_head at hh
      split at hh
      · simp at hh
      · rename_i rg e0 ha
        simp only [Option.some.injEq] at hh
        obtain ⟨hs, hfl, _⟩ := por_aux_spec fd c s b i rg e0 ha
        obtain ⟨_, _, r3, r4, _⟩ := por_head_rest_spec fd b rg e0
        rw [hh] at r3 r4
        dsimp only at r3 r4
        have hmap : has_flag e.cr.flags BAM_FUNMAP = false := by rw [r4, hfl]; exact hm
        have hinv := por_cigar_finv fd b seq e e1 fq hc hmap
        obtain ⟨_, _, p3, _, _, _, _, p8, p9⟩ := por_qual_spec fd b fq e1
        refine ⟨fq, ?_⟩
        show feat_inv s.features (por_qual fd b fq e1).s.features
          (Function.update (por_qual fd b fq e1).s.crecs i (por_qual fd b fq e1).cr i).nfeature
          (Function.update (por_qual fd b fq e1).s.crecs i (por_qual fd b fq e1).cr i).feature fq
        rw [Function.update_same, p3, p8, p9, ← hs, ← r3]
        exact hinv

theorem feature_payload_no_FP (s : cram_slice) (f : cram_feature) (pl : List emission)
    (h : feature_payload s f = some pl) : ∀ x ∈ pl, x.1 ≠ DS_FP := by
  unfold feature_payload at h
  intro x hx
  by_cases h0 : f.code = 'X'.toNat
  · rw [if_pos h0] at h
    cases h
    simp only [List.mem_singleton, List.not_mem_nil] at hx
    subst hx
    intro hh
    cases hh
  rw [if_neg h0] at h
  by_cases h1 : f.code = 'S'.toNat
  · rw [if_pos h1] at h
    cases h
    simp only [List.mem_singleton, List.not_mem_nil] at hx
  rw [if_neg h1] at h
  by_cases h2 : f.code = 'I'.toNat
  · rw [if_pos h2] at h
    cases h
    simp only [List.mem_singleton, List.not_mem_nil] at hx
  rw [if_neg h2] at h
  by_cases h3 : f.code = 'i'.toNat
  · rw [if_pos h3] at h
    cases h
    simp only [List.mem_singleton, List.not_mem_nil] at hx
    subst hx
    intro hh
    cases hh
  rw [if_neg h3] at h
  by_cases h4 : f.code = 'D'.toNat
  · rw [if_pos h4] at h
    cases h
    simp only [List.mem_singleton, List.not_mem_nil] at hx
    subst hx
    intro hh
    cases hh
  rw [if_neg h4] at h
  by_cases h5 : f.code = 'B'.toNat
  · rw [if_pos h5] at h
    cases h
    simp only [List.mem_singleton, List.not_mem_nil] at hx
    subst hx
    intro hh
    cases hh
  rw [if_neg h5] at h
  by_cases h6 : f.code = 'b'.toNat
  · rw [if_pos h6] at h
    cases h
    simp only [List.mem_singleton, List.not_mem_nil] at hx
    subst hx
    intro hh
    cases hh
  rw [if_neg h6] at h
  by_cases h7 : f.code = 'Q'.toNat
  · rw [if_pos h7] at h
    cases h
    simp only [List.mem_singleton, List.not_mem_nil] at hx
  rw [if_neg h7] at h
  by_cases h8 : f.code = 'N'.toNat
  · rw [if_pos h8] at h
    cases h
    simp only [List.mem_singleton, List.not_mem_nil] at hx
    subst hx
    intro hh
    cases hh
  rw [if_neg h8] at h
  by_cases h9 : f.code = 'P'.toNat
  · rw [if_pos h9] at h
    cases h
    simp only [List.mem_singleton, List.not_mem_nil] at hx
    subst hx
    intro hh
    cases hh
  rw [if_neg h9] at h
  by_cases h10 : f.code = 'H'.toNat
  · rw [if_pos h10] at h
    cases h
    simp only [List.mem_singleton, List.not_mem_nil] at hx
    subst hx
    intro hh
    cases hh
  rw [if_neg h10] at h
  cases h

theorem feature_payload_valid (s : cram_slice) (f : cram_feature) (h : valid_code f.code) :
    ∃ pl, feature_payload s f = some pl := by
  unfold valid_code at h
  unfold feature_payload
  simp only [List.mem_cons, List.mem_singleton, List.not_mem_nil, or_false] at h
  by_cases h0 : f.code = 'X'.toNat
  · rw [if_pos h0]
    exact ⟨_, rfl⟩
  rw [if_neg h0]
  by_cases h1 : f.code = 'S'.toNat
  · rw [if_pos h1]
    exact ⟨_, rfl⟩
  rw [if_neg h1]
  by_cases h2 : f.code = 'I'.toNat
  · rw [if_pos h2]
    exact ⟨_, rfl⟩
  rw [if_neg h2]
  by_cases h3 : f.code = 'i'.toNat
  · rw [if_pos h3]
    exact ⟨_, rfl⟩
  rw [if_neg h3]
  by_cases h4 : f.code = 'D'.toNat
  · rw [if_pos h4]
    exact ⟨_, rfl⟩
  rw [if_neg h4]
  by_cases h5 : f.code = 'B'.toNat
  · rw [if_pos h5]
    exact ⟨_, rfl⟩
  rw [if_neg h5]
  by_cases h6 : f.code = 'b'.toNat
  · rw [if_pos h6]
    exact ⟨_, rfl⟩
  rw [if_neg h6]
  by_cases h7 : f.code = 'Q'.toNat
  · rw [if_pos h7]
    exact ⟨_, rfl⟩
  rw [if_neg h7]
  by_cases h8 : f.code = 'N'.toNat
  · rw [if_pos h8]
    exact ⟨_, rfl⟩
  rw [if_neg h8]
  by_cases h9 : f.code = 'P'.toNat
  · rw [if_pos h9]
    exact ⟨_, rfl⟩
  rw [if_neg h9]
  by_cases h10 : f.code = 'H'.toNat
  · rw [if_pos h10]
    exact ⟨_, rfl⟩
  rw [if_neg h10]
  exfalso
  rcases h with h | h | h | h | h | h | h | h | h | h | h <;> contradiction

/-- The slice encoder emits a non-negative FP value for every feature of a list
whose positions are non-decreasing and not before `prev_pos`. -/
theorem encode_features_FP_nonneg (s : cram_slice) :
    ∀ (fs : List cram_feature) (prev : Int) (em : List emission),
      encode_features s fs prev = some em →
      List.Pairwise (fun f g : cram_feature => f.pos ≤ g.pos) fs →
      (∀ f ∈ fs, prev ≤ f.pos) →
      ∀ x ∈ em, x.1 = DS_FP → ∀ v ∈ x.2, 0 ≤ v := by
  intro fs
  induction fs with
  | nil =>
    intro prev em h _ _ x hx
    simp only [encode_features, Option.some.injEq] at h
    subst h
    simp at hx
  | cons f fs ih =>
    intro prev em h hp hb x hx hds v hv
    simp only [encode_features] at h
    split at h
    · rename_i pl rest hpl hrest
      simp only [Option.some.injEq] at h
      subst h
      rw [List.pairwise_cons] at hp
      simp only [List.mem_cons, List.mem_append] at hx
      rcases hx with hx | hx | hx | hx
      · subst hx; simp at hds
      · subst hx
        simp only [List.mem_singleton] at hv
        subst hv
        have := hb f (by simp)
        omega
      · exact absurd hds (feature_payload_no_FP s f pl hpl x hx)
      · exact ih f.pos rest hrest hp.2 (fun g hg => hp.1 g hg) x hx hds v hv
    · simp at h

/-- The slice encoder accepts every list of features with known codes. -/
theorem encode_features_some (s : cram_slice) :
    ∀ (fs : List cram_feature) (prev : Int), (∀ f ∈ fs, valid_code f.code) →
      ∃ em, encode_features s fs prev = some em := by
  intro fs
  induction fs with
  | nil => intro prev _; exact ⟨[], rfl⟩
  | cons f fs ih =>
    intro prev hv
    obtain ⟨pl, hpl⟩ := feature_payload_valid s f (hv f (by simp))
    obtain ⟨rest, hrest⟩ := ih f.pos (fun g hg => hv g (by simp [hg]))
    simp only [encode_features, hpl, hrest]
    exact ⟨_, rfl⟩

/-- C9: after `process_one_read` on a mapped record, the record's features, read
in the order they were appended to the slice feature pool, have non-decreasing
positions starting at 1 or later; the slice encoder accepts them, and every FP
value it emits for the record is `>= 0`. -/
theorem process_one_read_feature_positions (fd : cram_fd) (c c' : cram_container)
    (s s' : cram_slice) (b : bam_seq_t) (i : Nat)
    (h : process_one_read fd c s b i = some (c', s'))
    (hm : has_flag b.flag BAM_FUNMAP = false) :
    List.Pairwise (fun f g : cram_feature => f.pos ≤ g.pos) (record_features s' (s'.crecs i))
    ∧ (∀ f ∈ record_features s' (s'.crecs i), 1 ≤ f.pos)
    ∧ ∃ em, encode_features s' (record_features s' (s'.crecs i)) 0 = some em
        ∧ ∀ x ∈ em, x.1 = DS_FP → ∀ v ∈ x.2, 0 ≤ v := by
  obtain ⟨c1, s1, hpre, hg⟩ := process_one_read_geom fd c c' s s' b i h
  obtain ⟨m, hinv⟩ := por_pre_finv fd c c1 s s1 b i hpre hm
  obtain ⟨_, hsorted, hpos⟩ := feat_inv_record _ _ _ _ _ hinv
  have hrf : record_features s' (s'.crecs i)
      = (s1.features.drop (s1.crecs i).feature).take (s1.crecs i).nfeature := by
    unfold record_features
    rw [hg.features, (hg.recs i).feature, (hg.recs i).nfeature]
  rw [hrf]
  obtain ⟨em, hem⟩ := encode_features_some s' _ 0 (fun f hf => (hpos f hf).2)
  refine ⟨hsorted, fun f hf => (hpos f hf).1, em, hem, ?_⟩
  exact encode_features_FP_nonneg s' _ 0 em hem hsorted
    (fun f hf => by have := (hpos f hf).1; omega)

/-- C9 witness: the read `bam_edits` (`2M 1I 3M 2D 2M`) as record 0 of a fresh slice. -/
theorem process_one_read_feature_positions_witness :
    List.Pairwise (fun f g : cram_feature => f.pos ≤ g.pos)
      (record_features state_edits.2 (state_edits.2.crecs 0))
    ∧ (∀ f ∈ record_features state_edits.2 (state_edits.2.crecs 0), 1 ≤ f.pos)
    ∧ ∃ em, encode_features state_edits.2
          (record_features state_edits.2 (state_edits.2.crecs 0)) 0 = some em
        ∧ ∀ x ∈ em, x.1 = DS_FP → ∀ v ∈ x.2, 0 ≤ v :=
  process_one_read_feature_positions fd_v3 (container_new ref32) state_edits.1
    (slice_new 1) state_edits.2 bam_edits 0 (option_getD_eq _ _ (by decide)) (by decide)

/-! ## The end position `aend` -/

theorem bam_nt16_rev_table_ne_zero (i : Nat) : bam_nt16_rev_table i ≠ 0 := by
  unfold bam_nt16_rev_table
  by_cases h : i < 16
  · interval_cases i <;> decide
  · rw [List.getD_eq_default _ _ (by simpa using h)]
    decide

theorem unpack_pairs_spec : ∀ (n : Nat) (src : List Nat),
    (unpack_pairs n src).length = 2 * n ∧ ∀ x ∈ unpack_pairs n src, x ≠ 0 := by
  intro n
  induction n with
  | zero => intro src; simp [unpack_pairs]
  | succ n ih =>
    intro src
    simp only [unpack_pairs, List.length_cons, List.mem_cons]
    refine ⟨by rw [(ih _).1]; omega, ?_⟩
    intro x hx
    rcases hx with hx | hx | hx
    · rw [hx]; exact bam_nt16_rev_table_ne_zero _
    · rw [hx]; exact bam_nt16_rev_table_ne_zero _
    · exact (ih _).2 x hx

/-- The converted read has `len` bytes and none of them is NUL. -/
theorem unpack_seq_spec (src : List Nat) (len : Nat) :
    (unpack_seq src len).length = len ∧ ∀ x ∈ unpack_seq src len, x ≠ 0 := by
  unfold unpack_seq
  constructor
  · rw [List.length_append, (unpack_pairs_spec _ _).1]
    split <;> simp <;> omega
  · intro x hx
    rw [List.mem_append] at hx
    rcases hx with hx | hx
    · exact (unpack_pairs_spec _ _).2 x hx
    · split at hx
      · simp only [List.mem_singleton] at hx
        rw [hx]; exact bam_nt16_rev_table_ne_zero _
      · simp at hx

theorem byte_at_unpack_seq (src : List Nat) (len k : Nat) (hk : k < len) :
    byte_at (unpack_seq src len) k ≠ 0 := by
  unfold byte_at
  have hl := (unpack_seq_spec src len).1
  rw [List.getD_eq_getElem _ _ (by rw [hl]; exact hk)]
  exact (unpack_seq_spec src len).2 _ (List.getElem_mem _)

/-- Without a NUL byte in its range the comparison loop runs to its end. -/
theorem match_loop_full (fd : cram_fd) (seq qual : List Nat) (spos : Nat) (apos : Int) :
    ∀ (n l : Nat) (e : enc), (∀ k, l ≤ k → k < l + n → byte_at seq (spos + k) ≠ 0) →
      (match_loop fd seq qual spos apos n l e).1 = l + n := by
  intro n
  induction n with
  | zero => intro l e _; rfl
  | succ n ih =>
    intro l e hnz
    unfold match_loop
    dsimp only
    have h0 := hnz l (Nat.le_refl _) (by omega)
    split
    · try rw [if_neg h0]
      rw [ih (l + 1) _ (fun k hk1 hk2 => hnz k (by omega) (by omega))]
      omega
    · rw [ih (l + 1) _ (fun k hk1 hk2 => hnz k (by omega) (by omega))]
      omega

theorem base_loop_apos (fd : cram_fd) (seq qual : List Nat) :
    ∀ (n : Nat) (e : enc), (base_loop fd seq qual n e).apos = e.apos := by
  intro n
  induction n with
  | zero => intro e; rfl
  | succ n ih =>
    intro e
    unfold base_loop
    split
    · rfl
    · rw [ih]
      exact (add_base_cursor fd e _ _ _).2

theorem base_loop_full (fd : cram_fd) (seq qual : List Nat) :
    ∀ (n : Nat) (e : enc), (∀ k, k < n → byte_at seq (e.spos + k) ≠ 0) →
      (base_loop fd seq qual n e).spos = e.spos + n := by
  intro n
  induction n with
  | zero => intro e _; rfl
  | succ n ih =>
    intro e hnz
    unfold base_loop
    have h0 := hnz 0 (by omega)
    rw [Nat.add_zero] at h0
    rw [if_neg h0, ih]
    · show e.spos + 1 + n = e.spos + (n + 1)
      omega
    · intro k hk
      show byte_at seq (e.spos + 1 + k) ≠ 0
      have := hnz (k + 1) (by omega)
      rwa [show e.spos + 1 + k = e.spos + (k + 1) by omega]

theorem qual_loop_cursor (fd : cram_fd) (q : Nat → Nat) :
    ∀ (n : Nat) (e : enc), (qual_loop fd q n e).spos = e.spos + n
      ∧ (qual_loop fd q n e).apos = e.apos := by
  intro n
  induction n with
  | zero => intro e; exact ⟨rfl, rfl⟩
  | succ n ih =>
    intro e
    unfold qual_loop
    rw [(ih _).1, (ih _).2]
    refine ⟨?_, (add_quality_cursor fd e _ _).2⟩
    show e.spos + 1 + n = e.spos + (n + 1)
    omega

theorem cursor_inv_shift (fd : cram_fd) (re a t : Int) (n : Nat) (h : cursor_inv fd re a t) :
    cursor_inv fd re (a + (n : Int)) (t + (n : Int)) := by
  rcases h with h | ⟨h1, h2, h3⟩
  · exact Or.inl (by rw [h])
  · exact Or.inr ⟨h1, by omega, by omega⟩

theorem cigar_match_bases_apos (fd : cram_fd) (seq qual : List Nat) (n : Nat) (e : enc) :
    (cigar_match_bases fd seq qual n e).apos = e.apos := by
  unfold cigar_match_bases
  split
  · split
    · exact (add_bases_cursor e e.spos n).2
    · exact base_loop_apos fd seq qual n e
  · exact base_loop_apos fd seq qual n e

/-- The `M`/`=`/`X` arm moves the reference cursor by the operation length, or
past it when the operation runs over the end of the reference, and the read
cursor by the operation length. -/
theorem aend_cigar_match (fd : cram_fd) (seq qual : List Nat) (cig_len : Nat) (e e' : enc)
    (h : cigar_match fd seq qual cig_len e = some e') (t : Int)
    (hJ : cursor_inv fd e.c.ref_end e.apos t)
    (hq : fd.no_ref = true ∨ e.cr.len = 0
      ∨ ((∀ k, k < e.cr.len → byte_at seq k ≠ 0) ∧ e.spos + cig_len ≤ e.cr.len)) :
    cursor_inv fd e.c.ref_end e'.apos (t + (cig_len : Int))
    ∧ (fd.no_ref = false → e.cr.len ≠ 0 → e'.spos = e.spos + cig_len) := by
  unfold cigar_match at h
  split at h
  · simp at h
  rename_i r hfirst
  simp only [Option.some.injEq] at h
  subst h
  unfold cigar_match_first at hfirst
  split at hfirst
  · rename_i hc
    obtain ⟨hnr, hlen⟩ := hc
    split at hfirst
    · simp at hfirst
    rename_i hend
    simp only [Option.some.injEq] at hfirst
    subst hfirst
    dsimp only
    rcases hq with hq | hq | ⟨hnz, hsp⟩
    · rw [hq] at hnr; cases hnr
    · exact absurd hq hlen
    have hle : cigar_match_end cig_len e ≤ (cig_len : Int) := by
      unfold cigar_match_end
      split <;> omega
    have hn : (cigar_match_end cig_len e).toNat ≤ cig_len := by omega
    have hfull := match_loop_full fd seq qual e.spos e.apos (cigar_match_end cig_len e).toNat 0 e
      (fun k _ hk => hnz _ (by omega))
    rw [Nat.zero_add] at hfull
    rw [hfull]
    have hfl := (walk_frame_match_loop fd seq qual e.spos e.apos
      (cigar_match_end cig_len e).toNat 0 e).len
    unfold cigar_match_rest
    dsimp only
    split
    · rename_i hc2
      have hlt := hc2.1
      have hover : e.c.ref_end ≤ (cig_len : Int) + e.apos := by
        unfold cigar_match_end at hlt hn
        split at hlt
        · omega
        · omega
      unfold cigar_match_bases
      simp only [hnr, Bool.false_eq_true, if_false]
      constructor
      · rw [base_loop_apos]
        refine Or.inr ⟨hnr, ?_, ?_⟩
        · rcases hJ with hJ | ⟨_, h2, h3⟩ <;> omega
        · show t + (cig_len : Int)
            ≤ e.apos + (((cigar_match_end cig_len e).toNat : Nat) : Int) + (cig_len : Int)
          rcases hJ with hJ | ⟨_, h2, h3⟩ <;> omega
      · intro _ _
        rw [base_loop_full]
        · show e.spos + (cigar_match_end cig_len e).toNat
            + (cig_len - (cigar_match_end cig_len e).toNat) = e.spos + cig_len
          omega
        · intro k hk
          exact hnz _ (by
            show e.spos + (cigar_match_end cig_len e).toNat + k < e.cr.len
            omega)
    · rename_i hc2
      have heq : (cigar_match_end cig_len e).toNat = cig_len := by
        by_contra hne
        exact hc2 ⟨by omega, by rw [hfl]; exact hlen⟩
      rw [if_neg (by rw [hfl]; exact hlen)]
      rw [heq]
      exact ⟨cursor_inv_shift fd _ _ _ _ hJ, fun _ _ => rfl⟩
  · rename_i hc
    simp only [Option.some.injEq] at hfirst
    subst hfirst
    unfold cigar_match_rest
    dsimp only
    split
    · rename_i hc2
      have hnr : fd.no_ref = true := by
        by_contra hx
        exact hc ⟨by simpa using hx, hc2.2⟩
      constructor
      · rw [cigar_match_bases_apos]
        rcases hJ with hJ | ⟨h1, _, _⟩
        · exact Or.inl (by rw [hJ])
        · rw [hnr] at h1; cases h1
      · intro hx; rw [hnr] at hx; cases hx
    · split
      · rename_i hl0
        exact ⟨cursor_inv_shift fd _ _ _ _ hJ, fun _ hx => absurd hl0 hx⟩
      · rename_i hc2 hl0
        have hz : cig_len = 0 := by
          by_contra hne
          exact hc2 ⟨by omega, hl0⟩
        subst hz
        exact ⟨by simpa using hJ, fun _ _ => rfl⟩

theorem op_len_match (w : Nat) (h : w &&& BAM_CIGAR_MASK = BAM_CMATCH
    ∨ w &&& BAM_CIGAR_MASK = BAM_CBASE_MATCH ∨ w &&& BAM_CIGAR_MASK = BAM_CBASE_MISMATCH) :
    op_ref_len w = w >>> BAM_CIGAR_SHIFT ∧ op_query_len w = w >>> BAM_CIGAR_SHIFT := by
  unfold op_ref_len op_query_len is_match_op cigar_op_of cigar_len_of
  rcases h with h | h | h <;> rw [h] <;> exact ⟨rfl, rfl⟩

theorem op_len_del (w : Nat) (h : w &&& BAM_CIGAR_MASK = BAM_CDEL) :
    op_ref_len w = w >>> BAM_CIGAR_SHIFT ∧ op_query_len w = 0 := by
  unfold op_ref_len op_query_len is_match_op cigar_op_of cigar_len_of
  rw [h]; exact ⟨rfl, rfl⟩

theorem op_len_skip (w : Nat) (h : w &&& BAM_CIGAR_MASK = BAM_CREF_SKIP) :
    op_ref_len w = w >>> BAM_CIGAR_SHIFT ∧ op_query_len w = 0 := by
  unfold op_ref_len op_query_len is_match_op cigar_op_of cigar_len_of
  rw [h]; exact ⟨rfl, rfl⟩

theorem op_len_ins (w : Nat) (h : w &&& BAM_CIGAR_MASK = BAM_CINS) :
    op_ref_len w = 0 ∧ op_query_len w = w >>> BAM_CIGAR_SHIFT := by
  unfold op_ref_len op_query_len is_match_op cigar_op_of cigar_len_of
  rw [h]; exact ⟨rfl, rfl⟩

theorem op_len_softclip (w : Nat) (h : w &&& BAM_CIGAR_MASK = BAM_CSOFT_CLIP) :
    op_ref_len w = 0 ∧ op_query_len w = w >>> BAM_CIGAR_SHIFT := by
  unfold op_ref_len op_query_len is_match_op cigar_op_of cigar_len_of
  rw [h]; exact ⟨rfl, rfl⟩

theorem op_len_hardclip (w : Nat) (h : w &&& BAM_CIGAR_MASK = BAM_CHARD_CLIP) :
    op_ref_len w = 0 ∧ op_query_len w = 0 := by
  unfold op_ref_len op_query_len is_match_op cigar_op_of cigar_len_of
  rw [h]; exact ⟨rfl, rfl⟩

theorem op_len_pad (w : Nat) (h : w &&& BAM_CIGAR_MASK = BAM_CPAD) :
    op_ref_len w = 0 ∧ op_query_len w = 0 := by
  unfold op_ref_len op_query_len is_match_op cigar_op_of cigar_len_of
  rw [h]; exact ⟨rfl, rfl⟩

theorem cigar_ins_cursor (fd : cram_fd) (seq qual : List Nat) (cig_len : Nat) (e : enc) :
    (cigar_ins fd seq qual cig_len e).apos = e.apos
    ∧ (cigar_ins fd seq qual cig_len e).spos = e.spos + cig_len := by
  have hc := add_insertion_cursor e e.spos cig_len (seq_ptr seq cig_len e)
  unfold cigar_ins
  dsimp only
  split
  · rw [(qual_loop_cursor fd _ _ _).1, (qual_loop_cursor fd _ _ _).2, hc.1, hc.2]
    exact ⟨rfl, rfl⟩
  · exact ⟨hc.2, by
      show (cram_add_insertion e e.spos cig_len (seq_ptr seq cig_len e)).spos + cig_len
        = e.spos + cig_len
      rw [hc.1]⟩

theorem cigar_softclip_cursor (fd : cram_fd) (seq qual : List Nat) (cig_len : Nat)
    (e e' : enc) (h : cigar_softclip fd seq qual cig_len e = some e') :
    e'.apos = e.apos ∧ e'.spos = e.spos + cig_len := by
  obtain ⟨e1, h1, rfl⟩ := cigar_softclip_some fd seq qual cig_len e e' h
  have hc := add_softclip_cursor e e1 e.spos cig_len (seq_ptr seq cig_len e) fd.version h1
  split
  · split
    · rw [(qual_loop_cursor fd _ _ _).1, (qual_loop_cursor fd _ _ _).2, hc.1, hc.2]
      exact ⟨rfl, rfl⟩
    · rw [(qual_loop_cursor fd _ _ _).1, (qual_loop_cursor fd _ _ _).2, hc.1, hc.2]
      exact ⟨rfl, rfl⟩
  · exact ⟨hc.2, by
      show e1.spos + cig_len = e.spos + cig_len
      rw [hc.1]⟩

/-- One CIGAR word moves the reference cursor by the reference bases it consumes
(or further, over the end of the reference) and, for a stored sequence in
reference mode, the read cursor by the read bases it consumes. -/
theorem aend_cigar_step (fd : cram_fd) (seq qual : List Nat) (w : Nat) (e e' : enc)
    (h : cigar_step fd seq qual w e = some e') (t : Int)
    (hJ : cursor_inv fd e.c.ref_end e.apos t)
    (hq : fd.no_ref = true ∨ e.cr.len = 0
      ∨ ((∀ k, k < e.cr.len → byte_at seq k ≠ 0) ∧ e.spos + op_query_len w ≤ e.cr.len)) :
    cursor_inv fd e.c.ref_end e'.apos (t + (op_ref_len w : Int))
    ∧ (fd.no_ref = false → e.cr.len ≠ 0 → e'.spos = e.spos + op_query_len w) := by
  unfold cigar_step at h
  dsimp only at h
  split at h
  · rename_i hop
    obtain ⟨hr, hql⟩ := op_len_match w hop
    rw [hr, hql]
    rw [hql] at hq
    exact aend_cigar_match fd seq qual _ e e' h t hJ hq
  split at h
  · rename_i hop
    obtain ⟨hr, hql⟩ := op_len_del w hop
    cases h
    rw [hr, hql]
    refine ⟨?_, fun _ _ => (add_deletion_cursor e e.spos _).1⟩
    show cursor_inv fd e.c.ref_end ((cram_add_deletion e e.spos _).apos + _) _
    rw [(add_deletion_cursor e e.spos _).2]
    exact cursor_inv_shift fd _ _ _ _ hJ
  split at h
  · rename_i hop
    obtain ⟨hr, hql⟩ := op_len_skip w hop
    cases h
    rw [hr, hql]
    refine ⟨?_, fun _ _ => (add_skip_cursor e e.spos _).1⟩
    show cursor_inv fd e.c.ref_end ((cram_add_skip e e.spos _).apos + _) _
    rw [(add_skip_cursor e e.spos _).2]
    exact cursor_inv_shift fd _ _ _ _ hJ
  split at h
  · rename_i hop
    obtain ⟨hr, hql⟩ := op_len_ins w hop
    cases h
    rw [hr, hql, (cigar_ins_cursor fd seq qual _ e).1]
    exact ⟨by simpa using hJ, fun _ _ => (cigar_ins_cursor fd seq qual _ e).2⟩
  split at h
  · rename_i hop
    obtain ⟨hr, hql⟩ := op_len_softclip w hop
    rw [hr, hql, (cigar_softclip_cursor fd seq qual _ e e' h).1]
    exact ⟨by simpa using hJ, fun _ _ => (cigar_softclip_cursor fd seq qual _ e e' h).2⟩
  split at h
  · rename_i hop
    obtain ⟨hr, hql⟩ := op_len_hardclip w hop
    cases h
    rw [hr, hql, (add_hardclip_cursor e e.spos _).2]
    exact ⟨by simpa using hJ, fun _ _ => (add_hardclip_cursor e e.spos _).1⟩
  split at h
  · rename_i hop
    obtain ⟨hr, hql⟩ := op_len_pad w hop
    cases h
    rw [hr, hql, (add_pad_cursor e e.spos _).2]
    exact ⟨by simpa using hJ, fun _ _ => (add_pad_cursor e e.spos _).1⟩
  · simp at h

/-- Over the whole CIGAR the reference cursor ends at the start plus the
reference-consuming lengths, or at or past the end of the reference. -/
theorem aend_cigar_walk (fd : cram_fd) (seq qual : List Nat) :
    ∀ (ws : List Nat) (e e' : enc), cigar_walk fd seq qual ws e = some e' →
      ∀ t : Int, cursor_inv fd e.c.ref_end e.apos t → read_fits fd seq ws e →
        cursor_inv fd e.c.ref_end e'.apos (t + (ref_len ws : Int)) := by
  intro ws
  induction ws with
  | nil =>
    intro e e' h t hJ _
    simp only [cigar_walk, Option.some.injEq] at h
    subst h
    simpa [ref_len] using hJ
  | cons w ws ih =>
    intro e e' h t hJ hq
    simp only [cigar_walk] at h
    split at h
    · simp at h
    rename_i e1 h1
    have hf := walk_frame_cigar_step fd seq qual w e e1 h1
    have hq1 : fd.no_ref = true ∨ e.cr.len = 0
        ∨ ((∀ k, k < e.cr.len → byte_at seq k ≠ 0) ∧ e.spos + op_query_len w ≤ e.cr.len) := by
      rcases hq with hq | hq | ⟨hnz, hsp⟩
      · exact Or.inl hq
      · exact Or.inr (Or.inl hq)
      · refine Or.inr (Or.inr ⟨hnz, ?_⟩)
        simp only [query_len] at hsp
        omega
    obtain ⟨hJ1, hs1⟩ := aend_cigar_step fd seq qual w e e1 h1 t hJ hq1
    have hq2 : read_fits fd seq ws e1 := by
      rcases hq with hq | hq | ⟨hnz, hsp⟩
      · exact Or.inl hq
      · exact Or.inr (Or.inl (by rw [hf.len]; exact hq))
      · by_cases hnr : fd.no_ref = true
        · exact Or.inl hnr
        by_cases hl : e.cr.len = 0
        · exact Or.inr (Or.inl (by rw [hf.len]; exact hl))
        refine Or.inr (Or.inr ⟨by rw [hf.len]; exact hnz, ?_⟩)
        rw [hf.len, hs1 (by simpa using hnr) hl]
        simp only [query_len] at hsp
        omega
    rw [← hf.ref_end] at hJ1
    have := ih e1 e' h _ hJ1 hq2
    rw [hf.ref_end] at this
    simp only [ref_len, Nat.cast_add]
    rw [← Int.add_assoc]
    exact this

/-- The end position stored by the "Copy and parse" part of `process_one_read`. -/
theorem por_cigar_aend (fd : cram_fd) (b : bam_seq_t) (seq : List Nat) (e e' : enc) (fq : Nat)
    (h : por_cigar fd b seq e = some (e', fq)) :
    (has_flag e.cr.flags BAM_FUNMAP = true → e'.cr.aend = e.cr.apos)
    ∧ (has_flag e.cr.flags BAM_FUNMAP = false → fd.no_ref = true →
        e'.cr.aend = e.cr.apos + (ref_len b.cigar : Int) - 1)
    ∧ (has_flag e.cr.flags BAM_FUNMAP = false → fd.no_ref = false →
        (e.cr.len = 0
          ∨ ((∀ k, k < e.cr.len → byte_at seq k ≠ 0) ∧ query_len b.cigar ≤ e.cr.len)) →
        e'.cr.aend = min (e.cr.apos + (ref_len b.cigar : Int) - 1) e.c.ref_end) := by
  unfold por_cigar at h
  dsimp only at h
  split at h
  · rename_i hm
    split at h
    · simp at h
    rename_i e2 hw
    split at h
    · simp at h
    simp only [Option.some.injEq, Prod.mk.injEq] at h
    obtain ⟨rfl, _⟩ := h
    have hwalk := aend_cigar_walk fd seq b.qual b.cigar _ e2 hw (e.cr.apos - 1) (Or.inl rfl)
    have hre := (walk_frame_cigar_walk fd seq b.qual b.cigar _ e2 hw).ref_end
    dsimp only at hwalk hre
    refine ⟨fun hx => ?_, fun _ hnr => ?_, fun _ hnr hfit => ?_⟩
    · rw [hm] at hx; cases hx
    · have hJ := hwalk (Or.inl hnr)
      show (if fd.no_ref = true then e2.apos else min e2.apos e2.c.ref_end) = _
      rw [if_pos hnr]
      rcases hJ with hJ | ⟨h1, _, _⟩
      · omega
      · rw [hnr] at h1; cases h1
    · have hJ := hwalk (by
        rcases hfit with h0 | ⟨hnz, hql⟩
        · exact Or.inr (Or.inl h0)
        · exact Or.inr (Or.inr ⟨hnz, by
            show 0 + query_len b.cigar ≤ e.cr.len
            omega⟩))
      show (if fd.no_ref = true then e2.apos else min e2.apos e2.c.ref_end) = _
      rw [if_neg (by rw [hnr]; exact Bool.false_ne_true), hre]
      rcases hJ with hJ | ⟨_, h2, h3⟩
      · rw [hJ]
        congr 1
        omega
      · rw [min_eq_right (by omega), min_eq_right (by omega)]
  · rename_i hm
    simp only [Option.some.injEq, Prod.mk.injEq] at h
    obtain ⟨rfl, _⟩ := h
    refine ⟨fun _ => ?_, fun hx => absurd hx hm, fun hx => absurd hx hm⟩
    rw [(add_BA_stats_frame _ _).2]

/-- What the part of `process_one_read` before the mate block stores as the end
position of record `i`. -/
theorem por_pre_aend (fd : cram_fd) (c c1 : cram_container) (s s1 : cram_slice)
    (b : bam_seq_t) (i : Nat) (h : por_pre fd c s b i = some (c1, s1)) :
    (has_flag b.flag BAM_FUNMAP = true → (s1.crecs i).aend = (s1.crecs i).apos)
    ∧ (has_flag b.flag BAM_FUNMAP = false → fd.no_ref = true →
        (s1.crecs i).aend = (s1.crecs i).apos + (ref_len b.cigar : Int) - 1)
    ∧ (has_flag b.flag BAM_FUNMAP = false → fd.no_ref = false →
        (b.len = 0 ∨ query_len b.cigar = b.len) →
        (s1.crecs i).aend
          = min ((s1.crecs i).apos + (ref_len b.cigar : Int) - 1) c.ref_end) := by
  have hapos := (por_pre_spec fd c c1 s s1 b i h).2.2.2.1
  unfold por_pre at h
  split at h
  · simp at h
  rename_i e seq hh
  split at h
  · simp at h
  rename_i e1 fq hc
  simp only [Option.some.injEq, Prod.mk.injEq] at h
  obtain ⟨_, rfl⟩ := h
  unfold por_head at hh
  split at hh
  · simp at hh
  rename_i rg e0 ha
  simp only [Option.some.injEq] at hh
  obtain ⟨_, hfl, hlen, _, _, hre, _⟩ := por_aux_spec fd c s b i rg e0 ha
  obtain ⟨_, _, _, r4, r5, _, r7, _, r9, r10⟩ := por_head_rest_spec fd b rg e0
  rw [hh] at r4 r5 r7 r9 r10
  dsimp only at r4 r5 r7 r9 r10
  obtain ⟨a1, a2, a3⟩ := por_cigar_aend fd b seq e e1 fq hc
  obtain ⟨_, _, _, _, _, _, p7, _, _⟩ := por_qual_spec fd b fq e1
  rw [hapos]
  have haend : ((Function.update (por_qual fd b fq e1).s.crecs i (por_qual fd b fq e1).cr) i).aend
      = e1.cr.aend := by
    rw [Function.update_same, p7]
  rw [r4, hfl] at a1 a2 a3
  rw [r7] at a1 a2 a3
  rw [r5, hlen, r9, hre, r10, hlen] at a3
  refine ⟨fun hx => ?_, fun hx hnr => ?_, fun hx hnr hfit => ?_⟩
  · exact haend.trans (a1 hx)
  · exact haend.trans (a2 hx hnr)
  · refine haend.trans (a3 hx hnr ?_)
    rcases hfit with h0 | hql
    · exact Or.inl h0
    · exact Or.inr ⟨fun k hk => byte_at_unpack_seq b.seq b.len k hk, by omega⟩

/-- C8 (as amended): when `process_one_read` returns success on record `i`, an
unmapped record has `aend = apos`; a mapped record in no-reference mode has
`aend = apos + ref_len - 1`, where `ref_len` is the sum of the lengths of the
reference-consuming CIGAR operations `M`, `=`, `X`, `D`, `N`; and a mapped record
in reference mode whose read-consuming CIGAR lengths add up to the read length
(or that has no stored sequence) has that value cut at the end of the
container's reference, `aend = min (apos + ref_len - 1) ref_end`. -/
theorem process_one_read_aend (fd : cram_fd) (c c' : cram_container) (s s' : cram_slice)
    (b : bam_seq_t) (i : Nat) (h : process_one_read fd c s b i = some (c', s')) :
    (has_flag b.flag BAM_FUNMAP = true → (s'.crecs i).aend = (s'.crecs i).apos)
    ∧ (has_flag b.flag BAM_FUNMAP = false → fd.no_ref = true →
        (s'.crecs i).aend = (s'.crecs i).apos + (ref_len b.cigar : Int) - 1)
    ∧ (has_flag b.flag BAM_FUNMAP = false → fd.no_ref = false →
        (b.len = 0 ∨ query_len b.cigar = b.len) →
        (s'.crecs i).aend
          = min ((s'.crecs i).apos + (ref_len b.cigar : Int) - 1) c.ref_end) := by
  obtain ⟨c1, s1, hpre, hg⟩ := process_one_read_geom fd c c' s s' b i h
  have hr := hg.recs i
  rw [hr.aend, hr.apos]
  exact por_pre_aend fd c c1 s s1 b i hpre

/-- C8 (counterexample): a mapped read `4M` at position 7 of an 8-base reference
is processed with success and gets `aend = 8`, the end of the reference, while
`apos + ref_len - 1 = 7 + 4 - 1 = 10`. -/
theorem process_one_read_aend_cut_at_ref_end :
    (process_one_read fd_v3 (container_new ref8) (slice_new 1) bam_over_end 0).isSome = true
    ∧ has_flag bam_over_end.flag BAM_FUNMAP = false
    ∧ (state_over_end.2.crecs 0).apos = 7
    ∧ ref_len bam_over_end.cigar = 4
    ∧ (state_over_end.2.crecs 0).aend = 8
    ∧ (state_over_end.2.crecs 0).aend
        ≠ (state_over_end.2.crecs 0).apos + (ref_len bam_over_end.cigar : Int) - 1 := by
  decide

theorem process_one_read_aend_witness :
    (state_edits.2.crecs 0).aend
      = min ((state_edits.2.crecs 0).apos + (ref_len bam_edits.cigar : Int) - 1)
          (container_new ref32).ref_end :=
  (process_one_read_aend fd_v3 (container_new ref32) state_edits.1 (slice_new 1)
    state_edits.2 bam_edits 0 (option_getD_eq _ _ (by decide))).2.2
    (by decide) (by decide) (by decide)

/-! ## Statistics against the codec calls of the slice encoder -/

theorem emitted_append (ds : cram_DS_ID) (v : Int) (a b : List emission) :
    emitted ds v (a ++ b) = emitted ds v a + emitted ds v b := by
  induction a with
  | nil => simp [emitted]
  | cons x xs ih =>
    show (if x.1 = ds then (x.2.count v : Int) else 0) + emitted ds v (xs ++ b)
      = (if x.1 = ds then (x.2.count v : Int) else 0) + emitted ds v xs + emitted ds v b
    rw [ih]; omega

theorem emitted_nonneg (ds : cram_DS_ID) (v : Int) (a : List emission) : 0 ≤ emitted ds v a := by
  induction a with
  | nil => simp [emitted]
  | cons x xs ih =>
    simp only [emitted]
    split <;> omega

/-- One `cram_stats_add` counts what one codec call with that value emits. -/
theorem stats_add_emitted (st : cram_stats) (d : cram_DS_ID) (x : Int) (ds : cram_DS_ID)
    (v : Int) : cram_stats_add st d x ds v = st ds v + emitted ds v [(d, [x])] := by
  unfold cram_stats_add
  simp only [emitted, List.count_cons, List.count_nil]
  by_cases h1 : ds = d
  · subst h1
    by_cases h2 : v = x
    · subst h2; simp
    · have : ¬ (x = v) := fun h => h2 h.symm
      simp [h2, this]
  · have : ¬ (d = ds) := fun h => h1 h.symm
    simp [h1, this]

theorem stats_add_other (st : cram_stats) (d : cram_DS_ID) (x : Int) (ds : cram_DS_ID)
    (v : Int) (h : ds ≠ d) : cram_stats_add st d x ds v = st ds v := by
  unfold cram_stats_add
  simp [h]

theorem feature_payload_congr (s s' : cram_slice) (h : s'.seqs_blk = s.seqs_blk)
    (f : cram_feature) : feature_payload s' f = feature_payload s f := by
  simp only [feature_payload, h]

theorem encode_features_congr (s s' : cram_slice) (h : s'.seqs_blk = s.seqs_blk) :
    ∀ (fs : List cram_feature) (p : Int), encode_features s' fs p = encode_features s fs p := by
  intro fs
  induction fs with
  | nil => intro p; rfl
  | cons f fs ih =>
    intro p
    simp only [encode_features, ih, feature_payload_congr s s' h]

/-- The slice encoder on a feature list with one more feature at the end. -/
theorem encode_features_snoc (s : cram_slice) (f : cram_feature) (pl : List emission)
    (hpl : feature_payload s f = some pl) :
    ∀ (fs : List cram_feature) (p : Int) (em : List emission),
      encode_features s fs p = some em →
      encode_features s (fs ++ [f]) p
        = some (em ++ (DS_FC, [(f.code : Int)]) :: (DS_FP, [f.pos - last_pos_of fs p]) :: pl) := by
  intro fs
  induction fs with
  | nil =>
    intro p em h
    simp only [encode_features, Option.some.injEq] at h
    subst h
    simp [encode_features, hpl, last_pos_of]
  | cons g gs ih =>
    intro p em h
    simp only [encode_features] at h
    split at h
    · rename_i pg rest hg hrest
      simp only [Option.some.injEq] at h
      subst h
      have := ih g.pos rest hrest
      have hl : last_pos_of (g :: gs) p = last_pos_of gs g.pos := by
        unfold last_pos_of
        cases gs with
        | nil => simp
        | cons a as =>
          cases hx : (a :: as).getLast? with
          | none => simp at hx
          | some x => simp [List.getLast?_cons_cons, hx]
      show encode_features s (g :: (gs ++ [f])) p = _
      simp only [encode_features, hg]
      rw [this, hl]
      simp
    · simp at h

theorem getD_append_last {α : Type} (F0 new : List α) (d : α) (hne : new ≠ []) :
    (F0 ++ new).getD (F0.length + (new.length + 1) - 2) d = new.getLast hne := by
  have hlen : 0 < new.length := List.length_pos.2 hne
  have hi : F0.length + (new.length + 1) - 2 = F0.length + (new.length - 1) := by omega
  rw [hi, List.getD_eq_getElem _ _ (by rw [List.length_append]; omega),
    List.getElem_append_right (by omega), List.getLast_eq_getElem]
  congr 1
  omega

theorem last_pos_of_ne_nil (new : List cram_feature) (p : Int) (hne : new ≠ []) :
    last_pos_of new p = (new.getLast hne).pos := by
  unfold last_pos_of
  rw [List.getLast?_eq_getLast _ hne]

/-- The statistic `cram_add_feature` adds to DS_FP is the value the slice encoder
emits as FP for the feature. -/
theorem add_feature_FP (F0 new : List cram_feature) (e : enc) (f : cram_feature)
    (h1 : e.s.features = F0 ++ new) (h2 : e.cr.nfeature = new.length)
    (h3 : new ≠ [] → e.cr.feature = F0.length) :
    (if e.cr.nfeature = 0 then f.pos
      else f.pos - (e.s.features.getD (e.cr.feature + (e.cr.nfeature + 1) - 2)
        (cram_feature.mk0 0 0)).pos) = f.pos - last_pos_of new 0 := by
  split
  · rename_i h0
    have : new = [] := by
      cases new with
      | nil => rfl
      | cons x xs => simp [h0] at h2
    subst this
    simp [last_pos_of]
  · rename_i h0
    have hne : new ≠ [] := by
      intro hn
      rw [hn] at h2
      exact h0 (by simpa using h2)
    rw [h1, h3 hne, h2, getD_append_last F0 new _ hne, last_pos_of_ne_nil new 0 hne]

theorem add_feature_stats (e : enc) (f : cram_feature) (ds : cram_DS_ID) (v : Int) :
    (cram_add_feature e f).c.stats ds v
      = e.c.stats ds v
        + emitted ds v [(DS_FC, [(f.code : Int)]),
            (DS_FP, [if e.cr.nfeature = 0 then f.pos
              else f.pos - (e.s.features.getD (e.cr.feature + (e.cr.nfeature + 1) - 2)
                (cram_feature.mk0 0 0)).pos])] := by
  unfold cram_add_feature
  dsimp only [enc.stats_add]
  split
  · show cram_stats_add (cram_stats_add e.c.stats DS_FP _) DS_FC _ ds v = _
    rw [stats_add_emitted, stats_add_emitted]
    simp only [emitted]
    omega
  · show cram_stats_add (cram_stats_add e.c.stats DS_FP _) DS_FC _ ds v = _
    rw [stats_add_emitted, stats_add_emitted]
    simp only [emitted]
    omega

theorem add_feature_fields (e : enc) (f : cram_feature) :
    (cram_add_feature e f).s.features = e.s.features ++ [f]
    ∧ (cram_add_feature e f).s.seqs_blk = e.s.seqs_blk
    ∧ (cram_add_feature e f).cr.nfeature = e.cr.nfeature + 1
    ∧ (cram_add_feature e f).cr.feature
        = (if e.cr.nfeature = 0 then e.s.features.length else e.cr.feature) := by
  unfold cram_add_feature
  dsimp only [enc.stats_add]
  split
  · rename_i h0
    refine ⟨rfl, rfl, ?_, rfl⟩
    show 1 = e.cr.nfeature + 1
    omega
  · exact ⟨rfl, rfl, rfl, rfl⟩

/-- Appending a feature keeps the ledger when the statistics of its payload have
been added before the call, as every `cram_add_*` function does. -/
theorem ledger_add_feature (st0 : cram_stats) (F0 K : List cram_feature) (e0 e : enc)
    (f : cram_feature) (pl : List emission) (h : e0.ledger st0 F0 K)
    (hfe : e.s.features = e0.s.features) (hcr : e.cr = e0.cr)
    (hsq : e.s.seqs_blk = e0.s.seqs_blk) (hpl : feature_payload e0.s f = some pl)
    (hst : ∀ ds v, ds ≠ DS_QS → ds ≠ DS_BB →
      e.c.stats ds v = e0.c.stats ds v + emitted ds v pl) :
    (cram_add_feature e f).ledger st0 F0 (f :: K) := by
  obtain ⟨new, em, h1, h2, h3, h4, h5, h6⟩ := h
  obtain ⟨a1, a2, a3, a4⟩ := add_feature_fields e f
  rw [← hfe] at h1
  rw [← hcr] at h2 h3
  refine ⟨new ++ [f],
    em ++ (DS_FC, [(f.code : Int)]) :: (DS_FP, [f.pos - last_pos_of new 0]) :: pl,
    ?_, ?_, ?_, ?_, ?_, ?_⟩
  · rw [a1, h1, List.append_assoc]
  · rw [a3, h2, List.length_append]; rfl
  · intro _
    rw [a4]
    split
    · rename_i h0
      have : new = [] := by
        cases new with
        | nil => rfl
        | cons x xs => simp [h0] at h2
      rw [h1, this]; simp
    · rename_i h0
      exact h3 (by
        intro hn
        rw [hn] at h2
        exact h0 (by simpa using h2))
  · rw [encode_features_congr e0.s _ (a2.trans hsq)]
    exact encode_features_snoc e0.s f pl hpl new 0 em h4
  · intro ds v hq hb
    rw [add_feature_stats, add_feature_FP F0 new e f h1 h2 h3, hst ds v hq hb, h5 ds v hq hb,
      emitted_append]
    simp only [emitted]
    omega
  · intro g hg
    rw [List.mem_append]
    rcases List.mem_cons.1 hg with hg | hg
    · exact Or.inr (by simp [hg])
    · exact Or.inl (h6 g hg)

theorem ledger_weaken (st0 : cram_stats) (F0 K K' : List cram_feature) (e : enc)
    (h : e.ledger st0 F0 K) (hk : ∀ g ∈ K', g ∈ K) : e.ledger st0 F0 K' := by
  obtain ⟨new, em, h1, h2, h3, h4, h5, h6⟩ := h
  exact ⟨new, em, h1, h2, h3, h4, h5, fun g hg => h6 g (hk g hg)⟩

/-- A change of the cursors or of the blocks other than the sequence block keeps the ledger. -/
theorem ledger_of_eq (st0 : cram_stats) (F0 K : List cram_feature) (e0 e : enc)
    (h : e0.ledger st0 F0 K) (hfe : e.s.features = e0.s.features) (hcr : e.cr = e0.cr)
    (hsq : e.s.seqs_blk = e0.s.seqs_blk) (hst : e.c.stats = e0.c.stats) :
    e.ledger st0 F0 K := by
  obtain ⟨new, em, h1, h2, h3, h4, h5, h6⟩ := h
  refine ⟨new, em, hfe.trans h1, by rw [hcr]; exact h2, by rw [hcr]; exact h3, ?_, ?_, h6⟩
  · rw [encode_features_congr e0.s e.s hsq]; exact h4
  · intro ds v hq hb
    rw [hst]; exact h5 ds v hq hb

/-- The feature `cram_add_substitution` appends and the ledger after it: an `X`
feature with the substitution code when the read base is `A`, `C`, `G`, `T` (or
`N` against such a reference base), otherwise a `B` feature with the base. -/
theorem ledger_add_substitution_feature (st0 : cram_stats) (F0 K : List cram_feature)
    (fd : cram_fd) (e : enc) (pos base qual ref : Nat) (h : e.ledger st0 F0 K) :
    ∃ f : cram_feature, f.pos = ((pos + 1 : Nat) : Int)
      ∧ (if fd.L2 base < 4 ∨ (fd.L2 base < 5 ∧ fd.L2 ref < 4) then
          f.code = 'X'.toNat ∧ f.base = fd.cram_sub_matrix (ref &&& 31) (base &&& 31)
        else f.code = 'B'.toNat ∧ f.base = base)
      ∧ (cram_add_substitution fd e pos base qual ref).ledger st0 F0 (f :: K) := by
  unfold cram_add_substitution
  dsimp only
  split
  · refine ⟨⟨'X'.toNat, ((pos + 1 : Nat) : Int), 0,
      fd.cram_sub_matrix (ref &&& 31) (base &&& 31), 0, 0⟩, rfl, ⟨rfl, rfl⟩, ?_⟩
    refine ledger_add_feature st0 F0 K e _ _
      [(DS_BS, [((fd.cram_sub_matrix (ref &&& 31) (base &&& 31) : Nat) : Int)])]
      h rfl rfl rfl rfl ?_
    intro ds v _ _
    exact stats_add_emitted _ _ _ _ _
  · refine ⟨⟨'B'.toNat, ((pos + 1 : Nat) : Int), 0, base, char_val (bin_qual fd qual), 0⟩,
      rfl, ⟨rfl, rfl⟩, ?_⟩
    refine ledger_add_feature st0 F0 K e _ _ [(DS_BA, [((base : Nat) : Int)])]
      h rfl rfl rfl rfl ?_
    intro ds v hq _
    show cram_stats_add (cram_stats_add e.c.stats DS_BA _) DS_QS _ ds v = _
    rw [stats_add_other _ _ _ _ _ hq]
    exact stats_add_emitted _ _ _ _ _

theorem ledger_add_substitution (st0 : cram_stats) (F0 K : List cram_feature)
    (fd : cram_fd) (e : enc) (pos base qual ref : Nat) (h : e.ledger st0 F0 K) :
    (cram_add_substitution fd e pos base qual ref).ledger st0 F0 K := by
  obtain ⟨f, _, _, hl⟩ := ledger_add_substitution_feature st0 F0 K fd e pos base qual ref h
  exact ledger_weaken st0 F0 _ K _ hl (fun g hg => List.mem_cons_of_mem _ hg)

theorem ledger_add_bases (st0 : cram_stats) (F0 K : List cram_feature) (e : enc)
    (pos len : Nat) (h : e.ledger st0 F0 K) : (cram_add_bases e pos len).ledger st0 F0 K := by
  refine ledger_weaken st0 F0 _ K _ (ledger_add_feature st0 F0 K e e _
    [(DS_BB, List.map Int.ofNat (bytes_from e.s.seqs_blk (e.cr.seq + pos) ((len : Int).toNat)))]
    h rfl rfl rfl rfl ?_) (fun g hg => List.mem_cons_of_mem _ hg)
  intro ds v _ hb
  have : ¬ (DS_BB = ds) := fun hx => hb hx.symm
  simp [emitted, this]

theorem ledger_add_base (st0 : cram_stats) (F0 K : List cram_feature) (fd : cram_fd) (e : enc)
    (pos base qual : Nat) (h : e.ledger st0 F0 K) :
    (cram_add_base fd e pos base qual).ledger st0 F0 K := by
  refine ledger_weaken st0 F0 _ K _ (ledger_add_feature st0 F0 K e _ _
    [(DS_BA, [((base : Nat) : Int)])] h rfl rfl rfl rfl ?_)
    (fun g hg => List.mem_cons_of_mem _ hg)
  intro ds v hq _
  show cram_stats_add (cram_stats_add e.c.stats DS_BA _) DS_QS _ ds v = _
  rw [stats_add_other _ _ _ _ _ hq]
  exact stats_add_emitted _ _ _ _ _

theorem ledger_add_quality (st0 : cram_stats) (F0 K : List cram_feature) (fd : cram_fd)
    (e : enc) (pos qual : Nat) (h : e.ledger st0 F0 K) :
    (cram_add_quality fd e pos qual).ledger st0 F0 K := by
  refine ledger_weaken st0 F0 _ K _ (ledger_add_feature st0 F0 K e _ _ [] h rfl rfl rfl rfl ?_)
    (fun g hg => List.mem_cons_of_mem _ hg)
  intro ds v hq _
  show cram_stats_add e.c.stats DS_QS _ ds v = _
  rw [stats_add_other _ _ _ _ _ hq]
  simp [emitted]

theorem ledger_add_deletion (st0 : cram_stats) (F0 K : List cram_feature) (e : enc)
    (pos len : Nat) (h : e.ledger st0 F0 K) :
    (cram_add_deletion e pos len).ledger st0 F0 K := by
  refine ledger_weaken st0 F0 _ K _ (ledger_add_feature st0 F0 K e _ _
    [(DS_DL, [((len : Nat) : Int)])] h rfl rfl rfl rfl ?_)
    (fun g hg => List.mem_cons_of_mem _ hg)
  intro ds v _ _
  exact stats_add_emitted _ _ _ _ _

theorem ledger_add_hardclip (st0 : cram_stats) (F0 K : List cram_feature) (e : enc)
    (pos len : Nat) (h : e.ledger st0 F0 K) :
    (cram_add_hardclip e pos len).ledger st0 F0 K := by
  refine ledger_weaken st0 F0 _ K _ (ledger_add_feature st0 F0 K e _ _
    [(DS_HC, [((len : Nat) : Int)])] h rfl rfl rfl rfl ?_)
    (fun g hg => List.mem_cons_of_mem _ hg)
  intro ds v _ _
  exact stats_add_emitted _ _ _ _ _

theorem ledger_add_skip (st0 : cram_stats) (F0 K : List cram_feature) (e : enc)
    (pos len : Nat) (h : e.ledger st0 F0 K) :
    (cram_add_skip e pos len).ledger st0 F0 K := by
  refine ledger_weaken st0 F0 _ K _ (ledger_add_feature st0 F0 K e _ _
    [(DS_RS, [((len : Nat) : Int)])] h rfl rfl rfl rfl ?_)
    (fun g hg => List.mem_cons_of_mem _ hg)
  intro ds v _ _
  exact stats_add_emitted _ _ _ _ _

theorem ledger_add_pad (st0 : cram_stats) (F0 K : List cram_feature) (e : enc)
    (pos len : Nat) (h : e.ledger st0 F0 K) :
    (cram_add_pad e pos len).ledger st0 F0 K := by
  refine ledger_weaken st0 F0 _ K _ (ledger_add_feature st0 F0 K e _ _
    [(DS_PD, [((len : Nat) : Int)])] h rfl rfl rfl rfl ?_)
    (fun g hg => List.mem_cons_of_mem _ hg)
  intro ds v _ _
  exact stats_add_emitted _ _ _ _ _

theorem ledger_add_softclip (st0 : cram_stats) (F0 K : List cram_feature) (e e' : enc)
    (pos len : Nat) (base : Option (List Nat)) (version : Nat) (h : e.ledger st0 F0 K)
    (hs : cram_add_softclip e pos len base version = some e') :
    e'.ledger st0 F0 K := by
  unfold cram_add_softclip at hs
  split at hs
  · split at hs
    · exact Option.noConfusion hs
    · cases hs
      refine ledger_weaken st0 F0 _ K _
        (ledger_add_feature st0 F0 K e _ _ [] h rfl rfl rfl rfl ?_)
        (fun g hg => List.mem_cons_of_mem _ hg)
      intro ds v _ _
      simp [emitted]
  · cases hs
    refine ledger_weaken st0 F0 _ K _ (ledger_add_feature st0 F0 K e _ _ [] h rfl rfl rfl rfl ?_)
      (fun g hg => List.mem_cons_of_mem _ hg)
    intro ds v _ _
    simp [emitted]

theorem ledger_add_insertion (st0 : cram_stats) (F0 K : List cram_feature) (e : enc)
    (pos len : Nat) (base : Option (List Nat)) (h : e.ledger st0 F0 K) :
    (cram_add_insertion e pos len base).ledger st0 F0 K := by
  unfold cram_add_insertion
  split
  · refine ledger_weaken st0 F0 _ K _ (ledger_add_feature st0 F0 K e _ _
      [(DS_BA, [(((match base with
        | some bs => byte_at bs 0
        | none => 'N'.toNat) : Nat) : Int)])] h rfl rfl rfl rfl ?_)
      (fun g hg => List.mem_cons_of_mem _ hg)
    intro ds v _ _
    exact stats_add_emitted _ _ _ _ _
  · refine ledger_weaken st0 F0 _ K _ (ledger_add_feature st0 F0 K e _ _ [] h rfl rfl rfl rfl ?_)
      (fun g hg => List.mem_cons_of_mem _ hg)
    intro ds v _ _
    simp [emitted]

theorem ledger_cursor (st0 : cram_stats) (F0 K : List cram_feature) (e : enc) (a : Int)
    (sp : Nat) (h : e.ledger st0 F0 K) :
    ({ e with apos := a, spos := sp } : enc).ledger st0 F0 K :=
  ledger_of_eq st0 F0 K e _ h rfl rfl rfl rfl

theorem ledger_match_loop (st0 : cram_stats) (F0 K : List cram_feature) (fd : cram_fd)
    (seq qual : List Nat) (spos : Nat) (apos : Int) :
    ∀ (n l : Nat) (e : enc), e.ledger st0 F0 K →
      (match_loop fd seq qual spos apos n l e).2.ledger st0 F0 K := by
  intro n
  induction n with
  | zero => intro l e h; exact h
  | succ n ih =>
    intro l e h
    unfold match_loop
    dsimp only
    split
    · split
      · exact h
      · exact ih _ _ (ledger_add_substitution st0 F0 K fd e _ _ _ _ h)
    · exact ih _ _ h

theorem ledger_base_loop (st0 : cram_stats) (F0 K : List cram_feature) (fd : cram_fd)
    (seq qual : List Nat) :
    ∀ (n : Nat) (e : enc), e.ledger st0 F0 K → (base_loop fd seq qual n e).ledger st0 F0 K := by
  intro n
  induction n with
  | zero => intro e h; exact h
  | succ n ih =>
    intro e h
    unfold base_loop
    split
    · exact h
    · exact ih _ (ledger_of_eq st0 F0 K _ _ (ledger_add_base st0 F0 K fd e _ _ _ h)
        rfl rfl rfl rfl)

theorem ledger_qual_loop (st0 : cram_stats) (F0 K : List cram_feature) (fd : cram_fd)
    (q : Nat → Nat) :
    ∀ (n : Nat) (e : enc), e.ledger st0 F0 K → (qual_loop fd q n e).ledger st0 F0 K := by
  intro n
  induction n with
  | zero => intro e h; exact h
  | succ n ih =>
    intro e h
    unfold qual_loop
    exact ih _ (ledger_of_eq st0 F0 K _ _ (ledger_add_quality st0 F0 K fd e _ _ h)
      rfl rfl rfl rfl)

theorem ledger_cigar_match_bases (st0 : cram_stats) (F0 K : List cram_feature) (fd : cram_fd)
    (seq qual : List Nat) (n : Nat) (e : enc) (h : e.ledger st0 F0 K) :
    (cigar_match_bases fd seq qual n e).ledger st0 F0 K := by
  unfold cigar_match_bases
  split
  · split
    · exact ledger_of_eq st0 F0 K _ _ (ledger_add_bases st0 F0 K e _ _ h) rfl rfl rfl rfl
    · exact ledger_base_loop st0 F0 K fd seq qual n e h
  · exact ledger_base_loop st0 F0 K fd seq qual n e h

theorem ledger_cigar_match_rest (st0 : cram_stats) (F0 K : List cram_feature) (fd : cram_fd)
    (seq qual : List Nat) (cig_len l : Nat) (e : enc) (h : e.ledger st0 F0 K) :
    (cigar_match_rest fd seq qual cig_len l e).ledger st0 F0 K := by
  unfold cigar_match_rest
  dsimp only
  split
  · exact ledger_of_eq st0 F0 K _ _ (ledger_cigar_match_bases st0 F0 K fd seq qual _ e h)
      rfl rfl rfl rfl
  · split
    · exact ledger_of_eq st0 F0 K _ _ h rfl rfl rfl rfl
    · exact h

theorem ledger_cigar_match (st0 : cram_stats) (F0 K : List cram_feature) (fd : cram_fd)
    (seq qual : List Nat) (cig_len : Nat) (e e' : enc)
    (hm : cigar_match fd seq qual cig_len e = some e') (h : e.ledger st0 F0 K) :
    e'.ledger st0 F0 K := by
  unfold cigar_match at hm
  split at hm
  · simp at hm
  rename_i r hfirst
  simp only [Option.some.injEq] at hm
  subst hm
  apply ledger_cigar_match_rest
  unfold cigar_match_first at hfirst
  split at hfirst
  · split at hfirst
    · simp at hfirst
    simp only [Option.some.injEq] at hfirst
    subst hfirst
    exact ledger_of_eq st0 F0 K _ _ (ledger_match_loop st0 F0 K fd seq qual _ _ _ _ e h)
      rfl rfl rfl rfl
  · simp only [Option.some.injEq] at hfirst
    subst hfirst
    exact h

theorem ledger_cigar_ins (st0 : cram_stats) (F0 K : List cram_feature) (fd : cram_fd)
    (seq qual : List Nat) (cig_len : Nat) (e : enc) (h : e.ledger st0 F0 K) :
    (cigar_ins fd seq qual cig_len e).ledger st0 F0 K := by
  have h1 := ledger_add_insertion st0 F0 K e e.spos cig_len (seq_ptr seq cig_len e) h
  unfold cigar_ins
  dsimp only
  split
  · exact ledger_qual_loop st0 F0 K fd _ _ _ h1
  · exact ledger_of_eq st0 F0 K _ _ h1 rfl rfl rfl rfl

theorem ledger_cigar_softclip (st0 : cram_stats) (F0 K : List cram_feature) (fd : cram_fd)
    (seq qual : List Nat) (cig_len : Nat) (e e' : enc) (h : e.ledger st0 F0 K)
    (hs : cigar_softclip fd seq qual cig_len e = some e') :
    e'.ledger st0 F0 K := by
  obtain ⟨e1, hs1, rfl⟩ := cigar_softclip_some fd seq qual cig_len e e' hs
  have h1 := ledger_add_softclip st0 F0 K e e1 e.spos cig_len (seq_ptr seq cig_len e)
    fd.version h hs1
  split
  · split
    · exact ledger_qual_loop st0 F0 K fd _ _ _ h1
    · exact ledger_qual_loop st0 F0 K fd _ _ _ h1
  · exact ledger_of_eq st0 F0 K _ _ h1 rfl rfl rfl rfl

theorem ledger_cigar_step (st0 : cram_stats) (F0 K : List cram_feature) (fd : cram_fd)
    (seq qual : List Nat) (w : Nat) (e e' : enc)
    (hs : cigar_step fd seq qual w e = some e') (h : e.ledger st0 F0 K) :
    e'.ledger st0 F0 K := by
  unfold cigar_step at hs
  dsimp only at hs
  split at hs
  · exact ledger_cigar_match st0 F0 K fd seq qual _ e e' hs h
  split at hs
  · cases hs
    exact ledger_of_eq st0 F0 K _ _ (ledger_add_deletion st0 F0 K e e.spos _ h) rfl rfl rfl rfl
  split at hs
  · cases hs
    exact ledger_of_eq st0 F0 K _ _ (ledger_add_skip st0 F0 K e e.spos _ h) rfl rfl rfl rfl
  split at hs
  · cases hs
    exact ledger_cigar_ins st0 F0 K fd seq qual _ e h
  split at hs
  · exact ledger_cigar_softclip st0 F0 K fd seq qual _ e e' h hs
  split at hs
  · cases hs
    exact ledger_add_hardclip st0 F0 K e e.spos _ h
  split at hs
  · cases hs
    exact ledger_add_pad st0 F0 K e e.spos _ h
  · simp at hs

/-- The CIGAR walk keeps the ledger: what it adds to the statistics is what the
slice encoder will emit for the features it appends. -/
theorem ledger_cigar_walk (st0 : cram_stats) (F0 K : List cram_feature) (fd : cram_fd)
    (seq qual : List Nat) :
    ∀ (ws : List Nat) (e e' : enc), cigar_walk fd seq qual ws e = some e' →
      e.ledger st0 F0 K → e'.ledger st0 F0 K := by
  intro ws
  induction ws with
  | nil => intro e e' h hi; simp only [cigar_walk, Option.some.injEq] at h; subst h; exact hi
  | cons w ws ih =>
    intro e e' h hi
    simp only [cigar_walk] at h
    split at h
    · simp at h
    · rename_i e1 h1
      exact ih e1 e' h (ledger_cigar_step st0 F0 K fd seq qual w e e1 h1 hi)

/-! ## Substitutions -/

/-- The comparison loop appends the feature of `cram_add_substitution` for a
mismatch at offset `t` of the operation when no NUL byte stops it before. -/
theorem match_loop_mismatch (st0 : cram_stats) (F0 K : List cram_feature) (fd : cram_fd)
    (seq qual : List Nat) (spos : Nat) (apos : Int) (t : Nat) :
    ∀ (n l : Nat) (e : enc), l ≤ t → t < l + n →
      (∀ k, l ≤ k → k ≤ t → byte_at seq (spos + k) ≠ 0) →
      ref_at e.c.ref (apos + (t : Int)) ≠ byte_at seq (spos + t) → e.ledger st0 F0 K →
      ∃ f : cram_feature, f.pos = ((spos + t + 1 : Nat) : Int)
        ∧ (if fd.L2 (byte_at seq (spos + t)) < 4
              ∨ (fd.L2 (byte_at seq (spos + t)) < 5
                  ∧ fd.L2 (ref_at e.c.ref (apos + (t : Int))) < 4) then
            f.code = 'X'.toNat
            ∧ f.base = fd.cram_sub_matrix (ref_at e.c.ref (apos + (t : Int)) &&& 31)
                (byte_at seq (spos + t) &&& 31)
          else f.code = 'B'.toNat ∧ f.base = byte_at seq (spos + t))
        ∧ (match_loop fd seq qual spos apos n l e).2.ledger st0 F0 (f :: K) := by
  intro n
  induction n with
  | zero => intro l e h1 h2; omega
  | succ n ih =>
    intro l e h1 h2 hnz hne h
    have h0 := hnz l (Nat.le_refl _) h1
    by_cases hlt : l = t
    · subst hlt
      obtain ⟨f, hp, hc, hl⟩ := ledger_add_substitution_feature st0 F0 K fd e (spos + l)
        (byte_at seq (spos + l)) (byte_at qual (spos + l)) (ref_at e.c.ref (apos + (l : Int))) h
      refine ⟨f, hp, hc, ?_⟩
      have hstep : match_loop fd seq qual spos apos (n + 1) l e
          = match_loop fd seq qual spos apos n (l + 1)
              (cram_add_substitution fd e (spos + l) (byte_at seq (spos + l))
                (byte_at qual (spos + l)) (ref_at e.c.ref (apos + (l : Int)))) := by
        rw [match_loop]
        rw [if_pos hne, if_neg h0]
      rw [hstep]
      exact ledger_match_loop st0 F0 (f :: K) fd seq qual spos apos n (l + 1) _ hl
    · have hstep : ∃ e1 : enc, e1.ledger st0 F0 K ∧ e1.c.ref = e.c.ref
          ∧ match_loop fd seq qual spos apos (n + 1) l e
            = match_loop fd seq qual spos apos n (l + 1) e1 := by
        by_cases hml : ref_at e.c.ref (apos + (l : Int)) ≠ byte_at seq (spos + l)
        · refine ⟨_, ledger_add_substitution st0 F0 K fd e (spos + l) (byte_at seq (spos + l))
            (byte_at qual (spos + l)) (ref_at e.c.ref (apos + (l : Int))) h,
            (walk_frame_add_substitution fd e _ _ _ _).ref, ?_⟩
          rw [match_loop]
          rw [if_pos hml, if_neg h0]
        · refine ⟨e, h, rfl, ?_⟩
          rw [match_loop]
          rw [if_neg hml]
      obtain ⟨e1, hl1, hr, heq⟩ := hstep
      rw [heq, ← hr]
      exact ih (l + 1) e1 (by omega) (by omega) (fun k hk1 hk2 => hnz k (by omega) hk2)
        (by rw [hr]; exact hne) hl1

/-- The `M`/`=`/`X` arm in reference mode appends the feature of
`cram_add_substitution` for a mismatch at offset `t` inside the reference. -/
theorem cigar_match_mismatch (st0 : cram_stats) (F0 K : List cram_feature) (fd : cram_fd)
    (seq qual : List Nat) (cig_len t : Nat) (e e' : enc)
    (hm : cigar_match fd seq qual cig_len e = some e') (hnr : fd.no_ref = false)
    (hlen : e.cr.len ≠ 0) (ht : t < cig_len) (href : e.apos + (t : Int) < e.c.ref_end)
    (hnz : ∀ k, k ≤ t → byte_at seq (e.spos + k) ≠ 0)
    (hne : ref_at e.c.ref (e.apos + (t : Int)) ≠ byte_at seq (e.spos + t))
    (h : e.ledger st0 F0 K) :
    ∃ f : cram_feature, f.pos = ((e.spos + t + 1 : Nat) : Int)
      ∧ (if fd.L2 (byte_at seq (e.spos + t)) < 4
            ∨ (fd.L2 (byte_at seq (e.spos + t)) < 5
                ∧ fd.L2 (ref_at e.c.ref (e.apos + (t : Int))) < 4) then
          f.code = 'X'.toNat
          ∧ f.base = fd.cram_sub_matrix (ref_at e.c.ref (e.apos + (t : Int)) &&& 31)
              (byte_at seq (e.spos + t) &&& 31)
        else f.code = 'B'.toNat ∧ f.base = byte_at seq (e.spos + t))
      ∧ e'.ledger st0 F0 (f :: K) := by
  unfold cigar_match at hm
  split at hm
  · simp at hm
  rename_i r hfirst
  simp only [Option.some.injEq] at hm
  subst hm
  unfold cigar_match_first at hfirst
  rw [if_pos ⟨hnr, hlen⟩] at hfirst
  split at hfirst
  · simp at hfirst
  simp only [Option.some.injEq] at hfirst
  subst hfirst
  have hend : t < (cigar_match_end cig_len e).toNat := by
    unfold cigar_match_end
    split <;> omega
  obtain ⟨f, hp, hc, hl⟩ := match_loop_mismatch st0 F0 K fd seq qual e.spos e.apos t
    (cigar_match_end cig_len e).toNat 0 e (Nat.zero_le _) (by omega)
    (fun k _ hk => hnz k hk) hne h
  refine ⟨f, hp, hc, ?_⟩
  apply ledger_cigar_match_rest
  exact ledger_of_eq st0 F0 (f :: K) _ _ hl rfl rfl rfl rfl

theorem cigar_step_mismatch (st0 : cram_stats) (F0 K : List cram_feature) (fd : cram_fd)
    (seq qual : List Nat) (w t : Nat) (e e' : enc)
    (hs : cigar_step fd seq qual w e = some e') (hop : is_match_op (cigar_op_of w) = true)
    (hnr : fd.no_ref = false) (hlen : e.cr.len ≠ 0) (ht : t < cigar_len_of w)
    (href : e.apos + (t : Int) < e.c.ref_end)
    (hnz : ∀ k, k ≤ t → byte_at seq (e.spos + k) ≠ 0)
    (hne : ref_at e.c.ref (e.apos + (t : Int)) ≠ byte_at seq (e.spos + t))
    (h : e.ledger st0 F0 K) :
    ∃ f : cram_feature, f.pos = ((e.spos + t + 1 : Nat) : Int)
      ∧ (if fd.L2 (byte_at seq (e.spos + t)) < 4
            ∨ (fd.L2 (byte_at seq (e.spos + t)) < 5
                ∧ fd.L2 (ref_at e.c.ref (e.apos + (t : Int))) < 4) then
          f.code = 'X'.toNat
          ∧ f.base = fd.cram_sub_matrix (ref_at e.c.ref (e.apos + (t : Int)) &&& 31)
              (byte_at seq (e.spos + t) &&& 31)
        else f.code = 'B'.toNat ∧ f.base = byte_at seq (e.spos + t))
      ∧ e'.ledger st0 F0 (f :: K) := by
  unfold cigar_step at hs
  dsimp only at hs
  have hop' : w &&& BAM_CIGAR_MASK = BAM_CMATCH ∨ w &&& BAM_CIGAR_MASK = BAM_CBASE_MATCH
      ∨ w &&& BAM_CIGAR_MASK = BAM_CBASE_MISMATCH := by
    unfold is_match_op cigar_op_of at hop
    simp only [Bool.or_eq_true, beq_iff_eq] at hop
    rcases hop with (hop | hop) | hop
    · exact Or.inl hop
    · exact Or.inr (Or.inl hop)
    · exact Or.inr (Or.inr hop)
  rw [if_pos hop'] at hs
  exact cigar_match_mismatch st0 F0 K fd seq qual _ t e e' hs hnr hlen ht href hnz hne h

theorem cigar_walk_append (fd : cram_fd) (seq qual : List Nat) :
    ∀ (pre ws : List Nat) (e e' : enc), cigar_walk fd seq qual (pre ++ ws) e = some e' →
      ∃ e1, cigar_walk fd seq qual pre e = some e1 ∧ cigar_walk fd seq qual ws e1 = some e' := by
  intro pre
  induction pre with
  | nil => intro ws e e' h; exact ⟨e, rfl, h⟩
  | cons w pre ih =>
    intro ws e e' h
    simp only [List.cons_append, cigar_walk] at h
    split at h
    · simp at h
    rename_i e1 h1
    obtain ⟨e2, h2, h3⟩ := ih ws e1 e' h
    exact ⟨e2, by simp only [cigar_walk, h1]; exact h2, h3⟩

/-- With a stored sequence in reference mode the read cursor moves by the
read-consuming lengths of the CIGAR words walked. -/
theorem spos_cigar_walk (fd : cram_fd) (seq qual : List Nat) (hnr : fd.no_ref = false) :
    ∀ (ws : List Nat) (e e' : enc), cigar_walk fd seq qual ws e = some e' →
      e.cr.len ≠ 0 → read_fits fd seq ws e → e'.spos = e.spos + query_len ws := by
  intro ws
  induction ws with
  | nil =>
    intro e e' h _ _
    simp only [cigar_walk, Option.some.injEq] at h
    subst h
    rfl
  | cons w ws ih =>
    intro e e' h hlen hq
    simp only [cigar_walk] at h
    split at h
    · simp at h
    rename_i e1 h1
    have hf := walk_frame_cigar_step fd seq qual w e e1 h1
    rcases hq with hq | hq | ⟨hnz, hsp⟩
    · rw [hq] at hnr; cases hnr
    · exact absurd hq hlen
    simp only [query_len] at hsp
    obtain ⟨_, hs1⟩ := aend_cigar_step fd seq qual w e e1 h1 e.apos (Or.inl rfl)
      (Or.inr (Or.inr ⟨hnz, by omega⟩))
    have hs1 := hs1 hnr hlen
    rw [ih e1 e' h (by rw [hf.len]; exact hlen)
      (Or.inr (Or.inr ⟨by rw [hf.len]; exact hnz, by rw [hf.len, hs1]; omega⟩)), hs1]
    simp only [query_len]
    omega

/-! ## The statistics of one record -/

theorem por_aux_stats (fd : cram_fd) (c : cram_container) (s : cram_slice) (b : bam_seq_t)
    (i : Nat) (rg : Option (List Nat)) (e : enc) (h : por_aux fd c s b i = some (rg, e))
    (ds : cram_DS_ID) (v : Int) (hd : ds ≠ DS_TL) : e.c.stats ds v = c.stats ds v := by
  unfold por_aux at h
  dsimp only at h
  split at h
  · simp at h
  · simp only [Option.some.injEq, Prod.mk.injEq] at h
    obtain ⟨_, rfl⟩ := h
    rfl
  · simp only [Option.some.injEq, Prod.mk.injEq] at h
    obtain ⟨_, rfl⟩ := h
    exact stats_add_other _ _ _ _ _ hd

theorem por_head_rest_stats (fd : cram_fd) (b : bam_seq_t) (rg : Option (List Nat)) (e1 : enc)
    (ds : cram_DS_ID) (v : Int) (h1 : ds ≠ DS_RI) (h2 : ds ≠ DS_AP) :
    (por_head_rest fd b rg e1).1.c.stats ds v
      = e1.c.stats ds v
        + emitted ds v [(DS_RG, [(por_head_rest fd b rg e1).1.cr.rg]),
            (DS_BF, [((fd.cram_flag_swap (e1.cr.flags &&& 4095) : Nat) : Int)])]
    ∧ (por_head_rest fd b rg e1).1.cr.feature = e1.cr.feature := by
  unfold por_head_rest
  dsimp only [enc.stats_add]
  split
  · split
    · refine ⟨?_, rfl⟩
      show cram_stats_add (cram_stats_add (cram_stats_add e1.c.stats DS_RG _) DS_RI _) DS_BF _
        ds v = _
      rw [stats_add_emitted, stats_add_other _ _ _ _ _ h1, stats_add_emitted]
      simp only [emitted]
      omega
    · refine ⟨?_, rfl⟩
      show cram_stats_add (cram_stats_add (cram_stats_add (cram_stats_add e1.c.stats DS_RG _)
        DS_RI _) DS_BF _) DS_AP _ ds v = _
      rw [stats_add_other _ _ _ _ _ h2, stats_add_emitted, stats_add_other _ _ _ _ _ h1,
        stats_add_emitted]
      simp only [emitted]
      omega
  · refine ⟨?_, rfl⟩
    show cram_stats_add (cram_stats_add (cram_stats_add e1.c.stats DS_RG _) DS_RI _) DS_BF _
      ds v = _
    rw [stats_add_emitted, stats_add_other _ _ _ _ _ h1, stats_add_emitted]
    simp only [emitted]
    omega

theorem por_qual_stats (fd : cram_fd) (b : bam_seq_t) (fq : Nat) (e : enc)
    (ds : cram_DS_ID) (v : Int) :
    (por_qual fd b fq e).c.stats ds v
      = e.c.stats ds v + emitted ds v [(DS_RL, [((por_qual fd b fq e).cr.len : Int)])]
    ∧ (por_qual fd b fq e).s.seqs_blk = e.s.seqs_blk
    ∧ (por_qual fd b fq e).cr.rg = e.cr.rg
    ∧ (por_qual fd b fq e).cr.seq = e.cr.seq
    ∧ (por_qual fd b fq e).cr.len = (if e.cr.len = 0 then fq else e.cr.len) := by
  unfold por_qual
  dsimp only [enc.stats_add]
  refine ⟨?_, ?_, ?_, ?_, ?_⟩
  · rw [stats_add_emitted]
    congr 1
    (repeat' split) <;> rfl
  · (repeat' split) <;> rfl
  · (repeat' split) <;> rfl
  · (repeat' split) <;> rfl
  · (repeat' split) <;> rfl

/-- The part of `process_one_read` before the mate block on a mapped record, cut
at the CIGAR walk: the state `e0` at the start of the walk, the state `e2` at its
end, and how the stored record and the statistics derive from them. -/
theorem por_pre_mapped (fd : cram_fd) (c c1 : cram_container) (s s1 : cram_slice)
    (b : bam_seq_t) (i : Nat) (h : por_pre fd c s b i = some (c1, s1))
    (hm : has_flag b.flag BAM_FUNMAP = false) :
    ∃ e0 e2 : enc,
      (e0.c.ref = c.ref ∧ e0.c.ref_end = c.ref_end ∧ e0.cr.len = b.len ∧ e0.apos = b.pos
        ∧ e0.spos = 0 ∧ e0.s.features = s.features ∧ e0.cr.nfeature = 0
        ∧ e0.s.seqs_blk = s.seqs_blk ++ unpack_seq b.seq b.len
        ∧ e0.cr.seq = s.seqs_blk.length)
      ∧ (∀ ds v, ds ≠ DS_TL → ds ≠ DS_RI → ds ≠ DS_AP →
          e0.c.stats ds v = c.stats ds v
            + emitted ds v [(DS_RG, [e0.cr.rg]),
                (DS_BF, [((fd.cram_flag_swap (b.flag &&& 4095) : Nat) : Int)])])
      ∧ cigar_walk fd (unpack_seq b.seq b.len) b.qual b.cigar e0 = some e2
      ∧ (s1.features = e2.s.features ∧ s1.seqs_blk = e2.s.seqs_blk
        ∧ (s1.crecs i).nfeature = e2.cr.nfeature ∧ (s1.crecs i).feature = e2.cr.feature
        ∧ (s1.crecs i).rg = e0.cr.rg ∧ (s1.crecs i).seq = e0.cr.seq)
      ∧ ∀ ds v, c1.stats ds v = e2.c.stats ds v
          + emitted ds v [(DS_FN, [(e2.cr.nfeature : Int)]),
              (DS_RL, [((s1.crecs i).len : Int)])] := by
  unfold por_pre at h
  split at h
  · simp at h
  rename_i e seq hh
  split at h
  · simp at h
  rename_i e1 fq hc
  simp only [Option.some.injEq, Prod.mk.injEq] at h
  obtain ⟨rfl, rfl⟩ := h
  unfold por_head at hh
  split at hh
  · simp at hh
  rename_i rg ea ha
  simp only [Option.some.injEq] at hh
  obtain ⟨hs, hfl, hlen, _, hrf, hre, _⟩ := por_aux_spec fd c s b i rg ea ha
  obtain ⟨_, _, r3, r4, r5, _, r7, r8, r9, r10⟩ := por_head_rest_spec fd b rg ea
  have hst := fun ds v h1 h2 => (por_head_rest_stats fd b rg ea ds v h1 h2).1
  have hsq : (por_head_rest fd b rg ea).1.s.seqs_blk = ea.s.seqs_blk ++ unpack_seq b.seq ea.cr.len
      ∧ (por_head_rest fd b rg ea).1.cr.seq = ea.s.seqs_blk.length := by
    unfold por_head_rest
    dsimp only [enc.stats_add]
    constructor <;> (repeat' split) <;> rfl
  rw [hh] at r3 r4 r5 r7 r8 r9 r10 hst hsq
  dsimp only at r3 r4 r5 r7 r8 r9 r10 hst hsq
  subst r10
  rw [hlen] at hc hsq
  rw [hs] at hsq r3
  have q1 := fun ds v => (por_qual_stats fd b fq e1 ds v).1
  obtain ⟨_, q2, q3, q4, q5⟩ := por_qual_stats fd b fq e1 DS_RL 0
  obtain ⟨_, _, p3, _, _, _, _, p8, p9⟩ := por_qual_spec fd b fq e1
  unfold por_cigar at hc
  dsimp only at hc
  rw [r4, hfl] at hc
  rw [if_pos hm] at hc
  split at hc
  · simp at hc
  rename_i e2 hw
  split at hc
  · simp at hc
  simp only [Option.some.injEq, Prod.mk.injEq] at hc
  obtain ⟨rfl, _⟩ := hc
  have hwf := walk_frame_cigar_walk fd _ b.qual b.cigar _ e2 hw
  refine ⟨_, e2, ⟨?_, ?_, ?_, ?_, rfl, ?_, rfl, ?_, ?_⟩, ?_, hw, ⟨?_, ?_, ?_, ?_, ?_, ?_⟩, ?_⟩
  · exact r8.trans hrf
  · exact r9.trans hre
  · exact r5.trans hlen
  · show e.cr.apos - 1 = b.pos
    rw [r7]; omega
  · exact r3
  · exact hsq.1
  · exact hsq.2
  · intro ds v h1 h2 h3
    show e.c.stats ds v = _
    rw [hst ds v h2 h3, por_aux_stats fd c s b i rg ea ha ds v h1, hfl]
  · exact p3.trans rfl
  · exact q2.trans rfl
  · show (Function.update (por_qual fd b fq _).s.crecs i (por_qual fd b fq _).cr i).nfeature = _
    rw [Function.update_same]
    exact p9.trans rfl
  · show (Function.update (por_qual fd b fq _).s.crecs i (por_qual fd b fq _).cr i).feature = _
    rw [Function.update_same]
    exact p8.trans rfl
  · show (Function.update (por_qual fd b fq _).s.crecs i (por_qual fd b fq _).cr i).rg = _
    rw [Function.update_same]
    exact (q3.trans rfl).trans hwf.cr_rg
  · show (Function.update (por_qual fd b fq _).s.crecs i (por_qual fd b fq _).cr i).seq = _
    rw [Function.update_same]
    exact (q4.trans rfl).trans hwf.cr_seq
  · intro ds v
    show (por_qual fd b fq _).c.stats ds v = _
    rw [q1]
    show cram_stats_add e2.c.stats DS_FN _ ds v + _ = _
    rw [stats_add_emitted]
    simp only [emitted, Function.update_same]
    omega

theorem stats_del_other (st : cram_stats) (d : cram_DS_ID) (x : Int) (ds : cram_DS_ID)
    (v : Int) (h : ds ≠ d) : cram_stats_del st d x ds v = st ds v := by
  unfold cram_stats_del
  simp [h]

theorem container_add_other (c : cram_container) (d : cram_DS_ID) (x : Int) (ds : cram_DS_ID)
    (v : Int) (h : ds ≠ d) : (c.add d x).stats ds v = c.stats ds v :=
  stats_add_other _ _ _ _ _ h

theorem container_del_other (c : cram_container) (d : cram_DS_ID) (x : Int) (ds : cram_DS_ID)
    (v : Int) (h : ds ≠ d) : (c.del d x).stats ds v = c.stats ds v :=
  stats_del_other _ _ _ _ _ h

/-- The mate block only touches the mate series and CF. -/
theorem por_mate_stats_other (fd : cram_fd) (c : cram_container) (s : cram_slice)
    (b : bam_seq_t) (i : Nat) (ds : cram_DS_ID) (v : Int) (h1 : ds ≠ DS_MF) (h2 : ds ≠ DS_NP)
    (h3 : ds ≠ DS_TS) (h4 : ds ≠ DS_NS) (h5 : ds ≠ DS_CF) (h6 : ds ≠ DS_NF) :
    (por_mate fd c s b i).1.stats ds v = c.stats ds v := by
  have hd : ∀ (c : cram_container) (s : cram_slice),
      (mate_detached c s b i).1.stats ds v = c.stats ds v := by
    intro c s
    simp only [mate_detached]
    rw [container_add_other _ _ _ _ _ h4, container_add_other _ _ _ _ _ h5,
      container_add_other _ _ _ _ _ h3, container_add_other _ _ _ _ _ h2,
      container_add_other _ _ _ _ _ h1]
  have hl : ∀ (c : cram_container) (s : cram_slice) (sec : Bool) (key : List Nat) (j : Nat),
      (mate_link c s sec key i j).1.stats ds v = c.stats ds v := by
    intro c s sec key j
    simp only [mate_link]
    rw [container_add_other _ _ _ _ _ h6, container_add_other _ _ _ _ _ h5]
    split
    · rw [container_del_other _ _ _ _ _ h5, container_add_other _ _ _ _ _ h5]
      split
      · rw [container_del_other _ _ _ _ _ h4, container_del_other _ _ _ _ _ h3,
          container_del_other _ _ _ _ _ h1, container_del_other _ _ _ _ _ h2]
      · rfl
    · rw [container_add_other _ _ _ _ _ h5]
      split
      · rw [container_del_other _ _ _ _ _ h4, container_del_other _ _ _ _ _ h3,
          container_del_other _ _ _ _ _ h1, container_del_other _ _ _ _ _ h2]
      · rfl
  unfold por_mate
  split
  · dsimp only
    split
    · exact hd _ _
    · split
      · exact hl _ _ _ _ _
      · exact hd _ _
  · exact hd _ _

theorem por_tail_stats (c : cram_container) (s : cram_slice) (b : bam_seq_t) (i : Nat)
    (ds : cram_DS_ID) (v : Int) (h : ds ≠ DS_MQ) :
    (por_tail c s b i).1.stats ds v = c.stats ds v := by
  unfold por_tail
  dsimp only
  (repeat' split) <;> exact container_add_other _ _ _ _ _ h

theorem query_len_append (a b : List Nat) :
    query_len (a ++ b) = query_len a + query_len b := by
  induction a with
  | nil => simp [query_len]
  | cons w ws ih =>
    show op_query_len w + query_len (ws ++ b) = op_query_len w + query_len ws + query_len b
    rw [ih]; omega

theorem ref_len_append (a b : List Nat) : ref_len (a ++ b) = ref_len a + ref_len b := by
  induction a with
  | nil => simp [ref_len]
  | cons w ws ih =>
    show op_ref_len w + ref_len (ws ++ b) = op_ref_len w + ref_len ws + ref_len b
    rw [ih]; omega

/-- The result of `process_one_read` in terms of the state at the start of the
mate block: the feature pool, sequence block and record geometry are those of
that state, and so are the statistics outside the mate series, CF and MQ. -/
theorem process_one_read_split (fd : cram_fd) (c c' : cram_container) (s s' : cram_slice)
    (b : bam_seq_t) (i : Nat) (h : process_one_read fd c s b i = some (c', s')) :
    ∃ c1 s1, por_pre fd c s b i = some (c1, s1) ∧ slice_geom s1 s'
      ∧ ∀ ds v, ds ≠ DS_MF → ds ≠ DS_NP → ds ≠ DS_TS → ds ≠ DS_NS → ds ≠ DS_CF → ds ≠ DS_NF →
          ds ≠ DS_MQ → c'.stats ds v = c1.stats ds v := by
  obtain ⟨c1, s1, hpre, hg⟩ := process_one_read_geom fd c c' s s' b i h
  refine ⟨c1, s1, hpre, hg, ?_⟩
  intro ds v h1 h2 h3 h4 h5 h6 h7
  unfold process_one_read at h
  rw [hpre] at h
  simp only [Option.some.injEq] at h
  have hc : c' = (por_tail (por_mate fd c1 s1 b i).1 (por_mate fd c1 s1 b i).2 b i).1 := by
    rw [h]
  rw [hc, por_tail_stats _ _ _ _ _ _ h7, por_mate_stats_other fd c1 s1 b i ds v h1 h2 h3 h4 h5 h6]

/-- Under the ledger the features of the record are the list `new`. -/
theorem record_features_of_pool (F0 new : List cram_feature) (s : cram_slice)
    (cr : cram_record) (h1 : s.features = F0 ++ new) (h2 : cr.nfeature = new.length)
    (h3 : new ≠ [] → cr.feature = F0.length) : record_features s cr = new := by
  unfold record_features
  by_cases hn : new = []
  · subst hn
    rw [h2]; simp
  · rw [h1, h2, h3 hn]
    simp

/-- Every `X` feature of the list makes the slice encoder emit its code as BS. -/
theorem encode_features_emitted_X (s : cram_slice) (f : cram_feature)
    (hx : f.code = 'X'.toNat) :
    ∀ (fs : List cram_feature) (p : Int) (em : List emission),
      encode_features s fs p = some em → f ∈ fs → 1 ≤ emitted DS_BS (f.base : Int) em := by
  intro fs
  induction fs with
  | nil => intro p em _ hf; simp at hf
  | cons g gs ih =>
    intro p em h hf
    simp only [encode_features] at h
    split at h
    · rename_i pg rest hg hrest
      simp only [Option.some.injEq] at h
      subst h
      simp only [emitted]
      rw [emitted_append]
      have hn1 := emitted_nonneg DS_BS (f.base : Int) pg
      have hn2 := emitted_nonneg DS_BS (f.base : Int) rest
      rcases List.mem_cons.1 hf with hf | hf
      · subst hf
        have : feature_payload s f = some [(DS_BS, [(f.base : Int)])] := by
          unfold feature_payload
          rw [if_pos hx]
        rw [this] at hg
        simp only [Option.some.injEq] at hg
        subst hg
        simp only [emitted, List.count_cons_self, List.count_nil] at hn1 ⊢
        simp
        omega
      · have := ih g.pos rest hrest hf
        simp
        omega
    · simp at h

/-- C10 (as amended): in reference-based mode, when `process_one_read` returns
success on a mapped record whose read-consuming CIGAR lengths add up to the read
length, every read position inside an `M`, `=` or `X` operation (offset `l` of
the CIGAR word `w`) that lies inside the reference and whose read base differs
from the reference base has a feature of the record at that 1-based read
position. When the read base is `A`, `C`, `G` or `T`, or is `N` against an `A`,
`C`, `G`, `T` reference base (the test on the table `L2`), the feature has code
`X`, its base is `cram_sub_matrix[ref & 31][base & 31]`, and that code has been
counted in DS_BS; otherwise the feature has code `B` and carries the read base. -/
theorem process_one_read_substitution (fd : cram_fd) (c c' : cram_container)
    (s s' : cram_slice) (b : bam_seq_t) (i : Nat) (pre post : List Nat) (w l : Nat)
    (h : process_one_read fd c s b i = some (c', s'))
    (hm : has_flag b.flag BAM_FUNMAP = false) (hnr : fd.no_ref = false)
    (hcig : b.cigar = pre ++ w :: post) (hop : is_match_op (cigar_op_of w) = true)
    (hl : l < cigar_len_of w) (hq : query_len b.cigar = b.len)
    (href : b.pos + (ref_len pre : Int) + (l : Int) < c.ref_end)
    (hne : ref_at c.ref (b.pos + (ref_len pre : Int) + (l : Int))
      ≠ byte_at (unpack_seq b.seq b.len) (query_len pre + l)) :
    ∃ f ∈ record_features s' (s'.crecs i), f.pos = ((query_len pre + l + 1 : Nat) : Int)
      ∧ (if fd.L2 (byte_at (unpack_seq b.seq b.len) (query_len pre + l)) < 4
            ∨ (fd.L2 (byte_at (unpack_seq b.seq b.len) (query_len pre + l)) < 5
                ∧ fd.L2 (ref_at c.ref (b.pos + (ref_len pre : Int) + (l : Int))) < 4) then
          f.code = 'X'.toNat
          ∧ f.base = fd.cram_sub_matrix
              (ref_at c.ref (b.pos + (ref_len pre : Int) + (l : Int)) &&& 31)
              (byte_at (unpack_seq b.seq b.len) (query_len pre + l) &&& 31)
          ∧ c.stats DS_BS (f.base : Int) + 1 ≤ c'.stats DS_BS (f.base : Int)
        else f.code = 'B'.toNat
          ∧ f.base = byte_at (unpack_seq b.seq b.len) (query_len pre + l)) := by
  obtain ⟨c1, s1, hpre, hg, hst⟩ := process_one_read_split fd c c' s s' b i h
  obtain ⟨e0, e2, ⟨hrf, hre, hlen, hap, hsp, hfe, hnf0, _, _⟩, hst0, hw, ⟨g1, g2, g3, g4, _, _⟩,
    hst2⟩ := por_pre_mapped fd c c1 s s1 b i hpre hm
  rw [hcig] at hw
  obtain ⟨e1, hw1, hw2⟩ := cigar_walk_append fd _ b.qual pre (w :: post) e0 e2 hw
  simp only [cigar_walk] at hw2
  split at hw2
  · simp at hw2
  rename_i e1' hstep
  have hqw : op_query_len w = cigar_len_of w := by
    unfold op_query_len
    rw [hop]
    simp
  have hql : query_len pre + cigar_len_of w + query_len post = b.len := by
    rw [← hq, hcig, query_len_append]
    simp only [query_len]
    rw [hqw]
    omega
  have hb0 : b.len ≠ 0 := by omega
  have hnz : ∀ k, k < e0.cr.len → byte_at (unpack_seq b.seq b.len) k ≠ 0 :=
    fun k hk => byte_at_unpack_seq _ _ k (by rw [← hlen]; exact hk)
  have hL0 : e0.ledger e0.c.stats e0.s.features [] :=
    ⟨[], [], by simp, hnf0, fun hx => absurd rfl hx, rfl,
      fun ds v _ _ => by simp [emitted], fun g hg => by simp at hg⟩
  have hL1 := ledger_cigar_walk _ _ [] fd _ _ pre e0 e1 hw1 hL0
  have hf1 := walk_frame_cigar_walk fd _ _ pre e0 e1 hw1
  have hfit0 : read_fits fd (unpack_seq b.seq b.len) pre e0 :=
    Or.inr (Or.inr ⟨hnz, by rw [hsp, hlen]; omega⟩)
  have hs1 : e1.spos = query_len pre := by
    rw [spos_cigar_walk fd _ _ hnr pre e0 e1 hw1 (by rw [hlen]; exact hb0) hfit0, hsp]
    omega
  have ha1 : e1.apos = b.pos + (ref_len pre : Int) := by
    have := aend_cigar_walk fd _ _ pre e0 e1 hw1 e0.apos (Or.inl rfl) hfit0
    rcases this with hx | ⟨_, h2, _⟩
    · rw [hx, hap]
    · rw [hre, hap] at h2; omega
  obtain ⟨f, hp, hcnd, hL2⟩ := cigar_step_mismatch _ _ [] fd _ _ w l e1 e1' hstep hop hnr
    (by rw [hf1.len, hlen]; exact hb0) hl (by rw [ha1, hf1.ref_end, hre]; exact href)
    (fun k hk => byte_at_unpack_seq _ _ _ (by rw [hs1]; omega))
    (by rw [hf1.ref, hrf, ha1, hs1]; exact hne) hL1
  have hL3 := ledger_cigar_walk _ _ [f] fd _ _ post e1' e2 hw2 hL2
  obtain ⟨new, em, n1, n2, n3, n4, n5, n6⟩ := hL3
  have hmem : f ∈ new := n6 f (List.mem_cons_self _ _)
  have hrec : record_features s' (s'.crecs i) = new :=
    record_features_of_pool e0.s.features new s' (s'.crecs i)
      (by rw [hg.features, g1]; exact n1) (by rw [(hg.recs i).nfeature, g3]; exact n2)
      (fun hn => by rw [(hg.recs i).feature, g4]; exact n3 hn)
  refine ⟨f, by rw [hrec]; exact hmem, by rw [hp, hs1], ?_⟩
  rw [hs1, hf1.ref, hrf, ha1] at hcnd
  by_cases hgd : fd.L2 (byte_at (unpack_seq b.seq b.len) (query_len pre + l)) < 4
      ∨ (fd.L2 (byte_at (unpack_seq b.seq b.len) (query_len pre + l)) < 5
          ∧ fd.L2 (ref_at c.ref (b.pos + (ref_len pre : Int) + (l : Int))) < 4)
  · rw [if_pos hgd] at hcnd ⊢
    refine ⟨hcnd.1, hcnd.2, ?_⟩
    rw [hst DS_BS _ (by decide) (by decide) (by decide) (by decide) (by decide) (by decide)
      (by decide), hst2 DS_BS, n5 DS_BS _ (by decide) (by decide),
      hst0 DS_BS _ (by decide) (by decide) (by decide)]
    have := encode_features_emitted_X e2.s f hcnd.1 new 0 em n4 hmem
    simp only [emitted]
    simp
    omega
  · rw [if_neg hgd] at hcnd ⊢
    exact hcnd

/-- C10 (counterexample): the read `ARGT`, `4M`, at position 1 of the reference
`ACGTACGT` in reference-based mode differs from the reference at read position 2
(`R` against `C`). The record gets one feature, with code `B` and the base `R`,
no `X` feature, and nothing is counted in DS_BS for the substitution code. -/
theorem process_one_read_iupac_mismatch_is_B :
    (process_one_read fd_v3 (container_new ref8) (slice_new 1) bam_iupac 0).isSome = true
    ∧ fd_v3.no_ref = false
    ∧ byte_at (unpack_seq bam_iupac.seq bam_iupac.len) 1 = 'R'.toNat
    ∧ ref_at ref8 (bam_iupac.pos + 1) = 'C'.toNat
    ∧ (record_features state_iupac.2 (state_iupac.2.crecs 0)).map
        (fun f => (f.code, f.pos, f.base)) = [('B'.toNat, 2, 'R'.toNat)]
    ∧ state_iupac.1.stats DS_BS
        (fd_v3.cram_sub_matrix ('C'.toNat &&& 31) ('R'.toNat &&& 31) : Nat) = 0 := by
  decide

theorem process_one_read_substitution_witness :
    ∃ f ∈ record_features state_edits.2 (state_edits.2.crecs 0), f.pos = 6
      ∧ f.code = 'X'.toNat
      ∧ f.base = fd_v3.cram_sub_matrix (ref_at ref32 4 &&& 31)
          (byte_at (unpack_seq bam_edits.seq bam_edits.len) 5 &&& 31)
      ∧ (container_new ref32).stats DS_BS (f.base : Int) + 1
          ≤ state_edits.1.stats DS_BS (f.base : Int) := by
  obtain ⟨f, hf, hp, hc⟩ := process_one_read_substitution fd_v3 (container_new ref32)
    state_edits.1 (slice_new 1) state_edits.2 bam_edits 0
    [cigar_word 0 2, cigar_word 1 1] [cigar_word 2 2, cigar_word 0 2] (cigar_word 0 3) 2
    (option_getD_eq _ _ (by decide)) (by decide) (by decide) (by decide) (by decide)
    (by decide) (by decide) (by decide) (by decide)
  rw [if_pos (by decide)] at hc
  exact ⟨f, hf, hp, hc⟩

/-! ## Statistics of a slice against the codec calls of the slice encoder -/

theorem emitted_single_other (ds d : cram_DS_ID) (v : Int) (xs : List Int) (h : d ≠ ds) :
    emitted ds v [(d, xs)] = 0 := by
  simp [emitted, h]

/-- For the geometry and mate series the codec calls of `cram_encode_slice_read`
are those of `geom_emissions` and `mate_emissions`. -/
theorem slice_read_emitted (fd : cram_fd) (c : cram_container) (s : cram_slice)
    (cr : cram_record) (lp lp' : Int) (em : List emission)
    (h : cram_encode_slice_read fd c s cr lp = some (em, lp')) (ds : cram_DS_ID) (v : Int)
    (hds : geom_series ds = true ∨ mate_series ds = true) :
    emitted ds v em
      = emitted ds v (geom_emissions fd s cr) + emitted ds v (mate_emissions cr) := by
  have hCF : DS_CF ≠ ds := by rintro rfl; simp [geom_series, mate_series] at hds
  have hRI : DS_RI ≠ ds := by rintro rfl; simp [geom_series, mate_series] at hds
  have hAP : DS_AP ≠ ds := by rintro rfl; simp [geom_series, mate_series] at hds
  have hTL : DS_TL ≠ ds := by rintro rfl; simp [geom_series, mate_series] at hds
  have hMQ : DS_MQ ≠ ds := by rintro rfl; simp [geom_series, mate_series] at hds
  have hBA : DS_BA ≠ ds := by rintro rfl; simp [geom_series, mate_series] at hds
  have hri : emitted ds v (if s.ref_seq_id = -2 then [(DS_RI, [cr.ref_id])] else []) = 0 := by
    split
    · exact emitted_single_other _ _ _ _ hRI
    · rfl
  have hap : emitted ds v (if c.pos_sorted = true then [(DS_AP, [cr.apos - lp])]
      else [(DS_AP, [cr.apos])]) = 0 := by
    split <;> exact emitted_single_other _ _ _ _ hAP
  unfold cram_encode_slice_read at h
  dsimp only at h
  split at h
  · rename_i hm
    split at h
    · simp at h
    rename_i fe hfe
    simp only [Option.some.injEq, Prod.mk.injEq] at h
    obtain ⟨rfl, _⟩ := h
    unfold geom_emissions
    rw [if_pos hm, hfe]
    simp only [emitted_append, hri, hap]
    rw [emitted_single_other _ _ _ _ hCF, emitted_single_other _ _ _ _ hTL,
      emitted_single_other _ _ _ _ hMQ]
    unfold mate_emissions
    simp only [emitted, Option.getD_some]
    omega
  · rename_i hm
    simp only [Option.some.injEq, Prod.mk.injEq] at h
    obtain ⟨rfl, _⟩ := h
    have hba : emitted ds v (if cr.len ≠ 0 then
        [(DS_BA, List.map Int.ofNat (bytes_from s.seqs_blk cr.seq cr.len))] else []) = 0 := by
      split
      · exact emitted_single_other _ _ _ _ hBA
      · rfl
    unfold geom_emissions
    rw [if_neg hm]
    simp only [emitted_append, hri, hap, hba]
    rw [emitted_single_other _ _ _ _ hCF, emitted_single_other _ _ _ _ hTL]
    unfold mate_emissions
    simp only [emitted]
    omega

theorem add_BA_stats_other : ∀ (xs : List Nat) (e : enc) (ds : cram_DS_ID) (v : Int),
    ds ≠ DS_BA → (add_BA_stats xs e).c.stats ds v = e.c.stats ds v := by
  intro xs
  induction xs with
  | nil => intro e ds v _; rfl
  | cons x xs ih =>
    intro e ds v hd
    simp only [add_BA_stats]
    rw [ih _ ds v hd]
    exact stats_add_other _ _ _ _ _ hd

/-- The part of `process_one_read` before the mate block on an unmapped record:
no feature, and the statistics of RG, BF and RL. -/
theorem por_pre_unmapped (fd : cram_fd) (c c1 : cram_container) (s s1 : cram_slice)
    (b : bam_seq_t) (i : Nat) (h : por_pre fd c s b i = some (c1, s1))
    (hm : has_flag b.flag BAM_FUNMAP = true) :
    s1.features = s.features ∧ (s1.crecs i).nfeature = 0
    ∧ ∀ ds v, ds ≠ DS_TL → ds ≠ DS_RI → ds ≠ DS_AP → ds ≠ DS_BA →
        c1.stats ds v = c.stats ds v
          + emitted ds v [(DS_RG, [(s1.crecs i).rg]),
              (DS_BF, [((fd.cram_flag_swap (b.flag &&& 4095) : Nat) : Int)]),
              (DS_RL, [((s1.crecs i).len : Int)])] := by
  unfold por_pre at h
  split at h
  · simp at h
  rename_i e seq hh
  split at h
  · simp at h
  rename_i e1 fq hc
  simp only [Option.some.injEq, Prod.mk.injEq] at h
  obtain ⟨rfl, rfl⟩ := h
  unfold por_head at hh
  split at hh
  · simp at hh
  rename_i rg ea ha
  simp only [Option.some.injEq] at hh
  obtain ⟨hs, hfl, hlen, _, hrf, hre, _⟩ := por_aux_spec fd c s b i rg ea ha
  obtain ⟨_, _, r3, r4, r5, _, r7, r8, r9, r10⟩ := por_head_rest_spec fd b rg ea
  have hst := fun ds v h1 h2 => (por_head_rest_stats fd b rg ea ds v h1 h2).1
  rw [hh] at r3 r4 r5 r7 r8 r9 r10 hst
  dsimp only at r3 r4 r5 r7 r8 r9 r10 hst
  rw [hs] at r3
  have q1 := fun ds v => (por_qual_stats fd b fq e1 ds v).1
  obtain ⟨_, q2, q3, q4, q5⟩ := por_qual_stats fd b fq e1 DS_RL 0
  obtain ⟨_, _, p3, _, _, _, _, p8, p9⟩ := por_qual_spec fd b fq e1
  unfold por_cigar at hc
  dsimp only at hc
  rw [r4, hfl] at hc
  rw [if_neg (by rw [hm]; exact Bool.true_eq_false_eq_False)] at hc
  simp only [Option.some.injEq, Prod.mk.injEq] at hc
  obtain ⟨rfl, _⟩ := hc
  refine ⟨?_, ?_, ?_⟩
  · show (por_qual fd b fq _).s.features = s.features
    rw [p3, (add_BA_stats_frame _ _).1]
    exact r3
  · show (Function.update (por_qual fd b fq _).s.crecs i (por_qual fd b fq _).cr i).nfeature = 0
    rw [Function.update_same, p9, (add_BA_stats_frame _ _).2]
  · intro ds v h1 h2 h3 h4
    show (por_qual fd b fq _).c.stats ds v = _
    simp only [Function.update_same]
    rw [q1, add_BA_stats_other _ _ ds v h4, q3, (add_BA_stats_frame _ _).2]
    dsimp only
    rw [hst ds v h2 h3, por_aux_stats fd c s b i rg ea ha ds v h1, hfl]
    simp only [emitted]
    omega

/-- What one call of `process_one_read` adds to the statistics of the geometry
series is what the slice encoder emits for the record in those series. The
feature pool only grows, the features of the record lie inside it, and the
geometry of the other records is unchanged. -/
theorem process_one_read_geom_stats (fd : cram_fd) (c c' : cram_container)
    (s s' : cram_slice) (b : bam_seq_t) (i : Nat)
    (h : process_one_read fd c s b i = some (c', s')) :
    (∀ ds v, geom_series ds = true →
      c'.stats ds v = c.stats ds v + emitted ds v (geom_emissions fd s' (s'.crecs i)))
    ∧ (∃ ext, s'.features = s.features ++ ext)
    ∧ ((s'.crecs i).nfeature = 0
        ∨ (s'.crecs i).feature + (s'.crecs i).nfeature ≤ s'.features.length)
    ∧ ∀ k, k ≠ i → rec_geom (s.crecs k) (s'.crecs k) := by
  obtain ⟨c1, s1, hpre, hg, hst⟩ := process_one_read_split fd c c' s s' b i h
  obtain ⟨_, hoth, hflag, _, _⟩ := por_pre_spec fd c c1 s s1 b i hpre
  have hother : ∀ k, k ≠ i → rec_geom (s.crecs k) (s'.crecs k) := by
    intro k hk
    rw [← hoth k hk]
    exact hg.recs k
  have hne : ∀ ds, geom_series ds = true →
      ds ≠ DS_MF ∧ ds ≠ DS_NP ∧ ds ≠ DS_TS ∧ ds ≠ DS_NS ∧ ds ≠ DS_CF ∧ ds ≠ DS_NF ∧ ds ≠ DS_MQ
      ∧ ds ≠ DS_QS ∧ ds ≠ DS_BB ∧ ds ≠ DS_TL ∧ ds ≠ DS_RI ∧ ds ≠ DS_AP ∧ ds ≠ DS_BA := by
    intro ds hds
    refine ⟨?_, ?_, ?_, ?_, ?_, ?_, ?_, ?_, ?_, ?_, ?_, ?_, ?_⟩ <;>
      (rintro rfl; simp [geom_series] at hds)
  by_cases hm : has_flag b.flag BAM_FUNMAP = false
  · obtain ⟨e0, e2, ⟨_, _, _, _, _, hfe, hnf0, _, _⟩, hst0, hw, ⟨g1, g2, g3, g4, g5, _⟩, hst2⟩ :=
      por_pre_mapped fd c c1 s s1 b i hpre hm
    have hL0 : e0.ledger e0.c.stats e0.s.features [] :=
      ⟨[], [], by simp, hnf0, fun hx => absurd rfl hx, rfl,
        fun ds v _ _ => by simp [emitted], fun g hg => by simp at hg⟩
    obtain ⟨new, em, n1, n2, n3, n4, n5, _⟩ :=
      ledger_cigar_walk _ _ [] fd _ _ b.cigar e0 e2 hw hL0
    have hfeat : s'.features = s.features ++ new := by
      rw [hg.features, g1, n1, hfe]
    have hrec : record_features s' (s'.crecs i) = new :=
      record_features_of_pool e0.s.features new s' (s'.crecs i)
        (by rw [hg.features, g1]; exact n1) (by rw [(hg.recs i).nfeature, g3]; exact n2)
        (fun hn => by rw [(hg.recs i).feature, g4]; exact n3 hn)
    refine ⟨?_, ⟨new, hfeat⟩, ?_, hother⟩
    · intro ds v hds
      obtain ⟨a1, a2, a3, a4, a5, a6, a7, a8, a9, a10, a11, a12, _⟩ := hne ds hds
      rw [hst ds v a1 a2 a3 a4 a5 a6 a7, hst2 ds v, n5 ds v a8 a9, hst0 ds v a10 a11 a12]
      unfold geom_emissions
      rw [(hg.recs i).flags, hflag, if_pos hm, hrec,
        encode_features_congr e2.s s' (hg.seqs_blk.trans g2), n4,
        (hg.recs i).rg, g5, (hg.recs i).nfeature, g3, (hg.recs i).len]
      simp only [emitted_append, emitted, Option.getD_some]
      omega
    · by_cases hn : new = []
      · left
        rw [(hg.recs i).nfeature, g3, n2, hn]; rfl
      · right
        rw [(hg.recs i).nfeature, g3, n2, (hg.recs i).feature, g4, n3 hn, hfeat, hfe,
          List.length_append]
  · have hm' : has_flag b.flag BAM_FUNMAP = true := by simpa using hm
    obtain ⟨u1, u2, u3⟩ := por_pre_unmapped fd c c1 s s1 b i hpre hm'
    refine ⟨?_, ⟨[], by rw [hg.features, u1]; simp⟩, ?_, hother⟩
    · intro ds v hds
      obtain ⟨a1, a2, a3, a4, a5, a6, a7, a8, a9, a10, a11, a12, a13⟩ := hne ds hds
      rw [hst ds v a1 a2 a3 a4 a5 a6 a7, u3 ds v a10 a11 a12 a13]
      unfold geom_emissions
      rw [(hg.recs i).flags, hflag, if_neg hm, (hg.recs i).rg, (hg.recs i).len]
      simp only [emitted_append, emitted]
      omega
    · left
      rw [(hg.recs i).nfeature, u2]

/-- The series a feature payload can go to. -/
theorem feature_payload_series (s : cram_slice) (f : cram_feature) (pl : List emission)
    (h : feature_payload s f = some pl) :
    ∀ x ∈ pl, x.1 = DS_BS ∨ x.1 = DS_BA ∨ x.1 = DS_DL ∨ x.1 = DS_BB ∨ x.1 = DS_RS
      ∨ x.1 = DS_PD ∨ x.1 = DS_HC := by
  unfold feature_payload at h
  intro x hx
  by_cases h0 : f.code = 'X'.toNat
  · rw [if_pos h0] at h
    cases h
    simp only [List.mem_singleton, List.not_mem_nil] at hx
    subst hx
    simp
  rw [if_neg h0] at h
  by_cases h1 : f.code = 'S'.toNat
  · rw [if_pos h1] at h
    cases h
    simp only [List.mem_singleton, List.not_mem_nil] at hx
  rw [if_neg h1] at h
  by_cases h2 : f.code = 'I'.toNat
  · rw [if_pos h2] at h
    cases h
    simp only [List.mem_singleton, List.not_mem_nil] at hx
  rw [if_neg h2] at h
  by_cases h3 : f.code = 'i'.toNat
  · rw [if_pos h3] at h
    cases h
    simp only [List.mem_singleton, List.not_mem_nil] at hx
    subst hx
    simp
  rw [if_neg h3] at h
  by_cases h4 : f.code = 'D'.toNat
  · rw [if_pos h4] at h
    cases h
    simp only [List.mem_singleton, List.not_mem_nil] at hx
    subst hx
    simp
  rw [if_neg h4] at h
  by_cases h5 : f.code = 'B'.toNat
  · rw [if_pos h5] at h
    cases h
    simp only [List.mem_singleton, List.not_mem_nil] at hx
    subst hx
    simp
  rw [if_neg h5] at h
  by_cases h6 : f.code = 'b'.toNat
  · rw [if_pos h6] at h
    cases h
    simp only [List.mem_singleton, List.not_mem_nil] at hx
    subst hx
    simp
  rw [if_neg h6] at h
  by_cases h7 : f.code = 'Q'.toNat
  · rw [if_pos h7] at h
    cases h
    simp only [List.mem_singleton, List.not_mem_nil] at hx
  rw [if_neg h7] at h
  by_cases h8 : f.code = 'N'.toNat
  · rw [if_pos h8] at h
    cases h
    simp only [List.mem_singleton, List.not_mem_nil] at hx
    subst hx
    simp
  rw [if_neg h8] at h
  by_cases h9 : f.code = 'P'.toNat
  · rw [if_pos h9] at h
    cases h
    simp only [List.mem_singleton, List.not_mem_nil] at hx
    subst hx
    simp
  rw [if_neg h9] at h
  by_cases h10 : f.code = 'H'.toNat
  · rw [if_pos h10] at h
    cases h
    simp only [List.mem_singleton, List.not_mem_nil] at hx
    subst hx
    simp
  rw [if_neg h10] at h
  cases h

/-- The payload of a feature on another slice: the same codec calls, up to the
bytes handed to BB. -/
theorem feature_payload_indep (s s' : cram_slice) (f : cram_feature) (pl : List emission)
    (h : feature_payload s f = some pl) :
    ∃ pl', feature_payload s' f = some pl'
      ∧ ∀ ds v, ds ≠ DS_BB → emitted ds v pl' = emitted ds v pl := by
  by_cases hb : f.code = 'b'.toNat
  · have hx : ∀ x : cram_slice, feature_payload x f
        = some [(DS_BB, List.map Int.ofNat (bytes_from x.seqs_blk f.seq_idx f.len.toNat))] := by
      intro x
      unfold feature_payload
      rw [hb]
      rfl
    rw [hx s] at h
    simp only [Option.some.injEq] at h
    subst h
    refine ⟨_, hx s', ?_⟩
    intro ds v hd
    have : ¬ (DS_BB = ds) := fun hh => hd hh.symm
    simp [emitted, this]
  · refine ⟨pl, ?_, fun _ _ _ => rfl⟩
    rw [← h]
    simp only [feature_payload, if_neg hb]

theorem encode_features_indep (s s' : cram_slice) :
    ∀ (fs : List cram_feature) (p : Int) (em : List emission),
      encode_features s fs p = some em →
      ∃ em', encode_features s' fs p = some em'
        ∧ ∀ ds v, ds ≠ DS_BB → emitted ds v em' = emitted ds v em := by
  intro fs
  induction fs with
  | nil =>
    intro p em h
    simp only [encode_features, Option.some.injEq] at h
    subst h
    exact ⟨[], rfl, fun _ _ _ => rfl⟩
  | cons g gs ih =>
    intro p em h
    simp only [encode_features] at h
    split at h
    · rename_i pg rest hg hrest
      simp only [Option.some.injEq] at h
      subst h
      obtain ⟨pg', hg', hpe⟩ := feature_payload_indep s s' g pg hg
      obtain ⟨rest', hr', hre⟩ := ih g.pos rest hrest
      refine ⟨(DS_FC, [(g.code : Int)]) :: (DS_FP, [g.pos - p]) :: (pg' ++ rest'), ?_, ?_⟩
      · simp only [encode_features, hg', hr']
      · intro ds v hd
        simp only [emitted, emitted_append]
        rw [hpe ds v hd, hre ds v hd]
    · simp at h

/-- The feature loop makes no codec call for a mate series. -/
theorem encode_features_no_mate (s : cram_slice) :
    ∀ (fs : List cram_feature) (p : Int) (em : List emission),
      encode_features s fs p = some em →
      ∀ ds v, mate_series ds = true → emitted ds v em = 0 := by
  intro fs
  induction fs with
  | nil =>
    intro p em h ds v _
    simp only [encode_features, Option.some.injEq] at h
    subst h
    rfl
  | cons g gs ih =>
    intro p em h ds v hds
    simp only [encode_features] at h
    split at h
    · rename_i pg rest hg hrest
      simp only [Option.some.injEq] at h
      subst h
      have hFC : DS_FC ≠ ds := by rintro rfl; simp [mate_series] at hds
      have hFP : DS_FP ≠ ds := by rintro rfl; simp [mate_series] at hds
      have hpg : emitted ds v pg = 0 := by
        have hser := feature_payload_series s g pg hg
        clear hg
        induction pg with
        | nil => rfl
        | cons x xs ihx =>
          simp only [emitted]
          rw [ihx (fun y hy => hser y (List.mem_cons_of_mem _ hy))]
          have := hser x (List.mem_cons_self _ _)
          have hx : ¬ (x.1 = ds) := by
            rintro rfl
            rcases this with h1 | h1 | h1 | h1 | h1 | h1 | h1 <;>
              (rw [h1] at hds; simp [mate_series] at hds)
          simp [hx]
      simp only [emitted, emitted_append, hFC, hFP, if_false]
      rw [hpg, ih g.pos rest hrest ds v hds]
      simp
    · simp at h

theorem record_features_stable (s s' : cram_slice) (cr cr' : cram_record)
    (ext : List cram_feature) (hf : s'.features = s.features ++ ext)
    (h1 : cr'.feature = cr.feature) (h2 : cr'.nfeature = cr.nfeature)
    (hp : cr.nfeature = 0 ∨ cr.feature + cr.nfeature ≤ s.features.length) :
    record_features s' cr' = record_features s cr := by
  unfold record_features
  rw [hf, h1, h2]
  rcases hp with hp | hp
  · rw [hp]; simp
  · rw [List.drop_append_of_le_length (by omega),
      List.take_append_of_le_length (by rw [List.length_drop]; omega)]

/-- Growing the feature pool and the blocks does not change what the slice
encoder emits for an earlier record, up to the bytes handed to BB. -/
theorem geom_emitted_stable (fd : cram_fd) (s s' : cram_slice) (cr cr' : cram_record)
    (ext : List cram_feature) (hf : s'.features = s.features ++ ext) (hg : rec_geom cr cr')
    (hp : cr.nfeature = 0 ∨ cr.feature + cr.nfeature ≤ s.features.length)
    (ds : cram_DS_ID) (v : Int) (hd : ds ≠ DS_BB) :
    emitted ds v (geom_emissions fd s' cr') = emitted ds v (geom_emissions fd s cr) := by
  unfold geom_emissions
  rw [hg.flags, hg.len, hg.rg, hg.nfeature,
    record_features_stable s s' cr cr' ext hf hg.feature hg.nfeature hp]
  simp only [emitted_append]
  congr 1
  split
  · cases hE : encode_features s (record_features s cr) 0 with
    | some em =>
      obtain ⟨em', h', he⟩ := encode_features_indep s s' _ 0 em hE
      rw [h']
      simp only [emitted, Option.getD_some]
      rw [he ds v hd]
    | none =>
      cases hE' : encode_features s' (record_features s cr) 0 with
      | none => rfl
      | some em' =>
        obtain ⟨em, h', _⟩ := encode_features_indep s' s _ 0 em' hE'
        rw [hE] at h'
        cases h'
  · rfl

theorem switch_ref_stats (fd : cram_fd) (c c1 : cram_container) (b : bam_seq_t)
    (h : switch_ref fd c b = some c1) : c1.stats = c.stats := by
  unfold switch_ref at h
  split at h
  · split at h
    · simp at h
    · simp only [Option.some.injEq] at h
      subst h
      rfl
  · simp only [Option.some.injEq] at h
    subst h
    rfl

/-- Over the record loop of a slice the statistics of the geometry series grow
by what the slice encoder emits for the records processed. -/
theorem process_reads_geom (fd : cram_fd) :
    ∀ (bs : List bam_seq_t) (r2 : Nat) (c c' : cram_container) (s s' : cram_slice),
      process_reads fd bs r2 c s = some (c', s') → (∀ k, k < r2 → pool_ok s k) →
      (∀ ds v, geom_series ds = true →
        c'.stats ds v = c.stats ds v
          + Finset.sum (Finset.range bs.length)
              (fun k => emitted ds v (geom_emissions fd s' (s'.crecs (r2 + k)))))
      ∧ ∀ k, k < r2 → ∀ ds v, ds ≠ DS_BB →
          emitted ds v (geom_emissions fd s' (s'.crecs k))
            = emitted ds v (geom_emissions fd s (s.crecs k)) := by
  intro bs
  induction bs with
  | nil =>
    intro r2 c c' s s' h _
    simp only [process_reads, Option.some.injEq, Prod.mk.injEq] at h
    obtain ⟨rfl, rfl⟩ := h
    exact ⟨fun ds v _ => by simp, fun k _ ds v _ => rfl⟩
  | cons b bs ih =>
    intro r2 c c' s s' h hpool
    simp only [process_reads] at h
    split at h
    · simp at h
    rename_i c1 hsw
    split at h
    · simp at h
    rename_i r hpor
    obtain ⟨hst, ⟨ext, hext⟩, hpi, hoth⟩ :=
      process_one_read_geom_stats fd c1 r.1 s r.2 b r2 hpor
    have hpool' : ∀ k, k < r2 + 1 → pool_ok r.2 k := by
      intro k hk
      by_cases hkr : k = r2
      · subst hkr; exact hpi
      · have hg := hoth k hkr
        unfold pool_ok
        rw [hg.nfeature, hg.feature, hext, List.length_append]
        rcases hpool k (by omega) with hp | hp
        · exact Or.inl hp
        · exact Or.inr (by omega)
    obtain ⟨ih1, ih2⟩ := ih (r2 + 1) r.1 c' r.2 s' h hpool'
    constructor
    · intro ds v hds
      have hbb : ds ≠ DS_BB := by rintro rfl; simp [geom_series] at hds
      rw [ih1 ds v hds, hst ds v hds, switch_ref_stats fd c c1 b hsw, List.length_cons,
        Finset.sum_range_succ', ← ih2 r2 (by omega) ds v hbb]
      have hsum : Finset.sum (Finset.range bs.length)
            (fun k => emitted ds v (geom_emissions fd s' (s'.crecs (r2 + (k + 1)))))
          = Finset.sum (Finset.range bs.length)
            (fun k => emitted ds v (geom_emissions fd s' (s'.crecs (r2 + 1 + k)))) :=
        Finset.sum_congr rfl (fun k _ => by rw [show r2 + (k + 1) = r2 + 1 + k by omega])
      rw [hsum]
      simp only [Nat.add_zero]
      omega
    · intro k hk ds v hd
      rw [ih2 k (by omega) ds v hd]
      exact geom_emitted_stable fd s r.2 _ _ ext hext (hoth k (by omega)) (hpool k hk) ds v hd

/-! ## The pair tables -/

theorem HashTableSearch_append_other {β : Type} (t : HashTable β) (key key' : List Nat) (d : β)
    (h : key' ≠ key) : HashTableSearch (t ++ [(key, d)]) key' = HashTableSearch t key' := by
  unfold HashTableSearch
  induction t with
  | nil =>
    simp only [List.nil_append, List.lookup]
    have : (key' == key) = false := by simpa using h
    rw [this]
  | cons kv t ih =>
    obtain ⟨k, x⟩ := kv
    simp only [List.cons_append, List.lookup]
    split
    · rfl
    · exact ih

theorem HashTableSearch_append_found {β : Type} (t : HashTable β) (key key' : List Nat)
    (d x : β) (h : HashTableSearch t key' = some x) :
    HashTableSearch (t ++ [(key, d)]) key' = some x := by
  unfold HashTableSearch at h ⊢
  induction t with
  | nil => simp [List.lookup] at h
  | cons kv t ih =>
    obtain ⟨k, y⟩ := kv
    simp only [List.cons_append, List.lookup] at h ⊢
    split
    · rename_i hk; rw [hk] at h; exact h
    · rename_i hk; rw [hk] at h; exact ih h

theorem HashTableSearch_set_other {β : Type} (t : HashTable β) (key key' : List Nat) (d : β)
    (h : key' ≠ key) : HashTableSearch (HashTableSet t key d) key' = HashTableSearch t key' := by
  unfold HashTableSearch HashTableSet
  induction t with
  | nil => rfl
  | cons kv t ih =>
    obtain ⟨k, x⟩ := kv
    simp only [List.map_cons]
    by_cases hk : k = key
    · rw [if_pos hk]
      have hne : (key' == k) = false := by rw [hk]; simpa using h
      simp only [List.lookup, hne]
      exact ih
    · rw [if_neg hk]
      simp only [List.lookup]
      split
      · rfl
      · exact ih

theorem HashTableSearch_set_same {β : Type} (t : HashTable β) (key : List Nat) (d x : β)
    (h : HashTableSearch t key = some x) :
    HashTableSearch (HashTableSet t key d) key = some d := by
  unfold HashTableSearch HashTableSet at *
  induction t with
  | nil => simp [List.lookup] at h
  | cons kv t ih =>
    obtain ⟨k, y⟩ := kv
    simp only [List.map_cons]
    by_cases hk : k = key
    · rw [if_pos hk]
      have he : (key == k) = true := by rw [hk]; simp
      simp only [List.lookup, he]
    · rw [if_neg hk]
      have hne : (key == k) = false := by
        simpa using (fun hh : key = k => hk hh.symm)
      simp only [List.lookup, hne] at h ⊢
      exact ih h

theorem stats_del_emitted (st : cram_stats) (d : cram_DS_ID) (x : Int) (ds : cram_DS_ID)
    (v : Int) : cram_stats_del st d x ds v = st ds v - emitted ds v [(d, [x])] := by
  unfold cram_stats_del
  simp only [emitted, List.count_cons, List.count_nil]
  by_cases h1 : ds = d
  · subst h1
    by_cases h2 : v = x
    · subst h2; simp
    · have : ¬ (x = v) := fun h => h2 h.symm
      simp [h2, this]
  · have : ¬ (d = ds) := fun h => h1 h.symm
    simp [h1, this]

theorem container_add_emitted (c : cram_container) (d : cram_DS_ID) (x : Int)
    (ds : cram_DS_ID) (v : Int) :
    (c.add d x).stats ds v = c.stats ds v + emitted ds v [(d, [x])] :=
  stats_add_emitted _ _ _ _ _

theorem container_del_emitted (c : cram_container) (d : cram_DS_ID) (x : Int)
    (ds : cram_DS_ID) (v : Int) :
    (c.del d x).stats ds v = c.stats ds v - emitted ds v [(d, [x])] :=
  stats_del_emitted _ _ _ _ _

/-- A sum over the first `i` indices when one summand changes. -/
theorem sum_range_change (f g : Nat → Int) (i j : Nat) (hj : j < i)
    (h : ∀ k, k ≠ j → g k = f k) :
    Finset.sum (Finset.range i) g = Finset.sum (Finset.range i) f + (g j - f j) := by
  have hm : j ∈ Finset.range i := Finset.mem_range.2 hj
  rw [← Finset.add_sum_erase _ g hm, ← Finset.add_sum_erase _ f hm]
  have : Finset.sum ((Finset.range i).erase j) g = Finset.sum ((Finset.range i).erase j) f :=
    Finset.sum_congr rfl (fun k hk => h k (Finset.ne_of_mem_erase hk))
  rw [this]
  ring

/-! ## The mate series -/

theorem mate_detached_spec (c : cram_container) (s : cram_slice) (b : bam_seq_t) (i : Nat) :
    (mate_detached c s b i).2.pair = s.pair
    ∧ (∀ k, k ≠ i → (mate_detached c s b i).2.crecs k = s.crecs k)
    ∧ ((mate_detached c s b i).2.crecs i).cram_flags
        = ((s.crecs i).cram_flags ||| CRAM_FLAG_DETACHED) ||| CRAM_FLAG_STATS_ADDED
    ∧ ∀ ds v, ds ≠ DS_CF →
        (mate_detached c s b i).1.stats ds v = c.stats ds v
          + emitted ds v [(DS_MF, [(((mate_detached c s b i).2.crecs i).mate_flags : Int)]),
              (DS_NS, [b.mate_ref]),
              (DS_NP, [((mate_detached c s b i).2.crecs i).mate_pos]),
              (DS_TS, [((mate_detached c s b i).2.crecs i).tlen])] := by
  refine ⟨rfl, ?_, ?_, ?_⟩
  · intro k hk
    simp only [mate_detached]
    exact upd_crecs_other s i k _ hk
  · simp only [mate_detached]
    rw [upd_crecs_same]
  · intro ds v hd
    simp only [mate_detached]
    rw [upd_crecs_same, container_add_emitted, container_add_other _ _ _ _ _ hd,
      container_add_emitted, container_add_emitted, container_add_emitted]
    simp only [emitted]
    omega

theorem por_tail_mate (c : cram_container) (s : cram_slice) (b : bam_seq_t) (i : Nat) :
    ((por_tail c s b i).2.crecs i).mate_flags = (s.crecs i).mate_flags
    ∧ ((por_tail c s b i).2.crecs i).mate_pos = (s.crecs i).mate_pos
    ∧ ((por_tail c s b i).2.crecs i).tlen = (s.crecs i).tlen
    ∧ ((por_tail c s b i).2.crecs i).mate_ref_id = b.mate_ref := by
  simp only [por_tail]
  rw [upd_crecs_same]
  exact ⟨rfl, rfl, rfl, rfl⟩

/-- The detached arm followed by the closing statements: record `i` is DETACHED
and STATS_ADDED, and the mate series have been counted as the slice encoder
will emit them for the record. -/
theorem detached_tail_spec (c : cram_container) (s : cram_slice) (b : bam_seq_t) (i : Nat) :
    (por_tail (mate_detached c s b i).1 (mate_detached c s b i).2 b i).2.pair = s.pair
    ∧ (∀ k, k ≠ i →
        (por_tail (mate_detached c s b i).1 (mate_detached c s b i).2 b i).2.crecs k
          = s.crecs k)
    ∧ ((por_tail (mate_detached c s b i).1 (mate_detached c s b i).2 b i).2.crecs i).cram_flags
        = ((s.crecs i).cram_flags ||| CRAM_FLAG_DETACHED) ||| CRAM_FLAG_STATS_ADDED
    ∧ ∀ ds v, mate_series ds = true →
        (por_tail (mate_detached c s b i).1 (mate_detached c s b i).2 b i).1.stats ds v
          = c.stats ds v + emitted ds v (mate_emissions
              ((por_tail (mate_detached c s b i).1 (mate_detached c s b i).2 b i).2.crecs i)) := by
  obtain ⟨d1, d2, d3, d4⟩ := mate_detached_spec c s b i
  obtain ⟨t1, t2, t3, _⟩ := por_tail_spec (mate_detached c s b i).1 (mate_detached c s b i).2 b i
  obtain ⟨m1, m2, m3, m4⟩ := por_tail_mate (mate_detached c s b i).1 (mate_detached c s b i).2 b i
  refine ⟨t1.trans d1, fun k hk => (t2 k hk).trans (d2 k hk), t3.trans d3, ?_⟩
  intro ds v hds
  have hmq : ds ≠ DS_MQ := by rintro rfl; simp [mate_series] at hds
  have hcf : ds ≠ DS_CF := by rintro rfl; simp [mate_series] at hds
  rw [por_tail_stats _ _ _ _ _ _ hmq, d4 ds v hcf]
  unfold mate_emissions
  have hdet : has_flag ((por_tail (mate_detached c s b i).1 (mate_detached c s b i).2 b
      i).2.crecs i).cram_flags CRAM_FLAG_DETACHED = true := by
    rw [t3, d3, has_flag_or_other _ _ _ (by decide)]
    exact has_flag_or_self _ _ (by decide)
  rw [if_pos hdet, m1, m2, m3, m4]

theorem mate_link_pair (c : cram_container) (s : cram_slice) (sec : Bool) (key : List Nat)
    (rnum j : Nat) :
    (mate_link c s sec key rnum j).2.pair
      = Function.update s.pair sec (HashTableSet (s.pair sec) key rnum) := by
  simp only [mate_link]
  split <;> rfl

/-- The mate series after the link arm: the values counted for the earlier
record `j` when it was detached are taken back and its `mate_line` is counted. -/
theorem mate_link_stats (c : cram_container) (s : cram_slice) (sec : Bool) (key : List Nat)
    (rnum j : Nat) (hne : j ≠ rnum) (ds : cram_DS_ID) (v : Int) (hds : mate_series ds = true) :
    (mate_link c s sec key rnum j).1.stats ds v
      = c.stats ds v
        - (if has_flag (s.crecs j).cram_flags CRAM_FLAG_STATS_ADDED then
            emitted ds v [(DS_MF, [((s.crecs j).mate_flags : Int)]),
              (DS_NS, [(s.crecs j).mate_ref_id]), (DS_NP, [(s.crecs j).mate_pos]),
              (DS_TS, [(s.crecs j).tlen])]
          else 0)
        + emitted ds v [(DS_NF, [(rnum : Int) - ((j : Int) + 1)])] := by
  have hcf : ds ≠ DS_CF := by rintro rfl; simp [mate_series] at hds
  have hj : ∀ (s0 : cram_slice) (f : cram_record → cram_record),
      (s0.upd rnum f).crecs j = s0.crecs j := fun s0 f => upd_crecs_other s0 rnum j f hne
  simp only [mate_link, hj]
  rw [container_add_emitted, container_add_other _ _ _ _ _ hcf]
  have hml : ∀ (s0 : cram_slice),
      ((s0.upd j (fun p => { p with mate_line := (rnum : Int) - ((j : Int) + 1) })).crecs
        j).mate_line = (rnum : Int) - ((j : Int) + 1) := by
    intro s0
    rw [upd_crecs_same]
  rw [hml]
  by_cases hsa : has_flag (s.crecs j).cram_flags CRAM_FLAG_STATS_ADDED = true
  · simp only [hsa, if_true]
    rw [container_del_other _ _ _ _ _ hcf, container_add_other _ _ _ _ _ hcf,
      container_del_emitted, container_del_emitted, container_del_emitted,
      container_del_emitted]
    simp only [emitted]
    omega
  · simp only [hsa, if_false, Bool.false_eq_true]
    rw [container_add_other _ _ _ _ _ hcf]
    omega

/-- The invariant after one more record, from a description of the new pair
tables: every entry is an old entry of a record that is still not
MATE_DOWNSTREAM, or the entry of record `i` under `key0` in table `sec0`. -/
theorem mate_inv_step (s s' : cram_slice) (i n : Nat) (sec0 : Bool) (key0 : List Nat)
    (hinv : mate_inv s i n)
    (hadd : ∀ k, k < i + 1 →
      has_flag (s'.crecs k).cram_flags CRAM_FLAG_STATS_ADDED
        = has_flag (s'.crecs k).cram_flags CRAM_FLAG_DETACHED)
    (hchar : ∀ sec key j, HashTableSearch (s'.pair sec) key = some j →
      (HashTableSearch (s.pair sec) key = some j
        ∧ has_flag (s'.crecs j).cram_flags CRAM_FLAG_MATE_DOWNSTREAM = false)
      ∨ (sec = sec0 ∧ key = key0 ∧ j = i))
    (hmd : has_flag (s'.crecs i).cram_flags CRAM_FLAG_MATE_DOWNSTREAM = false)
    (hfresh : ∀ k, i + 1 ≤ k → s'.crecs k = s.crecs k) : mate_inv s' (i + 1) n := by
  refine ⟨hadd, ?_, ?_, ?_⟩
  · intro sec key j hj
    rcases hchar sec key j hj with ⟨ho, hm⟩ | ⟨_, _, rfl⟩
    · exact ⟨by have := (hinv.table sec key j ho).1; omega, hm⟩
    · exact ⟨by omega, hmd⟩
  · intro sec sec' key key' j h1 h2
    rcases hchar sec key j h1 with ⟨o1, _⟩ | ⟨a1, a2, a3⟩
    · rcases hchar sec' key' j h2 with ⟨o2, _⟩ | ⟨_, _, b3⟩
      · exact hinv.inj sec sec' key key' j o1 o2
      · have := (hinv.table sec key j o1).1
        omega
    · rcases hchar sec' key' j h2 with ⟨o2, _⟩ | ⟨b1, b2, _⟩
      · have := (hinv.table sec' key' j o2).1
        omega
      · exact ⟨a1.trans b1.symm, a2.trans b2.symm⟩
  · intro k hk hn
    rw [hfresh k hk]
    exact hinv.fresh k (by omega) hn

/-- The detached arm on record `i`, with the pair tables `pair1` that are the old
ones or the old ones with record `i` entered under `key0`. -/
theorem mate_step_detached (c : cram_container) (s : cram_slice) (b : bam_seq_t) (i n : Nat)
    (pair1 : Bool → HashTable Nat) (sec0 : Bool) (key0 : List Nat)
    (hinv : mate_inv s i n) (hi : i < n)
    (hp : ∀ sec key j, HashTableSearch (pair1 sec) key = some j →
      HashTableSearch (s.pair sec) key = some j ∨ (sec = sec0 ∧ key = key0 ∧ j = i)) :
    mate_inv (por_tail (mate_detached c { s with pair := pair1 } b i).1
        (mate_detached c { s with pair := pair1 } b i).2 b i).2 (i + 1) n
    ∧ ∀ ds v, mate_series ds = true →
        (por_tail (mate_detached c { s with pair := pair1 } b i).1
          (mate_detached c { s with pair := pair1 } b i).2 b i).1.stats ds v
          + Finset.sum (Finset.range i) (fun k => emitted ds v (mate_emissions (s.crecs k)))
        = c.stats ds v
          + Finset.sum (Finset.range (i + 1)) (fun k => emitted ds v (mate_emissions
              ((por_tail (mate_detached c { s with pair := pair1 } b i).1
                (mate_detached c { s with pair := pair1 } b i).2 b i).2.crecs k))) := by
  obtain ⟨d1, d2, d3, d4⟩ := detached_tail_spec c { s with pair := pair1 } b i
  generalize por_tail (mate_detached c { s with pair := pair1 } b i).1
    (mate_detached c { s with pair := pair1 } b i).2 b i = t at d1 d2 d3 d4
  have d2' : ∀ k, k ≠ i → t.2.crecs k = s.crecs k := d2
  have d3' : (t.2.crecs i).cram_flags
      = ((s.crecs i).cram_flags ||| CRAM_FLAG_DETACHED) ||| CRAM_FLAG_STATS_ADDED := d3
  obtain ⟨f1, f2, f3⟩ := hinv.fresh i (Nat.le_refl _) hi
  have hmd : has_flag (t.2.crecs i).cram_flags CRAM_FLAG_MATE_DOWNSTREAM = false := by
    rw [d3', has_flag_or_other _ _ _ (by decide), has_flag_or_other _ _ _ (by decide)]
    exact f2
  constructor
  · apply mate_inv_step s t.2 i n sec0 key0 hinv
    · intro k hk
      by_cases hki : k = i
      · subst hki
        rw [d3', has_flag_or_self _ _ (by decide), has_flag_or_other _ _ _ (by decide),
          has_flag_or_self _ _ (by decide)]
      · rw [d2' k hki]
        exact hinv.added k (by omega)
    · intro sec key j hj
      rw [d1] at hj
      rcases hp sec key j hj with ho | hn
      · left
        refine ⟨ho, ?_⟩
        have hji : j ≠ i := by have := (hinv.table sec key j ho).1; omega
        rw [d2' j hji]
        exact (hinv.table sec key j ho).2
      · exact Or.inr hn
    · exact hmd
    · intro k hk
      exact d2' k (by omega)
  · intro ds v hds
    rw [d4 ds v hds, Finset.sum_range_succ]
    have : Finset.sum (Finset.range i) (fun k => emitted ds v (mate_emissions (t.2.crecs k)))
        = Finset.sum (Finset.range i) (fun k => emitted ds v (mate_emissions (s.crecs k))) :=
      Finset.sum_congr rfl (fun k hk => by
        rw [d2' k (by have := Finset.mem_range.1 hk; omega)])
    rw [this]
    ring

/-- The link arm on record `i` with the earlier record `j` of the pair table. -/
theorem mate_step_link (c : cram_container) (s : cram_slice) (b : bam_seq_t) (i n : Nat)
    (sec : Bool) (key : List Nat) (j : Nat) (hinv : mate_inv s i n) (hi : i < n)
    (hf : HashTableSearch (s.pair sec) key = some j) :
    mate_inv (por_tail (mate_link c s sec key i j).1 (mate_link c s sec key i j).2 b i).2
        (i + 1) n
    ∧ ∀ ds v, mate_series ds = true →
        (por_tail (mate_link c s sec key i j).1 (mate_link c s sec key i j).2 b i).1.stats ds v
          + Finset.sum (Finset.range i) (fun k => emitted ds v (mate_emissions (s.crecs k)))
        = c.stats ds v
          + Finset.sum (Finset.range (i + 1)) (fun k => emitted ds v (mate_emissions
              ((por_tail (mate_link c s sec key i j).1 (mate_link c s sec key i j).2 b
                i).2.crecs k))) := by
  obtain ⟨hji, hmdj⟩ := hinv.table sec key j hf
  have hne : j ≠ i := by omega
  obtain ⟨l1, l2, l3, l4⟩ := mate_link_spec c s sec key i j hne
  have lp := mate_link_pair c s sec key i j
  have lst := mate_link_stats c s sec key i j hne
  obtain ⟨t1, t2, t3, t4, _⟩ :=
    por_tail_spec (mate_link c s sec key i j).1 (mate_link c s sec key i j).2 b i
  have tst := por_tail_stats (mate_link c s sec key i j).1 (mate_link c s sec key i j).2 b i
  generalize mate_link c s sec key i j = r at l1 l2 l3 l4 lp lst t1 t2 t3 t4 tst
  generalize por_tail r.1 r.2 b i = t at t1 t2 t3 t4 tst
  obtain ⟨f1, f2, f3⟩ := hinv.fresh i (Nat.le_refl _) hi
  have hsa := hinv.added j hji
  -- record i after the step
  have hfi : (t.2.crecs i).cram_flags = clear_flag (s.crecs i).cram_flags CRAM_FLAG_DETACHED :=
    t3.trans l3
  have hi_det : has_flag (t.2.crecs i).cram_flags CRAM_FLAG_DETACHED = false := by
    rw [hfi]; exact has_flag_clear_self _ _ (by decide)
  have hi_md : has_flag (t.2.crecs i).cram_flags CRAM_FLAG_MATE_DOWNSTREAM = false := by
    rw [hfi, has_flag_clear_other _ _ _ (by decide)]; exact f2
  have hi_sa : has_flag (t.2.crecs i).cram_flags CRAM_FLAG_STATS_ADDED = false := by
    rw [hfi, has_flag_clear_other _ _ _ (by decide)]; exact f3
  -- record j after the step
  have hrj : t.2.crecs j = r.2.crecs j := t2 j hne
  have hj_det : has_flag (t.2.crecs j).cram_flags CRAM_FLAG_DETACHED = false := by
    rw [hrj, l1, has_flag_or_other _ _ _ (by decide)]
    exact has_flag_clear_self _ _ (by decide)
  have hj_md : has_flag (t.2.crecs j).cram_flags CRAM_FLAG_MATE_DOWNSTREAM = true := by
    rw [hrj, l1]; exact has_flag_or_self _ _ (by decide)
  have hj_sa : has_flag (t.2.crecs j).cram_flags CRAM_FLAG_STATS_ADDED = false := by
    rw [hrj, l1, has_flag_or_other _ _ _ (by decide), has_flag_clear_other _ _ _ (by decide)]
    split
    · exact has_flag_clear_self _ _ (by decide)
    · rename_i hx; simpa using hx
  have hrest : ∀ k, k ≠ i → k ≠ j → t.2.crecs k = s.crecs k :=
    fun k h1 h2 => (t2 k h1).trans (l4 k h1 h2)
  constructor
  · apply mate_inv_step s t.2 i n sec key hinv
    · intro k hk
      by_cases hki : k = i
      · subst hki; rw [hi_sa, hi_det]
      by_cases hkj : k = j
      · subst hkj; rw [hj_sa, hj_det]
      rw [hrest k hki hkj]
      exact hinv.added k (by omega)
    · intro sec' key' j' hj'
      rw [t1, lp] at hj'
      by_cases hs : sec' = sec
      · subst hs
        rw [Function.update_same] at hj'
        by_cases hk : key' = key
        · subst hk
          rw [HashTableSearch_set_same _ _ _ _ hf] at hj'
          simp only [Option.some.injEq] at hj'
          exact Or.inr ⟨rfl, rfl, hj'.symm⟩
        · rw [HashTableSearch_set_other _ _ _ _ hk] at hj'
          left
          refine ⟨hj', ?_⟩
          have hlt := (hinv.table sec' key' j' hj').1
          have hjj : j' ≠ j := by
            intro hx
            subst hx
            exact hk (hinv.inj sec' sec' key' key j' hj' hf).2
          rw [hrest j' (by omega) hjj]
          exact (hinv.table sec' key' j' hj').2
      · rw [Function.update_noteq hs] at hj'
        left
        refine ⟨hj', ?_⟩
        have hlt := (hinv.table sec' key' j' hj').1
        have hjj : j' ≠ j := by
          intro hx
          subst hx
          exact hs (hinv.inj sec' sec key' key j' hj' hf).1
        rw [hrest j' (by omega) hjj]
        exact (hinv.table sec' key' j' hj').2
    · exact hi_md
    · intro k hk
      exact hrest k (by omega) (by omega)
  · intro ds v hds
    have hmq : ds ≠ DS_MQ := by rintro rfl; simp [mate_series] at hds
    rw [tst ds v hmq, lst ds v hds, Finset.sum_range_succ,
      sum_range_change (fun k => emitted ds v (mate_emissions (s.crecs k)))
        (fun k => emitted ds v (mate_emissions (t.2.crecs k))) i j hji
        (fun k hk => by
          show emitted ds v (mate_emissions (t.2.crecs k))
            = emitted ds v (mate_emissions (s.crecs k))
          by_cases hki : k = i
          · subst hki
            unfold mate_emissions
            rw [hi_det, hi_md, f1, f2]
            rfl
          · rw [hrest k hki hk])]
    have hMi : emitted ds v (mate_emissions (t.2.crecs i)) = 0 := by
      unfold mate_emissions
      rw [hi_det, hi_md]
      rfl
    have hMj' : emitted ds v (mate_emissions (t.2.crecs j))
        = emitted ds v [(DS_NF, [(i : Int) - ((j : Int) + 1)])] := by
      unfold mate_emissions
      rw [hj_det, hj_md, hrj, l2]
      rfl
    have hMj : emitted ds v (mate_emissions (s.crecs j))
        = (if has_flag (s.crecs j).cram_flags CRAM_FLAG_STATS_ADDED = true then
            emitted ds v [(DS_MF, [((s.crecs j).mate_flags : Int)]),
              (DS_NS, [(s.crecs j).mate_ref_id]), (DS_NP, [(s.crecs j).mate_pos]),
              (DS_TS, [(s.crecs j).tlen])]
          else 0) := by
      unfold mate_emissions
      rw [hsa, hmdj]
      split
      · rfl
      · rfl
    simp only [hMi, hMj', hMj]
    ring

/-- The mate block and the closing statements on record `i` keep the mate
invariant, and the mate series change by the change of what the slice encoder
emits for the records processed so far. -/
theorem por_mate_tail_step (fd : cram_fd) (c : cram_container) (s : cram_slice)
    (b : bam_seq_t) (i n : Nat) (hinv : mate_inv s i n) (hi : i < n) :
    mate_inv (por_tail (por_mate fd c s b i).1 (por_mate fd c s b i).2 b i).2 (i + 1) n
    ∧ ∀ ds v, mate_series ds = true →
        (por_tail (por_mate fd c s b i).1 (por_mate fd c s b i).2 b i).1.stats ds v
          + Finset.sum (Finset.range i) (fun k => emitted ds v (mate_emissions (s.crecs k)))
        = c.stats ds v
          + Finset.sum (Finset.range (i + 1)) (fun k => emitted ds v (mate_emissions
              ((por_tail (por_mate fd c s b i).1 (por_mate fd c s b i).2 b i).2.crecs k))) := by
  have hold : ∀ sec key j, HashTableSearch (s.pair sec) key = some j →
      HashTableSearch (s.pair sec) key = some j ∨ (sec = false ∧ key = b.name ∧ j = i) :=
    fun _ _ _ hx => Or.inl hx
  by_cases hp : has_flag (s.crecs i).flags BAM_FPAIRED = true
  · cases hsr : HashTableSearch (s.pair (has_flag (s.crecs i).flags BAM_FSECONDARY)) b.name with
    | some j =>
      rw [por_mate_found fd c s b i j hp hsr]
      split
      · exact mate_step_link c s b i n _ b.name j hinv hi hsr
      · exact mate_step_detached c s b i n s.pair false b.name hinv hi hold
    | none =>
      obtain ⟨pair1, hpair1⟩ : ∃ p : Bool → HashTable Nat,
          p = Function.update s.pair (has_flag (s.crecs i).flags BAM_FSECONDARY)
            (s.pair (has_flag (s.crecs i).flags BAM_FSECONDARY) ++ [(b.name, i)]) := ⟨_, rfl⟩
      have hpm : por_mate fd c s b i = mate_detached c { s with pair := pair1 } b i := by
        rw [hpair1]
        unfold por_mate
        rw [if_pos hp]
        dsimp only
        rw [HashTableAdd_new _ _ _ hsr]
        rfl
      rw [hpm]
      refine mate_step_detached c s b i n pair1 (has_flag (s.crecs i).flags BAM_FSECONDARY)
        b.name hinv hi ?_
      intro sec key j hj
      rw [hpair1] at hj
      by_cases hs : sec = has_flag (s.crecs i).flags BAM_FSECONDARY
      · subst hs
        rw [Function.update_same] at hj
        by_cases hk : key = b.name
        · subst hk
          rw [HashTableSearch_append_new _ _ _ hsr] at hj
          simp only [Option.some.injEq] at hj
          exact Or.inr ⟨rfl, rfl, hj.symm⟩
        · rw [HashTableSearch_append_other _ _ _ _ hk] at hj
          exact Or.inl hj
      · rw [Function.update_noteq hs] at hj
        exact Or.inl hj
  · have hpm : por_mate fd c s b i = mate_detached c s b i := by
      unfold por_mate
      rw [if_neg hp]
    rw [hpm]
    exact mate_step_detached c s b i n s.pair false b.name hinv hi hold

/-- The head of `process_one_read` only sets the PRESERVE_QUAL and NO_SEQ bits. -/
theorem pre_cram_flags_bit (fd : cram_fd) (b : bam_seq_t) (x m : Nat)
    (h1 : CRAM_FLAG_PRESERVE_QUAL_SCORES &&& m = 0) (h2 : CRAM_FLAG_NO_SEQ &&& m = 0) :
    has_flag (pre_cram_flags fd b x) m = has_flag x m := by
  have hh : has_flag (head_cram_flags fd b.len x) m = has_flag x m := by
    unfold head_cram_flags
    dsimp only
    split
    · rw [has_flag_or_other _ _ _ h2]
      split
      · exact has_flag_or_other _ _ _ h1
      · rfl
    · split
      · exact has_flag_or_other _ _ _ h1
      · rfl
  unfold pre_cram_flags
  split
  · exact hh
  · rw [has_flag_or_other _ _ _ h1]
    exact hh

/-- The part of `process_one_read` before the mate block counts nothing in a mate series. -/
theorem por_pre_stats_mate (fd : cram_fd) (c c1 : cram_container) (s s1 : cram_slice)
    (b : bam_seq_t) (i : Nat) (h : por_pre fd c s b i = some (c1, s1)) (ds : cram_DS_ID)
    (v : Int) (hds : mate_series ds = true) : c1.stats ds v = c.stats ds v := by
  have hTL : ds ≠ DS_TL := by rintro rfl; simp [mate_series] at hds
  have hRI : ds ≠ DS_RI := by rintro rfl; simp [mate_series] at hds
  have hAP : ds ≠ DS_AP := by rintro rfl; simp [mate_series] at hds
  have hBA : ds ≠ DS_BA := by rintro rfl; simp [mate_series] at hds
  have hQS : ds ≠ DS_QS := by rintro rfl; simp [mate_series] at hds
  have hBB : ds ≠ DS_BB := by rintro rfl; simp [mate_series] at hds
  have hRG : DS_RG ≠ ds := by rintro rfl; simp [mate_series] at hds
  have hBF : DS_BF ≠ ds := by rintro rfl; simp [mate_series] at hds
  have hRL : DS_RL ≠ ds := by rintro rfl; simp [mate_series] at hds
  have hFN : DS_FN ≠ ds := by rintro rfl; simp [mate_series] at hds
  by_cases hm : has_flag b.flag BAM_FUNMAP = false
  · obtain ⟨e0, e2, ⟨_, _, _, _, _, _, hnf0, _, _⟩, hst0, hw, _, hst2⟩ :=
      por_pre_mapped fd c c1 s s1 b i h hm
    have hL0 : e0.ledger e0.c.stats e0.s.features [] :=
      ⟨[], [], by simp, hnf0, fun hx => absurd rfl hx, rfl,
        fun ds v _ _ => by simp [emitted], fun g hg => by simp at hg⟩
    obtain ⟨new, em, _, _, _, n4, n5, _⟩ :=
      ledger_cigar_walk _ _ [] fd _ _ b.cigar e0 e2 hw hL0
    rw [hst2 ds v, n5 ds v hQS hBB, hst0 ds v hTL hRI hAP,
      encode_features_no_mate e2.s new 0 em n4 ds v hds]
    simp [emitted, hRG, hBF, hRL, hFN]
  · have hm' : has_flag b.flag BAM_FUNMAP = true := by simpa using hm
    obtain ⟨_, _, u3⟩ := por_pre_unmapped fd c c1 s s1 b i h hm'
    rw [u3 ds v hTL hRI hAP hBA]
    simp [emitted, hRG, hBF, hRL]

/-- One call of `process_one_read` keeps the mate invariant, and the mate series
change by the change of what the slice encoder emits for the records processed
so far: the values of a record that is demoted are taken back. -/
theorem process_one_read_mate_stats (fd : cram_fd) (c c' : cram_container)
    (s s' : cram_slice) (b : bam_seq_t) (i n : Nat)
    (h : process_one_read fd c s b i = some (c', s')) (hinv : mate_inv s i n) (hi : i < n) :
    mate_inv s' (i + 1) n
    ∧ ∀ ds v, mate_series ds = true →
        c'.stats ds v
          + Finset.sum (Finset.range i) (fun k => emitted ds v (mate_emissions (s.crecs k)))
        = c.stats ds v
          + Finset.sum (Finset.range (i + 1))
              (fun k => emitted ds v (mate_emissions (s'.crecs k))) := by
  unfold process_one_read at h
  split at h
  · simp at h
  rename_i c1 s1 hpre
  simp only [Option.some.injEq] at h
  obtain ⟨p1, p2, _, _, p5⟩ := por_pre_spec fd c c1 s s1 b i hpre
  obtain ⟨f1, f2, f3⟩ := hinv.fresh i (Nat.le_refl _) hi
  have hinv1 : mate_inv s1 i n := by
    refine ⟨?_, ?_, ?_, ?_⟩
    · intro k hk
      rw [p2 k (by omega)]
      exact hinv.added k hk
    · intro sec key j hj
      rw [p1] at hj
      obtain ⟨a, b'⟩ := hinv.table sec key j hj
      exact ⟨a, by rw [p2 j (by omega)]; exact b'⟩
    · intro sec sec' key key' j h1 h2
      rw [p1] at h1 h2
      exact hinv.inj sec sec' key key' j h1 h2
    · intro k hk hn
      by_cases hki : k = i
      · subst hki
        rw [p5, pre_cram_flags_bit _ _ _ _ (by decide) (by decide),
          pre_cram_flags_bit _ _ _ _ (by decide) (by decide),
          pre_cram_flags_bit _ _ _ _ (by decide) (by decide)]
        exact ⟨f1, f2, f3⟩
      · rw [p2 k hki]
        exact hinv.fresh k hk hn
  obtain ⟨r1, r2⟩ := por_mate_tail_step fd c1 s1 b i n hinv1 hi
  rw [h] at r1 r2
  refine ⟨r1, ?_⟩
  intro ds v hds
  have hsum : Finset.sum (Finset.range i) (fun k => emitted ds v (mate_emissions (s1.crecs k)))
      = Finset.sum (Finset.range i) (fun k => emitted ds v (mate_emissions (s.crecs k))) :=
    Finset.sum_congr rfl (fun k hk => by
      rw [p2 k (by have := Finset.mem_range.1 hk; omega)])
  rw [← hsum, r2 ds v hds, por_pre_stats_mate fd c c1 s s1 b i hpre ds v hds]

/-! ## The whole slice -/

/-- Over the record loop of a slice the mate invariant is kept and the mate
series follow what the slice encoder emits for the records processed. -/
theorem process_reads_mate (fd : cram_fd) (n : Nat) :
    ∀ (bs : List bam_seq_t) (r2 : Nat) (c c' : cram_container) (s s' : cram_slice),
      process_reads fd bs r2 c s = some (c', s') → mate_inv s r2 n → r2 + bs.length ≤ n →
      ∀ ds v, mate_series ds = true →
        c'.stats ds v
          + Finset.sum (Finset.range r2) (fun k => emitted ds v (mate_emissions (s.crecs k)))
        = c.stats ds v
          + Finset.sum (Finset.range (r2 + bs.length))
              (fun k => emitted ds v (mate_emissions (s'.crecs k))) := by
  intro bs
  induction bs with
  | nil =>
    intro r2 c c' s s' h _ _ ds v _
    simp only [process_reads, Option.some.injEq, Prod.mk.injEq] at h
    obtain ⟨rfl, rfl⟩ := h
    rfl
  | cons b bs ih =>
    intro r2 c c' s s' h hinv hn ds v hds
    simp only [process_reads] at h
    split at h
    · simp at h
    rename_i c1 hsw
    split at h
    · simp at h
    rename_i r hpor
    simp only [List.length_cons] at hn
    obtain ⟨hinv1, hst⟩ := process_one_read_mate_stats fd c1 r.1 s r.2 b r2 n hpor hinv (by omega)
    have h1 := hst ds v hds
    have h2 := ih (r2 + 1) r.1 c' r.2 s' h hinv1 (by omega) ds v hds
    rw [switch_ref_stats fd c c1 b hsw] at h1
    rw [List.length_cons, show r2 + (bs.length + 1) = r2 + 1 + bs.length by omega]
    omega

/-- The codec calls of the record loop of the slice encoder, per series, as a sum
over the records. -/
theorem encode_reads_emitted (fd : cram_fd) (c : cram_container) (s : cram_slice) :
    ∀ (n r : Nat) (lp : Int) (em : List emission), encode_reads fd c s n r lp = some em →
      ∀ ds v, geom_series ds = true ∨ mate_series ds = true →
        emitted ds v em
          = Finset.sum (Finset.range n) (fun k =>
              emitted ds v (geom_emissions fd s (s.crecs (r + k)))
                + emitted ds v (mate_emissions (s.crecs (r + k)))) := by
  intro n
  induction n with
  | zero =>
    intro r lp em h ds v _
    simp only [encode_reads, Option.some.injEq] at h
    subst h
    rfl
  | succ n ih =>
    intro r lp em h ds v hds
    simp only [encode_reads] at h
    split at h
    · simp at h
    rename_i em1 lp1 h1
    split at h
    · simp at h
    rename_i rest hrest
    simp only [Option.some.injEq] at h
    subst h
    rw [emitted_append, slice_read_emitted fd c s _ lp lp1 em1 h1 ds v hds,
      ih (r + 1) lp1 rest hrest ds v hds, Finset.sum_range_succ']
    have hsum : Finset.sum (Finset.range n) (fun k =>
          emitted ds v (geom_emissions fd s (s.crecs (r + (k + 1))))
            + emitted ds v (mate_emissions (s.crecs (r + (k + 1)))))
        = Finset.sum (Finset.range n) (fun k =>
          emitted ds v (geom_emissions fd s (s.crecs (r + 1 + k)))
            + emitted ds v (mate_emissions (s.crecs (r + 1 + k)))) :=
      Finset.sum_congr rfl (fun k _ => by rw [show r + (k + 1) = r + 1 + k by omega])
    rw [hsum]
    simp only [Nat.add_zero]
    omega

theorem clear_cram_flags_spec : ∀ (n r2 : Nat) (s : cram_slice),
    (clear_cram_flags n r2 s).pair = s.pair
    ∧ (∀ k, k < r2 → (clear_cram_flags n r2 s).crecs k = s.crecs k)
    ∧ ∀ k, r2 ≤ k → k < r2 + n → ((clear_cram_flags n r2 s).crecs k).cram_flags = 0 := by
  intro n
  induction n with
  | zero => intro r2 s; exact ⟨rfl, fun _ _ => rfl, fun k h1 h2 => by omega⟩
  | succ n ih =>
    intro r2 s
    simp only [clear_cram_flags]
    obtain ⟨a, b, c⟩ := ih (r2 + 1) (s.upd r2 (fun cr => { cr with cram_flags := 0 }))
    refine ⟨a, ?_, ?_⟩
    · intro k hk
      rw [b k (by omega)]
      exact upd_crecs_other s r2 k _ (by omega)
    · intro k h1 h2
      by_cases hk : k = r2
      · subst hk
        rw [b k (by omega), upd_crecs_same]
      · exact c k (by omega) (by omega)

theorem mark_names_spec (names : HashTable name_count) :
    ∀ (bs : List bam_seq_t) (r2 : Nat) (s : cram_slice),
      (mark_names names bs r2 s).pair = s.pair
      ∧ (∀ k, k < r2 → (mark_names names bs r2 s).crecs k = s.crecs k)
      ∧ ∀ k, r2 ≤ k → k < r2 + bs.length →
          ((mark_names names bs r2 s).crecs k).cram_flags = 0
          ∨ ((mark_names names bs r2 s).crecs k).cram_flags = CRAM_FLAG_DISCARD_NAME := by
  intro bs
  induction bs with
  | nil => intro r2 s; exact ⟨rfl, fun _ _ => rfl, fun k h1 h2 => by simp at h2; omega⟩
  | cons b bs ih =>
    intro r2 s
    simp only [mark_names, List.length_cons]
    obtain ⟨a, b', c⟩ := ih (r2 + 1) (s.upd r2 (fun cr => { cr with cram_flags := (if
      HashTableSearch names b.name = some ⟨-1, -1⟩ then CRAM_FLAG_DISCARD_NAME else 0) }))
    refine ⟨a, ?_, ?_⟩
    · intro k hk
      rw [b' k (by omega)]
      exact upd_crecs_other s r2 k _ (by omega)
    · intro k h1 h2
      by_cases hk : k = r2
      · subst hk
        rw [b' k (by omega), upd_crecs_same]
        dsimp only
        split
        · exact Or.inr rfl
        · exact Or.inl rfl
      · exact c k (by omega) (by omega)

/-- After `lossy_read_names` the pair tables are unchanged and every record of
the slice has `cram_flags` 0 or DISCARD_NAME. -/
theorem lossy_read_names_spec (fd : cram_fd) (s : cram_slice) (bams : List bam_seq_t) :
    (lossy_read_names fd s bams).pair = s.pair
    ∧ ∀ k, k < bams.length →
        ((lossy_read_names fd s bams).crecs k).cram_flags = 0
        ∨ ((lossy_read_names fd s bams).crecs k).cram_flags = CRAM_FLAG_DISCARD_NAME := by
  unfold lossy_read_names
  split
  · obtain ⟨a, _, c⟩ := clear_cram_flags_spec bams.length 0 s
    exact ⟨a, fun k hk => Or.inl (c k (Nat.zero_le _) (by omega))⟩
  · obtain ⟨a, _, c⟩ := mark_names_spec (count_names bams []) bams 0 s
    exact ⟨a, fun k hk => c k (Nat.zero_le _) (by omega)⟩

/-- The name pass writes only the name fields of the records and counts only RN. -/
theorem add_read_names_spec (fd : cram_fd) :
    ∀ (bams : List bam_seq_t) (r2 : Nat) (c : cram_container) (s : cram_slice),
      (add_read_names fd bams r2 c s).2.features = s.features
      ∧ (add_read_names fd bams r2 c s).2.seqs_blk = s.seqs_blk
      ∧ (∀ k, ∃ a b, (add_read_names fd bams r2 c s).2.crecs k
          = { s.crecs k with name := a, name_len := b })
      ∧ ∀ ds v, ds ≠ DS_RN → (add_read_names fd bams r2 c s).1.stats ds v = c.stats ds v := by
  intro bams
  induction bams with
  | nil => intro r2 c s; exact ⟨rfl, rfl, fun k => ⟨_, _, rfl⟩, fun _ _ _ => rfl⟩
  | cons b bs ih =>
    intro r2 c s
    simp only [add_read_names]
    obtain ⟨a1, a2, a3, a4⟩ := ih (r2 + 1)
      (c.add DS_RN (((add_read_name fd b r2 s).crecs r2).name_len : Int))
      (add_read_name fd b r2 s)
    have hone : (add_read_name fd b r2 s).features = s.features
        ∧ (add_read_name fd b r2 s).seqs_blk = s.seqs_blk
        ∧ ∀ k, ∃ a b', (add_read_name fd b r2 s).crecs k
            = { s.crecs k with name := a, name_len := b' } := by
      unfold add_read_name
      dsimp only
      split
      · refine ⟨rfl, rfl, fun k => ?_⟩
        by_cases hk : k = r2
        · subst hk
          refine ⟨s.name_blk.length, b.name.length, ?_⟩
          dsimp only
          rw [upd_crecs_same]
        · refine ⟨(s.crecs k).name, (s.crecs k).name_len, ?_⟩
          dsimp only
          rw [upd_crecs_other s r2 k _ hk]
      · refine ⟨rfl, rfl, fun k => ?_⟩
        by_cases hk : k = r2
        · subst hk
          refine ⟨s.name_blk.length, 0, ?_⟩
          rw [upd_crecs_same]
        · refine ⟨(s.crecs k).name, (s.crecs k).name_len, ?_⟩
          rw [upd_crecs_other s r2 k _ hk]
    refine ⟨a1.trans hone.1, a2.trans hone.2.1, ?_, ?_⟩
    · intro k
      obtain ⟨x, y, hxy⟩ := a3 k
      obtain ⟨x', y', hxy'⟩ := hone.2.2 k
      exact ⟨x, y, by rw [hxy, hxy']⟩
    · intro ds v hd
      rw [a4 ds v hd]
      exact container_add_other _ _ _ _ _ hd

theorem mate_emissions_geom (cr : cram_record) (ds : cram_DS_ID) (v : Int)
    (hds : geom_series ds = true) : emitted ds v (mate_emissions cr) = 0 := by
  have h1 : DS_MF ≠ ds := by rintro rfl; simp [geom_series] at hds
  have h2 : DS_NS ≠ ds := by rintro rfl; simp [geom_series] at hds
  have h3 : DS_NP ≠ ds := by rintro rfl; simp [geom_series] at hds
  have h4 : DS_TS ≠ ds := by rintro rfl; simp [geom_series] at hds
  have h5 : DS_NF ≠ ds := by rintro rfl; simp [geom_series] at hds
  unfold mate_emissions
  split
  · simp [emitted, h1, h2, h3, h4]
  · split
    · simp [emitted, h5]
    · rfl

theorem geom_emissions_mate (fd : cram_fd) (s : cram_slice) (cr : cram_record)
    (ds : cram_DS_ID) (v : Int) (hds : mate_series ds = true) :
    emitted ds v (geom_emissions fd s cr) = 0 := by
  have h1 : DS_BF ≠ ds := by rintro rfl; simp [mate_series] at hds
  have h2 : DS_RL ≠ ds := by rintro rfl; simp [mate_series] at hds
  have h3 : DS_RG ≠ ds := by rintro rfl; simp [mate_series] at hds
  have h4 : DS_FN ≠ ds := by rintro rfl; simp [mate_series] at hds
  unfold geom_emissions
  rw [emitted_append]
  have hhead : emitted ds v [(DS_BF, [((fd.cram_flag_swap (cr.flags &&& 4095) : Nat) : Int)]),
      (DS_RL, [(cr.len : Int)]), (DS_RG, [cr.rg])] = 0 := by
    simp [emitted, h1, h2, h3]
  rw [hhead]
  split
  · cases hE : encode_features s (record_features s cr) 0 with
    | none => simp [emitted, h4]
    | some em =>
      simp only [emitted, Option.getD_some, h4, if_false]
      rw [encode_features_no_mate s _ 0 em hE ds v hds]
      rfl
  · rfl

/-- The name fields of a record play no part in the codec calls compared here. -/
theorem emissions_of_renamed (fd : cram_fd) (s s' : cram_slice) (cr cr' : cram_record)
    (hf : s'.features = s.features) (hq : s'.seqs_blk = s.seqs_blk)
    (hc : ∃ a b, cr' = { cr with name := a, name_len := b }) :
    geom_emissions fd s' cr' = geom_emissions fd s cr
    ∧ mate_emissions cr' = mate_emissions cr := by
  obtain ⟨a, b, rfl⟩ := hc
  refine ⟨?_, rfl⟩
  unfold geom_emissions record_features
  dsimp only
  rw [hf, encode_features_congr s s' hq]

/-- C4 (as amended): for one slice of a container, starting with empty pair
tables, after `lossy_read_names`, `process_one_read` on every record (with every
mate demotion) and `add_read_names`, the histogram of each of the series BF, RL,
RG, FN, FC, FP, BS, DL, RS, PD, HC, MF, NS, NP, TS and NF has grown, for every
value, by exactly the number of times `cram_encode_slice_read` hands that value
to the codec of the series over all records of the slice. -/
theorem encode_slice_records_stats (fd : cram_fd) (c c' : cram_container)
    (s s' : cram_slice) (bams : List bam_seq_t) (lp : Int) (em : List emission)
    (h : encode_slice_records fd c s bams = some (c', s'))
    (hpair : ∀ sec key, HashTableSearch (s.pair sec) key = none)
    (hem : encode_reads fd c' s' bams.length 0 lp = some em)
    (ds : cram_DS_ID) (v : Int) (hds : geom_series ds = true ∨ mate_series ds = true) :
    c'.stats ds v = c.stats ds v + emitted ds v em := by
  unfold encode_slice_records at h
  split at h
  · simp at h
  rename_i r hpr
  simp only [Option.some.injEq, Prod.mk.injEq] at h
  obtain ⟨hc', hs'⟩ := h
  obtain ⟨lp1, lflags⟩ := lossy_read_names_spec fd s bams
  obtain ⟨n1, n2, n3, n4⟩ := add_read_names_spec fd bams 0 r.1 r.2
  have hRN : ds ≠ DS_RN := by
    rintro rfl
    rcases hds with hds | hds
    · simp [geom_series] at hds
    · simp [mate_series] at hds
  have hstat : c'.stats ds v = r.1.stats ds v := by
    rw [← hc']; exact n4 ds v hRN
  have hrec : ∀ k, geom_emissions fd s' (s'.crecs k) = geom_emissions fd r.2 (r.2.crecs k)
      ∧ mate_emissions (s'.crecs k) = mate_emissions (r.2.crecs k) := by
    intro k
    rw [← hs']
    exact emissions_of_renamed fd r.2 _ (r.2.crecs k) _ n1 n2 (n3 k)
  rw [encode_reads_emitted fd c' s' bams.length 0 lp em hem ds v hds, hstat]
  have hsum : Finset.sum (Finset.range bams.length) (fun k =>
        emitted ds v (geom_emissions fd s' (s'.crecs (0 + k)))
          + emitted ds v (mate_emissions (s'.crecs (0 + k))))
      = Finset.sum (Finset.range bams.length) (fun k =>
          emitted ds v (geom_emissions fd r.2 (r.2.crecs k)))
        + Finset.sum (Finset.range bams.length) (fun k =>
          emitted ds v (mate_emissions (r.2.crecs k))) := by
    rw [← Finset.sum_add_distrib]
    exact Finset.sum_congr rfl (fun k _ => by rw [Nat.zero_add, (hrec k).1, (hrec k).2])
  rw [hsum]
  rcases hds with hds | hds
  · obtain ⟨g1, _⟩ := process_reads_geom fd bams 0 c r.1 (lossy_read_names fd s bams) r.2 hpr
      (fun k hk => by omega)
    rw [g1 ds v hds]
    have hz : Finset.sum (Finset.range bams.length) (fun k =>
        emitted ds v (mate_emissions (r.2.crecs k))) = 0 :=
      Finset.sum_eq_zero (fun k _ => mate_emissions_geom _ ds v hds)
    rw [hz]
    simp only [Nat.zero_add]
    omega
  · have hinv : mate_inv (lossy_read_names fd s bams) 0 bams.length := by
      refine ⟨fun k hk => by omega, ?_, ?_, ?_⟩
      · intro sec key j hj
        rw [lp1, hpair] at hj
        cases hj
      · intro sec sec' key key' j hj
        rw [lp1, hpair] at hj
        cases hj
      · intro k _ hk
        rcases lflags k hk with hx | hx <;> rw [hx] <;> exact ⟨by decide, by decide, by decide⟩
    have m1 := process_reads_mate fd bams.length bams 0 c r.1 (lossy_read_names fd s bams) r.2
      hpr hinv (by omega) ds v hds
    have hz : Finset.sum (Finset.range bams.length) (fun k =>
        emitted ds v (geom_emissions fd r.2 (r.2.crecs k))) = 0 :=
      Finset.sum_eq_zero (fun k _ => geom_emissions_mate fd _ _ ds v hds)
    rw [hz]
    simp only [Finset.range_zero, Finset.sum_empty, Nat.zero_add] at m1
    omega

theorem option_some_getD {α : Type} (o : Option α) (d : α) (h : o.isSome = true) :
    o = some (o.getD d) := by
  cases o with
  | none => simp at h
  | some x => rfl

/-- C4 (counterexample): a slice that holds one mapped read on reference 0. The
record loop counts the reference id 0 once in the DS_RI histogram, and
`cram_encode_slice_read` hands nothing to the RI codec, because the slice is
not a multi-reference slice (`ref_seq_id` is not -2). -/
theorem encode_slice_records_RI_not_emitted :
    (encode_slice_records fd_v3 (container_new ref32) (slice_new 1) [bam_single]).isSome = true
    ∧ (container_new ref32).stats DS_RI 0 = 0
    ∧ state_slice_single.1.stats DS_RI 0 = 1
    ∧ state_slice_single.2.ref_seq_id = 0
    ∧ (encode_reads fd_v3 state_slice_single.1 state_slice_single.2 1 0 1).map
        (emitted DS_RI 0) = some 0 := by
  decide

theorem encode_slice_records_stats_witness :
    state_slice_pair.1.stats DS_NF 0
      = (container_new ref32).stats DS_NF 0 + emitted DS_NF 0 emissions_slice_pair :=
  encode_slice_records_stats fd_v3 (container_new ref32) state_slice_pair.1 (slice_new 1)
    state_slice_pair.2 [bam_pair1, bam_pair2] 1 emissions_slice_pair
    (option_getD_eq _ _ (by decide)) (fun _ _ => rfl) (option_some_getD _ _ (by decide))
    DS_NF 0 (Or.inr rfl)

/-! ## Integer tags are stored in the smallest width that keeps the value -/

theorem nat_or_eq_zero (x y : Nat) : (x ||| y) = 0 ↔ x = 0 ∧ y = 0 := by
  constructor
  · intro h
    have hb : ∀ i, (x.testBit i || y.testBit i) = false := by
      intro i
      rw [← Nat.testBit_or, h, Nat.zero_testBit]
    constructor
    · apply Nat.eq_of_testBit_eq
      intro i
      have := hb i
      rw [Nat.zero_testBit]
      simp only [Bool.or_eq_false_iff] at this
      exact this.1
    · apply Nat.eq_of_testBit_eq
      intro i
      have := hb i
      rw [Nat.zero_testBit]
      simp only [Bool.or_eq_false_iff] at this
      exact this.2
  · rintro ⟨rfl, rfl⟩
    rfl

theorem nat_and_eq_255 (x y : Nat) (hx : x < 256) (hy : y < 256) :
    (x &&& y) = 255 ↔ x = 255 ∧ y = 255 := by
  constructor
  · intro h
    have h1 : x &&& y ≤ x := Nat.and_le_left
    have h2 : x &&& y ≤ y := Nat.and_le_right
    omega
  · rintro ⟨rfl, rfl⟩
    rfl

set_option maxRecDepth 100000 in

theorem nat_and_128 : ∀ x : Fin 256, ((x.val &&& 128) ≠ 0 ↔ 128 ≤ x.val) := by decide

theorem nat_and_128_byte (x : Nat) (hx : x < 256) : (x &&& 128) ≠ 0 ↔ 128 ≤ x :=
  nat_and_128 ⟨x, hx⟩

theorem char_codes : 'c'.toNat = 99 ∧ 'C'.toNat = 67 ∧ 's'.toNat = 115 ∧ 'S'.toNat = 83 ∧
    'i'.toNat = 105 ∧ 'I'.toNat = 73 ∧ 'f'.toNat = 102 ∧ 'A'.toNat = 65 ∧ 'd'.toNat = 100 ∧
    'Z'.toNat = 90 ∧ 'H'.toNat = 72 ∧ 'B'.toNat = 66 :=
  ⟨rfl, rfl, rfl, rfl, rfl, rfl, rfl, rfl, rfl, rfl, rfl, rfl⟩

theorem aux_type_width_cases (t : Nat) (h : aux_type_width t ≠ 0) :
    t = 99 ∨ t = 67 ∨ t = 115 ∨ t = 83 ∨ t = 105 ∨ t = 73 := by
  obtain ⟨e1, e2, e3, e4, e5, e6, -⟩ := char_codes
  unfold aux_type_width at h
  rw [e1, e2, e3, e4, e5, e6] at h
  by_contra hc
  simp only [not_or] at hc
  obtain ⟨h1, h2, h3, h4, h5, h6⟩ := hc
  simp [h1, h2, h3, h4, h5, h6] at h

theorem nat_or3_eq_zero (x y z : Nat) : (x ||| y ||| z) = 0 ↔ x = 0 ∧ y = 0 ∧ z = 0 := by
  rw [nat_or_eq_zero, nat_or_eq_zero, and_assoc]

theorem nat_and3_eq_255 (x y z : Nat) (hx : x < 256) (hy : y < 256) (hz : z < 256) :
    (x &&& y &&& z) = 255 ↔ x = 255 ∧ y = 255 ∧ z = 255 := by
  have hxy : x &&& y < 256 := Nat.lt_of_le_of_lt Nat.and_le_left hx
  rw [nat_and_eq_255 _ _ hxy hz, nat_and_eq_255 _ _ hx hy, and_assoc]

theorem aux_int_value_C (x : Nat) (xs : List Nat) : aux_int_value 67 (x :: xs) = (x : Int) := by
  simp [aux_int_value, aux_type_width, le_nat]

theorem aux_int_value_c (x : Nat) (xs : List Nat) :
    aux_int_value 99 (x :: xs) = if 128 ≤ x then (x : Int) - 256 else (x : Int) := by
  simp [aux_int_value, aux_type_width, le_nat]

theorem aux_int_value_S (x y : Nat) (xs : List Nat) :
    aux_int_value 83 (x :: y :: xs) = ((x + 256 * y : Nat) : Int) := by
  simp [aux_int_value, aux_type_width, le_nat]

theorem aux_int_value_s (x y : Nat) (xs : List Nat) :
    aux_int_value 115 (x :: y :: xs)
      = if 32768 ≤ x + 256 * y then ((x + 256 * y : Nat) : Int) - 65536
        else ((x + 256 * y : Nat) : Int) := by
  simp [aux_int_value, aux_type_width, le_nat]

theorem aux_int_value_I (x y z w : Nat) (xs : List Nat) :
    aux_int_value 73 (x :: y :: z :: w :: xs)
      = ((x + 256 * (y + 256 * (z + 256 * w)) : Nat) : Int) := by
  simp [aux_int_value, aux_type_width, le_nat]

theorem aux_int_value_i (x y z w : Nat) (xs : List Nat) :
    aux_int_value 105 (x :: y :: z :: w :: xs)
      = if 2147483648 ≤ x + 256 * (y + 256 * (z + 256 * w)) then
          ((x + 256 * (y + 256 * (z + 256 * w)) : Nat) : Int) - 4294967296
        else ((x + 256 * (y + 256 * (z + 256 * w)) : Nat) : Int) := by
  simp [aux_int_value, aux_type_width, le_nat]

theorem aux_type_width_vals : aux_type_width 67 = 1 ∧ aux_type_width 99 = 1 ∧
    aux_type_width 83 = 2 ∧ aux_type_width 115 = 2 ∧ aux_type_width 73 = 4 ∧
    aux_type_width 105 = 4 :=
  ⟨rfl, rfl, rfl, rfl, rfl, rfl⟩

theorem aux_shrink_int (fd : cram_fd) (a : List Nat) (i : Nat)
    (hsz : fd.preserve_aux_size = false)
    (hty : aux_type_width (byte_at a (i + 2)) ≠ 0) (hb : ∀ k, byte_at a k < 256) :
    ∃ bytes v,
      bytes = (if byte_at a (i + 2) = 'C'.toNat ∨ byte_at a (i + 2) = 'c'.toNat then
          [byte_at a (i + 3)]
        else bytes_from a (i + 3) (aux_shrink fd a i).2) ∧
      v = aux_int_value (byte_at a (i + 2)) (bytes_from a (i + 3) 4) ∧
      aux_int_value (aux_shrink fd a i).1 bytes = v ∧
      bytes.length = min_int_width v ∧
      aux_type_width (aux_shrink fd a i).1 = bytes.length := by
  refine ⟨_, _, rfl, rfl, ?_⟩
  have h3 := hb (i + 3)
  have h4 := hb (i + 4)
  have h5 := hb (i + 5)
  have h6 := hb (i + 6)
  have hbf4 : bytes_from a (i + 3) 4
      = [byte_at a (i + 3), byte_at a (i + 4), byte_at a (i + 5), byte_at a (i + 6)] := rfl
  have hbf2 : bytes_from a (i + 3) 2 = [byte_at a (i + 3), byte_at a (i + 4)] := rfl
  have hbf1 : bytes_from a (i + 3) 1 = [byte_at a (i + 3)] := rfl
  have hbf0 : bytes_from a (i + 3) 0 = [] := rfl
  rw [hbf4]
  unfold aux_shrink
  simp only [hsz]
  obtain ⟨e1, e2, e3, e4, e5, e6, e7, -⟩ := char_codes
  obtain ⟨w1, w2, w3, w4, w5, w6⟩ := aux_type_width_vals
  rw [e1, e2, e3, e4, e5, e6, e7]
  generalize byte_at a (i + 3) = a3 at *
  generalize byte_at a (i + 4) = a4 at *
  generalize byte_at a (i + 5) = a5 at *
  generalize byte_at a (i + 6) = a6 at *
  have k3 := nat_and_128_byte a3 h3
  have k4 := nat_and_128_byte a4 h4
  rcases aux_type_width_cases _ hty with h | h | h | h | h | h <;> rw [h] <;>
    simp [nat_or3_eq_zero, nat_or_eq_zero, nat_and3_eq_255 _ _ _ h4 h5 h6,
      nat_and_eq_255 _ _ h5 h6, k3, k4] <;>
    (try split_ifs) <;>
    simp only [hbf1, hbf2, hbf4, aux_int_value_C, aux_int_value_c, aux_int_value_S,
      aux_int_value_s, aux_int_value_I, aux_int_value_i, w1, w2, w3, w4, w5, w6,
      min_int_width, List.length_cons, List.length_nil] <;>
    (refine ⟨?_, ?_, ?_⟩ <;> (try split_ifs) <;> first | trivial | omega)

theorem HashTableSearch_add_set {β : Type} (t : HashTable β) (key : List Nat) (d e : β) :
    HashTableSearch (HashTableSet (HashTableSet (HashTableAdd t key d).1 key d) key e) key
      = some e := by
  have h1 : ∃ x, HashTableSearch (HashTableAdd t key d).1 key = some x := by
    cases h : HashTableSearch t key with
    | some v => rw [HashTableAdd_found t key d v h]; exact ⟨v, h⟩
    | none => rw [HashTableAdd_new t key d h]; exact ⟨d, HashTableSearch_append_new t key d h⟩
  obtain ⟨x, hx⟩ := h1
  exact HashTableSearch_set_same _ key e d (HashTableSearch_set_same _ key d x hx)

theorem tag_blk_append_data (st c2 : aux_state) (k3 bytes : List Nat) (tm : cram_tag_map)
    (blk : cram_block)
    (h1 : c2.tags_used = HashTableSet (HashTableAdd st.tags_used k3 tm).1 k3 tm)
    (hd : blk.data = tag_blk_data st k3) :
    tag_blk_data (tag_blk_append c2 k3 tm blk bytes) k3 = tag_blk_data st k3 ++ bytes := by
  unfold tag_blk_append
  rw [← hd]
  unfold tag_blk_data
  dsimp only
  rw [h1, HashTableSearch_add_set]

/-- C11: without `preserve_aux_size`, an integer tag (type `c`, `C`, `s`, `S`, `i`, `I`)
whose map is usable is stored successfully; the TD block gains the key and the
stored type, the block of the tag gains bytes that decode (little-endian, signed
for `c`/`s`/`i`) to the value of the tag, and the number of those bytes is the width of
the stored type and the smallest of 1, 2, 4 in which the value fits signed or unsigned. -/
theorem aux_store_tag_int_shrink (fd : cram_fd) (a : List Nat) (i : Nat) (st : aux_state)
    (hsz : fd.preserve_aux_size = false)
    (hty : aux_type_width (byte_at a (i + 2)) ≠ 0)
    (hb : ∀ x ∈ a, x < 256)
    (hm : ∀ m, HashTableSearch st.tags_used
        [byte_at a i, byte_at a (i + 1), (aux_shrink fd a i).1] = some m →
      m.blk.isSome = true ∨ m.codec.isSome = true) :
    ∃ next st' bytes v,
      aux_store_tag fd a i st = aux_ret.ok (next, st') ∧
      st'.TD_blk = st.TD_blk ++ [byte_at a i, byte_at a (i + 1), (aux_shrink fd a i).1] ∧
      tag_blk_data st' [byte_at a i, byte_at a (i + 1), (aux_shrink fd a i).1]
        = tag_blk_data st [byte_at a i, byte_at a (i + 1), (aux_shrink fd a i).1] ++ bytes ∧
      v = aux_int_value (byte_at a (i + 2)) (bytes_from a (i + 3) 4) ∧
      aux_int_value (aux_shrink fd a i).1 bytes = v ∧
      bytes.length = min_int_width v ∧
      aux_type_width (aux_shrink fd a i).1 = bytes.length := by
  have hbyte : ∀ k, byte_at a k < 256 := by
    intro k
    unfold byte_at
    rw [List.getD_eq_getElem?_getD]
    cases hk : a[k]? with
    | none => simp
    | some x => simpa using hb x (List.getElem?_mem hk)
  obtain ⟨bytes, v, hbytes, hv, p1, p2, p3⟩ := aux_shrink_int fd a i hsz hty hbyte
  obtain ⟨e1, e2, e3, e4, e5, e6, e7, e8, -⟩ := char_codes
  obtain ⟨w1, w2, w3, w4, w5, w6⟩ := aux_type_width_vals
  unfold aux_store_tag
  dsimp only
  generalize hk3 : [byte_at a i, byte_at a (i + 1), (aux_shrink fd a i).1] = k3 at *
  generalize hkey : (byte_at a i <<< 16 ||| byte_at a (i + 1) <<< 8 ||| (aux_shrink fd a i).1)
    = key at *
  simp only [e1, e2, e3, e4, e5, e6, e7, e8] at hbytes ⊢
  have hw : aux_type_width (aux_shrink fd a i).1 ≠ 0 := by
    rw [p3, p2]
    unfold min_int_width
    split_ifs <;> decide
  have hcodec : (aux_new_codec (aux_shrink fd a i).1 key).isNone = false := by
    unfold aux_new_codec
    rw [e1, e2, e3, e4, e5, e6, e7, e8]
    rcases aux_type_width_cases _ hw with h | h | h | h | h | h <;> rw [h] <;> rfl
  have hdata : ∀ blk0 : cram_block, blk0.data = [] →
      (((HashTableSearch st.tags_used k3).getD
        { codec := aux_new_codec (aux_shrink fd a i).1 key, blk := none }).blk.getD blk0).data
        = tag_blk_data st k3 := by
    intro blk0 h0
    unfold tag_blk_data
    cases HashTableSearch st.tags_used k3 with
    | none => exact h0
    | some m =>
      dsimp only [Option.getD]
      cases m.blk with
      | none => exact h0
      | some blk => rfl
  cases hl : HashTableSearch st.tags_used k3 with
  | some m =>
    rw [hl] at hdata
    have hnc : ¬ (m.blk.isNone = true ∧ m.codec.isNone = true) := by
      intro hc
      simp only [Option.isNone_iff_eq_none] at hc
      rcases hm m hl with h1 | h1
      · rw [hc.1] at h1
        exact absurd h1 (by decide)
      · rw [hc.2] at h1
        exact absurd h1 (by decide)
    dsimp only
    rcases aux_type_width_cases _ hty with h | h | h | h | h | h
    all_goals rw [h] at hbytes hv ⊢
    all_goals simp only [Nat.reduceEqDiff, or_true, or_false, false_or, true_or, if_true,
      if_false] at hbytes ⊢
    all_goals rw [if_neg hnc]
    all_goals refine ⟨_, _, bytes, v, rfl, rfl, ?_, hv, p1, p2, p3⟩
    all_goals rw [hbytes]
    all_goals exact tag_blk_append_data st _ k3 _ _ _ rfl (hdata _ rfl)
  | none =>
    rw [hl] at hdata
    dsimp only
    rcases aux_type_width_cases _ hty with h | h | h | h | h | h
    all_goals rw [h] at hbytes hv ⊢
    all_goals simp only [Nat.reduceEqDiff, or_true, or_false, false_or, true_or, if_true,
      if_false, hcodec, Option.isNone_none, and_false, Bool.false_eq_true] at hbytes ⊢
    all_goals refine ⟨_, _, bytes, v, rfl, rfl, ?_, hv, p1, p2, p3⟩
    all_goals rw [hbytes]
    all_goals exact tag_blk_append_data st _ k3 _ _ _ rfl (hdata _ rfl)

theorem aux_store_tag_int_shrink_witness :
    ∃ next st' bytes v,
      aux_store_tag fd_v3 tag_XI5 0 (container_new []).aux = aux_ret.ok (next, st') ∧
      st'.TD_blk = (container_new []).aux.TD_blk
        ++ [byte_at tag_XI5 0, byte_at tag_XI5 (0 + 1), (aux_shrink fd_v3 tag_XI5 0).1] ∧
      tag_blk_data st' [byte_at tag_XI5 0, byte_at tag_XI5 (0 + 1), (aux_shrink fd_v3 tag_XI5 0).1]
        = tag_blk_data (container_new []).aux
            [byte_at tag_XI5 0, byte_at tag_XI5 (0 + 1), (aux_shrink fd_v3 tag_XI5 0).1] ++ bytes ∧
      v = aux_int_value (byte_at tag_XI5 (0 + 2)) (bytes_from tag_XI5 (0 + 3) 4) ∧
      aux_int_value (aux_shrink fd_v3 tag_XI5 0).1 bytes = v ∧
      bytes.length = min_int_width v ∧
      aux_type_width (aux_shrink fd_v3 tag_XI5 0).1 = bytes.length :=
  aux_store_tag_int_shrink fd_v3 tag_XI5 0 (container_new []).aux rfl (by decide) (by decide)
    (fun _ h => nomatch h)

/-- The tag `XI:i:5` on a fresh container: the TD block receives `X`, `I`, `C`, the
block of the tag the single byte 5, and the next tag starts at offset 7. -/
theorem aux_store_tag_XI5 :
    (match aux_store_tag fd_v3 tag_XI5 0 (container_new []).aux with
      | aux_ret.ok (next, st') =>
        decide (next = 7 ∧ st'.TD_blk = ascii "XIC" ∧ tag_blk_data st' (ascii "XIC") = [5])
      | _ => false) = true := by
  decide

/-! ## The tag dictionary: TL against the TD entries -/

theorem aux_store_tag_TD (fd : cram_fd) (a : List Nat) (i next : Nat) (st st' : aux_state)
    (h : aux_store_tag fd a i st = aux_ret.ok (next, st')) :
    st'.TD_blk = st.TD_blk ++ [byte_at a i, byte_at a (i + 1), (aux_shrink fd a i).1] ∧
    st'.TD = st.TD ∧ st'.nTL = st.nTL := by
  unfold aux_store_tag at h
  dsimp only at h
  generalize HashTableSearch st.tags_used
    [byte_at a i, byte_at a (i + 1), (aux_shrink fd a i).1] = o at h
  generalize (byte_at a i <<< 16 ||| byte_at a (i + 1) <<< 8 ||| (aux_shrink fd a i).1)
    = key at h
  have fin : ∀ (n : Nat) (c : aux_state) (k3 : List Nat) (tm : cram_tag_map) (blk : cram_block)
      (bytes : List Nat), aux_ret.ok (n, tag_blk_append c k3 tm blk bytes) = aux_ret.ok (next, st') →
      st'.TD_blk = c.TD_blk ∧ st'.TD = c.TD ∧ st'.nTL = c.nTL := by
    intro n c k3 tm blk bytes hh
    simp only [aux_ret.ok.injEq, Prod.mk.injEq] at hh
    obtain ⟨-, rfl⟩ := hh
    exact ⟨rfl, rfl, rfl⟩
  repeat' split at h
  all_goals first
    | exact fin _ _ _ _ _ _ h
    | exact aux_ret.noConfusion h

theorem aux_loop_TD (fd : cram_fd) (a : List Nat) (len flags : Nat) :
    ∀ (n i : Nat) (rg rg' : Option (List Nat)) (st st' : aux_state),
      aux_loop fd a len flags n i rg st = aux_ret.ok (rg', st') →
      (∃ tr, st'.TD_blk = st.TD_blk ++ tr) ∧ st'.TD = st.TD ∧ st'.nTL = st.nTL := by
  intro n
  induction n with
  | zero =>
    intro i rg rg' st st' h
    rw [aux_loop] at h
    simp only [aux_ret.ok.injEq, Prod.mk.injEq] at h
    obtain ⟨-, rfl⟩ := h
    exact ⟨⟨[], (List.append_nil _).symm⟩, rfl, rfl⟩
  | succ n ih =>
    intro i rg rg' st st' h
    rw [aux_loop] at h
    dsimp only at h
    repeat' split at h
    all_goals first
      | exact ih _ _ _ _ _ h
      | exact aux_ret.noConfusion h
      | (simp only [aux_ret.ok.injEq, Prod.mk.injEq] at h
         obtain ⟨-, rfl⟩ := h
         exact ⟨⟨[], (List.append_nil _).symm⟩, rfl, rfl⟩)
      | skip
    rename_i hst
    obtain ⟨h1, h2, h3⟩ := aux_store_tag_TD fd a i _ st _ hst
    obtain ⟨⟨t2, k1⟩, k2, k3⟩ := ih _ _ _ _ _ h
    refine ⟨⟨[byte_at a i, byte_at a (i + 1), (aux_shrink fd a i).1] ++ t2, ?_⟩,
      k2.trans h2, k3.trans h3⟩
    rw [k1, h1, List.append_assoc]

theorem td_inv_add (st : aux_state) (e : List Nat) (hinv : td_inv st)
    (hnew : HashTableSearch st.TD e = none) (tdb : List Nat) :
    td_inv { st with TD_blk := tdb, TD := st.TD ++ [(e, st.nTL)], nTL := st.nTL + 1 } := by
  obtain ⟨hlt, hinj⟩ := hinv
  have key : ∀ k v, HashTableSearch (st.TD ++ [(e, st.nTL)]) k = some v →
      (k = e ∧ v = st.nTL) ∨ (k ≠ e ∧ HashTableSearch st.TD k = some v) := by
    intro k v h
    by_cases hk : k = e
    · left
      rw [hk, HashTableSearch_append_new _ _ _ hnew] at h
      exact ⟨hk, (Option.some.inj h).symm⟩
    · right
      rw [HashTableSearch_append_other _ _ _ _ hk] at h
      exact ⟨hk, h⟩
  constructor
  · intro k v h
    dsimp only at h ⊢
    rcases key k v h with ⟨-, rfl⟩ | ⟨-, h1⟩
    · omega
    · have := hlt k v h1
      omega
  · intro k1 k2 v h1 h2
    dsimp only at h1 h2
    rcases key k1 v h1 with ⟨e1, v1⟩ | ⟨-, g1⟩ <;> rcases key k2 v h2 with ⟨e2, v2⟩ | ⟨-, g2⟩
    · rw [e1, e2]
    · have := hlt k2 v g2
      omega
    · have := hlt k1 v g1
      omega
    · exact hinj k1 k2 v g1 g2

theorem cram_encode_aux_TD (fd : cram_fd) (b : bam_seq_t) (len flags : Nat)
    (st st2 : aux_state) (rg : Option (List Nat)) (TL : Int) (hinv : td_inv st)
    (h : cram_encode_aux fd b len flags st = aux_ret.ok (rg, TL, st2)) :
    td_inv st2 ∧
    HashTableSearch st2.TD (aux_td_entry fd b len flags st ++ [0]) = some TL ∧
    (∀ k v, HashTableSearch st.TD k = some v → HashTableSearch st2.TD k = some v) := by
  unfold cram_encode_aux at h
  unfold aux_td_entry
  cases hl : aux_loop fd b.aux len flags (b.aux.length + 1) 0 none st with
  | crash => rw [hl] at h; exact aux_ret.noConfusion h
  | fail c1 => rw [hl] at h; exact aux_ret.noConfusion h
  | ok r =>
    obtain ⟨rg1, c1⟩ := r
    rw [hl] at h
    dsimp only at h ⊢
    obtain ⟨⟨tr, h1⟩, h2, h3⟩ := aux_loop_TD fd b.aux len flags _ _ _ _ _ _ hl
    have hd : (c1.TD_blk ++ [0]).drop st.TD_blk.length = tr ++ [0] := by
      rw [h1, List.append_assoc, List.drop_left]
    have hd2 : c1.TD_blk.drop st.TD_blk.length = tr := by
      rw [h1, List.drop_left]
    rw [hd, h2, h3] at h
    rw [hd2]
    simp only [aux_ret.ok.injEq, Prod.mk.injEq] at h
    obtain ⟨-, hTL, hst⟩ := h
    cases hs : HashTableSearch st.TD (tr ++ [0]) with
    | some v =>
      rw [HashTableAdd_found _ _ _ v hs] at hTL hst
      simp only [Bool.false_eq_true, if_false] at hTL hst
      rw [hs] at hTL
      subst hst
      subst hTL
      refine ⟨?_, hs, fun k v h => h⟩
      exact ⟨fun k v h => hinv.1 k v h, hinv.2⟩
    | none =>
      rw [HashTableAdd_new _ _ _ hs] at hTL hst
      simp only [if_true] at hTL hst
      rw [HashTableSearch_append_new _ _ _ hs] at hTL
      subst hst
      subst hTL
      refine ⟨?_, HashTableSearch_append_new _ _ _ hs, ?_⟩
      · have := td_inv_add st (tr ++ [0]) hinv hs (c1.TD_blk ++ [0])
        unfold td_inv at this ⊢
        exact this
      · intro k v hk
        exact HashTableSearch_append_found _ _ _ _ _ hk

theorem encode_aux_records_TD (fd : cram_fd) :
    ∀ (bams : List bam_seq_t) (st : aux_state) (res : List (Int × List Nat)),
      td_inv st → encode_aux_records fd bams st = some res →
      ∃ TDf : HashTable Int,
        (∀ k1 k2 v, HashTableSearch TDf k1 = some v → HashTableSearch TDf k2 = some v → k1 = k2) ∧
        (∀ k v, HashTableSearch st.TD k = some v → HashTableSearch TDf k = some v) ∧
        ∀ p ∈ res, HashTableSearch TDf (p.2 ++ [0]) = some p.1 := by
  intro bams
  induction bams with
  | nil =>
    intro st res hinv h
    rw [encode_aux_records] at h
    rw [← Option.some.inj h]
    exact ⟨st.TD, hinv.2, fun k v hk => hk, fun p hp => absurd hp (List.not_mem_nil p)⟩
  | cons b bs ih =>
    intro st res hinv h
    rw [encode_aux_records] at h
    cases hc : cram_encode_aux fd b b.len b.flag st with
    | crash => rw [hc] at h; exact Option.noConfusion h
    | fail c1 => rw [hc] at h; exact Option.noConfusion h
    | ok r =>
      obtain ⟨rg, TL, st1⟩ := r
      rw [hc] at h
      dsimp only at h
      obtain ⟨hinv1, hent, hpers⟩ := cram_encode_aux_TD fd b b.len b.flag st st1 rg TL hinv hc
      cases hr : encode_aux_records fd bs st1 with
      | none => rw [hr] at h; exact Option.noConfusion h
      | some rest =>
        rw [hr] at h
        dsimp only at h
        obtain ⟨TDf, hinj, hp1, hall⟩ := ih st1 rest hinv1 hr
        refine ⟨TDf, hinj, fun k v hk => hp1 k v (hpers k v hk), ?_⟩
        intro p hp
        rw [← Option.some.inj h] at hp
        rcases List.mem_cons.mp hp with rfl | hp
        · exact hp1 _ _ hent
        · exact hall p hp

/-- C13: over the successive calls of `cram_encode_aux` for the records of one
container, starting from a consistent TD hash (the empty one of a new container
is), two records are assigned the same `TL` exactly when the byte sequences they
emit to the TD block (three bytes per stored tag, in tag order) are identical. -/
theorem encode_aux_records_TL_iff (fd : cram_fd) (bams : List bam_seq_t) (st : aux_state)
    (res : List (Int × List Nat)) (hinv : td_inv st)
    (h : encode_aux_records fd bams st = some res) :
    res.length = bams.length ∧ ∀ p ∈ res, ∀ q ∈ res, (p.1 = q.1 ↔ p.2 = q.2) := by
  obtain ⟨TDf, hinj, -, hall⟩ := encode_aux_records_TD fd bams st res hinv h
  constructor
  · clear hall hinj hinv
    induction bams generalizing st res with
    | nil =>
      rw [encode_aux_records] at h
      rw [← Option.some.inj h]
      rfl
    | cons b bs ih =>
      rw [encode_aux_records] at h
      repeat' split at h
      all_goals first
        | exact Option.noConfusion h
        | skip
      rename_i hr
      rw [← Option.some.inj h, List.length_cons, List.length_cons, ih _ _ hr]
  · intro p hp q hq
    constructor
    · intro e
      have h1 := hall p hp
      have h2 := hall q hq
      rw [e] at h1
      exact List.append_cancel_right (hinj _ _ _ h1 h2)
    · intro e
      have h1 := hall p hp
      have h2 := hall q hq
      rw [e, h2] at h1
      exact (Option.some.inj h1).symm

theorem td_inv_new (ref : List Nat) : td_inv (container_new ref).aux :=
  ⟨fun _ _ h => (nomatch h), fun _ _ _ h _ => (nomatch h)⟩

theorem encode_aux_records_TL_iff_witness :
    [((0 : Int), ascii "XACXBC"), (1, ascii "XBCXAC"), (0, ascii "XACXBC")].length
        = [bam_tags_AB, bam_tags_BA, bam_tags_AB].length ∧
      ∀ p ∈ [((0 : Int), ascii "XACXBC"), (1, ascii "XBCXAC"), (0, ascii "XACXBC")],
      ∀ q ∈ [((0 : Int), ascii "XACXBC"), (1, ascii "XBCXAC"), (0, ascii "XACXBC")],
        (p.1 = q.1 ↔ p.2 = q.2) :=
  encode_aux_records_TL_iff fd_v3 [bam_tags_AB, bam_tags_BA, bam_tags_AB] (container_new []).aux
    [(0, ascii "XACXBC"), (1, ascii "XBCXAC"), (0, ascii "XACXBC")] (td_inv_new [])
    (by decide)

/-- C12 (the code at the failing input): no codec is built for the type byte `d`;
on a new container the call of `cram_encode_aux` for a record with the tag
`XD:d:1.0` dereferences the `NULL` codec, nothing is appended, and
`process_one_read` does not return a record. -/
theorem cram_encode_aux_d_crash :
    (∀ key, aux_new_codec 'd'.toNat key = none) ∧
    (match cram_encode_aux fd_v3 bam_tag_d 4 0 (container_new ref8).aux with
      | aux_ret.crash => true
      | _ => false) = true ∧
    (process_one_read fd_v3 (container_new ref8) (slice_new 1) bam_tag_d 0).isNone = true := by
  refine ⟨fun _ => rfl, by decide, by decide⟩

/-- C14 (the code at the failing input): the records `XA:C:1 XB:C:2` and
`XB:C:2 XA:C:1` of one new container carry the same set of triples, yet the TD
entries are kept in tag order and the records get the `TL` values 0 and 1. -/
theorem encode_aux_records_order :
    encode_aux_records fd_v3 [bam_tags_AB, bam_tags_BA] (container_new []).aux
      = some [(0, ascii "XACXBC"), (1, ascii "XBCXAC")] := by
  decide

/-! ## The order of the codec calls for one record -/

theorem encode_features_order (s : cram_slice) :
    ∀ (fs : List cram_feature) (prev : Int) (fe : List emission),
      encode_features s fs prev = some fe →
      fe.map Prod.fst
        = fs.flatMap (fun f => [DS_FC, DS_FP] ++ ((feature_payload s f).getD []).map Prod.fst) := by
  intro fs
  induction fs with
  | nil =>
    intro prev fe h
    rw [encode_features] at h
    rw [← Option.some.inj h]
    rfl
  | cons f fs ih =>
    intro prev fe h
    rw [encode_features] at h
    cases hp : feature_payload s f with
    | none => rw [hp] at h; exact Option.noConfusion h
    | some pl =>
      cases hr : encode_features s fs f.pos with
      | none => rw [hp, hr] at h; exact Option.noConfusion h
      | some rest =>
        rw [hp, hr] at h
        dsimp only at h
        rw [← Option.some.inj h, List.flatMap_cons, ← ih f.pos rest hr]
        simp only [List.map_cons, List.map_append, hp, Option.getD_some, List.cons_append,
          List.nil_append]

/-- C15: when the features of a mapped record carry codes the encoder knows,
`cram_encode_slice_read` succeeds and the series of its codec calls, in order, are
BF, CF, RI (only when the slice `ref_seq_id` is -2), RL, AP, RG, then MF, NS, NP, TS
for a DETACHED record, else NF for a MATE_DOWNSTREAM one, then TL, then for a mapped
record FN, per feature FC, FP and its payload, and MQ; for an unmapped record a
single BA call over the stored bases of the read (none for an empty read). -/
theorem cram_encode_slice_read_order (fd : cram_fd) (c : cram_container) (s : cram_slice)
    (cr : cram_record) (last_pos : Int)
    (hv : has_flag cr.flags BAM_FUNMAP = false → ∀ f ∈ record_features s cr, valid_code f.code) :
    ∃ em lp, cram_encode_slice_read fd c s cr last_pos = some (em, lp) ∧
      em.map Prod.fst = spec_series_order s cr ∧
      (has_flag cr.flags BAM_FUNMAP = true → cr.len ≠ 0 →
        ∃ hd, em = hd ++ [(DS_BA, List.map Int.ofNat (bytes_from s.seqs_blk cr.seq cr.len))]) := by
  unfold cram_encode_slice_read spec_series_order
  dsimp only
  by_cases hm : has_flag cr.flags BAM_FUNMAP = false
  · obtain ⟨fe, hfe⟩ := encode_features_some s (record_features s cr) 0 (hv hm)
    rw [if_pos hm, if_pos hm, hfe]
    refine ⟨_, _, rfl, ?_, ?_⟩
    · simp only [List.map_append, encode_features_order s _ _ _ hfe]
      split_ifs <;> rfl
    · intro h
      rw [hm] at h
      exact absurd h (by decide)
  · rw [if_neg hm, if_neg hm]
    refine ⟨_, _, rfl, ?_, ?_⟩
    · simp only [List.map_append]
      split_ifs <;> rfl
    · intro _ hl
      rw [if_pos hl]
      exact ⟨_, rfl⟩

theorem cram_encode_slice_read_order_witness :
    ∃ em lp, cram_encode_slice_read fd_v3 state_edits.1 state_edits.2 (state_edits.2.crecs 0) 0
        = some (em, lp) ∧
      em.map Prod.fst = spec_series_order state_edits.2 (state_edits.2.crecs 0) ∧
      (has_flag (state_edits.2.crecs 0).flags BAM_FUNMAP = true →
        (state_edits.2.crecs 0).len ≠ 0 →
        ∃ hd, em = hd ++ [(DS_BA, List.map Int.ofNat
          (bytes_from state_edits.2.seqs_blk (state_edits.2.crecs 0).seq
            (state_edits.2.crecs 0).len))]) :=
  cram_encode_slice_read_order fd_v3 state_edits.1 state_edits.2 (state_edits.2.crecs 0) 0
    (fun _ => by unfold valid_code; decide)

/-- The series order of the record of `state_edits` (`2M 1I 3M 2D 2M`, unpaired,
hence DETACHED): the fixed head, the mate series, TL, FN, the features `i`, `X`,
`D`, `X` with their payloads BA, BS, DL, BS, and MQ. -/
theorem spec_series_order_edits :
    spec_series_order state_edits.2 (state_edits.2.crecs 0)
      = [DS_BF, DS_CF, DS_RL, DS_AP, DS_RG, DS_MF, DS_NS, DS_NP, DS_TS, DS_TL, DS_FN,
         DS_FC, DS_FP, DS_BA, DS_FC, DS_FP, DS_BS, DS_FC, DS_FP, DS_DL, DS_FC, DS_FP, DS_BS,
         DS_MQ] := by
  decide

/-! ## Position order: pos_sorted, last_apos and the AP series -/

theorem por_head_rest_sorted (fd : cram_fd) (b : bam_seq_t) (rg : Option (List Nat)) (e1 : enc) :
    (por_head_rest fd b rg e1).1.c.pos_sorted
        = (e1.c.pos_sorted && !decide (b.pos + 1 < e1.s.last_apos))
    ∧ (por_head_rest fd b rg e1).1.s.last_apos
        = (if (e1.c.pos_sorted && !decide (b.pos + 1 < e1.s.last_apos)) = true then b.pos + 1
           else e1.s.last_apos) := by
  unfold por_head_rest
  dsimp only [enc.stats_add]
  cases hp : e1.c.pos_sorted
  · simp
  · by_cases hlt : b.pos + 1 < e1.s.last_apos
    · simp [hlt]
    · simp [hlt]

theorem add_BA_stats_sorted : ∀ (xs : List Nat) (e : enc),
    (add_BA_stats xs e).c.pos_sorted = e.c.pos_sorted := by
  intro xs
  induction xs with
  | nil => intro e; rfl
  | cons x xs ih =>
    intro e
    simp only [add_BA_stats]
    exact (ih _).trans rfl

theorem por_cigar_sorted (fd : cram_fd) (b : bam_seq_t) (seq : List Nat) (e e' : enc) (fq : Nat)
    (h : por_cigar fd b seq e = some (e', fq)) :
    e'.c.pos_sorted = e.c.pos_sorted ∧ e'.s.last_apos = e.s.last_apos := by
  unfold por_cigar at h
  dsimp only at h
  split at h
  · split at h
    · simp at h
    · rename_i e2 hw
      split at h
      · simp at h
      · simp only [Option.some.injEq, Prod.mk.injEq] at h
        obtain ⟨rfl, _⟩ := h
        have hf := walk_frame_cigar_walk fd seq b.qual b.cigar _ e2 hw
        exact ⟨hf.pos_sorted, hf.last_apos⟩
  · simp only [Option.some.injEq, Prod.mk.injEq] at h
    obtain ⟨rfl, _⟩ := h
    exact ⟨add_BA_stats_sorted _ _, by rw [(add_BA_stats_frame _ _).1]⟩

theorem por_qual_sorted (fd : cram_fd) (b : bam_seq_t) (fq : Nat) (e : enc) :
    (por_qual fd b fq e).c.pos_sorted = e.c.pos_sorted
    ∧ (por_qual fd b fq e).s.last_apos = e.s.last_apos := by
  unfold por_qual
  dsimp only [enc.stats_add]
  refine ⟨?_, ?_⟩ <;> (repeat' split) <;> rfl

theorem por_pre_sorted (fd : cram_fd) (c c1 : cram_container) (s s1 : cram_slice)
    (b : bam_seq_t) (i : Nat) (h : por_pre fd c s b i = some (c1, s1)) :
    c1.pos_sorted = (c.pos_sorted && !decide (b.pos + 1 < s.last_apos))
    ∧ s1.last_apos = (if (c.pos_sorted && !decide (b.pos + 1 < s.last_apos)) = true then b.pos + 1
        else s.last_apos) := by
  unfold por_pre at h
  split at h
  · simp at h
  · rename_i e seq hh
    split at h
    · simp at h
    · rename_i e1 fq hc
      simp only [Option.some.injEq, Prod.mk.injEq] at h
      obtain ⟨rfl, rfl⟩ := h
      unfold por_head at hh
      split at hh
      · simp at hh
      · rename_i rg e0 ha
        simp only [Option.some.injEq] at hh
        obtain ⟨hs, _, _, _, _, _, hps⟩ := por_aux_spec fd c s b i rg e0 ha
        obtain ⟨r1, r2⟩ := por_head_rest_sorted fd b rg e0
        rw [hh] at r1 r2
        dsimp only at r1 r2
        obtain ⟨q1, q2⟩ := por_cigar_sorted fd b seq e e1 fq hc
        obtain ⟨p1, p2⟩ := por_qual_sorted fd b fq e1
        rw [hs, hps] at r1 r2
        exact ⟨p1.trans (q1.trans r1), p2.trans (q2.trans r2)⟩

theorem mate_detached_sorted (c : cram_container) (s : cram_slice) (b : bam_seq_t) (i : Nat) :
    (mate_detached c s b i).1.pos_sorted = c.pos_sorted
    ∧ (mate_detached c s b i).2.last_apos = s.last_apos :=
  ⟨rfl, rfl⟩

theorem mate_link_sorted (c : cram_container) (s : cram_slice) (sec : Bool) (key : List Nat)
    (rnum j : Nat) :
    (mate_link c s sec key rnum j).1.pos_sorted = c.pos_sorted
    ∧ (mate_link c s sec key rnum j).2.last_apos = s.last_apos := by
  unfold mate_link
  dsimp only [cram_container.add, cram_container.del, cram_slice.upd]
  refine ⟨?_, ?_⟩ <;> (repeat' split) <;> rfl

theorem por_mate_sorted (fd : cram_fd) (c : cram_container) (s : cram_slice) (b : bam_seq_t)
    (i : Nat) :
    (por_mate fd c s b i).1.pos_sorted = c.pos_sorted
    ∧ (por_mate fd c s b i).2.last_apos = s.last_apos := by
  unfold por_mate
  dsimp only
  split
  · split
    · exact mate_detached_sorted _ _ _ _
    · split
      · exact mate_link_sorted _ _ _ _ _ _
      · exact mate_detached_sorted _ _ _ _
  · exact mate_detached_sorted _ _ _ _

theorem por_tail_sorted (c : cram_container) (s : cram_slice) (b : bam_seq_t) (i : Nat) :
    (por_tail c s b i).1.pos_sorted = c.pos_sorted
    ∧ (por_tail c s b i).2.last_apos = s.last_apos := by
  unfold por_tail
  dsimp only [cram_container.add, cram_slice.upd]
  refine ⟨?_, ?_⟩ <;> (repeat' split) <;> rfl

/-- The sortedness flag and `last_apos` after `process_one_read`: the flag stays
set only when it was set and the record does not start before `last_apos`, and
only then `last_apos` moves to the record. -/
theorem process_one_read_sorted (fd : cram_fd) (c c' : cram_container) (s s' : cram_slice)
    (b : bam_seq_t) (i : Nat) (h : process_one_read fd c s b i = some (c', s')) :
    c'.pos_sorted = (c.pos_sorted && !decide (b.pos + 1 < s.last_apos))
    ∧ s'.last_apos = (if (c.pos_sorted && !decide (b.pos + 1 < s.last_apos)) = true then b.pos + 1
        else s.last_apos) := by
  unfold process_one_read at h
  split at h
  · simp at h
  · rename_i c1 s1 hp
    simp only [Option.some.injEq] at h
    obtain ⟨p1, p2⟩ := por_pre_sorted fd c c1 s s1 b i hp
    obtain ⟨m1, m2⟩ := por_mate_sorted fd c1 s1 b i
    obtain ⟨t1, t2⟩ := por_tail_sorted (por_mate fd c1 s1 b i).1 (por_mate fd c1 s1 b i).2 b i
    rw [h] at t1 t2
    exact ⟨t1.trans (m1.trans p1), t2.trans (m2.trans p2)⟩

theorem switch_ref_sorted (fd : cram_fd) (c c1 : cram_container) (b : bam_seq_t)
    (h : switch_ref fd c b = some c1) : c1.pos_sorted = c.pos_sorted := by
  unfold switch_ref at h
  repeat' split at h
  all_goals first
    | exact Option.noConfusion h
    | (rw [← Option.some.inj h])

/-- The sortedness flag after the record loop of one slice. -/
theorem process_reads_sorted (fd : cram_fd) :
    ∀ (bs : List bam_seq_t) (r2 : Nat) (c c' : cram_container) (s s' : cram_slice),
      process_reads fd bs r2 c s = some (c', s') →
      c'.pos_sorted = (c.pos_sorted && pos_chain s.last_apos bs) := by
  intro bs
  induction bs with
  | nil =>
    intro r2 c c' s s' h
    rw [process_reads] at h
    simp only [Option.some.injEq, Prod.mk.injEq] at h
    rw [← h.1]
    simp [pos_chain]
  | cons b bs ih =>
    intro r2 c c' s s' h
    rw [process_reads] at h
    split at h
    · exact Option.noConfusion h
    · rename_i c1 hsw
      split at h
      · exact Option.noConfusion h
      · rename_i r hr
        obtain ⟨p1, p2⟩ := process_one_read_sorted fd c1 r.1 s r.2 b r2 hr
        have q := ih _ _ _ _ _ h
        rw [switch_ref_sorted fd c c1 b hsw] at p1 p2
        rw [q, p1, p2, pos_chain]
        cases hc : c.pos_sorted
        · simp
        · by_cases hlt : b.pos + 1 < s.last_apos
          · simp [hlt]
          · simp [hlt]

theorem process_reads_apos (fd : cram_fd) :
    ∀ (bs : List bam_seq_t) (r2 : Nat) (c c' : cram_container) (s s' : cram_slice),
      process_reads fd bs r2 c s = some (c', s') →
      (∀ k, k < bs.length →
        (s'.crecs (r2 + k)).apos = (bs.map (fun b => b.pos)).getD k 0 + 1)
      ∧ (∀ k, k < r2 → (s'.crecs k).apos = (s.crecs k).apos) := by
  intro bs
  induction bs with
  | nil =>
    intro r2 c c' s s' h
    rw [process_reads] at h
    simp only [Option.some.injEq, Prod.mk.injEq] at h
    rw [← h.2]
    exact ⟨fun k hk => absurd hk (Nat.not_lt_zero k), fun _ _ => rfl⟩
  | cons b bs ih =>
    intro r2 c c' s s' h
    rw [process_reads] at h
    split at h
    · exact Option.noConfusion h
    · rename_i c1 hsw
      split at h
      · exact Option.noConfusion h
      · rename_i r hr
        obtain ⟨ca, sa, hpre, hg⟩ := process_one_read_geom fd c1 r.1 s r.2 b r2 hr
        obtain ⟨-, hoth, -, hap, -⟩ := por_pre_spec fd c1 ca s sa b r2 hpre
        obtain ⟨i1, i2⟩ := ih _ _ _ _ _ h
        constructor
        · intro k hk
          cases k with
          | zero =>
            rw [Nat.add_zero, i2 r2 (Nat.lt_succ_self r2), (hg.recs r2).apos, hap]
            rfl
          | succ k =>
            have := i1 k (by simpa using hk)
            rw [show r2 + (k + 1) = r2 + 1 + k by omega, this]
            rfl
        · intro k hk
          rw [i2 k (by omega), (hg.recs k).apos, hoth k (by omega)]

theorem pos_chain_sorted : ∀ (bs : List bam_seq_t) (last : Int), pos_chain last bs = true →
    ∀ i, i + 1 < bs.length →
      (bs.map (fun b => b.pos)).getD i 0 ≤ (bs.map (fun b => b.pos)).getD (i + 1) 0 := by
  intro bs
  induction bs with
  | nil => intro last _ i hi; exact absurd hi (Nat.not_lt_zero _)
  | cons b bs ih =>
    intro last h i hi
    rw [pos_chain, Bool.and_eq_true] at h
    cases i with
    | zero =>
      cases bs with
      | nil => simp at hi
      | cons b2 bs2 =>
        have h2 := h.2
        rw [pos_chain, Bool.and_eq_true] at h2
        have := h2.1
        simp only [Bool.not_eq_true', decide_eq_false_iff_not, not_lt] at this
        show b.pos ≤ b2.pos
        omega
    | succ i =>
      exact ih (b.pos + 1) h.2 i (by simpa using hi)

theorem encode_features_no_AP (s : cram_slice) (fs : List cram_feature) (p : Int)
    (fe : List emission) (h : encode_features s fs p = some fe) :
    ∀ x ∈ fe, x.1 ≠ DS_AP := by
  intro x hx
  have hm : x.1 ∈ fe.map Prod.fst := List.mem_map_of_mem _ hx
  rw [encode_features_order s fs p fe h, List.mem_flatMap] at hm
  obtain ⟨f, -, hf⟩ := hm
  rcases List.mem_append.mp hf with h1 | h1
  · intro e
    rw [e] at h1
    simp at h1
  · cases hp : feature_payload s f with
    | none =>
      rw [hp] at h1
      simp at h1
    | some pl =>
      rw [hp, Option.getD_some] at h1
      obtain ⟨y, hy, hxy⟩ := List.mem_map.mp h1
      have := feature_payload_series s f pl hp y hy
      rw [hxy] at this
      intro e
      rw [e] at this
      simp at this

/-- With `pos_sorted` cleared the slice encoder makes one AP call per record, with
the absolute position, and leaves `last_pos` alone. -/
theorem slice_read_AP_absolute (fd : cram_fd) (c : cram_container) (s : cram_slice)
    (cr : cram_record) (lp lp' : Int) (em : List emission) (hc : c.pos_sorted = false)
    (h : cram_encode_slice_read fd c s cr lp = some (em, lp')) :
    em.filter (fun x => decide (x.1 = DS_AP)) = [(DS_AP, [cr.apos])] ∧ lp' = lp := by
  unfold cram_encode_slice_read at h
  dsimp only at h
  rw [hc] at h
  simp only [Bool.false_eq_true, if_false] at h
  split at h
  · split at h
    · exact Option.noConfusion h
    · rename_i fe hfe
      simp only [Option.some.injEq, Prod.mk.injEq] at h
      obtain ⟨rfl, rfl⟩ := h
      have hno : fe.filter (fun x => decide (x.1 = DS_AP)) = [] := by
        rw [List.filter_eq_nil_iff]
        intro x hx
        simpa using encode_features_no_AP s _ _ fe hfe x hx
      refine ⟨?_, rfl⟩
      simp only [List.filter_append, hno]
      split_ifs <;> simp [List.filter]
  · simp only [Option.some.injEq, Prod.mk.injEq] at h
    obtain ⟨rfl, rfl⟩ := h
    refine ⟨?_, rfl⟩
    simp only [List.filter_append]
    split_ifs <;> simp [List.filter]

/-- C17: after `process_one_read` has run over the records of a slice, a record
whose `apos` is smaller than that of the record before it leaves the container
with `pos_sorted` cleared; no call of `process_one_read` sets a cleared
`pos_sorted` again; and with `pos_sorted` cleared `cram_encode_slice_read` makes
exactly one AP call per record, carrying the absolute `apos`. -/
theorem process_reads_pos_sorted (fd : cram_fd) (bams : List bam_seq_t)
    (c c' : cram_container) (s s' : cram_slice)
    (h : process_reads fd bams 0 c s = some (c', s')) :
    (∀ i, i + 1 < bams.length → (s'.crecs (i + 1)).apos < (s'.crecs i).apos →
      c'.pos_sorted = false)
    ∧ (∀ (b : bam_seq_t) (i : Nat) (c1 c2 : cram_container) (s1 s2 : cram_slice),
        process_one_read fd c1 s1 b i = some (c2, s2) → c1.pos_sorted = false →
        c2.pos_sorted = false)
    ∧ (∀ (cf : cram_container) (sf : cram_slice) (cr : cram_record) (lp lp' : Int)
        (em : List emission), cf.pos_sorted = false →
        cram_encode_slice_read fd cf sf cr lp = some (em, lp') →
        em.filter (fun x => decide (x.1 = DS_AP)) = [(DS_AP, [cr.apos])] ∧ lp' = lp) := by
  refine ⟨?_, ?_, ?_⟩
  · intro i hi hlt
    obtain ⟨hap, -⟩ := process_reads_apos fd bams 0 c c' s s' h
    have h1 := hap (i + 1) hi
    have h0 := hap i (by omega)
    rw [Nat.zero_add] at h1 h0
    rw [h1, h0] at hlt
    have hs := process_reads_sorted fd bams 0 c c' s s' h
    cases hch : pos_chain s.last_apos bams
    · rw [hs, hch, Bool.and_false]
    · have := pos_chain_sorted bams s.last_apos hch i hi
      omega
  · intro b i c1 c2 s1 s2 hp hc
    rw [(process_one_read_sorted fd c1 c2 s1 s2 b i hp).1, hc, Bool.false_and]
  · intro cf sf cr lp lp' em hc he
    exact slice_read_AP_absolute fd cf sf cr lp lp' em hc he

theorem process_reads_pos_sorted_witness : state_unsorted.1.pos_sorted = false :=
  (process_reads_pos_sorted fd_v3 [bam_pair2, bam_pair1] (container_new ref32) state_unsorted.1
    (slice_new 20) state_unsorted.2 (option_getD_eq _ _ (by decide))).1 0 (by decide) (by decide)

/-! ## Container assembly: landmarks and the reference range -/

theorem blocks_offset_sum (isz : Int → Int) (fd : cram_fd) :
    ∀ (bs : List cram_block_sizes) (off : Int),
      blocks_offset isz fd bs off = off + (bs.map (block_encoded_size isz fd)).sum := by
  intro bs
  induction bs with
  | nil => intro off; simp [blocks_offset]
  | cons b bs ih =>
    intro off
    rw [blocks_offset, ih, List.map_cons, List.sum_cons, block_encoded_size]
    ring

theorem landmark_loop_landmark (isz : Int → Int) (fd : cram_fd) :
    ∀ (ss : List encoded_slice) (c : container_layout) (off : Int),
      (landmark_loop isz fd ss c off).1.landmark
        = c.landmark ++ prefix_sums off (ss.map (slice_encoded_size isz fd)) := by
  intro ss
  induction ss with
  | nil => intro c off; simp [landmark_loop, prefix_sums]
  | cons s ss ih =>
    intro c off
    rw [landmark_loop]
    dsimp only
    rw [ih, blocks_offset_sum, List.map_cons, prefix_sums]
    have hoff : off + block_stored_size s.hdr_block + block_framing isz fd s.hdr_block
        + (s.block.map (block_encoded_size isz fd)).sum = off + slice_encoded_size isz fd s := by
      rw [slice_encoded_size, block_encoded_size]
      ring
    rw [hoff]
    split <;> simp

theorem prefix_sums_length : ∀ (xs : List Int) (off : Int), (prefix_sums off xs).length = xs.length := by
  intro xs
  induction xs with
  | nil => intro off; rfl
  | cons x xs ih => intro off; simp [prefix_sums, ih]

theorem prefix_sums_diff : ∀ (xs : List Int) (off : Int) (i : Nat), i + 1 < xs.length →
    (prefix_sums off xs).getD (i + 1) 0 - (prefix_sums off xs).getD i 0 = xs.getD i 0 := by
  intro xs
  induction xs with
  | nil => intro off i hi; exact absurd hi (Nat.not_lt_zero _)
  | cons x xs ih =>
    intro off i hi
    cases i with
    | zero =>
      cases xs with
      | nil => simp at hi
      | cons y ys =>
        simp only [prefix_sums, List.getD_cons_succ, List.getD_cons_zero]
        ring
    | succ i =>
      simp only [prefix_sums, List.getD_cons_succ]
      exact ih (off + x) i (by simpa using hi)

/-- C18 (the claim on a concrete container): with a 10-byte raw compression
header block (19 bytes encoded in format 3) the first landmark is 19, not 0. -/
theorem compute_landmarks_first_not_zero :
    ∃ L, compute_landmarks itf8_size fd_v3 c_hdr_ex [slice_ex 1 8, slice_ex 9 8] 1 0 = some L
      ∧ L.landmark = [19, 158] ∧ L.landmark.getD 0 0 ≠ 0 :=
  ⟨_, rfl, by decide, by decide⟩

/-- C18 (as amended): `cram_encode_container` records one landmark per slice; the
first is the encoded size of the compression header block (framing plus stored
size), and each following landmark exceeds the one before it by the encoded size
of the slice before it, the sum over its header block and its data blocks of
framing plus stored size. -/
theorem compute_landmarks_offsets (isz : Int → Int) (fd : cram_fd) (c_hdr : cram_block_sizes)
    (s0 : encoded_slice) (rest : List encoded_slice) (num_blocks length : Int) :
    ∃ L, compute_landmarks isz fd c_hdr (s0 :: rest) num_blocks length = some L
      ∧ L.landmark.length = (s0 :: rest).length
      ∧ L.landmark.getD 0 0 = block_encoded_size isz fd c_hdr
      ∧ ∀ i, i + 1 < (s0 :: rest).length →
          L.landmark.getD (i + 1) 0 - L.landmark.getD i 0
            = ((s0 :: rest).map (slice_encoded_size isz fd)).getD i 0 := by
  refine ⟨_, rfl, ?_, ?_, ?_⟩
  · dsimp only
    rw [landmark_loop_landmark, List.nil_append, prefix_sums_length, List.length_map]
  · dsimp only
    rw [landmark_loop_landmark, List.nil_append, List.map_cons, prefix_sums,
      List.getD_cons_zero, block_encoded_size]
    ring
  · intro i hi
    dsimp only
    rw [landmark_loop_landmark, List.nil_append]
    exact prefix_sums_diff _ _ i (by simpa using hi)

theorem compute_landmarks_offsets_witness :
    ∃ L, compute_landmarks itf8_size fd_v3 c_hdr_ex (slice_ex 1 8 :: [slice_ex 9 8]) 1 0 = some L
      ∧ L.landmark.length = (slice_ex 1 8 :: [slice_ex 9 8]).length
      ∧ L.landmark.getD 0 0 = block_encoded_size itf8_size fd_v3 c_hdr_ex
      ∧ ∀ i, i + 1 < (slice_ex 1 8 :: [slice_ex 9 8]).length →
          L.landmark.getD (i + 1) 0 - L.landmark.getD i 0
            = ((slice_ex 1 8 :: [slice_ex 9 8]).map (slice_encoded_size itf8_size fd_v3)).getD i 0 :=
  compute_landmarks_offsets itf8_size fd_v3 c_hdr_ex (slice_ex 1 8) [slice_ex 9 8] 1 0

theorem landmark_loop_range (isz : Int → Int) (fd : cram_fd) :
    ∀ (ss : List encoded_slice) (c : container_layout) (off : Int),
      (landmark_loop isz fd ss c off).1.ref_seq_start = c.ref_seq_start
      ∧ c.ref_seq_start + c.ref_seq_span
          ≤ (landmark_loop isz fd ss c off).1.ref_seq_start
            + (landmark_loop isz fd ss c off).1.ref_seq_span
      ∧ (∀ s ∈ ss, s.hdr.ref_seq_start + s.hdr.ref_seq_span
          ≤ (landmark_loop isz fd ss c off).1.ref_seq_start
            + (landmark_loop isz fd ss c off).1.ref_seq_span)
      ∧ ((landmark_loop isz fd ss c off).1.ref_seq_start
            + (landmark_loop isz fd ss c off).1.ref_seq_span = c.ref_seq_start + c.ref_seq_span
          ∨ ∃ s ∈ ss, (landmark_loop isz fd ss c off).1.ref_seq_start
            + (landmark_loop isz fd ss c off).1.ref_seq_span
              = s.hdr.ref_seq_start + s.hdr.ref_seq_span) := by
  intro ss
  induction ss with
  | nil =>
    intro c off
    rw [landmark_loop]
    exact ⟨rfl, le_refl _, fun s hs => absurd hs (List.not_mem_nil s), Or.inl rfl⟩
  | cons s ss ih =>
    intro c off
    rw [landmark_loop]
    dsimp only
    split
    · rename_i hgt
      obtain ⟨i1, i2, i3, i4⟩ := ih
        { c with num_blocks := c.num_blocks + ((s.block.length : Int) + 1),
                 landmark := c.landmark ++ [off],
                 ref_seq_span := s.hdr.ref_seq_start + s.hdr.ref_seq_span - c.ref_seq_start }
        (blocks_offset isz fd s.block
          (off + block_stored_size s.hdr_block + block_framing isz fd s.hdr_block))
      dsimp only at i1 i2 i4 hgt
      refine ⟨i1, by omega, ?_, ?_⟩
      · intro t ht
        rcases List.mem_cons.mp ht with rfl | ht
        · omega
        · exact i3 t ht
      · right
        rcases i4 with h | ⟨t, ht, h⟩
        · exact ⟨s, List.mem_cons_self _ _, by omega⟩
        · exact ⟨t, List.mem_cons_of_mem _ ht, h⟩
    · rename_i hle
      obtain ⟨i1, i2, i3, i4⟩ := ih
        { c with num_blocks := c.num_blocks + ((s.block.length : Int) + 1),
                 landmark := c.landmark ++ [off] }
        (blocks_offset isz fd s.block
          (off + block_stored_size s.hdr_block + block_framing isz fd s.hdr_block))
      dsimp only at i1 i2 i4 hle
      refine ⟨i1, i2, ?_, ?_⟩
      · intro t ht
        rcases List.mem_cons.mp ht with rfl | ht
        · omega
        · exact i3 t ht
      · rcases i4 with h | ⟨t, ht, h⟩
        · exact Or.inl h
        · exact Or.inr ⟨t, List.mem_cons_of_mem _ ht, h⟩

/-- C19 (the claim on a concrete container): with the slices `[10, 15)` and
`[3, 7)`, in this order, the container range is `[10, 15)`: it does not start at
the smallest slice start and does not contain the second slice. -/
theorem compute_landmarks_range_not_union :
    ∃ L, compute_landmarks itf8_size fd_v3 c_hdr_ex [slice_ex 10 5, slice_ex 3 4] 1 0 = some L
      ∧ L.ref_seq_start = 10 ∧ L.ref_seq_span = 5
      ∧ ¬ (L.ref_seq_start ≤ (slice_ex 3 4).hdr.ref_seq_start) :=
  ⟨_, rfl, by decide, by decide, by decide⟩

/-- C19 (as amended): after `cram_encode_container` the container range starts at
the `ref_seq_start` of the first slice and ends at the largest slice end
`ref_seq_start + ref_seq_span`; it contains the range of every slice that does
not start before the first slice. -/
theorem compute_landmarks_range (isz : Int → Int) (fd : cram_fd) (c_hdr : cram_block_sizes)
    (s0 : encoded_slice) (rest : List encoded_slice) (num_blocks length : Int) :
    ∃ L, compute_landmarks isz fd c_hdr (s0 :: rest) num_blocks length = some L
      ∧ L.ref_seq_start = s0.hdr.ref_seq_start
      ∧ (∀ s ∈ s0 :: rest,
          s.hdr.ref_seq_start + s.hdr.ref_seq_span ≤ L.ref_seq_start + L.ref_seq_span)
      ∧ (∃ s ∈ s0 :: rest,
          L.ref_seq_start + L.ref_seq_span = s.hdr.ref_seq_start + s.hdr.ref_seq_span)
      ∧ ∀ s ∈ s0 :: rest, s0.hdr.ref_seq_start ≤ s.hdr.ref_seq_start →
          L.ref_seq_start ≤ s.hdr.ref_seq_start
          ∧ s.hdr.ref_seq_start + s.hdr.ref_seq_span ≤ L.ref_seq_start + L.ref_seq_span := by
  obtain ⟨i1, i2, i3, i4⟩ := landmark_loop_range isz fd (s0 :: rest)
    { landmark := [], ref_seq_id := s0.hdr.ref_seq_id, ref_seq_start := s0.hdr.ref_seq_start,
      ref_seq_span := s0.hdr.ref_seq_span, num_blocks := num_blocks, length := length }
    (block_stored_size c_hdr + block_framing isz fd c_hdr)
  dsimp only at i1 i2 i4
  refine ⟨_, rfl, i1, i3, ?_, ?_⟩
  · rcases i4 with h | h
    · exact ⟨s0, List.mem_cons_self _ _, h⟩
    · exact h
  · intro s hs hle
    refine ⟨?_, i3 s hs⟩
    show (landmark_loop isz fd (s0 :: rest) _ _).1.ref_seq_start ≤ _
    rw [i1]
    exact hle

theorem compute_landmarks_range_witness :
    ∃ L, compute_landmarks itf8_size fd_v3 c_hdr_ex (slice_ex 1 8 :: [slice_ex 9 8]) 1 0 = some L
      ∧ L.ref_seq_start = (slice_ex 1 8).hdr.ref_seq_start
      ∧ (∀ s ∈ slice_ex 1 8 :: [slice_ex 9 8],
          s.hdr.ref_seq_start + s.hdr.ref_seq_span ≤ L.ref_seq_start + L.ref_seq_span)
      ∧ (∃ s ∈ slice_ex 1 8 :: [slice_ex 9 8],
          L.ref_seq_start + L.ref_seq_span = s.hdr.ref_seq_start + s.hdr.ref_seq_span)
      ∧ ∀ s ∈ slice_ex 1 8 :: [slice_ex 9 8],
          (slice_ex 1 8).hdr.ref_seq_start ≤ s.hdr.ref_seq_start →
          L.ref_seq_start ≤ s.hdr.ref_seq_start
          ∧ s.hdr.ref_seq_start + s.hdr.ref_seq_span ≤ L.ref_seq_start + L.ref_seq_span :=
  compute_landmarks_range itf8_size fd_v3 c_hdr_ex (slice_ex 1 8) [slice_ex 9 8] 1 0

/-! ## No-reference mode: no substitutions, bases verbatim -/

theorem nosub_refl (e : enc) : nosub e e :=
  ⟨fun _ => rfl, ⟨[], (List.append_nil _).symm, fun f hf => absurd hf (List.not_mem_nil f)⟩⟩

theorem nosub_trans {a b c : enc} (h1 : nosub a b) (h2 : nosub b c) : nosub a c := by
  obtain ⟨n1, e1, p1⟩ := h1.feats
  obtain ⟨n2, e2, p2⟩ := h2.feats
  refine ⟨fun v => (h2.stats v).trans (h1.stats v), ⟨n1 ++ n2, ?_, ?_⟩⟩
  · rw [e2, e1, List.append_assoc]
  · intro f hf
    rcases List.mem_append.mp hf with h | h
    · exact p1 f h
    · exact p2 f h

theorem nosub_of_eq (e e' : enc) (hc : e'.c.stats = e.c.stats) (hs : e'.s.features = e.s.features) :
    nosub e e' :=
  ⟨fun v => by rw [hc], ⟨[], by rw [hs, List.append_nil],
    fun f hf => absurd hf (List.not_mem_nil f)⟩⟩

theorem cram_stats_add_BS (st : cram_stats) (ds : cram_DS_ID) (v x : Int) (h : ds ≠ DS_BS) :
    cram_stats_add st ds v DS_BS x = st DS_BS x := by
  unfold cram_stats_add
  rw [if_neg (fun hh => h hh.1.symm)]

theorem nosub_stats_add (e : enc) (ds : cram_DS_ID) (v : Int) (h : ds ≠ DS_BS) :
    nosub e (e.stats_add ds v) :=
  ⟨fun x => cram_stats_add_BS e.c.stats ds v x h,
    ⟨[], (List.append_nil _).symm, fun f hf => absurd hf (List.not_mem_nil f)⟩⟩

theorem add_feature_BS (e : enc) (f : cram_feature) (x : Int) :
    (cram_add_feature e f).c.stats DS_BS x = e.c.stats DS_BS x := by
  unfold cram_add_feature
  dsimp only
  by_cases h0 : e.cr.nfeature = 0
  · rw [if_pos h0]
    simp [enc.stats_add, cram_stats_add]
  · rw [if_neg h0]
    simp [enc.stats_add, cram_stats_add]

theorem add_feature_features (e : enc) (f : cram_feature) :
    (cram_add_feature e f).s.features = e.s.features ++ [f] := by
  unfold cram_add_feature enc.stats_add
  dsimp only
  split <;> rfl

theorem nosub_add_feature (e : enc) (f : cram_feature) (h : f.code ≠ 'X'.toNat) :
    nosub e (cram_add_feature e f) := by
  refine ⟨fun x => add_feature_BS e f x, ⟨[f], add_feature_features e f, ?_⟩⟩
  intro g hg
  rw [List.mem_singleton] at hg
  rw [hg]
  exact h

theorem nosub_then_add_feature (e0 e : enc) (f : cram_feature) (h : nosub e0 e)
    (hf : f.code ≠ 'X'.toNat) : nosub e0 (cram_add_feature e f) :=
  nosub_trans h (nosub_add_feature e f hf)

theorem code_ne_X : 'b'.toNat ≠ 'X'.toNat ∧ 'B'.toNat ≠ 'X'.toNat ∧ 'Q'.toNat ≠ 'X'.toNat
    ∧ 'D'.toNat ≠ 'X'.toNat ∧ 'H'.toNat ≠ 'X'.toNat ∧ 'N'.toNat ≠ 'X'.toNat
    ∧ 'P'.toNat ≠ 'X'.toNat ∧ 'S'.toNat ≠ 'X'.toNat ∧ 'i'.toNat ≠ 'X'.toNat
    ∧ 'I'.toNat ≠ 'X'.toNat := by
  decide

theorem nosub_cursor (e : enc) (a : Int) (sp : Nat) : nosub e { e with apos := a, spos := sp } :=
  nosub_of_eq _ _ rfl rfl

theorem nosub_add_bases (e : enc) (pos len : Nat) : nosub e (cram_add_bases e pos len) :=
  nosub_add_feature _ _ code_ne_X.1

theorem nosub_add_base (fd : cram_fd) (e : enc) (pos base qual : Nat) :
    nosub e (cram_add_base fd e pos base qual) :=
  nosub_then_add_feature _ _ _
    (nosub_trans (nosub_trans (nosub_stats_add e DS_BA _ (by decide))
      (nosub_stats_add _ DS_QS _ (by decide))) (nosub_of_eq _ _ rfl rfl)) code_ne_X.2.1

theorem nosub_add_quality (fd : cram_fd) (e : enc) (pos qual : Nat) :
    nosub e (cram_add_quality fd e pos qual) :=
  nosub_then_add_feature _ _ _
    (nosub_trans (nosub_stats_add e DS_QS _ (by decide)) (nosub_of_eq _ _ rfl rfl)) code_ne_X.2.2.1

theorem nosub_add_deletion (e : enc) (pos len : Nat) : nosub e (cram_add_deletion e pos len) :=
  nosub_then_add_feature _ _ _ (nosub_stats_add e DS_DL _ (by decide)) code_ne_X.2.2.2.1

theorem nosub_add_hardclip (e : enc) (pos len : Nat) : nosub e (cram_add_hardclip e pos len) :=
  nosub_then_add_feature _ _ _ (nosub_stats_add e DS_HC _ (by decide)) code_ne_X.2.2.2.2.1

theorem nosub_add_skip (e : enc) (pos len : Nat) : nosub e (cram_add_skip e pos len) :=
  nosub_then_add_feature _ _ _ (nosub_stats_add e DS_RS _ (by decide)) code_ne_X.2.2.2.2.2.1

theorem nosub_add_pad (e : enc) (pos len : Nat) : nosub e (cram_add_pad e pos len) :=
  nosub_then_add_feature _ _ _ (nosub_stats_add e DS_PD _ (by decide)) code_ne_X.2.2.2.2.2.2.1

theorem nosub_add_softclip (e e' : enc) (pos len : Nat) (base : Option (List Nat))
    (version : Nat) (h : cram_add_softclip e pos len base version = some e') :
    nosub e e' := by
  unfold cram_add_softclip at h
  split at h
  · split at h
    · exact Option.noConfusion h
    · cases h
      exact nosub_then_add_feature _ _ _ (nosub_of_eq _ _ rfl rfl) code_ne_X.2.2.2.2.2.2.2.1
  · cases h
    exact nosub_then_add_feature _ _ _ (nosub_of_eq _ _ rfl rfl) code_ne_X.2.2.2.2.2.2.2.1

theorem nosub_add_insertion (e : enc) (pos len : Nat) (base : Option (List Nat)) :
    nosub e (cram_add_insertion e pos len base) := by
  unfold cram_add_insertion
  split
  · exact nosub_then_add_feature _ _ _ (nosub_stats_add e DS_BA _ (by decide))
      code_ne_X.2.2.2.2.2.2.2.2.1
  · exact nosub_then_add_feature _ _ _ (nosub_of_eq _ _ rfl rfl) code_ne_X.2.2.2.2.2.2.2.2.2

theorem nosub_base_loop (fd : cram_fd) (seq qual : List Nat) :
    ∀ (n : Nat) (e : enc), nosub e (base_loop fd seq qual n e) := by
  intro n
  induction n with
  | zero => intro e; exact nosub_refl e
  | succ n ih =>
    intro e
    unfold base_loop
    split
    · exact nosub_refl e
    · exact nosub_trans (nosub_trans (nosub_add_base fd e _ _ _) (nosub_cursor _ _ _)) (ih _)

theorem nosub_qual_loop (fd : cram_fd) (q : Nat → Nat) :
    ∀ (n : Nat) (e : enc), nosub e (qual_loop fd q n e) := by
  intro n
  induction n with
  | zero => intro e; exact nosub_refl e
  | succ n ih =>
    intro e
    unfold qual_loop
    exact nosub_trans (nosub_trans (nosub_add_quality fd e _ _) (nosub_cursor _ _ _)) (ih _)

theorem nosub_cigar_match (fd : cram_fd) (seq qual : List Nat) (cig_len : Nat)
    (e e' : enc) (hnr : fd.no_ref = true) (h : cigar_match fd seq qual cig_len e = some e') :
    nosub e e' := by
  unfold cigar_match cigar_match_first at h
  rw [if_neg (by rw [hnr]; simp)] at h
  simp only [Option.some.injEq] at h
  subst h
  unfold cigar_match_rest
  split
  · refine nosub_trans ?_ (nosub_cursor _ _ _)
    unfold cigar_match_bases
    rw [if_pos hnr]
    split
    · exact nosub_trans (nosub_add_bases _ _ _) (nosub_cursor _ _ _)
    · exact nosub_base_loop _ _ _ _ _
  · split
    · exact nosub_cursor _ _ _
    · exact nosub_refl e

theorem nosub_cigar_step (fd : cram_fd) (seq qual : List Nat) (w : Nat)
    (e e' : enc) (hnr : fd.no_ref = true) (h : cigar_step fd seq qual w e = some e') :
    nosub e e' := by
  unfold cigar_step at h
  dsimp only at h
  split at h
  · exact nosub_cigar_match _ _ _ _ _ _ hnr h
  split at h
  · cases h
    exact nosub_trans (nosub_add_deletion _ _ _) (nosub_cursor _ _ _)
  split at h
  · cases h
    exact nosub_trans (nosub_add_skip _ _ _) (nosub_cursor _ _ _)
  split at h
  · cases h
    unfold cigar_ins
    dsimp only
    split
    · exact nosub_trans (nosub_add_insertion _ _ _ _) (nosub_qual_loop _ _ _ _)
    · exact nosub_trans (nosub_add_insertion _ _ _ _) (nosub_cursor _ _ _)
  split at h
  · obtain ⟨e1, h1, rfl⟩ := cigar_softclip_some fd seq qual _ e e' h
    have hn := nosub_add_softclip _ _ _ _ _ _ h1
    split
    · split
      · exact nosub_trans hn (nosub_qual_loop _ _ _ _)
      · exact nosub_trans hn (nosub_qual_loop _ _ _ _)
    · exact nosub_trans hn (nosub_cursor _ _ _)
  split at h
  · cases h; exact nosub_add_hardclip _ _ _
  split at h
  · cases h; exact nosub_add_pad _ _ _
  · simp at h

theorem nosub_cigar_walk (fd : cram_fd) (seq qual : List Nat) (hnr : fd.no_ref = true) :
    ∀ (ws : List Nat) (e e' : enc), cigar_walk fd seq qual ws e = some e' → nosub e e' := by
  intro ws
  induction ws with
  | nil =>
    intro e e' h
    simp only [cigar_walk, Option.some.injEq] at h
    subst h
    exact nosub_refl e
  | cons w ws ih =>
    intro e e' h
    simp only [cigar_walk] at h
    split at h
    · simp at h
    · rename_i e1 h1
      exact nosub_trans (nosub_cigar_step fd seq qual w e e1 hnr h1) (ih e1 e' h)

/-- In no-reference mode the part of `process_one_read` before the mate block
records no substitution. -/
theorem por_pre_nosub (fd : cram_fd) (c c1 : cram_container) (s s1 : cram_slice)
    (b : bam_seq_t) (i : Nat) (hnr : fd.no_ref = true)
    (h : por_pre fd c s b i = some (c1, s1)) :
    (∃ new, s1.features = s.features ++ new ∧ ∀ f ∈ new, f.code ≠ 'X'.toNat)
    ∧ ∀ v, c1.stats DS_BS v = c.stats DS_BS v := by
  cases hm : has_flag b.flag BAM_FUNMAP
  · obtain ⟨e0, e2, ⟨_, _, _, _, _, hf0, _, _, _⟩, hst0, hw, ⟨hf1, _, _, _, _, _⟩, hst1⟩ :=
      por_pre_mapped fd c c1 s s1 b i h hm
    have hn := nosub_cigar_walk fd _ _ hnr _ _ _ hw
    obtain ⟨new, hnew, hx⟩ := hn.feats
    refine ⟨⟨new, ?_, hx⟩, ?_⟩
    · rw [hf1, hnew, hf0]
    · intro v
      rw [hst1 DS_BS v, hn.stats v, hst0 DS_BS v (by decide) (by decide) (by decide)]
      simp [emitted]
  · obtain ⟨hf, _, hst⟩ := por_pre_unmapped fd c c1 s s1 b i h hm
    refine ⟨⟨[], by rw [hf, List.append_nil], fun f hf => absurd hf (List.not_mem_nil f)⟩, ?_⟩
    intro v
    rw [hst DS_BS v (by decide) (by decide) (by decide) (by decide)]
    simp [emitted]

/-- In no-reference mode `process_one_read` records no substitution. -/
theorem process_one_read_nosub (fd : cram_fd) (c c' : cram_container) (s s' : cram_slice)
    (b : bam_seq_t) (i : Nat) (hnr : fd.no_ref = true)
    (h : process_one_read fd c s b i = some (c', s')) :
    (∃ new, s'.features = s.features ++ new ∧ ∀ f ∈ new, f.code ≠ 'X'.toNat)
    ∧ ∀ v, c'.stats DS_BS v = c.stats DS_BS v := by
  obtain ⟨c1, s1, hpre, hg, hst⟩ := process_one_read_split fd c c' s s' b i h
  obtain ⟨⟨new, hnew, hx⟩, hbs⟩ := por_pre_nosub fd c c1 s s1 b i hnr hpre
  refine ⟨⟨new, ?_, hx⟩, ?_⟩
  · rw [hg.features, hnew]
  · intro v
    rw [hst DS_BS v (by decide) (by decide) (by decide) (by decide) (by decide) (by decide)
      (by decide), hbs v]

theorem add_base_features (fd : cram_fd) (e : enc) (pos base qual : Nat) :
    (cram_add_base fd e pos base qual).s.features
      = e.s.features
          ++ [⟨'B'.toNat, ((pos + 1 : Nat) : Int), 0, base, char_val (bin_qual fd qual), 0⟩]
    ∧ (cram_add_base fd e pos base qual).s.seqs_blk = e.s.seqs_blk := by
  unfold cram_add_base
  dsimp only
  refine ⟨add_feature_features _ _, ?_⟩
  exact (walk_frame_add_feature _ _).seqs_blk

theorem base_loop_features (fd : cram_fd) (seq qual : List Nat) :
    ∀ (n : Nat) (e : enc), (∀ k, k < n → byte_at seq (e.spos + k) ≠ 0) →
      (base_loop fd seq qual n e).s.features
        = e.s.features ++ (List.range n).map (fun k => base_feature fd seq qual (e.spos + k)) := by
  intro n
  induction n with
  | zero => intro e _; simp [base_loop]
  | succ n ih =>
    intro e hnz
    have h0 := hnz 0 (Nat.succ_pos n)
    rw [Nat.add_zero] at h0
    rw [base_loop, if_neg h0, ih]
    · dsimp only
      rw [(add_base_features fd e _ _ _).1, List.append_assoc, List.range_succ_eq_map,
        List.map_cons, List.map_map]
      congr 1
      simp only [List.singleton_append, Nat.add_zero, List.cons.injEq]
      refine ⟨rfl, List.map_congr_left (fun k _ => ?_)⟩
      show base_feature fd seq qual (e.spos + 1 + k) = base_feature fd seq qual (e.spos + (k + 1))
      rw [Nat.add_assoc, Nat.add_comm 1 k]
    · intro k hk
      show byte_at seq (e.spos + 1 + k) ≠ 0
      have := hnz (k + 1) (by omega)
      rwa [show e.spos + 1 + k = e.spos + (k + 1) by omega]

theorem match_op_cases (w : Nat) (hop : is_match_op (cigar_op_of w) = true) :
    w &&& BAM_CIGAR_MASK = BAM_CMATCH ∨ w &&& BAM_CIGAR_MASK = BAM_CBASE_MATCH
      ∨ w &&& BAM_CIGAR_MASK = BAM_CBASE_MISMATCH := by
  unfold is_match_op cigar_op_of at hop
  simp only [Bool.or_eq_true, beq_iff_eq] at hop
  rcases hop with (hop | hop) | hop
  · exact Or.inl hop
  · exact Or.inr (Or.inl hop)
  · exact Or.inr (Or.inr hop)

/-- In no-reference mode on format 3 or later an `M`, `=` or `X` operation of a
read with bases adds one `b` feature over the bases of the operation. -/
theorem cigar_step_no_ref_bases (fd : cram_fd) (seq qual : List Nat) (w : Nat) (e : enc)
    (hnr : fd.no_ref = true) (hv : IS_CRAM_3_VERS fd = true)
    (hop : is_match_op (cigar_op_of w) = true) (hlen : e.cr.len ≠ 0)
    (hn : cigar_len_of w ≠ 0) :
    ∃ e', cigar_step fd seq qual w e = some e'
      ∧ e'.s.features = e.s.features ++ [bases_feature e.cr.seq e.spos (cigar_len_of w)]
      ∧ e'.s.seqs_blk = e.s.seqs_blk ∧ e'.spos = e.spos + cigar_len_of w := by
  unfold cigar_step
  dsimp only
  rw [if_pos (match_op_cases w hop)]
  unfold cigar_match cigar_match_first
  rw [if_neg (by rw [hnr]; simp)]
  dsimp only
  unfold cigar_match_rest
  have hn' : 0 < w >>> BAM_CIGAR_SHIFT := Nat.pos_of_ne_zero hn
  rw [if_pos ⟨hn', hlen⟩]
  unfold cigar_match_bases
  rw [if_pos hnr, if_pos hv]
  refine ⟨_, rfl, ?_, ?_, rfl⟩
  · exact add_feature_features _ _
  · exact (walk_frame_add_bases _ _ _).seqs_blk

/-- In no-reference mode on a format before 3 an `M`, `=` or `X` operation of a
read with bases adds one `B` feature per base of the operation. -/
theorem cigar_step_no_ref_base (fd : cram_fd) (seq qual : List Nat) (w : Nat) (e : enc)
    (hnr : fd.no_ref = true) (hv : IS_CRAM_3_VERS fd = false)
    (hop : is_match_op (cigar_op_of w) = true) (hlen : e.cr.len ≠ 0)
    (hn : cigar_len_of w ≠ 0)
    (hnz : ∀ k, k < cigar_len_of w → byte_at seq (e.spos + k) ≠ 0) :
    ∃ e', cigar_step fd seq qual w e = some e'
      ∧ e'.s.features = e.s.features
          ++ (List.range (cigar_len_of w)).map (fun k => base_feature fd seq qual (e.spos + k)) := by
  unfold cigar_step
  dsimp only
  rw [if_pos (match_op_cases w hop)]
  unfold cigar_match cigar_match_first
  rw [if_neg (by rw [hnr]; simp)]
  dsimp only
  unfold cigar_match_rest
  have hn' : 0 < w >>> BAM_CIGAR_SHIFT := Nat.pos_of_ne_zero hn
  rw [if_pos ⟨hn', hlen⟩]
  unfold cigar_match_bases
  rw [if_pos hnr, if_neg (by rw [hv]; simp)]
  refine ⟨_, rfl, ?_⟩
  exact base_loop_features fd seq qual _ e hnz

/-- The slice encoder hands the bases of a `b` feature to the BB codec as they
stand in the read, when the read is stored at offset `off` of the sequence block. -/
theorem bases_feature_payload (s : cram_slice) (seq : List Nat) (off p n len : Nat)
    (hblk : ∀ k, k < len → byte_at s.seqs_blk (off + k) = byte_at seq k) (hp : p + n ≤ len) :
    feature_payload s (bases_feature off p n)
      = some [(DS_BB, List.map Int.ofNat (bytes_from seq p n))] := by
  unfold feature_payload bases_feature
  dsimp only
  rw [if_neg (by decide), if_neg (by decide), if_neg (by decide), if_neg (by decide),
    if_neg (by decide), if_neg (by decide), if_pos rfl, Int.toNat_ofNat]
  have hb : bytes_from s.seqs_blk (off + p) n = bytes_from seq p n := by
    unfold bytes_from
    refine List.map_congr_left (fun k hk => ?_)
    rw [List.mem_range] at hk
    rw [Nat.add_assoc, hblk (p + k) (by omega)]
  rw [hb]

theorem nobase_refl (e : enc) : nobase e e :=
  ⟨[], (List.append_nil _).symm, fun f hf => absurd hf (List.not_mem_nil f)⟩

theorem nobase_trans {a b c : enc} (h1 : nobase a b) (h2 : nobase b c) : nobase a c := by
  obtain ⟨n1, e1, p1⟩ := h1
  obtain ⟨n2, e2, p2⟩ := h2
  refine ⟨n1 ++ n2, ?_, ?_⟩
  · rw [e2, e1, List.append_assoc]
  · intro f hf
    rcases List.mem_append.mp hf with h | h
    · exact p1 f h
    · exact p2 f h

theorem nobase_of_eq (e e' : enc) (hs : e'.s.features = e.s.features) : nobase e e' :=
  ⟨[], by rw [hs, List.append_nil], fun f hf => absurd hf (List.not_mem_nil f)⟩

theorem nobase_add_feature (e0 e : enc) (f : cram_feature) (hs : e.s.features = e0.s.features)
    (h : f.code ≠ 'B'.toNat ∧ f.code ≠ 'b'.toNat) : nobase e0 (cram_add_feature e f) := by
  refine ⟨[f], ?_, ?_⟩
  · rw [add_feature_features, hs]
  · intro g hg
    rw [List.mem_singleton] at hg
    rw [hg]
    exact h

theorem code_ne_base :
    ('Q'.toNat ≠ 'B'.toNat ∧ 'Q'.toNat ≠ 'b'.toNat)
    ∧ ('D'.toNat ≠ 'B'.toNat ∧ 'D'.toNat ≠ 'b'.toNat)
    ∧ ('H'.toNat ≠ 'B'.toNat ∧ 'H'.toNat ≠ 'b'.toNat)
    ∧ ('N'.toNat ≠ 'B'.toNat ∧ 'N'.toNat ≠ 'b'.toNat)
    ∧ ('P'.toNat ≠ 'B'.toNat ∧ 'P'.toNat ≠ 'b'.toNat)
    ∧ ('S'.toNat ≠ 'B'.toNat ∧ 'S'.toNat ≠ 'b'.toNat)
    ∧ ('i'.toNat ≠ 'B'.toNat ∧ 'i'.toNat ≠ 'b'.toNat)
    ∧ ('I'.toNat ≠ 'B'.toNat ∧ 'I'.toNat ≠ 'b'.toNat) := by
  decide

theorem nobase_add_quality (fd : cram_fd) (e : enc) (pos qual : Nat) :
    nobase e (cram_add_quality fd e pos qual) :=
  nobase_add_feature e _ _ rfl code_ne_base.1

theorem nobase_add_deletion (e : enc) (pos len : Nat) : nobase e (cram_add_deletion e pos len) :=
  nobase_add_feature e _ _ rfl code_ne_base.2.1

theorem nobase_add_hardclip (e : enc) (pos len : Nat) : nobase e (cram_add_hardclip e pos len) :=
  nobase_add_feature e _ _ rfl code_ne_base.2.2.1

theorem nobase_add_skip (e : enc) (pos len : Nat) : nobase e (cram_add_skip e pos len) :=
  nobase_add_feature e _ _ rfl code_ne_base.2.2.2.1

theorem nobase_add_pad (e : enc) (pos len : Nat) : nobase e (cram_add_pad e pos len) :=
  nobase_add_feature e _ _ rfl code_ne_base.2.2.2.2.1

theorem nobase_add_softclip (e e' : enc) (pos len : Nat) (base : Option (List Nat))
    (version : Nat) (h : cram_add_softclip e pos len base version = some e') :
    nobase e e' := by
  unfold cram_add_softclip at h
  split at h
  · split at h
    · exact Option.noConfusion h
    · cases h
      exact nobase_add_feature e _ _ rfl code_ne_base.2.2.2.2.2.1
  · cases h
    exact nobase_add_feature e _ _ rfl code_ne_base.2.2.2.2.2.1

theorem nobase_add_insertion (e : enc) (pos len : Nat) (base : Option (List Nat)) :
    nobase e (cram_add_insertion e pos len base) := by
  unfold cram_add_insertion
  split
  · exact nobase_add_feature e _ _ rfl code_ne_base.2.2.2.2.2.2.1
  · exact nobase_add_feature e _ _ rfl code_ne_base.2.2.2.2.2.2.2

theorem nobase_qual_loop (fd : cram_fd) (q : Nat → Nat) :
    ∀ (n : Nat) (e : enc), nobase e (qual_loop fd q n e) := by
  intro n
  induction n with
  | zero => intro e; exact nobase_refl e
  | succ n ih =>
    intro e
    unfold qual_loop
    exact nobase_trans (nobase_trans (nobase_add_quality fd e _ _) (nobase_of_eq _ _ rfl)) (ih _)

theorem not_match_op (w : Nat) (hop : is_match_op (cigar_op_of w) = false) :
    ¬ (w &&& BAM_CIGAR_MASK = BAM_CMATCH ∨ w &&& BAM_CIGAR_MASK = BAM_CBASE_MATCH
      ∨ w &&& BAM_CIGAR_MASK = BAM_CBASE_MISMATCH) := by
  intro h
  have : is_match_op (cigar_op_of w) = true := by
    unfold is_match_op cigar_op_of
    simp only [Bool.or_eq_true, beq_iff_eq]
    rcases h with h | h | h
    · exact Or.inl (Or.inl h)
    · exact Or.inl (Or.inr h)
    · exact Or.inr h
  rw [hop] at this
  cases this

/-- A CIGAR operation other than `M`, `=` and `X` records no base feature and
moves the read cursor by the read bases it consumes. -/
theorem cigar_step_other (fd : cram_fd) (seq qual : List Nat) (w : Nat) (e e' : enc)
    (hop : is_match_op (cigar_op_of w) = false)
    (h : cigar_step fd seq qual w e = some e') :
    nobase e e' ∧ e'.spos = e.spos + op_query_len w := by
  unfold cigar_step at h
  dsimp only at h
  rw [if_neg (not_match_op w hop)] at h
  split at h
  · rename_i hc
    cases h
    rw [(op_len_del w hc).2]
    exact ⟨nobase_trans (nobase_add_deletion _ _ _) (nobase_of_eq _ _ rfl),
      (add_deletion_cursor e e.spos _).1⟩
  split at h
  · rename_i hc
    cases h
    rw [(op_len_skip w hc).2]
    exact ⟨nobase_trans (nobase_add_skip _ _ _) (nobase_of_eq _ _ rfl),
      (add_skip_cursor e e.spos _).1⟩
  split at h
  · rename_i hc
    cases h
    rw [(op_len_ins w hc).2]
    refine ⟨?_, (cigar_ins_cursor fd seq qual _ e).2⟩
    unfold cigar_ins
    dsimp only
    split
    · exact nobase_trans (nobase_add_insertion _ _ _ _) (nobase_qual_loop _ _ _ _)
    · exact nobase_trans (nobase_add_insertion _ _ _ _) (nobase_of_eq _ _ rfl)
  split at h
  · rename_i hc
    rw [(op_len_softclip w hc).2]
    refine ⟨?_, (cigar_softclip_cursor fd seq qual _ e e' h).2⟩
    obtain ⟨e1, h1, rfl⟩ := cigar_softclip_some fd seq qual _ e e' h
    have hn := nobase_add_softclip _ _ _ _ _ _ h1
    split
    · split
      · exact nobase_trans hn (nobase_qual_loop _ _ _ _)
      · exact nobase_trans hn (nobase_qual_loop _ _ _ _)
    · exact nobase_trans hn (nobase_of_eq _ _ rfl)
  split at h
  · rename_i hc
    cases h
    rw [(op_len_hardclip w hc).2]
    exact ⟨nobase_add_hardclip _ _ _, (add_hardclip_cursor e e.spos _).1⟩
  split at h
  · rename_i hc
    cases h
    rw [(op_len_pad w hc).2]
    exact ⟨nobase_add_pad _ _ _, (add_pad_cursor e e.spos _).1⟩
  · simp at h

/-- In no-reference mode an `M`, `=` or `X` operation of a read without bases
records no feature. -/
theorem cigar_step_no_ref_empty (fd : cram_fd) (seq qual : List Nat) (w : Nat) (e e' : enc)
    (hnr : fd.no_ref = true) (hop : is_match_op (cigar_op_of w) = true) (hlen : e.cr.len = 0)
    (h : cigar_step fd seq qual w e = some e') : nobase e e' := by
  unfold cigar_step at h
  dsimp only at h
  rw [if_pos (match_op_cases w hop)] at h
  unfold cigar_match cigar_match_first at h
  rw [if_neg (by rw [hnr]; simp)] at h
  simp only [Option.some.injEq] at h
  subst h
  unfold cigar_match_rest
  dsimp only
  rw [if_neg (fun hh => hh.2 hlen), if_pos hlen]
  exact nobase_of_eq _ _ rfl

/-- In no-reference mode the CIGAR walk of a read without bases records no base
feature. -/
theorem cigar_walk_no_ref_empty (fd : cram_fd) (seq qual : List Nat) (hnr : fd.no_ref = true) :
    ∀ (ws : List Nat) (e e' : enc), e.cr.len = 0 → cigar_walk fd seq qual ws e = some e' →
      nobase e e' := by
  intro ws
  induction ws with
  | nil =>
    intro e e' _ h
    simp only [cigar_walk, Option.some.injEq] at h
    subst h
    exact nobase_refl e
  | cons w ws ih =>
    intro e e' hl h
    simp only [cigar_walk] at h
    split at h
    · simp at h
    rename_i e1 h1
    have hf := walk_frame_cigar_step fd seq qual w e e1 h1
    have h2 := ih e1 e' (by rw [hf.len]; exact hl) h
    cases hop : is_match_op (cigar_op_of w)
    · exact nobase_trans (cigar_step_other fd seq qual w e e1 hop h1).1 h2
    · exact nobase_trans (cigar_step_no_ref_empty fd seq qual w e e1 hnr hop hl h1) h2

theorem match_bases_nil : ∀ (ws : List Nat) (sp : Nat), match_bases [] ws sp = [] := by
  intro ws
  induction ws with
  | nil => intro sp; rfl
  | cons w ws ih =>
    intro sp
    simp only [match_bases, ih]
    split <;> simp

theorem feature_B_bases_append (a b : List cram_feature) :
    feature_B_bases (a ++ b) = feature_B_bases a ++ feature_B_bases b := by
  unfold feature_B_bases
  rw [List.filter_append, List.map_append]

theorem feature_BB_values_append (s : cram_slice) (a b : List cram_feature) :
    feature_BB_values s (a ++ b) = feature_BB_values s a ++ feature_BB_values s b := by
  unfold feature_BB_values
  rw [List.flatMap_append]

theorem feature_B_bases_none (F : List cram_feature) (h : ∀ f ∈ F, f.code ≠ 'B'.toNat) :
    feature_B_bases F = [] := by
  unfold feature_B_bases
  rw [List.filter_eq_nil_iff.mpr (fun f hf => by simpa using h f hf)]
  rfl

theorem feature_payload_no_BB (s : cram_slice) (f : cram_feature) (h : f.code ≠ 'b'.toNat) :
    series_values DS_BB ((feature_payload s f).getD []) = [] := by
  unfold feature_payload
  (repeat' split) <;> rfl

theorem feature_BB_values_none (s : cram_slice) (F : List cram_feature)
    (h : ∀ f ∈ F, f.code ≠ 'b'.toNat) : feature_BB_values s F = [] := by
  unfold feature_BB_values
  induction F with
  | nil => rfl
  | cons f fs ih =>
    rw [List.flatMap_cons, feature_payload_no_BB s f (h f (List.mem_cons_self _ _)),
      ih (fun g hg => h g (List.mem_cons_of_mem _ hg))]
    rfl

theorem bytes_from_drop_take (seq : List Nat) :
    ∀ (n p : Nat), p + n ≤ seq.length → bytes_from seq p n = (seq.drop p).take n := by
  intro n p h
  apply List.ext_getElem
  · unfold bytes_from
    simp
    omega
  · intro i h1 h2
    unfold bytes_from byte_at
    simp only [List.getElem_map, List.getElem_range, List.getElem_take, List.getElem_drop]
    unfold bytes_from at h1
    simp at h1
    rw [List.getD_eq_getElem _ _ (by omega)]

/-- The loop of `cram_add_base` over a read whose bytes are all bases: it adds
`B` features only, which carry the read bases from the read cursor on, as many
as the operation is long or the read still has. -/
theorem base_loop_bases (fd : cram_fd) (seq qual : List Nat)
    (hnz : ∀ k, k < seq.length → byte_at seq k ≠ 0) :
    ∀ (n : Nat) (e : enc), e.spos ≤ seq.length →
      ∃ new, (base_loop fd seq qual n e).s.features = e.s.features ++ new
        ∧ (∀ f ∈ new, f.code = 'B'.toNat)
        ∧ new.map (fun f => f.base) = (seq.drop e.spos).take n
        ∧ e.spos ≤ (base_loop fd seq qual n e).spos
        ∧ (base_loop fd seq qual n e).spos ≤ seq.length
        ∧ (e.spos + n ≤ seq.length → (base_loop fd seq qual n e).spos = e.spos + n)
        ∧ (seq.length ≤ e.spos + n → (base_loop fd seq qual n e).spos = seq.length) := by
  intro n
  induction n with
  | zero =>
    intro e hle
    refine ⟨[], by simp [base_loop], fun f hf => absurd hf (List.not_mem_nil f), by simp,
      Nat.le_refl _, hle, fun _ => rfl, fun h => ?_⟩
    show e.spos = seq.length
    omega
  | succ n ih =>
    intro e hle
    unfold base_loop
    by_cases h0 : byte_at seq e.spos = 0
    · rw [if_pos h0]
      have hge : seq.length ≤ e.spos := by
        by_contra hlt
        exact hnz e.spos (by omega) h0
      refine ⟨[], by simp, fun f hf => absurd hf (List.not_mem_nil f), ?_, Nat.le_refl _, hle,
        fun h => by omega, fun _ => by omega⟩
      rw [List.drop_eq_nil_of_le hge]
      rfl
    · rw [if_neg h0]
      have hlt : e.spos < seq.length := by
        by_contra hge
        apply h0
        unfold byte_at
        rw [List.getD_eq_default _ _ (by omega)]
      obtain ⟨e1, he1⟩ : ∃ e1 : enc, e1 = { cram_add_base fd e e.spos (byte_at seq e.spos)
          (byte_at qual e.spos) with spos := e.spos + 1 } := ⟨_, rfl⟩
      rw [← he1]
      have hsp : e1.spos = e.spos + 1 := by rw [he1]
      obtain ⟨f0, hf0⟩ : ∃ f0 : cram_feature, f0 = ⟨'B'.toNat, ((e.spos + 1 : Nat) : Int), 0,
          byte_at seq e.spos, char_val (bin_qual fd (byte_at qual e.spos)), 0⟩ := ⟨_, rfl⟩
      have hft : e1.s.features = e.s.features ++ [f0] := by
        rw [he1, hf0]
        exact (add_base_features fd e _ _ _).1
      obtain ⟨new, hf, hc, hb, hm1, hm2, hm3, hm4⟩ := ih e1 (by rw [hsp]; omega)
      refine ⟨f0 :: new, ?_, ?_, ?_, by omega, hm2, fun h => ?_, fun h => ?_⟩
      · rw [hf, hft, List.append_assoc]
        rfl
      · intro f hf
        rcases List.mem_cons.mp hf with h | h
        · rw [h, hf0]
        · exact hc f h
      · rw [List.map_cons, hb, hsp, List.drop_eq_getElem_cons hlt, List.take_succ_cons, hf0]
        congr 1
        unfold byte_at
        rw [List.getD_eq_getElem _ _ hlt]
      · rw [hm3 (by omega), hsp]
        omega
      · exact hm4 (by omega)

/-- In no-reference mode on a format before 3 an `M`, `=` or `X` operation of a
read with bases adds `B` features only; they carry the read bases the operation
covers. The read cursor follows the specification's offset `sp` up to the end
of the read. -/
theorem cigar_step_no_ref_B (fd : cram_fd) (seq qual : List Nat) (w : Nat) (e e' : enc)
    (hnr : fd.no_ref = true) (hv : IS_CRAM_3_VERS fd = false)
    (hop : is_match_op (cigar_op_of w) = true) (hlen : e.cr.len ≠ 0)
    (hnz : ∀ k, k < seq.length → byte_at seq k ≠ 0) (hle : e.spos ≤ seq.length)
    (h : cigar_step fd seq qual w e = some e') :
    ∃ new, e'.s.features = e.s.features ++ new
      ∧ (∀ f ∈ new, f.code = 'B'.toNat)
      ∧ new.map (fun f => f.base) = (seq.drop e.spos).take (cigar_len_of w)
      ∧ e.spos ≤ e'.spos ∧ e'.spos ≤ seq.length
      ∧ (e.spos + cigar_len_of w ≤ seq.length → e'.spos = e.spos + cigar_len_of w)
      ∧ (seq.length ≤ e.spos + cigar_len_of w → e'.spos = seq.length) := by
  unfold cigar_step at h
  dsimp only at h
  rw [if_pos (match_op_cases w hop)] at h
  unfold cigar_match cigar_match_first at h
  rw [if_neg (by rw [hnr]; simp)] at h
  simp only [Option.some.injEq] at h
  subst h
  unfold cigar_match_rest
  dsimp only
  by_cases hn : 0 < w >>> BAM_CIGAR_SHIFT
  · rw [if_pos ⟨hn, hlen⟩]
    unfold cigar_match_bases
    rw [if_pos hnr, if_neg (by rw [hv]; simp)]
    exact base_loop_bases fd seq qual hnz _ e hle
  · rw [if_neg (fun hh => hn hh.1), if_neg hlen]
    have h0 : cigar_len_of w = 0 := Nat.eq_zero_of_not_pos hn
    rw [h0]
    exact ⟨[], by simp, fun f hf => absurd hf (List.not_mem_nil f), by simp, Nat.le_refl _, hle,
      fun _ => rfl, fun h => by omega⟩

/-- In no-reference mode on format 3 or later an `M`, `=` or `X` operation of a
read with bases adds one `b` feature over the bases of the operation, or nothing
when its length is zero, and moves the read cursor by its length. -/
theorem cigar_step_no_ref_b (fd : cram_fd) (seq qual : List Nat) (w : Nat) (e e' : enc)
    (hnr : fd.no_ref = true) (hv : IS_CRAM_3_VERS fd = true)
    (hop : is_match_op (cigar_op_of w) = true) (hlen : e.cr.len ≠ 0)
    (h : cigar_step fd seq qual w e = some e') :
    e'.s.features = e.s.features
        ++ (if cigar_len_of w = 0 then [] else [bases_feature e.cr.seq e.spos (cigar_len_of w)])
      ∧ e'.spos = e.spos + cigar_len_of w := by
  by_cases hn : cigar_len_of w = 0
  · rw [if_pos hn, hn]
    unfold cigar_step at h
    dsimp only at h
    rw [if_pos (match_op_cases w hop)] at h
    unfold cigar_match cigar_match_first at h
    rw [if_neg (by rw [hnr]; simp)] at h
    simp only [Option.some.injEq] at h
    subst h
    unfold cigar_match_rest
    dsimp only
    have h0 : ¬ 0 < w >>> BAM_CIGAR_SHIFT := by
      unfold cigar_len_of at hn
      rw [hn]
      exact Nat.lt_irrefl 0
    rw [if_neg (fun hh => h0 hh.1), if_neg hlen]
    simp
  · rw [if_neg hn]
    obtain ⟨e2, he, hf, _, hs⟩ := cigar_step_no_ref_bases fd seq qual w e hnr hv hop hlen hn
    rw [he] at h
    cases h
    exact ⟨hf, hs⟩

theorem base_loop_spos_le (fd : cram_fd) (seq qual : List Nat) :
    ∀ (n : Nat) (e : enc), e.spos ≤ (base_loop fd seq qual n e).spos := by
  intro n
  induction n with
  | zero => intro e; exact Nat.le_refl _
  | succ n ih =>
    intro e
    unfold base_loop
    split
    · exact Nat.le_refl _
    · refine Nat.le_trans ?_ (ih _)
      show e.spos ≤ e.spos + 1
      omega

/-- In no-reference mode no CIGAR operation moves the read cursor back. -/
theorem cigar_step_no_ref_spos_le (fd : cram_fd) (seq qual : List Nat) (w : Nat) (e e' : enc)
    (hnr : fd.no_ref = true) (h : cigar_step fd seq qual w e = some e') : e.spos ≤ e'.spos := by
  cases hop : is_match_op (cigar_op_of w)
  · rw [(cigar_step_other fd seq qual w e e' hop h).2]
    omega
  · unfold cigar_step at h
    dsimp only at h
    rw [if_pos (match_op_cases w hop)] at h
    unfold cigar_match cigar_match_first at h
    rw [if_neg (by rw [hnr]; simp)] at h
    simp only [Option.some.injEq] at h
    subst h
    unfold cigar_match_rest
    dsimp only
    split
    · unfold cigar_match_bases
      rw [if_pos hnr]
      split
      · show e.spos ≤ e.spos + _
        exact Nat.le_add_right _ _
      · exact base_loop_spos_le fd seq qual _ e
    · split
      · show e.spos ≤ e.spos + _
        exact Nat.le_add_right _ _
      · exact Nat.le_refl _

theorem cigar_walk_no_ref_spos_le (fd : cram_fd) (seq qual : List Nat) (hnr : fd.no_ref = true) :
    ∀ (ws : List Nat) (e e' : enc), cigar_walk fd seq qual ws e = some e' →
      e.spos ≤ e'.spos := by
  intro ws
  induction ws with
  | nil =>
    intro e e' h
    simp only [cigar_walk, Option.some.injEq] at h
    subst h
    exact Nat.le_refl _
  | cons w ws ih =>
    intro e e' h
    simp only [cigar_walk] at h
    split at h
    · simp at h
    rename_i e1 h1
    exact Nat.le_trans (cigar_step_no_ref_spos_le fd seq qual w e e1 hnr h1) (ih e1 e' h)

theorem feature_B_bases_all (F : List cram_feature) (h : ∀ f ∈ F, f.code = 'B'.toNat) :
    feature_B_bases F = F.map (fun f => f.base) := by
  unfold feature_B_bases
  rw [List.filter_eq_self.mpr (fun f hf => by simpa using h f hf)]

theorem match_bases_cons_match (seq : List Nat) (w : Nat) (ws : List Nat) (sp : Nat)
    (hop : is_match_op (cigar_op_of w) = true) :
    match_bases seq (w :: ws) sp
      = (seq.drop sp).take (cigar_len_of w) ++ match_bases seq ws (sp + cigar_len_of w) := by
  have hq : op_query_len w = cigar_len_of w := (op_len_match w (match_op_cases w hop)).2
  rw [match_bases, if_pos hop, hq]

theorem match_bases_cons_other (seq : List Nat) (w : Nat) (ws : List Nat) (sp : Nat)
    (hop : is_match_op (cigar_op_of w) = false) :
    match_bases seq (w :: ws) sp = match_bases seq ws (sp + op_query_len w) := by
  rw [match_bases, if_neg (by rw [hop]; simp)]
  rfl

/-- In no-reference mode on a format before 3 the CIGAR walk of a read with
bases, when it ends inside the read, has added no `b` feature, and its `B`
features carry the read bases under the `M`, `=` and `X` operations. The read
cursor is the specification's offset `sp`, cut at the end of the read. -/
theorem cigar_walk_no_ref_B (fd : cram_fd) (seq qual : List Nat) (hnr : fd.no_ref = true)
    (hv : IS_CRAM_3_VERS fd = false) (hnz : ∀ k, k < seq.length → byte_at seq k ≠ 0) :
    ∀ (ws : List Nat) (e e' : enc) (sp : Nat), e.cr.len ≠ 0 →
      cigar_walk fd seq qual ws e = some e' → e'.spos ≤ seq.length →
      ((sp ≤ seq.length ∧ e.spos = sp) ∨ (seq.length ≤ sp ∧ e.spos = seq.length)) →
      ∃ new, e'.s.features = e.s.features ++ new
        ∧ (∀ f ∈ new, f.code ≠ 'b'.toNat)
        ∧ feature_B_bases new = match_bases seq ws sp := by
  intro ws
  induction ws with
  | nil =>
    intro e e' sp _ h _ _
    simp only [cigar_walk, Option.some.injEq] at h
    subst h
    exact ⟨[], by simp, fun f hf => absurd hf (List.not_mem_nil f), rfl⟩
  | cons w ws ih =>
    intro e e' sp hlen h hfin hsp
    simp only [cigar_walk] at h
    split at h
    · simp at h
    rename_i e1 h1
    have hf := walk_frame_cigar_step fd seq qual w e e1 h1
    have hmono := cigar_walk_no_ref_spos_le fd seq qual hnr ws e1 e' h
    have hlen1 : e1.cr.len ≠ 0 := by rw [hf.len]; exact hlen
    have hle : e.spos ≤ seq.length := by
      rcases hsp with ⟨h1, h2⟩ | ⟨_, h2⟩
      · rw [h2]; exact h1
      · rw [h2]
    cases hop : is_match_op (cigar_op_of w)
    · obtain ⟨⟨new1, hn1, hc1⟩, hs1⟩ := cigar_step_other fd seq qual w e e1 hop h1
      have hsp1 : (sp + op_query_len w ≤ seq.length ∧ e1.spos = sp + op_query_len w)
          ∨ (seq.length ≤ sp + op_query_len w ∧ e1.spos = seq.length) := by
        rcases hsp with ⟨h1, h2⟩ | ⟨h1, h2⟩
        · exact Or.inl ⟨by omega, by omega⟩
        · exact Or.inr ⟨by omega, by omega⟩
      obtain ⟨new2, hn2, hc2, hb2⟩ := ih e1 e' _ hlen1 h hfin hsp1
      refine ⟨new1 ++ new2, ?_, ?_, ?_⟩
      · rw [hn2, hn1, List.append_assoc]
      · intro f hf
        rcases List.mem_append.mp hf with hh | hh
        · exact (hc1 f hh).2
        · exact hc2 f hh
      · rw [feature_B_bases_append, feature_B_bases_none new1 (fun f hf => (hc1 f hf).1), hb2,
          match_bases_cons_other seq w ws sp hop]
        rfl
    · obtain ⟨new1, hn1, hc1, hb1, _, hm2, hm3, hm4⟩ :=
        cigar_step_no_ref_B fd seq qual w e e1 hnr hv hop hlen hnz hle h1
      have hsp1 : (sp + cigar_len_of w ≤ seq.length ∧ e1.spos = sp + cigar_len_of w)
          ∨ (seq.length ≤ sp + cigar_len_of w ∧ e1.spos = seq.length) := by
        rcases hsp with ⟨h1, h2⟩ | ⟨h1, h2⟩
        · by_cases hfit : sp + cigar_len_of w ≤ seq.length
          · exact Or.inl ⟨hfit, by rw [hm3 (by omega), h2]⟩
          · exact Or.inr ⟨by omega, hm4 (by omega)⟩
        · exact Or.inr ⟨by omega, hm4 (by omega)⟩
      obtain ⟨new2, hn2, hc2, hb2⟩ := ih e1 e' _ hlen1 h hfin hsp1
      have hdrop : (seq.drop e.spos).take (cigar_len_of w)
          = (seq.drop sp).take (cigar_len_of w) := by
        rcases hsp with ⟨_, h2⟩ | ⟨h1, h2⟩
        · rw [h2]
        · rw [h2, List.drop_eq_nil_of_le (Nat.le_refl _), List.drop_eq_nil_of_le h1]
      refine ⟨new1 ++ new2, ?_, ?_, ?_⟩
      · rw [hn2, hn1, List.append_assoc]
      · intro f hf
        rcases List.mem_append.mp hf with hh | hh
        · rw [hc1 f hh]
          decide
        · exact hc2 f hh
      · rw [feature_B_bases_append, feature_B_bases_all new1 hc1, hb1, hb2, hdrop,
          match_bases_cons_match seq w ws sp hop]

theorem series_values_single (ds : cram_DS_ID) (xs : List Int) :
    series_values ds [(ds, xs)] = xs := by
  simp [series_values]

/-- In no-reference mode on format 3 or later the CIGAR walk of a read with
bases moves the read cursor by the read bases the CIGAR consumes and adds no
`B` feature; when it ends inside the read, the slice encoder hands the read
bases under the `M`, `=` and `X` operations to the BB codec, for a slice that
holds the read at offset `cr->seq` of its sequence block. -/
theorem cigar_walk_no_ref_b (fd : cram_fd) (seq qual : List Nat) (hnr : fd.no_ref = true)
    (hv : IS_CRAM_3_VERS fd = true) :
    ∀ (ws : List Nat) (e e' : enc), e.cr.len ≠ 0 →
      cigar_walk fd seq qual ws e = some e' →
      e'.spos = e.spos + query_len ws
      ∧ ∃ new, e'.s.features = e.s.features ++ new
        ∧ (∀ f ∈ new, f.code ≠ 'B'.toNat)
        ∧ ∀ sfin : cram_slice,
            (∀ k, k < seq.length → byte_at sfin.seqs_blk (e.cr.seq + k) = byte_at seq k) →
            e'.spos ≤ seq.length →
            feature_BB_values sfin new = (match_bases seq ws e.spos).map Int.ofNat := by
  intro ws
  induction ws with
  | nil =>
    intro e e' _ h
    simp only [cigar_walk, Option.some.injEq] at h
    subst h
    exact ⟨rfl, [], by simp, fun f hf => absurd hf (List.not_mem_nil f), fun _ _ _ => rfl⟩
  | cons w ws ih =>
    intro e e' hlen h
    simp only [cigar_walk] at h
    split at h
    · simp at h
    rename_i e1 h1
    have hf := walk_frame_cigar_step fd seq qual w e e1 h1
    have hlen1 : e1.cr.len ≠ 0 := by rw [hf.len]; exact hlen
    obtain ⟨hs2, new2, hn2, hc2, hb2⟩ := ih e1 e' hlen1 h
    cases hop : is_match_op (cigar_op_of w)
    · obtain ⟨⟨new1, hn1, hc1⟩, hs1⟩ := cigar_step_other fd seq qual w e e1 hop h1
      refine ⟨?_, new1 ++ new2, ?_, ?_, ?_⟩
      · rw [hs2, hs1, query_len]
        omega
      · rw [hn2, hn1, List.append_assoc]
      · intro f hf
        rcases List.mem_append.mp hf with hh | hh
        · exact (hc1 f hh).1
        · exact hc2 f hh
      · intro sfin hlay hfin
        rw [feature_BB_values_append, feature_BB_values_none sfin new1 (fun f hf => (hc1 f hf).2),
          hb2 sfin (by rw [hf.cr_seq]; exact hlay) hfin, hs1,
          match_bases_cons_other seq w ws e.spos hop]
        rfl
    · obtain ⟨hn1, hs1⟩ := cigar_step_no_ref_b fd seq qual w e e1 hnr hv hop hlen h1
      have hq : op_query_len w = cigar_len_of w := (op_len_match w (match_op_cases w hop)).2
      obtain ⟨new1, hnew1⟩ : ∃ new1 : List cram_feature, new1
          = (if cigar_len_of w = 0 then []
              else [bases_feature e.cr.seq e.spos (cigar_len_of w)]) := ⟨_, rfl⟩
      rw [← hnew1] at hn1
      refine ⟨?_, new1 ++ new2, ?_, ?_, ?_⟩
      · rw [hs2, hs1, query_len, hq]
        omega
      · rw [hn2, hn1, List.append_assoc]
      · intro f hf
        rcases List.mem_append.mp hf with hh | hh
        · rw [hnew1] at hh
          split at hh
          · exact absurd hh (List.not_mem_nil f)
          · rw [List.mem_singleton] at hh
            rw [hh]
            exact (by decide : 'b'.toNat ≠ 'B'.toNat)
        · exact hc2 f hh
      · intro sfin hlay hfin
        rw [feature_BB_values_append, hb2 sfin (by rw [hf.cr_seq]; exact hlay) hfin, hs1,
          match_bases_cons_match seq w ws e.spos hop, List.map_append]
        congr 1
        rw [hnew1]
        by_cases hn : cigar_len_of w = 0
        · rw [if_pos hn, hn]
          rfl
        · rw [if_neg hn]
          have hp : e.spos + cigar_len_of w ≤ seq.length := by omega
          unfold feature_BB_values
          rw [List.flatMap_cons, List.flatMap_nil, List.append_nil,
            bases_feature_payload sfin seq e.cr.seq e.spos (cigar_len_of w) seq.length hlay hp,
            Option.getD_some, series_values_single, bytes_from_drop_take seq _ _ hp]

/-- The part of `process_one_read` before the mate block on a mapped record, cut
at the CIGAR walk: the read is appended to the sequence block, the walk starts
at read offset 0 and, for a read with bases, ends at the end of the read. -/
theorem por_pre_mapped_walk (fd : cram_fd) (c c1 : cram_container) (s s1 : cram_slice)
    (b : bam_seq_t) (i : Nat) (h : por_pre fd c s b i = some (c1, s1))
    (hm : has_flag b.flag BAM_FUNMAP = false) :
    ∃ e0 e2 : enc, e0.cr.len = b.len ∧ e0.spos = 0 ∧ e0.s.features = s.features
      ∧ e0.s.seqs_blk = s.seqs_blk ++ unpack_seq b.seq b.len
      ∧ e0.cr.seq = s.seqs_blk.length
      ∧ cigar_walk fd (unpack_seq b.seq b.len) b.qual b.cigar e0 = some e2
      ∧ s1.features = e2.s.features ∧ s1.seqs_blk = e2.s.seqs_blk
      ∧ (e2.cr.len ≠ 0 → e2.spos = e2.cr.len) := by
  unfold por_pre at h
  split at h
  · simp at h
  rename_i e seq hh
  split at h
  · simp at h
  rename_i e1 fq hc
  simp only [Option.some.injEq, Prod.mk.injEq] at h
  obtain ⟨rfl, rfl⟩ := h
  unfold por_head at hh
  split at hh
  · simp at hh
  rename_i rg ea ha
  simp only [Option.some.injEq] at hh
  obtain ⟨hs, hfl, hlen, _, hrf, hre, _⟩ := por_aux_spec fd c s b i rg ea ha
  obtain ⟨_, _, r3, r4, r5, _, r7, r8, r9, r10⟩ := por_head_rest_spec fd b rg ea
  have hsq : (por_head_rest fd b rg ea).1.s.seqs_blk = ea.s.seqs_blk ++ unpack_seq b.seq ea.cr.len
      ∧ (por_head_rest fd b rg ea).1.cr.seq = ea.s.seqs_blk.length := by
    unfold por_head_rest
    dsimp only [enc.stats_add]
    constructor <;> (repeat' split) <;> rfl
  rw [hh] at r3 r4 r5 r7 r8 r9 r10 hsq
  dsimp only at r3 r4 r5 r7 r8 r9 r10 hsq
  subst r10
  rw [hlen] at hc hsq
  rw [hs] at hsq r3
  obtain ⟨_, q2, q3, q4, q5⟩ := por_qual_stats fd b fq e1 DS_RL 0
  obtain ⟨_, _, p3, _, _, _, _, p8, p9⟩ := por_qual_spec fd b fq e1
  unfold por_cigar at hc
  dsimp only at hc
  rw [r4, hfl] at hc
  rw [if_pos hm] at hc
  split at hc
  · simp at hc
  rename_i e2 hw
  split at hc
  · simp at hc
  rename_i hchk
  simp only [Option.some.injEq, Prod.mk.injEq] at hc
  obtain ⟨rfl, _⟩ := hc
  refine ⟨_, e2, ?_, rfl, ?_, ?_, ?_, hw, ?_, ?_, ?_⟩
  · exact r5.trans hlen
  · exact r3
  · exact hsq.1
  · exact hsq.2
  · exact p3.trans rfl
  · exact q2.trans rfl
  · intro hl
    by_contra hne
    exact hchk ⟨hl, hne⟩

theorem byte_at_append_right (xs ys : List Nat) (k : Nat) :
    byte_at (xs ++ ys) (xs.length + k) = byte_at ys k := by
  unfold byte_at
  rw [List.getD_append_right _ _ _ _ (by omega)]
  congr 1
  omega

/-- C20: in no-reference mode `process_one_read` records no substitution: the
features it appends carry no code `X` and the DS_BS statistics stay as they
were. For a mapped record the read bases under the `M`, `=` and `X` operations
of its CIGAR are recorded as they stand in the read: on format 3 or later the
appended features hold no `B` feature and the slice encoder hands exactly those
bases, in order, to the BB codec for the `b` features; on an earlier format they
hold no `b` feature and the `B` features carry exactly those bases, in order. -/
theorem process_one_read_no_ref (fd : cram_fd) (c c' : cram_container) (s s' : cram_slice)
    (b : bam_seq_t) (i : Nat) (hnr : fd.no_ref = true)
    (h : process_one_read fd c s b i = some (c', s')) :
    ∃ new, s'.features = s.features ++ new
      ∧ (∀ f ∈ new, f.code ≠ 'X'.toNat)
      ∧ (∀ v, c'.stats DS_BS v = c.stats DS_BS v)
      ∧ (has_flag b.flag BAM_FUNMAP = false →
          if IS_CRAM_3_VERS fd = true then
            (∀ f ∈ new, f.code ≠ 'B'.toNat)
            ∧ feature_BB_values s' new
                = (match_bases (unpack_seq b.seq b.len) b.cigar 0).map Int.ofNat
          else
            (∀ f ∈ new, f.code ≠ 'b'.toNat)
            ∧ feature_B_bases new = match_bases (unpack_seq b.seq b.len) b.cigar 0) := by
  obtain ⟨⟨new, hnew, hx⟩, hbs⟩ := process_one_read_nosub fd c c' s s' b i hnr h
  refine ⟨new, hnew, hx, hbs, ?_⟩
  intro hm
  obtain ⟨c1, s1, hpre, hg, _⟩ := process_one_read_split fd c c' s s' b i h
  obtain ⟨e0, e2, hl0, hsp0, hf0, hblk0, hseq0, hw, hf1, hblk1, hend⟩ :=
    por_pre_mapped_walk fd c c1 s s1 b i hpre hm
  have hwf := walk_frame_cigar_walk fd _ b.qual b.cigar e0 e2 hw
  have hlen_seq : (unpack_seq b.seq b.len).length = b.len := (unpack_seq_spec b.seq b.len).1
  have key : ∀ new2, e2.s.features = e0.s.features ++ new2 → new2 = new := by
    intro new2 h2
    have : s.features ++ new2 = s.features ++ new := by
      rw [← hnew, hg.features, hf1, h2, hf0]
    exact List.append_cancel_left this
  by_cases hl : b.len = 0
  · obtain ⟨new2, hn2, hc2⟩ :=
      cigar_walk_no_ref_empty fd _ b.qual hnr b.cigar e0 e2 (by rw [hl0]; exact hl) hw
    have hnn := key new2 hn2
    subst hnn
    have hnil : unpack_seq b.seq b.len = [] := List.length_eq_zero.mp (by rw [hlen_seq]; exact hl)
    rw [hnil, match_bases_nil]
    split
    · exact ⟨fun f hf => (hc2 f hf).1,
        by rw [feature_BB_values_none s' new2 (fun f hf => (hc2 f hf).2)]; rfl⟩
    · exact ⟨fun f hf => (hc2 f hf).2, feature_B_bases_none new2 (fun f hf => (hc2 f hf).1)⟩
  · have hl0' : e0.cr.len ≠ 0 := by rw [hl0]; exact hl
    have hfin : e2.spos = (unpack_seq b.seq b.len).length := by
      rw [hend (by rw [hwf.len]; exact hl0'), hwf.len, hl0, hlen_seq]
    cases hv : IS_CRAM_3_VERS fd
    · rw [if_neg (by simp)]
      obtain ⟨new2, hn2, hc2, hb2⟩ := cigar_walk_no_ref_B fd _ b.qual hnr hv
        (fun k hk => byte_at_unpack_seq b.seq b.len k (by rw [← hlen_seq]; exact hk))
        b.cigar e0 e2 0 hl0' hw (by rw [hfin]) (Or.inl ⟨Nat.zero_le _, hsp0⟩)
      have hnn := key new2 hn2
      subst hnn
      exact ⟨hc2, hb2⟩
    · rw [if_pos rfl]
      obtain ⟨_, new2, hn2, hc2, hb2⟩ := cigar_walk_no_ref_b fd _ b.qual hnr hv b.cigar e0 e2 hl0' hw
      have hnn := key new2 hn2
      subst hnn
      refine ⟨hc2, ?_⟩
      rw [hb2 s' ?_ (by rw [hfin]), hsp0]
      intro k _
      rw [hg.seqs_blk, hblk1, hwf.seqs_blk, hblk0, hseq0]
      exact byte_at_append_right _ _ k

theorem process_one_read_no_ref_witness :
    (∃ new, state_no_ref.2.features = (slice_new 1).features ++ new
      ∧ (∀ f ∈ new, f.code ≠ 'X'.toNat)
      ∧ (∀ v, state_no_ref.1.stats DS_BS v = (container_new ref32).stats DS_BS v)
      ∧ (∀ f ∈ new, f.code ≠ 'B'.toNat)
      ∧ feature_BB_values state_no_ref.2 new = [65, 67, 71, 84, 84, 67, 65])
    ∧ (∃ new, state_no_ref_v2.2.features = (slice_new 1).features ++ new
      ∧ (∀ f ∈ new, f.code ≠ 'X'.toNat)
      ∧ (∀ v, state_no_ref_v2.1.stats DS_BS v = (container_new ref32).stats DS_BS v)
      ∧ (∀ f ∈ new, f.code ≠ 'b'.toNat)
      ∧ feature_B_bases new = [65, 67, 71, 84, 84, 67, 65]) := by
  constructor
  · obtain ⟨new, h1, h2, h3, h4⟩ := process_one_read_no_ref fd_v3_no_ref (container_new ref32)
      state_no_ref.1 (slice_new 1) state_no_ref.2 bam_edits 0 rfl (option_getD_eq _ _ (by decide))
    have h5 := h4 (by decide)
    rw [if_pos (by decide)] at h5
    exact ⟨new, h1, h2, h3, h5.1, h5.2.trans (by decide)⟩
  · obtain ⟨new, h1, h2, h3, h4⟩ := process_one_read_no_ref fd_v2_no_ref (container_new ref32)
      state_no_ref_v2.1 (slice_new 1) state_no_ref_v2.2 bam_edits 0 rfl
      (option_getD_eq _ _ (by decide))
    have h5 := h4 (by decide)
    rw [if_neg (by decide)] at h5
    exact ⟨new, h1, h2, h3, h5.1, h5.2.trans (by decide)⟩

/-- The read `bam_edits` (`2M 1I 3M 2D 2M` on `ACGGTTCA`) in no-reference mode:
on format 3 the three `M` operations give `b` features over 2, 3 and 2 bases, which
the slice encoder emits as `AC`, `GTT`, `CA`; on format 2.1 they give the `B`
features of the seven bases. -/
theorem process_one_read_no_ref_edits :
    state_no_ref.2.features.map (fun f => (f.code, f.len))
      = [('b'.toNat, 2), ('i'.toNat, 0), ('Q'.toNat, 0), ('b'.toNat, 3), ('D'.toNat, 2),
         ('b'.toNat, 2)]
    ∧ ((cram_encode_slice_read fd_v3_no_ref state_no_ref.1 state_no_ref.2
          (state_no_ref.2.crecs 0) 1).map
        (fun r => r.1.filter (fun x => decide (x.1 = DS_BB))))
      = some [(DS_BB, [65, 67]), (DS_BB, [71, 84, 84]), (DS_BB, [67, 65])]
    ∧ state_no_ref_v2.2.features.map (fun f => (f.code, f.base))
      = [('B'.toNat, 'A'.toNat), ('B'.toNat, 'C'.toNat), ('i'.toNat, 'G'.toNat),
         ('Q'.toNat, 0), ('B'.toNat, 'G'.toNat), ('B'.toNat, 'T'.toNat), ('B'.toNat, 'T'.toNat),
         ('D'.toNat, 0), ('B'.toNat, 'C'.toNat), ('B'.toNat, 'A'.toNat)] := by
  refine ⟨by decide, by decide, by decide⟩

/-! ## An unpaired read that matches the reference: the series of its record -/

/-- A stretch of the read that equals the reference leaves the comparison loop
at its end without a feature. -/
theorem match_loop_equal (fd : cram_fd) (seq qual : List Nat) (spos : Nat) (apos : Int) :
    ∀ (n l : Nat) (e : enc),
      (∀ k, l ≤ k → k < l + n →
        ref_at e.c.ref (apos + (k : Int)) = byte_at seq (spos + k)) →
      match_loop fd seq qual spos apos n l e = (l + n, e) := by
  intro n
  induction n with
  | zero => intro l e _; rfl
  | succ n ih =>
    intro l e heq
    rw [match_loop]
    rw [if_neg (by rw [heq l (Nat.le_refl _) (by omega)]; simp),
      ih (l + 1) e (fun k hk1 hk2 => heq k (by omega) (by omega))]
    rw [show l + 1 + n = l + (n + 1) by omega]

/-- An `M`, `=` or `X` operation over the whole read, inside the reference and
equal to it, only moves the cursors. -/
theorem cigar_match_exact (fd : cram_fd) (seq qual : List Nat) (n : Nat) (e : enc)
    (hnr : fd.no_ref = false) (hl : e.cr.len = n) (hn : n ≠ 0) (hsp : e.spos = 0)
    (hend : e.apos + (n : Int) ≤ e.c.ref_end)
    (heq : ∀ k, k < n → ref_at e.c.ref (e.apos + (k : Int)) = byte_at seq k) :
    cigar_match fd seq qual n e = some { e with spos := n, apos := e.apos + (n : Int) } := by
  have hce : cigar_match_end n e = (n : Int) := by
    unfold cigar_match_end
    split
    · rfl
    · omega
  unfold cigar_match cigar_match_first
  rw [if_pos ⟨hnr, by rw [hl]; exact hn⟩, hce, if_neg (by rw [hl]; omega), Int.toNat_ofNat,
    match_loop_equal fd seq qual e.spos e.apos n 0 e
      (fun k _ hk => by rw [hsp, Nat.zero_add]; exact heq k (by omega))]
  dsimp only
  unfold cigar_match_rest
  dsimp only
  rw [if_neg (by omega), if_neg (by rw [hl]; exact hn), hsp]
  simp

theorem cigar_step_exact (fd : cram_fd) (seq qual : List Nat) (w : Nat) (e : enc)
    (hnr : fd.no_ref = false) (hop : is_match_op (cigar_op_of w) = true)
    (hl : e.cr.len = cigar_len_of w) (hn : cigar_len_of w ≠ 0) (hsp : e.spos = 0)
    (hend : e.apos + (cigar_len_of w : Int) ≤ e.c.ref_end)
    (heq : ∀ k, k < cigar_len_of w → ref_at e.c.ref (e.apos + (k : Int)) = byte_at seq k) :
    cigar_step fd seq qual w e
      = some { e with spos := cigar_len_of w, apos := e.apos + (cigar_len_of w : Int) } := by
  unfold cigar_step
  dsimp only
  rw [if_pos (match_op_cases w hop)]
  exact cigar_match_exact fd seq qual (cigar_len_of w) e hnr hl hn hsp hend heq

/-- The CIGAR part of `process_one_read` for a mapped read whose CIGAR is one
`M`, `=` or `X` operation over the whole read, inside the reference and equal to
it: it succeeds and the record gets no feature. -/
theorem por_cigar_exact (fd : cram_fd) (b : bam_seq_t) (seq : List Nat) (e : enc) (w : Nat)
    (hnr : fd.no_ref = false) (hm : has_flag e.cr.flags BAM_FUNMAP = false)
    (hcig : b.cigar = [w]) (hop : is_match_op (cigar_op_of w) = true)
    (hl : e.cr.len = cigar_len_of w) (hn : cigar_len_of w ≠ 0)
    (hend : e.cr.apos - 1 + (cigar_len_of w : Int) ≤ e.c.ref_end)
    (heq : ∀ k, k < cigar_len_of w →
      ref_at e.c.ref (e.cr.apos - 1 + (k : Int)) = byte_at seq k) :
    ∃ e' fq, por_cigar fd b seq e = some (e', fq)
      ∧ e'.c.multi_seq = e.c.multi_seq ∧ e'.c.ref_id = e.c.ref_id
      ∧ e'.cr.nfeature = 0 ∧ e'.cr.rg = e.cr.rg ∧ e'.cr.len = e.cr.len
      ∧ e'.cr.TL = e.cr.TL ∧ e'.s.features = e.s.features := by
  unfold por_cigar
  dsimp only
  rw [if_pos hm, hcig]
  simp only [cigar_walk]
  rw [cigar_step_exact fd seq b.qual w
    { e with
      cr := { e.cr with cigar := e.s.ncigar, ncigar := [w].length, feature := 0, nfeature := 0 },
      apos := e.cr.apos - 1, spos := 0 }
    hnr hop hl hn rfl hend heq]
  dsimp only
  rw [if_neg (by rw [hl]; simp)]
  exact ⟨_, _, rfl, rfl, rfl, rfl, rfl, rfl, rfl, rfl⟩

theorem por_aux_cfg (fd : cram_fd) (c : cram_container) (s : cram_slice) (b : bam_seq_t)
    (i : Nat) (rg : Option (List Nat)) (e : enc) (h : por_aux fd c s b i = some (rg, e)) :
    e.c.multi_seq = c.multi_seq ∧ e.c.ref_id = c.ref_id ∧ (b.aux = [] → rg = none) := by
  unfold por_aux at h
  dsimp only at h
  split at h
  · simp at h
  · simp only [Option.some.injEq, Prod.mk.injEq] at h
    obtain ⟨rfl, rfl⟩ := h
    exact ⟨rfl, rfl, fun _ => rfl⟩
  · rename_i rg1 TL a1 hx
    simp only [Option.some.injEq, Prod.mk.injEq] at h
    obtain ⟨rfl, rfl⟩ := h
    refine ⟨rfl, rfl, ?_⟩
    intro ha
    unfold cram_encode_aux at hx
    rw [ha] at hx
    simp only [List.length_nil, Nat.zero_add, aux_loop] at hx
    simp at hx
    exact hx.1.symm

theorem por_head_rest_cfg (fd : cram_fd) (b : bam_seq_t) (rg : Option (List Nat)) (e1 : enc) :
    (por_head_rest fd b rg e1).1.c.multi_seq = e1.c.multi_seq
    ∧ (por_head_rest fd b rg e1).1.c.ref_id = e1.c.ref_id
    ∧ (rg = none → (por_head_rest fd b rg e1).1.cr.rg = -1)
    ∧ (por_head_rest fd b rg e1).1.cr.TL = e1.cr.TL := by
  refine ⟨?_, ?_, ?_, ?_⟩
  · unfold por_head_rest
    dsimp only [enc.stats_add]
    (repeat' split) <;> rfl
  · unfold por_head_rest
    dsimp only [enc.stats_add]
    (repeat' split) <;> rfl
  · intro hr
    subst hr
    unfold por_head_rest
    dsimp only [enc.stats_add]
    (repeat' split) <;> rfl
  · unfold por_head_rest
    dsimp only [enc.stats_add]
    (repeat' split) <;> rfl

theorem por_qual_cfg (fd : cram_fd) (b : bam_seq_t) (fq : Nat) (e : enc) (hl : e.cr.len ≠ 0) :
    (por_qual fd b fq e).c.multi_seq = e.c.multi_seq
    ∧ (por_qual fd b fq e).c.ref_id = e.c.ref_id
    ∧ (por_qual fd b fq e).cr.rg = e.cr.rg
    ∧ (por_qual fd b fq e).cr.len = e.cr.len
    ∧ (por_qual fd b fq e).cr.TL = e.cr.TL := by
  unfold por_qual
  dsimp only [enc.stats_add]
  rw [if_neg hl, if_neg hl]
  refine ⟨?_, ?_, ?_, ?_, ?_⟩ <;> (repeat' split) <;> rfl

theorem cram_encode_aux_no_tags (fd : cram_fd) (b : bam_seq_t) (len flags : Nat)
    (st : aux_state) (h : b.aux = []) :
    ∃ TL a1, cram_encode_aux fd b len flags st = aux_ret.ok (none, TL, a1) := by
  unfold cram_encode_aux
  rw [h]
  simp only [List.length_nil, Nat.zero_add, aux_loop]
  simp

theorem por_aux_no_tags (fd : cram_fd) (c : cram_container) (s : cram_slice) (b : bam_seq_t)
    (i : Nat) (h : b.aux = []) : ∃ e, por_aux fd c s b i = some (none, e) := by
  obtain ⟨TL, a1, hx⟩ := cram_encode_aux_no_tags fd b b.len b.flag c.aux h
  unfold por_aux
  dsimp only
  rw [hx]
  exact ⟨_, rfl⟩

/-- The part of `process_one_read` before the mate block succeeds for a mapped
read without tags whose single match operation covers it and equals the
reference; the record has no feature and no read group. -/
theorem por_pre_exact (fd : cram_fd) (c : cram_container) (s : cram_slice) (b : bam_seq_t)
    (i w : Nat) (hnr : fd.no_ref = false) (hflag : b.flag = 0) (haux : b.aux = [])
    (hcig : b.cigar = [w]) (hop : is_match_op (cigar_op_of w) = true)
    (hlen : cigar_len_of w = b.len) (hn : b.len ≠ 0)
    (hend : b.pos + (b.len : Int) ≤ c.ref_end)
    (heq : ∀ k, k < b.len →
      ref_at c.ref (b.pos + (k : Int)) = byte_at (unpack_seq b.seq b.len) k) :
    ∃ c1 s1, por_pre fd c s b i = some (c1, s1)
      ∧ c1.multi_seq = c.multi_seq ∧ c1.ref_id = c.ref_id
      ∧ (s1.crecs i).nfeature = 0 ∧ (s1.crecs i).rg = -1 ∧ (s1.crecs i).len = b.len := by
  obtain ⟨e0, ha⟩ := por_aux_no_tags fd c s b i haux
  obtain ⟨_, hfl, hl0, _, href, hre, _⟩ := por_aux_spec fd c s b i none e0 ha
  obtain ⟨hm0, hr0, _⟩ := por_aux_cfg fd c s b i none e0 ha
  obtain ⟨_, _, _, r4, r5, _, r7, r8, r9, r10⟩ := por_head_rest_spec fd b none e0
  obtain ⟨g1, g2, g3, _⟩ := por_head_rest_cfg fd b none e0
  obtain ⟨e1, fq, hc, q1, q2, q3, q4, q5, _, _⟩ :=
    por_cigar_exact fd b (por_head_rest fd b none e0).2 (por_head_rest fd b none e0).1 w hnr
      (by rw [r4, hfl, hflag]; rfl) hcig hop (by rw [r5, hl0, hlen]) (by rw [hlen]; exact hn)
      (by rw [r7, r9, hre, hlen]; omega)
      (fun k hk => by
        rw [r7, r8, href, r10, hl0, show b.pos + 1 - 1 + (k : Int) = b.pos + (k : Int) by omega]
        exact heq k (by rw [← hlen]; exact hk))
  have hl1 : e1.cr.len ≠ 0 := by rw [q5, r5, hl0]; exact hn
  obtain ⟨p1, p2, p3, p4, _⟩ := por_qual_cfg fd b fq e1 hl1
  obtain ⟨_, _, _, _, _, _, _, _, p9⟩ := por_qual_spec fd b fq e1
  refine ⟨(por_qual fd b fq e1).c,
    { (por_qual fd b fq e1).s with
      crecs := Function.update (por_qual fd b fq e1).s.crecs i (por_qual fd b fq e1).cr },
    ?_, ?_, ?_, ?_, ?_, ?_⟩
  · unfold por_pre por_head
    rw [ha]
    dsimp only
    rw [hc]
  · exact p1.trans (q1.trans (g1.trans hm0))
  · exact p2.trans (q2.trans (g2.trans hr0))
  · show (Function.update (por_qual fd b fq e1).s.crecs i _ i).nfeature = 0
    rw [Function.update_same, p9, q3]
  · show (Function.update (por_qual fd b fq e1).s.crecs i _ i).rg = -1
    rw [Function.update_same, p3, q4, g3 rfl]
  · show (Function.update (por_qual fd b fq e1).s.crecs i _ i).len = b.len
    rw [Function.update_same, p4, q5, r5, hl0]

theorem por_tail_cfg (c : cram_container) (s : cram_slice) (b : bam_seq_t) (i : Nat) :
    (por_tail c s b i).1.multi_seq = c.multi_seq ∧ (por_tail c s b i).1.ref_id = c.ref_id
    ∧ (por_tail c s b i).2.crecs i
        = { s.crecs i with mqual := b.map_qual, mate_ref_id := b.mate_ref } := by
  unfold por_tail
  dsimp only [cram_container.add]
  refine ⟨?_, ?_, ?_⟩
  · (repeat' split) <;> rfl
  · (repeat' split) <;> rfl
  · rw [upd_crecs_same]

theorem mate_detached_unpaired (c : cram_container) (s : cram_slice) (b : bam_seq_t) (i : Nat)
    (hflag : b.flag = 0) :
    (mate_detached c s b i).1.multi_seq = c.multi_seq
    ∧ (mate_detached c s b i).1.ref_id = c.ref_id
    ∧ ((mate_detached c s b i).2.crecs i).mate_flags = 0
    ∧ ((mate_detached c s b i).2.crecs i).mate_pos = max (b.mate_pos + 1) 0
    ∧ ((mate_detached c s b i).2.crecs i).tlen = b.ins_size
    ∧ ((mate_detached c s b i).2.crecs i).flags = (s.crecs i).flags
    ∧ ((mate_detached c s b i).2.crecs i).len = (s.crecs i).len
    ∧ ((mate_detached c s b i).2.crecs i).apos = (s.crecs i).apos
    ∧ ((mate_detached c s b i).2.crecs i).rg = (s.crecs i).rg
    ∧ ((mate_detached c s b i).2.crecs i).nfeature = (s.crecs i).nfeature
    ∧ has_flag ((mate_detached c s b i).2.crecs i).cram_flags CRAM_FLAG_DETACHED = true := by
  simp only [mate_detached]
  rw [upd_crecs_same, hflag]
  refine ⟨rfl, rfl, rfl, rfl, rfl, rfl, rfl, rfl, rfl, rfl, ?_⟩
  dsimp only
  rw [has_flag_or_other _ _ _ (by decide)]
  exact has_flag_or_self _ _ (by decide)

/-- C function `process_one_read` on an unpaired mapped read without tags that
matches the reference exactly: it succeeds, the record has no feature and no
read group, and it takes the `detached:` arm, so that it is DETACHED and carries
the mate fields of the BAM record. -/
theorem process_one_read_unpaired (fd : cram_fd) (c : cram_container) (s : cram_slice)
    (b : bam_seq_t) (i w : Nat) (hnr : fd.no_ref = false) (hflag : b.flag = 0)
    (haux : b.aux = []) (hcig : b.cigar = [w]) (hop : is_match_op (cigar_op_of w) = true)
    (hlen : cigar_len_of w = b.len) (hn : b.len ≠ 0)
    (hend : b.pos + (b.len : Int) ≤ c.ref_end)
    (heq : ∀ k, k < b.len →
      ref_at c.ref (b.pos + (k : Int)) = byte_at (unpack_seq b.seq b.len) k) :
    ∃ c1 s1, process_one_read fd c s b i = some (c1, s1)
      ∧ c1.multi_seq = c.multi_seq ∧ c1.ref_id = c.ref_id
      ∧ (s1.crecs i).flags = 0 ∧ (s1.crecs i).len = b.len ∧ (s1.crecs i).apos = b.pos + 1
      ∧ (s1.crecs i).rg = -1 ∧ (s1.crecs i).nfeature = 0
      ∧ has_flag (s1.crecs i).cram_flags CRAM_FLAG_DETACHED = true
      ∧ (s1.crecs i).mate_flags = 0 ∧ (s1.crecs i).mate_ref_id = b.mate_ref
      ∧ (s1.crecs i).mate_pos = max (b.mate_pos + 1) 0 ∧ (s1.crecs i).tlen = b.ins_size
      ∧ (s1.crecs i).mqual = b.map_qual := by
  obtain ⟨c0, s0, hp, k1, k2, k3, k4, k5⟩ :=
    por_pre_exact fd c s b i w hnr hflag haux hcig hop hlen hn hend heq
  obtain ⟨_, _, f1, f2, _⟩ := por_pre_spec fd c c0 s s0 b i hp
  have hm : por_mate fd c0 s0 b i = mate_detached c0 s0 b i := by
    unfold por_mate
    rw [if_neg (by rw [f1, hflag]; decide)]
  obtain ⟨d1, d2, d3, d4, d5, d6, d7, d8, d9, d10, d11⟩ :=
    mate_detached_unpaired c0 s0 b i hflag
  obtain ⟨t1, t2, t3⟩ :=
    por_tail_cfg (mate_detached c0 s0 b i).1 (mate_detached c0 s0 b i).2 b i
  refine ⟨(por_tail (mate_detached c0 s0 b i).1 (mate_detached c0 s0 b i).2 b i).1,
    (por_tail (mate_detached c0 s0 b i).1 (mate_detached c0 s0 b i).2 b i).2,
    ?_, ?_, ?_, ?_, ?_, ?_, ?_, ?_, ?_, ?_, ?_, ?_, ?_, ?_⟩
  · unfold process_one_read
    rw [hp]
    dsimp only
    rw [hm]
  · exact t1.trans (d1.trans k1)
  · exact t2.trans (d2.trans k2)
  · rw [t3]; exact d6.trans (f1.trans hflag)
  · rw [t3]; exact d7.trans k5
  · rw [t3]; exact d8.trans f2
  · rw [t3]; exact d9.trans k4
  · rw [t3]; exact d10.trans k3
  · rw [t3]; exact d11
  · rw [t3]; exact d3
  · rw [t3]
  · rw [t3]; exact d4
  · rw [t3]; exact d5
  · rw [t3]

/-- C function `cram_encode_slice_read` on a mapped, DETACHED record without
features in a position-sorted, single-reference slice: the codec calls are BF,
CF, RL, AP as the distance to `last_pos`, RG, the four detached mate series,
TL, FN and MQ, in this order. -/
theorem cram_encode_slice_read_detached (fd : cram_fd) (c : cram_container) (s : cram_slice)
    (cr : cram_record) (last_pos : Int) (hm : has_flag cr.flags BAM_FUNMAP = false)
    (hnf : cr.nfeature = 0) (hdet : has_flag cr.cram_flags CRAM_FLAG_DETACHED = true)
    (hri : s.ref_seq_id ≠ -2) (hps : c.pos_sorted = true) :
    cram_encode_slice_read fd c s cr last_pos
      = some ([(DS_BF, [(fd.cram_flag_swap (cr.flags &&& 4095) : Int)]),
          (DS_CF, [((cr.cram_flags &&& CRAM_FLAG_MASK : Nat) : Int)]),
          (DS_RL, [(cr.len : Int)]), (DS_AP, [cr.apos - last_pos]), (DS_RG, [cr.rg]),
          (DS_MF, [(cr.mate_flags : Int)]), (DS_NS, [cr.mate_ref_id]),
          (DS_NP, [cr.mate_pos]), (DS_TS, [cr.tlen]), (DS_TL, [cr.TL]),
          (DS_FN, [0]), (DS_MQ, [cr.mqual])], cr.apos) := by
  unfold cram_encode_slice_read record_features
  dsimp only
  rw [if_pos hm, if_neg hri, if_pos hps, if_pos hps, if_pos hdet, hnf]
  simp [encode_features]

theorem clear_cram_flags_last_apos : ∀ (n r2 : Nat) (s : cram_slice),
    (clear_cram_flags n r2 s).last_apos = s.last_apos := by
  intro n
  induction n with
  | zero => intro r2 s; rfl
  | succ n ih =>
    intro r2 s
    simp only [clear_cram_flags]
    exact (ih _ _).trans rfl

theorem mark_names_last_apos (names : HashTable name_count) :
    ∀ (bs : List bam_seq_t) (r2 : Nat) (s : cram_slice),
      (mark_names names bs r2 s).last_apos = s.last_apos := by
  intro bs
  induction bs with
  | nil => intro r2 s; rfl
  | cons b bs ih =>
    intro r2 s
    simp only [mark_names]
    exact (ih _ _).trans rfl

theorem lossy_read_names_last_apos (fd : cram_fd) (s : cram_slice) (bams : List bam_seq_t) :
    (lossy_read_names fd s bams).last_apos = s.last_apos := by
  unfold lossy_read_names
  split
  · exact clear_cram_flags_last_apos _ _ _
  · exact mark_names_last_apos _ _ _ _

theorem add_read_names_cfg (fd : cram_fd) :
    ∀ (bams : List bam_seq_t) (r2 : Nat) (c : cram_container) (s : cram_slice),
      (add_read_names fd bams r2 c s).1.multi_seq = c.multi_seq
      ∧ (add_read_names fd bams r2 c s).1.ref_id = c.ref_id
      ∧ (add_read_names fd bams r2 c s).1.pos_sorted = c.pos_sorted := by
  intro bams
  induction bams with
  | nil => intro r2 c s; exact ⟨rfl, rfl, rfl⟩
  | cons b bs ih =>
    intro r2 c s
    simp only [add_read_names]
    obtain ⟨h1, h2, h3⟩ := ih (r2 + 1)
      (c.add DS_RN (((add_read_name fd b r2 s).crecs r2).name_len : Int))
      (add_read_name fd b r2 s)
    exact ⟨h1.trans rfl, h2.trans rfl, h3.trans rfl⟩

/-- C16 (as amended): for a slice holding a single mapped read with flag 0
(unpaired) and no tags, whose one match operation covers the read and whose
bases equal the reference, in a position-sorted single-reference container, the
slice is built and the series values written for the record are exactly BF, CF,
RL, AP = 0, RG = -1, MF = 0, NS, NP, TS, TL, FN = 0 and MQ, in that order: the
unpaired record takes the `detached:` arm, so it is DETACHED and the mate series
MF, NS, NP and TS are written from the mate fields of the BAM record; NF is not
written. -/
theorem encode_slice_unpaired_exact (fd : cram_fd) (c : cram_container) (s : cram_slice)
    (b : bam_seq_t) (w : Nat) (hnr : fd.no_ref = false) (hflag : b.flag = 0)
    (haux : b.aux = []) (hcig : b.cigar = [w]) (hop : is_match_op (cigar_op_of w) = true)
    (hlen : cigar_len_of w = b.len) (hn : b.len ≠ 0)
    (hend : b.pos + (b.len : Int) ≤ c.ref_end)
    (heq : ∀ k, k < b.len →
      ref_at c.ref (b.pos + (k : Int)) = byte_at (unpack_seq b.seq b.len) k)
    (hms : c.multi_seq = false) (hri : c.ref_id ≠ -2) (hps : c.pos_sorted = true)
    (hla : s.last_apos ≤ b.pos + 1) (hmax : b.pos + 1 < INT64_MAX) :
    ∃ c1 s1 hdr, encode_slice_records_hdr fd c s [b] = some (c1, s1, hdr)
      ∧ has_flag (s1.crecs 0).cram_flags CRAM_FLAG_DETACHED = true
      ∧ encode_slice_reads fd c1 s1 hdr
        = some [(DS_BF, [(fd.cram_flag_swap 0 : Int)]),
            (DS_CF, [(((s1.crecs 0).cram_flags &&& CRAM_FLAG_MASK : Nat) : Int)]),
            (DS_RL, [(b.len : Int)]), (DS_AP, [0]), (DS_RG, [-1]),
            (DS_MF, [0]), (DS_NS, [b.mate_ref]), (DS_NP, [max (b.mate_pos + 1) 0]),
            (DS_TS, [b.ins_size]), (DS_TL, [(s1.crecs 0).TL]), (DS_FN, [0]),
            (DS_MQ, [b.map_qual])] := by
  obtain ⟨c0, s0, hp, a1, a2, a3, a4, a5, a6, a7, a8, a9, a10, a11, a12, a13⟩ :=
    process_one_read_unpaired fd c (lossy_read_names fd s [b]) b 0 w hnr hflag haux hcig hop
      hlen hn hend heq
  obtain ⟨hs0, _⟩ := process_one_read_sorted fd c c0 (lossy_read_names fd s [b]) s0 b 0 hp
  rw [lossy_read_names_last_apos, hps] at hs0
  have hs1 : c0.pos_sorted = true := by
    rw [hs0]
    simp
    exact hla
  have hsw : switch_ref fd c b = some c := by
    unfold switch_ref
    rw [if_neg (by rw [hms]; simp)]
  obtain ⟨n1, n2, n3⟩ := add_read_names_cfg fd [b] 0 c0 s0
  obtain ⟨_, _, hrec, _⟩ := add_read_names_spec fd [b] 0 c0 s0
  obtain ⟨na, nb, hr0⟩ := hrec 0
  have hrange : process_reads_range fd [b] 0 c (lossy_read_names fd s [b]) INT64_MAX INT64_MIN
      = some (c0, s0, b.pos + 1,
          if INT64_MIN < (s0.crecs 0).aend then (s0.crecs 0).aend else INT64_MIN) := by
    simp only [process_reads_range]
    rw [hsw]
    dsimp only
    rw [hp]
    dsimp only
    rw [a5, if_pos hmax]
  unfold encode_slice_records_hdr
  rw [hrange]
  dsimp only
  rw [n1, a1, hms]
  simp only [Bool.false_eq_true, if_false]
  refine ⟨_, _, _, rfl, ?_, ?_⟩
  · dsimp only
    rw [hr0]
    exact a8
  · unfold encode_slice_reads
    dsimp only [List.length_cons, List.length_nil]
    simp only [encode_reads]
    rw [cram_encode_slice_read_detached fd _ _ _ _ (by rw [hr0]; dsimp only; rw [a3]; rfl)
      (by rw [hr0]; exact a7) (by rw [hr0]; exact a8) (by dsimp only; rw [n2, a2]; exact hri)
      (by rw [n3]; exact hs1)]
    dsimp only
    rw [hr0]
    dsimp only
    rw [a3, a4, a5, a6, a9, a10, a11, a12, a13]
    simp

theorem encode_slice_unpaired_exact_witness :
    ∃ c1 s1 hdr,
      encode_slice_records_hdr fd_v3 (container_new ref8) (slice_new 1) [bam_exact]
        = some (c1, s1, hdr)
      ∧ has_flag (s1.crecs 0).cram_flags CRAM_FLAG_DETACHED = true
      ∧ encode_slice_reads fd_v3 c1 s1 hdr
        = some [(DS_BF, [0]),
            (DS_CF, [(((s1.crecs 0).cram_flags &&& CRAM_FLAG_MASK : Nat) : Int)]),
            (DS_RL, [8]), (DS_AP, [0]), (DS_RG, [-1]), (DS_MF, [0]), (DS_NS, [-1]),
            (DS_NP, [0]), (DS_TS, [0]), (DS_TL, [(s1.crecs 0).TL]), (DS_FN, [0]),
            (DS_MQ, [0])] :=
  encode_slice_unpaired_exact fd_v3 (container_new ref8) (slice_new 1) bam_exact
    (cigar_word 0 8) rfl rfl rfl rfl (by decide) (by decide) (by decide) (by decide)
    (by decide) rfl (by decide) rfl (by decide) (by decide)

/-- C16 (counterexample): the slice that holds the one unpaired read `ACGTACGT`
at position 1 of the reference `ACGTACGT` (flag 0, CIGAR `8M`, no mate) is
written with the mate series MF, NS, NP and TS between RG and TL, and CF has the
DETACHED bit (value 3). -/
theorem emissions_exact_mate_series :
    emissions_exact
      = some [(DS_BF, [0]), (DS_CF, [3]), (DS_RL, [8]), (DS_AP, [0]), (DS_RG, [-1]),
          (DS_MF, [0]), (DS_NS, [-1]), (DS_NP, [0]), (DS_TS, [0]), (DS_TL, [0]),
          (DS_FN, [0]), (DS_MQ, [0])] := by
  decide

/-! ## The conditions under which two records are linked -/

theorem mate_linkable_cases (fd : cram_fd) (b : bam_seq_t) (cr p : cram_record)
    (h : mate_linkable fd b cr p = true) :
    b.ins_size = mate_sign cr p * mate_span cr p
    ∧ max (b.mate_pos + 1) 0 = p.apos
    ∧ p.ref_id = cr.ref_id
    ∧ p.tlen = -(mate_sign cr p) * mate_span cr p
    ∧ p.mate_pos = cr.apos
    ∧ has_flag cr.flags BAM_FSUPPLEMENTARY = false
    ∧ has_flag p.flags BAM_FSUPPLEMENTARY = false
    ∧ (fd.lossy_read_names = true →
        has_flag cr.cram_flags CRAM_FLAG_DISCARD_NAME = true
        ∧ has_flag p.cram_flags CRAM_FLAG_DISCARD_NAME = true) := by
  unfold mate_linkable at h
  simp only [Bool.and_eq_true, decide_eq_true_eq, Bool.not_eq_true', Bool.or_eq_false_iff,
    Bool.and_eq_false_imp, Bool.not_eq_false'] at h
  obtain ⟨⟨⟨⟨⟨⟨⟨⟨⟨⟨h1, h2⟩, _⟩, _⟩, h5⟩, h6⟩, h7⟩, _⟩, _⟩, h10⟩, h11⟩ := h
  refine ⟨h1, h2, h5, h6, h7, h10.1, h10.2, ?_⟩
  intro hl
  have := h11 hl
  simpa using this

theorem add_substitution_pool (fd : cram_fd) (e : enc) (pos base qual ref : Nat) :
    ∃ f : cram_feature,
      (cram_add_substitution fd e pos base qual ref).s.features = e.s.features ++ [f]
      ∧ f.pos = ((pos + 1 : Nat) : Int)
      ∧ (cram_add_substitution fd e pos base qual ref).cr.nfeature = e.cr.nfeature + 1
      ∧ (cram_add_substitution fd e pos base qual ref).cr.feature
          = (if e.cr.nfeature = 0 then e.s.features.length else e.cr.feature)
      ∧ ∀ v, (cram_add_substitution fd e pos base qual ref).c.stats DS_FN v
          = e.c.stats DS_FN v := by
  unfold cram_add_substitution
  split
  · refine ⟨_, (add_feature_fields _ _).1, rfl, (add_feature_fields _ _).2.2.1,
      (add_feature_fields _ _).2.2.2, ?_⟩
    intro v
    rw [add_feature_stats]
    simp [emitted, enc.stats_add, cram_stats_add]
  · refine ⟨_, (add_feature_fields _ _).1, rfl, (add_feature_fields _ _).2.2.1,
      (add_feature_fields _ _).2.2.2, ?_⟩
    intro v
    rw [add_feature_stats]
    simp [emitted, enc.stats_add, cram_stats_add]

/-- The comparison loop over bases of the read: every offset at which read and
reference differ gets one feature, at its 1-based read position. -/
theorem match_loop_pool (fd : cram_fd) (seq qual : List Nat) (spos : Nat) (apos : Int) :
    ∀ (n l : Nat) (e : enc), (∀ k, l ≤ k → k < l + n → byte_at seq (spos + k) ≠ 0) →
      ∃ new : List cram_feature,
        (match_loop fd seq qual spos apos n l e).2.s.features = e.s.features ++ new
        ∧ new.map (fun f => f.pos)
            = ((List.range' l n).filter (fun (k : Nat) =>
                decide (ref_at e.c.ref (apos + (k : Int)) ≠ byte_at seq (spos + k)))).map
                (fun (k : Nat) => ((spos + k + 1 : Nat) : Int))
        ∧ (match_loop fd seq qual spos apos n l e).2.cr.nfeature = e.cr.nfeature + new.length
        ∧ (match_loop fd seq qual spos apos n l e).2.cr.feature
            = (if e.cr.nfeature = 0 ∧ new ≠ [] then e.s.features.length else e.cr.feature)
        ∧ ∀ v, (match_loop fd seq qual spos apos n l e).2.c.stats DS_FN v
            = e.c.stats DS_FN v := by
  intro n
  induction n with
  | zero =>
    intro l e _
    exact ⟨[], by simp [match_loop], by simp, by simp [match_loop], by simp [match_loop],
      fun v => by simp [match_loop]⟩
  | succ n ih =>
    intro l e hnz
    have hsp : byte_at seq (spos + l) ≠ 0 := hnz l (Nat.le_refl _) (by omega)
    rw [match_loop]
    by_cases hne : ref_at e.c.ref (apos + (l : Int)) ≠ byte_at seq (spos + l)
    · rw [if_pos hne, if_neg hsp]
      obtain ⟨f, f1, f2, f3, f4, f5⟩ := add_substitution_pool fd e (spos + l)
        (byte_at seq (spos + l)) (byte_at qual (spos + l)) (ref_at e.c.ref (apos + (l : Int)))
      have href := (walk_frame_add_substitution fd e (spos + l) (byte_at seq (spos + l))
        (byte_at qual (spos + l)) (ref_at e.c.ref (apos + (l : Int)))).ref
      obtain ⟨new, n1, n2, n3, n4, n5⟩ := ih (l + 1) _ (fun k hk1 hk2 => hnz k (by omega) (by omega))
      refine ⟨f :: new, ?_, ?_, ?_, ?_, ?_⟩
      · rw [n1, f1]; simp
      · rw [List.range'_succ, List.filter_cons_of_pos (by simpa using hne)]
        rw [List.map_cons, List.map_cons, f2, n2, href]
      · rw [n3, f3]; simp; omega
      · rw [n4, f3, f4]
        simp
      · intro v; rw [n5, f5]
    · rw [if_neg hne]
      obtain ⟨new, n1, n2, n3, n4, n5⟩ := ih (l + 1) e (fun k hk1 hk2 => hnz k (by omega) (by omega))
      refine ⟨new, n1, ?_, n3, n4, n5⟩
      rw [List.range'_succ, List.filter_cons_of_neg (by simpa using hne)]
      exact n2

/-- An `M`, `=` or `X` operation over the whole read, inside the reference: the
arm succeeds, both cursors advance by the length, and the features added are
one per offset at which read and reference differ. -/
theorem cigar_match_pool (fd : cram_fd) (seq qual : List Nat) (n : Nat) (e : enc)
    (hnr : fd.no_ref = false) (hl : e.cr.len = n) (hn : n ≠ 0) (hsp : e.spos = 0)
    (hend : e.apos + (n : Int) ≤ e.c.ref_end) (hnz : ∀ k, k < n → byte_at seq k ≠ 0) :
    ∃ (e' : enc) (new : List cram_feature), cigar_match fd seq qual n e = some e'
      ∧ e'.spos = n ∧ e'.apos = e.apos + (n : Int)
      ∧ e'.s.features = e.s.features ++ new
      ∧ new.map (fun f => f.pos)
          = (mismatch_offsets e.c.ref seq e.apos n).map (fun (l : Nat) => ((l + 1 : Nat) : Int))
      ∧ e'.cr.nfeature = e.cr.nfeature + new.length
      ∧ e'.cr.feature
          = (if e.cr.nfeature = 0 ∧ new ≠ [] then e.s.features.length else e.cr.feature)
      ∧ (∀ v, e'.c.stats DS_FN v = e.c.stats DS_FN v)
      ∧ e'.cr.len = e.cr.len ∧ e'.c.ref_end = e.c.ref_end := by
  have hce : cigar_match_end n e = (n : Int) := by
    unfold cigar_match_end
    split
    · rfl
    · omega
  have hfull := match_loop_full fd seq qual e.spos e.apos n 0 e
    (fun k _ hk => by rw [hsp, Nat.zero_add]; exact hnz k (by omega))
  obtain ⟨new, n1, n2, n3, n4, n5⟩ := match_loop_pool fd seq qual e.spos e.apos n 0 e
    (fun k _ hk => by rw [hsp, Nat.zero_add]; exact hnz k (by omega))
  have hfr := walk_frame_match_loop fd seq qual e.spos e.apos n 0 e
  unfold cigar_match cigar_match_first
  rw [if_pos ⟨hnr, by rw [hl]; exact hn⟩, hce, if_neg (by rw [hl]; omega), Int.toNat_ofNat]
  generalize match_loop fd seq qual e.spos e.apos n 0 e = r at hfull n1 n2 n3 n4 n5 hfr
  rw [Nat.zero_add] at hfull
  dsimp only
  unfold cigar_match_rest
  dsimp only
  rw [hfull, if_neg (by omega), if_neg (by rw [hfr.len, hl]; exact hn)]
  refine ⟨_, new, rfl, by simp [hsp], rfl, n1, ?_, n3, n4, n5, hfr.len, hfr.ref_end⟩
  rw [n2]
  unfold mismatch_offsets
  rw [List.range_eq_range', hsp]
  simp

/-- The part of `process_one_read` before the mate block succeeds for a mapped
read whose single match operation covers it inside the reference, unless
`cram_encode_aux` crashes. -/
theorem por_pre_single_match (fd : cram_fd) (c : cram_container) (s : cram_slice)
    (b : bam_seq_t) (i w : Nat) (haux : (por_aux fd c s b i).isSome = true)
    (hnr : fd.no_ref = false) (hm : has_flag b.flag BAM_FUNMAP = false) (hn : b.len ≠ 0)
    (hcig : b.cigar = [w]) (hop : is_match_op (cigar_op_of w) = true)
    (hlen : cigar_len_of w = b.len) (hend : b.pos + (b.len : Int) ≤ c.ref_end) :
    ∃ c1 s1, por_pre fd c s b i = some (c1, s1) := by
  cases ha : por_aux fd c s b i with
  | none => rw [ha] at haux; simp at haux
  | some x =>
    obtain ⟨rg, e0⟩ := x
    obtain ⟨_, hfl, hl0, _, _, hre, _⟩ := por_aux_spec fd c s b i rg e0 ha
    obtain ⟨_, _, _, r4, r5, _, r7, _, r9, r10⟩ := por_head_rest_spec fd b rg e0
    unfold por_pre por_head
    rw [ha]
    dsimp only
    generalize por_head_rest fd b rg e0 = R at r4 r5 r7 r9 r10
    obtain ⟨E, seq⟩ := R
    dsimp only at r4 r5 r7 r9 r10 ⊢
    have hnz : ∀ k, k < cigar_len_of w → byte_at seq k ≠ 0 := by
      intro k hk
      rw [r10, hl0]
      exact byte_at_unpack_seq b.seq b.len k (by rw [← hlen]; exact hk)
    obtain ⟨e', new, hc, hsp, _, _, _, _, _, _, hlen', _⟩ :=
      cigar_match_pool fd seq b.qual (cigar_len_of w)
        { E with
          cr := { E.cr with cigar := E.s.ncigar, ncigar := [w].length, feature := 0,
                            nfeature := 0 },
          apos := E.cr.apos - 1, spos := 0 }
        hnr (by rw [hlen]; exact r5.trans hl0) (by rw [hlen]; exact hn) rfl
        (by
          show E.cr.apos - 1 + (cigar_len_of w : Int) ≤ E.c.ref_end
          rw [r7, r9, hre, hlen]; omega)
        hnz
    have hcw : por_cigar fd b seq E = some
        (({ e' with
            cr := { e'.cr with aend := if fd.no_ref then e'.apos else min e'.apos e'.c.ref_end },
            s := { e'.s with cigar := [w] ++ e'.s.cigar.drop [w].length } } : enc).stats_add
          DS_FN (e'.cr.nfeature : Int), e'.spos) := by
      unfold por_cigar
      dsimp only
      rw [if_pos (by rw [r4, hfl]; exact hm), hcig]
      simp only [cigar_walk]
      have hstep : cigar_step fd seq b.qual w
          { E with
            cr := { E.cr with cigar := E.s.ncigar, ncigar := [w].length, feature := 0,
                              nfeature := 0 },
            apos := E.cr.apos - 1, spos := 0 } = some e' := by
        unfold cigar_step
        dsimp only
        rw [if_pos (match_op_cases w hop)]
        exact hc
      rw [hstep]
      dsimp only
      rw [if_neg (by rw [hsp, hlen']; simp; intro _; exact (r5.trans (hl0.trans hlen.symm)).symm)]
    rw [hcw]
    exact ⟨_, _, rfl⟩

/-- C30: in reference-based mode, for every mapped record with a non-empty
sequence whose CIGAR is a single `M` (or `=`/`X`) operation over the read, lying
inside the reference, `process_one_read` succeeds (unless `cram_encode_aux`
crashes on a tag) and: `nfeature` is the number of read positions whose base
differs from the reference base; the positions of the record's features are, in
order, the 1-based read offsets of these positions; exactly the value `nfeature`
is added once to the DS_FN statistics; `aend = apos + length - 1`; and
`nfeature = 0` when the read equals the reference. -/
theorem process_one_read_single_match (fd : cram_fd) (c : cram_container) (s : cram_slice)
    (b : bam_seq_t) (i w : Nat) (haux : (por_aux fd c s b i).isSome = true)
    (hnr : fd.no_ref = false) (hm : has_flag b.flag BAM_FUNMAP = false) (hn : b.len ≠ 0)
    (hcig : b.cigar = [w]) (hop : is_match_op (cigar_op_of w) = true)
    (hlen : cigar_len_of w = b.len) (hend : b.pos + (b.len : Int) ≤ c.ref_end) :
    ∃ c' s', process_one_read fd c s b i = some (c', s')
      ∧ (s'.crecs i).nfeature
          = (mismatch_offsets c.ref (unpack_seq b.seq b.len) b.pos b.len).length
      ∧ (record_features s' (s'.crecs i)).map (fun f => f.pos)
          = (mismatch_offsets c.ref (unpack_seq b.seq b.len) b.pos b.len).map
              (fun (l : Nat) => ((l + 1 : Nat) : Int))
      ∧ (∀ v, c'.stats DS_FN v
          = c.stats DS_FN v + (if v = ((s'.crecs i).nfeature : Int) then 1 else 0))
      ∧ (s'.crecs i).aend = (s'.crecs i).apos + (b.len : Int) - 1
      ∧ ((∀ l, l < b.len →
            ref_at c.ref (b.pos + (l : Int)) = byte_at (unpack_seq b.seq b.len) l) →
          (s'.crecs i).nfeature = 0) := by
  obtain ⟨c1, s1, hp⟩ := por_pre_single_match fd c s b i w haux hnr hm hn hcig hop hlen hend
  have hrun : process_one_read fd c s b i
      = some (por_tail (por_mate fd c1 s1 b i).1 (por_mate fd c1 s1 b i).2 b i) := by
    unfold process_one_read
    rw [hp]
  generalize por_tail (por_mate fd c1 s1 b i).1 (por_mate fd c1 s1 b i).2 b i = R at hrun
  obtain ⟨c', s'⟩ := R
  obtain ⟨c1', s1', hp', hgeom, hst⟩ := process_one_read_split fd c c' s s' b i hrun
  rw [hp] at hp'
  simp only [Option.some.injEq, Prod.mk.injEq] at hp'
  obtain ⟨rfl, rfl⟩ := hp'
  have ha3 : has_flag b.flag BAM_FUNMAP = false → fd.no_ref = false →
      (b.len = 0 ∨ query_len b.cigar = b.len) →
      (s'.crecs i).aend
        = min ((s'.crecs i).apos + (ref_len b.cigar : Int) - 1) c.ref_end := by
    rw [(hgeom.recs i).aend, (hgeom.recs i).apos]
    exact (por_pre_aend fd c c1 s s1 b i hp).2.2
  obtain ⟨_, _, _, hapos, _⟩ := por_pre_spec fd c c1 s s1 b i hp
  obtain ⟨e0, e2, ⟨k1, k2, k3, k4, k5, k6, k7, _, _⟩, kst, hw, ⟨m1, _, m3, m4, _, _⟩, mst⟩ :=
    por_pre_mapped fd c c1 s s1 b i hp hm
  rw [hcig] at hw
  simp only [cigar_walk] at hw
  obtain ⟨e', new, hc, _, _, n1, n2, n3, n4, n5, _, _⟩ :=
    cigar_match_pool fd (unpack_seq b.seq b.len) b.qual (cigar_len_of w) e0 hnr
      (by rw [hlen]; exact k3) (by rw [hlen]; exact hn) k5
      (by rw [k4, k2, hlen]; exact hend)
      (fun k hk => byte_at_unpack_seq b.seq b.len k (by rw [← hlen]; exact hk))
  have hstep : cigar_step fd (unpack_seq b.seq b.len) b.qual w e0 = some e' := by
    unfold cigar_step
    dsimp only
    rw [if_pos (match_op_cases w hop)]
    exact hc
  rw [hstep] at hw
  simp only [Option.some.injEq] at hw
  subst hw
  rw [k1, k4, hlen] at n2
  rw [k7, Nat.zero_add] at n3
  rw [k6] at n1
  have hnf : (s'.crecs i).nfeature = new.length := by
    rw [(hgeom.recs i).nfeature, m3, n3]
  have hlen2 : new.length
      = (mismatch_offsets c.ref (unpack_seq b.seq b.len) b.pos b.len).length := by
    have := congrArg List.length n2
    simpa using this
  refine ⟨c', s', hrun, hnf.trans hlen2, ?_, ?_, ?_, ?_⟩
  · rw [record_features_of_pool s.features new _ _ (by rw [hgeom.features, m1, n1]) hnf
      (by
        intro hne
        rw [(hgeom.recs i).feature, m4, n4, k7, k6, if_pos ⟨rfl, hne⟩])]
    exact n2
  · intro v
    rw [hst DS_FN v (by decide) (by decide) (by decide) (by decide) (by decide) (by decide)
      (by decide), mst DS_FN v, n5 v, kst DS_FN v (by decide) (by decide) (by decide), hnf, n3]
    simp only [emitted]
    by_cases hv : v = (new.length : Int)
    · subst hv
      simp
    · have hv' : ¬ ((new.length : Int) = v) := fun h => hv h.symm
      simp [hv, hv', List.count_cons]
  · have := ha3 hm hnr (Or.inr (by
      rw [hcig]
      simp [query_len, op_query_len, hop, hlen]))
    rw [this, (hgeom.recs i).apos, hapos, hcig]
    simp only [ref_len, op_ref_len, hop, hlen, Bool.true_or, if_true, Nat.add_zero]
    omega
  · intro heq
    rw [hnf, hlen2]
    unfold mismatch_offsets
    simp only [List.length_eq_zero, List.filter_eq_nil_iff, List.mem_range, decide_eq_true_eq,
      not_not]
    exact heq

theorem process_one_read_single_match_witness :
    ∃ c' s', process_one_read fd_v3 (container_new ref8) (slice_new 1) bam_mismatch 0
        = some (c', s')
      ∧ (s'.crecs 0).nfeature
          = (mismatch_offsets (container_new ref8).ref
              (unpack_seq bam_mismatch.seq bam_mismatch.len) bam_mismatch.pos
              bam_mismatch.len).length
      ∧ (record_features s' (s'.crecs 0)).map (fun f => f.pos)
          = (mismatch_offsets (container_new ref8).ref
              (unpack_seq bam_mismatch.seq bam_mismatch.len) bam_mismatch.pos
              bam_mismatch.len).map (fun (l : Nat) => ((l + 1 : Nat) : Int))
      ∧ (∀ v, c'.stats DS_FN v
          = (container_new ref8).stats DS_FN v
            + (if v = ((s'.crecs 0).nfeature : Int) then 1 else 0))
      ∧ (s'.crecs 0).aend = (s'.crecs 0).apos + (bam_mismatch.len : Int) - 1
      ∧ ((∀ l, l < bam_mismatch.len →
            ref_at (container_new ref8).ref (bam_mismatch.pos + (l : Int))
              = byte_at (unpack_seq bam_mismatch.seq bam_mismatch.len) l) →
          (s'.crecs 0).nfeature = 0) :=
  process_one_read_single_match fd_v3 (container_new ref8) (slice_new 1) bam_mismatch 0
    (cigar_word 0 8) (by decide) rfl (by decide) (by decide) rfl (by decide) (by decide)
    (by decide)

/-- The single mismatch of the read `ACGTACCT` against `ACGTACGT` is at offset 6:
the record has one feature, a substitution at read position 7, and its range
is 1 to 8. -/
theorem process_one_read_single_mismatch :
    mismatch_offsets ref8 (unpack_seq bam_mismatch.seq bam_mismatch.len) 0 8 = [6]
    ∧ (state_mismatch.2.crecs 0).nfeature = 1
    ∧ (record_features state_mismatch.2 (state_mismatch.2.crecs 0)).map
        (fun f => (f.code, f.pos)) = [('X'.toNat, 7)]
    ∧ (state_mismatch.2.crecs 0).apos = 1 ∧ (state_mismatch.2.crecs 0).aend = 8 := by
  decide

/-! ## The quality block: what the append step stores -/

/-- The qualities 10, 20, 30, 40 of a reverse-strand read are stored as
40, 30, 20, 10 on format 4 and in input order on format 3. -/
theorem process_one_read_qual_reversed :
    state_rev.2.qual_blk = [40, 30, 20, 10] ∧ state_rev_v3.2.qual_blk = [10, 20, 30, 40] := by
  decide

/-! ## The read group of a record -/

theorem skip_nul_header (a : List Nat) (i : Nat) (h0 : byte_at a i ≠ 0)
    (h1 : byte_at a (i + 1) ≠ 0) (h2 : byte_at a (i + 2) ≠ 0) :
    skip_nul a (a.length - i) i = skip_nul a (a.length - (i + 3)) (i + 3) := by
  have hlt : i + 2 < a.length := by
    by_contra hge
    apply h2
    unfold byte_at
    rw [List.getD_eq_default _ _ (by omega)]
  obtain ⟨m, hm⟩ : ∃ m, a.length - i = m + 3 := ⟨a.length - i - 3, by omega⟩
  rw [hm, skip_nul, if_neg h0, skip_nul, if_neg h1, skip_nul, if_neg h2]
  congr 1
  omega

theorem aux_store_tag_next (fd : cram_fd) (a : List Nat) (i next : Nat) (st st' : aux_state)
    (h : aux_store_tag fd a i st = aux_ret.ok (next, st')) : aux_next a i = some next := by
  unfold aux_store_tag at h
  dsimp only at h
  generalize aux_shrink fd a i = sh at h
  generalize HashTableSearch st.tags_used [byte_at a i, byte_at a (i + 1), sh.1] = o at h
  generalize (byte_at a i <<< 16 ||| byte_at a (i + 1) <<< 8 ||| sh.1) = key at h
  have fin : ∀ (n : Nat) (c : aux_state) (k3 : List Nat) (tm : cram_tag_map) (blk : cram_block)
      (bytes : List Nat), aux_ret.ok (n, tag_blk_append c k3 tm blk bytes) = aux_ret.ok (next, st') →
      some n = some next := by
    intro n c k3 tm blk bytes hh
    simp only [aux_ret.ok.injEq, Prod.mk.injEq] at hh
    rw [hh.1]
  unfold aux_next
  dsimp only
  by_cases c1 : byte_at a (i + 2) = 'A'.toNat ∨ byte_at a (i + 2) = 'C'.toNat
      ∨ byte_at a (i + 2) = 'c'.toNat
  · rw [if_pos c1] at h ⊢
    split at h
    · exact aux_ret.noConfusion h
    · exact fin _ _ _ _ _ _ h
  rw [if_neg c1] at h ⊢
  by_cases c2 : byte_at a (i + 2) = 'S'.toNat ∨ byte_at a (i + 2) = 's'.toNat
  · rw [if_pos c2] at h ⊢
    split at h
    · exact aux_ret.noConfusion h
    · exact fin _ _ _ _ _ _ h
  rw [if_neg c2] at h ⊢
  by_cases c3 : byte_at a (i + 2) = 'I'.toNat ∨ byte_at a (i + 2) = 'i'.toNat
      ∨ byte_at a (i + 2) = 'f'.toNat
  · rw [if_pos c3] at h ⊢
    split at h
    · exact aux_ret.noConfusion h
    · exact fin _ _ _ _ _ _ h
  rw [if_neg c3] at h ⊢
  by_cases c4 : byte_at a (i + 2) = 'd'.toNat
  · rw [if_pos c4] at h ⊢
    split at h
    · exact aux_ret.noConfusion h
    · exact fin _ _ _ _ _ _ h
  rw [if_neg c4] at h ⊢
  by_cases c5 : byte_at a (i + 2) = 'Z'.toNat ∨ byte_at a (i + 2) = 'H'.toNat
  · rw [if_pos c5] at h ⊢
    split at h
    · exact aux_ret.noConfusion h
    · exact fin _ _ _ _ _ _ h
  rw [if_neg c5] at h ⊢
  by_cases c6 : byte_at a (i + 2) = 'B'.toNat
  · rw [if_pos c6] at h ⊢
    split at h
    · exact aux_ret.noConfusion h
    · by_cases d1 : byte_at a (i + 3) = 'c'.toNat ∨ byte_at a (i + 3) = 'C'.toNat
      · rw [if_pos d1] at h ⊢
        exact fin _ _ _ _ _ _ h
      rw [if_neg d1] at h ⊢
      by_cases d2 : byte_at a (i + 3) = 's'.toNat ∨ byte_at a (i + 3) = 'S'.toNat
      · rw [if_pos d2] at h ⊢
        exact fin _ _ _ _ _ _ h
      rw [if_neg d2] at h ⊢
      by_cases d3 : byte_at a (i + 3) = 'i'.toNat ∨ byte_at a (i + 3) = 'I'.toNat
          ∨ byte_at a (i + 3) = 'f'.toNat
      · rw [if_pos d3] at h ⊢
        exact fin _ _ _ _ _ _ h
      rw [if_neg d3] at h
      exact aux_ret.noConfusion h
  rw [if_neg c6] at h
  exact aux_ret.noConfusion h

theorem tag_codes : 'R'.toNat ≠ 0 ∧ 'G'.toNat ≠ 0 ∧ 'Z'.toNat ≠ 0 ∧ 'M'.toNat ≠ 0
    ∧ 'D'.toNat ≠ 0 ∧ 'M'.toNat ≠ 'R'.toNat ∧ 'N'.toNat ≠ 'R'.toNat := by
  decide

theorem aux_next_Z (a : List Nat) (i : Nat) (h : byte_at a (i + 2) = 'Z'.toNat) :
    aux_next a i = some (skip_nul a (a.length - (i + 3)) (i + 3)) := by
  unfold aux_next
  dsimp only
  rw [h, if_neg (by decide), if_neg (by decide), if_neg (by decide), if_neg (by decide),
    if_pos (by decide)]

/-- With `preserve_aux_order` off, the `RG:Z` value the tag loop of
`cram_encode_aux` hands back is the value of the last `RG:Z` tag of the area. -/
theorem aux_loop_rg (fd : cram_fd) (a : List Nat) (len flags : Nat)
    (hpo : fd.preserve_aux_order = false) :
    ∀ (n i : Nat) (rg rg' : Option (List Nat)) (st st' : aux_state),
      aux_loop fd a len flags n i rg st = aux_ret.ok (rg', st') → rg' = last_rg a n i rg := by
  intro n
  induction n with
  | zero =>
    intro i rg rg' st st' h
    simp only [aux_loop, aux_ret.ok.injEq, Prod.mk.injEq] at h
    exact h.1.symm
  | succ n ih =>
    intro i rg rg' st st' h
    rw [aux_loop] at h
    rw [last_rg]
    by_cases hc : i < a.length ∧ byte_at a i ≠ 0
    · rw [if_neg (not_not.mpr hc)] at h ⊢
      dsimp only at h
      by_cases c1 : fd.preserve_aux_order = false ∧ byte_at a i = 'R'.toNat
          ∧ byte_at a (i + 1) = 'G'.toNat ∧ byte_at a (i + 2) = 'Z'.toNat
      · rw [if_pos c1] at h
        rw [aux_next_Z a i c1.2.2.2]
        dsimp only
        rw [if_pos c1.2, ← skip_nul_header a i (by rw [c1.2.1]; exact tag_codes.1)
          (by rw [c1.2.2.1]; exact tag_codes.2.1) (by rw [c1.2.2.2]; exact tag_codes.2.2.1)]
        exact ih _ _ _ _ _ h
      rw [if_neg c1] at h
      have hnrg : ¬ (byte_at a i = 'R'.toNat ∧ byte_at a (i + 1) = 'G'.toNat
          ∧ byte_at a (i + 2) = 'Z'.toNat) := fun hh => c1 ⟨hpo, hh⟩
      by_cases c2 : fd.preserve_aux_order = false ∧ byte_at a i = 'M'.toNat
          ∧ byte_at a (i + 1) = 'D'.toNat ∧ byte_at a (i + 2) = 'Z'.toNat
          ∧ (len ≠ 0 ∧ fd.no_ref = false ∧ has_flag flags BAM_FUNMAP = false)
      · rw [if_pos c2] at h
        rw [aux_next_Z a i c2.2.2.2.1]
        dsimp only
        rw [if_neg hnrg, ← skip_nul_header a i (by rw [c2.2.1]; exact tag_codes.2.2.2.1)
          (by rw [c2.2.2.1]; exact tag_codes.2.2.2.2.1)
          (by rw [c2.2.2.2.1]; exact tag_codes.2.2.1)]
        exact ih _ _ _ _ _ h
      rw [if_neg c2] at h
      by_cases c3 : fd.preserve_aux_order = false ∧ byte_at a i = 'N'.toNat
          ∧ byte_at a (i + 1) = 'M'.toNat
          ∧ (len ≠ 0 ∧ fd.no_ref = false ∧ has_flag flags BAM_FUNMAP = false)
      · rw [if_pos c3] at h
        unfold aux_next
        dsimp only
        by_cases d1 : byte_at a (i + 2) = 'A'.toNat ∨ byte_at a (i + 2) = 'C'.toNat
            ∨ byte_at a (i + 2) = 'c'.toNat
        · rw [if_pos d1] at h ⊢
          dsimp only
          rw [if_neg hnrg]
          exact ih _ _ _ _ _ h
        rw [if_neg d1] at h ⊢
        by_cases d2 : byte_at a (i + 2) = 'S'.toNat ∨ byte_at a (i + 2) = 's'.toNat
        · rw [if_pos d2] at h ⊢
          dsimp only
          rw [if_neg hnrg]
          exact ih _ _ _ _ _ h
        rw [if_neg d2] at h ⊢
        by_cases d3 : byte_at a (i + 2) = 'I'.toNat ∨ byte_at a (i + 2) = 'i'.toNat
            ∨ byte_at a (i + 2) = 'f'.toNat
        · rw [if_pos d3] at h ⊢
          dsimp only
          rw [if_neg hnrg]
          exact ih _ _ _ _ _ h
        rw [if_neg d3] at h
        exact aux_ret.noConfusion h
      rw [if_neg c3] at h
      cases hs : aux_store_tag fd a i st with
      | crash => rw [hs] at h; exact aux_ret.noConfusion h
      | fail c1 => rw [hs] at h; exact aux_ret.noConfusion h
      | ok r =>
        obtain ⟨next, c1⟩ := r
        rw [hs] at h
        dsimp only at h
        rw [aux_store_tag_next fd a i next st c1 hs]
        dsimp only
        rw [if_neg hnrg]
        exact ih _ _ _ _ _ h
    · rw [if_pos hc] at h ⊢
      simp only [aux_ret.ok.injEq, Prod.mk.injEq] at h
      exact h.1.symm

theorem cram_encode_aux_rg (fd : cram_fd) (b : bam_seq_t) (len flags : Nat)
    (st st2 : aux_state) (rg : Option (List Nat)) (TL : Int)
    (hpo : fd.preserve_aux_order = false)
    (h : cram_encode_aux fd b len flags st = aux_ret.ok (rg, TL, st2)) :
    rg = bam_rg_tag b := by
  unfold cram_encode_aux at h
  dsimp only at h
  cases hl : aux_loop fd b.aux len flags (b.aux.length + 1) 0 none st with
  | crash => rw [hl] at h; exact aux_ret.noConfusion h
  | fail c1 => rw [hl] at h; exact aux_ret.noConfusion h
  | ok r =>
    obtain ⟨rg1, c1⟩ := r
    rw [hl] at h
    simp only [aux_ret.ok.injEq, Prod.mk.injEq] at h
    rw [← h.1]
    exact aux_loop_rg fd b.aux len flags hpo _ _ _ _ _ _ hl

theorem por_cigar_rg (fd : cram_fd) (b : bam_seq_t) (seq : List Nat) (e e' : enc) (fq : Nat)
    (h : por_cigar fd b seq e = some (e', fq)) : e'.cr.rg = e.cr.rg := by
  unfold por_cigar at h
  dsimp only at h
  split at h
  · split at h
    · simp at h
    · rename_i e2 hw
      split at h
      · simp at h
      · simp only [Option.some.injEq, Prod.mk.injEq] at h
        obtain ⟨rfl, _⟩ := h
        exact (walk_frame_cigar_walk fd seq b.qual b.cigar _ e2 hw).cr_rg
  · simp only [Option.some.injEq, Prod.mk.injEq] at h
    obtain ⟨rfl, _⟩ := h
    rw [(add_BA_stats_frame _ _).2]

theorem por_head_rest_rg (fd : cram_fd) (b : bam_seq_t) (rg : Option (List Nat)) (e1 : enc) :
    (por_head_rest fd b rg e1).1.cr.rg
      = (match rg with
         | some r => (fd.find_rg r).getD (-1)
         | none => -1) := by
  unfold por_head_rest
  dsimp only [enc.stats_add]
  cases rg <;> (dsimp only; (repeat' split) <;> rfl)

/-- The read group index of the record after `process_one_read`, in terms of the
outcome of `cram_encode_aux`. -/
theorem process_one_read_rg_of_aux (fd : cram_fd) (c c' : cram_container) (s s' : cram_slice)
    (b : bam_seq_t) (i : Nat) (h : process_one_read fd c s b i = some (c', s')) :
    ∃ rg e0, por_aux fd c s b i = some (rg, e0)
      ∧ (s'.crecs i).rg = (match rg with
         | some r => (fd.find_rg r).getD (-1)
         | none => -1) := by
  obtain ⟨c1, s1, hp, hgeom, _⟩ := process_one_read_split fd c c' s s' b i h
  unfold por_pre at hp
  split at hp
  · simp at hp
  rename_i e seq hh
  split at hp
  · simp at hp
  rename_i e1 fq hc
  simp only [Option.some.injEq, Prod.mk.injEq] at hp
  obtain ⟨_, rfl⟩ := hp
  unfold por_head at hh
  split at hh
  · simp at hh
  rename_i rg e0 ha
  simp only [Option.some.injEq] at hh
  have r1 := por_head_rest_rg fd b rg e0
  rw [hh] at r1
  dsimp only at r1
  refine ⟨rg, e0, ha, ?_⟩
  rw [(hgeom.recs i).rg]
  show (Function.update (por_qual fd b fq e1).s.crecs i (por_qual fd b fq e1).cr i).rg = _
  rw [Function.update_same, (por_qual_stats fd b fq e1 DS_RL 0).2.2.1,
    por_cigar_rg fd b seq e e1 fq hc, r1]

/-- C25 (counterexample): a record with the tags `XA:C:1` and `RG:Z:g1`, where
`g1` is read group 1 of the header, gets `cr->rg = -1` when `preserve_aux_order`
is set (the tag is then stored like any other tag); and a record with `RG:Z:g1`
followed by a tag of an unknown type gets `cr->rg = -1` as well, because
`cram_encode_aux` returns NULL and `process_one_read` goes on. With the option
off and well-formed tags the first record gets `cr->rg = 1`. -/
theorem process_one_read_rg_lost :
    bam_rg_tag bam_rg1 = some (ascii "g1") ∧ fd_rg_order.find_rg (ascii "g1") = some 1
    ∧ rg_after fd_rg_order bam_rg1 = some (-1)
    ∧ bam_rg_tag bam_rg1_bad = some (ascii "g1") ∧ fd_rg.find_rg (ascii "g1") = some 1
    ∧ rg_after fd_rg bam_rg1_bad = some (-1)
    ∧ rg_after fd_rg bam_rg1 = some 1 := by
  decide

/-- C25 (as amended): when `preserve_aux_order` is off and `cram_encode_aux`
gets through the tags of the record (it does not return NULL), then for every
record that has an `RG:Z` tag whose value names a read group of the SAM header,
`process_one_read` sets `cr->rg` to that read group's numeric index (for the
value of the last `RG:Z` tag, should there be several); `cr->rg` is `-1` when
the record has no `RG:Z` tag or its value is absent from the header, and, read
group indices being non-negative, only then. -/
theorem process_one_read_rg (fd : cram_fd) (c c' : cram_container) (s s' : cram_slice)
    (b : bam_seq_t) (i : Nat) (hpo : fd.preserve_aux_order = false)
    (hok : ∃ r, cram_encode_aux fd b b.len b.flag c.aux = aux_ret.ok r)
    (h : process_one_read fd c s b i = some (c', s'))
    (hid : ∀ v id, fd.find_rg v = some id → 0 ≤ id) :
    (∀ v id, bam_rg_tag b = some v → fd.find_rg v = some id → (s'.crecs i).rg = id)
    ∧ (bam_rg_tag b = none → (s'.crecs i).rg = -1)
    ∧ (∀ v, bam_rg_tag b = some v → fd.find_rg v = none → (s'.crecs i).rg = -1)
    ∧ ((s'.crecs i).rg = -1 →
        bam_rg_tag b = none ∨ ∃ v, bam_rg_tag b = some v ∧ fd.find_rg v = none) := by
  obtain ⟨rg, e0, ha, hrg⟩ := process_one_read_rg_of_aux fd c c' s s' b i h
  obtain ⟨⟨rg1, TL, a1⟩, hok⟩ := hok
  have htag : rg = bam_rg_tag b := by
    have h1 := cram_encode_aux_rg fd b b.len b.flag c.aux a1 rg1 TL hpo hok
    unfold por_aux at ha
    dsimp only at ha
    rw [hok] at ha
    simp only [Option.some.injEq, Prod.mk.injEq] at ha
    rw [← ha.1, h1]
  rw [htag] at hrg
  refine ⟨?_, ?_, ?_, ?_⟩
  · intro v id hv hf
    rw [hrg, hv]
    dsimp only
    rw [hf]
    rfl
  · intro hv
    rw [hrg, hv]
  · intro v hv hf
    rw [hrg, hv]
    dsimp only
    rw [hf]
    rfl
  · intro hm
    cases hv : bam_rg_tag b with
    | none => exact Or.inl rfl
    | some v =>
      refine Or.inr ⟨v, rfl, ?_⟩
      cases hf : fd.find_rg v with
      | none => rfl
      | some id =>
        rw [hv] at hrg
        dsimp only at hrg
        rw [hf] at hrg
        have : (s'.crecs i).rg = id := hrg
        have := hid v id hf
        omega

theorem process_one_read_rg_witness :
    (∀ v id, bam_rg_tag bam_rg1 = some v → fd_rg.find_rg v = some id →
        (state_rg1.2.crecs 0).rg = id)
    ∧ (bam_rg_tag bam_rg1 = none → (state_rg1.2.crecs 0).rg = -1)
    ∧ (∀ v, bam_rg_tag bam_rg1 = some v → fd_rg.find_rg v = none →
        (state_rg1.2.crecs 0).rg = -1)
    ∧ ((state_rg1.2.crecs 0).rg = -1 →
        bam_rg_tag bam_rg1 = none
          ∨ ∃ v, bam_rg_tag bam_rg1 = some v ∧ fd_rg.find_rg v = none) :=
  process_one_read_rg fd_rg (container_new ref8) state_rg1.1 (slice_new 1) state_rg1.2 bam_rg1 0
    rfl ⟨_, rfl⟩ (option_getD_eq _ _ (by decide))
    (fun v id hf => by
      simp only [fd_rg] at hf
      split at hf
      · cases hf; decide
      · split at hf
        · cases hf; decide
        · cases hf)

/-! ## The substitution matrix in the preservation map -/

theorem smat_row (h : cram_block_compression_hdr) (r : Nat) (hr : r < 5) :
    byte_at (smat h) r = smat_byte (sm_key r) (h.substitution_matrix r) := by
  interval_cases r <;> rfl

theorem sm_fields_packed : ∀ i0 i1 i2 i3 : Fin 4,
    sm_field (((i0.val <<< 6) ||| (i1.val <<< 4) ||| (i2.val <<< 2) ||| (i3.val <<< 0)) % 256) 0
      = i0.val
    ∧ sm_field (((i0.val <<< 6) ||| (i1.val <<< 4) ||| (i2.val <<< 2) ||| (i3.val <<< 0)) % 256) 1
      = i1.val
    ∧ sm_field (((i0.val <<< 6) ||| (i1.val <<< 4) ||| (i2.val <<< 2) ||| (i3.val <<< 0)) % 256) 2
      = i2.val
    ∧ sm_field (((i0.val <<< 6) ||| (i1.val <<< 4) ||| (i2.val <<< 2) ||| (i3.val <<< 0)) % 256) 3
      = i3.val := by
  decide

theorem sub_idx_loop_mem : ∀ (key : List Nat) (val i : Nat), (∀ k ∈ key, k ≠ 0) → val ∈ key →
    sub_idx_loop key val i = i + key.indexOf val := by
  intro key
  induction key with
  | nil => intro val i _ hm; exact absurd hm (List.not_mem_nil val)
  | cons k ks ih =>
    intro val i hnz hm
    have hk : k ≠ 0 := hnz k (List.mem_cons_self k ks)
    rw [sub_idx_loop, if_neg hk]
    by_cases hv : k = val
    · rw [if_neg (not_not.mpr hv), hv, List.indexOf_cons_self]
      rfl
    · rw [if_pos hv, List.indexOf_cons_ne _ hv]
      have hm' : val ∈ ks := by
        rcases List.mem_cons.mp hm with h | h
        · exact absurd h.symm hv
        · exact h
      rw [ih val (i + 1) (fun x hx => hnz x (List.mem_cons_of_mem k hx)) hm']
      omega

theorem sub_idx_mem (key : List Nat) (val : Nat) (hnz : ∀ k ∈ key, k ≠ 0) (hm : val ∈ key) :
    sub_idx key val = key.indexOf val := by
  unfold sub_idx
  rw [sub_idx_loop_mem key val 0 hnz hm, Nat.zero_add]

theorem sm_key_spec (r : Nat) (hr : r < 5) :
    (∀ k ∈ sm_key r, k ≠ 0) ∧ (sm_key r).length = 4
    ∧ (sm_key r).map (fun x => (sm_key r).indexOf x) = [0, 1, 2, 3] := by
  interval_cases r <;> decide

/-- C24: for each of the 5 rows of the substitution matrix that is a permutation
of its 4-letter key (row A `CGTN`, C `AGTN`, G `ACTN`, T `ACGN`, N `ACGT`), the
byte `cram_encode_compression_header` writes for the row in the `SM` entry packs,
two bits per column with column 0 in the top two bits, the index of each
column's base within the key (which is what `sub_idx` returns); the four 2-bit
fields are a permutation of 0..3, and looking each field up in the key gives
back the row. The `SM` entry of the preservation map is the key `SM` followed by
the five row bytes. -/
theorem smat_byte_perm (itf8_put : Int → List Nat) (h : cram_block_compression_hdr)
    (d : Int) (r : Nat) (hr : r < 5)
    (hperm : List.Perm [h.substitution_matrix r 0, h.substitution_matrix r 1,
      h.substitution_matrix r 2, h.substitution_matrix r 3] (sm_key r)) :
    preservation_entry itf8_put h (ascii "SM") d = ascii "SM" ++ smat h
    ∧ (∀ col, col < 4 →
        sub_idx (sm_key r) (h.substitution_matrix r col)
          = (sm_key r).indexOf (h.substitution_matrix r col)
        ∧ sm_field (byte_at (smat h) r) col
          = (sm_key r).indexOf (h.substitution_matrix r col)
        ∧ byte_at (sm_key r) (sm_field (byte_at (smat h) r) col)
          = h.substitution_matrix r col)
    ∧ List.Perm [sm_field (byte_at (smat h) r) 0, sm_field (byte_at (smat h) r) 1,
        sm_field (byte_at (smat h) r) 2, sm_field (byte_at (smat h) r) 3] [0, 1, 2, 3] := by
  obtain ⟨hnz, hlen, hmap⟩ := sm_key_spec r hr
  have hmem : ∀ col, col < 4 → h.substitution_matrix r col ∈ sm_key r := by
    intro col hc
    apply (hperm.mem_iff).mp
    interval_cases col <;> simp
  have hidx : ∀ col, col < 4 →
      sub_idx (sm_key r) (h.substitution_matrix r col)
        = (sm_key r).indexOf (h.substitution_matrix r col) :=
    fun col hc => sub_idx_mem _ _ hnz (hmem col hc)
  have hlt : ∀ col, col < 4 → (sm_key r).indexOf (h.substitution_matrix r col) < 4 := by
    intro col hc
    rw [← hlen]
    exact List.indexOf_lt_length.mpr (hmem col hc)
  have hpk := sm_fields_packed
    ⟨_, hlt 0 (by decide)⟩ ⟨_, hlt 1 (by decide)⟩ ⟨_, hlt 2 (by decide)⟩ ⟨_, hlt 3 (by decide)⟩
  dsimp only at hpk
  have hbyte : byte_at (smat h) r
      = ((((sm_key r).indexOf (h.substitution_matrix r 0)) <<< 6)
        ||| (((sm_key r).indexOf (h.substitution_matrix r 1)) <<< 4)
        ||| (((sm_key r).indexOf (h.substitution_matrix r 2)) <<< 2)
        ||| (((sm_key r).indexOf (h.substitution_matrix r 3)) <<< 0)) % 256 := by
    rw [smat_row h r hr]
    unfold smat_byte
    rw [hidx 0 (by decide), hidx 1 (by decide), hidx 2 (by decide), hidx 3 (by decide)]
  have hfield : ∀ col, col < 4 → sm_field (byte_at (smat h) r) col
      = (sm_key r).indexOf (h.substitution_matrix r col) := by
    intro col hc
    rw [hbyte]
    interval_cases col
    · exact hpk.1
    · exact hpk.2.1
    · exact hpk.2.2.1
    · exact hpk.2.2.2
  refine ⟨rfl, ?_, ?_⟩
  · intro col hc
    refine ⟨hidx col hc, hfield col hc, ?_⟩
    rw [hfield col hc]
    unfold byte_at
    rw [List.getD_eq_getElem _ _ (by rw [hlen]; exact hlt col hc)]
    exact List.getElem_indexOf _
  · rw [hfield 0 (by decide), hfield 1 (by decide), hfield 2 (by decide), hfield 3 (by decide)]
    have := hperm.map (fun x => (sm_key r).indexOf x)
    rw [hmap] at this
    exact this

theorem smat_byte_perm_witness :
    preservation_entry (fun _ => [1]) hdr_ex (ascii "SM") 0 = ascii "SM" ++ smat hdr_ex
    ∧ (∀ col, col < 4 →
        sub_idx (sm_key 2) (hdr_ex.substitution_matrix 2 col)
          = (sm_key 2).indexOf (hdr_ex.substitution_matrix 2 col)
        ∧ sm_field (byte_at (smat hdr_ex) 2) col
          = (sm_key 2).indexOf (hdr_ex.substitution_matrix 2 col)
        ∧ byte_at (sm_key 2) (sm_field (byte_at (smat hdr_ex) 2) col)
          = hdr_ex.substitution_matrix 2 col)
    ∧ List.Perm [sm_field (byte_at (smat hdr_ex) 2) 0, sm_field (byte_at (smat hdr_ex) 2) 1,
        sm_field (byte_at (smat hdr_ex) 2) 2, sm_field (byte_at (smat hdr_ex) 2) 3]
        [0, 1, 2, 3] :=
  smat_byte_perm (fun _ => [1]) hdr_ex 0 2 (by decide) (by decide)

/-- The matrix bytes of `hdr_ex`: the rows `TGCN`, `AGTN`, `NTCA`, `ACGN`, `ACGT`
give 0x93, 0x1B, 0xE4, 0x1B, 0x1B, and the whole preservation map is `RN` 1,
`SM` with these bytes, `TD` with the length and the bytes of the TD block. -/
theorem smat_hdr_ex :
    smat hdr_ex = [147, 27, 228, 27, 27]
    ∧ preservation_map_bytes (fun x => [x.toNat]) hdr_ex
        = (ascii "RN" ++ [1] ++ ascii "SM" ++ [147, 27, 228, 27, 27] ++ ascii "TD" ++ [1, 0],
           3) := by
  decide

/-! ## Tag ids: block content id and tag encoding map key -/

theorem lookup_mem {β : Type} : ∀ (t : HashTable β) (key : List Nat) (v : β),
    HashTableSearch t key = some v → (key, v) ∈ t := by
  intro t
  induction t with
  | nil => intro key v h; simp [HashTableSearch] at h
  | cons kv t ih =>
    intro key v h
    unfold HashTableSearch at h
    rw [List.lookup_cons] at h
    by_cases hk : key = kv.1
    · subst hk
      simp only [beq_self_eq_true, Option.some.injEq] at h
      subst h
      exact List.mem_cons_self _ _
    · have : (key == kv.1) = false := by simpa using hk
      rw [this] at h
      exact List.mem_cons_of_mem _ (ih key v h)

theorem mem_HashTableSet {β : Type} (t : HashTable β) (key : List Nat) (d : β)
    (kv : List Nat × β) (h : kv ∈ HashTableSet t key d) : kv ∈ t ∨ kv = (key, d) := by
  unfold HashTableSet at h
  rw [List.mem_map] at h
  obtain ⟨x, hx, hxe⟩ := h
  by_cases hk : x.1 = key
  · rw [if_pos hk] at hxe
    right
    rw [← hxe, hk]
  · rw [if_neg hk] at hxe
    left
    rw [← hxe]
    exact hx

theorem mem_HashTableAdd {β : Type} (t : HashTable β) (key : List Nat) (d : β)
    (kv : List Nat × β) (h : kv ∈ (HashTableAdd t key d).1) : kv ∈ t ∨ kv = (key, d) := by
  unfold HashTableAdd at h
  split at h
  · exact Or.inl h
  · rcases List.mem_append.mp h with h1 | h1
    · exact Or.inl h1
    · exact Or.inr (List.mem_singleton.mp h1)

theorem tag_id_triple (x y z : Nat) : tag_id [x, y, z] = (x <<< 16) ||| (y <<< 8) ||| z := rfl

/-- The tag state after the find-or-create step and after an append keeps the
invariant, and the tag map of the key holds a block with the id of the key. -/
theorem tags_inv_append (st : aux_state) (td : List Nat) (k3 bytes : List Nat)
    (tm : cram_tag_map) (hinv : tags_inv st)
    (htmb : ∀ blk, tm.blk = some blk → blk.content_id = tag_id k3) :
    tags_inv ⟨td, st.TD, st.nTL, HashTableSet (HashTableAdd st.tags_used k3 tm).1 k3 tm⟩
    ∧ tags_inv (tag_blk_append
        ⟨td, st.TD, st.nTL, HashTableSet (HashTableAdd st.tags_used k3 tm).1 k3 tm⟩ k3 tm
        (tm.blk.getD ⟨tag_id k3, []⟩) bytes)
    ∧ ∃ tm1 blk, HashTableSearch (tag_blk_append
        ⟨td, st.TD, st.nTL, HashTableSet (HashTableAdd st.tags_used k3 tm).1 k3 tm⟩ k3 tm
        (tm.blk.getD ⟨tag_id k3, []⟩) bytes).tags_used k3 = some tm1
      ∧ tm1.blk = some blk ∧ blk.content_id = tag_id k3 := by
  have hbid : (tm.blk.getD ⟨tag_id k3, []⟩).content_id = tag_id k3 := by
    cases hb : tm.blk with
    | none => rfl
    | some blk => exact htmb blk hb
  have h1 : tags_inv
      ⟨td, st.TD, st.nTL, HashTableSet (HashTableAdd st.tags_used k3 tm).1 k3 tm⟩ := by
    intro kv hkv blk hb
    rcases mem_HashTableSet _ _ _ _ hkv with h | h
    · rcases mem_HashTableAdd _ _ _ _ h with h' | h'
      · exact hinv kv h' blk hb
      · rw [h'] at hb ⊢
        exact htmb blk hb
    · rw [h] at hb ⊢
      exact htmb blk hb
  refine ⟨h1, ?_, ?_⟩
  · intro kv hkv blk hb
    unfold tag_blk_append at hkv
    dsimp only at hkv
    rcases mem_HashTableSet _ _ _ _ hkv with h | h
    · exact h1 kv h blk hb
    · rw [h] at hb ⊢
      dsimp only at hb ⊢
      cases hb
      exact hbid
  · exact ⟨_, _, HashTableSearch_add_set _ _ _ _, rfl, hbid⟩

/-- The tag map `cram_encode_aux` works with for a key: the one found in
`c->tags_used` or a new one without a block. Its block, if any, has the id of
the key. -/
theorem tag_map_found (st : aux_state) (k3 : List Nat) (codec : Option aux_codec)
    (hinv : tags_inv st) (blk : cram_block)
    (hb : (match HashTableSearch st.tags_used k3 with
        | some m => m
        | none => ({ codec := codec, blk := none } : cram_tag_map)).blk = some blk) :
    blk.content_id = tag_id k3 := by
  cases ho : HashTableSearch st.tags_used k3 with
  | none =>
    rw [ho] at hb
    cases hb
  | some m =>
    rw [ho] at hb
    exact hinv (k3, m) (lookup_mem _ _ _ ho) blk hb

theorem aux_store_tag_tail (st st' : aux_state) (next : Nat) (k3 : List Nat)
    (tm : cram_tag_map) (hinv : tags_inv st)
    (htmb : ∀ blk, tm.blk = some blk → blk.content_id = tag_id k3) :
    (∀ (n : Nat) (bytes : List Nat),
      aux_ret.ok (n, tag_blk_append
        ⟨st.TD_blk ++ k3, st.TD, st.nTL, HashTableSet (HashTableAdd st.tags_used k3 tm).1 k3 tm⟩
        k3 tm (tm.blk.getD ⟨tag_id k3, []⟩) bytes) = aux_ret.ok (next, st') →
      tags_inv st' ∧ ∃ tm1 blk, HashTableSearch st'.tags_used k3 = some tm1
        ∧ tm1.blk = some blk ∧ blk.content_id = tag_id k3)
    ∧ (∀ (bytes : List Nat),
      aux_ret.fail (tag_blk_append
        ⟨st.TD_blk ++ k3, st.TD, st.nTL, HashTableSet (HashTableAdd st.tags_used k3 tm).1 k3 tm⟩
        k3 tm (tm.blk.getD ⟨tag_id k3, []⟩) bytes)
        = (aux_ret.fail st' : aux_ret (Nat × aux_state)) → tags_inv st')
    ∧ ((aux_ret.fail
        ⟨st.TD_blk ++ k3, st.TD, st.nTL, HashTableSet (HashTableAdd st.tags_used k3 tm).1 k3 tm⟩
        : aux_ret (Nat × aux_state)) = aux_ret.fail st' → tags_inv st') := by
  have facts := fun bytes => tags_inv_append st (st.TD_blk ++ k3) k3 bytes tm hinv htmb
  refine ⟨?_, ?_, ?_⟩
  · intro n bytes hh
    simp only [aux_ret.ok.injEq, Prod.mk.injEq] at hh
    obtain ⟨-, rfl⟩ := hh
    exact ⟨(facts bytes).2.1, (facts bytes).2.2⟩
  · intro bytes hh
    simp only [aux_ret.fail.injEq] at hh
    subst hh
    exact (facts bytes).2.1
  · intro hh
    simp only [aux_ret.fail.injEq] at hh
    subst hh
    exact (facts []).1

set_option maxHeartbeats 1000000 in
/-- One stored tag: the tag state keeps the invariant, and after a successful
pass the tag map of the key `(key0, key1, stored type)` holds a block whose
content id is the id of that key. -/
theorem aux_store_tag_ids (fd : cram_fd) (a : List Nat) (i : Nat) (st : aux_state)
    (hinv : tags_inv st) :
    (∀ next st', aux_store_tag fd a i st = aux_ret.ok (next, st') →
      tags_inv st'
      ∧ ∃ tm1 blk,
          HashTableSearch st'.tags_used [byte_at a i, byte_at a (i + 1), (aux_shrink fd a i).1]
            = some tm1
          ∧ tm1.blk = some blk
          ∧ blk.content_id = tag_id [byte_at a i, byte_at a (i + 1), (aux_shrink fd a i).1])
    ∧ ∀ st', aux_store_tag fd a i st = aux_ret.fail st' → tags_inv st' := by
  constructor
  · intro next st' h
    unfold aux_store_tag at h
    dsimp only at h
    rw [← tag_id_triple] at h
    generalize aux_new_codec (aux_shrink fd a i).1
      (tag_id [byte_at a i, byte_at a (i + 1), (aux_shrink fd a i).1]) = cd at h
    generalize ([byte_at a i, byte_at a (i + 1), (aux_shrink fd a i).1] : List Nat) = k3
      at h ⊢
    generalize ho : HashTableSearch st.tags_used k3 = o at h
    cases o with
    | none =>
      have tl := (aux_store_tag_tail st st' next k3 ⟨cd, none⟩ hinv
        (fun blk hb => by cases hb)).1
      dsimp only at h
      repeat' split at h
      all_goals first
        | exact aux_ret.noConfusion h
        | exact tl _ _ h
    | some m =>
      have tl := (aux_store_tag_tail st st' next k3 m hinv
        (fun blk hb => hinv (k3, m) (lookup_mem _ _ _ ho) blk hb)).1
      dsimp only at h
      repeat' split at h
      all_goals first
        | exact aux_ret.noConfusion h
        | exact tl _ _ h
  · intro st' h
    unfold aux_store_tag at h
    dsimp only at h
    rw [← tag_id_triple] at h
    generalize aux_new_codec (aux_shrink fd a i).1
      (tag_id [byte_at a i, byte_at a (i + 1), (aux_shrink fd a i).1]) = cd at h
    generalize ([byte_at a i, byte_at a (i + 1), (aux_shrink fd a i).1] : List Nat) = k3 at h
    generalize ho : HashTableSearch st.tags_used k3 = o at h
    cases o with
    | none =>
      have tl := (aux_store_tag_tail st st' 0 k3 ⟨cd, none⟩ hinv
        (fun blk hb => by cases hb)).2
      dsimp only at h
      repeat' split at h
      all_goals first
        | exact aux_ret.noConfusion h
        | exact tl.2 h
        | exact tl.1 _ h
    | some m =>
      have tl := (aux_store_tag_tail st st' 0 k3 m hinv
        (fun blk hb => hinv (k3, m) (lookup_mem _ _ _ ho) blk hb)).2
      dsimp only at h
      repeat' split at h
      all_goals first
        | exact aux_ret.noConfusion h
        | exact tl.2 h
        | exact tl.1 _ h

theorem tag_id_arith (x y z : Nat) (hy : y < 256) (hz : z < 256) :
    tag_id [x, y, z] = x * 65536 + y * 256 + z := by
  rw [tag_id_triple]
  have h1 : (y <<< 8) ||| z = y * 256 + z := by
    rw [Nat.shiftLeft_eq, Nat.mul_comm, ← Nat.mul_add_lt_is_or (by simpa using hz)]
  have h2 : y * 256 + z < 2 ^ 16 := by omega
  rw [Nat.lor_assoc, h1, Nat.shiftLeft_eq, Nat.mul_comm, ← Nat.mul_add_lt_is_or h2]
  omega

/-- Distinct triples of bytes have distinct tag ids. -/
theorem tag_id_injective (x y z x' y' z' : Nat) (hy : y < 256) (hz : z < 256)
    (hy' : y' < 256) (hz' : z' < 256) (h : tag_id [x, y, z] = tag_id [x', y', z']) :
    x = x' ∧ y = y' ∧ z = z' := by
  rw [tag_id_arith x y z hy hz, tag_id_arith x' y' z' hy' hz'] at h
  omega

/-- The tag loop of `cram_encode_aux` keeps the invariant, whether it ends
normally or with `return NULL`. -/
theorem aux_loop_ids (fd : cram_fd) (a : List Nat) (len flags : Nat) :
    ∀ (n i : Nat) (rg : Option (List Nat)) (st : aux_state), tags_inv st →
      (∀ rg' st', aux_loop fd a len flags n i rg st = aux_ret.ok (rg', st') → tags_inv st')
      ∧ ∀ st', aux_loop fd a len flags n i rg st = aux_ret.fail st' → tags_inv st' := by
  intro n
  induction n with
  | zero =>
    intro i rg st hinv
    constructor
    · intro rg' st' h
      simp only [aux_loop, aux_ret.ok.injEq, Prod.mk.injEq] at h
      rw [← h.2]; exact hinv
    · intro st' h
      simp only [aux_loop] at h
      exact aux_ret.noConfusion h
  | succ n ih =>
    intro i rg st hinv
    have key : ∀ (R : aux_ret (Option (List Nat) × aux_state)),
        aux_loop fd a len flags (n + 1) i rg st = R →
        (∀ rg' st', R = aux_ret.ok (rg', st') → tags_inv st')
        ∧ ∀ st', R = aux_ret.fail st' → tags_inv st' := by
      intro R hR
      rw [aux_loop] at hR
      dsimp only at hR
      have hsame : ∀ (i' : Nat) (rg1 : Option (List Nat)),
          aux_loop fd a len flags n i' rg1 st = R →
          (∀ rg' st', R = aux_ret.ok (rg', st') → tags_inv st')
          ∧ ∀ st', R = aux_ret.fail st' → tags_inv st' := by
        intro i' rg1 hh
        rw [← hh]
        exact ih i' rg1 st hinv
      have hstop : ∀ (x : Option (List Nat)) (c : aux_state), tags_inv c →
          aux_ret.ok (x, c) = R →
          (∀ rg' st', R = aux_ret.ok (rg', st') → tags_inv st')
          ∧ ∀ st', R = aux_ret.fail st' → tags_inv st' := by
        intro x c hc hh
        rw [← hh]
        constructor
        · intro rg' st' h2
          simp only [aux_ret.ok.injEq, Prod.mk.injEq] at h2
          rw [← h2.2]; exact hc
        · intro st' h2
          exact aux_ret.noConfusion h2
      have hfail : ∀ (c : aux_state), tags_inv c →
          (aux_ret.fail c : aux_ret (Option (List Nat) × aux_state)) = R →
          (∀ rg' st', R = aux_ret.ok (rg', st') → tags_inv st')
          ∧ ∀ st', R = aux_ret.fail st' → tags_inv st' := by
        intro c hc hh
        rw [← hh]
        constructor
        · intro rg' st' h2
          exact aux_ret.noConfusion h2
        · intro st' h2
          simp only [aux_ret.fail.injEq] at h2
          rw [← h2]; exact hc
      split at hR
      · exact hstop _ _ hinv hR
      split at hR
      · exact hsame _ _ hR
      split at hR
      · exact hsame _ _ hR
      split at hR
      · split at hR
        · exact hsame _ _ hR
        split at hR
        · exact hsame _ _ hR
        split at hR
        · exact hsame _ _ hR
        · exact hfail _ hinv hR
      · obtain ⟨s1, s2⟩ := aux_store_tag_ids fd a i st hinv
        split at hR
        · rename_i next c1 hs
          rw [← hR]
          exact ih next rg c1 (s1 next c1 hs).1
        · rename_i c1 hs
          exact hfail _ (s2 c1 hs) hR
        · rw [← hR]
          exact ⟨fun _ _ h2 => aux_ret.noConfusion h2, fun _ h2 => aux_ret.noConfusion h2⟩
    exact ⟨fun rg' st' h => (key _ rfl).1 rg' st' h, fun st' h => (key _ rfl).2 st' h⟩

/-- C function `cram_encode_aux` keeps the invariant: in every tag state reached
from a new container, each tag block has the id of its tag as content id. -/
theorem cram_encode_aux_ids (fd : cram_fd) (b : bam_seq_t) (len flags : Nat)
    (st st2 : aux_state) (rg : Option (List Nat)) (TL : Int) (hinv : tags_inv st)
    (h : cram_encode_aux fd b len flags st = aux_ret.ok (rg, TL, st2)) : tags_inv st2 := by
  unfold cram_encode_aux at h
  dsimp only at h
  cases hl : aux_loop fd b.aux len flags (b.aux.length + 1) 0 none st with
  | crash => rw [hl] at h; exact aux_ret.noConfusion h
  | fail c1 => rw [hl] at h; exact aux_ret.noConfusion h
  | ok r =>
    obtain ⟨rg1, c1⟩ := r
    have hc1 := (aux_loop_ids fd b.aux len flags _ _ _ st hinv).1 rg1 c1 hl
    rw [hl] at h
    simp only [aux_ret.ok.injEq, Prod.mk.injEq] at h
    obtain ⟨_, _, rfl⟩ := h
    intro kv hkv blk hb
    have : kv ∈ c1.tags_used := by
      revert hkv
      split <;> exact fun hkv => hkv
    exact hc1 kv this blk hb

theorem tags_inv_new (ref : List Nat) : tags_inv (container_new ref).aux :=
  fun kv hkv => absurd hkv (List.not_mem_nil kv)

/-- C26: when `cram_encode_aux` stores a tag (one pass of its loop, in a tag
state where every tag block has the id of its tag, as in a new container and
ever after), the tag map of the key `(k0, k1, stored type)` holds an external
block whose content id is `(k0<<16)|(k1<<8)|type`, computed from the two key
bytes and the stored (post-shrink) type byte; the tag encoding map of
`cram_encode_compression_header` writes that same number as the key of the
item, followed by the stored codec; the same holds for every other tag block of
the state. Distinct triples of bytes give distinct ids, and `XI` with type `C`
gives 0x584943. -/
theorem tag_content_id (fd : cram_fd) (a : List Nat) (i next : Nat) (st st' : aux_state)
    (hinv : tags_inv st) (h : aux_store_tag fd a i st = aux_ret.ok (next, st')) :
    (∃ tm blk,
      ([byte_at a i, byte_at a (i + 1), (aux_shrink fd a i).1], tm) ∈ st'.tags_used
      ∧ tm.blk = some blk
      ∧ blk.content_id
          = (byte_at a i <<< 16) ||| (byte_at a (i + 1) <<< 8) ||| (aux_shrink fd a i).1
      ∧ ∀ (itf8_put : Int → List Nat) (store : aux_codec → List Nat),
          tag_encoding_entry itf8_put store
              ([byte_at a i, byte_at a (i + 1), (aux_shrink fd a i).1], tm)
            = tm.codec.map (fun c => itf8_put (blk.content_id : Int) ++ store c))
    ∧ (∀ hi ∈ st'.tags_used, ∀ blk, hi.2.blk = some blk →
        ∀ (itf8_put : Int → List Nat) (store : aux_codec → List Nat),
          tag_encoding_entry itf8_put store hi
            = hi.2.codec.map (fun c => itf8_put (blk.content_id : Int) ++ store c))
    ∧ (∀ x y z x' y' z' : Nat, y < 256 → z < 256 → y' < 256 → z' < 256 →
        (x <<< 16) ||| (y <<< 8) ||| z = (x' <<< 16) ||| (y' <<< 8) ||| z' →
        x = x' ∧ y = y' ∧ z = z')
    ∧ ('X'.toNat <<< 16) ||| ('I'.toNat <<< 8) ||| 'C'.toNat = 0x584943 := by
  obtain ⟨hinv', tm, blk, hs, hb, hid⟩ := (aux_store_tag_ids fd a i st hinv).1 next st' h
  have hentry : ∀ (hi : List Nat × cram_tag_map) (blk : cram_block),
      blk.content_id = tag_id hi.1 →
      ∀ (itf8_put : Int → List Nat) (store : aux_codec → List Nat),
        tag_encoding_entry itf8_put store hi
          = hi.2.codec.map (fun c => itf8_put (blk.content_id : Int) ++ store c) := by
    intro hi blk hid itf8_put store
    unfold tag_encoding_entry
    dsimp only
    rw [hid]
    cases hi.2.codec <;> rfl
  refine ⟨⟨tm, blk, lookup_mem _ _ _ hs, hb, hid, hentry (_, tm) blk hid⟩, ?_, ?_, by decide⟩
  · intro hi hm blk hb2
    exact hentry hi blk (hinv' hi hm blk hb2)
  · intro x y z x' y' z' hy hz hy' hz' he
    exact tag_id_injective x y z x' y' z' hy hz hy' hz' he

theorem tag_content_id_witness :
    (∃ tm blk,
      ([byte_at tag_XI5 0, byte_at tag_XI5 (0 + 1), (aux_shrink fd_v3 tag_XI5 0).1], tm)
          ∈ state_XI5.tags_used
      ∧ tm.blk = some blk
      ∧ blk.content_id
          = (byte_at tag_XI5 0 <<< 16) ||| (byte_at tag_XI5 (0 + 1) <<< 8)
            ||| (aux_shrink fd_v3 tag_XI5 0).1
      ∧ ∀ (itf8_put : Int → List Nat) (store : aux_codec → List Nat),
          tag_encoding_entry itf8_put store
              ([byte_at tag_XI5 0, byte_at tag_XI5 (0 + 1), (aux_shrink fd_v3 tag_XI5 0).1], tm)
            = tm.codec.map (fun c => itf8_put (blk.content_id : Int) ++ store c))
    ∧ (∀ hi ∈ state_XI5.tags_used, ∀ blk, hi.2.blk = some blk →
        ∀ (itf8_put : Int → List Nat) (store : aux_codec → List Nat),
          tag_encoding_entry itf8_put store hi
            = hi.2.codec.map (fun c => itf8_put (blk.content_id : Int) ++ store c))
    ∧ (∀ x y z x' y' z' : Nat, y < 256 → z < 256 → y' < 256 → z' < 256 →
        (x <<< 16) ||| (y <<< 8) ||| z = (x' <<< 16) ||| (y' <<< 8) ||| z' →
        x = x' ∧ y = y' ∧ z = z')
    ∧ ('X'.toNat <<< 16) ||| ('I'.toNat <<< 8) ||| 'C'.toNat = 0x584943 :=
  tag_content_id fd_v3 tag_XI5 0 7 (container_new []).aux state_XI5 (tags_inv_new []) rfl

/-- The tag `XI:i:5` in a new container: the block of the key `XIC` has content
id 0x584943 and the tag encoding map is written with that key. -/
theorem tag_content_id_XI5 :
    state_XI5.tags_used.map (fun hi => (hi.1, hi.2.blk.map (fun blk => blk.content_id)))
      = [(ascii "XIC", some 0x584943)]
    ∧ tag_encoding_keys state_XI5.tags_used = [0x584943]
    ∧ tag_encoding_map (fun x => [x.toNat]) (fun _ => [0]) state_XI5.tags_used
      = some ([0x584943, 0], 1) := by
  decide

/-! ## The collapse of empty blocks in a slice -/

theorem external_nonempty_none (blk : Nat → cram_block_sizes) (core : Option Nat) :
    external_nonempty blk core none = false := rfl

theorem external_nonempty_core (blk : Nat → cram_block_sizes) (core : Option Nat) :
    external_nonempty blk core core = false := by
  cases core with
  | none => rfl
  | some p => simp [external_nonempty]

theorem external_nonempty_empty (blk : Nat → cram_block_sizes) (core : Option Nat)
    (p : Nat) (h : (blk p).uncomp_size = 0) :
    external_nonempty blk core (some p) = false := by
  simp [external_nonempty, h]

theorem external_nonempty_kept (blk : Nat → cram_block_sizes) (core : Option Nat)
    (p : Nat) (hc : some p ≠ core) (h : (blk p).uncomp_size ≠ 0) :
    external_nonempty blk core (some p) = true := by
  simp [external_nonempty, h, hc]

theorem range'_map_congr (f g : Nat → Option Nat) (a n : Nat)
    (h : ∀ k, a ≤ k → f k = g k) :
    (List.range' a n).map f = (List.range' a n).map g := by
  apply List.map_congr_left
  intro k hk
  exact h k (List.mem_range'_1.mp hk).1

/-- The loop invariant of `collapse_loop`: slot 0 and the slots below `j` are
left alone, the slots from `j` to the final `j` are the non-empty external
blocks among the slots from `i` on in their order, and each carries its content
id in `block_content_ids`. -/
theorem collapse_loop_inv (blk : Nat → cram_block_sizes) (n : Nat) :
    ∀ (fuel i : Nat) (block : Nat → Option Nat) (ids : Nat → Int) (j : Nat),
      n ≤ i + fuel → 1 ≤ j → j ≤ i →
      (collapse_loop blk n fuel i (block, ids, j)).1 0 = block 0 ∧
      j ≤ (collapse_loop blk n fuel i (block, ids, j)).2.2 ∧
      (∀ k, 1 ≤ k → k < j →
        (collapse_loop blk n fuel i (block, ids, j)).1 k = block k ∧
        (collapse_loop blk n fuel i (block, ids, j)).2.1 (k - 1) = ids (k - 1)) ∧
      (List.range' j ((collapse_loop blk n fuel i (block, ids, j)).2.2 - j)).map
          (collapse_loop blk n fuel i (block, ids, j)).1
        = ((List.range' i (n - i)).map block).filter (external_nonempty blk (block 0)) ∧
      (∀ k, j ≤ k → k < (collapse_loop blk n fuel i (block, ids, j)).2.2 →
        ∃ p, (collapse_loop blk n fuel i (block, ids, j)).1 k = some p ∧
          some p ≠ block 0 ∧ (blk p).uncomp_size ≠ 0 ∧
          (collapse_loop blk n fuel i (block, ids, j)).2.1 (k - 1) = (blk p).content_id) := by
  intro fuel
  induction fuel with
  | zero =>
    intro i block ids j hn hj hji
    have h0 : n - i = 0 := by omega
    have e : collapse_loop blk n 0 i (block, ids, j) = (block, ids, j) := rfl
    rw [e, h0]
    refine ⟨rfl, le_refl _, fun k _ _ => ⟨rfl, rfl⟩, by simp,
      fun k h1 h2 => absurd h2 (by show ¬ k < j; omega)⟩
  | succ fuel ih =>
    intro i block ids j hn hj hji
    by_cases hi : i < n
    · have hr : List.range' i (n - i) = i :: List.range' (i + 1) (n - (i + 1)) := by
        have : n - i = (n - (i + 1)) + 1 := by omega
        rw [this, List.range'_succ]
      rw [hr, List.map_cons]
      cases hb : block i with
      | none =>
        have e : collapse_loop blk n (fuel + 1) i (block, ids, j)
            = collapse_loop blk n fuel (i + 1) (block, ids, j) := by
          simp only [collapse_loop, if_pos hi, hb]
        rw [e, List.filter_cons_of_neg (by simp [external_nonempty_none])]
        exact ih (i + 1) block ids j (by omega) hj (by omega)
      | some p =>
        by_cases hc : block i = block 0
        · have e : collapse_loop blk n (fuel + 1) i (block, ids, j)
              = collapse_loop blk n fuel (i + 1) (block, ids, j) := by
            simp only [collapse_loop, if_pos hi, hb]
            rw [if_pos (hb ▸ hc)]
          have hk : external_nonempty blk (block 0) (some p) = false := by
            rw [← hb, hc]; exact external_nonempty_core _ _
          rw [e, List.filter_cons_of_neg (by simp [hk])]
          exact ih (i + 1) block ids j (by omega) hj (by omega)
        · have hc' : ¬ some p = block 0 := fun h => hc (hb.trans h)
          by_cases hz : (blk p).uncomp_size = 0
          · have e : collapse_loop blk n (fuel + 1) i (block, ids, j)
                = collapse_loop blk n fuel (i + 1)
                    (Function.update block i none, ids, j) := by
              simp only [collapse_loop, if_pos hi, hb]
              rw [if_neg hc', if_pos hz]
            have hk := external_nonempty_empty blk (block 0) p hz
            rw [e, List.filter_cons_of_neg (by simp [hk])]
            have hi0 : i ≠ 0 := by omega
            have h00 : Function.update block i none 0 = block 0 :=
              Function.update_noteq (Ne.symm hi0) _ _
            obtain ⟨a1, a2, a3, a4, a5⟩ :=
              ih (i + 1) (Function.update block i none) ids j (by omega) hj (by omega)
            rw [h00] at a1 a4 a5
            refine ⟨a1, a2, ?_, ?_, a5⟩
            · intro k h1 h2
              obtain ⟨b1, b2⟩ := a3 k h1 h2
              refine ⟨?_, b2⟩
              rw [b1]
              exact Function.update_noteq (by omega) _ _
            · rw [a4]
              congr 1
              apply range'_map_congr
              intro k hk
              exact Function.update_noteq (by omega) _ _
          · have e : collapse_loop blk n (fuel + 1) i (block, ids, j)
                = collapse_loop blk n fuel (i + 1)
                    (Function.update block j (some p),
                     Function.update ids (j - 1) (blk p).content_id, j + 1) := by
              simp only [collapse_loop, if_pos hi, hb]
              rw [if_neg hc', if_neg hz]
            have hk := external_nonempty_kept blk (block 0) p hc' hz
            rw [e, List.filter_cons_of_pos (by simp [hk])]
            have hj0 : j ≠ 0 := by omega
            have h00 : Function.update block j (some p) 0 = block 0 :=
              Function.update_noteq (Ne.symm hj0) _ _
            obtain ⟨a1, a2, a3, a4, a5⟩ :=
              ih (i + 1) (Function.update block j (some p))
                (Function.update ids (j - 1) (blk p).content_id) (j + 1)
                (by omega) (by omega) (by omega)
            rw [h00] at a1 a4 a5
            obtain ⟨c1, c2⟩ := a3 j hj (by omega)
            rw [Function.update_same] at c1 c2
            refine ⟨a1, by omega, ?_, ?_, ?_⟩
            · intro k h1 h2
              obtain ⟨b1, b2⟩ := a3 k h1 (by omega)
              rw [b1, b2]
              exact ⟨Function.update_noteq (by omega) _ _,
                Function.update_noteq (by omega) _ _⟩
            · have hlen : (collapse_loop blk n fuel (i + 1)
                  (Function.update block j (some p),
                   Function.update ids (j - 1) (blk p).content_id, j + 1)).2.2 - j
                  = ((collapse_loop blk n fuel (i + 1)
                  (Function.update block j (some p),
                   Function.update ids (j - 1) (blk p).content_id, j + 1)).2.2 - (j + 1)) + 1 := by
                omega
              rw [hlen, List.range'_succ, List.map_cons, c1, a4]
              congr 2
              apply range'_map_congr
              intro k hk
              exact Function.update_noteq (by omega) _ _
            · intro k h1 h2
              by_cases hkj : k = j
              · subst hkj
                exact ⟨p, c1, hc', hz, c2⟩
              · exact a5 k (by omega) h2
    · have h0 : n - i = 0 := by omega
      have e : collapse_loop blk n (fuel + 1) i (block, ids, j) = (block, ids, j) := by
        simp only [collapse_loop, if_neg hi]
      rw [e, h0]
      refine ⟨rfl, le_refl _, fun k _ _ => ⟨rfl, rfl⟩, by simp,
        fun k h1 h2 => absurd h2 (by show ¬ k < j; omega)⟩

/-- C22: after the collapse step of `cram_encode_slice`, `num_blocks` is
`num_content_ids + 1`; every slot `k` with `1 ≤ k < num_blocks` holds a block
that is not the CORE block of slot 0, has a non-zero uncompressed size and whose
content id is `block_content_ids[k-1]`; and the slots `1 .. num_blocks-1` are,
in their original order, exactly the slots of the original array that held a
non-empty external block, so that none of them is lost. -/
theorem collapse_blocks_spec (s : slice_blocks) :
    (collapse_blocks s).num_blocks = (collapse_blocks s).num_content_ids + 1 ∧
    (collapse_blocks s).block 0 = s.block 0 ∧
    (∀ k, 1 ≤ k → k < (collapse_blocks s).num_blocks →
      ∃ p, (collapse_blocks s).block k = some p ∧
        (collapse_blocks s).block k ≠ (collapse_blocks s).block 0 ∧
        ((collapse_blocks s).blk p).uncomp_size ≠ 0 ∧
        (collapse_blocks s).block_content_ids (k - 1)
          = ((collapse_blocks s).blk p).content_id) ∧
    (List.range' 1 ((collapse_blocks s).num_blocks - 1)).map (collapse_blocks s).block
      = ((List.range' 1 (s.num_blocks - 1)).map s.block).filter
          (external_nonempty s.blk (s.block 0)) := by
  obtain ⟨a1, a2, _, a4, a5⟩ :=
    collapse_loop_inv s.blk s.num_blocks (s.num_blocks - 1) 1 s.block
      s.block_content_ids 1 (by omega) (le_refl 1) (le_refl 1)
  refine ⟨?_, a1, ?_, a4⟩
  · simp only [collapse_blocks]
    omega
  · intro k h1 h2
    obtain ⟨p, b1, b2, b3, b4⟩ := a5 k h1 h2
    refine ⟨p, b1, ?_, b3, b4⟩
    show (collapse_loop _ _ _ _ _).1 k ≠ (collapse_loop _ _ _ _ _).1 0
    rw [b1, a1]
    exact b2

/-- On `collapse_ex` the two non-empty external blocks move to slots 1 and 2
with their content ids 4 and 5, and the empty block's slot is cleared. -/
theorem collapse_blocks_ex :
    (collapse_blocks collapse_ex).num_blocks = 3 ∧
    (collapse_blocks collapse_ex).num_content_ids = 2 ∧
    (List.range 3).map (collapse_blocks collapse_ex).block = [some 10, some 12, some 13] ∧
    (List.range 2).map (collapse_blocks collapse_ex).block_content_ids = [4, 5] := by
  decide

/-! ## The slice header block -/

theorem crc_stores_eq (crc : Nat) : crc_stores crc = le_bytes 4 crc := by
  have h : ∀ x : Nat, x &&& 255 = x % 256 := fun x =>
    Nat.and_pow_two_sub_one_eq_mod x 8
  simp only [crc_stores, le_bytes, h, Nat.shiftRight_eq_div_pow, Nat.div_div_eq_div_mul]
  norm_num

theorem le_nat_le_bytes (n v : Nat) : le_nat (le_bytes n v) = v % 256 ^ n := by
  induction n generalizing v with
  | zero => simp [le_bytes, le_nat, Nat.mod_one]
  | succ n ih =>
    simp only [le_bytes, le_nat, ih, pow_succ]
    rw [Nat.mul_comm (256 ^ n) 256, Nat.mod_mul]

theorem le_bytes_length (n v : Nat) : (le_bytes n v).length = n := by
  induction n generalizing v with
  | zero => rfl
  | succ n ih => simp [le_bytes, ih]

theorem le_bytes_lt (n v : Nat) : ∀ x ∈ le_bytes n v, x < 256 := by
  induction n generalizing v with
  | zero => simp [le_bytes]
  | succ n ih =>
    intro x hx
    simp only [le_bytes, List.mem_cons] at hx
    rcases hx with rfl | hx
    · exact Nat.mod_lt _ (by norm_num)
    · exact ih _ x hx

/-- The four CRC bytes written to the slice header decode, little-endian, to the
32-bit CRC. -/
theorem crc_stores_le (crc : Nat) (h : crc < 4294967296) :
    le_nat (crc_stores crc) = crc := by
  rw [crc_stores_eq, le_nat_le_bytes]
  exact Nat.mod_eq_of_lt (by norm_num; exact h)

theorem slice_header_ids_eq (itf8_put : Int → List Nat) (hdr : cram_slice_hdr) :
    ∀ (fuel j : Nat) (cp : List Nat), hdr.num_content_ids.toNat ≤ j + fuel →
      slice_header_ids itf8_put hdr fuel j cp
        = cp ++ ((List.range' j (hdr.num_content_ids.toNat - j)).map
            (fun k => itf8_put (hdr.block_content_ids k))).flatten := by
  intro fuel
  induction fuel with
  | zero =>
    intro j cp h
    have h0 : hdr.num_content_ids.toNat - j = 0 := by omega
    simp [slice_header_ids, h0]
  | succ fuel ih =>
    intro j cp h
    by_cases hj : (j : Int) < hdr.num_content_ids
    · have h1 : hdr.num_content_ids.toNat - j
          = (hdr.num_content_ids.toNat - (j + 1)) + 1 := by omega
      rw [slice_header_ids, if_pos hj, ih (j + 1) _ (by omega), h1, List.range'_succ]
      simp [List.append_assoc]
    · have h0 : hdr.num_content_ids.toNat - j = 0 := by omega
      rw [slice_header_ids, if_neg hj, h0]
      simp

theorem slice_header_ids_run (itf8_put : Int → List Nat) (hdr : cram_slice_hdr)
    (cp : List Nat) :
    slice_header_ids itf8_put hdr hdr.num_content_ids.toNat 0 cp
      = cp ++ ((List.range hdr.num_content_ids.toNat).map
          (fun k => itf8_put (hdr.block_content_ids k))).flatten := by
  rw [slice_header_ids_eq itf8_put hdr _ 0 cp (by omega), List.range_eq_range',
    Nat.sub_zero]

/-- The bytes written by `cram_encode_slice_header` are those of the specified
layout. -/
theorem slice_header_bytes_eq (itf8_put ltf8_put : Int → List Nat) (fd : cram_fd)
    (hdr : cram_slice_hdr) (BD_crc SD_crc : Nat) :
    slice_header_bytes itf8_put ltf8_put fd hdr BD_crc SD_crc
      = slice_header_layout_bytes itf8_put ltf8_put fd hdr BD_crc SD_crc := by
  have hB : 'B'.toNat = 66 := rfl
  have hD : 'D'.toNat = 68 := rfl
  have hS : 'S'.toNat = 83 := rfl
  have hc : 'c'.toNat = 99 := rfl
  unfold slice_header_bytes slice_header_layout_bytes slice_header_layout
  simp only [slice_header_ids_run, crc_stores_eq, crc_tag, hB, hD, hS, hc]
  by_cases h4 : 4 ≤ CRAM_MAJOR_VERS fd.version
  · have h3 : 3 ≤ CRAM_MAJOR_VERS fd.version := by omega
    have h2 : CRAM_MAJOR_VERS fd.version ≠ 2 := by omega
    by_cases hm : hdr.mapped = true <;> by_cases hcrc : BD_crc ≠ 0 ∨ SD_crc ≠ 0 <;>
      simp [h4, h3, h2, hm, hcrc, hdr_item.put, List.map_map, Function.comp_def]
  · by_cases h3 : 3 ≤ CRAM_MAJOR_VERS fd.version
    · have h2 : CRAM_MAJOR_VERS fd.version ≠ 2 := by omega
      by_cases hm : hdr.mapped = true <;> by_cases hcrc : BD_crc ≠ 0 ∨ SD_crc ≠ 0 <;>
        simp [h4, h3, h2, hm, hcrc, hdr_item.put, List.map_map, Function.comp_def]
    · by_cases h2 : CRAM_MAJOR_VERS fd.version = 2 <;> by_cases hm : hdr.mapped = true <;>
        simp [h4, h3, h2, hm, hdr_item.put, List.map_map, Function.comp_def]

/-- C21: when the bytes fit the buffer (the assertion of the function holds),
`cram_encode_slice_header` returns a block whose data is, in order and with
nothing else, the specified layout (itf8 ref_seq_id; start and span as ltf8 on
format 4 and later, itf8 before; itf8 num_records; record_counter as itf8 on
format 2 and ltf8 on format 3 and later; itf8 num_blocks; itf8 num_content_ids;
one itf8 per content id; itf8 ref_base_id for a mapped slice only; 16 MD5
bytes; on format 3 and later with a non-zero CRC the BD then the SD tag), and
whose `comp_size` and `uncomp_size` are the number of bytes written. -/
theorem cram_encode_slice_header_layout (itf8_put ltf8_put : Int → List Nat) (fd : cram_fd)
    (hdr : cram_slice_hdr) (BD_crc SD_crc : Nat)
    (hfit : ((slice_header_layout_bytes itf8_put ltf8_put fd hdr BD_crc SD_crc).length : Int)
      ≤ 22 + 16 + 5 * (8 + hdr.num_blocks)) :
    ∃ b, cram_encode_slice_header itf8_put ltf8_put fd hdr BD_crc SD_crc = some b ∧
      b.data = slice_header_layout_bytes itf8_put ltf8_put fd hdr BD_crc SD_crc ∧
      b.comp_size = (b.data.length : Int) ∧ b.uncomp_size = (b.data.length : Int) := by
  unfold cram_encode_slice_header
  dsimp only
  rw [slice_header_bytes_eq, if_pos hfit]
  exact ⟨_, rfl, rfl, rfl, rfl⟩

theorem cram_encode_slice_header_layout_witness :
    ∃ b, cram_encode_slice_header put_1byte put_1byte fd_v3
        slice_hdr_ex 1 0 = some b ∧
      b.data = slice_header_layout_bytes put_1byte put_1byte
        fd_v3 slice_hdr_ex 1 0 ∧
      b.comp_size = (b.data.length : Int) ∧ b.uncomp_size = (b.data.length : Int) :=
  cram_encode_slice_header_layout put_1byte put_1byte
    fd_v3 slice_hdr_ex 1 0 (by decide)

/-- The bytes fit the buffer whenever every integer of the header is written in
at most five bytes, the number of content ids is not negative and there is at
least one block more than content ids. -/
theorem slice_header_fits (itf8_put ltf8_put : Int → List Nat) (fd : cram_fd)
    (hdr : cram_slice_hdr) (BD_crc SD_crc : Nat)
    (hi : ∀ v, (itf8_put v).length ≤ 5)
    (hl : ∀ v ∈ [hdr.ref_seq_start, hdr.ref_seq_span, hdr.record_counter],
      (ltf8_put v).length ≤ 5)
    (h0 : 0 ≤ hdr.num_content_ids) (hn : hdr.num_content_ids + 1 ≤ hdr.num_blocks) :
    ((slice_header_layout_bytes itf8_put ltf8_put fd hdr BD_crc SD_crc).length : Int)
      ≤ 22 + 16 + 5 * (8 + hdr.num_blocks) := by
  have hids : (((List.range hdr.num_content_ids.toNat).map
      (fun j => itf8_put (hdr.block_content_ids j))).flatten).length
      ≤ 5 * hdr.num_content_ids.toNat := by
    generalize hdr.num_content_ids.toNat = n
    induction n with
    | zero => simp
    | succ n ih =>
      rw [List.range_succ, List.map_append, List.flatten_append, List.length_append]
      have := hi (hdr.block_content_ids n)
      simp only [List.map_cons, List.map_nil, List.flatten_cons, List.flatten_nil,
        List.append_nil]
      omega
  have h1 := hl hdr.ref_seq_start (by simp)
  have h2 := hl hdr.ref_seq_span (by simp)
  have h3 := hl hdr.record_counter (by simp)
  have i1 := hi hdr.ref_seq_id
  have i2 := hi hdr.ref_seq_start
  have i3 := hi hdr.ref_seq_span
  have i4 := hi hdr.num_records
  have i5 := hi hdr.record_counter
  have i6 := hi hdr.num_blocks
  have i7 := hi hdr.num_content_ids
  have i8 := hi hdr.ref_base_id
  have hmd : (bytes_from hdr.md5 0 16).length = 16 := by simp [bytes_from]
  have hcrc : ∀ a b c, (crc_tag a b c).length = 12 := by
    intro a b c
    simp [crc_tag, le_bytes]
  have hto : (hdr.num_content_ids.toNat : Int) ≤ hdr.num_blocks := by omega
  unfold slice_header_layout_bytes slice_header_layout
  simp only [List.map_append, List.flatten_append, List.length_append, List.map_map]
  have hids' : (((List.range hdr.num_content_ids.toNat).map
      (hdr_item.put itf8_put ltf8_put ∘ fun j => hdr_item.itf8 (hdr.block_content_ids j))
      ).flatten).length ≤ 5 * hdr.num_content_ids.toNat := hids
  split_ifs <;>
    simp only [List.map_cons, List.map_nil, List.flatten_cons, List.flatten_nil,
      List.append_nil, List.length_append, List.length_nil, hdr_item.put, hmd, hcrc] <;>
    omega

/-- The header of `slice_hdr_ex` on format 3 with a BD CRC of 1. -/
theorem cram_encode_slice_header_ex :
    cram_encode_slice_header put_1byte put_1byte fd_v3 slice_hdr_ex 1 0
      = some ⟨0, [1, 10, 90, 7, 3, 3, 2, 11, 12, 5] ++ List.replicate 16 170
          ++ [66, 68, 66, 99, 4, 0, 0, 0, 1, 0, 0, 0, 83, 68, 66, 99, 4, 0, 0, 0, 0, 0, 0, 0],
          50, 50⟩ := by
  decide

/-! ## The PP links of the @PG records -/

theorem link_inv_zero (hdr : SAM_hdr_pg) :
    link_inv hdr 0
      (hdr.pg, (fun i => if i < hdr.npg then (i : Int) else hdr.pg_end i), 0) where
  same := fun _ => ⟨rfl, rfl, rfl⟩
  prev := fun k => by simp
  ends := fun j => by simp
  ret := by simp

theorem link_inv_step (hdr : SAM_hdr_pg) (m : Nat)
    (st : (Nat → SAM_PG) × (Nat → Int) × Int) (h : link_inv hdr m st) :
    link_inv hdr (m + 1) (link_pg_step hdr.text hdr.pg_hash st m) := by
  obtain ⟨pg, pg_end, ret⟩ := st
  have hs := h.same
  have hp := h.prev
  have he := h.ends
  have hr := h.ret
  dsimp only at hs hp he hr
  have htag : (pg m).tag = (hdr.pg m).tag := (hs m).1
  unfold link_pg_step
  dsimp only
  rw [htag]
  cases ht : pg_pp_tag hdr.text (hdr.pg m).tag with
  | none =>
    have htg : pg_pp_target hdr m = none := by simp [pg_pp_target, ht]
    refine ⟨hs, ?_, ?_, ?_⟩
    · intro k
      rw [hp k]
      by_cases hk : k < m
      · rw [if_pos hk, if_pos (by omega)]
      · rw [if_neg hk]
        by_cases hkm : k = m
        · subst hkm
          rw [if_pos (by omega), htg]
        · rw [if_neg (by omega)]
    · intro j
      show pg_end j = _
      rw [he j, List.range_succ, List.any_append]
      simp [htg]
    · show ret = _
      rw [hr, List.range_succ, List.any_append]
      simp [htg]
  | some tag =>
    dsimp only
    cases hl : HashTableSearch hdr.pg_hash (pg_pp_key hdr.text tag) with
    | none =>
      have htg : pg_pp_target hdr m = some none := by simp [pg_pp_target, ht, hl]
      refine ⟨hs, ?_, ?_, ?_⟩
      · intro k
        show (pg k).prev_id = _
        rw [hp k]
        by_cases hk : k < m
        · rw [if_pos hk, if_pos (by omega)]
        · rw [if_neg hk]
          by_cases hkm : k = m
          · subst hkm
            rw [if_pos (by omega), htg]
          · rw [if_neg (by omega)]
      · intro j
        show pg_end j = _
        rw [he j, List.range_succ, List.any_append]
        simp [htg]
      · show (-1 : Int) = _
        rw [List.range_succ, List.any_append]
        simp [htg]
    | some hi =>
      have htg : pg_pp_target hdr m = some (some hi) := by simp [pg_pp_target, ht, hl]
      refine ⟨?_, ?_, ?_, ?_⟩
      · intro k
        show (Function.update pg m _ k).tag = _ ∧ (Function.update pg m _ k).id = _ ∧
          (Function.update pg m _ k).name = _
        by_cases hkm : k = m
        · subst hkm
          rw [Function.update_same]
          exact ⟨rfl, (hs k).2.1, (hs k).2.2⟩
        · rw [Function.update_noteq hkm]
          exact hs k
      · intro k
        show (Function.update pg m _ k).prev_id = _
        by_cases hkm : k = m
        · subst hkm
          rw [Function.update_same, if_pos (by omega), htg]
          exact (hs hi).2.1
        · rw [Function.update_noteq hkm, hp k]
          by_cases hk : k < m
          · rw [if_pos hk, if_pos (by omega)]
          · rw [if_neg hk, if_neg (by omega)]
      · intro j
        show Function.update pg_end hi (-1) j = _
        rw [List.range_succ, List.any_append]
        by_cases hj : j = hi
        · subst hj
          rw [Function.update_same]
          simp [htg]
        · rw [Function.update_noteq hj, he j]
          have : (some (some hi) == some (some j)) = false := by
            simp [Ne.symm hj]
          simp [htg, this]
      · show ret = _
        rw [hr, List.range_succ, List.any_append]
        simp [htg]

theorem link_inv_fold (hdr : SAM_hdr_pg) (m : Nat) :
    link_inv hdr m ((List.range m).foldl (link_pg_step hdr.text hdr.pg_hash)
      (hdr.pg, (fun i => if i < hdr.npg then (i : Int) else hdr.pg_end i), 0)) := by
  induction m with
  | zero => exact link_inv_zero hdr
  | succ m ih =>
    rw [List.range_succ, List.foldl_append]
    exact link_inv_step hdr m _ ih

/-- The last loop of `sam_header_link_pg` after the indices below `m`: the
counter is at most `m`, the entries from `m` on are untouched, and the entries
below the counter are the entries below `m` that are not -1, in order. -/
theorem pg_end_fold (E : Nat → Int) (m : Nat) :
    ((List.range m).foldl pg_end_step (E, 0)).2 ≤ m ∧
    (∀ k, m ≤ k → ((List.range m).foldl pg_end_step (E, 0)).1 k = E k) ∧
    (List.range ((List.range m).foldl pg_end_step (E, 0)).2).map
        ((List.range m).foldl pg_end_step (E, 0)).1
      = ((List.range m).filter (fun i => decide (E i ≠ -1))).map E := by
  induction m with
  | zero => exact ⟨le_refl _, fun _ _ => rfl, rfl⟩
  | succ m ih =>
    obtain ⟨h1, h2, h3⟩ := ih
    rw [List.range_succ, List.foldl_append, List.filter_append, List.map_append]
    generalize (List.range m).foldl pg_end_step (E, 0) = st at h1 h2 h3
    obtain ⟨c, j⟩ := st
    dsimp only at h1 h2 h3
    simp only [List.foldl_cons, List.foldl_nil, pg_end_step]
    have hcm : c m = E m := h2 m (le_refl _)
    by_cases hm : E m ≠ -1
    · rw [if_pos (hcm ▸ hm)]
      dsimp only
      refine ⟨by omega, ?_, ?_⟩
      · intro k hk
        rw [Function.update_noteq (by omega)]
        exact h2 k (by omega)
      · rw [List.range_succ, List.map_append, List.filter_cons_of_pos (by simpa using hm)]
        simp only [List.map_cons, List.map_nil, List.filter_nil, Function.update_same, hcm]
        rw [← h3]
        congr 1
        apply List.map_congr_left
        intro k hk
        rw [Function.update_noteq (by have := List.mem_range.mp hk; omega)]
    · rw [if_neg (hcm ▸ hm)]
      dsimp only
      refine ⟨by omega, fun k hk => h2 k (by omega), ?_⟩
      rw [List.filter_cons_of_neg (by simpa using hm)]
      simp only [List.filter_nil, List.map_nil, List.append_nil]
      exact h3

/-- Under the table invariant, for a `PP` tag with a non-empty value the lookup
finds `j` exactly when `j` is a record whose ID is the value of the tag. -/
theorem pg_lookup_iff (hdr : SAM_hdr_pg)
    (hok : ∀ key j, HashTableSearch hdr.pg_hash key = some j ↔
      (j < hdr.npg ∧ (hdr.pg j).name = some key))
    (tag : SAM_hdr_tag) (hlen : 3 < tag.len) (j : Nat) :
    HashTableSearch hdr.pg_hash (pg_pp_key hdr.text tag) = some j ↔
      (j < hdr.npg ∧ (hdr.pg j).name = some (tag_value hdr.text tag)) := by
  have hk : pg_pp_key hdr.text tag = tag_value hdr.text tag := by
    unfold pg_pp_key tag_value
    rw [if_neg (by omega)]
  rw [hk]
  exact hok _ j

theorem pg_target_some_iff (hdr : SAM_hdr_pg)
    (hok : ∀ key j, HashTableSearch hdr.pg_hash key = some j ↔
      (j < hdr.npg ∧ (hdr.pg j).name = some key))
    (hpp : ∀ i, i < hdr.npg → ∀ tag, pg_pp_tag hdr.text (hdr.pg i).tag = some tag →
      3 < tag.len)
    (i j : Nat) (hi : i < hdr.npg) :
    pg_pp_target hdr i = some (some j) ↔ (j < hdr.npg ∧ pg_names hdr i j = true) := by
  unfold pg_pp_target pg_names
  cases ht : pg_pp_tag hdr.text (hdr.pg i).tag with
  | none => simp
  | some tag =>
    simp only [Option.map_some', Option.some.injEq, decide_eq_true_eq]
    exact pg_lookup_iff hdr hok tag (hpp i hi tag ht) j

theorem pg_target_none_iff (hdr : SAM_hdr_pg)
    (hok : ∀ key j, HashTableSearch hdr.pg_hash key = some j ↔
      (j < hdr.npg ∧ (hdr.pg j).name = some key))
    (hpp : ∀ i, i < hdr.npg → ∀ tag, pg_pp_tag hdr.text (hdr.pg i).tag = some tag →
      3 < tag.len)
    (i : Nat) (hi : i < hdr.npg) :
    pg_pp_target hdr i = some none ↔ pg_dangling hdr i = true := by
  unfold pg_pp_target pg_dangling
  cases ht : pg_pp_tag hdr.text (hdr.pg i).tag with
  | none => simp
  | some tag =>
    simp only [Option.map_some', Option.some.injEq, List.all_eq_true, List.mem_range,
      decide_eq_true_eq]
    have hl := pg_lookup_iff hdr hok tag (hpp i hi tag ht)
    constructor
    · intro hn j hj hname
      have := (hl j).mpr ⟨hj, hname⟩
      rw [hn] at this
      exact Option.noConfusion this
    · intro hall
      cases hs : HashTableSearch hdr.pg_hash (pg_pp_key hdr.text tag) with
      | none => rfl
      | some j =>
        obtain ⟨hj, hname⟩ := (hl j).mp hs
        exact absurd hname (hall j hj)

/-- C27 (amended): on a header whose `pg_hash` maps each ID to the one record
having it (the @PG IDs are distinct) and in which the first `PP` tag of every
record has a non-empty value, `sam_header_link_pg` leaves in `pg_end[0 .. npg_end)`, in increasing
index order, exactly the records that no record, itself included, names in its
first `PP` tag; every record whose first `PP` tag names a record gets that
record's `id` as `prev_id`; and the function returns -1 exactly when the first
`PP` tag of some record names an ID that is not in the header, and 0 otherwise. -/
theorem sam_header_link_pg_spec (hdr : SAM_hdr_pg)
    (hok : ∀ key j, HashTableSearch hdr.pg_hash key = some j ↔
      (j < hdr.npg ∧ (hdr.pg j).name = some key))
    (hpp : ∀ i, i < hdr.npg → ∀ tag, pg_pp_tag hdr.text (hdr.pg i).tag = some tag →
      3 < tag.len) :
    (List.range (sam_header_link_pg hdr).1.npg_end).map (sam_header_link_pg hdr).1.pg_end
      = ((List.range hdr.npg).filter (fun j => !pg_named hdr j)).map (fun (j : Nat) => (j : Int)) ∧
    (∀ i j, i < hdr.npg → j < hdr.npg → pg_names hdr i j = true →
      ((sam_header_link_pg hdr).1.pg i).prev_id = (hdr.pg j).id) ∧
    ((sam_header_link_pg hdr).2 = -1 ↔ ∃ i, i < hdr.npg ∧ pg_dangling hdr i = true) ∧
    ((sam_header_link_pg hdr).2 = -1 ∨ (sam_header_link_pg hdr).2 = 0) := by
  have hinv := link_inv_fold hdr hdr.npg
  obtain ⟨_, hc2, hc3⟩ := pg_end_fold
    ((List.range hdr.npg).foldl (link_pg_step hdr.text hdr.pg_hash)
      (hdr.pg, (fun i => if i < hdr.npg then (i : Int) else hdr.pg_end i), 0)).2.1 hdr.npg
  have hends : ∀ j, j < hdr.npg →
      ((List.range hdr.npg).foldl (link_pg_step hdr.text hdr.pg_hash)
        (hdr.pg, (fun i => if i < hdr.npg then (i : Int) else hdr.pg_end i), 0)).2.1 j
        = if pg_named hdr j = true then -1 else (j : Int) := by
    intro j hj
    rw [hinv.ends j, if_pos hj]
    have : (List.range hdr.npg).any (fun k => pg_pp_target hdr k == some (some j))
        = pg_named hdr j := by
      unfold pg_named
      rw [Bool.eq_iff_iff]
      simp only [List.any_eq_true, List.mem_range, beq_iff_eq]
      constructor
      · rintro ⟨k, hk, h⟩
        exact ⟨k, hk, ((pg_target_some_iff hdr hok hpp k j hk).mp h).2⟩
      · rintro ⟨k, hk, h⟩
        exact ⟨k, hk, (pg_target_some_iff hdr hok hpp k j hk).mpr ⟨hj, h⟩⟩
    rw [this]
  have hret : (List.range hdr.npg).any (fun k => pg_pp_target hdr k == some none) = true
      ↔ ∃ i, i < hdr.npg ∧ pg_dangling hdr i = true := by
    simp only [List.any_eq_true, List.mem_range, beq_iff_eq]
    constructor
    · rintro ⟨k, hk, h⟩
      exact ⟨k, hk, (pg_target_none_iff hdr hok hpp k hk).mp h⟩
    · rintro ⟨k, hk, h⟩
      exact ⟨k, hk, (pg_target_none_iff hdr hok hpp k hk).mpr h⟩
  refine ⟨?_, ?_, ?_, ?_⟩
  · show (List.range ((List.range hdr.npg).foldl pg_end_step _).2).map
      ((List.range hdr.npg).foldl pg_end_step _).1 = _
    rw [hc3]
    have hf : ∀ j ∈ List.range hdr.npg,
        decide (((List.range hdr.npg).foldl (link_pg_step hdr.text hdr.pg_hash)
          (hdr.pg, (fun i => if i < hdr.npg then (i : Int) else hdr.pg_end i), 0)).2.1 j ≠ -1)
          = !pg_named hdr j := by
      intro j hj
      rw [hends j (List.mem_range.mp hj)]
      cases pg_named hdr j
      · simp only [Bool.false_eq_true, if_false, Bool.not_false, decide_eq_true_eq]
        omega
      · simp
    rw [List.filter_congr hf]
    apply List.map_congr_left
    intro j hj
    have hj' := List.mem_filter.mp hj
    rw [hends j (List.mem_range.mp hj'.1)]
    have : pg_named hdr j = false := by simpa using hj'.2
    rw [this]
    simp
  · intro i j hi hj hn
    show (((List.range hdr.npg).foldl (link_pg_step hdr.text hdr.pg_hash) _).1 i).prev_id = _
    rw [hinv.prev i, if_pos hi, (pg_target_some_iff hdr hok hpp i j hi).mpr ⟨hj, hn⟩]
  · show ((List.range hdr.npg).foldl (link_pg_step hdr.text hdr.pg_hash) _).2.2 = -1 ↔ _
    rw [hinv.ret, ← hret]
    by_cases h : (List.range hdr.npg).any (fun k => pg_pp_target hdr k == some none) = true
    · rw [if_pos h]; simp [h]
    · rw [if_neg h]; simp [h]
  · show ((List.range hdr.npg).foldl (link_pg_step hdr.text hdr.pg_hash) _).2.2 = -1 ∨
      ((List.range hdr.npg).foldl (link_pg_step hdr.text hdr.pg_hash) _).2.2 = 0
    rw [hinv.ret]
    by_cases h : (List.range hdr.npg).any (fun k => pg_pp_target hdr k == some none) = true
    · rw [if_pos h]; exact Or.inl rfl
    · rw [if_neg h]; exact Or.inr rfl

theorem HashTableSearch_cons {β : Type} (k key : List Nat) (v : β) (t : HashTable β) :
    HashTableSearch ((k, v) :: t) key = if key = k then some v else HashTableSearch t key := by
  unfold HashTableSearch
  by_cases h : key = k
  · subst h
    simp [List.lookup]
  · have : (key == k) = false := by simpa using h
    simp [List.lookup, this, h]

theorem pg_chain_ex_ok (key : List Nat) (j : Nat) :
    HashTableSearch pg_chain_ex.pg_hash key = some j ↔
      (j < pg_chain_ex.npg ∧ (pg_chain_ex.pg j).name = some key) := by
  have ha : ascii "a" = [97] := rfl
  have hb : ascii "b" = [98] := rfl
  have hc : ascii "c" = [99] := rfl
  simp only [pg_chain_ex, HashTableSearch_cons, ha, hb, hc]
  have hnil : HashTableSearch ([] : HashTable Nat) key = none := rfl
  rw [hnil]
  rcases j with _ | _ | _ | j
  · by_cases h1 : key = [97]
    · simp [h1]
    · by_cases h2 : key = [98]
      · simp [h2]
      · by_cases h3 : key = [99]
        · simp [h3]
        · simp [h1, h2, h3, Ne.symm h1]
  · by_cases h1 : key = [97]
    · simp [h1]
    · by_cases h2 : key = [98]
      · simp [h2]
      · by_cases h3 : key = [99]
        · simp [h3]
        · simp [h1, h2, h3, Ne.symm h2]
  · by_cases h1 : key = [97]
    · simp [h1]
    · by_cases h2 : key = [98]
      · simp [h2]
      · by_cases h3 : key = [99]
        · simp [h3]
        · simp [h1, h2, h3, Ne.symm h3]
  · by_cases h1 : key = [97]
    · simp [h1]
    · by_cases h2 : key = [98]
      · simp [h2]
      · by_cases h3 : key = [99]
        · simp [h3]
        · simp [h1, h2, h3]

theorem pg_chain_ex_pp (i : Nat) (hi : i < pg_chain_ex.npg) (tag : SAM_hdr_tag)
    (h : pg_pp_tag pg_chain_ex.text (pg_chain_ex.pg i).tag = some tag) : 3 < tag.len := by
  have hi3 : i < 3 := hi
  interval_cases i
  · have : pg_pp_tag pg_chain_ex.text (pg_chain_ex.pg 0).tag = none := by decide
    rw [this] at h
    exact Option.noConfusion h
  · have : pg_pp_tag pg_chain_ex.text (pg_chain_ex.pg 1).tag = some ⟨18, 4⟩ := by decide
    rw [this] at h
    cases h
    decide
  · have : pg_pp_tag pg_chain_ex.text (pg_chain_ex.pg 2).tag = none := by decide
    rw [this] at h
    exact Option.noConfusion h

theorem sam_header_link_pg_spec_witness :
    (List.range (sam_header_link_pg pg_chain_ex).1.npg_end).map
        (sam_header_link_pg pg_chain_ex).1.pg_end
      = ((List.range pg_chain_ex.npg).filter (fun j => !pg_named pg_chain_ex j)).map
          (fun (j : Nat) => (j : Int)) ∧
    (∀ i j, i < pg_chain_ex.npg → j < pg_chain_ex.npg → pg_names pg_chain_ex i j = true →
      ((sam_header_link_pg pg_chain_ex).1.pg i).prev_id = (pg_chain_ex.pg j).id) ∧
    ((sam_header_link_pg pg_chain_ex).2 = -1 ↔
      ∃ i, i < pg_chain_ex.npg ∧ pg_dangling pg_chain_ex i = true) ∧
    ((sam_header_link_pg pg_chain_ex).2 = -1 ∨ (sam_header_link_pg pg_chain_ex).2 = 0) :=
  sam_header_link_pg_spec pg_chain_ex pg_chain_ex_ok pg_chain_ex_pp

/-- On `pg_chain_ex` the chain tails are the records 1 and 2, record 1 links to
record 0, and the function returns 0. -/
theorem sam_header_link_pg_chain :
    (sam_header_link_pg pg_chain_ex).1.npg_end = 2 ∧
    (List.range 2).map (sam_header_link_pg pg_chain_ex).1.pg_end = [1, 2] ∧
    (List.range 3).map (fun i => ((sam_header_link_pg pg_chain_ex).1.pg i).prev_id)
      = [-1, 0, -1] ∧
    (sam_header_link_pg pg_chain_ex).2 = 0 := by
  decide

/-- C27 as stated fails in three ways. A record whose `PP` tag names its own ID
is named by no other record, yet it is dropped from `pg_end`; a `PP` tag after
the first one of its record may name an ID that is not in the header while the
function returns 0; and a `PP` tag with an empty value is looked up with the
length 0, for which the hash library measures the key with `strlen`: on
`@PG ID:`, `@PG ID:b PP:` the IDs are distinct and the empty value is the ID of
the first record, so no `PP` tag names an ID that is not in the header, yet the
function returns -1. -/
theorem sam_header_link_pg_self_and_later :
    ((sam_header_link_pg pg_self_ex).1.npg_end = 0 ∧
      (List.range pg_self_ex.npg).filter (fun j => !pg_named_by_other pg_self_ex j) = [0] ∧
      (sam_header_link_pg pg_self_ex).2 = 0) ∧
    ((sam_header_link_pg pg_two_pp_ex).2 = 0 ∧ pg_dangling_any pg_two_pp_ex 1 = true) ∧
    ((pg_empty_pp_ex.pg 0).name ≠ (pg_empty_pp_ex.pg 1).name ∧
      (sam_header_link_pg pg_empty_pp_ex).2 = -1 ∧
      (List.range pg_empty_pp_ex.npg).all
        (fun i => !pg_dangling pg_empty_pp_ex i && !pg_dangling_any pg_empty_pp_ex i) = true) := by
  decide

/-- The tables of the @PG records in the examples are the ones the parser
builds: `sam_header_add_lines` on the text of `pg_empty_pp_ex` and of
`pg_chain_ex` returns their records, hash and chain ends. -/
theorem pg_examples_parsed :
    (sam_header_add_lines sam_hdr_empty pg_empty_pp_ex.text).map
        (fun sh => (sh.pg, sh.pg_end))
      = some ((List.range pg_empty_pp_ex.npg).map pg_empty_pp_ex.pg, [0, 1])
    ∧ (sam_header_add_lines sam_hdr_empty pg_empty_pp_ex.text).map (fun sh => sh.pg_hash)
      = some pg_empty_pp_ex.pg_hash
    ∧ (sam_header_add_lines sam_hdr_empty pg_chain_ex.text).map
        (fun sh => (sh.pg, sh.pg_end))
      = some ((List.range pg_chain_ex.npg).map pg_chain_ex.pg, [1, 2])
    ∧ (sam_header_add_lines sam_hdr_empty pg_chain_ex.text).map (fun sh => sh.pg_hash)
      = some pg_chain_ex.pg_hash := by
  refine ⟨by decide, by decide, by decide, by decide⟩

/-! ## Header lines: parsing and lookup -/

theorem byte_at_of_drop (text : List Nat) (i a : Nat) (r : List Nat)
    (h : text.drop i = a :: r) : byte_at text i = a := by
  unfold byte_at
  rw [List.getD_eq_getElem?_getD]
  have : text[i]? = (text.drop i)[0]? := by
    rw [List.getElem?_drop]
    rfl
  rw [this, h]
  simp

theorem drop_add_of_drop (text : List Nat) (i : Nat) (x r : List Nat)
    (h : text.drop i = x ++ r) : text.drop (i + x.length) = r := by
  rw [← List.drop_drop, h, List.drop_left]

theorem bytes_from_of_drop (text : List Nat) :
    ∀ (t : List Nat) (i : Nat) (r : List Nat), text.drop i = t ++ r →
      bytes_from text i t.length = t := by
  intro t
  induction t with
  | nil => intro i r _; rfl
  | cons a t ih =>
    intro i r h
    have ha : byte_at text i = a := byte_at_of_drop text i a (t ++ r) h
    have h1 : text.drop (i + 1) = t ++ r := by
      have := drop_add_of_drop text i [a] (t ++ r) h
      simpa using this
    have ih1 := ih (i + 1) r h1
    unfold bytes_from at ih1 ⊢
    rw [List.length_cons, List.range_succ_eq_map, List.map_cons, List.map_map]
    rw [Nat.add_zero, ha]
    congr 1
    refine Eq.trans ?_ ih1
    apply List.map_congr_left
    intro k _
    show byte_at text (i + (k + 1)) = byte_at text (i + 1 + k)
    rw [Nat.add_comm k 1, Nat.add_assoc]

theorem lt_length_of_drop_cons (text : List Nat) (i a : Nat) (r : List Nat)
    (h : text.drop i = a :: r) : i < text.length := by
  by_contra hc
  rw [List.drop_eq_nil_of_le (by omega)] at h
  exact List.noConfusion h

theorem tag_scan_spec (hdr : List Nat) (d : Nat) (r : List Nat) (hd : d = 9 ∨ d = 10) :
    ∀ (t : List Nat) (fuel j : Nat), hdr.drop j = t ++ d :: r →
      (∀ b ∈ t, b ≠ 9 ∧ b ≠ 10 ∧ b ≠ 0) → t.length ≤ fuel →
      tag_scan hdr hdr.length fuel j = j + t.length := by
  intro t
  induction t with
  | nil =>
    intro fuel j h _ _
    have hb : byte_at hdr j = d := byte_at_of_drop hdr j d r h
    cases fuel with
    | zero => rfl
    | succ fuel =>
      unfold tag_scan
      rw [if_neg]
      · rfl
      · rw [hb]
        rcases hd with rfl | rfl <;> simp
  | cons a t ih =>
    intro fuel j h hw hf
    have hb : byte_at hdr j = a := byte_at_of_drop hdr j a (t ++ d :: r) h
    have hlt : j < hdr.length := lt_length_of_drop_cons hdr j a _ h
    have h1 : hdr.drop (j + 1) = t ++ d :: r := by
      have := drop_add_of_drop hdr j [a] (t ++ d :: r) h
      simpa using this
    have ha := hw a (List.mem_cons_self a t)
    cases fuel with
    | zero => simp at hf
    | succ fuel =>
      unfold tag_scan
      rw [if_pos ⟨hlt, by rw [hb]; exact ha.2.1, by rw [hb]; exact ha.1⟩]
      rw [ih fuel (j + 1) h1 (fun b hb' => hw b (List.mem_cons_of_mem a hb'))
        (by simpa using hf)]
      simp only [List.length_cons]
      omega

theorem length_of_drop (text : List Nat) (i : Nat) (x : List Nat) (h : text.drop i = x) :
    i + x.length = text.length ∨ (x = [] ∧ text.length ≤ i) := by
  have := congrArg List.length h
  rw [List.length_drop] at this
  by_cases hi : i ≤ text.length
  · left; omega
  · right
    refine ⟨?_, by omega⟩
    apply List.eq_nil_of_length_eq_zero
    omega

/-- The tag loop of `sam_header_add_lines` on the tags `ts` of a well-formed
line, each after its tab and the last one followed by a newline: it ends at the
newline with one descriptor per tag. -/
theorem parse_tags_spec (hdr : List Nat) (off : Nat) (r : List Nat) :
    ∀ (ts : List (List Nat)) (fuel i : Nat) (acc : List SAM_hdr_tag), ts ≠ [] →
      hdr.drop i = ts.flatMap (fun t => 9 :: t) ++ 10 :: r →
      (∀ t ∈ ts, ∀ b ∈ t, b ≠ 9 ∧ b ≠ 10 ∧ b ≠ 0) → ts.length ≤ fuel →
      parse_tags hdr hdr.length off fuel i acc
        = some (acc ++ tag_descs (i + 1 + off) ts,
            i + (ts.flatMap (fun t => 9 :: t)).length) := by
  intro ts
  induction ts with
  | nil => intro _ _ _ h; exact absurd rfl h
  | cons t ts ih =>
    intro fuel i acc _ h hw hf
    cases fuel with
    | zero => simp at hf
    | succ fuel =>
      have h0 : hdr.drop i = 9 :: (t ++ (ts.flatMap (fun t => 9 :: t) ++ 10 :: r)) := by
        rw [h]
        simp [List.flatMap_cons]
      have hb : byte_at hdr i = 9 := byte_at_of_drop hdr i 9 _ h0
      have h1 : hdr.drop (i + 1) = t ++ (ts.flatMap (fun t => 9 :: t) ++ 10 :: r) := by
        have := drop_add_of_drop hdr i [9] _ h0
        simpa using this
      have hwt := hw t (List.mem_cons_self t ts)
      have hlen1 : t.length ≤ hdr.length - (i + 1) := by
        have := congrArg List.length h1
        rw [List.length_drop, List.length_append] at this
        omega
      unfold parse_tags
      rw [if_neg (by rw [hb]; simp)]
      dsimp only
      cases ts with
      | nil =>
        have h1' : hdr.drop (i + 1) = t ++ 10 :: r := by simpa using h1
        rw [tag_scan_spec hdr 10 r (Or.inr rfl) t _ (i + 1) h1' hwt hlen1]
        have h2 : hdr.drop (i + 1 + t.length) = 10 :: r := drop_add_of_drop hdr (i + 1) t _ h1'
        have hb2 : byte_at hdr (i + 1 + t.length) = 10 := byte_at_of_drop hdr _ 10 r h2
        rw [if_neg (by rw [hb2]; simp)]
        have e1 : i + 1 + t.length - (i + 1) = t.length := by omega
        have e3 : i + 1 + t.length = i + (t.length + 1) := by omega
        rw [e1, e3]
        simp only [tag_descs, List.flatMap_cons, List.flatMap_nil, List.append_nil,
          List.length_cons]
      | cons t2 ts =>
        have h1' : hdr.drop (i + 1)
            = t ++ 9 :: (t2 ++ (ts.flatMap (fun t => 9 :: t) ++ 10 :: r)) := by
          rw [h1]
          simp [List.flatMap_cons]
        rw [tag_scan_spec hdr 9 _ (Or.inl rfl) t _ (i + 1) h1' hwt hlen1]
        have h2 : hdr.drop (i + 1 + t.length)
            = 9 :: (t2 ++ (ts.flatMap (fun t => 9 :: t) ++ 10 :: r)) :=
          drop_add_of_drop hdr (i + 1) t _ h1'
        have hb2 : byte_at hdr (i + 1 + t.length) = 9 := byte_at_of_drop hdr _ 9 _ h2
        have hlt : i + 1 + t.length < hdr.length := lt_length_of_drop_cons hdr _ 9 _ h2
        rw [if_pos ⟨hlt, by rw [hb2]; simp⟩]
        have h2' : hdr.drop (i + 1 + t.length)
            = (t2 :: ts).flatMap (fun t => 9 :: t) ++ 10 :: r := by
          rw [h2]
          simp [List.flatMap_cons]
        rw [ih fuel (i + 1 + t.length) _ (List.cons_ne_nil _ _) h2'
          (fun t' ht' => hw t' (List.mem_cons_of_mem t ht')) (by simpa using hf)]
        have e1 : i + 1 + t.length - (i + 1) = t.length := by omega
        have e2 : i + 1 + t.length + 1 + off = i + 1 + off + t.length + 1 := by omega
        rw [e1, e2]
        simp only [tag_descs, List.flatMap_cons, List.length_append, List.length_cons,
          List.append_assoc, List.singleton_append]
        congr 2
        omega

theorem flat_tags_length (ts : List (List Nat)) :
    ts.length ≤ (ts.flatMap (fun t => 9 :: t)).length := by
  induction ts with
  | nil => simp
  | cons t ts ih =>
    simp only [List.flatMap_cons, List.length_append, List.length_cons]
    omega

theorem render_length (l : hdr_line) :
    l.render.length = (l.tags.flatMap (fun t => 9 :: t)).length + 3 := by
  simp [hdr_line.render]

theorem render_lines_cons (l : hdr_line) (Ls : List hdr_line) :
    render_lines (l :: Ls)
      = 64 :: l.t0 :: l.t1 :: (l.tags.flatMap (fun t => 9 :: t) ++ 10 :: render_lines Ls) := by
  simp [render_lines, hdr_line.render, List.flatMap_cons]

theorem tag_descs_len (ts : List (List Nat)) (h3 : ∀ t ∈ ts, 3 ≤ t.length) :
    ∀ (o : Nat), ∀ tag ∈ tag_descs o ts, 3 ≤ tag.len := by
  induction ts with
  | nil =>
    intro o tag h
    exact absurd h (List.not_mem_nil tag)
  | cons t ts ih =>
    intro o tag h
    simp only [tag_descs, List.mem_cons] at h
    rcases h with rfl | h
    · exact h3 t (List.mem_cons_self t ts)
    · exact ih (fun t' ht' => h3 t' (List.mem_cons_of_mem t ht')) _ tag h

theorem hash_tag_name_some (str : List Nat) (tag : SAM_hdr_tag) (h : 3 ≤ tag.len) :
    ∃ n, hash_tag_name str tag = some n := by
  unfold hash_tag_name
  rw [if_neg (by omega)]
  exact ⟨_, rfl⟩

theorem update_sq_tags_some (str : List Nat) :
    ∀ (tags : List SAM_hdr_tag) (r : SAM_SQ), (∀ tag ∈ tags, 3 ≤ tag.len) →
      ∃ r', update_sq_tags str tags r = some r' := by
  intro tags
  induction tags with
  | nil => intro r _; exact ⟨r, rfl⟩
  | cons tag rest ih =>
    intro r h
    have hr : ∀ t ∈ rest, 3 ≤ t.len := fun t ht => h t (List.mem_cons_of_mem _ ht)
    obtain ⟨n, hn⟩ := hash_tag_name_some str tag (h tag (List.mem_cons_self _ _))
    unfold update_sq_tags
    split
    · rw [hn]
      exact ih _ hr
    · split
      · exact ih _ hr
      · exact ih _ hr

theorem update_rg_tags_some (str : List Nat) :
    ∀ (tags : List SAM_hdr_tag) (r : SAM_RG), (∀ tag ∈ tags, 3 ≤ tag.len) →
      ∃ r', update_rg_tags str tags r = some r' := by
  intro tags
  induction tags with
  | nil => intro r _; exact ⟨r, rfl⟩
  | cons tag rest ih =>
    intro r h
    have hr : ∀ t ∈ rest, 3 ≤ t.len := fun t ht => h t (List.mem_cons_of_mem _ ht)
    obtain ⟨n, hn⟩ := hash_tag_name_some str tag (h tag (List.mem_cons_self _ _))
    unfold update_rg_tags
    split
    · rw [hn]
      exact ih _ hr
    · exact ih _ hr

theorem update_pg_tags_some (str : List Nat) (pg : List SAM_PG) (pg_hash : HashTable Nat) :
    ∀ (tags : List SAM_hdr_tag) (st : SAM_PG × List Nat), (∀ tag ∈ tags, 3 ≤ tag.len) →
      ∃ st', update_pg_tags str pg pg_hash tags st = some st' := by
  intro tags
  induction tags with
  | nil => intro st _; exact ⟨st, rfl⟩
  | cons tag rest ih =>
    intro st h
    have ht := h tag (List.mem_cons_self _ _)
    have hr : ∀ t ∈ rest, 3 ≤ t.len := fun t ht => h t (List.mem_cons_of_mem _ ht)
    obtain ⟨n, hn⟩ := hash_tag_name_some str tag ht
    unfold update_pg_tags
    split
    · rw [hn]
      exact ih _ hr
    · split
      · rw [if_neg (by omega)]
        cases HashTableSearch pg_hash (pg_pp_key str tag) with
        | none => exact ih _ hr
        | some hi => exact ih _ hr
      · exact ih _ hr

/-- On a line whose tags all hold three bytes or more
`sam_header_update_hashes` returns, and leaves the text and the hash of the
line types as they were. -/
theorem sam_header_update_hashes_frame (sh : SAM_hdr) (type : List Nat)
    (tags : List SAM_hdr_tag) (h : ∀ tag ∈ tags, 3 ≤ tag.len) :
    ∃ sh', sam_header_update_hashes sh type tags = some sh'
      ∧ sh'.text = sh.text ∧ sh'.h = sh.h := by
  have hsq : ∀ sh : SAM_hdr, ∃ sh1, update_hashes_sq sh type tags = some sh1
      ∧ sh1.text = sh.text ∧ sh1.h = sh.h := by
    intro sh
    unfold update_hashes_sq
    split
    · obtain ⟨r, hr⟩ := update_sq_tags_some sh.text tags ⟨none, 0, tags⟩ h
      rw [hr]
      exact ⟨_, rfl, rfl, rfl⟩
    · exact ⟨sh, rfl, rfl, rfl⟩
  have hrg : ∀ sh : SAM_hdr, ∃ sh1, update_hashes_rg sh type tags = some sh1
      ∧ sh1.text = sh.text ∧ sh1.h = sh.h := by
    intro sh
    unfold update_hashes_rg
    split
    · obtain ⟨r, hr⟩ := update_rg_tags_some sh.text tags ⟨none, tags, (sh.rg.length : Int)⟩ h
      rw [hr]
      exact ⟨_, rfl, rfl, rfl⟩
    · exact ⟨sh, rfl, rfl, rfl⟩
  have hpg : ∀ sh : SAM_hdr, ∃ sh1, update_hashes_pg sh type tags = some sh1
      ∧ sh1.text = sh.text ∧ sh1.h = sh.h := by
    intro sh
    unfold update_hashes_pg
    split
    · obtain ⟨⟨r, pe⟩, hr⟩ := update_pg_tags_some sh.text sh.pg sh.pg_hash tags
        (⟨none, tags, (sh.pg.length : Int), -1⟩, sh.pg_end) h
      rw [hr]
      exact ⟨_, rfl, rfl, rfl⟩
    · exact ⟨sh, rfl, rfl, rfl⟩
  obtain ⟨sh1, h1, t1, e1⟩ := hsq sh
  obtain ⟨sh2, h2, t2, e2⟩ := hrg sh1
  obtain ⟨sh3, h3, t3, e3⟩ := hpg sh2
  unfold sam_header_update_hashes
  rw [h1]
  dsimp only
  rw [h2]
  dsimp only
  exact ⟨sh3, h3, by rw [t3, t2, t1], by rw [e3, e2, e1]⟩

/-- The line loop of `sam_header_add_lines` on the text of well-formed lines
whose tags all hold three bytes or more: it returns, keeps the text and stores
every line with the descriptors of its tags. -/
theorem add_lines_loop_spec (hdr : List Nat) (off : Nat) :
    ∀ (Ls : List hdr_line) (fuel i : Nat) (sh : SAM_hdr),
      hdr.drop i = render_lines Ls → (∀ l ∈ Ls, l.wf) →
      (∀ l ∈ Ls, ∀ t ∈ l.tags, 3 ≤ t.length) → Ls.length ≤ fuel →
      ∃ sh', add_lines_loop hdr hdr.length off fuel i sh = some sh'
        ∧ sh'.text = sh.text ∧ sh'.h = add_descs sh.h (line_descs (i + off) Ls) := by
  intro Ls
  induction Ls with
  | nil =>
    intro fuel i sh h _ _ _
    have hle : hdr.length ≤ i := List.drop_eq_nil_iff.mp h
    cases fuel with
    | zero =>
      unfold add_lines_loop
      rw [if_neg (by omega)]
      exact ⟨sh, rfl, rfl, rfl⟩
    | succ fuel =>
      unfold add_lines_loop
      rw [if_neg (by omega)]
      exact ⟨sh, rfl, rfl, rfl⟩
  | cons l Ls ih =>
    intro fuel i sh h hw hl3 hf
    cases fuel with
    | zero => simp at hf
    | succ fuel =>
      have hwl := hw l (List.mem_cons_self l Ls)
      rw [render_lines_cons] at h
      have hlt : i < hdr.length := lt_length_of_drop_cons hdr i 64 _ h
      have hb0 : byte_at hdr i = 64 := byte_at_of_drop hdr i 64 _ h
      have h1 := drop_add_of_drop hdr i [64] _ h
      have hb1 : byte_at hdr (i + 1) = l.t0 := byte_at_of_drop hdr _ _ _ h1
      have h2 := drop_add_of_drop hdr i [64, l.t0] _ h
      have hb2 : byte_at hdr (i + 2) = l.t1 := byte_at_of_drop hdr _ _ _ h2
      have h3 : hdr.drop (i + 3)
          = l.tags.flatMap (fun t => 9 :: t) ++ 10 :: render_lines Ls :=
        drop_add_of_drop hdr i [64, l.t0, l.t1] _ h
      have hb3 : byte_at hdr (i + 3) = 9 := by
        obtain ⟨t, ts, hts⟩ := List.exists_cons_of_ne_nil hwl.1
        rw [hts] at h3
        exact byte_at_of_drop hdr _ 9 (t ++ (ts.flatMap (fun t => 9 :: t)
          ++ 10 :: render_lines Ls)) (by rw [h3]; simp [List.flatMap_cons])
      have hfl : l.tags.length ≤ hdr.length + 1 := by
        have := congrArg List.length h3
        rw [List.length_drop, List.length_append] at this
        have := flat_tags_length l.tags
        omega
      have h4 : hdr.drop (i + 3 + (l.tags.flatMap (fun t => 9 :: t)).length + 1)
          = render_lines Ls := by
        have := drop_add_of_drop hdr (i + 3) (l.tags.flatMap (fun t => 9 :: t) ++ [10])
          (render_lines Ls) (by rw [h3]; simp)
        rw [← this]
        congr 1
        simp only [List.length_append, List.length_singleton]
        omega
      unfold add_lines_loop
      rw [if_pos hlt, if_neg (by rw [hb0]; simp)]
      dsimp only
      rw [if_neg (by rw [hb3]; decide),
        parse_tags_spec hdr off (render_lines Ls) l.tags (hdr.length + 1) (i + 3) []
          hwl.1 h3 hwl.2 hfl]
      simp only [List.nil_append]
      obtain ⟨hnew, hnew_def⟩ : ∃ x, x = sam_hdr_add_type sh.h
          [byte_at hdr (i + 1), byte_at hdr (i + 2)] (tag_descs (i + 3 + 1 + off) l.tags) :=
        ⟨_, rfl⟩
      rw [← hnew_def]
      obtain ⟨sh1, hu, ht1, hh1⟩ := sam_header_update_hashes_frame { sh with h := hnew }
        [byte_at hdr (i + 1), byte_at hdr (i + 2)] (tag_descs (i + 3 + 1 + off) l.tags)
        (tag_descs_len l.tags (hl3 l (List.mem_cons_self l Ls)) _)
      rw [hu]
      dsimp only
      obtain ⟨sh', hl, ht', hh'⟩ := ih fuel _ sh1 h4
        (fun l' hl' => hw l' (List.mem_cons_of_mem l hl'))
        (fun l' hl' => hl3 l' (List.mem_cons_of_mem l hl')) (by simpa using hf)
      refine ⟨sh', hl, ht'.trans ht1, ?_⟩
      have e1 : i + 3 + 1 + off = i + off + 4 := by omega
      have e2 : i + 3 + (l.tags.flatMap (fun t => 9 :: t)).length + 1 + off
          = i + off + l.render.length + 1 := by
        rw [render_length]
        omega
      rw [hh', hh1]
      show add_descs hnew _ = _
      rw [hnew_def, hb1, hb2, e1, e2]
      simp only [line_descs, add_descs, List.foldl_cons]

theorem add_type_ring_tags (h : HashTable (List SAM_hdr_type)) (k : List Nat)
    (tags : List SAM_hdr_tag) (key : List Nat) :
    ring_tags (sam_hdr_add_type h k tags) key
      = if key = k then some ((ring_tags h k).getD [] ++ [tags]) else ring_tags h key := by
  unfold sam_hdr_add_type ring_tags
  cases hs : HashTableSearch h k with
  | none =>
    rw [HashTableAdd_new h k _ hs]
    dsimp only
    rw [if_pos rfl]
    by_cases hk : key = k
    · subst hk
      rw [if_pos rfl, HashTableSearch_append_new h key _ hs]
      rfl
    · rw [if_neg hk, HashTableSearch_append_other h k key _ hk]
  | some ring =>
    rw [HashTableAdd_found h k _ ring hs]
    dsimp only
    rw [if_neg (by simp), hs]
    by_cases hk : key = k
    · subst hk
      rw [if_pos rfl, HashTableSearch_set_same h key _ ring hs]
      simp
    · rw [if_neg hk, HashTableSearch_set_other h k key _ hk]

theorem add_descs_ring_tags :
    ∀ (D : List (List Nat × List SAM_hdr_tag)) (h : HashTable (List SAM_hdr_type))
      (key : List Nat),
      ring_tags (add_descs h D) key
        = if descs_of_type key D = [] then ring_tags h key
          else some ((ring_tags h key).getD [] ++ descs_of_type key D) := by
  intro D
  induction D with
  | nil => intro h key; simp [add_descs, descs_of_type]
  | cons p D ih =>
    intro h key
    have e : add_descs h (p :: D) = add_descs (sam_hdr_add_type h p.1 p.2) D := rfl
    rw [e, ih, add_type_ring_tags]
    by_cases hk : key = p.1
    · subst hk
      have hd : descs_of_type p.1 (p :: D) = p.2 :: descs_of_type p.1 D := by
        simp [descs_of_type]
      rw [hd, if_pos rfl]
      by_cases hD : descs_of_type p.1 D = []
      · simp [hD]
      · simp [hD]
    · have hd : descs_of_type key (p :: D) = descs_of_type key D := by
        have : ¬ p.1 = key := fun h' => hk h'.symm
        simp [descs_of_type, this]
      rw [hd, if_neg hk]

/-- The comparison loop of `sam_header_find` on a tag value `v` followed by a
tab or newline, against a value free of tab, newline and NUL: it stops inside
the text, and the two tests after it pass exactly when `v` is the value. -/
theorem find_cmp_spec (d : Nat) (X : List Nat) (hd : d = 9 ∨ d = 10) :
    ∀ (v value : List Nat), (∀ b ∈ v, b ≠ 9 ∧ b ≠ 10 ∧ b ≠ 0) →
      (∀ b ∈ value, b ≠ 9 ∧ b ≠ 10 ∧ b ≠ 0) →
      ∃ c1 c2, find_cmp (v ++ d :: X) value = some (c1, c2) ∧
        ((c2 = 0 ∧ (c1 = 9 ∨ c1 = 10 ∨ c1 = 0)) ↔ v = value) := by
  intro v
  induction v with
  | nil =>
    intro value _ hval
    cases value with
    | nil =>
      refine ⟨d, 0, ?_, ?_⟩
      · simp only [List.nil_append, find_cmp]
        rw [if_neg (by rcases hd with rfl | rfl <;> decide)]
      · simp only [true_and, iff_true]
        rcases hd with rfl | rfl
        · exact Or.inl rfl
        · exact Or.inr (Or.inl rfl)
    | cons b bs =>
      have hb := hval b (List.mem_cons_self b bs)
      have hdb : ¬ d = b := by
        rcases hd with rfl | rfl
        · exact fun h => hb.1 h.symm
        · exact fun h => hb.2.1 h.symm
      refine ⟨d, b, ?_, ?_⟩
      · simp only [List.nil_append, find_cmp]
        rw [if_neg hdb]
      · constructor
        · intro h; exact absurd h.1 hb.2.2
        · intro h; exact List.noConfusion h
  | cons a v ih =>
    intro value hv hval
    have ha := hv a (List.mem_cons_self a v)
    cases value with
    | nil =>
      refine ⟨a, 0, ?_, ?_⟩
      · simp only [List.cons_append, find_cmp]
        rw [if_neg ha.2.2]
      · constructor
        · intro h
          rcases h.2 with h1 | h1 | h1
          · exact absurd h1 ha.1
          · exact absurd h1 ha.2.1
          · exact absurd h1 ha.2.2
        · intro h; exact List.noConfusion h
    | cons b bs =>
      have hb := hval b (List.mem_cons_self b bs)
      by_cases hab : a = b
      · subst hab
        obtain ⟨c1, c2, hc, hiff⟩ := ih bs (fun x hx => hv x (List.mem_cons_of_mem a hx))
          (fun x hx => hval x (List.mem_cons_of_mem a hx))
        refine ⟨c1, c2, ?_, ?_⟩
        · simp only [List.cons_append, find_cmp, if_true]
          exact hc
        · rw [hiff]
          simp
      · refine ⟨a, b, ?_, ?_⟩
        · simp only [List.cons_append, find_cmp]
          rw [if_neg hab]
        · constructor
          · intro h; exact absurd h.1 hb.2.2
          · intro h
            injection h with h1 _
            exact absurd h1 hab

theorem byte_at_pair (k0 k1 : Nat) : byte_at [k0, k1] 0 = k0 ∧ byte_at [k0, k1] 1 = k1 :=
  ⟨rfl, rfl⟩

/-- The tag test of `sam_header_find` on a well-formed tag of three bytes or
more: it succeeds exactly when the first two bytes are the key and the bytes
after the separator are the value. -/
theorem find_tag_spec (text key value t : List Nat) (idx d : Nat) (X : List Nat)
    (h : text.drop idx = t ++ d :: X) (hd : d = 9 ∨ d = 10)
    (hw : ∀ b ∈ t, b ≠ 9 ∧ b ≠ 10 ∧ b ≠ 0) (h3 : 3 ≤ t.length) (hk : key.length = 2)
    (hval : ∀ b ∈ value, b ≠ 9 ∧ b ≠ 10 ∧ b ≠ 0) :
    find_tag text key value ⟨idx, t.length⟩
      = some (decide (t.take 2 = key) && decide (t.drop 3 = value)) := by
  obtain ⟨a, b, c, v, rfl⟩ : ∃ a b c v, t = a :: b :: c :: v := by
    match t, h3 with
    | a :: b :: c :: v, _ => exact ⟨a, b, c, v, rfl⟩
  obtain ⟨k0, k1, rfl⟩ : ∃ k0 k1, key = [k0, k1] := by
    match key, hk with
    | [k0, k1], _ => exact ⟨k0, k1, rfl⟩
  have hb0 : byte_at text idx = a := byte_at_of_drop text idx a _ h
  have h1 := drop_add_of_drop text idx [a] _ h
  have hb1 : byte_at text (idx + 1) = b := byte_at_of_drop text _ b _ h1
  have h3' : text.drop (idx + 3) = v ++ d :: X := drop_add_of_drop text idx [a, b, c] _ h
  have hv : ∀ x ∈ v, x ≠ 9 ∧ x ≠ 10 ∧ x ≠ 0 := fun x hx =>
    hw x (List.mem_cons_of_mem a (List.mem_cons_of_mem b (List.mem_cons_of_mem c hx)))
  obtain ⟨c1, c2, hc, hiff⟩ := find_cmp_spec d X hd v value hv hval
  unfold find_tag
  dsimp only
  rw [hb0, hb1, (byte_at_pair k0 k1).1, (byte_at_pair k0 k1).2, h3', hc]
  dsimp only
  by_cases hkey : a = k0 ∧ b = k1
  · obtain ⟨rfl, rfl⟩ := hkey
    rw [if_pos ⟨rfl, rfl⟩]
    by_cases hvv : v = value
    · have hcc := hiff.mpr hvv
      rw [if_neg (by rw [hcc.1]; simp)]
      rw [if_neg (by
        intro hne
        rcases hcc.2 with h9 | h10 | h0
        · exact hne.1 h9
        · exact hne.2.1 h10
        · exact hne.2.2 h0)]
      simp [hvv]
    · have hcc : ¬ (c2 = 0 ∧ (c1 = 9 ∨ c1 = 10 ∨ c1 = 0)) := fun h' => hvv (hiff.mp h')
      have hres : (decide ((a :: b :: c :: v).take 2 = [a, b]) &&
          decide ((a :: b :: c :: v).drop 3 = value)) = false := by
        simp [hvv]
      rw [hres]
      by_cases hc2 : c2 = 0
      · rw [if_neg (by simpa using hc2)]
        rw [if_pos (by
          refine ⟨?_, ?_, ?_⟩
          · intro h9; exact hcc ⟨hc2, Or.inl h9⟩
          · intro h10; exact hcc ⟨hc2, Or.inr (Or.inl h10)⟩
          · intro h0; exact hcc ⟨hc2, Or.inr (Or.inr h0)⟩)]
      · rw [if_pos hc2]
  · rw [if_neg hkey]
    have : ¬ ([a, b] = [k0, k1]) := by
      intro h'
      injection h' with e1 e2
      injection e2 with e2 _
      exact hkey ⟨e1, e2⟩
    simp [this]

theorem flat_tail_head (ts : List (List Nat)) (r : List Nat) :
    ∃ d X, ts.flatMap (fun t => 9 :: t) ++ 10 :: r = d :: X ∧ (d = 9 ∨ d = 10) := by
  cases ts with
  | nil => exact ⟨10, r, rfl, Or.inr rfl⟩
  | cons t ts =>
    exact ⟨9, t ++ (ts.flatMap (fun t => 9 :: t) ++ 10 :: r), by simp [List.flatMap_cons],
      Or.inl rfl⟩

/-- The tag loop of `sam_header_find` over the descriptors of the tags of a
well-formed line: whether some tag has the key and exactly the value. -/
theorem find_in_tags_spec (text key value : List Nat) (r : List Nat) (hk : key.length = 2)
    (hval : ∀ b ∈ value, b ≠ 9 ∧ b ≠ 10 ∧ b ≠ 0) :
    ∀ (ts : List (List Nat)) (o : Nat),
      text.drop o = ts.flatMap (fun t => 9 :: t) ++ 10 :: r →
      (∀ t ∈ ts, ∀ b ∈ t, b ≠ 9 ∧ b ≠ 10 ∧ b ≠ 0) → (∀ t ∈ ts, 3 ≤ t.length) →
      find_in_tags text key value (tag_descs (o + 1) ts)
        = some (ts.any (fun t => decide (t.take 2 = key) && decide (t.drop 3 = value))) := by
  intro ts
  induction ts with
  | nil => intro o _ _ _; rfl
  | cons t ts ih =>
    intro o h hw h3
    have h0 : text.drop o = 9 :: (t ++ (ts.flatMap (fun t => 9 :: t) ++ 10 :: r)) := by
      rw [h]; simp [List.flatMap_cons]
    have h1 : text.drop (o + 1) = t ++ (ts.flatMap (fun t => 9 :: t) ++ 10 :: r) :=
      drop_add_of_drop text o [9] _ h0
    obtain ⟨d, X, hdX, hd⟩ := flat_tail_head ts r
    have h1' : text.drop (o + 1) = t ++ d :: X := by rw [h1, hdX]
    have h2 : text.drop (o + 1 + t.length) = ts.flatMap (fun t => 9 :: t) ++ 10 :: r :=
      drop_add_of_drop text (o + 1) t _ h1
    have ht := find_tag_spec text key value t (o + 1) d X h1' hd
      (hw t (List.mem_cons_self t ts)) (h3 t (List.mem_cons_self t ts)) hk hval
    have ih' := ih (o + 1 + t.length) h2 (fun t' ht' => hw t' (List.mem_cons_of_mem t ht'))
      (fun t' ht' => h3 t' (List.mem_cons_of_mem t ht'))
    simp only [tag_descs, find_in_tags, ht, List.any_cons]
    cases hbool : (decide (t.take 2 = key) && decide (t.drop 3 = value)) with
    | true => rfl
    | false =>
      dsimp only
      rw [ih']
      rfl

/-- The bytes that `sam_header_find_line` pastes for the descriptors of the
tags of a line are the tags themselves, each after its tab. -/
theorem tags_bytes_spec (text : List Nat) :
    ∀ (ts : List (List Nat)) (o : Nat) (r : List Nat),
      text.drop o = ts.flatMap (fun t => 9 :: t) ++ r →
      (tag_descs (o + 1) ts).flatMap (fun tag => 9 :: bytes_from text tag.idx tag.len)
        = ts.flatMap (fun t => 9 :: t) := by
  intro ts
  induction ts with
  | nil => intro o r _; rfl
  | cons t ts ih =>
    intro o r h
    have h0 : text.drop o = 9 :: (t ++ (ts.flatMap (fun t => 9 :: t) ++ r)) := by
      rw [h]; simp [List.flatMap_cons]
    have h1 : text.drop (o + 1) = t ++ (ts.flatMap (fun t => 9 :: t) ++ r) :=
      drop_add_of_drop text o [9] _ h0
    have h2 : text.drop (o + 1 + t.length) = ts.flatMap (fun t => 9 :: t) ++ r :=
      drop_add_of_drop text (o + 1) t _ h1
    simp only [tag_descs, List.flatMap_cons, bytes_from_of_drop text t (o + 1) _ h1,
      ih (o + 1 + t.length) r h2]

theorem find_line_eq (hdr : SAM_hdr) (type : List Nat) (ID : Option (List Nat × List Nat)) :
    sam_header_find_line hdr type ID
      = find_line_of hdr.text type (sam_header_find hdr type ID) := by
  unfold sam_header_find_line
  cases sam_header_find hdr type ID <;> rfl

theorem drop_next_line (text : List Nat) (o : Nat) (l : hdr_line) (Ls : List hdr_line)
    (h : text.drop o = render_lines (l :: Ls)) :
    text.drop (o + 3) = l.tags.flatMap (fun t => 9 :: t) ++ 10 :: render_lines Ls ∧
    text.drop (o + l.render.length + 1) = render_lines Ls := by
  rw [render_lines_cons] at h
  have h3 : text.drop (o + 3) = l.tags.flatMap (fun t => 9 :: t) ++ 10 :: render_lines Ls :=
    drop_add_of_drop text o [64, l.t0, l.t1] _ h
  refine ⟨h3, ?_⟩
  have := drop_add_of_drop text (o + 3) (l.tags.flatMap (fun t => 9 :: t) ++ [10])
    (render_lines Ls) (by rw [h3]; simp)
  rw [← this, render_length]
  congr 1
  simp only [List.length_append, List.length_singleton]
  omega

theorem line_bytes_render (text : List Nat) (o : Nat) (l : hdr_line) (r : List Nat)
    (ty : SAM_hdr_type) (h3 : text.drop (o + 3) = l.tags.flatMap (fun t => 9 :: t) ++ r)
    (hty : ty.tag = tag_descs (o + 4) l.tags) :
    line_bytes text [l.t0, l.t1] ty = l.render := by
  unfold line_bytes
  rw [hty]
  have := tags_bytes_spec text l.tags (o + 3) r h3
  rw [show o + 3 + 1 = o + 4 from rfl] at this
  rw [this]
  rfl

/-- The first line of the ring of a type is the first line of that type in the
header. -/
theorem ring_head_spec (text type : List Nat) :
    ∀ (L : List hdr_line) (o : Nat) (ring : List SAM_hdr_type),
      text.drop o = render_lines L →
      ring.map SAM_hdr_type.tag = descs_of_type type (line_descs o L) →
      (match ring with
       | [] => find_ret.null
       | ty :: _ => find_ret.found (line_bytes text type ty))
      = line_result (L.find? (fun l => decide ([l.t0, l.t1] = type))) := by
  intro L
  induction L with
  | nil =>
    intro o ring _ hr
    have : ring = [] := by simpa [line_descs, descs_of_type] using hr
    subst this
    rfl
  | cons l Ls ih =>
    intro o ring h hr
    obtain ⟨h3, hn⟩ := drop_next_line text o l Ls h
    by_cases ht : [l.t0, l.t1] = type
    · have hd : descs_of_type type (line_descs o (l :: Ls))
          = tag_descs (o + 4) l.tags
            :: descs_of_type type (line_descs (o + l.render.length + 1) Ls) := by
        simp [descs_of_type, line_descs, ht]
      rw [hd] at hr
      cases ring with
      | nil => simp at hr
      | cons ty ring =>
        simp only [List.map_cons, List.cons.injEq] at hr
        rw [List.find?_cons_of_pos _ (by simpa using ht)]
        dsimp only [line_result]
        rw [← ht, line_bytes_render text o l _ ty h3 hr.1]
    · have hd : descs_of_type type (line_descs o (l :: Ls))
          = descs_of_type type (line_descs (o + l.render.length + 1) Ls) := by
        simp [descs_of_type, line_descs, ht]
      rw [hd] at hr
      rw [List.find?_cons_of_neg _ (by simpa using ht)]
      exact ih _ ring hn hr

/-- The search of `sam_header_find` through the ring of a type finds the first
line of that type in the header that has a tag with the key and exactly the
value. -/
theorem find_in_ring_spec (text type key value : List Nat) (hk : key.length = 2)
    (hval : ∀ b ∈ value, b ≠ 9 ∧ b ≠ 10 ∧ b ≠ 0) :
    ∀ (L : List hdr_line) (o : Nat) (ring : List SAM_hdr_type),
      text.drop o = render_lines L → (∀ l ∈ L, l.wf) →
      (∀ l ∈ L, ∀ t ∈ l.tags, 3 ≤ t.length) →
      ring.map SAM_hdr_type.tag = descs_of_type type (line_descs o L) →
      find_line_of text type (find_in_ring text key value ring)
        = line_result (L.find? (fun l => l.has type key value)) := by
  intro L
  induction L with
  | nil =>
    intro o ring _ _ _ hr
    have : ring = [] := by simpa [line_descs, descs_of_type] using hr
    subst this
    rfl
  | cons l Ls ih =>
    intro o ring h hw hl3 hr
    obtain ⟨h3, hn⟩ := drop_next_line text o l Ls h
    have hwl := hw l (List.mem_cons_self l Ls)
    have hw' : ∀ l' ∈ Ls, l'.wf := fun l' hl' => hw l' (List.mem_cons_of_mem l hl')
    have hl3' : ∀ l' ∈ Ls, ∀ t ∈ l'.tags, 3 ≤ t.length :=
      fun l' hl' => hl3 l' (List.mem_cons_of_mem l hl')
    by_cases ht : [l.t0, l.t1] = type
    · have hd : descs_of_type type (line_descs o (l :: Ls))
          = tag_descs (o + 4) l.tags
            :: descs_of_type type (line_descs (o + l.render.length + 1) Ls) := by
        simp [descs_of_type, line_descs, ht]
      rw [hd] at hr
      cases ring with
      | nil => simp at hr
      | cons ty ring =>
        simp only [List.map_cons, List.cons.injEq] at hr
        have hft := find_in_tags_spec text key value (render_lines Ls) hk hval l.tags (o + 3)
          h3 hwl.2 (hl3 l (List.mem_cons_self l Ls))
        rw [show o + 3 + 1 = o + 4 from rfl, ← hr.1] at hft
        simp only [find_in_ring, hft]
        cases hany : l.tags.any
            (fun t => decide (t.take 2 = key) && decide (t.drop 3 = value)) with
        | true =>
          have hhas : l.has type key value = true := by
            simp only [hdr_line.has, hany, Bool.and_true, decide_eq_true_eq]
            exact ht
          have hf : (l :: Ls).find? (fun l => l.has type key value) = some l := by
            simp [List.find?_cons, hhas]
          rw [hf]
          dsimp only [find_line_of, line_result]
          rw [← ht, line_bytes_render text o l _ ty h3 hr.1]
        | false =>
          have hhas : l.has type key value = false := by
            simp [hdr_line.has, hany]
          have hf : (l :: Ls).find? (fun l => l.has type key value)
              = Ls.find? (fun l => l.has type key value) := by
            simp [List.find?_cons, hhas]
          rw [hf]
          exact ih _ ring hn hw' hl3' hr.2
    · have hd : descs_of_type type (line_descs o (l :: Ls))
          = descs_of_type type (line_descs (o + l.render.length + 1) Ls) := by
        simp [descs_of_type, line_descs, ht]
      rw [hd] at hr
      have hhas : l.has type key value = false := by
        simp [hdr_line.has, ht]
      have hf : (l :: Ls).find? (fun l => l.has type key value)
          = Ls.find? (fun l => l.has type key value) := by
        simp [List.find?_cons, hhas]
      rw [hf]
      exact ih _ ring hn hw' hl3' hr

/-- On the text of well-formed lines whose tags all hold three bytes or more
`sam_header_add_lines` returns from a fresh header, and stores the text and
every line. -/
theorem sam_header_add_lines_spec (L : List hdr_line) (hwf : ∀ l ∈ L, l.wf)
    (hl3 : ∀ l ∈ L, ∀ t ∈ l.tags, 3 ≤ t.length) :
    ∃ sh, sam_header_add_lines sam_hdr_empty (render_lines L) = some sh
      ∧ sh.text = render_lines L ∧ sh.h = add_descs [] (line_descs 0 L) := by
  unfold sam_header_add_lines
  have hlen : L.length ≤ (render_lines L).length + 1 := by
    have : L.length ≤ (render_lines L).length := by
      clear hwf hl3
      induction L with
      | nil => simp
      | cons l Ls ih =>
        rw [render_lines_cons]
        simp only [List.length_cons, List.length_append]
        omega
    omega
  obtain ⟨sh, h1, h2, h3⟩ := add_lines_loop_spec (render_lines L) 0 L
    ((render_lines L).length + 1) 0 { sam_hdr_empty with text := sam_hdr_empty.text ++ render_lines L }
    rfl hwf hl3 hlen
  exact ⟨sh, h1, h2, h3⟩

/-- The ring that the lookup of a two-byte type finds in the header built from
the lines `L`: none when no line has the type, otherwise the lines of the type
in order. -/
theorem ring_of_type (L : List hdr_line) (a b : Nat) :
    (HashTableSearch (add_descs [] (line_descs 0 L)) [a, b] = none ∧
      descs_of_type [a, b] (line_descs 0 L) = []) ∨
    ∃ ring, HashTableSearch (add_descs [] (line_descs 0 L)) [a, b] = some ring ∧
      ring.map SAM_hdr_type.tag = descs_of_type [a, b] (line_descs 0 L) := by
  have hrt := add_descs_ring_tags (line_descs 0 L) [] [a, b]
  have hnone : ring_tags ([] : HashTable (List SAM_hdr_type)) [a, b] = none := rfl
  rw [hnone] at hrt
  unfold ring_tags at hrt
  cases hs : HashTableSearch (add_descs [] (line_descs 0 L)) [a, b] with
  | none =>
    rw [hs] at hrt
    refine Or.inl ⟨rfl, ?_⟩
    by_contra hD
    rw [if_neg hD] at hrt
    exact Option.noConfusion hrt
  | some ring =>
    rw [hs] at hrt
    refine Or.inr ⟨ring, rfl, ?_⟩
    by_cases hD : descs_of_type [a, b] (line_descs 0 L) = []
    · rw [if_pos hD] at hrt
      exact Option.noConfusion hrt
    · rw [if_neg hD] at hrt
      simpa using hrt

theorem two_bytes (type : List Nat) (ht : type.length = 2) : ∃ a b, type = [a, b] := by
  match type, ht with
  | [a, b], _ => exact ⟨a, b, rfl⟩

/-- The lookup without a key in the header built from the lines `L`. -/
theorem find_line_first (L : List hdr_line) (a b : Nat) (sh : SAM_hdr)
    (htext : sh.text = render_lines L) (hh : sh.h = add_descs [] (line_descs 0 L)) :
    sam_header_find_line sh [a, b] none
      = line_result (L.find? (fun l => decide ([l.t0, l.t1] = [a, b]))) := by
  rw [find_line_eq]
  unfold sam_header_find
  dsimp only
  rw [(byte_at_pair a b).1, (byte_at_pair a b).2, htext, hh]
  rcases ring_of_type L a b with ⟨hs, hD⟩ | ⟨ring, hs, hD⟩
  · rw [hs]
    exact ring_head_spec (render_lines L) [a, b] L 0 [] rfl (by rw [hD]; rfl)
  · rw [hs]
    have hh := ring_head_spec (render_lines L) [a, b] L 0 ring rfl hD
    cases ring with
    | nil => exact hh
    | cons ty ring => exact hh

/-- The lookup with a key and a value in the header built from the lines `L`. -/
theorem find_line_by_id (L : List hdr_line) (hwf : ∀ l ∈ L, l.wf) (a b : Nat)
    (key value : List Nat) (hk : key.length = 2)
    (hval : ∀ b ∈ value, b ≠ 9 ∧ b ≠ 10 ∧ b ≠ 0)
    (hl3 : ∀ l ∈ L, ∀ t ∈ l.tags, 3 ≤ t.length) (sh : SAM_hdr)
    (htext : sh.text = render_lines L) (hh : sh.h = add_descs [] (line_descs 0 L)) :
    sam_header_find_line sh [a, b] (some (key, value))
      = line_result (L.find? (fun l => l.has [a, b] key value)) := by
  rw [find_line_eq]
  unfold sam_header_find
  dsimp only
  rw [(byte_at_pair a b).1, (byte_at_pair a b).2, htext, hh]
  rcases ring_of_type L a b with ⟨hs, hD⟩ | ⟨ring, hs, hD⟩
  · rw [hs]
    exact find_in_ring_spec (render_lines L) [a, b] key value hk hval L 0 [] rfl hwf hl3
      (by rw [hD]; rfl)
  · rw [hs]
    exact find_in_ring_spec (render_lines L) [a, b] key value hk hval L 0 ring rfl hwf hl3 hD

/-- C28 (amended): for a header text of well-formed lines (an at-sign, two type
bytes, one or more tags each after a tab, a newline) in which every tag holds at
least its two-byte key and a separator, `sam_header_add_lines` on a fresh header
returns a header; then `sam_header_find_line(type, NULL, NULL)` returns the
first line of that type exactly as given, without the newline, and NULL without
such a line; and with a two-byte key and a value that holds no tab and no
newline it returns the first line of the type that has a tag with that key whose
value is exactly the given value, not merely a prefix of the tag's value, and
NULL when there is none. -/
theorem sam_header_find_line_spec (L : List hdr_line) (hwf : ∀ l ∈ L, l.wf)
    (type key value : List Nat) (ht : type.length = 2) (hk : key.length = 2)
    (hval : ∀ b ∈ value, b ≠ 9 ∧ b ≠ 10 ∧ b ≠ 0)
    (hl3 : ∀ l ∈ L, ∀ t ∈ l.tags, 3 ≤ t.length) :
    ∃ sh, sam_header_add_lines sam_hdr_empty (render_lines L) = some sh ∧
      sam_header_find_line sh type none
        = line_result (L.find? (fun l => decide ([l.t0, l.t1] = type))) ∧
      sam_header_find_line sh type (some (key, value))
        = line_result (L.find? (fun l => l.has type key value)) := by
  obtain ⟨a, b, rfl⟩ := two_bytes type ht
  obtain ⟨sh, hadd, htext, hh⟩ := sam_header_add_lines_spec L hwf hl3
  exact ⟨sh, hadd, find_line_first L a b sh htext hh,
    find_line_by_id L hwf a b key value hk hval hl3 sh htext hh⟩

theorem sam_header_find_line_spec_witness :
    ∃ sh, sam_header_add_lines sam_hdr_empty (render_lines hdr_lines_ex) = some sh ∧
      sam_header_find_line sh (ascii "RG") none
        = line_result (hdr_lines_ex.find? (fun l => decide ([l.t0, l.t1] = ascii "RG"))) ∧
      sam_header_find_line sh (ascii "RG") (some (ascii "ID", ascii "foo"))
        = line_result (hdr_lines_ex.find? (fun l => l.has (ascii "RG") (ascii "ID")
            (ascii "foo"))) :=
  sam_header_find_line_spec hdr_lines_ex (by decide) (ascii "RG") (ascii "ID") (ascii "foo")
    rfl rfl (by decide) (by decide)

/-- On `hdr_lines_ex` the search for the read group `foo` passes the line whose
ID `foo2` only starts with the value and returns the third line; `fo` finds
nothing; and without a key the first line of the type is returned. -/
theorem sam_header_find_line_ex :
    (sam_header_add_lines sam_hdr_empty (render_lines hdr_lines_ex)).map
        (fun sh =>
          (sam_header_find_line sh (ascii "RG") none,
           sam_header_find_line sh (ascii "RG") (some (ascii "ID", ascii "foo")),
           sam_header_find_line sh (ascii "RG") (some (ascii "ID", ascii "fo")),
           sam_header_find_line sh (ascii "XX") none))
      = some (.found (ascii "@RG\tID:foo2\tSM:x"), .found (ascii "@RG\tID:foo\tSM:y"),
          .null, .null) := by
  decide

/-- C28 as stated fails in two ways. The comparison of `sam_header_find` runs
over a tab into the next tag, so the value `foo<tab>SM:y` finds the line
`@RG ID:foo SM:y` although no tag has that value; and for a tag of two bytes the
comparison starts after the newline, so the value `@XX` finds the line `@CO ID`
whose only tag has no value. -/
theorem sam_header_find_line_runs_on :
    ((∀ l ∈ hdr_lines_ex, l.wf) ∧
      (sam_header_add_lines sam_hdr_empty (render_lines hdr_lines_ex)).map
          (fun sh =>
            sam_header_find_line sh (ascii "RG") (some (ascii "ID", ascii "foo\tSM:y")))
        = some (.found (ascii "@RG\tID:foo\tSM:y")) ∧
      hdr_lines_ex.find? (fun l => l.has (ascii "RG") (ascii "ID") (ascii "foo\tSM:y"))
        = none) ∧
    ((∀ l ∈ hdr_short_ex, l.wf) ∧
      (sam_header_add_lines sam_hdr_empty (render_lines hdr_short_ex)).map
          (fun sh => sam_header_find_line sh (ascii "CO") (some (ascii "ID", ascii "@XX")))
        = some (.found (ascii "@CO\tID")) ∧
      hdr_short_ex.find? (fun l => l.has (ascii "CO") (ascii "ID") (ascii "@XX")) = none) := by
  decide

/-- A line of type @RG, @SQ or @PG whose name tag holds two bytes only stops the
parser: on the text `@RG ID`, `@XX foo` the call of `sam_header_update_hashes`
for the first line does not return. On `hdr_lines_ex` the parser fills the
tables of the read groups and of the sequences. -/
theorem sam_header_add_lines_short_name :
    sam_header_add_lines sam_hdr_empty (render_lines hdr_short_rg_ex) = none
    ∧ (sam_header_add_lines sam_hdr_empty (render_lines hdr_lines_ex)).map
        (fun sh => sh.rg.map SAM_RG.name) = some [some (ascii "foo2"), some (ascii "foo")]
    ∧ (sam_header_add_lines sam_hdr_empty (render_lines hdr_lines_ex)).map
        (fun sh => HashTableSearch sh.rg_hash (ascii "foo")) = some (some 1)
    ∧ (sam_header_add_lines sam_hdr_empty (render_lines hdr_lines_ex)).map
        (fun sh => sh.ref.map SAM_SQ.name) = some [some (ascii "chr1")]
    ∧ (sam_header_add_lines sam_hdr_empty (render_lines hdr_lines_ex)).map
        (fun sh => sh.ref.map SAM_SQ.len) = some [100] := by
  refine ⟨by decide, by decide, by decide, by decide, by decide⟩

/-! ## The index returned by sub_idx -/

/-- The loop of `sub_idx` started with counter `i` on a NUL-free key runs to
the first occurrence of `val`, or to the end of the key. -/
theorem sub_idx_loop_index : ∀ (key : List Nat) (val i : Nat), (∀ k ∈ key, k ≠ 0) →
    sub_idx_loop key val i = i + key.indexOf val := by
  intro key
  induction key with
  | nil => intro val i _; simp [sub_idx_loop]
  | cons k ks ih =>
    intro val i hnz
    have hk : k ≠ 0 := hnz k (List.mem_cons_self _ _)
    rw [sub_idx_loop, if_neg hk]
    by_cases hv : k = val
    · subst hv
      simp
    · have hv2 : ¬ (k = val) := hv
      rw [if_pos hv, ih val (i + 1) (fun x hx => hnz x (List.mem_cons_of_mem _ hx)),
        List.indexOf_cons_ne _ hv2]
      omega

/-- The byte of a list at the index of the first occurrence of a member is that
member, and no earlier byte is. -/
theorem indexOf_first : ∀ (key : List Nat) (val : Nat), val ∈ key →
    byte_at key (key.indexOf val) = val
    ∧ ∀ j, j < key.indexOf val → byte_at key j ≠ val := by
  intro key
  induction key with
  | nil => intro val hm; simp at hm
  | cons k ks ih =>
    intro val hm
    by_cases hv : k = val
    · subst hv
      simp [byte_at]
    · have hm2 : val ∈ ks := by
        rcases List.mem_cons.mp hm with h | h
        · exact absurd h.symm hv
        · exact h
      rw [List.indexOf_cons_ne _ hv]
      refine ⟨by simpa [byte_at] using (ih val hm2).1, fun j hj => ?_⟩
      cases j with
      | zero => simpa [byte_at] using hv
      | succ j => simpa [byte_at] using (ih val hm2).2 j (by omega)

/-- Claim C40. For a key without NUL before its end, `sub_idx key val` is the
index of the first occurrence of `val` in the key when there is one (the byte at
that index is `val`, no earlier byte is), which is `strchr(key, val) - key`; it
is the length of the key when `val` does not occur. For a 4-letter key and an
absent `val` the result is 4, which is not below `2 ^ 2`: shifted by `s` it is the
single bit `s + 2`, just above the 2-bit field at `s`. -/
theorem sub_idx_spec (key : List Nat) (val : Nat) (hnz : ∀ k ∈ key, k ≠ 0) :
    (val ∈ key →
      sub_idx key val = key.indexOf val ∧ sub_idx key val < key.length
      ∧ byte_at key (sub_idx key val) = val
      ∧ ∀ j, j < sub_idx key val → byte_at key j ≠ val)
    ∧ (val ∉ key →
      sub_idx key val = key.length
      ∧ (key.length = 4 →
          sub_idx key val = 4 ∧ ¬ sub_idx key val < 2 ^ 2
          ∧ ∀ s, sub_idx key val <<< s = 2 ^ (s + 2))) := by
  have h : sub_idx key val = key.indexOf val := by
    unfold sub_idx
    rw [sub_idx_loop_index key val 0 hnz, Nat.zero_add]
  refine ⟨fun hm => ?_, fun hm => ?_⟩
  · have hlt : key.indexOf val < key.length := List.indexOf_lt_length.mpr hm
    refine ⟨h, h ▸ hlt, ?_, ?_⟩
    · rw [h]
      exact (indexOf_first key val hm).1
    · intro j hj
      rw [h] at hj
      exact (indexOf_first key val hm).2 j hj
  · have hl : key.indexOf val = key.length := List.indexOf_eq_length.mpr hm
    refine ⟨h.trans hl, fun h4 => ?_⟩
    have e4 : sub_idx key val = 4 := by rw [h, hl, h4]
    refine ⟨e4, by rw [e4]; decide, fun s => ?_⟩
    rw [e4, Nat.shiftLeft_eq, pow_succ, pow_succ]
    ring

/-- Evaluation of `sub_idx` on the key `CGTN`: `T` is at index 2, the absent
`A` gives 4, and in the `smat` byte of a row `A G T N` the field of column 0 is
lost while the other three are 1, 2, 3. -/
theorem sub_idx_spec_witness :
    (∀ k ∈ ascii "CGTN", k ≠ 0)
    ∧ ((84 ∈ ascii "CGTN" →
        sub_idx (ascii "CGTN") 84 = (ascii "CGTN").indexOf 84
        ∧ sub_idx (ascii "CGTN") 84 < (ascii "CGTN").length
        ∧ byte_at (ascii "CGTN") (sub_idx (ascii "CGTN") 84) = 84
        ∧ ∀ j, j < sub_idx (ascii "CGTN") 84 → byte_at (ascii "CGTN") j ≠ 84)
      ∧ (84 ∉ ascii "CGTN" →
        sub_idx (ascii "CGTN") 84 = (ascii "CGTN").length
        ∧ ((ascii "CGTN").length = 4 →
            sub_idx (ascii "CGTN") 84 = 4 ∧ ¬ sub_idx (ascii "CGTN") 84 < 2 ^ 2
            ∧ ∀ s, sub_idx (ascii "CGTN") 84 <<< s = 2 ^ (s + 2)))) :=
  ⟨by decide, sub_idx_spec (ascii "CGTN") 84 (by decide)⟩

/-- Evaluation of `sub_idx` and of the packed byte for an absent base: with the
key `CGTN`, `T` has index 2 and `A` gives 4; the row `C A T N` packs to `0x4B`,
whose 2-bit fields read 1, 0, 2, 3: the 4 of column 1 has set the low bit of
column 0 and left 0 in its own field. -/
theorem sub_idx_absent_ex :
    sub_idx (ascii "CGTN") 84 = 2 ∧ sub_idx (ascii "CGTN") 65 = 4
    ∧ smat_byte (ascii "CGTN") (fun c => byte_at (ascii "CATN") c) = 0x4B := by
  decide

/-! ## The two sequence-unpacking paths -/

set_option maxRecDepth 100000 in
/-- Every entry of `code2base`, stored little-endian, is the letter of the high
nibble followed by the letter of the low nibble. -/
theorem code2base_pair : ∀ b, b < 256 →
    store_le_int2 (code2base.getD b 0)
      = [bam_nt16_rev_table (b >>> 4), bam_nt16_rev_table (b &&& 15)] := by
  decide

/-- The table `bam_nt16_rev_table` on the 16 codes is the string
`=ACMGRSVTWYHKDBN`. -/
theorem bam_nt16_rev_table_eq : ∀ k, k < 16 →
    bam_nt16_rev_table k = byte_at (ascii "=ACMGRSVTWYHKDBN") k := by
  decide

/-- The two compilations of the pair loop write the same bytes. -/
theorem unpack_pairs_uac_eq : ∀ (n : Nat) (src : List Nat),
    unpack_pairs_uac n src = unpack_pairs n src := by
  intro n
  induction n with
  | zero => intro src; rfl
  | succ n ih =>
    intro src
    simp only [unpack_pairs_uac, unpack_pairs]
    rw [code2base_pair _ (Nat.mod_lt _ (by decide)), ih]
    rfl

/-- Base `i` written by the pair loop is the letter of nibble `i`. -/
theorem unpack_pairs_nibble : ∀ (n : Nat) (src : List Nat) (i : Nat), i < 2 * n →
    byte_at (unpack_pairs n src) i = bam_nt16_rev_table (nibble src i) := by
  intro n
  induction n with
  | zero => intro src i h; omega
  | succ n ih =>
    intro src i h
    have hd : byte_at src 0 = src.headD 0 := by cases src <;> rfl
    match i with
    | 0 =>
      have e : nibble src 0 = (src.headD 0 % 256) >>> 4 := by
        simp only [nibble, hd]; rfl
      rw [e]; rfl
    | 1 =>
      have e : nibble src 1 = (src.headD 0 % 256) &&& 15 := by
        simp only [nibble, hd]; rfl
      rw [e]; rfl
    | i + 2 =>
      have e : byte_at (unpack_pairs (n + 1) src) (i + 2) = byte_at (unpack_pairs n src.tail) i := by
        simp [unpack_pairs, byte_at]
      have e2 : nibble src (i + 2) = nibble src.tail i := by
        have e3 : ∀ j, byte_at src (j + 1) = byte_at src.tail j := by
          intro j; cases src <;> simp [byte_at]
        have e4 : (i + 2) / 2 = i / 2 + 1 := by omega
        have e5 : (i + 2) % 2 = i % 2 := by omega
        simp only [nibble, e4, e5, e3]
      rw [e, e2]
      exact ih src.tail i (by omega)

/-- A nibble is below 16. -/
theorem nibble_lt (src : List Nat) (i : Nat) : nibble src i < 16 := by
  unfold nibble
  split
  · rw [Nat.shiftRight_eq_div_pow]
    have := Nat.mod_lt (byte_at src (i / 2)) (show 0 < 256 by decide)
    omega
  · exact lt_of_le_of_lt Nat.and_le_right (by decide)

/-- Base `i` of the converted read is the letter of nibble `i`, the last base of
an odd-length read included. -/
theorem unpack_seq_nibble (src : List Nat) (len i : Nat) (h : i < len) :
    byte_at (unpack_seq src len) i = bam_nt16_rev_table (nibble src i) := by
  have hl := (unpack_pairs_spec (len / 2) src).1
  unfold unpack_seq
  by_cases hi : i < 2 * (len / 2)
  · have e : byte_at (unpack_pairs (len / 2) src ++
        (if len % 2 = 1 then [bam_nt16_rev_table ((byte_at src (len / 2) % 256) >>> 4)] else [])) i
        = byte_at (unpack_pairs (len / 2) src) i := by
      unfold byte_at
      rw [List.getD_append _ _ _ _ (by omega)]
    rw [e]
    exact unpack_pairs_nibble _ _ _ hi
  · have hodd : len % 2 = 1 := by omega
    have hi2 : i = 2 * (len / 2) := by omega
    rw [if_pos hodd]
    have e : byte_at (unpack_pairs (len / 2) src ++
        [bam_nt16_rev_table ((byte_at src (len / 2) % 256) >>> 4)]) i
        = bam_nt16_rev_table ((byte_at src (len / 2) % 256) >>> 4) := by
      unfold byte_at
      rw [List.getD_append_right _ _ _ _ (by omega)]
      have e0 : i - (unpack_pairs (len / 2) src).length = 0 := by omega
      rw [e0]
      rfl
    rw [e]
    have e1 : i / 2 = len / 2 := by omega
    have e2 : i % 2 = 0 := by omega
    simp only [nibble, e1, e2, if_true]

/-- Claim C39. The two compilations of the sequence unpacking of
`process_one_read` agree. With `T` the string `=ACMGRSVTWYHKDBN`: for every
packed byte `b` below 256 the entry `code2base[b]` stored as a little-endian
16-bit number is the byte pair `T[b >> 4]`, `T[b & 15]`; the read converted
through the table equals the read converted through `bam_nt16_rev_table`; and
base `i` of a read of length `len` is `T[nibble i]` for every `i < len` on either
path, the high nibble of each byte first and the last base of an odd-length read
included. -/
theorem unpack_seq_paths_agree :
    (∀ b, b < 256 →
      store_le_int2 (code2base.getD b 0)
        = [byte_at (ascii "=ACMGRSVTWYHKDBN") (b >>> 4),
           byte_at (ascii "=ACMGRSVTWYHKDBN") (b &&& 15)])
    ∧ (∀ (src : List Nat) (len : Nat), unpack_seq_uac src len = unpack_seq src len)
    ∧ (∀ (src : List Nat) (len i : Nat), i < len →
        byte_at (unpack_seq src len) i = byte_at (ascii "=ACMGRSVTWYHKDBN") (nibble src i)
        ∧ byte_at (unpack_seq_uac src len) i
            = byte_at (ascii "=ACMGRSVTWYHKDBN") (nibble src i)) := by
  have hu : ∀ (src : List Nat) (len : Nat), unpack_seq_uac src len = unpack_seq src len := by
    intro src len
    unfold unpack_seq_uac unpack_seq
    rw [unpack_pairs_uac_eq]
  refine ⟨fun b hb => ?_, hu, fun src len i h => ?_⟩
  · rw [code2base_pair b hb,
      bam_nt16_rev_table_eq _ (by rw [Nat.shiftRight_eq_div_pow]; omega),
      bam_nt16_rev_table_eq _ (lt_of_le_of_lt Nat.and_le_right (by decide))]
  · rw [hu, unpack_seq_nibble src len i h, bam_nt16_rev_table_eq _ (nibble_lt src i)]
    exact ⟨rfl, rfl⟩

/-- Evaluation of both unpacking paths on the packed read `ACGTN` (bytes `0x12`,
`0x48`, `0xF0`): the entry of the byte `0x12` is 17217 = `0x4341`, stored as `A`,
`C`, and both paths give the five letters, the odd last one from the high nibble
of the third byte. -/
theorem unpack_seq_paths_agree_witness :
    store_le_int2 (code2base.getD 0x12 0) = [65, 67]
    ∧ unpack_seq_uac (pack_seq "ACGTN".toList) 5 = ascii "ACGTN"
    ∧ unpack_seq (pack_seq "ACGTN".toList) 5 = ascii "ACGTN"
    ∧ byte_at (unpack_seq (pack_seq "ACGTN".toList) 5) 4
        = byte_at (ascii "=ACMGRSVTWYHKDBN") (nibble (pack_seq "ACGTN".toList) 4) :=
  ⟨(unpack_seq_paths_agree.1 0x12 (by decide)).trans (by decide), by decide, by decide,
    (unpack_seq_paths_agree.2.2 (pack_seq "ACGTN".toList) 5 4 (by decide)).1⟩

/-! ## Insertions -/

/-- The call of `cram_add_insertion` for a one-base insertion. -/
theorem cram_add_insertion_one (seq : List Nat) (e : enc) :
    cram_add_insertion e e.spos 1 (seq_ptr seq 1 e)
      = cram_add_feature (e.stats_add DS_BA (byte_at (op_bases seq 1 e) 0))
          { code := 'i'.toNat, pos := ((e.spos + 1 : Nat) : Int), len := 0,
            base := byte_at (op_bases seq 1 e) 0, qual := 0, seq_idx := 0 } := by
  by_cases hl : e.cr.len = 0
  · simp only [cram_add_insertion, seq_ptr, op_bases, hl, ne_eq, not_true_eq_false,
      if_false, if_true]
    rfl
  · simp only [cram_add_insertion, seq_ptr, op_bases, hl, ne_eq, not_false_eq_true,
      if_true]

/-- The call of `cram_add_insertion` for an insertion of another length. -/
theorem cram_add_insertion_many (seq : List Nat) (n : Nat) (e : enc) (h1 : n ≠ 1) :
    cram_add_insertion e e.spos n (seq_ptr seq n e)
      = cram_add_feature
          { e with s := { e.s with base_blk :=
              e.s.base_blk ++ op_bases seq n e ++ [0] } }
          { code := 'I'.toNat, pos := ((e.spos + 1 : Nat) : Int), len := (n : Int),
            base := 0, qual := 0, seq_idx := e.s.base_blk.length } := by
  by_cases hl : e.cr.len = 0
  · simp only [cram_add_insertion, seq_ptr, op_bases, hl, h1, ne_eq, not_true_eq_false,
      if_false]
    rfl
  · simp only [cram_add_insertion, seq_ptr, op_bases, hl, h1, ne_eq, not_false_eq_true,
      if_true, if_false]
    rfl

/-- The base block after `cram_add_feature`. -/
theorem add_feature_base_blk (e : enc) (f : cram_feature) :
    (cram_add_feature e f).s.base_blk = e.s.base_blk := by
  unfold cram_add_feature
  by_cases h : e.cr.nfeature = 0 <;> simp [h, enc.stats_add]

/-- Claim C31. For an insertion of length `n` at the read offset `e.spos`, the
call of `cram_add_insertion` made by `process_one_read` appends exactly one
feature, with position `spos + 1`. For `n = 1` the feature has code `i`, its
base is the inserted base (the read byte at `spos`; `N` for a read without
sequence), that base is counted once more in DS_BA and the base block is
unchanged. Otherwise the feature has code `I`, length `n` and `seq_idx` the size
of the base block before the call, the base block grows by the `n` inserted bases
and one NUL byte, and DS_BA is unchanged. -/
theorem cram_add_insertion_spec (seq : List Nat) (n : Nat) (e : enc) :
    ∃ f : cram_feature,
      (cram_add_insertion e e.spos n (seq_ptr seq n e)).s.features = e.s.features ++ [f]
      ∧ f.pos = (e.spos : Int) + 1
      ∧ (n = 1 →
          f.code = 'i'.toNat
          ∧ f.base = byte_at (op_bases seq 1 e) 0
          ∧ (e.cr.len ≠ 0 → f.base = byte_at seq e.spos)
          ∧ (cram_add_insertion e e.spos n (seq_ptr seq n e)).c.stats DS_BA
              = cram_stats_add e.c.stats DS_BA (f.base : Int) DS_BA
          ∧ (cram_add_insertion e e.spos n (seq_ptr seq n e)).s.base_blk = e.s.base_blk)
      ∧ (n ≠ 1 →
          f.code = 'I'.toNat ∧ f.len = (n : Int) ∧ f.seq_idx = e.s.base_blk.length
          ∧ (cram_add_insertion e e.spos n (seq_ptr seq n e)).s.base_blk
              = e.s.base_blk ++ op_bases seq n e ++ [0]
          ∧ (op_bases seq n e).length = n
          ∧ (cram_add_insertion e e.spos n (seq_ptr seq n e)).c.stats DS_BA
              = e.c.stats DS_BA) := by
  by_cases h1 : n = 1
  · subst h1
    refine ⟨{ code := 'i'.toNat, pos := ((e.spos + 1 : Nat) : Int), len := 0,
              base := byte_at (op_bases seq 1 e) 0, qual := 0, seq_idx := 0 }, ?_, ?_, ?_, ?_⟩
    · rw [cram_add_insertion_one]
      exact (add_feature_fields _ _).1
    · push_cast; rfl
    · intro _
      refine ⟨rfl, rfl, ?_, ?_, ?_⟩
      · intro hl
        simp [op_bases, hl, bytes_from, byte_at]
      · rw [cram_add_insertion_one]
        funext v
        rw [add_feature_stats]
        simp [emitted, enc.stats_add]
      · rw [cram_add_insertion_one, add_feature_base_blk]
        rfl
    · intro h; exact absurd rfl h
  · refine ⟨{ code := 'I'.toNat, pos := ((e.spos + 1 : Nat) : Int), len := (n : Int),
              base := 0, qual := 0, seq_idx := e.s.base_blk.length }, ?_, ?_, ?_, ?_⟩
    · rw [cram_add_insertion_many _ _ _ h1]
      exact (add_feature_fields _ _).1
    · push_cast; rfl
    · intro h; exact absurd h h1
    · intro _
      refine ⟨rfl, rfl, rfl, ?_, ?_, ?_⟩
      · rw [cram_add_insertion_many _ _ _ h1, add_feature_base_blk]
      · unfold op_bases bytes_from
        split <;> simp
      · rw [cram_add_insertion_many _ _ _ h1]
        funext v
        rw [add_feature_stats]
        simp [emitted]

/-- The statement of `cram_add_insertion_spec` for a 3-base insertion at read
offset 2 of the read `ACTTTGTA`. -/
theorem cram_add_insertion_spec_witness :
    ∃ f : cram_feature,
      (cram_add_insertion enc_ins_ex enc_ins_ex.spos 3
          (seq_ptr (ascii "ACTTTGTA") 3 enc_ins_ex)).s.features = enc_ins_ex.s.features ++ [f]
      ∧ f.pos = (enc_ins_ex.spos : Int) + 1
      ∧ (3 = 1 →
          f.code = 'i'.toNat
          ∧ f.base = byte_at (op_bases (ascii "ACTTTGTA") 1 enc_ins_ex) 0
          ∧ (enc_ins_ex.cr.len ≠ 0 → f.base = byte_at (ascii "ACTTTGTA") enc_ins_ex.spos)
          ∧ (cram_add_insertion enc_ins_ex enc_ins_ex.spos 3
                (seq_ptr (ascii "ACTTTGTA") 3 enc_ins_ex)).c.stats DS_BA
              = cram_stats_add enc_ins_ex.c.stats DS_BA (f.base : Int) DS_BA
          ∧ (cram_add_insertion enc_ins_ex enc_ins_ex.spos 3
                (seq_ptr (ascii "ACTTTGTA") 3 enc_ins_ex)).s.base_blk = enc_ins_ex.s.base_blk)
      ∧ (3 ≠ 1 →
          f.code = 'I'.toNat ∧ f.len = ((3 : Nat) : Int)
          ∧ f.seq_idx = enc_ins_ex.s.base_blk.length
          ∧ (cram_add_insertion enc_ins_ex enc_ins_ex.spos 3
                (seq_ptr (ascii "ACTTTGTA") 3 enc_ins_ex)).s.base_blk
              = enc_ins_ex.s.base_blk ++ op_bases (ascii "ACTTTGTA") 3 enc_ins_ex ++ [0]
          ∧ (op_bases (ascii "ACTTTGTA") 3 enc_ins_ex).length = 3
          ∧ (cram_add_insertion enc_ins_ex enc_ins_ex.spos 3
                (seq_ptr (ascii "ACTTTGTA") 3 enc_ins_ex)).c.stats DS_BA
              = enc_ins_ex.c.stats DS_BA) :=
  cram_add_insertion_spec (ascii "ACTTTGTA") 3 enc_ins_ex

/-- Evaluation of `process_one_read` on two reads against the reference
`ACGTACGT`: `2M1I5M` with the inserted base `T` gives one `i` feature at position
3 carrying `T`, one `T` in DS_BA and an empty base block; `2M3I3M` with the
inserted bases `TTT` gives one `I` feature at position 3 with length 3 and
`seq_idx` 0, and the base block `TTT` followed by NUL. -/
theorem process_one_read_insertion_ex :
    (slice_after fd_v3 bam_ins1).features
      = [{ code := 'i'.toNat, pos := 3, len := 0, base := 'T'.toNat, qual := 0, seq_idx := 0 }]
    ∧ (slice_after fd_v3 bam_ins1).base_blk = []
    ∧ ((process_one_read fd_v3 (container_new ref8) (slice_new 1) bam_ins1 0).getD
        (container_new ref8, slice_new 1)).1.stats DS_BA 84 = 1
    ∧ (slice_after fd_v3 bam_ins3).features
      = [{ code := 'I'.toNat, pos := 3, len := 3, base := 0, qual := 0, seq_idx := 0 }]
    ∧ (slice_after fd_v3 bam_ins3).base_blk = [84, 84, 84, 0] := by
  decide

/-! ## Soft clips -/

/-- The soft-clip block after `cram_add_feature`. -/
theorem add_feature_soft_blk (e : enc) (f : cram_feature) :
    (cram_add_feature e f).s.soft_blk = e.s.soft_blk := by
  unfold cram_add_feature
  by_cases h : e.cr.nfeature = 0 <;> simp [h, enc.stats_add]

/-- The record flags and length after `cram_add_feature`. -/
theorem add_feature_cram_flags (e : enc) (f : cram_feature) :
    (cram_add_feature e f).cr.cram_flags = e.cr.cram_flags
    ∧ (cram_add_feature e f).cr.len = e.cr.len := by
  unfold cram_add_feature
  by_cases h : e.cr.nfeature = 0 <;> simp [h, enc.stats_add]

/-- The call of `cram_add_softclip` on a format other than 1. -/
theorem cram_add_softclip_v2 (seq : List Nat) (n : Nat) (e : enc) (version : Nat)
    (hv : CRAM_MAJOR_VERS version ≠ 1) :
    cram_add_softclip e e.spos n (seq_ptr seq n e) version
      = some (cram_add_feature
          { e with s := { e.s with soft_blk := e.s.soft_blk ++ op_bases seq n e ++ [0] } }
          { code := 'S'.toNat, pos := ((e.spos + 1 : Nat) : Int), len := (n : Int),
            base := 0, qual := 0, seq_idx := e.s.soft_blk.length }) := by
  by_cases hl : e.cr.len = 0
  · simp only [cram_add_softclip, seq_ptr, op_bases, hl, hv, ne_eq, not_true_eq_false,
      if_false]
    rfl
  · simp only [cram_add_softclip, seq_ptr, op_bases, hl, hv, ne_eq, not_false_eq_true,
      if_true, if_false]
    rfl

/-- The head of `process_one_read` sets PRESERVE_QUAL_SCORES unless the writer is
in no-reference mode on a format before 3. -/
theorem head_cram_flags_preserve (fd : cram_fd) (len cf : Nat)
    (h : fd.no_ref = false ∨ 3 ≤ CRAM_MAJOR_VERS fd.version) :
    has_flag (head_cram_flags fd len cf) CRAM_FLAG_PRESERVE_QUAL_SCORES = true := by
  unfold head_cram_flags
  simp only [h, if_true]
  split
  · rw [has_flag_or_other _ _ _ (by decide)]
    exact has_flag_or_self _ _ (by decide)
  · exact has_flag_or_self _ _ (by decide)

/-- Claim C32 (amended). A soft-clip operation of length `n` (CIGAR word `w`
with operation `S`) at read offset `e.spos`, on a format other than 1, for a
writer that is not in no-reference mode on a format before 3, in a record whose
flags are those the head of `process_one_read` sets: the CIGAR step succeeds and
appends exactly one feature, with code `S`, position `spos + 1`, length `n` and
`seq_idx` the size of the soft-clip block before the step; the soft-clip block
grows by `n` bytes and one NUL, the bytes being the `n` read bases from `spos`
when the read has a sequence; the read offset advances by `n` and the reference
position is unchanged. -/
theorem cigar_step_softclip (fd : cram_fd) (seq qual : List Nat) (w len cf : Nat) (e : enc)
    (hop : w &&& BAM_CIGAR_MASK = BAM_CSOFT_CLIP)
    (hv : CRAM_MAJOR_VERS fd.version ≠ 1)
    (hm : fd.no_ref = false ∨ 3 ≤ CRAM_MAJOR_VERS fd.version)
    (hf : e.cr.cram_flags = head_cram_flags fd len cf) :
    ∃ (e1 : enc) (f : cram_feature),
      cigar_step fd seq qual w e = some e1
      ∧ e1.s.features = e.s.features ++ [f]
      ∧ f.code = 'S'.toNat ∧ f.pos = (e.spos : Int) + 1
      ∧ f.len = ((w >>> BAM_CIGAR_SHIFT : Nat) : Int)
      ∧ f.seq_idx = e.s.soft_blk.length
      ∧ e1.s.soft_blk = e.s.soft_blk ++ op_bases seq (w >>> BAM_CIGAR_SHIFT) e ++ [0]
      ∧ (op_bases seq (w >>> BAM_CIGAR_SHIFT) e).length = w >>> BAM_CIGAR_SHIFT
      ∧ (e.cr.len ≠ 0 →
          op_bases seq (w >>> BAM_CIGAR_SHIFT) e = bytes_from seq e.spos (w >>> BAM_CIGAR_SHIFT))
      ∧ e1.spos = e.spos + (w >>> BAM_CIGAR_SHIFT)
      ∧ e1.apos = e.apos := by
  obtain ⟨A, hA⟩ : ∃ A, A = cram_add_feature
      { e with s := { e.s with soft_blk :=
          e.s.soft_blk ++ op_bases seq (w >>> BAM_CIGAR_SHIFT) e ++ [0] } }
      { code := 'S'.toNat, pos := ((e.spos + 1 : Nat) : Int),
        len := ((w >>> BAM_CIGAR_SHIFT : Nat) : Int),
        base := 0, qual := 0, seq_idx := e.s.soft_blk.length } := ⟨_, rfl⟩
  have hadd : cram_add_softclip e e.spos (w >>> BAM_CIGAR_SHIFT)
      (seq_ptr seq (w >>> BAM_CIGAR_SHIFT) e) fd.version = some A := by
    rw [hA]
    exact cram_add_softclip_v2 _ _ _ _ hv
  have hpq : has_flag A.cr.cram_flags CRAM_FLAG_PRESERVE_QUAL_SCORES = true := by
    rw [hA, (add_feature_cram_flags _ _).1]
    show has_flag e.cr.cram_flags _ = true
    rw [hf]
    exact head_cram_flags_preserve fd len cf hm
  have hsoft : cigar_softclip fd seq qual (w >>> BAM_CIGAR_SHIFT) e
      = some { A with spos := A.spos + (w >>> BAM_CIGAR_SHIFT) } := by
    unfold cigar_softclip
    rw [hadd]
    simp only [hpq]
    simp
  have hstep : cigar_step fd seq qual w e
      = some { A with spos := A.spos + (w >>> BAM_CIGAR_SHIFT) } := by
    unfold cigar_step
    simp only [hop]
    exact hsoft
  refine ⟨_, { code := 'S'.toNat, pos := ((e.spos + 1 : Nat) : Int),
               len := ((w >>> BAM_CIGAR_SHIFT : Nat) : Int),
               base := 0, qual := 0, seq_idx := e.s.soft_blk.length }, hstep, ?_, rfl, ?_, rfl, rfl,
    ?_, ?_, ?_, ?_, ?_⟩
  · show A.s.features = _
    rw [hA]
    exact (add_feature_fields _ _).1
  · push_cast; rfl
  · show A.s.soft_blk = _
    rw [hA]
    exact add_feature_soft_blk _ _
  · unfold op_bases bytes_from
    split <;> simp
  · intro hl
    unfold op_bases
    rw [if_pos hl]
  · exact (cigar_softclip_cursor fd seq qual _ e _ hsoft).2
  · exact (cigar_softclip_cursor fd seq qual _ e _ hsoft).1

/-- The statement of `cigar_step_softclip` for the operation `4S` at the start
of the read `TTTTACGT`, format 3 with a reference. -/
theorem cigar_step_softclip_witness :
    (cigar_word 4 4 &&& BAM_CIGAR_MASK = BAM_CSOFT_CLIP
      ∧ CRAM_MAJOR_VERS fd_v3.version ≠ 1
      ∧ (fd_v3.no_ref = false ∨ 3 ≤ CRAM_MAJOR_VERS fd_v3.version)
      ∧ (enc_clip_ex fd_v3).cr.cram_flags = head_cram_flags fd_v3 8 0)
    ∧ ∃ (e1 : enc) (f : cram_feature),
      cigar_step fd_v3 (ascii "TTTTACGT") (List.replicate 8 30) (cigar_word 4 4)
          (enc_clip_ex fd_v3) = some e1
      ∧ e1.s.features = (enc_clip_ex fd_v3).s.features ++ [f]
      ∧ f.code = 'S'.toNat ∧ f.pos = ((enc_clip_ex fd_v3).spos : Int) + 1
      ∧ f.len = ((cigar_word 4 4 >>> BAM_CIGAR_SHIFT : Nat) : Int)
      ∧ f.seq_idx = (enc_clip_ex fd_v3).s.soft_blk.length
      ∧ e1.s.soft_blk = (enc_clip_ex fd_v3).s.soft_blk
          ++ op_bases (ascii "TTTTACGT") (cigar_word 4 4 >>> BAM_CIGAR_SHIFT) (enc_clip_ex fd_v3)
          ++ [0]
      ∧ (op_bases (ascii "TTTTACGT") (cigar_word 4 4 >>> BAM_CIGAR_SHIFT)
          (enc_clip_ex fd_v3)).length = cigar_word 4 4 >>> BAM_CIGAR_SHIFT
      ∧ ((enc_clip_ex fd_v3).cr.len ≠ 0 →
          op_bases (ascii "TTTTACGT") (cigar_word 4 4 >>> BAM_CIGAR_SHIFT) (enc_clip_ex fd_v3)
            = bytes_from (ascii "TTTTACGT") (enc_clip_ex fd_v3).spos
                (cigar_word 4 4 >>> BAM_CIGAR_SHIFT))
      ∧ e1.spos = (enc_clip_ex fd_v3).spos + (cigar_word 4 4 >>> BAM_CIGAR_SHIFT)
      ∧ e1.apos = (enc_clip_ex fd_v3).apos :=
  ⟨⟨by decide, by decide, by decide, rfl⟩,
    cigar_step_softclip fd_v3 (ascii "TTTTACGT") (List.replicate 8 30) (cigar_word 4 4) 8 0
      (enc_clip_ex fd_v3) (by decide) (by decide) (by decide) rfl⟩

/-- Evaluation of `process_one_read` on the read `TTTTACGT`, `4S4M` at position 1
of the reference `ACGTACGT`, format 3 with a reference: one feature, `S` at
position 1 with length 4 and `seq_idx` 0, the soft-clip block `TTTT` and NUL,
and one record with FN = 1. -/
theorem process_one_read_softclip_ex :
    (slice_after fd_v3 bam_clip).features
      = [{ code := 'S'.toNat, pos := 1, len := 4, base := 0, qual := 0, seq_idx := 0 }]
    ∧ (slice_after fd_v3 bam_clip).soft_blk = [84, 84, 84, 84, 0]
    ∧ (container_after fd_v3 bam_clip).stats DS_FN 1 = 1 := by
  decide

/-- Counterexample to C32: on format 2.1 in no-reference mode the soft-clip
operation `4S` at the start of the read `TTTTACGT` appends five features, the `S`
feature and one `Q` feature for each clipped base at positions 1 to 4; no single
feature extends the pool to the result. The whole read `4S4M` gets nine features
and FN = 9. -/
theorem cigar_step_softclip_no_ref_v2 :
    CRAM_MAJOR_VERS fd_v2_no_ref.version = 2
    ∧ cigar_word 4 4 &&& BAM_CIGAR_MASK = BAM_CSOFT_CLIP
    ∧ (cigar_step fd_v2_no_ref (ascii "TTTTACGT") (List.replicate 8 30) (cigar_word 4 4)
          (enc_clip_ex fd_v2_no_ref)).map (fun e => e.s.features.map (fun f => (f.code, f.pos)))
        = some [('S'.toNat, 1), ('Q'.toNat, 1), ('Q'.toNat, 2), ('Q'.toNat, 3), ('Q'.toNat, 4)]
    ∧ (¬ ∃ (e1 : enc) (f : cram_feature),
        cigar_step fd_v2_no_ref (ascii "TTTTACGT") (List.replicate 8 30) (cigar_word 4 4)
            (enc_clip_ex fd_v2_no_ref) = some e1
        ∧ e1.s.features = (enc_clip_ex fd_v2_no_ref).s.features ++ [f])
    ∧ (slice_after fd_v2_no_ref bam_clip).features.map (fun f => (f.code, f.pos))
        = [('S'.toNat, 1), ('Q'.toNat, 1), ('Q'.toNat, 2), ('Q'.toNat, 3), ('Q'.toNat, 4),
           ('B'.toNat, 5), ('B'.toNat, 6), ('B'.toNat, 7), ('B'.toNat, 8)]
    ∧ (container_after fd_v2_no_ref bam_clip).stats DS_FN 9 = 1
    ∧ (container_after fd_v2_no_ref bam_clip).stats DS_FN 1 = 0 := by
  have hl : (cigar_step fd_v2_no_ref (ascii "TTTTACGT") (List.replicate 8 30) (cigar_word 4 4)
      (enc_clip_ex fd_v2_no_ref)).map (fun e => e.s.features.length) = some 5 := by decide
  refine ⟨by decide, by decide, by decide, ?_, by decide, by decide, by decide⟩
  rintro ⟨e1, f, h1, h2⟩
  rw [h1] at hl
  simp only [Option.map_some', Option.some.injEq] at hl
  rw [h2] at hl
  simp [enc_clip_ex, slice_new] at hl

/-! ## The size assertion of the slice header -/

/-- The size-faithful writers stay within 1 to 5 and 1 to 9 bytes. -/
theorem put_sized_range (v : Int) :
    1 ≤ (itf8_put_sized v).length ∧ (itf8_put_sized v).length ≤ 5
    ∧ 1 ≤ (ltf8_put_sized v).length ∧ (ltf8_put_sized v).length ≤ 9 := by
  have h1 : 1 ≤ itf8_size v ∧ itf8_size v ≤ 5 := by
    unfold itf8_size
    split_ifs <;> exact ⟨by decide, by decide⟩
  have h2 : 1 ≤ ltf8_size v ∧ ltf8_size v ≤ 9 := by
    unfold ltf8_size
    split_ifs <;> exact ⟨by decide, by decide⟩
  unfold itf8_put_sized ltf8_put_sized
  simp only [List.length_replicate]
  omega

/-- Where the buffer of `cram_encode_slice_header` is large enough. For every
format version, every pair of integer writers that take at most 5 bytes for an
`itf8`, and every slice header with `0 ≤ num_content_ids < num_blocks` whose
`ltf8` fields (start, span, record counter) take at most 5 bytes each, the bytes
written number at most `22 + 16 + 5 * (8 + num_blocks)`: the assertion holds and
the block is returned with these bytes. -/
theorem cram_encode_slice_header_assert (itf8_put ltf8_put : Int → List Nat) (fd : cram_fd)
    (hdr : cram_slice_hdr) (BD_crc SD_crc : Nat)
    (hi : ∀ v, (itf8_put v).length ≤ 5)
    (hl : ∀ v ∈ [hdr.ref_seq_start, hdr.ref_seq_span, hdr.record_counter],
      (ltf8_put v).length ≤ 5)
    (h0 : 0 ≤ hdr.num_content_ids) (hn : hdr.num_content_ids < hdr.num_blocks) :
    ((slice_header_bytes itf8_put ltf8_put fd hdr BD_crc SD_crc).length : Int)
        ≤ 22 + 16 + 5 * (8 + hdr.num_blocks)
    ∧ ∃ b, cram_encode_slice_header itf8_put ltf8_put fd hdr BD_crc SD_crc = some b
        ∧ b.data = slice_header_bytes itf8_put ltf8_put fd hdr BD_crc SD_crc := by
  have hfit : ((slice_header_bytes itf8_put ltf8_put fd hdr BD_crc SD_crc).length : Int)
      ≤ 22 + 16 + 5 * (8 + hdr.num_blocks) := by
    rw [slice_header_bytes_eq]
    exact slice_header_fits itf8_put ltf8_put fd hdr BD_crc SD_crc hi hl h0 (by omega)
  refine ⟨hfit, ?_⟩
  unfold cram_encode_slice_header
  simp only [hfit, if_true]
  exact ⟨_, rfl, rfl⟩

/-- The statement of `cram_encode_slice_header_assert` for the header
`slice_hdr_ex` (three blocks, two content ids) on format 3 with the
size-faithful writers. -/
theorem cram_encode_slice_header_assert_witness :
    ((∀ v, (itf8_put_sized v).length ≤ 5)
      ∧ (∀ v ∈ [slice_hdr_ex.ref_seq_start, slice_hdr_ex.ref_seq_span,
            slice_hdr_ex.record_counter], (ltf8_put_sized v).length ≤ 5)
      ∧ 0 ≤ slice_hdr_ex.num_content_ids
      ∧ slice_hdr_ex.num_content_ids < slice_hdr_ex.num_blocks)
    ∧ ((slice_header_bytes itf8_put_sized ltf8_put_sized fd_v3 slice_hdr_ex 1 0).length : Int)
        ≤ 22 + 16 + 5 * (8 + slice_hdr_ex.num_blocks)
    ∧ ∃ b, cram_encode_slice_header itf8_put_sized ltf8_put_sized fd_v3 slice_hdr_ex 1 0 = some b
        ∧ b.data = slice_header_bytes itf8_put_sized ltf8_put_sized fd_v3 slice_hdr_ex 1 0 :=
  ⟨⟨fun v => (put_sized_range v).2.1, by decide, by decide, by decide⟩,
    cram_encode_slice_header_assert itf8_put_sized ltf8_put_sized fd_v3 slice_hdr_ex 1 0
      (fun v => (put_sized_range v).2.1) (by decide) (by decide) (by decide)⟩

/-- C36 fails in the code: the assertion of `cram_encode_slice_header` does not
hold for every input. On format 4 the header `slice_hdr_wide` has
`0 ≤ num_content_ids ≤ num_blocks` (0 and 1); with writers of the real lengths,
5 bytes for each of the `itf8` fields -1, 2^28 and -1 and 9 bytes for each of the
three `ltf8` fields 2^56, the function writes 84 bytes into the 83 bytes it
allocated, `22 + 16 + 5 * (8 + num_blocks)`, and its assertion fails. -/
theorem cram_encode_slice_header_overrun :
    0 ≤ slice_hdr_wide.num_content_ids
    ∧ slice_hdr_wide.num_content_ids ≤ slice_hdr_wide.num_blocks
    ∧ (∀ v ∈ [slice_hdr_wide.ref_seq_id, slice_hdr_wide.num_records, slice_hdr_wide.num_blocks,
          slice_hdr_wide.num_content_ids, slice_hdr_wide.ref_base_id],
        1 ≤ (itf8_put_sized v).length ∧ (itf8_put_sized v).length ≤ 5)
    ∧ (∀ v ∈ [slice_hdr_wide.ref_seq_start, slice_hdr_wide.ref_seq_span,
          slice_hdr_wide.record_counter],
        1 ≤ (ltf8_put_sized v).length ∧ (ltf8_put_sized v).length ≤ 9)
    ∧ (slice_header_bytes itf8_put_sized ltf8_put_sized fd_v4 slice_hdr_wide 1 1).length = 84
    ∧ 22 + 16 + 5 * (8 + slice_hdr_wide.num_blocks) = 83
    ∧ cram_encode_slice_header itf8_put_sized ltf8_put_sized fd_v4 slice_hdr_wide 1 1 = none := by
  decide

/-! ## Updating the tags of a header line -/

/-- The bytes of a text below its length are not changed by appending to it. -/
theorem bytes_from_append_left (xs ys : List Nat) (o n : Nat) (h : o + n ≤ xs.length) :
    bytes_from (xs ++ ys) o n = bytes_from xs o n := by
  unfold bytes_from
  apply List.map_congr_left
  intro i hi
  have hi2 : i < n := List.mem_range.mp hi
  unfold byte_at
  rw [List.getD_append _ _ _ _ (by omega)]

/-- The bytes appended to a text are read back from its old length. -/
theorem bytes_from_append_right (xs ys : List Nat) :
    bytes_from (xs ++ ys) xs.length ys.length = ys := by
  unfold bytes_from
  apply List.ext_getElem
  · simp
  · intro i h1 h2
    simp only [List.getElem_map, List.getElem_range, byte_at]
    rw [List.getD_append_right _ _ _ _ (by omega)]
    have e : xs.length + i - xs.length = i := by omega
    rw [e, List.getD_eq_getElem _ _ h2]

/-- The position found by the search loop is inside the list, counted from the
start position. -/
theorem find_key_loop_bound (text key : List Nat) :
    ∀ (tags : List SAM_hdr_tag) (i j : Nat), find_key_loop text key tags i = some j →
      i ≤ j ∧ j < i + tags.length := by
  intro tags
  induction tags with
  | nil => intro i j h; simp [find_key_loop] at h
  | cons t ts ih =>
    intro i j h
    unfold find_key_loop at h
    split at h
    · have e : i = j := Option.some.inj h
      subst e
      simp
    · have := ih (i + 1) j h
      simp only [List.length_cons]
      omega

/-- One pass of `sam_header_update` on a line whose tags lie inside the text:
the tag texts afterwards are the texts of the tags before the one found for the
key, followed by the new text `k:v`; when no tag is found they are all the old
texts followed by `k:v`. The tags after a tag that is found are no longer on the
line. -/
theorem sam_header_update_step_tags (text : List Nat) (type : SAM_hdr_type)
    (k v : List Nat) (hin : ∀ t ∈ type.tag, t.idx + t.len ≤ text.length) :
    tag_texts (sam_header_update_step (text, type) (k, v)).1
        (sam_header_update_step (text, type) (k, v)).2
      = (match find_key_loop text k type.tag 0 with
          | some i => (tag_texts text type).take i
          | none => tag_texts text type) ++ [update_text k v] := by
  have hnew : ∀ (old : List SAM_hdr_tag), (∀ t ∈ old, t ∈ type.tag) →
      (old ++ [(⟨text.length, (text ++ update_text k v).length - text.length⟩ : SAM_hdr_tag)]).map
          (fun tag => bytes_from (text ++ update_text k v) tag.idx tag.len)
        = old.map (fun tag => bytes_from text tag.idx tag.len) ++ [update_text k v] := by
    intro old hold
    rw [List.map_append]
    congr 1
    · apply List.map_congr_left
      intro t ht
      exact bytes_from_append_left _ _ _ _ (hin t (hold t ht))
    · have e : (text ++ update_text k v).length - text.length = (update_text k v).length := by
        simp
      simp only [List.map_cons, List.map_nil, e, bytes_from_append_right]
  cases hf : find_key_loop text k type.tag 0 with
  | some i =>
    simp only [sam_header_update_step, sam_header_find_key, tag_texts, hf]
    rw [hnew _ (fun t ht => List.mem_of_mem_take ht), List.map_take]
  | none =>
    by_cases hl : type.tag.length = 0
    · have hnil : type.tag = [] := List.length_eq_zero.mp hl
      simp only [sam_header_update_step, sam_header_find_key, tag_texts, hf, hl, if_true]
      have := hnew [] (fun t ht => absurd ht (List.not_mem_nil t))
      simpa [hnil] using this
    · simp only [sam_header_update_step, sam_header_find_key, tag_texts, hf, hl, if_false]
      have e : type.tag.length - 1 + 1 = type.tag.length := by omega
      rw [e, List.take_length]
      exact hnew _ (fun t ht => ht)

/-- Claim C37 (divergence). The header is the line `@SQ SN:x LN:5 M5:abc` as
`sam_header_add_lines` stores it. After `sam_header_update` with the key `LN`
and the value `7` the tag list of the line is `SN:x`, `LN:7`: the tag `M5:abc`,
which was on the line before and was not asked to change, is gone. Updating
`SN` leaves `SN:y` alone on the line. -/
theorem sam_header_update_drops_tags :
    sam_header_find sq_hdr_ex (ascii "SQ") none = .found sq_type_ex
    ∧ tag_texts sq_hdr_ex.text sq_type_ex = [ascii "SN:x", ascii "LN:5", ascii "M5:abc"]
    ∧ tag_texts (sam_header_update sq_hdr_ex.text sq_type_ex [(ascii "LN", ascii "7")]).1
        (sam_header_update sq_hdr_ex.text sq_type_ex [(ascii "LN", ascii "7")]).2
        = [ascii "SN:x", ascii "LN:7"]
    ∧ tag_texts (sam_header_update sq_hdr_ex.text sq_type_ex [(ascii "SN", ascii "y")]).1
        (sam_header_update sq_hdr_ex.text sq_type_ex [(ascii "SN", ascii "y")]).2
        = [ascii "SN:y"] := by
  decide

/-- Evaluation of `sam_header_update` where it keeps the line: updating the last
tag `M5` replaces its text, and the new key `UR` is appended at the end. -/
theorem sam_header_update_last_ex :
    tag_texts (sam_header_update sq_hdr_ex.text sq_type_ex [(ascii "M5", ascii "y")]).1
        (sam_header_update sq_hdr_ex.text sq_type_ex [(ascii "M5", ascii "y")]).2
        = [ascii "SN:x", ascii "LN:5", ascii "M5:y"]
    ∧ tag_texts (sam_header_update sq_hdr_ex.text sq_type_ex [(ascii "UR", ascii "file")]).1
        (sam_header_update sq_hdr_ex.text sq_type_ex [(ascii "UR", ascii "file")]).2
        = [ascii "SN:x", ascii "LN:5", ascii "M5:abc", ascii "UR:file"] := by
  decide

/-! ## Record counters -/

/-- The slice loop of `cram_encode_container` when every `cram_encode_slice`
returns 0: slice `i` gets the record counter of the container plus the records
counted so far plus those of the slices before it, and the container ends with
all records added. -/
theorem encode_slices_counts_spec :
    ∀ (slices : List (Bool × slice_counts)) (c : container_counts) (acc : List slice_counts),
      (∀ p ∈ slices, p.1 = true) →
      ∃ hs : List slice_counts,
        encode_slices_counts slices c acc
          = some (⟨c.num_records + (slices.map (fun p => p.2.num_records)).sum,
                    c.record_counter⟩, acc ++ hs)
        ∧ hs.length = slices.length
        ∧ ∀ i, i < slices.length →
            hs[i]? = some ⟨((slices.map (fun p => p.2.num_records)).getD i 0),
              c.num_records + c.record_counter
                + ((slices.take i).map (fun p => p.2.num_records)).sum⟩ := by
  intro slices
  induction slices with
  | nil =>
    intro c acc _
    refine ⟨[], ?_, rfl, fun i h => absurd h (by simp)⟩
    simp [encode_slices_counts]
  | cons p rest ih =>
    intro c acc hok
    obtain ⟨ok, hdr⟩ := p
    have hp : ok = true := hok (ok, hdr) (List.mem_cons_self _ _)
    subst hp
    obtain ⟨hs, h1, h2, h3⟩ := ih ⟨c.num_records + hdr.num_records, c.record_counter⟩
      (acc ++ [⟨hdr.num_records, c.num_records + c.record_counter⟩])
      (fun q hq => hok q (List.mem_cons_of_mem _ hq))
    refine ⟨⟨hdr.num_records, c.num_records + c.record_counter⟩ :: hs, ?_, ?_, ?_⟩
    · simp only [encode_slices_counts, cram_encode_slice_counts, if_true]
      rw [h1]
      simp only [List.map_cons, List.sum_cons, List.append_assoc, List.singleton_append]
      rw [add_assoc]
    · simp [h2]
    · intro i hi
      cases i with
      | zero => simp
      | succ i =>
        have hi2 : i < rest.length := by simpa using hi
        have := h3 i hi2
        simp only [List.getElem?_cons_succ, this, List.map_cons, List.getD_cons_succ,
          List.take_succ_cons, List.sum_cons]
        congr 2
        ring

/-- The container that `cram_next_container` returns has an empty current
slice; its container count is that of the old container, or of the new one
after a flush. -/
theorem cram_next_container_counts (flush_ok : Bool) (fresh : put_container) (fd : put_fd)
    (c cn : put_container) (b : put_bam)
    (h : cram_next_container flush_ok fresh fd c b = some cn) :
    cn.curr_rec = 0
    ∧ cn.curr_c_rec =
        (if next_flushes
            (if (if c.curr_ref = -2 then { c with curr_ref := b.ref } else c).slice then
              cram_update_curr_slice (if c.curr_ref = -2 then { c with curr_ref := b.ref } else c)
            else (if c.curr_ref = -2 then { c with curr_ref := b.ref } else c)) b
          then fresh.curr_c_rec else c.curr_c_rec) := by
  have hc1 : (if (if c.curr_ref = -2 then { c with curr_ref := b.ref } else c).slice then
      cram_update_curr_slice (if c.curr_ref = -2 then { c with curr_ref := b.ref } else c)
      else (if c.curr_ref = -2 then { c with curr_ref := b.ref } else c)).curr_c_rec
      = c.curr_c_rec := by
    by_cases h2 : c.curr_ref = -2 <;> simp only [h2, if_true, if_false] <;> split <;> rfl
  unfold cram_next_container at h
  simp only at h
  generalize (if (if c.curr_ref = -2 then { c with curr_ref := b.ref } else c).slice then
      cram_update_curr_slice (if c.curr_ref = -2 then { c with curr_ref := b.ref } else c)
      else (if c.curr_ref = -2 then { c with curr_ref := b.ref } else c)) = c1 at h hc1 ⊢
  by_cases hfl : next_flushes c1 b = true
  · simp only [hfl, if_true] at h ⊢
    cases flush_ok with
    | false => simp at h
    | true =>
      simp only [if_true] at h
      have e := Option.some.inj h
      subst e
      exact ⟨rfl, rfl⟩
  · simp only [hfl] at h ⊢
    have e := Option.some.inj h
    subst e
    exact ⟨rfl, hc1⟩

/-- The multi-reference block changes no record count. -/
theorem put_multi_seq_counts (multi_seq : Bool) (fd : put_fd) (c : put_container) :
    (put_multi_seq multi_seq fd c).1.record_counter = fd.record_counter
    ∧ (put_multi_seq multi_seq fd c).2.curr_rec = c.curr_rec
    ∧ (put_multi_seq multi_seq fd c).2.curr_c_rec = c.curr_c_rec := by
  unfold put_multi_seq
  split <;> exact ⟨rfl, rfl, rfl⟩

/-- The block "Have we seen this reference before?" changes no record count. -/
theorem put_seen_ref_counts (multi_seq : Bool) (curr_ref : Int) (fd : put_fd)
    (c : put_container) (b : put_bam) :
    (put_seen_ref multi_seq curr_ref fd c b).1.record_counter = fd.record_counter
    ∧ (put_seen_ref multi_seq curr_ref fd c b).2.curr_rec = c.curr_rec
    ∧ (put_seen_ref multi_seq curr_ref fd c b).2.curr_c_rec = c.curr_c_rec := by
  unfold put_seen_ref
  split
  · split
    · exact ⟨rfl, rfl, rfl⟩
    · split <;> exact ⟨rfl, rfl, rfl⟩
  · exact ⟨rfl, rfl, rfl⟩

/-- Counting the reference changes no record count. -/
theorem put_count_ref_counts (c : put_container) (b : put_bam) :
    (put_count_ref c b).curr_rec = c.curr_rec
    ∧ (put_count_ref c b).curr_c_rec = c.curr_c_rec := by
  unfold put_count_ref
  split
  · split <;> exact ⟨rfl, rfl⟩
  · exact ⟨rfl, rfl⟩

/-- The block of `cram_put_bam_seq` for a new slice leaves the record counter
of the file alone and passes on the record counts of the container it got from
`cram_next_container`, or of the old container when that is not called. -/
theorem put_block_counts (flush_ok : Bool) (fresh : put_container) (fd fd1 : put_fd)
    (c c1 : put_container) (b : put_bam)
    (h : put_block flush_ok fresh fd c b = some (fd1, c1)) :
    ∃ cn, (if put_calls_next fd c then cram_next_container flush_ok fresh fd c b else some c)
        = some cn
      ∧ fd1.record_counter = fd.record_counter
      ∧ c1.curr_rec = cn.curr_rec ∧ c1.curr_c_rec = cn.curr_c_rec := by
  unfold put_block at h
  simp only at h
  cases hn : (if put_calls_next fd c then cram_next_container flush_ok fresh fd c b
      else some c) with
  | none => rw [hn] at h; simp at h
  | some cn =>
    rw [hn] at h
    simp only at h
    refine ⟨cn, rfl, ?_⟩
    generalize (if fd.multi_seq = -1 ∧ c.curr_rec < Int.tdiv c.max_rec 4 + 10 ∧ fd.last_slice ≠ 0
        ∧ fd.last_slice < Int.tdiv c.max_rec 4 + 10 ∧ fd.embed_ref = false then true
      else decide (fd.multi_seq = 1)) = ms at h
    split at h
    · exact absurd h (by simp)
    · have e := Option.some.inj h
      rw [Prod.mk.injEq] at e
      obtain ⟨e1, e2⟩ := e
      subst e1 e2
      refine ⟨?_, ?_, ?_⟩
      · rw [(put_seen_ref_counts _ _ _ _ _).1]
        exact (put_multi_seq_counts _ _ _).1
      · rw [(put_count_ref_counts _ _).1, (put_seen_ref_counts _ _ _ _ _).2.1]
        exact (put_multi_seq_counts _ _ _).2.1
      · rw [(put_count_ref_counts _ _).2, (put_seen_ref_counts _ _ _ _ _).2.2]
        exact (put_multi_seq_counts _ _ _).2.2

/-- The record counts after a successful `cram_put_bam_seq`. -/
theorem cram_put_bam_seq_counts (flush_ok : Bool) (fresh : put_container) (fd fd1 : put_fd)
    (b : put_bam) (h : cram_put_bam_seq flush_ok fresh fd b = some fd1) :
    fd1.record_counter = fd.record_counter + 1
    ∧ ∃ c1, fd1.ctr = some c1
      ∧ c1.curr_rec
          = (if put_starts_slice fresh fd b then 1 else (put_ctr fresh fd).curr_rec + 1)
      ∧ c1.curr_c_rec
          = (if put_starts_slice fresh fd b && put_starts_container fresh fd b
              then fresh.curr_c_rec + 1 else (put_ctr fresh fd).curr_c_rec + 1) := by
  have hc : (match fd.ctr with
      | some c => c
      | none => { fresh with record_counter := fd.record_counter }) = put_ctr fresh fd := rfl
  unfold cram_put_bam_seq at h
  simp only [hc] at h
  cases hb : put_new_block fd (put_ctr fresh fd) b with
  | false =>
    rw [hb] at h
    simp only [Bool.false_eq_true, if_false] at h
    have e := Option.some.inj h
    subst e
    have hs : put_starts_slice fresh fd b = false := by
      unfold put_starts_slice
      rw [hb]
      rfl
    refine ⟨rfl, _, rfl, ?_, ?_⟩
    · rw [hs]; rfl
    · rw [hs]; rfl
  | true =>
    rw [hb] at h
    simp only [if_true] at h
    cases hp : put_block flush_ok fresh fd (put_ctr fresh fd) b with
    | none => rw [hp] at h; simp at h
    | some r =>
      obtain ⟨fd2, c2⟩ := r
      rw [hp] at h
      simp only at h
      have e := Option.some.inj h
      subst e
      obtain ⟨cn, hn, h1, h2, h3⟩ := put_block_counts _ _ _ _ _ _ _ hp
      refine ⟨by show fd2.record_counter + 1 = _; rw [h1], _, rfl, ?_, ?_⟩
      · show c2.curr_rec + 1 = _
        cases hcn : put_calls_next fd (put_ctr fresh fd) with
        | false =>
          rw [hcn] at hn
          simp only [Bool.false_eq_true, if_false] at hn
          have e := Option.some.inj hn
          subst e
          have hs : put_starts_slice fresh fd b = false := by
            unfold put_starts_slice
            rw [hb, hcn]
            rfl
          rw [hs, h2]
          rfl
        | true =>
          rw [hcn] at hn
          simp only [if_true] at hn
          have hs : put_starts_slice fresh fd b = true := by
            unfold put_starts_slice
            rw [hb, hcn]
            rfl
          rw [hs, h2, (cram_next_container_counts _ _ _ _ _ _ hn).1]
          rfl
      · show c2.curr_c_rec + 1 = _
        cases hcn : put_calls_next fd (put_ctr fresh fd) with
        | false =>
          rw [hcn] at hn
          simp only [Bool.false_eq_true, if_false] at hn
          have e := Option.some.inj hn
          subst e
          have hs : put_starts_slice fresh fd b = false := by
            unfold put_starts_slice
            rw [hb, hcn]
            rfl
          rw [hs, h3]
          rfl
        | true =>
          rw [hcn] at hn
          simp only [if_true] at hn
          have hs : put_starts_slice fresh fd b = true := by
            unfold put_starts_slice
            rw [hb, hcn]
            rfl
          rw [hs, h3, (cram_next_container_counts _ _ _ _ _ _ hn).2]
          unfold put_starts_container
          simp only [Bool.true_and]
          by_cases hf : next_flushes
              (if (if (put_ctr fresh fd).curr_ref = -2 then
                    { put_ctr fresh fd with curr_ref := b.ref } else put_ctr fresh fd).slice then
                cram_update_curr_slice (if (put_ctr fresh fd).curr_ref = -2 then
                    { put_ctr fresh fd with curr_ref := b.ref } else put_ctr fresh fd)
              else (if (put_ctr fresh fd).curr_ref = -2 then
                    { put_ctr fresh fd with curr_ref := b.ref } else put_ctr fresh fd)) b = true
          · simp only [hf, if_true]
          · simp only [hf]
            rfl

/-- Claim C38 (amended). When every `cram_encode_slice` returns 0,
`cram_encode_container` gives slice `i` the record counter
`c.record_counter` plus the sum of `num_records` of the slices before it, leaves
`num_records` of each slice as it was, and returns with `c.num_records` equal to
the sum of `num_records` of all slices. Each successful `cram_put_bam_seq`
raises `fd.record_counter` by exactly 1; `curr_rec` of the container is 1 after
a call that starts a new slice and is raised by exactly 1 otherwise;
`curr_c_rec` is raised by exactly 1 unless the call starts a new container,
where it is one more than in the container `cram_new_container` returned. -/
theorem record_counters_spec (c : container_counts) (slices : List (Bool × slice_counts))
    (hok : ∀ p ∈ slices, p.1 = true)
    (flush_ok : Bool) (fresh : put_container) (fd fd1 : put_fd) (b : put_bam)
    (hput : cram_put_bam_seq flush_ok fresh fd b = some fd1) :
    (∃ (c1 : container_counts) (hs : List slice_counts),
        cram_encode_container_counts c slices = some (c1, hs)
        ∧ hs.length = slices.length
        ∧ (∀ i, i < slices.length →
            hs[i]? = some ⟨(slices.map (fun p => p.2.num_records)).getD i 0,
              c.record_counter + ((slices.take i).map (fun p => p.2.num_records)).sum⟩)
        ∧ c1.num_records = (slices.map (fun p => p.2.num_records)).sum
        ∧ c1.record_counter = c.record_counter)
    ∧ fd1.record_counter = fd.record_counter + 1
    ∧ ∃ c2, fd1.ctr = some c2
      ∧ c2.curr_rec
          = (if put_starts_slice fresh fd b then 1 else (put_ctr fresh fd).curr_rec + 1)
      ∧ c2.curr_c_rec
          = (if put_starts_slice fresh fd b && put_starts_container fresh fd b
              then fresh.curr_c_rec + 1 else (put_ctr fresh fd).curr_c_rec + 1) := by
  refine ⟨?_, cram_put_bam_seq_counts flush_ok fresh fd fd1 b hput⟩
  obtain ⟨hs, h1, h2, h3⟩ := encode_slices_counts_spec slices { c with num_records := 0 } [] hok
  refine ⟨⟨0 + (slices.map (fun p => p.2.num_records)).sum, c.record_counter⟩, hs, ?_, h2,
    ?_, ?_, rfl⟩
  · unfold cram_encode_container_counts
    rw [h1]
    rfl
  · intro i hi
    rw [h3 i hi]
    simp
  · simp

/-- The statement of `record_counters_spec` for a container with the record
counter 100 and slices of 2, 2 and 1 records, and for the third record put into
a writer with 2 records in a slice. -/
theorem record_counters_spec_witness :
    (∀ p ∈ [(true, (⟨2, 0⟩ : slice_counts)), (true, ⟨2, 0⟩), (true, ⟨1, 0⟩)], p.1 = true)
    ∧ cram_put_bam_seq true put_fresh_ex (put_run 2) put_bam_ex = some (put_run 3)
    ∧ (∃ (c1 : container_counts) (hs : List slice_counts),
        cram_encode_container_counts ⟨7, 100⟩
            [(true, (⟨2, 0⟩ : slice_counts)), (true, ⟨2, 0⟩), (true, ⟨1, 0⟩)] = some (c1, hs)
        ∧ hs.length = [(true, (⟨2, 0⟩ : slice_counts)), (true, ⟨2, 0⟩), (true, ⟨1, 0⟩)].length
        ∧ (∀ i, i < [(true, (⟨2, 0⟩ : slice_counts)), (true, ⟨2, 0⟩), (true, ⟨1, 0⟩)].length →
            hs[i]? = some ⟨([(true, (⟨2, 0⟩ : slice_counts)), (true, ⟨2, 0⟩), (true, ⟨1, 0⟩)].map
                (fun p => p.2.num_records)).getD i 0,
              (⟨7, 100⟩ : container_counts).record_counter
                + (([(true, (⟨2, 0⟩ : slice_counts)), (true, ⟨2, 0⟩), (true, ⟨1, 0⟩)].take i).map
                    (fun p => p.2.num_records)).sum⟩)
        ∧ c1.num_records
            = ([(true, (⟨2, 0⟩ : slice_counts)), (true, ⟨2, 0⟩), (true, ⟨1, 0⟩)].map
                (fun p => p.2.num_records)).sum
        ∧ c1.record_counter = (⟨7, 100⟩ : container_counts).record_counter)
    ∧ (put_run 3).record_counter = (put_run 2).record_counter + 1
    ∧ ∃ c2, (put_run 3).ctr = some c2
      ∧ c2.curr_rec
          = (if put_starts_slice put_fresh_ex (put_run 2) put_bam_ex then 1
              else (put_ctr put_fresh_ex (put_run 2)).curr_rec + 1)
      ∧ c2.curr_c_rec
          = (if put_starts_slice put_fresh_ex (put_run 2) put_bam_ex
                && put_starts_container put_fresh_ex (put_run 2) put_bam_ex
              then put_fresh_ex.curr_c_rec + 1
              else (put_ctr put_fresh_ex (put_run 2)).curr_c_rec + 1) :=
  ⟨by decide, rfl,
    record_counters_spec ⟨7, 100⟩
      [(true, (⟨2, 0⟩ : slice_counts)), (true, ⟨2, 0⟩), (true, ⟨1, 0⟩)] (by decide)
      true put_fresh_ex (put_run 2) (put_run 3) put_bam_ex rfl⟩

/-- Evaluation of the counters: a container with record counter 100 whose
`num_records` is 7 on entry and slices of 2, 2 and 1 records gives the slices
the record counters 100, 102, 104 and ends with `num_records = 5`. -/
theorem cram_encode_container_counts_ex :
    cram_encode_container_counts ⟨7, 100⟩
        [(true, (⟨2, 0⟩ : slice_counts)), (true, ⟨2, 0⟩), (true, ⟨1, 0⟩)]
      = some (⟨5, 100⟩, [⟨2, 100⟩, ⟨2, 102⟩, ⟨1, 104⟩]) := by
  decide

/-- Counterexample to C38. With 2 records in a slice and 2 slices in a
container, six successful calls of `cram_put_bam_seq` give the counts
(`record_counter`, `curr_rec`, `curr_c_rec`) (1,1,1), (2,2,2), (3,1,3), (4,2,4),
(5,1,1), (6,2,2): the third call, which starts a new slice, takes `curr_rec`
from 2 to 1, and the fifth, which starts a new container, takes `curr_c_rec`
from 4 to 1. -/
theorem cram_put_bam_seq_restarts_counts :
    (cram_put_bam_seq true put_fresh_ex (put_run 2) put_bam_ex).isSome = true
    ∧ (cram_put_bam_seq true put_fresh_ex (put_run 4) put_bam_ex).isSome = true
    ∧ (List.range 7).map (fun n => put_counts (put_run n))
        = [(0, 0, 0), (1, 1, 1), (2, 2, 2), (3, 1, 3), (4, 2, 4), (5, 1, 1), (6, 2, 2)]
    ∧ (put_counts (put_run 3)).2.1 ≠ (put_counts (put_run 2)).2.1 + 1
    ∧ (put_counts (put_run 5)).2.2 ≠ (put_counts (put_run 4)).2.2 + 1 := by
  decide

/-! ## The FP sequence: statistics and slice encoder -/

/-- The values of a series in two lists of codec calls, one after the other. -/
theorem series_values_append (ds : cram_DS_ID) (a b : List emission) :
    series_values ds (a ++ b) = series_values ds a ++ series_values ds b := by
  simp [series_values, List.filter_append, List.flatMap_append]

/-- A list of codec calls without the series `ds` has no value of it. -/
theorem series_values_none (ds : cram_DS_ID) (em : List emission)
    (h : ∀ x ∈ em, x.1 ≠ ds) : series_values ds em = [] := by
  unfold series_values
  have e : em.filter (fun x => decide (x.1 = ds)) = [] := by
    rw [List.filter_eq_nil_iff]
    intro x hx
    simpa using h x hx
  rw [e]
  rfl

/-- The payload of a feature holds no FP and no FC value. -/
theorem feature_payload_no_FP_FC (s : cram_slice) (f : cram_feature) (pl : List emission)
    (h : feature_payload s f = some pl) :
    series_values DS_FP pl = [] ∧ series_values DS_FC pl = [] := by
  have hs := feature_payload_series s f pl h
  constructor
  · apply series_values_none
    intro x hx e
    have := hs x hx
    rw [e] at this
    simp at this
  · apply series_values_none
    intro x hx e
    have := hs x hx
    rw [e] at this
    simp at this

/-- The FP values of the feature loop are the position differences and its FC
values the feature codes, in the order of the features. -/
theorem encode_features_series (s : cram_slice) :
    ∀ (fs : List cram_feature) (prev : Int) (em : List emission),
      encode_features s fs prev = some em →
      series_values DS_FP em = fp_deltas fs prev
      ∧ series_values DS_FC em = fs.map (fun f => (f.code : Int)) := by
  intro fs
  induction fs with
  | nil =>
    intro prev em h
    have e : em = [] := by simpa [encode_features] using h.symm
    subst e
    exact ⟨rfl, rfl⟩
  | cons f fs ih =>
    intro prev em h
    unfold encode_features at h
    cases hp : feature_payload s f with
    | none => rw [hp] at h; simp at h
    | some pl =>
      cases hr : encode_features s fs f.pos with
      | none => rw [hp, hr] at h; simp at h
      | some rest =>
        rw [hp, hr] at h
        have e := Option.some.inj h
        subst e
        obtain ⟨p1, p2⟩ := feature_payload_no_FP_FC s f pl hp
        obtain ⟨i1, i2⟩ := ih f.pos rest hr
        have e1 : ((DS_FC, [(f.code : Int)]) :: (DS_FP, [f.pos - prev]) :: (pl ++ rest) :
            List emission) = [(DS_FC, [(f.code : Int)]), (DS_FP, [f.pos - prev])] ++ pl ++ rest := by
          simp
        rw [e1, series_values_append, series_values_append, series_values_append,
          series_values_append, p1, p2, i1, i2]
        exact ⟨rfl, rfl⟩

/-- The running sums of the FP sequence are the positions. -/
theorem running_sums_fp_deltas :
    ∀ (fs : List cram_feature) (prev : Int),
      running_sums (fp_deltas fs prev) prev = fs.map (fun f => f.pos) := by
  intro fs
  induction fs with
  | nil => intro prev; rfl
  | cons f fs ih =>
    intro prev
    simp only [fp_deltas, running_sums, List.map_cons]
    have e : prev + (f.pos - prev) = f.pos := by omega
    rw [e, ih]

/-- The last position of a list behind a first feature. -/
theorem last_pos_of_cons (g : cram_feature) (gs : List cram_feature) (p : Int) :
    last_pos_of (g :: gs) p = last_pos_of gs g.pos := by
  cases gs with
  | nil => simp [last_pos_of]
  | cons x xs =>
    rw [last_pos_of_ne_nil _ _ (List.cons_ne_nil _ _),
      last_pos_of_ne_nil _ _ (List.cons_ne_nil _ _)]
    simp [List.getLast_cons]

/-- The FP sequence of two lists of features, one after the other. -/
theorem fp_deltas_append :
    ∀ (a b : List cram_feature) (p : Int),
      fp_deltas (a ++ b) p = fp_deltas a p ++ fp_deltas b (last_pos_of a p) := by
  intro a
  induction a with
  | nil => intro b p; simp [fp_deltas, last_pos_of]
  | cons g gs ih =>
    intro b p
    show (g.pos - p) :: fp_deltas (gs ++ b) g.pos = _
    rw [ih, last_pos_of_cons]
    rfl

/-- The FP sequence of a list extended by one feature. -/
theorem fp_deltas_snoc (f : cram_feature) (fs : List cram_feature) (prev : Int) :
    fp_deltas (fs ++ [f]) prev = fp_deltas fs prev ++ [f.pos - last_pos_of fs prev] := by
  rw [fp_deltas_append]
  rfl

/-- The FP sequence has one value for each feature. -/
theorem fp_deltas_length :
    ∀ (fs : List cram_feature) (prev : Int), (fp_deltas fs prev).length = fs.length := by
  intro fs
  induction fs with
  | nil => intro prev; rfl
  | cons g gs ih => intro prev; simp [fp_deltas, ih]

/-- Value `k` of the FP sequence is the position of feature `k` minus the
position of the feature before it, or minus `prev` for the first. -/
theorem fp_deltas_getD (fs : List cram_feature) (prev : Int) (k : Nat) (hk : k < fs.length) :
    (fp_deltas fs prev).getD k 0
      = (fs.getD k (cram_feature.mk0 0 0)).pos - last_pos_of (fs.take k) prev := by
  have e : fs = fs.take k ++ [fs.getD k (cram_feature.mk0 0 0)] ++ fs.drop (k + 1) := by
    rw [List.getD_eq_getElem _ _ hk]
    simp
  have hl : (fs.take k).length = k := by simp; omega
  have e2 : fp_deltas fs prev
      = fp_deltas (fs.take k) prev
        ++ [(fs.getD k (cram_feature.mk0 0 0)).pos - last_pos_of (fs.take k) prev]
        ++ fp_deltas (fs.drop (k + 1)) (fs.getD k (cram_feature.mk0 0 0)).pos := by
    conv_lhs => rw [e]
    rw [fp_deltas_append, fp_deltas_snoc]
    congr 1
    rw [last_pos_of_ne_nil _ _ (by simp)]
    simp
  rw [e2]
  have hl2 : (fp_deltas (fs.take k) prev).length = k := by rw [fp_deltas_length, hl]
  rw [List.append_assoc, List.getD_append_right _ _ _ _ (by omega), hl2]
  simp

/-- The number of times a value is handed to a codec is its number of
occurrences among the values of the series. -/
theorem emitted_eq_count (ds : cram_DS_ID) (v : Int) :
    ∀ em : List emission, emitted ds v em = ((series_values ds em).count v : Int) := by
  intro em
  induction em with
  | nil => rfl
  | cons x xs ih =>
    have e : series_values ds (x :: xs) = series_values ds [x] ++ series_values ds xs :=
      series_values_append ds [x] xs
    rw [e, List.count_append]
    simp only [emitted, ih]
    by_cases hx : x.1 = ds
    · simp [series_values, hx]
    · simp [series_values, hx]

/-- The FP and FC counts of the two statistics calls of `cram_add_feature`. -/
theorem emitted_FC_FP (a b v : Int) :
    emitted DS_FP v [(DS_FC, [a]), (DS_FP, [b])] = (if v = b then 1 else 0)
    ∧ emitted DS_FC v [(DS_FC, [a]), (DS_FP, [b])] = (if v = a then 1 else 0) := by
  constructor
  · by_cases hv : v = b
    · subst hv
      simp [emitted]
    · have hv2 : ¬ (b = v) := fun h => hv h.symm
      simp [emitted, List.count_cons, hv, hv2]
  · by_cases hv : v = a
    · subst hv
      simp [emitted]
    · have hv2 : ¬ (a = v) := fun h => hv h.symm
      simp [emitted, List.count_cons, hv, hv2]

/-- One call of `cram_add_feature` for feature `k` of a record whose features
are `fs`, in a state where the pool holds the first `k` of them behind the
features `F0` of the earlier records: the value added to DS_FP is value `k` of
the FP sequence, the value added to DS_FC is the code, and the pool, the count
and the start index of the record are ready for feature `k + 1`. -/
theorem add_feature_kth (F0 fs : List cram_feature) (k : Nat) (e : enc) (hk : k < fs.length)
    (h1 : e.s.features = F0 ++ fs.take k) (h2 : e.cr.nfeature = k)
    (h3 : k ≠ 0 → e.cr.feature = F0.length) :
    FP_added e (fs.getD k (cram_feature.mk0 0 0)) = (fp_deltas fs 0).getD k 0
    ∧ (∀ v, (cram_add_feature e (fs.getD k (cram_feature.mk0 0 0))).c.stats DS_FP v
        = e.c.stats DS_FP v
          + (if v = FP_added e (fs.getD k (cram_feature.mk0 0 0)) then 1 else 0))
    ∧ (∀ v, (cram_add_feature e (fs.getD k (cram_feature.mk0 0 0))).c.stats DS_FC v
        = e.c.stats DS_FC v
          + (if v = ((fs.getD k (cram_feature.mk0 0 0)).code : Int) then 1 else 0))
    ∧ (cram_add_feature e (fs.getD k (cram_feature.mk0 0 0))).s.features
        = F0 ++ fs.take (k + 1)
    ∧ (cram_add_feature e (fs.getD k (cram_feature.mk0 0 0))).cr.nfeature = k + 1
    ∧ (cram_add_feature e (fs.getD k (cram_feature.mk0 0 0))).cr.feature = F0.length := by
  have hl : (fs.take k).length = k := by simp; omega
  have hne : fs.take k ≠ [] → e.cr.feature = F0.length := by
    intro hn
    apply h3
    intro h0
    subst h0
    simp at hn
  have hfp := add_feature_FP F0 (fs.take k) e (fs.getD k (cram_feature.mk0 0 0)) h1
    (by rw [h2, hl]) hne
  obtain ⟨f1, _, f3, f4⟩ := add_feature_fields e (fs.getD k (cram_feature.mk0 0 0))
  refine ⟨?_, ?_, ?_, ?_, ?_, ?_⟩
  · rw [fp_deltas_getD fs 0 k hk]
    exact hfp
  · intro v
    rw [add_feature_stats, (emitted_FC_FP _ _ v).1]
    rfl
  · intro v
    rw [add_feature_stats, (emitted_FC_FP _ _ v).2]
  · rw [f1, h1, List.append_assoc]
    congr 1
    rw [List.getD_eq_getElem _ _ hk, List.take_succ]
    simp [List.getElem?_eq_getElem hk]
  · rw [f3, h2]
  · rw [f4]
    by_cases h0 : k = 0
    · subst h0
      rw [if_pos h2, h1]
      simp
    · rw [if_neg (by rw [h2]; exact h0)]
      exact h3 h0

/-- Claim C33. For a mapped record that `process_one_read` accepts, with `fs`
the features of the record (the features the call appended to the pool): the FP
values that `cram_encode_slice_read` emits for the record are, in order, the
position of the first feature and then each position minus the previous one;
the running sums of this sequence are the positions; the FC values emitted are
the codes in order; the DS_FP and DS_FC statistics grow by exactly these
values; and the call of `cram_add_feature` for feature `k`, made when the pool
holds the first `k` features of the record, adds value `k` of the FP sequence
to DS_FP and the code of the feature to DS_FC. -/
theorem feature_FP_sequence (fd : cram_fd) (c c' : cram_container) (s s' : cram_slice)
    (b : bam_seq_t) (i : Nat) (h : process_one_read fd c s b i = some (c', s'))
    (hm : has_flag b.flag BAM_FUNMAP = false) :
    ∃ (fs : List cram_feature) (em : List emission),
      s'.features = s.features ++ fs
      ∧ record_features s' (s'.crecs i) = fs
      ∧ encode_features s' fs 0 = some em
      ∧ series_values DS_FP em = fp_deltas fs 0
      ∧ series_values DS_FC em = fs.map (fun f => (f.code : Int))
      ∧ running_sums (fp_deltas fs 0) 0 = fs.map (fun f => f.pos)
      ∧ (∀ v, c'.stats DS_FP v = c.stats DS_FP v + ((fp_deltas fs 0).count v : Int))
      ∧ (∀ v, c'.stats DS_FC v
          = c.stats DS_FC v + ((fs.map (fun f => (f.code : Int))).count v : Int))
      ∧ ∀ (k : Nat) (e : enc), k < fs.length →
          e.s.features = s.features ++ fs.take k → e.cr.nfeature = k →
          (k ≠ 0 → e.cr.feature = s.features.length) →
          FP_added e (fs.getD k (cram_feature.mk0 0 0)) = (fp_deltas fs 0).getD k 0
          ∧ (∀ v, (cram_add_feature e (fs.getD k (cram_feature.mk0 0 0))).c.stats DS_FP v
              = e.c.stats DS_FP v
                + (if v = FP_added e (fs.getD k (cram_feature.mk0 0 0)) then 1 else 0))
          ∧ (∀ v, (cram_add_feature e (fs.getD k (cram_feature.mk0 0 0))).c.stats DS_FC v
              = e.c.stats DS_FC v
                + (if v = ((fs.getD k (cram_feature.mk0 0 0)).code : Int) then 1 else 0))
          ∧ (cram_add_feature e (fs.getD k (cram_feature.mk0 0 0))).s.features
              = s.features ++ fs.take (k + 1)
          ∧ (cram_add_feature e (fs.getD k (cram_feature.mk0 0 0))).cr.nfeature = k + 1
          ∧ (cram_add_feature e (fs.getD k (cram_feature.mk0 0 0))).cr.feature
              = s.features.length := by
  obtain ⟨c1, s1, hpre, hg, _⟩ := process_one_read_split fd c c' s s' b i h
  obtain ⟨_, _, hflag, _, _⟩ := por_pre_spec fd c c1 s s1 b i hpre
  obtain ⟨e0, e2, ⟨_, _, _, _, _, hfe, hnf0, _, _⟩, _, hw, ⟨g1, g2, g3, g4, _, _⟩, _⟩ :=
    por_pre_mapped fd c c1 s s1 b i hpre hm
  have hL0 : e0.ledger e0.c.stats e0.s.features [] :=
    ⟨[], [], by simp, hnf0, fun hx => absurd rfl hx, rfl,
      fun ds v _ _ => by simp [emitted], fun g hg => by simp at hg⟩
  obtain ⟨new, em, n1, n2, n3, n4, _, _⟩ :=
    ledger_cigar_walk _ _ [] fd _ _ b.cigar e0 e2 hw hL0
  have hfeat : s'.features = s.features ++ new := by
    rw [hg.features, g1, n1, hfe]
  have hrec : record_features s' (s'.crecs i) = new :=
    record_features_of_pool e0.s.features new s' (s'.crecs i)
      (by rw [hg.features, g1]; exact n1) (by rw [(hg.recs i).nfeature, g3]; exact n2)
      (fun hn => by rw [(hg.recs i).feature, g4]; exact n3 hn)
  have henc : encode_features s' new 0 = some em := by
    rw [encode_features_congr e2.s s' (hg.seqs_blk.trans g2)]
    exact n4
  obtain ⟨v1, v2⟩ := encode_features_series s' new 0 em henc
  have hstat := (process_one_read_geom_stats fd c c' s s' b i h).1
  have hmf : has_flag (s'.crecs i).flags BAM_FUNMAP = false := by
    rw [(hg.recs i).flags, hflag]
    exact hm
  have hge : ∀ ds v, (ds = DS_FP ∨ ds = DS_FC) →
      emitted ds v (geom_emissions fd s' (s'.crecs i)) = emitted ds v em := by
    intro ds v hds
    unfold geom_emissions
    rw [if_pos hmf, hrec, henc]
    rcases hds with rfl | rfl <;> simp [emitted]
  refine ⟨new, em, hfeat, hrec, henc, v1, v2, running_sums_fp_deltas new 0, ?_, ?_, ?_⟩
  · intro v
    rw [hstat DS_FP v rfl, hge DS_FP v (Or.inl rfl), emitted_eq_count, v1]
  · intro v
    rw [hstat DS_FC v rfl, hge DS_FC v (Or.inr rfl), emitted_eq_count, v2]
  · intro k e hk h1 h2 h3
    exact add_feature_kth s.features new k e hk h1 h2 h3

/-- The statement of `feature_FP_sequence` for the read `bam_edits`
(`2M 1I 3M 2D 2M`) as record 0 of a fresh slice. -/
theorem feature_FP_sequence_witness :
    (has_flag bam_edits.flag BAM_FUNMAP = false) ∧
    (∃ (fs : List cram_feature) (em : List emission),
      state_edits.2.features = (slice_new 1).features ++ fs
      ∧ record_features state_edits.2 (state_edits.2.crecs 0) = fs
      ∧ encode_features state_edits.2 fs 0 = some em
      ∧ series_values DS_FP em = fp_deltas fs 0
      ∧ series_values DS_FC em = fs.map (fun f => (f.code : Int))
      ∧ running_sums (fp_deltas fs 0) 0 = fs.map (fun f => f.pos)
      ∧ (∀ v, state_edits.1.stats DS_FP v
          = (container_new ref32).stats DS_FP v + ((fp_deltas fs 0).count v : Int))
      ∧ (∀ v, state_edits.1.stats DS_FC v
          = (container_new ref32).stats DS_FC v + ((fs.map (fun f => (f.code : Int))).count v : Int))
      ∧ ∀ (k : Nat) (e : enc), k < fs.length →
          e.s.features = (slice_new 1).features ++ fs.take k → e.cr.nfeature = k →
          (k ≠ 0 → e.cr.feature = (slice_new 1).features.length) →
          FP_added e (fs.getD k (cram_feature.mk0 0 0)) = (fp_deltas fs 0).getD k 0
          ∧ (∀ v, (cram_add_feature e (fs.getD k (cram_feature.mk0 0 0))).c.stats DS_FP v
              = e.c.stats DS_FP v
                + (if v = FP_added e (fs.getD k (cram_feature.mk0 0 0)) then 1 else 0))
          ∧ (∀ v, (cram_add_feature e (fs.getD k (cram_feature.mk0 0 0))).c.stats DS_FC v
              = e.c.stats DS_FC v
                + (if v = ((fs.getD k (cram_feature.mk0 0 0)).code : Int) then 1 else 0))
          ∧ (cram_add_feature e (fs.getD k (cram_feature.mk0 0 0))).s.features
              = (slice_new 1).features ++ fs.take (k + 1)
          ∧ (cram_add_feature e (fs.getD k (cram_feature.mk0 0 0))).cr.nfeature = k + 1
          ∧ (cram_add_feature e (fs.getD k (cram_feature.mk0 0 0))).cr.feature
              = (slice_new 1).features.length) :=
  ⟨by decide,
    feature_FP_sequence fd_v3 (container_new ref32) state_edits.1 (slice_new 1) state_edits.2
      bam_edits 0 (option_getD_eq _ _ (by decide)) (by decide)⟩

/-- Evaluation on the read `bam_edits`: its features are `i` at 3, `X` at 6, `D`
at 7 and `X` at 7; the slice encoder emits the FP values 3, 3, 1, 0 and the FC
values `i`, `X`, `D`, `X`; the running sums of 3, 3, 1, 0 are 3, 6, 7, 7; and
the DS_FP statistics hold 3 twice, 1 once and 0 once. -/
theorem feature_FP_sequence_ex :
    (record_features state_edits.2 (state_edits.2.crecs 0)).map (fun f => (f.code, f.pos))
      = [('i'.toNat, 3), ('X'.toNat, 6), ('D'.toNat, 7), ('X'.toNat, 7)]
    ∧ (encode_features state_edits.2
          (record_features state_edits.2 (state_edits.2.crecs 0)) 0).map (series_values DS_FP)
        = some [3, 3, 1, 0]
    ∧ (encode_features state_edits.2
          (record_features state_edits.2 (state_edits.2.crecs 0)) 0).map (series_values DS_FC)
        = some [105, 88, 68, 88]
    ∧ running_sums [3, 3, 1, 0] 0 = [3, 6, 7, 7]
    ∧ [0, 1, 2, 3].map (fun v => state_edits.1.stats DS_FP v) = [1, 1, 0, 2] := by
  decide

/-! ## Mate histograms and the flags of a finished slice -/

/-- The detached arm keeps the flag invariant: the record becomes DETACHED, and
it was not MATE_DOWNSTREAM before. -/
theorem name_inv_detached (fd : cram_fd) (c : cram_container) (s : cram_slice) (b : bam_seq_t)
    (i n : Nat) (pair1 : Bool → HashTable Nat) (hinv : mate_inv s i n) (hi : i < n)
    (hn : name_inv fd s i) :
    name_inv fd (por_tail (mate_detached c { s with pair := pair1 } b i).1
      (mate_detached c { s with pair := pair1 } b i).2 b i).2 (i + 1) := by
  obtain ⟨_, d2, d3, _⟩ := detached_tail_spec c { s with pair := pair1 } b i
  obtain ⟨_, f2, _⟩ := hinv.fresh i (Nat.le_refl _) hi
  have hdet : has_flag ((por_tail (mate_detached c { s with pair := pair1 } b i).1
      (mate_detached c { s with pair := pair1 } b i).2 b i).2.crecs i).cram_flags
      CRAM_FLAG_DETACHED = true := by
    rw [d3, has_flag_or_other _ _ _ (by decide)]
    exact has_flag_or_self _ _ (by decide)
  refine ⟨?_, ?_⟩
  · intro k hk hd
    by_cases hki : k = i
    · subst hki
      rw [d3, has_flag_or_other _ _ _ (by decide), has_flag_or_other _ _ _ (by decide)]
      exact f2
    · rw [d2 k hki] at hd ⊢
      exact hn.down k (by omega) hd
  · intro hl k hk
    by_cases hki : k = i
    · subst hki
      exact Or.inl hdet
    · rw [d2 k hki]
      exact hn.named hl k (by omega)

/-- The link arm keeps the flag invariant: both records end up not DETACHED, and
in lossy read-name mode the link is only made when both carry DISCARD_NAME. -/
theorem name_inv_link (fd : cram_fd) (c : cram_container) (s : cram_slice) (b : bam_seq_t)
    (i n : Nat) (sec : Bool) (key : List Nat) (j : Nat) (hinv : mate_inv s i n)
    (hf : HashTableSearch (s.pair sec) key = some j)
    (hl : mate_linkable fd b (s.crecs i) (s.crecs j) = true) (hn : name_inv fd s i) :
    name_inv fd (por_tail (mate_link c s sec key i j).1 (mate_link c s sec key i j).2 b i).2
      (i + 1) := by
  obtain ⟨hji, _⟩ := hinv.table sec key j hf
  have hne : j ≠ i := by omega
  obtain ⟨l1, _, l3, l4⟩ := mate_link_spec c s sec key i j hne
  obtain ⟨_, t2, t3, _⟩ := por_tail_spec (mate_link c s sec key i j).1
    (mate_link c s sec key i j).2 b i
  have hdisc := (mate_linkable_cases fd b (s.crecs i) (s.crecs j) hl).2.2.2.2.2.2.2
  have hfi : ((por_tail (mate_link c s sec key i j).1 (mate_link c s sec key i j).2 b i).2.crecs
      i).cram_flags = clear_flag (s.crecs i).cram_flags CRAM_FLAG_DETACHED := by
    rw [t3, l3]
  have hfj : ((por_tail (mate_link c s sec key i j).1 (mate_link c s sec key i j).2 b i).2.crecs
      j).cram_flags = clear_flag (if has_flag (s.crecs j).cram_flags CRAM_FLAG_STATS_ADDED
          then clear_flag (s.crecs j).cram_flags CRAM_FLAG_STATS_ADDED
          else (s.crecs j).cram_flags) CRAM_FLAG_DETACHED ||| CRAM_FLAG_MATE_DOWNSTREAM := by
    rw [t2 j hne, l1]
  have hoth : ∀ k, k ≠ i → k ≠ j →
      (por_tail (mate_link c s sec key i j).1 (mate_link c s sec key i j).2 b i).2.crecs k
        = s.crecs k := by
    intro k h1 h2
    rw [t2 k h1, l4 k h1 h2]
  have hdi : has_flag ((por_tail (mate_link c s sec key i j).1
      (mate_link c s sec key i j).2 b i).2.crecs i).cram_flags CRAM_FLAG_DETACHED = false := by
    rw [hfi]
    exact has_flag_clear_self _ _ (by decide)
  have hdj : has_flag ((por_tail (mate_link c s sec key i j).1
      (mate_link c s sec key i j).2 b i).2.crecs j).cram_flags CRAM_FLAG_DETACHED = false := by
    rw [hfj, has_flag_or_other _ _ _ (by decide)]
    exact has_flag_clear_self _ _ (by decide)
  refine ⟨?_, ?_⟩
  · intro k hk hd
    by_cases hki : k = i
    · subst hki
      rw [hdi] at hd
      cases hd
    · by_cases hkj : k = j
      · subst hkj
        rw [hdj] at hd
        cases hd
      · rw [hoth k hki hkj] at hd ⊢
        exact hn.down k (by omega) hd
  · intro hlossy k hk
    obtain ⟨di, dj⟩ := hdisc hlossy
    by_cases hki : k = i
    · subst hki
      right
      rw [hfi, has_flag_clear_other _ _ _ (by decide)]
      exact di
    · by_cases hkj : k = j
      · subst hkj
        right
        rw [hfj, has_flag_or_other _ _ _ (by decide), has_flag_clear_other _ _ _ (by decide)]
        split
        · rw [has_flag_clear_other _ _ _ (by decide)]
          exact dj
        · exact dj
      · rw [hoth k hki hkj]
        exact hn.named hlossy k (by omega)

/-- The mate block and the closing statements of `process_one_read` keep the
flag invariant. -/
theorem name_inv_mate_tail (fd : cram_fd) (c : cram_container) (s : cram_slice)
    (b : bam_seq_t) (i n : Nat) (hinv : mate_inv s i n) (hi : i < n) (hn : name_inv fd s i) :
    name_inv fd (por_tail (por_mate fd c s b i).1 (por_mate fd c s b i).2 b i).2 (i + 1) := by
  by_cases hp : has_flag (s.crecs i).flags BAM_FPAIRED = true
  · cases hsr : HashTableSearch (s.pair (has_flag (s.crecs i).flags BAM_FSECONDARY)) b.name with
    | some j =>
      rw [por_mate_found fd c s b i j hp hsr]
      by_cases hl : mate_linkable fd b (s.crecs i) (s.crecs j) = true
      · rw [if_pos hl]
        exact name_inv_link fd c s b i n _ b.name j hinv hsr hl hn
      · rw [if_neg hl]
        exact name_inv_detached fd c s b i n s.pair hinv hi hn
    | none =>
      obtain ⟨pair1, hpair1⟩ : ∃ p : Bool → HashTable Nat,
          p = Function.update s.pair (has_flag (s.crecs i).flags BAM_FSECONDARY)
            (s.pair (has_flag (s.crecs i).flags BAM_FSECONDARY) ++ [(b.name, i)]) := ⟨_, rfl⟩
      have hpm : por_mate fd c s b i = mate_detached c { s with pair := pair1 } b i := by
        rw [hpair1]
        unfold por_mate
        rw [if_pos hp]
        dsimp only
        rw [HashTableAdd_new _ _ _ hsr]
        rfl
      rw [hpm]
      exact name_inv_detached fd c s b i n pair1 hinv hi hn
  · have hpm : por_mate fd c s b i = mate_detached c s b i := by
      unfold por_mate
      rw [if_neg hp]
    rw [hpm]
    exact name_inv_detached fd c s b i n s.pair hinv hi hn

/-- One call of `process_one_read` keeps the flag invariant. -/
theorem process_one_read_name_inv (fd : cram_fd) (c c' : cram_container)
    (s s' : cram_slice) (b : bam_seq_t) (i n : Nat)
    (h : process_one_read fd c s b i = some (c', s')) (hinv : mate_inv s i n) (hi : i < n)
    (hn : name_inv fd s i) : name_inv fd s' (i + 1) := by
  unfold process_one_read at h
  split at h
  · simp at h
  rename_i c1 s1 hpre
  simp only [Option.some.injEq] at h
  obtain ⟨p1, p2, _, _, p5⟩ := por_pre_spec fd c c1 s s1 b i hpre
  obtain ⟨f1, f2, f3⟩ := hinv.fresh i (Nat.le_refl _) hi
  have hinv1 : mate_inv s1 i n := by
    refine ⟨?_, ?_, ?_, ?_⟩
    · intro k hk
      rw [p2 k (by omega)]
      exact hinv.added k hk
    · intro sec key j hj
      rw [p1] at hj
      obtain ⟨a, b'⟩ := hinv.table sec key j hj
      exact ⟨a, by rw [p2 j (by omega)]; exact b'⟩
    · intro sec sec' key key' j h1 h2
      rw [p1] at h1 h2
      exact hinv.inj sec sec' key key' j h1 h2
    · intro k hk hn
      by_cases hki : k = i
      · subst hki
        rw [p5, pre_cram_flags_bit _ _ _ _ (by decide) (by decide),
          pre_cram_flags_bit _ _ _ _ (by decide) (by decide),
          pre_cram_flags_bit _ _ _ _ (by decide) (by decide)]
        exact ⟨f1, f2, f3⟩
      · rw [p2 k hki]
        exact hinv.fresh k hk hn
  have hn1 : name_inv fd s1 i := by
    refine ⟨?_, ?_⟩
    · intro k hk hd
      rw [p2 k (by omega)] at hd ⊢
      exact hn.down k hk hd
    · intro hl k hk
      rw [p2 k (by omega)]
      exact hn.named hl k hk
  have r := name_inv_mate_tail fd c1 s1 b i n hinv1 hi hn1
  rw [h] at r
  exact r

/-- The record loop of a slice keeps the flag invariant. -/
theorem process_reads_name_inv (fd : cram_fd) (n : Nat) :
    ∀ (bs : List bam_seq_t) (r2 : Nat) (c c' : cram_container) (s s' : cram_slice),
      process_reads fd bs r2 c s = some (c', s') → mate_inv s r2 n → r2 + bs.length ≤ n →
      name_inv fd s r2 → name_inv fd s' (r2 + bs.length) := by
  intro bs
  induction bs with
  | nil =>
    intro r2 c c' s s' h _ _ hn
    simp only [process_reads, Option.some.injEq, Prod.mk.injEq] at h
    obtain ⟨rfl, rfl⟩ := h
    exact hn
  | cons b bs ih =>
    intro r2 c c' s s' h hinv hle hn
    simp only [process_reads] at h
    split at h
    · simp at h
    rename_i c1 hsw
    split at h
    · simp at h
    rename_i r hpor
    simp only [List.length_cons] at hle
    obtain ⟨hinv1, _⟩ := process_one_read_mate_stats fd c1 r.1 s r.2 b r2 n hpor hinv (by omega)
    have hn1 := process_one_read_name_inv fd c1 r.1 s r.2 b r2 n hpor hinv (by omega) hn
    have h2 := ih (r2 + 1) r.1 c' r.2 s' h hinv1 (by omega) hn1
    rw [List.length_cons, show r2 + (bs.length + 1) = r2 + 1 + bs.length by omega]
    exact h2

/-- The mate invariant at the start of the record loop of a slice with empty
pair tables. -/
theorem mate_inv_start (fd : cram_fd) (s : cram_slice) (bams : List bam_seq_t)
    (hpair : ∀ sec key, HashTableSearch (s.pair sec) key = none) :
    mate_inv (lossy_read_names fd s bams) 0 bams.length := by
  obtain ⟨lp1, lflags⟩ := lossy_read_names_spec fd s bams
  refine ⟨fun k hk => by omega, ?_, ?_, ?_⟩
  · intro sec key j hj
    rw [lp1, hpair] at hj
    cases hj
  · intro sec sec' key key' j hj
    rw [lp1, hpair] at hj
    cases hj
  · intro k _ hk
    rcases lflags k hk with hx | hx <;> rw [hx] <;> exact ⟨by decide, by decide, by decide⟩

/-- After the record loop of a slice that started with empty pair tables, the
flag invariant holds for all its records. -/
theorem encode_slice_records_flags (fd : cram_fd) (c c' : cram_container)
    (s s' : cram_slice) (bams : List bam_seq_t)
    (h : encode_slice_records fd c s bams = some (c', s'))
    (hpair : ∀ sec key, HashTableSearch (s.pair sec) key = none) :
    ∃ r : cram_container × cram_slice,
      process_reads fd bams 0 c (lossy_read_names fd s bams) = some r
      ∧ c' = (add_read_names fd bams 0 r.1 r.2).1
      ∧ s'.crecs = (add_read_names fd bams 0 r.1 r.2).2.crecs
      ∧ s'.name_blk = (add_read_names fd bams 0 r.1 r.2).2.name_blk
      ∧ (∀ k, (s'.crecs k).cram_flags = (r.2.crecs k).cram_flags)
      ∧ name_inv fd r.2 bams.length := by
  unfold encode_slice_records at h
  split at h
  · simp at h
  rename_i r hpr
  simp only [Option.some.injEq, Prod.mk.injEq] at h
  obtain ⟨hc', hs'⟩ := h
  obtain ⟨_, _, n3, _⟩ := add_read_names_spec fd bams 0 r.1 r.2
  have hinv := mate_inv_start fd s bams hpair
  have hn0 : name_inv fd (lossy_read_names fd s bams) 0 :=
    ⟨fun k hk => by omega, fun _ k hk => by omega⟩
  have hn := process_reads_name_inv fd bams.length bams 0 c r.1 (lossy_read_names fd s bams)
    r.2 hpr hinv (by omega) hn0
  refine ⟨r, hpr, hc'.symm, ?_, ?_, ?_, ?_⟩
  · rw [← hs']
  · rw [← hs']
  · intro k
    rw [← hs']
    obtain ⟨a, b, e⟩ := n3 k
    show ((add_read_names fd bams 0 r.1 r.2).2.crecs k).cram_flags = _
    rw [e]
  · simpa using hn

/-- A sum of indicator values over the records is the number of occurrences of
the value among the selected records. -/
theorem sum_flagged (P : Nat → Bool) (f : Nat → Int) (v : Int) (g : Nat → Int) :
    ∀ n : Nat, (∀ k, k < n → g k = if P k = true then (if f k = v then 1 else 0) else 0) →
      Finset.sum (Finset.range n) g = ((((List.range n).filter P).map f).count v : Int) := by
  intro n
  induction n with
  | zero => intro _; simp
  | succ n ih =>
    intro hg
    rw [Finset.sum_range_succ, ih (fun k hk => hg k (by omega)), hg n (by omega),
      List.range_succ, List.filter_append, List.map_append, List.count_append]
    by_cases hp : P n = true
    · by_cases hv : f n = v
      · simp [hp, hv]
      · have hc : List.count v [f n] = 0 :=
          List.count_eq_zero.mpr (by simpa using fun h => hv h.symm)
        simp [hp, hv, hc]
    · simp [hp]

/-- What `cram_encode_slice_read` emits for the mate of one record, counted per
series: the mate fields of a DETACHED record, `mate_line` of a record that is
MATE_DOWNSTREAM and not DETACHED. -/
theorem mate_emissions_count (cr : cram_record) (v : Int) :
    emitted DS_MF v (mate_emissions cr)
      = (if has_flag cr.cram_flags CRAM_FLAG_DETACHED = true then
          (if (cr.mate_flags : Int) = v then 1 else 0) else 0)
    ∧ emitted DS_NS v (mate_emissions cr)
      = (if has_flag cr.cram_flags CRAM_FLAG_DETACHED = true then
          (if cr.mate_ref_id = v then 1 else 0) else 0)
    ∧ emitted DS_NP v (mate_emissions cr)
      = (if has_flag cr.cram_flags CRAM_FLAG_DETACHED = true then
          (if cr.mate_pos = v then 1 else 0) else 0)
    ∧ emitted DS_TS v (mate_emissions cr)
      = (if has_flag cr.cram_flags CRAM_FLAG_DETACHED = true then
          (if cr.tlen = v then 1 else 0) else 0)
    ∧ emitted DS_NF v (mate_emissions cr)
      = (if has_flag cr.cram_flags CRAM_FLAG_DETACHED = true then 0
          else if has_flag cr.cram_flags CRAM_FLAG_MATE_DOWNSTREAM = true then
            (if cr.mate_line = v then 1 else 0) else 0) := by
  unfold mate_emissions
  by_cases hd : has_flag cr.cram_flags CRAM_FLAG_DETACHED = true
  · simp only [hd, if_true, emitted, List.count_cons, List.count_nil]
    refine ⟨?_, ?_, ?_, ?_, ?_⟩ <;> simp
  · by_cases hm : has_flag cr.cram_flags CRAM_FLAG_MATE_DOWNSTREAM = true
    · simp only [hd, hm, if_true, emitted, List.count_cons, List.count_nil]
      refine ⟨?_, ?_, ?_, ?_, ?_⟩ <;> simp
    · simp [hd, hm, emitted]

/-- Claim C34. For one slice that starts with empty pair tables, after
`lossy_read_names`, `process_one_read` on every record and `add_read_names`: the
DS_MF, DS_NS, DS_NP and DS_TS histograms have grown by the multisets of
`mate_flags`, `mate_ref_id`, `mate_pos` and `tlen` over exactly the records whose
final `cram_flags` has DETACHED, and the DS_NF histogram by the multiset of
`mate_line` over exactly the records whose final `cram_flags` has
MATE_DOWNSTREAM; no record has both bits. What was added for a record that was
demoted later has been taken back. -/
theorem slice_mate_histograms (fd : cram_fd) (c c' : cram_container) (s s' : cram_slice)
    (bams : List bam_seq_t) (h : encode_slice_records fd c s bams = some (c', s'))
    (hpair : ∀ sec key, HashTableSearch (s.pair sec) key = none) (v : Int) :
    c'.stats DS_MF v = c.stats DS_MF v
        + ((flagged_values s' bams.length CRAM_FLAG_DETACHED
            (fun cr => (cr.mate_flags : Int))).count v : Int)
    ∧ c'.stats DS_NS v = c.stats DS_NS v
        + ((flagged_values s' bams.length CRAM_FLAG_DETACHED
            (fun cr => cr.mate_ref_id)).count v : Int)
    ∧ c'.stats DS_NP v = c.stats DS_NP v
        + ((flagged_values s' bams.length CRAM_FLAG_DETACHED
            (fun cr => cr.mate_pos)).count v : Int)
    ∧ c'.stats DS_TS v = c.stats DS_TS v
        + ((flagged_values s' bams.length CRAM_FLAG_DETACHED (fun cr => cr.tlen)).count v : Int)
    ∧ c'.stats DS_NF v = c.stats DS_NF v
        + ((flagged_values s' bams.length CRAM_FLAG_MATE_DOWNSTREAM
            (fun cr => cr.mate_line)).count v : Int)
    ∧ ∀ k, k < bams.length →
        has_flag (s'.crecs k).cram_flags CRAM_FLAG_DETACHED = true →
        has_flag (s'.crecs k).cram_flags CRAM_FLAG_MATE_DOWNSTREAM = false := by
  obtain ⟨r, hpr, hc', hcr, _, hfl, hn⟩ := encode_slice_records_flags fd c c' s s' bams h hpair
  obtain ⟨n1, n2, n3, n4⟩ := add_read_names_spec fd bams 0 r.1 r.2
  have hinv := mate_inv_start fd s bams hpair
  have hdown : ∀ k, k < bams.length →
      has_flag (s'.crecs k).cram_flags CRAM_FLAG_DETACHED = true →
      has_flag (s'.crecs k).cram_flags CRAM_FLAG_MATE_DOWNSTREAM = false := by
    intro k hk hd
    rw [hfl k] at hd ⊢
    exact hn.down k hk hd
  have hrec : ∀ k, mate_emissions (s'.crecs k) = mate_emissions (r.2.crecs k) := by
    intro k
    rw [hcr]
    exact (emissions_of_renamed fd r.2 _ (r.2.crecs k) _ n1 n2 (n3 k)).2
  have hstat : ∀ ds, mate_series ds = true →
      c'.stats ds v = c.stats ds v
        + Finset.sum (Finset.range bams.length)
            (fun k => emitted ds v (mate_emissions (s'.crecs k))) := by
    intro ds hds
    have hRN : ds ≠ DS_RN := by
      rintro rfl
      simp [mate_series] at hds
    have m1 := process_reads_mate fd bams.length bams 0 c r.1 (lossy_read_names fd s bams) r.2
      hpr hinv (by omega) ds v hds
    simp only [Finset.range_zero, Finset.sum_empty, Nat.zero_add, add_zero] at m1
    rw [hc', n4 ds v hRN, m1]
    congr 1
    exact Finset.sum_congr rfl (fun k _ => by rw [hrec k])
  refine ⟨?_, ?_, ?_, ?_, ?_, hdown⟩
  · rw [hstat DS_MF rfl]
    congr 1
    exact sum_flagged _ _ v _ bams.length (fun k _ => (mate_emissions_count (s'.crecs k) v).1)
  · rw [hstat DS_NS rfl]
    congr 1
    exact sum_flagged _ _ v _ bams.length
      (fun k _ => (mate_emissions_count (s'.crecs k) v).2.1)
  · rw [hstat DS_NP rfl]
    congr 1
    exact sum_flagged _ _ v _ bams.length
      (fun k _ => (mate_emissions_count (s'.crecs k) v).2.2.1)
  · rw [hstat DS_TS rfl]
    congr 1
    exact sum_flagged _ _ v _ bams.length
      (fun k _ => (mate_emissions_count (s'.crecs k) v).2.2.2.1)
  · rw [hstat DS_NF rfl]
    congr 1
    refine sum_flagged _ _ v _ bams.length (fun k hk => ?_)
    rw [(mate_emissions_count (s'.crecs k) v).2.2.2.2]
    by_cases hd : has_flag (s'.crecs k).cram_flags CRAM_FLAG_DETACHED = true
    · rw [if_pos hd, hdown k hk hd]
      rfl
    · rw [if_neg hd]

/-- The statement of `slice_mate_histograms` for the slice `bams_three` and the
value 20, the mate position that was counted for the first read of the pair
before it was demoted. -/
theorem slice_mate_histograms_witness :
    (∀ sec key, HashTableSearch ((slice_new 1).pair sec) key = none) ∧
    ((state_slice_three fd_v3).1.stats DS_MF 20 = (container_new ref32).stats DS_MF 20
        + ((flagged_values (state_slice_three fd_v3).2 bams_three.length CRAM_FLAG_DETACHED
            (fun cr => (cr.mate_flags : Int))).count 20 : Int)
    ∧ (state_slice_three fd_v3).1.stats DS_NS 20 = (container_new ref32).stats DS_NS 20
        + ((flagged_values (state_slice_three fd_v3).2 bams_three.length CRAM_FLAG_DETACHED
            (fun cr => cr.mate_ref_id)).count 20 : Int)
    ∧ (state_slice_three fd_v3).1.stats DS_NP 20 = (container_new ref32).stats DS_NP 20
        + ((flagged_values (state_slice_three fd_v3).2 bams_three.length CRAM_FLAG_DETACHED
            (fun cr => cr.mate_pos)).count 20 : Int)
    ∧ (state_slice_three fd_v3).1.stats DS_TS 20 = (container_new ref32).stats DS_TS 20
        + ((flagged_values (state_slice_three fd_v3).2 bams_three.length CRAM_FLAG_DETACHED
            (fun cr => cr.tlen)).count 20 : Int)
    ∧ (state_slice_three fd_v3).1.stats DS_NF 20 = (container_new ref32).stats DS_NF 20
        + ((flagged_values (state_slice_three fd_v3).2 bams_three.length CRAM_FLAG_MATE_DOWNSTREAM
            (fun cr => cr.mate_line)).count 20 : Int)
    ∧ ∀ k, k < bams_three.length →
        has_flag ((state_slice_three fd_v3).2.crecs k).cram_flags CRAM_FLAG_DETACHED = true →
        has_flag ((state_slice_three fd_v3).2.crecs k).cram_flags CRAM_FLAG_MATE_DOWNSTREAM
          = false) :=
  ⟨fun _ _ => rfl,
    slice_mate_histograms fd_v3 (container_new ref32) (state_slice_three fd_v3).1 (slice_new 1)
      (state_slice_three fd_v3).2 bams_three (option_getD_eq _ _ (by decide)) (fun _ _ => rfl) 20⟩

/-- Evaluation on the slice `bams_three`: the first read of the pair ends as
MATE_DOWNSTREAM with `mate_line` 1, the unpaired read as DETACHED with mate
position 1, the second read of the pair with neither bit. The DS_NP histogram
holds the value 1 once and the value 20, added for the first read and taken back
at its demotion, not at all; DS_NF holds the value 1 once. -/
theorem slice_mate_histograms_ex :
    (List.range 3).map (fun k =>
        (has_flag ((state_slice_three fd_v3).2.crecs k).cram_flags CRAM_FLAG_DETACHED,
         has_flag ((state_slice_three fd_v3).2.crecs k).cram_flags CRAM_FLAG_MATE_DOWNSTREAM))
      = [(false, true), (true, false), (false, false)]
    ∧ flagged_values (state_slice_three fd_v3).2 3 CRAM_FLAG_DETACHED (fun cr => cr.mate_pos) = [1]
    ∧ flagged_values (state_slice_three fd_v3).2 3 CRAM_FLAG_MATE_DOWNSTREAM
        (fun cr => cr.mate_line) = [1]
    ∧ [1, 20].map (fun v => (state_slice_three fd_v3).1.stats DS_NP v) = [1, 0]
    ∧ [0, 1].map (fun v => (state_slice_three fd_v3).1.stats DS_NF v) = [0, 1] := by
  decide

/-! ## Names kept in lossy read-name mode -/

/-- Claim C35. In lossy read-name mode, for one slice that starts with empty
pair tables, after `lossy_read_names`, `process_one_read` on every record and
`add_read_names`: a record whose name was not written (`name_len = 0` with a
non-empty BAM name) is not DETACHED and carries DISCARD_NAME; and a record
without DISCARD_NAME keeps its name: `name_len` is the length of the BAM name
and the name block holds the name at the offset of the record. -/
theorem lossy_names_kept (fd : cram_fd) (c c' : cram_container) (s s' : cram_slice)
    (bams : List bam_seq_t) (h : encode_slice_records fd c s bams = some (c', s'))
    (hpair : ∀ sec key, HashTableSearch (s.pair sec) key = none)
    (hl : fd.lossy_read_names = true) (k : Nat) (hk : k < bams.length) :
    ((s'.crecs k).name_len = 0 → (bams.get ⟨k, hk⟩).name ≠ [] →
        has_flag (s'.crecs k).cram_flags CRAM_FLAG_DETACHED = false
        ∧ has_flag (s'.crecs k).cram_flags CRAM_FLAG_DISCARD_NAME = true)
    ∧ (has_flag (s'.crecs k).cram_flags CRAM_FLAG_DISCARD_NAME = false →
        has_flag (s'.crecs k).cram_flags CRAM_FLAG_DETACHED = true
        ∧ (s'.crecs k).name_len = (bams.get ⟨k, hk⟩).name.length
        ∧ (s'.name_blk.drop (s'.crecs k).name).take (s'.crecs k).name_len
            = (bams.get ⟨k, hk⟩).name) := by
  obtain ⟨r, _, _, hcr, hnb, hfl, hn⟩ := encode_slice_records_flags fd c c' s s' bams h hpair
  have hkeep : has_flag (r.2.crecs k).cram_flags CRAM_FLAG_DETACHED = true →
      (s'.crecs k).name_len = (bams.get ⟨k, hk⟩).name.length
      ∧ (s'.name_blk.drop (s'.crecs k).name).take (s'.crecs k).name_len
          = (bams.get ⟨k, hk⟩).name := by
    intro hd
    rw [hcr, hnb]
    have hfrom := add_read_names_detached_from fd bams 0 r.1 r.2 k hk (by simpa using hd)
    simpa using hfrom
  refine ⟨?_, ?_⟩
  · intro h0 hne
    have hnd : has_flag (r.2.crecs k).cram_flags CRAM_FLAG_DETACHED = false := by
      cases hd : has_flag (r.2.crecs k).cram_flags CRAM_FLAG_DETACHED with
      | false => rfl
      | true =>
        have := (hkeep hd).1
        rw [h0] at this
        exact absurd (List.length_eq_zero.mp this.symm) hne
    rw [hfl k]
    refine ⟨hnd, ?_⟩
    rcases hn.named hl k hk with hd | hd
    · rw [hnd] at hd
      cases hd
    · exact hd
  · intro hnd
    rw [hfl k] at hnd ⊢
    rcases hn.named hl k hk with hd | hd
    · exact ⟨hd, hkeep hd⟩
    · rw [hnd] at hd
      cases hd

/-- The statement of `lossy_names_kept` for record 1 of the slice `bams_three`,
the unpaired read `r`, in lossy read-name mode. -/
theorem lossy_names_kept_witness :
    ((∀ sec key, HashTableSearch ((slice_new 1).pair sec) key = none)
      ∧ fd_v3_lossy.lossy_read_names = true)
    ∧ (((state_slice_three fd_v3_lossy).2.crecs 1).name_len = 0 →
        (bams_three.get ⟨1, by decide⟩).name ≠ [] →
        has_flag ((state_slice_three fd_v3_lossy).2.crecs 1).cram_flags CRAM_FLAG_DETACHED
          = false
        ∧ has_flag ((state_slice_three fd_v3_lossy).2.crecs 1).cram_flags
            CRAM_FLAG_DISCARD_NAME = true)
    ∧ (has_flag ((state_slice_three fd_v3_lossy).2.crecs 1).cram_flags CRAM_FLAG_DISCARD_NAME
          = false →
        has_flag ((state_slice_three fd_v3_lossy).2.crecs 1).cram_flags CRAM_FLAG_DETACHED
          = true
        ∧ ((state_slice_three fd_v3_lossy).2.crecs 1).name_len
            = (bams_three.get ⟨1, by decide⟩).name.length
        ∧ ((state_slice_three fd_v3_lossy).2.name_blk.drop
              ((state_slice_three fd_v3_lossy).2.crecs 1).name).take
            ((state_slice_three fd_v3_lossy).2.crecs 1).name_len
            = (bams_three.get ⟨1, by decide⟩).name) :=
  ⟨⟨fun _ _ => rfl, rfl⟩,
    lossy_names_kept fd_v3_lossy (container_new ref32) (state_slice_three fd_v3_lossy).1
      (slice_new 1) (state_slice_three fd_v3_lossy).2 bams_three
      (option_getD_eq _ _ (by decide)) (fun _ _ => rfl) rfl 1 (by decide)⟩

/-- Evaluation on the slice `bams_three` in lossy read-name mode: the two reads
of the pair `x` carry DISCARD_NAME, are not DETACHED and have `name_len = 0`; the
unpaired read `r` has no DISCARD_NAME, is DETACHED and keeps its name, which is
all the name block holds. -/
theorem lossy_names_kept_ex :
    (List.range 3).map (fun k =>
        (has_flag ((state_slice_three fd_v3_lossy).2.crecs k).cram_flags CRAM_FLAG_DISCARD_NAME,
         has_flag ((state_slice_three fd_v3_lossy).2.crecs k).cram_flags CRAM_FLAG_DETACHED,
         ((state_slice_three fd_v3_lossy).2.crecs k).name_len))
      = [(true, false, 0), (false, true, 1), (true, false, 0)]
    ∧ (state_slice_three fd_v3_lossy).2.name_blk = ascii "r" := by
  decide

/-! ## A linked pair across the record loop -/

/-- The records of a fresh slice carry none of the three mate bits. -/
theorem slice_new_fresh (l : Int) (k : Nat) :
    has_flag ((slice_new l).crecs k).cram_flags CRAM_FLAG_DETACHED = false
    ∧ has_flag ((slice_new l).crecs k).cram_flags CRAM_FLAG_MATE_DOWNSTREAM = false
    ∧ has_flag ((slice_new l).crecs k).cram_flags CRAM_FLAG_STATS_ADDED = false := by
  have e : ((slice_new l).crecs k).cram_flags = 0 := rfl
  rw [e]
  exact ⟨by decide, by decide, by decide⟩

/-- The tests of the mate block read the position, the end, the flags, the
reference id and the DISCARD_NAME bit of the record, and nothing else of it. -/
theorem mate_linkable_congr (fd : cram_fd) (b : bam_seq_t) (cr cr' p : cram_record)
    (h1 : cr'.apos = cr.apos) (h2 : cr'.aend = cr.aend) (h3 : cr'.flags = cr.flags)
    (h4 : cr'.ref_id = cr.ref_id)
    (h5 : has_flag cr'.cram_flags CRAM_FLAG_DISCARD_NAME
      = has_flag cr.cram_flags CRAM_FLAG_DISCARD_NAME) :
    mate_linkable fd b cr' p = mate_linkable fd b cr p := by
  unfold mate_linkable mate_sign mate_span
  rw [h1, h2, h3, h4, h5]

/-- The detached arm and the closing statements leave the fields of the record
that the tests of the mate block read. -/
theorem detached_tail_fields (c : cram_container) (s : cram_slice) (b : bam_seq_t) (i : Nat) :
    ((por_tail (mate_detached c s b i).1 (mate_detached c s b i).2 b i).2.crecs i).apos
      = (s.crecs i).apos
    ∧ ((por_tail (mate_detached c s b i).1 (mate_detached c s b i).2 b i).2.crecs i).aend
      = (s.crecs i).aend
    ∧ ((por_tail (mate_detached c s b i).1 (mate_detached c s b i).2 b i).2.crecs i).flags
      = (s.crecs i).flags
    ∧ ((por_tail (mate_detached c s b i).1 (mate_detached c s b i).2 b i).2.crecs i).ref_id
      = (s.crecs i).ref_id
    ∧ has_flag ((por_tail (mate_detached c s b i).1 (mate_detached c s b i).2 b i).2.crecs
        i).cram_flags CRAM_FLAG_DISCARD_NAME
      = has_flag (s.crecs i).cram_flags CRAM_FLAG_DISCARD_NAME := by
  refine ⟨?_, ?_, ?_, ?_, ?_⟩
  · simp [por_tail, mate_detached, cram_slice.upd]
  · simp [por_tail, mate_detached, cram_slice.upd]
  · simp [por_tail, mate_detached, cram_slice.upd]
  · simp [por_tail, mate_detached, cram_slice.upd]
  · obtain ⟨_, _, d3, _⟩ := detached_tail_spec c s b i
    rw [d3, has_flag_or_other _ _ _ (by decide), has_flag_or_other _ _ _ (by decide)]

/-- The mate block leaves the entry of a name in a pair table alone unless the
record is paired and has that name and that table. -/
theorem por_mate_pair_other (fd : cram_fd) (c : cram_container) (s : cram_slice)
    (b : bam_seq_t) (i : Nat) (sec1 : Bool) (name1 : List Nat)
    (hoth : has_flag (s.crecs i).flags BAM_FPAIRED = true →
      has_flag (s.crecs i).flags BAM_FSECONDARY = sec1 → b.name ≠ name1) :
    HashTableSearch ((por_mate fd c s b i).2.pair sec1) name1
      = HashTableSearch (s.pair sec1) name1 := by
  by_cases hp : has_flag (s.crecs i).flags BAM_FPAIRED = true
  · cases hsr : HashTableSearch (s.pair (has_flag (s.crecs i).flags BAM_FSECONDARY)) b.name with
    | some j =>
      rw [por_mate_found fd c s b i j hp hsr]
      split
      · rw [mate_link_pair]
        by_cases hs : sec1 = has_flag (s.crecs i).flags BAM_FSECONDARY
        · subst hs
          rw [Function.update_same]
          exact HashTableSearch_set_other _ _ _ _ (fun hx => hoth hp rfl hx.symm)
        · rw [Function.update_noteq hs]
      · rw [(mate_detached_spec c s b i).1]
    | none =>
      unfold por_mate
      rw [if_pos hp]
      dsimp only
      rw [HashTableAdd_new _ _ _ hsr]
      simp only [if_true]
      rw [(mate_detached_spec c _ b i).1]
      show HashTableSearch (Function.update s.pair _ _ sec1) name1 = _
      by_cases hs : sec1 = has_flag (s.crecs i).flags BAM_FSECONDARY
      · subst hs
        rw [Function.update_same]
        exact HashTableSearch_append_other _ _ _ _ (fun hx => hoth hp rfl hx.symm)
      · rw [Function.update_noteq hs]
  · unfold por_mate
    rw [if_neg hp]
    rw [(mate_detached_spec c s b i).1]

/-- The mate block changes no record other than the one it works on and the one
the pair table holds under the name of the record. -/
theorem por_mate_crecs_other (fd : cram_fd) (c : cram_container) (s : cram_slice)
    (b : bam_seq_t) (i j : Nat) (hji : j ≠ i)
    (hnot : has_flag (s.crecs i).flags BAM_FPAIRED = true →
      HashTableSearch (s.pair (has_flag (s.crecs i).flags BAM_FSECONDARY)) b.name ≠ some j) :
    (por_mate fd c s b i).2.crecs j = s.crecs j := by
  by_cases hp : has_flag (s.crecs i).flags BAM_FPAIRED = true
  · cases hsr : HashTableSearch (s.pair (has_flag (s.crecs i).flags BAM_FSECONDARY)) b.name with
    | some j' =>
      have hjj : j ≠ j' := by
        intro hx
        subst hx
        exact hnot hp hsr
      rw [por_mate_found fd c s b i j' hp hsr]
      split
      · by_cases hj'i : j' = i
        · subst hj'i
          simp [mate_link, cram_slice.upd, Function.update_noteq hji]
          split <;> simp [Function.update_noteq hji]
        · exact (mate_link_spec c s _ b.name i j' hj'i).2.2.2 j hji hjj
      · exact (mate_detached_spec c s b i).2.1 j hji
    | none =>
      unfold por_mate
      rw [if_pos hp]
      dsimp only
      rw [HashTableAdd_new _ _ _ hsr]
      simp only [if_true]
      exact (mate_detached_spec c _ b i).2.1 j hji
  · unfold por_mate
    rw [if_neg hp]
    exact (mate_detached_spec c s b i).2.1 j hji

/-- One call of `process_one_read` on a record that is not a paired record of
the name `name1` in the table `sec1` leaves the entry of that name as it was. -/
theorem process_one_read_entry_other (fd : cram_fd) (c c' : cram_container)
    (s s' : cram_slice) (b : bam_seq_t) (k : Nat) (sec1 : Bool) (name1 : List Nat)
    (h : process_one_read fd c s b k = some (c', s'))
    (hoth : has_flag b.flag BAM_FPAIRED = true →
      has_flag b.flag BAM_FSECONDARY = sec1 → b.name ≠ name1) :
    HashTableSearch (s'.pair sec1) name1 = HashTableSearch (s.pair sec1) name1 := by
  unfold process_one_read at h
  split at h
  · simp at h
  rename_i c1 s1 hpre
  simp only [Option.some.injEq] at h
  obtain ⟨p1, _, p3, _, _⟩ := por_pre_spec fd c c1 s s1 b k hpre
  have hs' : s'.pair = (por_mate fd c1 s1 b k).2.pair := by
    have e : s' = (por_tail (por_mate fd c1 s1 b k).1 (por_mate fd c1 s1 b k).2 b k).2 := by
      rw [h]
    rw [e]
    exact (por_tail_spec _ _ b k).1
  rw [hs', por_mate_pair_other fd c1 s1 b k sec1 name1 (by rw [p3]; exact hoth), p1]

/-- One call of `process_one_read` on a record that is not a paired record of
the name `name1` in the table `sec1` leaves alone the record that this name is
entered with. -/
theorem process_one_read_record_other (fd : cram_fd) (c c' : cram_container)
    (s s' : cram_slice) (b : bam_seq_t) (k n : Nat) (sec1 : Bool) (name1 : List Nat) (j : Nat)
    (h : process_one_read fd c s b k = some (c', s')) (hinv : mate_inv s k n)
    (hent : HashTableSearch (s.pair sec1) name1 = some j)
    (hoth : has_flag b.flag BAM_FPAIRED = true →
      has_flag b.flag BAM_FSECONDARY = sec1 → b.name ≠ name1) :
    s'.crecs j = s.crecs j := by
  have hjk : j < k := (hinv.table sec1 name1 j hent).1
  have hne : j ≠ k := by omega
  unfold process_one_read at h
  split at h
  · simp at h
  rename_i c1 s1 hpre
  simp only [Option.some.injEq] at h
  obtain ⟨p1, p2, p3, _, _⟩ := por_pre_spec fd c c1 s s1 b k hpre
  have hs' : s'.crecs j = (por_mate fd c1 s1 b k).2.crecs j := by
    have e : s' = (por_tail (por_mate fd c1 s1 b k).1 (por_mate fd c1 s1 b k).2 b k).2 := by
      rw [h]
    rw [e]
    exact (por_tail_spec _ _ b k).2.1 j hne
  rw [hs', por_mate_crecs_other fd c1 s1 b k j hne, p2 j hne]
  rw [p1, p3]
  intro hp hx
  obtain ⟨e1, e2⟩ := hinv.inj _ _ _ _ j hx hent
  exact hoth hp e1 e2

/-- A paired record whose name is new to its pair table is entered in that
table with its own index. -/
theorem process_one_read_new_name_entry (fd : cram_fd) (c c1 : cram_container)
    (s s1 : cram_slice) (b : bam_seq_t) (j : Nat)
    (hp : has_flag b.flag BAM_FPAIRED = true)
    (hnew : HashTableSearch (s.pair (has_flag b.flag BAM_FSECONDARY)) b.name = none)
    (h : process_one_read fd c s b j = some (c1, s1)) :
    HashTableSearch (s1.pair (has_flag b.flag BAM_FSECONDARY)) b.name = some j := by
  unfold process_one_read at h
  split at h
  · simp at h
  rename_i c0 s0 hpre
  simp only [Option.some.injEq] at h
  obtain ⟨p1, _, p3, _, _⟩ := por_pre_spec fd c c0 s s0 b j hpre
  have e : s1 = (por_tail (por_mate fd c0 s0 b j).1 (por_mate fd c0 s0 b j).2 b j).2 := by
    rw [h]
  rw [e, (por_tail_spec _ _ b j).1]
  unfold por_mate
  rw [if_pos (by rw [p3]; exact hp)]
  dsimp only
  rw [p3, p1, HashTableAdd_new _ _ _ hnew]
  simp only [if_true]
  rw [(mate_detached_spec c0 _ b j).1]
  show HashTableSearch (Function.update s.pair _ _ _) b.name = _
  rw [Function.update_same]
  exact HashTableSearch_append_new _ _ _ hnew

/-- The record loop over two lists in a row is the loop over the first list
followed by the loop over the second. -/
theorem process_reads_append (fd : cram_fd) :
    ∀ (xs ys : List bam_seq_t) (r : Nat) (c c3 : cram_container) (s s3 : cram_slice),
      process_reads fd (xs ++ ys) r c s = some (c3, s3) →
      ∃ c1 s1, process_reads fd xs r c s = some (c1, s1)
        ∧ process_reads fd ys (r + xs.length) c1 s1 = some (c3, s3) := by
  intro xs
  induction xs with
  | nil =>
    intro ys r c c3 s s3 h
    exact ⟨c, s, rfl, by simpa using h⟩
  | cons x xs ih =>
    intro ys r c c3 s s3 h
    simp only [List.cons_append, process_reads] at h
    split at h
    · simp at h
    rename_i cx hsw
    split at h
    · simp at h
    rename_i rx hpor
    obtain ⟨c1, s1, h1, h2⟩ := ih ys (r + 1) rx.1 c3 rx.2 s3 h
    refine ⟨c1, s1, ?_, ?_⟩
    · simp only [process_reads, hsw, hpor]
      exact h1
    · rw [List.length_cons, show r + (xs.length + 1) = r + 1 + xs.length by omega]
      exact h2

/-- The record loop keeps the mate invariant. -/
theorem process_reads_mate_inv (fd : cram_fd) (n : Nat) :
    ∀ (bs : List bam_seq_t) (r2 : Nat) (c c' : cram_container) (s s' : cram_slice),
      process_reads fd bs r2 c s = some (c', s') → mate_inv s r2 n → r2 + bs.length ≤ n →
      mate_inv s' (r2 + bs.length) n := by
  intro bs
  induction bs with
  | nil =>
    intro r2 c c' s s' h hinv _
    simp only [process_reads, Option.some.injEq, Prod.mk.injEq] at h
    obtain ⟨rfl, rfl⟩ := h
    exact hinv
  | cons b bs ih =>
    intro r2 c c' s s' h hinv hle
    simp only [process_reads] at h
    split at h
    · simp at h
    rename_i c1 hsw
    split at h
    · simp at h
    rename_i r hpor
    simp only [List.length_cons] at hle
    obtain ⟨hinv1, _⟩ := process_one_read_mate_stats fd c1 r.1 s r.2 b r2 n hpor hinv (by omega)
    have h2 := ih (r2 + 1) r.1 c' r.2 s' h hinv1 (by omega)
    rw [List.length_cons, show r2 + (bs.length + 1) = r2 + 1 + bs.length by omega]
    exact h2

/-- The record loop over records none of which is a paired record of the name
`name1` in the table `sec1` leaves the entry of that name as it was. -/
theorem process_reads_entry_other (fd : cram_fd) (sec1 : Bool) (name1 : List Nat) :
    ∀ (bs : List bam_seq_t) (r2 : Nat) (c c' : cram_container) (s s' : cram_slice),
      process_reads fd bs r2 c s = some (c', s') →
      (∀ b ∈ bs, has_flag b.flag BAM_FPAIRED = true →
        has_flag b.flag BAM_FSECONDARY = sec1 → b.name ≠ name1) →
      HashTableSearch (s'.pair sec1) name1 = HashTableSearch (s.pair sec1) name1 := by
  intro bs
  induction bs with
  | nil =>
    intro r2 c c' s s' h _
    simp only [process_reads, Option.some.injEq, Prod.mk.injEq] at h
    obtain ⟨rfl, rfl⟩ := h
    rfl
  | cons b bs ih =>
    intro r2 c c' s s' h hoth
    simp only [process_reads] at h
    split at h
    · simp at h
    rename_i c1 hsw
    split at h
    · simp at h
    rename_i r hpor
    rw [ih (r2 + 1) r.1 c' r.2 s' h (fun b' hb' => hoth b' (List.mem_cons_of_mem b hb'))]
    exact process_one_read_entry_other fd c1 r.1 s r.2 b r2 sec1 name1 hpor
      (hoth b (List.mem_cons_self b bs))

/-- The record loop over records none of which is a paired record of the name
`name1` in the table `sec1` leaves alone the record that this name is entered
with. -/
theorem process_reads_record_other (fd : cram_fd) (n : Nat) (sec1 : Bool) (name1 : List Nat)
    (j : Nat) :
    ∀ (bs : List bam_seq_t) (r2 : Nat) (c c' : cram_container) (s s' : cram_slice),
      process_reads fd bs r2 c s = some (c', s') → mate_inv s r2 n → r2 + bs.length ≤ n →
      (∀ b ∈ bs, has_flag b.flag BAM_FPAIRED = true →
        has_flag b.flag BAM_FSECONDARY = sec1 → b.name ≠ name1) →
      HashTableSearch (s.pair sec1) name1 = some j →
      s'.crecs j = s.crecs j := by
  intro bs
  induction bs with
  | nil =>
    intro r2 c c' s s' h _ _ _ _
    simp only [process_reads, Option.some.injEq, Prod.mk.injEq] at h
    obtain ⟨rfl, rfl⟩ := h
    rfl
  | cons b bs ih =>
    intro r2 c c' s s' h hinv hle hoth hent
    simp only [process_reads] at h
    split at h
    · simp at h
    rename_i c1 hsw
    split at h
    · simp at h
    rename_i r hpor
    simp only [List.length_cons] at hle
    have hb := hoth b (List.mem_cons_self b bs)
    obtain ⟨hinv1, _⟩ := process_one_read_mate_stats fd c1 r.1 s r.2 b r2 n hpor hinv (by omega)
    have hent1 : HashTableSearch (r.2.pair sec1) name1 = some j := by
      rw [process_one_read_entry_other fd c1 r.1 s r.2 b r2 sec1 name1 hpor hb]
      exact hent
    rw [ih (r2 + 1) r.1 c' r.2 s' h hinv1 (by omega)
      (fun b' hb' => hoth b' (List.mem_cons_of_mem b hb')) hent1]
    exact process_one_read_record_other fd c1 r.1 s r.2 b r2 n sec1 name1 j hpor hinv hent hb

/-- The record loop over a single record is one call of `process_one_read`
after the switch of the reference. -/
theorem process_reads_single (fd : cram_fd) (b : bam_seq_t) (r : Nat) (c c' : cram_container)
    (s s' : cram_slice) (h : process_reads fd [b] r c s = some (c', s')) :
    ∃ cx, switch_ref fd c b = some cx ∧ process_one_read fd cx s b r = some (c', s') := by
  simp only [process_reads] at h
  split at h
  · simp at h
  rename_i cx hsw
  split at h
  · simp at h
  rename_i rx hpor
  simp only [Option.some.injEq] at h
  refine ⟨cx, hsw, ?_⟩
  rw [hpor, ← h]

/-- C2 (amended): in the record loop of a slice that starts with empty pair
tables and no mate bits, let `b1` and `b2` be two paired records of the same
name and the same secondary status, such that no other paired record of that
name and status comes before `b2` (`pre` are the records before `b1`, `mid` the
records between the two, so that `b1` is record `pre.length` and `b2` record
`pre.length + 1 + mid.length`), and such that the two
records as processed are mutually consistent, that is, none of the tests of the
mate block on TLEN, positions and flags fires for them (`mate_linkable`). Then
the first record is DETACHED after its own processing, and after the second is
processed neither of the two is DETACHED; the first, earlier record has
MATE_DOWNSTREAM, the second has not, and the `mate_line` of the first is the
index delta minus one, the number of records between the two. -/
theorem process_reads_pair_linked (fd : cram_fd) (c c1 c3 : cram_container)
    (s s1 s3 : cram_slice) (pre mid : List bam_seq_t) (b1 b2 : bam_seq_t)
    (hpair : ∀ sec key, HashTableSearch (s.pair sec) key = none)
    (hfresh : ∀ k, k ≤ pre.length + 1 + mid.length →
      (has_flag (s.crecs k).cram_flags CRAM_FLAG_DETACHED = false
      ∧ has_flag (s.crecs k).cram_flags CRAM_FLAG_MATE_DOWNSTREAM = false
      ∧ has_flag (s.crecs k).cram_flags CRAM_FLAG_STATS_ADDED = false))
    (hp1 : has_flag b1.flag BAM_FPAIRED = true) (hp2 : has_flag b2.flag BAM_FPAIRED = true)
    (hname : b2.name = b1.name)
    (hsec : has_flag b2.flag BAM_FSECONDARY = has_flag b1.flag BAM_FSECONDARY)
    (hothers : ∀ b ∈ pre ++ mid, has_flag b.flag BAM_FPAIRED = true →
      has_flag b.flag BAM_FSECONDARY = has_flag b1.flag BAM_FSECONDARY → b.name ≠ b1.name)
    (h1 : process_reads fd (pre ++ [b1]) 0 c s = some (c1, s1))
    (h3 : process_reads fd (pre ++ b1 :: (mid ++ [b2])) 0 c s = some (c3, s3))
    (hcons : mate_linkable fd b2 (s3.crecs (pre.length + 1 + mid.length))
      (s1.crecs pre.length) = true) :
    has_flag (s1.crecs pre.length).cram_flags CRAM_FLAG_DETACHED = true
    ∧ has_flag (s3.crecs pre.length).cram_flags CRAM_FLAG_DETACHED = false
    ∧ has_flag (s3.crecs (pre.length + 1 + mid.length)).cram_flags CRAM_FLAG_DETACHED = false
    ∧ has_flag (s3.crecs pre.length).cram_flags CRAM_FLAG_MATE_DOWNSTREAM = true
    ∧ has_flag (s3.crecs (pre.length + 1 + mid.length)).cram_flags CRAM_FLAG_MATE_DOWNSTREAM
        = false
    ∧ (s3.crecs pre.length).mate_line
        = ((pre.length + 1 + mid.length : Nat) : Int) - ((pre.length : Nat) : Int) - 1 := by
  obtain ⟨n, hn⟩ : ∃ n, n = pre.length + 1 + mid.length + 1 := ⟨_, rfl⟩
  have hinv0 : mate_inv s 0 n := by
    refine ⟨fun k hk => by omega, ?_, ?_, fun k _ hk => hfresh k (by omega)⟩
    · intro sec key j hj
      rw [hpair] at hj
      cases hj
    · intro sec sec' key key' j hj
      rw [hpair] at hj
      cases hj
  have hoth_pre : ∀ b ∈ pre, has_flag b.flag BAM_FPAIRED = true →
      has_flag b.flag BAM_FSECONDARY = has_flag b1.flag BAM_FSECONDARY → b.name ≠ b1.name :=
    fun b hb => hothers b (List.mem_append_left _ hb)
  have hoth_mid : ∀ b ∈ mid, has_flag b.flag BAM_FPAIRED = true →
      has_flag b.flag BAM_FSECONDARY = has_flag b1.flag BAM_FSECONDARY → b.name ≠ b1.name :=
    fun b hb => hothers b (List.mem_append_right _ hb)
  -- the run on the first record
  obtain ⟨c0, s0, hpre, hb1⟩ := process_reads_append fd pre [b1] 0 c c1 s s1 h1
  rw [Nat.zero_add] at hb1
  obtain ⟨cx1, hsw1, hpor1⟩ := process_reads_single fd b1 pre.length c0 c1 s0 s1 hb1
  -- the run on both records
  obtain ⟨c0', s0', hpre', hrest⟩ :=
    process_reads_append fd pre (b1 :: (mid ++ [b2])) 0 c c3 s s3 h3
  rw [hpre] at hpre'
  simp only [Option.some.injEq, Prod.mk.injEq] at hpre'
  obtain ⟨rfl, rfl⟩ := hpre'
  rw [Nat.zero_add] at hrest
  simp only [process_reads, hsw1, hpor1] at hrest
  obtain ⟨c2, s2, hmid, hb2⟩ := process_reads_append fd mid [b2] (pre.length + 1) c1 c3 s1 s3 hrest
  obtain ⟨cx2, _, hpor2⟩ :=
    process_reads_single fd b2 (pre.length + 1 + mid.length) c2 c3 s2 s3 hb2
  -- the invariant and the table entry along the run
  have hinvj : mate_inv s0 pre.length n := by
    have := process_reads_mate_inv fd n pre 0 c c0 s s0 hpre hinv0 (by omega)
    rwa [Nat.zero_add] at this
  have habs0 : HashTableSearch (s0.pair (has_flag b1.flag BAM_FSECONDARY)) b1.name = none := by
    rw [process_reads_entry_other fd _ _ pre 0 c c0 s s0 hpre hoth_pre]
    exact hpair _ _
  have hdet1 := process_one_read_new_name_detached fd cx1 c1 s0 s1 b1 pre.length habs0 hpor1
  have hent1 := process_one_read_new_name_entry fd cx1 c1 s0 s1 b1 pre.length hp1 habs0 hpor1
  have hinv1 : mate_inv s1 (pre.length + 1) n :=
    (process_one_read_mate_stats fd cx1 c1 s0 s1 b1 pre.length n hpor1 hinvj (by omega)).1
  have hent2 : HashTableSearch (s2.pair (has_flag b1.flag BAM_FSECONDARY)) b1.name
      = some pre.length := by
    rw [process_reads_entry_other fd _ _ mid (pre.length + 1) c1 c2 s1 s2 hmid hoth_mid]
    exact hent1
  have hrec2 : s2.crecs pre.length = s1.crecs pre.length :=
    process_reads_record_other fd n _ _ pre.length mid (pre.length + 1) c1 c2 s1 s2 hmid hinv1
      (by omega) hoth_mid hent1
  have hinv2 : mate_inv s2 (pre.length + 1 + mid.length) n :=
    process_reads_mate_inv fd n mid (pre.length + 1) c1 c2 s1 s2 hmid hinv1 (by omega)
  -- the call on the second record
  obtain ⟨i, hi⟩ : ∃ i, i = pre.length + 1 + mid.length := ⟨_, rfl⟩
  rw [← hi] at hpor2 hcons hinv2 ⊢
  have hne : pre.length ≠ i := by omega
  unfold process_one_read at hpor2
  split at hpor2
  · simp at hpor2
  rename_i cp sp hprep
  simp only [Option.some.injEq] at hpor2
  obtain ⟨p1, p2, p3, _, p5⟩ := por_pre_spec fd cx2 cp s2 sp b2 i hprep
  have hpp : has_flag (sp.crecs i).flags BAM_FPAIRED = true := by rw [p3]; exact hp2
  have hf : HashTableSearch (sp.pair (has_flag (sp.crecs i).flags BAM_FSECONDARY)) b2.name
      = some pre.length := by
    rw [p3, p1, hsec, hname]
    exact hent2
  have hpj : sp.crecs pre.length = s1.crecs pre.length := by
    rw [p2 _ hne, hrec2]
  have hs3 : s3 = (por_tail (por_mate fd cp sp b2 i).1 (por_mate fd cp sp b2 i).2 b2 i).2 := by
    rw [hpor2]
  rw [por_mate_found fd cp sp b2 i pre.length hpp hf] at hs3
  by_cases hl : mate_linkable fd b2 (sp.crecs i) (sp.crecs pre.length) = true
  · rw [if_pos hl] at hs3
    obtain ⟨m1, m2, m3, _⟩ := mate_link_spec cp sp
      (has_flag (sp.crecs i).flags BAM_FSECONDARY) b2.name i pre.length hne
    obtain ⟨_, t2, t3, _⟩ := por_tail_spec
      (mate_link cp sp (has_flag (sp.crecs i).flags BAM_FSECONDARY) b2.name i pre.length).1
      (mate_link cp sp (has_flag (sp.crecs i).flags BAM_FSECONDARY) b2.name i pre.length).2 b2 i
    rw [← hs3] at t2 t3
    refine ⟨hdet1, ?_, ?_, ?_, ?_, ?_⟩
    · rw [t2 _ hne, m1, has_flag_or_other _ _ _ (by decide)]
      exact has_flag_clear_self _ _ (by decide)
    · rw [t3, m3]
      exact has_flag_clear_self _ _ (by decide)
    · rw [t2 _ hne, m1]
      exact has_flag_or_self _ _ (by decide)
    · rw [t3, m3, has_flag_clear_other _ _ _ (by decide), p5,
        pre_cram_flags_bit _ _ _ _ (by decide) (by decide)]
      exact (hinv2.fresh i (Nat.le_refl _) (by omega)).2.1
    · rw [t2 _ hne, m2]
      omega
  · exfalso
    rw [if_neg hl] at hs3
    obtain ⟨f1, f2, f3, f4, f5⟩ := detached_tail_fields cp sp b2 i
    rw [← hs3] at f1 f2 f3 f4 f5
    rw [mate_linkable_congr fd b2 (sp.crecs i) (s3.crecs i) _ f1 f2 f3 f4 f5, ← hpj] at hcons
    exact hl hcons

/-- The statement of `process_reads_pair_linked` for the pair `x` with the
unpaired read `r` between its two records, as records 0, 1 and 2 of a fresh
slice: the first record is DETACHED after its own processing, and after the
third record neither record 0 nor record 2 is, record 0 has MATE_DOWNSTREAM and
its `mate_line` is 1. -/
theorem process_reads_pair_linked_witness :
    has_flag ((state_reads [bam_pair1]).2.crecs 0).cram_flags CRAM_FLAG_DETACHED = true
    ∧ has_flag ((state_reads [bam_pair1, bam_single, bam_pair2]).2.crecs 0).cram_flags
        CRAM_FLAG_DETACHED = false
    ∧ has_flag ((state_reads [bam_pair1, bam_single, bam_pair2]).2.crecs 2).cram_flags
        CRAM_FLAG_DETACHED = false
    ∧ has_flag ((state_reads [bam_pair1, bam_single, bam_pair2]).2.crecs 0).cram_flags
        CRAM_FLAG_MATE_DOWNSTREAM = true
    ∧ has_flag ((state_reads [bam_pair1, bam_single, bam_pair2]).2.crecs 2).cram_flags
        CRAM_FLAG_MATE_DOWNSTREAM = false
    ∧ ((state_reads [bam_pair1, bam_single, bam_pair2]).2.crecs 0).mate_line
        = ((2 : Nat) : Int) - ((0 : Nat) : Int) - 1 :=
  process_reads_pair_linked fd_v3 (container_new ref32) (state_reads [bam_pair1]).1
    (state_reads [bam_pair1, bam_single, bam_pair2]).1 (slice_new 10)
    (state_reads [bam_pair1]).2 (state_reads [bam_pair1, bam_single, bam_pair2]).2
    [] [bam_single] bam_pair1 bam_pair2 (fun _ _ => rfl)
    (fun k _ => slice_new_fresh 10 k)
    (by decide) (by decide) (by decide) (by decide) (by decide)
    (option_getD_eq _ _ (by decide)) (option_getD_eq _ _ (by decide)) (by decide)

end CramEncode
